import Mathlib

/-!
# ARGweaver local trees: tree surgery

A shallow embedding of the local-tree data model of `src/argweaver/local_tree.h`
and of the tree-surgery routines of `src/argweaver/local_tree.cpp` and
`src/argweaver/thread.cpp`.

Conventions of the embedding.

* C++ `int` values are `Int`; the sentinel `-1` is kept as it is.
* The node array `LocalNode *nodes` of a tree is a `List LocalNode` whose
  length is the `capacity` of the tree.  Reading or writing `nodes[i]` outside
  the array is undefined behaviour in C++; here it makes the routine return
  `none`, as does a failing `assert`.
* `int child[2]` is the pair of fields `child0`, `child1`; `child[k]` for a
  computed `k` is `LocalNode.child n k`.
* A `NULL` population tree is `none`.  The class `PopulationTree` is not part
  of the sources at hand, so the methods the surgery routines call are taken
  as parameters.
-/

set_option linter.unusedVariables false

namespace argweaver

/-! ## Data model -/

/-- A Subtree Pruning and Regrafting operation (`class Spr`). -/
structure Spr where
  recomb_node : Int
  recomb_time : Int
  coal_node : Int
  coal_time : Int
  pop_path : Int
deriving DecidableEq, Repr

/-- The test `Spr::is_null`. -/
def Spr.is_null (spr : Spr) : Bool := spr.recomb_node == -1

/-- A node in a local tree (`class LocalNode`). -/
structure LocalNode where
  parent : Int
  child0 : Int
  child1 : Int
  age : Int
  pop_path : Int
deriving DecidableEq, Repr, Inhabited

/-- The entry `child[k]` of a node, for `k` equal to 0 or 1. -/
def LocalNode.child (n : LocalNode) (k : Int) : Int :=
  if k = 0 then n.child0 else n.child1

/-- The assignment `child[k] = v`, for `k` equal to 0 or 1. -/
def LocalNode.setChild (n : LocalNode) (k : Int) (v : Int) : LocalNode :=
  if k = 0 then { n with child0 := v } else { n with child1 := v }

/-- The test `LocalNode::is_leaf`. -/
def LocalNode.is_leaf (n : LocalNode) : Bool := n.child0 == -1

/-- A local tree (`class LocalTree`): `nodes` is the allocated array, its
length is the capacity; only the first `nnodes` slots are in use. -/
structure LocalTree where
  nnodes : Int
  root : Int
  nodes : List LocalNode
deriving DecidableEq, Repr

/-- The field `capacity` of a tree: the size of the allocated node array. -/
def LocalTree.capacity (tree : LocalTree) : Int := tree.nodes.length

/-- The method `LocalTree::get_num_leaves`: `(nnodes + 1) / 2` in C++ integer
arithmetic. -/
def LocalTree.get_num_leaves (tree : LocalTree) : Int := Int.tdiv (tree.nnodes + 1) 2

/-- The methods of `PopulationTree` that tree surgery calls, as parameters,
with the field `npop` and the value of `final_pop()` that the lineage counts
read. -/
structure PopulationTree where
  paths_equal : Int → Int → Int → Int → Bool
  consistent_path : Int → Int → Int → Int → Int → Int
  path_to_root : List LocalNode → Int → Int
  get_pop : Int → Int → Int
  npop : Int
  final_pop : Int

/-! ## Array access -/

/-- The index `i` lies inside the array `xs`. -/
def inArr {α : Type} (xs : List α) (i : Int) : Prop := 0 ≤ i ∧ i < xs.length

instance {α : Type} (xs : List α) (i : Int) : Decidable (inArr xs i) := by
  unfold inArr; infer_instance

/-- Total read of `xs[i]`, with a default value outside the array.  Used to
state properties; the routines themselves read through `getAt`. -/
def readAt {α : Type} [Inhabited α] (xs : List α) (i : Int) : α :=
  if 0 ≤ i then xs.getD i.toNat default else default

/-- Total write of `xs[i] = x`: no effect outside the array. -/
def updAt {α : Type} (xs : List α) (i : Int) (x : α) : List α :=
  if 0 ≤ i then xs.set i.toNat x else xs

/-- Read `xs[i]`; `none` outside the array. -/
def getAt {α : Type} [Inhabited α] (xs : List α) (i : Int) : Option α :=
  if inArr xs i then some (readAt xs i) else none

/-- Write `xs[i] = x`; `none` outside the array. -/
def setAt {α : Type} (xs : List α) (i : Int) (x : α) : Option (List α) :=
  if inArr xs i then some (updAt xs i x) else none

/-- Read `nodes[i]`; `none` outside the array. -/
def getNode (nodes : List LocalNode) (i : Int) : Option LocalNode := getAt nodes i

/-- Total read of `nodes[i]`. -/
def nodeAt (nodes : List LocalNode) (i : Int) : LocalNode := readAt nodes i

/-- Update fields of `nodes[i]` in place; `none` outside the array. -/
def modNode (nodes : List LocalNode) (i : Int) (f : LocalNode → LocalNode) :
    Option (List LocalNode) :=
  if inArr nodes i then some (updAt nodes i (f (nodeAt nodes i))) else none

/-- Node `i` of a tree (total read). -/
def LocalTree.node (tree : LocalTree) (i : Int) : LocalNode := nodeAt tree.nodes i

/-- An `assert`: the run aborts when the condition is false. -/
def assertion (b : Bool) : Option Unit := if b then some () else none

/-- Sequencing of checks that may return `false` early: `b` runs only when `a`
came back `true`. -/
def andThen (a b : Option Bool) : Option Bool :=
  match a with
  | some true => b
  | r => r

/-- The C++ operator `||` on operands that may abort: `b` is evaluated only
when `a` is false. -/
def orElse (a b : Option Bool) : Option Bool :=
  match a with
  | some false => b
  | r => r

/-- A loop `for (int i = 0; i < n; i++)` whose body updates a state and may
abort; the list holds the values `i` takes. -/
def forLoop {σ : Type} (body : Int → σ → Option σ) : List Nat → σ → Option σ
  | [], s => some s
  | i :: rest, s => (body i s).bind (forLoop body rest)

/-! ## Tree surgery: `apply_spr` -/

/-- The statement `if (c[0] == old) c[0] = new_; else c[1] = new_;` on
`c = nodes[parent].child`, which redirects a child pointer of `parent`. -/
def replace_child (nodes : List LocalNode) (parent old new_ : Int) :
    Option (List LocalNode) :=
  (getNode nodes parent).bind fun pn =>
    if pn.child0 = old then modNode nodes parent fun n => { n with child0 := new_ }
    else modNode nodes parent fun n => { n with child1 := new_ }

/-- Lines 389-404 of `apply_spr`: the self SPR `recomb_node == coal_node`, which
only recomposes the population path of that node. -/
def apply_spr_self (tree : LocalTree) (spr : Spr) (pop_tree : Option PopulationTree) :
    Option LocalTree :=
  match pop_tree with
  | none => none -- `assert(pop_tree != NULL)`
  | some pt =>
    (getNode tree.nodes spr.recomb_node).bind fun rn =>
    let path1 := rn.pop_path
    let path2 := spr.pop_path
    -- `assert(!pop_tree->paths_equal(path1, path2, recomb_time, coal_time))`
    if pt.paths_equal path1 path2 spr.recomb_time spr.coal_time then none
    else
      let path3 := pt.consistent_path path1 path2 rn.age spr.recomb_time spr.coal_time
      (modNode tree.nodes spr.recomb_node fun n =>
        { n with pop_path := pt.consistent_path path3 path1 rn.age spr.coal_time (-1) }).map
        fun nodes => { tree with nodes := nodes }

/-- Lines 414-415 of `apply_spr`: with a population tree, the sibling of the
recomb node gets a freshly computed path to the root. -/
def spr_sib_path (nodes : List LocalNode) (pop_tree : Option PopulationTree)
    (recomb_sib : Int) : Option (List LocalNode) :=
  match pop_tree with
  | some pt => modNode nodes recomb_sib fun n =>
      { n with pop_path := pt.path_to_root nodes recomb_sib }
  | none => some nodes

/-- The value of `x` in `apply_spr`: the slot of `recoal` among the children
of `broke_parent`, 0 when there is no such parent. -/
def spr_slot (nodes : List LocalNode) (recoal broke_parent : Int) : Option Int :=
  if broke_parent ≠ -1 then
    (getNode nodes broke_parent).map fun bpn => if bpn.child0 = recoal then 0 else 1
  else some 0

/-- Lines 417-426 of `apply_spr` (540-548 of `apply_spr_new`): "fix recomb sib
pointer" and "fix parent of broken node".  Returns the nodes and `x`. -/
def spr_prune (nodes : List LocalNode) (recoal recomb_sib broke_parent : Int) :
    Option (List LocalNode × Int) :=
  (modNode nodes recomb_sib fun n => { n with parent := broke_parent }).bind fun nodes =>
  (spr_slot nodes recoal broke_parent).bind fun x =>
  (if broke_parent ≠ -1 then
      modNode nodes broke_parent fun n => n.setChild x recomb_sib
    else some nodes).map fun nodes => (nodes, x)

/-- Lines 430-437 of `apply_spr`: "we just broke coal_node, so use
recomb_sib". -/
def spr_recoal_broken (nodes : List LocalNode) (pop_tree : Option PopulationTree)
    (recoal other recomb_sib broke_parent x : Int) : Option (List LocalNode) :=
  (modNode nodes recoal fun n => n.setChild other recomb_sib).bind fun nodes =>
  (getNode nodes recomb_sib).bind fun sibn =>
  (modNode nodes recoal fun n => { n with parent := sibn.parent }).bind fun nodes =>
  (modNode nodes recomb_sib fun n => { n with parent := recoal }).bind fun nodes =>
  (if broke_parent ≠ -1 then
      modNode nodes broke_parent fun n => n.setChild x recoal
    else some nodes).bind fun nodes =>
  match pop_tree with
  | some _ =>
      (getNode nodes recomb_sib).bind fun sibn =>
      modNode nodes recoal fun n => { n with pop_path := sibn.pop_path }
  | none => some nodes

/-- Lines 439-452 of `apply_spr`: the broken node is attached on the branch
above `coal_node`. -/
def spr_recoal_branch (nodes : List LocalNode) (recoal other coal_node : Int) :
    Option (List LocalNode) :=
  (modNode nodes recoal fun n => n.setChild other coal_node).bind fun nodes =>
  (getNode nodes coal_node).bind fun cn =>
  (modNode nodes recoal fun n => { n with parent := cn.parent }).bind fun nodes =>
  (getNode nodes coal_node).bind fun cn =>
  (modNode nodes recoal fun n => { n with pop_path := cn.pop_path }).bind fun nodes =>
  (modNode nodes coal_node fun n => { n with parent := recoal }).bind fun nodes =>
  -- fix coal_node parent
  (getNode nodes recoal).bind fun rcn =>
  let parent := rcn.parent
  if parent ≠ -1 then replace_child nodes parent coal_node recoal else some nodes

/-- Lines 454-463 of `apply_spr`: with a population tree, the path of the
recomb node is recomposed. -/
def spr_recomb_path (nodes : List LocalNode) (pop_tree : Option PopulationTree)
    (spr : Spr) : Option (List LocalNode) :=
  match pop_tree with
  | some pt =>
      (getNode nodes spr.recomb_node).bind fun rn =>
      let path1 := pt.consistent_path rn.pop_path spr.pop_path rn.age
        spr.recomb_time spr.coal_time
      (getNode nodes spr.coal_node).bind fun cn =>
      modNode nodes spr.recomb_node fun n =>
        { n with pop_path := pt.consistent_path path1 cn.pop_path rn.age spr.coal_time (-1) }
  | none => some nodes

/-- Lines 466-477 of `apply_spr` (577-587 of `apply_spr_new`): "set new
root". -/
def spr_new_root (tree_root recoal recomb_sib coal_node : Int) : Int :=
  if coal_node = tree_root then recoal
  else if recoal = tree_root then
    (if coal_node = recomb_sib then recoal else recomb_sib)
  else tree_root

/-- The function `apply_spr` of `local_tree.cpp`: modify a local tree by
Subtree Pruning and Regrafting.  A failing assertion or an access outside the
node array gives `none`. -/
def apply_spr (tree : LocalTree) (spr : Spr) (pop_tree : Option PopulationTree) :
    Option LocalTree :=
  let nodes := tree.nodes
  -- trivial case: `assert(0)`
  if spr.recomb_node = tree.root then none
  else if spr.recomb_node = spr.coal_node then apply_spr_self tree spr pop_tree
  else
    -- recoal is also the node we are breaking
    (getNode nodes spr.recomb_node).bind fun rn =>
    let recoal := rn.parent
    -- find recomb node sibling and broke node parent
    (getNode nodes recoal).bind fun c =>
    let other : Int := if c.child0 = spr.recomb_node then 1 else 0
    let recomb_sib := c.child other
    let broke_parent := c.parent
    (spr_sib_path nodes pop_tree recomb_sib).bind fun nodes =>
    (spr_prune nodes recoal recomb_sib broke_parent).bind fun (nodes, x) =>
    -- reuse node as recoal
    (if spr.coal_node = recoal then
        spr_recoal_broken nodes pop_tree recoal other recomb_sib broke_parent x
      else spr_recoal_branch nodes recoal other spr.coal_node).bind fun nodes =>
    (spr_recomb_path nodes pop_tree spr).bind fun nodes =>
    (modNode nodes recoal fun n => { n with age := spr.coal_time }).bind fun nodes =>
    some { tree with nodes := nodes,
                     root := spr_new_root tree.root recoal recomb_sib spr.coal_node }

/-- The method `LocalTree::set_ptree`, children pass: node `i` registers with
its parent, in the first free child slot. -/
def set_ptree_children : List LocalNode → Int → List Int → Int → Option (List LocalNode × Int)
  | nodes, root, [], _ => some (nodes, root)
  | nodes, root, parent :: rest, i =>
    if parent ≠ -1 then
      (getNode nodes parent).bind fun pn =>
      (if pn.child0 = -1 then modNode nodes parent fun n => { n with child0 := i }
        else modNode nodes parent fun n => { n with child1 := i }).bind fun nodes =>
      set_ptree_children nodes root rest (i + 1)
    else set_ptree_children nodes i rest (i + 1)

/-- The method `LocalTree::set_ptree` with an age array, no path array
(`pop_path` is 0 everywhere) and the capacity given: builds a tree from a
parent array. -/
def set_ptree (ptree : List Int) (ages : List Int) (capacity : Nat) : Option LocalTree :=
  let nnodes := ptree.length
  let capacity := if capacity < nnodes then nnodes else capacity
  let used := (List.range nnodes).map fun i =>
    ({ parent := ptree.getD i 0, child0 := -1, child1 := -1, age := ages.getD i 0,
       pop_path := 0 } : LocalNode)
  let nodes := used ++ List.replicate (capacity - nnodes) default
  (set_ptree_children nodes (-1) ptree 0).map fun (nodes, root) =>
    { nnodes := nnodes, root := root, nodes := nodes }

/-- The copy constructor `LocalTree(const LocalTree &other)`, through
`LocalTree::copy`: the new array has the capacity of `other`, the first
`nnodes` nodes are copied and the remaining slots keep the value of a freshly
constructed `LocalNode` (here the default node). -/
def LocalTree.copy (other : LocalTree) : Option LocalTree :=
  if other.nnodes ≤ other.capacity then
    some { nnodes := other.nnodes, root := other.root,
           nodes := other.nodes.take other.nnodes.toNat ++
             List.replicate (other.nodes.length - other.nnodes.toNat) default }
  else none

/-- Lines 509-516 of `apply_spr_new`: the loop that fills `mapping`. -/
def spr_fill_mapping (prev_tree : LocalTree) (spr : Spr) (mapping : List Int) :
    Option (List Int) :=
  forLoop (fun i m =>
      (getNode prev_tree.nodes spr.recomb_node).bind fun rn =>
      if i ≠ rn.parent then setAt m i i else setAt m i (-1))
    (List.range prev_tree.nnodes.toNat) mapping

/-- Lines 551-557 of `apply_spr_new`: "we just broke coal_node, so use
recomb_sib". -/
def spr_new_recoal_broken (nodes : List LocalNode)
    (recoal other recomb_sib broke_parent x : Int) : Option (List LocalNode) :=
  (modNode nodes recoal fun n => n.setChild other recomb_sib).bind fun nodes =>
  (getNode nodes recomb_sib).bind fun sibn =>
  (modNode nodes recoal fun n => { n with parent := sibn.parent }).bind fun nodes =>
  (modNode nodes recomb_sib fun n => { n with parent := recoal }).bind fun nodes =>
  if broke_parent ≠ -1 then
    modNode nodes broke_parent fun n => n.setChild x recoal
  else some nodes

/-- Lines 559-571 of `apply_spr_new`: the broken node is attached on the branch
above `coal_node`. -/
def spr_new_recoal_branch (nodes : List LocalNode) (recoal other coal_node : Int) :
    Option (List LocalNode) :=
  (modNode nodes recoal fun n => n.setChild other coal_node).bind fun nodes =>
  (getNode nodes coal_node).bind fun cn =>
  (modNode nodes recoal fun n => { n with parent := cn.parent }).bind fun nodes =>
  (modNode nodes coal_node fun n => { n with parent := recoal }).bind fun nodes =>
  -- fix coal_node parent
  (getNode nodes recoal).bind fun rcn =>
  let parent := rcn.parent
  if parent ≠ -1 then replace_child nodes parent coal_node recoal else some nodes

/-- The function `apply_spr_new` of `local_tree.cpp`: copies `prev_tree`, fills
`mapping` and applies the SPR to the copy.  Returns the new tree and the
mapping array. -/
def apply_spr_new (prev_tree : LocalTree) (spr : Spr) (mapping : List Int) :
    Option (LocalTree × List Int) :=
  prev_tree.copy.bind fun new_tree =>
  (spr_fill_mapping prev_tree spr mapping).bind fun mapping =>
  let nodes := new_tree.nodes
  -- trivial case: `assert(0)`
  if spr.recomb_node = new_tree.root then none
  -- `assert(spr.recomb_node != spr.coal_node)`
  else if spr.recomb_node = spr.coal_node then none
  else
    (getNode nodes spr.recomb_node).bind fun rn =>
    let recoal := rn.parent
    (getNode nodes recoal).bind fun c =>
    let other : Int := if c.child0 = spr.recomb_node then 1 else 0
    let recomb_sib := c.child other
    let broke_parent := c.parent
    (spr_prune nodes recoal recomb_sib broke_parent).bind fun (nodes, x) =>
    -- reuse node as recoal
    (if spr.coal_node = recoal then
        spr_new_recoal_broken nodes recoal other recomb_sib broke_parent x
      else spr_new_recoal_branch nodes recoal other spr.coal_node).bind fun nodes =>
    (modNode nodes recoal fun n => { n with age := spr.coal_time }).bind fun nodes =>
    some ({ new_tree with nodes := nodes,
                          root := spr_new_root new_tree.root recoal recomb_sib spr.coal_node },
          mapping)

/-- The function `make_node_mapping` of `local_tree.h`: every node maps to the
same name except the broken node, the parent of the recomb node. -/
def make_node_mapping (ptree : List Int) (nnodes : Int) (recomb_node : Int)
    (mapping : List Int) : Option (List Int) :=
  (forLoop (fun j m => setAt m j j) (List.range nnodes.toNat) mapping).bind fun mapping =>
  -- parent of recomb is broken and therefore does not map
  (getAt ptree recomb_node).bind fun broken =>
  setAt mapping broken (-1)

/-- Lines 791-793 of `get_recoal_node`: mark the nodes that have an inward
mapping. -/
def mark_mapped (nnodes : Int) (mapping : List Int) : Option (List Bool) :=
  forLoop (fun i mp =>
      (getAt mapping i).bind fun mi =>
      if mi ≠ -1 then setAt mp mi true else some mp)
    (List.range nnodes.toNat) (List.replicate nnodes.toNat false)

/-- The function `get_recoal_node` of `local_tree.cpp`: the first node with no
inward mapping, `spr.coal_node` when every node is mapped. -/
def get_recoal_node (tree : LocalTree) (spr : Spr) (mapping : List Int) : Option Int :=
  (mark_mapped tree.nnodes mapping).map fun mapped =>
  match (List.range tree.nnodes.toNat).find? (fun (i : Nat) => !(readAt mapped (i : Int))) with
  | some i => (i : Int)
  | none => spr.coal_node

/-! ## Assertions -/

/-- The check of one child link in `assert_tree`: `some false` is
`return false`. -/
def assert_tree_child (tree : LocalTree) (i child : Int) : Option Bool :=
  if child ≠ -1 then
    (if child < 0 ∨ child ≥ tree.nnodes then some false
     else (getNode tree.nodes child).map fun cn => decide (cn.parent = i))
  else some true

/-- The assertion on populations in `assert_tree`, made only with a population
tree and for a node that has a parent. -/
def assert_tree_pop (tree : LocalTree) (pop_tree : Option PopulationTree) (n : LocalNode) :
    Option Bool :=
  match pop_tree with
  | some pt =>
    if n.parent ≠ -1 then
      (getNode tree.nodes n.parent).bind fun pn =>
        (assertion (pt.get_pop n.pop_path pn.age == pt.get_pop pn.pop_path pn.age)).map
          fun _ => true
    else some true
  | none => some true

/-- One pass of the loop body of `assert_tree` for node `i`: `some false` is
`return false`, `some true` lets the loop go on. -/
def assert_tree_node (tree : LocalTree) (pop_tree : Option PopulationTree) (i : Int) :
    Option Bool :=
  (getNode tree.nodes i).bind fun n =>
  -- assert parent child links
  andThen (assert_tree_child tree i n.child0) <|
  andThen (assert_tree_child tree i n.child1) <|
  -- check root
  andThen (if n.parent = -1 then some (decide (tree.root = i))
    else some (decide (¬ (n.parent < 0 ∨ n.parent ≥ tree.nnodes)))) <|
  assert_tree_pop tree pop_tree n

/-- The loop of `assert_tree` over the nodes in the list. -/
def assert_tree_loop (tree : LocalTree) (pop_tree : Option PopulationTree) :
    List Nat → Option Bool
  | [] => some true
  | i :: rest => andThen (assert_tree_node tree pop_tree i) (assert_tree_loop tree pop_tree rest)

/-- The function `assert_tree` of `local_tree.cpp`: asserts the structure of a
tree. -/
def assert_tree (tree : LocalTree) (pop_tree : Option PopulationTree) : Option Bool :=
  andThen (assert_tree_loop tree pop_tree (List.range tree.nnodes.toNat)) <|
  -- check root
  (getNode tree.nodes tree.root).map fun rn => decide (rn.parent = -1)

/-! ## Adding and removing a leaf branch (`thread.cpp`) -/

/-- The statement `if (c != -1) nodes[c].parent = dest_node;` of
`rename_node`. -/
def notify_child (nodes : List LocalNode) (c dest_node : Int) : Option (List LocalNode) :=
  if c ≠ -1 then modNode nodes c fun n => { n with parent := dest_node } else some nodes

/-- The function `rename_node` of `thread.cpp`, on the node array of the tree:
rename a node from `src_node` to `dest_node` while maintaining the structure of
the tree. -/
def rename_node (nodes : List LocalNode) (src_node dest_node : Int) :
    Option (List LocalNode) :=
  -- special case
  if src_node = dest_node then some nodes
  else
    -- copy displaced node
    (getNode nodes src_node).bind fun sn =>
    (setAt nodes dest_node sn).bind fun nodes =>
    -- notify parent of displacement
    (getNode nodes dest_node).bind fun dn =>
    let parent := dn.parent
    (if parent ≠ -1 then replace_child nodes parent src_node dest_node
      else some nodes).bind fun nodes =>
    -- notify children of displacement
    (getNode nodes dest_node).bind fun dn =>
    (notify_child nodes dn.child0 dest_node).bind fun nodes =>
    (getNode nodes dest_node).bind fun dn =>
    notify_child nodes dn.child1 dest_node

/-- The guarded call `if (cond) rename_node(tree, src_node, dest_node);`. -/
def rename_node_if (cond : Bool) (nodes : List LocalNode) (src_node dest_node : Int) :
    Option (List LocalNode) :=
  if cond then rename_node nodes src_node dest_node else some nodes

/-- Lines 75-87 of `add_tree_branch`: "add new leaf" and "add new coal
node". -/
def add_new_nodes (nodes : List LocalNode) (newleaf newcoal parent2 node2 time pop_path : Int) :
    Option (List LocalNode) :=
  (modNode nodes newleaf fun n =>
    { n with parent := newcoal, child0 := -1, child1 := -1, age := 0,
             pop_path := pop_path }).bind fun nodes =>
  (modNode nodes newcoal fun n =>
    { n with parent := parent2, child0 := newleaf, child1 := node2, age := time }).bind
    fun nodes =>
  (getNode nodes newcoal).bind fun ncn =>
  (getNode nodes ncn.child1).bind fun c1n =>
  modNode nodes newcoal fun n => { n with pop_path := c1n.pop_path }

/-- Lines 89-97 of `add_tree_branch`: "fix pointers". -/
def add_fix_pointers (nodes : List LocalNode) (newcoal parent2 node2 : Int) :
    Option (List LocalNode) :=
  (modNode nodes node2 fun n => { n with parent := newcoal }).bind fun nodes =>
  if parent2 ≠ -1 then replace_child nodes parent2 node2 newcoal else some nodes

/-- The function `add_tree_branch` of `thread.cpp`: add a single new leaf to a
tree; the leaf connects to the point `(node, time)`. -/
def add_tree_branch (tree : LocalTree) (node : Int) (time : Int) (pop_path : Int) :
    Option LocalTree :=
  -- `assert(tree->capacity >= tree->nnodes + 2)`
  (assertion (decide (tree.capacity ≥ tree.nnodes + 2))).bind fun _ =>
  -- get tree info
  let nodes := tree.nodes
  let nleaves := tree.get_num_leaves
  let nnodes := tree.nnodes
  let nnodes2 := nnodes + 2
  -- get major node ids
  let newleaf := nleaves
  let displaced := nnodes
  let newcoal := nnodes + 1
  -- determine node displacement
  let node2 := if node ≠ newleaf then node else displaced
  (getNode nodes node).bind fun nn =>
  let parent := nn.parent
  let parent2 := if parent ≠ newleaf then parent else displaced
  -- displace node
  (rename_node_if (decide (newleaf < displaced)) nodes newleaf displaced).bind fun nodes =>
  (add_new_nodes nodes newleaf newcoal parent2 node2 time pop_path).bind fun nodes =>
  (add_fix_pointers nodes newcoal parent2 node2).bind fun nodes =>
  -- fix up tree data
  (getNode nodes newcoal).bind fun ncn =>
  let root := if ncn.parent = -1 then newcoal
    else (if tree.root ≠ newleaf then tree.root else displaced)
  some { nnodes := nnodes2, root := root, nodes := nodes }

/-- Lines 124-131 of `remove_tree_branch`: with a population tree, the path of
`coal_child` is recomposed. -/
def remove_coal_path (nodes : List LocalNode) (pop_tree : Option PopulationTree)
    (ntimes coal_child remove_coal coal_parent : Int) : Option (List LocalNode) :=
  match pop_tree with
  | some pt =>
      (getNode nodes coal_child).bind fun ccn =>
      (getNode nodes remove_coal).bind fun rcn =>
      (if coal_parent = -1 then some (ntimes - 1)
        else (getNode nodes coal_parent).map fun n => n.age).bind fun upper =>
      modNode nodes coal_child fun n =>
        { n with pop_path := pt.consistent_path ccn.pop_path rcn.pop_path ccn.age rcn.age upper }
  | none => some nodes

/-- Lines 118-138 of `remove_tree_branch`: "remove coal node".  Returns the
nodes, `remove_coal`, `coal_child` and `coal_parent`. -/
def remove_coal_node (nodes : List LocalNode) (remove_leaf : Int)
    (pop_tree : Option PopulationTree) (ntimes : Int) :
    Option (List LocalNode × Int × Int × Int) :=
  (getNode nodes remove_leaf).bind fun rln =>
  let remove_coal := rln.parent
  (getNode nodes remove_coal).bind fun rcn =>
  let coal_child := if rcn.child0 = remove_leaf then rcn.child1 else rcn.child0
  let coal_parent := rcn.parent
  (modNode nodes coal_child fun n => { n with parent := coal_parent }).bind fun nodes =>
  (remove_coal_path nodes pop_tree ntimes coal_child remove_coal coal_parent).bind fun nodes =>
  (if coal_parent ≠ -1 then replace_child nodes coal_parent remove_coal coal_child
    else some nodes).map fun nodes => (nodes, remove_coal, coal_child, coal_parent)

/-- Lines 141-146 of `remove_tree_branch`: "record displace nodes"; nothing is
recorded when `displace` is `NULL`. -/
def displace_init (displace : Option (List Int)) (nnodes remove_leaf remove_coal : Int) :
    Option (Option (List Int)) :=
  match displace with
  | some d =>
      (forLoop (fun i d => setAt d i i) (List.range nnodes.toNat) d).bind fun d =>
      (setAt d remove_leaf (-1)).bind fun d =>
      (setAt d remove_coal (-1)).map some
  | none => some none

/-- The statement `if (displace) displace[i] = v;` under the guard `cond`. -/
def displace_set (cond : Bool) (displace : Option (List Int)) (i v : Int) :
    Option (Option (List Int)) :=
  if cond then
    match displace with
    | some d => (setAt d i v).map some
    | none => some none
  else some displace

/-- Lines 170-178 of `remove_tree_branch`: the new root. -/
def remove_new_root (tree_root nnodes remove_coal coal_child last_leaf hole : Int) : Int :=
  let root := tree_root
  let root := if tree_root = remove_coal then coal_child else root
  let root := if root = nnodes - 2 then last_leaf else root
  if root = nnodes - 1 then hole else root

/-- The function `remove_tree_branch` of `thread.cpp`: removes a leaf branch
from a local tree.  `model->pop_tree` and `model->ntimes` are passed on their
own; `displace` is the optional array that records the node displacements
(`none` for `NULL`). -/
def remove_tree_branch (tree : LocalTree) (remove_leaf : Int)
    (pop_tree : Option PopulationTree) (ntimes : Int) (displace : Option (List Int)) :
    Option (LocalTree × Option (List Int)) :=
  let nnodes := tree.nnodes
  let last_leaf := tree.get_num_leaves - 1
  -- remove coal node
  (remove_coal_node tree.nodes remove_leaf pop_tree ntimes).bind
    fun (nodes, remove_coal, coal_child, _) =>
  -- record displace nodes
  (displace_init displace nnodes remove_leaf remove_coal).bind fun displace =>
  -- move last leaf into remove_leaf spot
  (displace_set (decide (last_leaf ≠ remove_leaf)) displace last_leaf remove_leaf).bind
    fun displace =>
  (rename_node_if (decide (last_leaf ≠ remove_leaf)) nodes last_leaf remove_leaf).bind
    fun nodes =>
  -- move nodes in nnodes-2 and nnodes-1 into holes
  let hole := last_leaf
  (displace_set (decide (remove_coal ≠ nnodes - 2)) displace (nnodes - 2) hole).bind
    fun displace =>
  (rename_node_if (decide (remove_coal ≠ nnodes - 2)) nodes (nnodes - 2) hole).bind
    fun nodes =>
  let hole := if remove_coal ≠ nnodes - 2 then remove_coal else hole
  (displace_set (decide (remove_coal ≠ nnodes - 1)) displace (nnodes - 1) hole).bind
    fun displace =>
  (rename_node_if (decide (remove_coal ≠ nnodes - 1)) nodes (nnodes - 1) hole).bind
    fun nodes =>
  -- set tree data
  some ({ nnodes := tree.nnodes - 2,
          root := remove_new_root tree.root nnodes remove_coal coal_child last_leaf hole,
          nodes := nodes }, displace)

/-! ## Field updates

The assignments `nodes[i].parent = v`, `nodes[i].child[0] = v`, ... as total
functions on the node array (no effect outside the array).  They are used to
write down the result of the surgery routines. -/

/-- The assignment `nodes[i].parent = v`. -/
def setParent (nodes : List LocalNode) (i v : Int) : List LocalNode :=
  updAt nodes i { nodeAt nodes i with parent := v }

/-- The assignment `nodes[i].child[0] = v`. -/
def setChild0 (nodes : List LocalNode) (i v : Int) : List LocalNode :=
  updAt nodes i { nodeAt nodes i with child0 := v }

/-- The assignment `nodes[i].child[1] = v`. -/
def setChild1 (nodes : List LocalNode) (i v : Int) : List LocalNode :=
  updAt nodes i { nodeAt nodes i with child1 := v }

/-- The assignment `nodes[i].age = v`. -/
def setAge (nodes : List LocalNode) (i v : Int) : List LocalNode :=
  updAt nodes i { nodeAt nodes i with age := v }

/-- The assignment `nodes[i].pop_path = v`. -/
def setPath (nodes : List LocalNode) (i v : Int) : List LocalNode :=
  updAt nodes i { nodeAt nodes i with pop_path := v }

/-! ## Closed forms of the blocks of `apply_spr`

The node arrays that the blocks of `apply_spr` produce when no access leaves the
array, written with the field updates above. -/

/-- The assignment `nodes[i].child[k] = v` for `k` equal to 0 or 1. -/
def setChildK (nodes : List LocalNode) (i k v : Int) : List LocalNode :=
  if k = 0 then setChild0 nodes i v else setChild1 nodes i v

/-- The effect of `if (c[0] == old) c[0] = new_; else c[1] = new_;` on
`c = nodes[parent].child`. -/
def replaceChild (nodes : List LocalNode) (parent old new_ : Int) : List LocalNode :=
  if (nodeAt nodes parent).child0 = old then setChild0 nodes parent new_
  else setChild1 nodes parent new_

/-- The array after the block `spr_prune`: the sibling `sb` of the recomb node
is linked to `bp`, the parent of the broken node `b`, in the place of `b`. -/
def pruneNodes (nodes : List LocalNode) (b sb bp : Int) : List LocalNode :=
  if bp ≠ -1 then replaceChild (setParent nodes sb bp) bp b sb else setParent nodes sb bp

/-- The array after the block `spr_recoal_branch`: the node `b` is attached on
the branch above `c`, in the child slot `other` of `b`. -/
def regraftNodes (nodes : List LocalNode) (b other c : Int) : List LocalNode :=
  let cp := (nodeAt nodes c).parent
  let n4 := setParent (setPath (setParent (setChildK nodes b other c) b cp) b
    (nodeAt nodes c).pop_path) c b
  if cp ≠ -1 then replaceChild n4 cp c b else n4

/-- The array after the block `spr_new_recoal_branch` of `apply_spr_new`: as
`regraftNodes`, but the population path of `b` is left alone. -/
def regraftNodesNew (nodes : List LocalNode) (b other c : Int) : List LocalNode :=
  let cp := (nodeAt nodes c).parent
  let n4 := setParent (setParent (setChildK nodes b other c) b cp) c b
  if cp ≠ -1 then replaceChild n4 cp c b else n4

/-- The array after the block `spr_recoal_broken` without population tree (and
after `spr_new_recoal_broken`): the broken node `b` is its own coal node, so it
is put back between `sb` and `bp`, in the slot `x` of `bp`. -/
def brokenNodes (nodes : List LocalNode) (b other sb bp x : Int) : List LocalNode :=
  let n1 := setChildK nodes b other sb
  let n3 := setParent (setParent n1 b (nodeAt n1 sb).parent) sb b
  if bp ≠ -1 then setChildK n3 bp x b else n3

/-! ## Well-formed trees -/

/-- Index `i` names a node in use: `0 <= i < nnodes`. -/
def LocalTree.isNode (t : LocalTree) (i : Int) : Prop := 0 ≤ i ∧ i < t.nnodes

instance (t : LocalTree) (i : Int) : Decidable (t.isNode i) := by
  unfold LocalTree.isNode; infer_instance

/-- The parent link of node `i` is consistent: a node without parent is the
root; otherwise the parent is a node that has `i` as one of its children. -/
def ParentOk (t : LocalTree) (i : Int) : Prop :=
  if (t.node i).parent = -1 then i = t.root
  else t.isNode (t.node i).parent ∧
    ((t.node (t.node i).parent).child0 = i ∨ (t.node (t.node i).parent).child1 = i)

instance (t : LocalTree) (i : Int) : Decidable (ParentOk t i) := by
  unfold ParentOk; infer_instance

/-- The child links of node `i` are consistent and binary: `i` is a leaf with
`child = [-1, -1]`, or it has two distinct children, both nodes whose parent is
`i`. -/
def ChildrenOk (t : LocalTree) (i : Int) : Prop :=
  ((t.node i).child0 = -1 ∧ (t.node i).child1 = -1) ∨
  (t.isNode (t.node i).child0 ∧ t.isNode (t.node i).child1 ∧
    (t.node i).child0 ≠ (t.node i).child1 ∧
    (t.node (t.node i).child0).parent = i ∧ (t.node (t.node i).child1).parent = i)

instance (t : LocalTree) (i : Int) : Decidable (ChildrenOk t i) := by
  unfold ChildrenOk; infer_instance

/-- Node `i` reaches `target` by following at most `k` parent links, without
leaving the node array. -/
def reaches (nodes : List LocalNode) (target : Int) : Nat → Int → Bool
  | 0, i => i == target
  | k + 1, i => i == target ||
      (decide (inArr nodes i) && reaches nodes target k (nodeAt nodes i).parent)

/-- A well-formed binary tree: the nodes in use fit in the array, `root` is a
node without parent and the only such node, parent and child links are
mutually consistent, and every node reaches `root` by following parent links
(so there is no cycle). -/
def WellFormed (t : LocalTree) : Prop :=
  t.nnodes ≤ t.nodes.length ∧ t.isNode t.root ∧ (t.node t.root).parent = -1 ∧
  (∀ i : Int, 0 ≤ i → i < t.nnodes → ParentOk t i) ∧
  (∀ i : Int, 0 ≤ i → i < t.nnodes → ChildrenOk t i) ∧
  (∀ i : Int, 0 ≤ i → i < t.nnodes → reaches t.nodes t.root t.nnodes.toNat i = true)

instance (t : LocalTree) : Decidable (WellFormed t) := by
  unfold WellFormed; infer_instance

/-- Invariant (c) of the data model: `age[parent] >= age[child]` on every edge. -/
def AgeOrdered (t : LocalTree) : Prop :=
  ∀ i : Int, 0 ≤ i → i < t.nnodes → (t.node i).parent ≠ -1 →
    (t.node i).age ≤ (t.node (t.node i).parent).age

instance (t : LocalTree) : Decidable (AgeOrdered t) := by
  unfold AgeOrdered; infer_instance

/-- The sibling of `node`: the other child of its parent (`get_sibling`, for a
node that has a parent). -/
def LocalTree.sibling (t : LocalTree) (node : Int) : Int :=
  let p := t.node (t.node node).parent
  if p.child0 = node then p.child1 else p.child0


/-- The node expected in slot `j` after `apply_spr` without population tree,
written in terms of the old node array `N`: `b = parent(r)` is re-used on the
branch above `c`, and the old sibling `sb` of `r` takes the place of `b` under
`bp = parent(b)`; `cp` is the old parent of `c`. -/
def sprNodeAt (N : List LocalNode) (r c ct b sb bp cp : Int) (j : Int) : LocalNode :=
  let n := nodeAt N j
  if c = b then (if j = b then { n with age := ct } else n)
  else if c = sb then
    (if j = b then { n with age := ct, pop_path := (nodeAt N c).pop_path } else n)
  else
    { parent := if j = b then cp else if j = sb then bp else if j = c then b else n.parent
      child0 := if j = b then (if n.child0 = r then r else c)
        else if j = cp ∧ n.child0 = c then b
        else if j = bp ∧ n.child0 = b then sb else n.child0
      child1 := if j = b then (if n.child0 = r then c else r)
        else if j = cp ∧ n.child1 = c then b
        else if j = bp ∧ n.child1 = b then sb else n.child1
      age := if j = b then ct else n.age
      pop_path := if j = b then (nodeAt N c).pop_path else n.pop_path }

/-- The node expected in slot `j` after `apply_spr tree spr` without population
tree, written in terms of the old tree. -/
def sprNode (t : LocalTree) (s : Spr) (j : Int) : LocalNode :=
  sprNodeAt t.nodes s.recomb_node s.coal_node s.coal_time (t.node s.recomb_node).parent
    (t.sibling s.recomb_node) (t.node (t.node s.recomb_node).parent).parent
    (t.node s.coal_node).parent j


/-- The facts about the neighbourhood of an SPR that the surgery relies on, for
the node array `N` with recomb node `r` and coal node `c`: with
`b = parent(r)`, `sb` the other child of `b`, `bp = parent(b)` and
`cp = parent(c)`, the nodes involved lie in the array, are pairwise distinct as
in a tree and are linked to each other consistently. -/
structure SprLocal (N : List LocalNode) (r c b sb bp cp : Int) : Prop where
  hrA : inArr N r
  hbA : inArr N b
  hsA : inArr N sb
  hcA : inArr N c
  hrp : (nodeAt N r).parent = b
  hbp : (nodeAt N b).parent = bp
  hcp : (nodeAt N c).parent = cp
  hsp : (nodeAt N sb).parent = b
  hsb : sb = (if (nodeAt N b).child0 = r then (nodeAt N b).child1 else (nodeAt N b).child0)
  h1 : (nodeAt N b).child0 ≠ r → (nodeAt N b).child1 = r
  hbpA : bp ≠ -1 → inArr N bp
  hcpA : cp ≠ -1 → inArr N cp
  hrs : r ≠ sb
  hbr : b ≠ r
  hbs : b ≠ sb
  hcr : c ≠ r
  hbpb : bp ≠ b
  hbpc : bp ≠ -1 → ((nodeAt N bp).child1 = b ↔ (nodeAt N bp).child0 ≠ b)
  hbps : bp ≠ -1 → (nodeAt N bp).child0 ≠ sb
  hcpb : c ≠ b → c ≠ sb → cp ≠ b
  hcpc : cp ≠ -1 → ((nodeAt N cp).child1 = c ↔ (nodeAt N cp).child0 ≠ c)

/-- The node array after `apply_spr` without population tree, in closed form:
prune `b = parent(r)`, re-attach it above `c`, give it the age `ct`. -/
def sprNodes (N : List LocalNode) (r c ct : Int) : List LocalNode :=
  let b := (nodeAt N r).parent
  let other : Int := if (nodeAt N b).child0 = r then 1 else 0
  let sb := (nodeAt N b).child other
  let bp := (nodeAt N b).parent
  let x : Int := if bp ≠ -1 then (if (nodeAt N bp).child0 = b then 0 else 1) else 0
  let M := pruneNodes N b sb bp
  setAge (if c = b then brokenNodes M b other sb bp x else regraftNodes M b other c) b ct

/-- The node array after `apply_spr_new`, in closed form: as `sprNodes`, but
the population path of `b` is never touched. -/
def sprNodesNew (N : List LocalNode) (r c ct : Int) : List LocalNode :=
  let b := (nodeAt N r).parent
  let other : Int := if (nodeAt N b).child0 = r then 1 else 0
  let sb := (nodeAt N b).child other
  let bp := (nodeAt N b).parent
  let x : Int := if bp ≠ -1 then (if (nodeAt N bp).child0 = b then 0 else 1) else 0
  let M := pruneNodes N b sb bp
  setAge (if c = b then brokenNodes M b other sb bp x else regraftNodesNew M b other c) b ct

/-! ## Statements of the claims on `apply_spr` -/

/-- The tree `((0,1)3,2)4` of the "Apply SPR" scenario: parent array
`[3,3,4,4,-1]`, ages `[0,0,0,50,150]`. -/
def tree5 : LocalTree :=
  { nnodes := 5, root := 4,
    nodes := [⟨3, -1, -1, 0, 0⟩, ⟨3, -1, -1, 0, 0⟩, ⟨4, -1, -1, 0, 0⟩, ⟨4, 0, 1, 50, 0⟩,
      ⟨-1, 2, 3, 150, 0⟩] }

/-- The SPR of the "Apply SPR" scenario. -/
def spr5 : Spr :=
  { recomb_node := 1, recomb_time := 20, coal_node := 2, coal_time := 80, pop_path := 0 }

/-- The tree `t'` is `t` after the SPR `s` with the broken node
`b = parent(recomb_node)` re-used as the recoalescence node: `b` has the age
`coal_time`; its children are `recomb_node` and `coal_node` (the old sibling
`sb` of `recomb_node` when `coal_node == b`); the parent of `b` is the former
parent of `coal_node`, except that `b` keeps its own parent when `coal_node` is
`sb`; when `coal_node` is neither `b` nor `sb`, `sb` hangs under the former
parent `bp` of `b`, in the child slot that held `b`; when `coal_node` is `b` or
`sb`, no parent or child link of a node has changed. -/
def SprReusesBroken (t : LocalTree) (s : Spr) (t' : LocalTree) : Prop :=
  let r := s.recomb_node
  let c := s.coal_node
  let b := (t.node r).parent
  let sb := t.sibling r
  let bp := (t.node b).parent
  let cp := (t.node c).parent
  let c' := if c = b then sb else c
  (t'.node b).age = s.coal_time ∧
  (((t'.node b).child0 = r ∧ (t'.node b).child1 = c') ∨
    ((t'.node b).child0 = c' ∧ (t'.node b).child1 = r)) ∧
  (t'.node r).parent = b ∧ (t'.node c').parent = b ∧
  (t'.node b).parent = (if c = sb then bp else cp) ∧
  (c ≠ b → c ≠ sb → (t'.node sb).parent = bp ∧
    (bp ≠ -1 → ((t.node bp).child0 = b → (t'.node bp).child0 = sb) ∧
      ((t.node bp).child1 = b → (t'.node bp).child1 = sb))) ∧
  ((c = b ∨ c = sb) → ∀ j : Int, 0 ≤ j → j < t.nnodes →
    (t'.node j).parent = (t.node j).parent ∧ (t'.node j).child0 = (t.node j).child0 ∧
    (t'.node j).child1 = (t.node j).child1)


/-! ## The links after an SPR, as functions

For the proofs of well-formedness the parent and child links are seen as
functions `P`, `C0`, `C1` from slots to slots. -/

/-- The new parent of slot `j` when `b = parent(r)` is moved above `c`
(`c` neither `b` nor the sibling `sb` of `r`), in terms of the old parent
function `P`, with `bp = P b` and `cp = P c`. -/
def sprParent (P : Int → Int) (c b sb bp cp j : Int) : Int :=
  if j = b then cp else if j = sb then bp else if j = c then b else P j

/-- The new first child of slot `j`, in terms of the old function `C0`. -/
def sprChild0 (C0 : Int → Int) (r c b sb bp cp j : Int) : Int :=
  if j = b then (if C0 b = r then r else c)
  else if j = cp ∧ C0 j = c then b else if j = bp ∧ C0 j = b then sb else C0 j

/-- The new second child of slot `j`, in terms of the old functions `C0` and
`C1`. -/
def sprChild1 (C0 C1 : Int → Int) (r c b sb bp cp j : Int) : Int :=
  if j = b then (if C0 b = r then c else r)
  else if j = cp ∧ C1 j = c then b else if j = bp ∧ C1 j = b then sb else C1 j

/-- The facts about a binary tree with `n` nodes, given by its link functions,
and about the neighbourhood of an SPR that moves `b = P r` above `c`, where
`c` is neither `b` nor the sibling `sb` of `r`. -/
structure SprFacts (n root : Int) (P C0 C1 : Int → Int) (r c b sb bp cp : Int) : Prop where
  par : ∀ i : Int, 0 ≤ i → i < n → (P i = -1 ∧ i = root) ∨
    (P i ≠ -1 ∧ i ≠ root ∧ 0 ≤ P i ∧ P i < n ∧ (C0 (P i) = i ∨ C1 (P i) = i))
  ch : ∀ i : Int, 0 ≤ i → i < n → (C0 i = -1 ∧ C1 i = -1) ∨
    (0 ≤ C0 i ∧ C0 i < n ∧ 0 ≤ C1 i ∧ C1 i < n ∧ C0 i ≠ C1 i ∧ P (C0 i) = i ∧ P (C1 i) = i)
  rootN : 0 ≤ root ∧ root < n
  rootp : P root = -1
  hr : 0 ≤ r ∧ r < n
  hc : 0 ≤ c ∧ c < n
  hb : 0 ≤ b ∧ b < n
  hs : 0 ≤ sb ∧ sb < n
  hrp : P r = b
  hbp : P b = bp
  hcp : P c = cp
  hsp : P sb = b
  hsb : sb = (if C0 b = r then C1 b else C0 b)
  h1 : C0 b ≠ r → C1 b = r
  hrs : r ≠ sb
  hbr : b ≠ r
  hbs : b ≠ sb
  hcr : c ≠ r
  hcb : c ≠ b
  hcs : c ≠ sb
  hbpb : bp ≠ b
  hcpb : cp ≠ b

/-! ## Statements of the claims on well-formedness and ages -/

/-- The SPR constraints of the data model, for an SPR on nodes of the tree:
`recomb_node != root`, `recomb_node != coal_node`,
`age[recomb_node] <= recomb_time <= age[parent(recomb_node)]`,
`recomb_time <= coal_time` and
`age[coal_node] <= coal_time <= age[parent(coal_node)]` when that parent
exists. -/
def SprConstraints (t : LocalTree) (s : Spr) : Prop :=
  t.isNode s.recomb_node ∧ t.isNode s.coal_node ∧
  s.recomb_node ≠ t.root ∧ s.recomb_node ≠ s.coal_node ∧
  (t.node s.recomb_node).age ≤ s.recomb_time ∧
  s.recomb_time ≤ (t.node (t.node s.recomb_node).parent).age ∧
  s.recomb_time ≤ s.coal_time ∧
  (t.node s.coal_node).age ≤ s.coal_time ∧
  ((t.node s.coal_node).parent ≠ -1 →
    s.coal_time ≤ (t.node (t.node s.coal_node).parent).age)

instance (t : LocalTree) (s : Spr) : Decidable (SprConstraints t s) := by
  unfold SprConstraints; infer_instance

/-- A tree with parents `[3,3,4,4,-1]` and ages `[0,0,0,5,10]`. -/
def treeFlat : LocalTree :=
  { nnodes := 5, root := 4,
    nodes := [⟨3, -1, -1, 0, 0⟩, ⟨3, -1, -1, 0, 0⟩, ⟨4, -1, -1, 0, 0⟩, ⟨4, 0, 1, 5, 0⟩,
      ⟨-1, 2, 3, 10, 0⟩] }

/-- An SPR on `treeFlat` that cuts the branch above node 3 at time 5 and
re-attaches it to the branch above its own child 0, also at time 5. -/
def sprFlat : Spr :=
  { recomb_node := 3, recomb_time := 5, coal_node := 0, coal_time := 5, pop_path := 0 }

/-! ## Statement of the claim on `assert_tree` -/

/-- What `assert_tree` checks at node `i`: a child that is not -1 is a node
whose parent is `i`; a node with parent -1 is `root`; a parent that is not -1
is a node. -/
def NodeLinksChecked (t : LocalTree) (i : Int) : Prop :=
  ((t.node i).child0 ≠ -1 →
    t.isNode (t.node i).child0 ∧ (t.node (t.node i).child0).parent = i) ∧
  ((t.node i).child1 ≠ -1 →
    t.isNode (t.node i).child1 ∧ (t.node (t.node i).child1).parent = i) ∧
  (if (t.node i).parent = -1 then t.root = i else t.isNode (t.node i).parent)

instance (t : LocalTree) (i : Int) : Decidable (NodeLinksChecked t i) := by
  unfold NodeLinksChecked; infer_instance

/-- What `assert_tree` checks without population tree: the `nnodes` nodes and
the root lie in the node array, the root has parent -1, and the links of every
node pass `NodeLinksChecked`.  The ages are not looked at. -/
def AssertTreeHolds (t : LocalTree) : Prop :=
  t.nnodes ≤ t.nodes.length ∧ inArr t.nodes t.root ∧ (t.node t.root).parent = -1 ∧
  ∀ i : Int, 0 ≤ i → i < t.nnodes → NodeLinksChecked t i

instance (t : LocalTree) : Decidable (AssertTreeHolds t) := by
  unfold AssertTreeHolds; infer_instance

/-- The tree `(0,1)2` with ages `[5,5,0]`: the root is younger than its
children. -/
def treeYoungRoot : LocalTree :=
  { nnodes := 3, root := 2,
    nodes := [⟨2, -1, -1, 5, 0⟩, ⟨2, -1, -1, 5, 0⟩, ⟨-1, 0, 1, 0, 0⟩] }

/-! ## Statements of the claims on mappings -/

/-- The parent array of a tree: `ptree[i] = nodes[i].parent` for the `nnodes`
nodes in use. -/
def LocalTree.ptree (t : LocalTree) : List Int :=
  (t.nodes.take t.nnodes.toNat).map fun n => n.parent

/-- The mapping `m` is the mapping of an SPR with broken node `b` on a tree
with `n` nodes: it is the identity on `[0, n)` except `m[b] = -1`; hence it
is injective on its entries that are not -1, and `b` is the only node mapped
to -1. -/
def IsSprMapping (n b : Int) (m : List Int) : Prop :=
  (∀ j : Int, 0 ≤ j → j < n → readAt m j = if j = b then -1 else j) ∧
  (∀ i : Int, 0 ≤ i → i < n → ∀ j : Int, 0 ≤ j → j < n → readAt m i ≠ -1 →
    readAt m i = readAt m j → i = j) ∧
  (∀ j : Int, 0 ≤ j → j < n → (readAt m j = -1 ↔ j = b))

instance (n b : Int) (m : List Int) : Decidable (IsSprMapping n b m) := by
  unfold IsSprMapping; infer_instance

/-! ## The function `assert_spr` without population tree

The function is embedded for `pop_tree == NULL`: the blocks guarded by
`pop_tree != NULL` are skipped, and a call through the null pointer aborts. -/

/-- An `assert` on a condition that may itself abort. -/
def assertOpt (b : Option Bool) : Option Unit := b.bind assertion

/-- The check of the children in `assert_spr`: a leaf maps to a leaf, and the
children of an internal node map to the children of its image, in one of the
two orders. -/
def assert_spr_children (mapping : List Int) (ln n2 : LocalNode) : Option Unit :=
  if ln.child0 = -1 then
    (assertion (ln.child1 == -1)).bind fun _ =>
    (assertion (n2.child0 == -1)).bind fun _ =>
    assertion (n2.child1 == -1)
  else
    assertOpt (orElse
      (andThen ((getAt mapping ln.child0).map fun m0 => m0 == n2.child0)
        ((getAt mapping ln.child1).map fun m1 => m1 == n2.child1))
      (andThen ((getAt mapping ln.child0).map fun m0 => m0 == n2.child1)
        ((getAt mapping ln.child1).map fun m1 => m1 == n2.child0)))

/-- The checks on the nodes `i` and `i2 = mapping[i]` in the loop of
`assert_spr` for a null SPR, with `pop_tree == NULL`. -/
def assert_spr_null_checks (last_tree : LocalTree) (mapping : List Int) (i : Int)
    (ln n2 : LocalNode) : Option Unit :=
  -- check for parental node
  (assertOpt (orElse (some (ln.parent == -1 && n2.parent == -1))
    ((getAt mapping ln.parent).map fun mp => mp == n2.parent))).bind fun _ =>
  -- check for child node
  (assert_spr_children mapping ln n2).bind fun _ =>
  -- check for age
  (assertion (ln.age == n2.age)).bind fun _ =>
  -- the second operand calls `pop_tree->paths_equal` through the null pointer
  assertOpt (orElse
    ((getNode last_tree.nodes last_tree.root).map fun rn => i == rn.child0) none)

/-- One pass of the loop of `assert_spr` for a null SPR ("just check that
mapping is 1-to-1"), with `pop_tree == NULL`. -/
def assert_spr_null_node (last_tree tree : LocalTree) (mapping : List Int) (i : Int)
    (mapped : List Bool) : Option (List Bool) :=
  (getAt mapping i).bind fun i2 =>
  (assertion (i2 != -1)).bind fun _ =>
  (getAt mapped i2).bind fun mi2 =>
  (assertion (!mi2)).bind fun _ =>
  (setAt mapped i2 true).bind fun mapped =>
  (getNode last_tree.nodes i).bind fun ln =>
  (getNode tree.nodes i2).bind fun n2 =>
  (assert_spr_null_checks last_tree mapping i ln n2).map fun _ => mapped

/-- The block "ensure spr matches the trees" of `assert_spr`. -/
def assert_spr_match (last_tree tree : LocalTree) (spr : Spr) (mapping : List Int) :
    Option Unit :=
  (getAt mapping spr.recomb_node).bind fun mr =>
  (getNode tree.nodes mr).bind fun mrn =>
  let recoal := mrn.parent
  (assertion (recoal != -1)).bind fun _ =>
  (getNode tree.nodes recoal).bind fun rcn =>
  let other := if rcn.child0 = mr then rcn.child1 else rcn.child0
  (getAt mapping spr.coal_node).bind fun mc =>
  if mc ≠ -1 then
    -- coal node is not broken, so it should map correctly
    assertion (other == mc)
  else
    -- coal node is broken
    (getNode last_tree.nodes spr.recomb_node).bind fun rn =>
    let broken := rn.parent
    (getNode last_tree.nodes broken).bind fun bn =>
    let last_other := if bn.child0 = spr.recomb_node then bn.child1 else bn.child0
    (getAt mapping last_other).bind fun mlo =>
    (assertion (mlo != -1)).bind fun _ =>
    (getNode tree.nodes mlo).bind fun mlon =>
    assertion (mlon.parent == recoal)

/-- One pass of the loop "ensure mapped nodes don't change in age" of
`assert_spr`, with `pop_tree == NULL`. -/
def assert_spr_age_node (last_tree tree : LocalTree) (mapping : List Int) (i : Int) :
    Option Unit :=
  (getAt mapping i).bind fun i2 =>
  (getNode last_tree.nodes i).bind fun ln =>
  (if i2 ≠ -1 then
      (getNode tree.nodes i2).bind fun n2 => assertion (ln.age == n2.age)
    else some ()).bind fun _ =>
  if ln.is_leaf then
    (getNode tree.nodes i2).bind fun n2 => assertion n2.is_leaf
  else some ()

/-- The checks of `assert_spr` on the times of the SPR: "coal time is older
than recomb time", "recomb cannot be on root branch", "ensure recomb is within
branch", "ensure coal is within branch". -/
def assert_spr_times (last_tree : LocalTree) (spr : Spr) : Option Unit :=
  let last_nodes := last_tree.nodes
  (assertion (spr.recomb_node != -1)).bind fun _ =>
  (assertion (!decide (spr.recomb_time > spr.coal_time))).bind fun _ =>
  (getNode last_nodes spr.recomb_node).bind fun rn =>
  (assertion (rn.parent != -1)).bind fun _ =>
  (assertOpt ((orElse
    (andThen (some (rn.parent != -1))
      ((getNode last_nodes rn.parent).map fun pn => decide (spr.recomb_time > pn.age)))
    (some (decide (spr.recomb_time < rn.age)))).map fun bad => !bad)).bind fun _ =>
  (getNode last_nodes spr.coal_node).bind fun cn =>
  (assertion (!decide (spr.coal_time < cn.age))).bind fun _ =>
  if cn.parent ≠ -1 then
    (getNode last_nodes cn.parent).bind fun cpn =>
    assertion (!decide (spr.coal_time > cpn.age))
  else some ()

/-- The function `assert_spr` of `local_tree.cpp` for `pop_tree == NULL`:
checks that `spr` and `mapping` lead from `last_tree` to `tree`.  The argument
`pruned_internal` is only read in the blocks for a population tree. -/
def assert_spr (last_tree tree : LocalTree) (spr : Spr) (mapping : List Int)
    (pruned_internal : Bool) : Option Bool :=
  if spr.is_null then
    (forLoop (assert_spr_null_node last_tree tree mapping) (List.range tree.nnodes.toNat)
      (List.replicate tree.nnodes.toNat false)).map fun _ => true
  else
    (assert_spr_times last_tree spr).bind fun _ =>
    -- recomb baring branch cannot be broken
    (getAt mapping spr.recomb_node).bind fun mr =>
    (assertion (mr != -1)).bind fun _ =>
    if spr.recomb_node = spr.coal_node then
      -- `assert(pop_tree != NULL)`
      none
    else
      -- ensure spr matches the trees
      (assert_spr_match last_tree tree spr mapping).bind fun _ =>
      -- ensure mapped nodes don't change in age
      (forLoop (fun i _ => assert_spr_age_node last_tree tree mapping i)
        (List.range last_tree.nnodes.toNat) ()).bind fun _ =>
      -- test for bubbles
      (assertion (spr.recomb_node != spr.coal_node)).map fun _ => true

/-! ## Statement of the claim on `get_recoal_node` -/

/-- Every entry of the mapping on `[0, n)` is -1 or a node of `[0, n)`. -/
def MappingInRange (n : Int) (m : List Int) : Prop :=
  ∀ i : Int, 0 ≤ i → i < n → readAt m i = -1 ∨ (0 ≤ readAt m i ∧ readAt m i < n)

instance (n : Int) (m : List Int) : Decidable (MappingInRange n m) := by
  unfold MappingInRange; infer_instance

/-- The mapping is injective on its entries that are not -1. -/
def MappingInjective (n : Int) (m : List Int) : Prop :=
  ∀ i : Int, 0 ≤ i → i < n → ∀ j : Int, 0 ≤ j → j < n → readAt m i ≠ -1 →
    readAt m i = readAt m j → i = j

instance (n : Int) (m : List Int) : Decidable (MappingInjective n m) := by
  unfold MappingInjective; infer_instance

/-- Node `j` has no preimage under the mapping: no `i` in `[0, n)` has
`mapping[i] = j`. -/
def NoPreimage (n : Int) (m : List Int) (j : Int) : Prop :=
  ∀ i : Int, 0 ≤ i → i < n → readAt m i ≠ j

instance (n : Int) (m : List Int) (j : Int) : Decidable (NoPreimage n m j) := by
  unfold NoPreimage; infer_instance

/-- The value `j` is the single node of `[0, n)` without preimage. -/
def IsUniqueUnmapped (n : Int) (m : List Int) (j : Int) : Prop :=
  (0 ≤ j ∧ j < n) ∧ NoPreimage n m j ∧
  ∀ k : Int, 0 ≤ k → k < n → NoPreimage n m k → k = j

instance (n : Int) (m : List Int) (j : Int) : Decidable (IsUniqueUnmapped n m j) := by
  unfold IsUniqueUnmapped; infer_instance

/-! ## Trees on a set of live slots

While a leaf branch is added or removed the nodes in use do not fill an
interval `[0, nnodes)`.  The links are seen as functions and the nodes in use
as a set `S` of slots. -/

/-- The links of a node array as functions from slots to slots. -/
structure NodeFn where
  P : Int → Int
  C0 : Int → Int
  C1 : Int → Int

/-- The links of the node array `N`. -/
def fnOf (N : List LocalNode) : NodeFn :=
  { P := fun j => (nodeAt N j).parent
    C0 := fun j => (nodeAt N j).child0
    C1 := fun j => (nodeAt N j).child1 }

/-- The links `F` form a binary tree with root `root` on the set `S` of slots:
`root` is the one node of `S` without parent, parent and child links are
mutually consistent and stay inside `S`, and a rank decreases along the parent
links (so there is no cycle). -/
structure TreeOn (S : Int → Prop) (root : Int) (F : NodeFn) : Prop where
  rootS : S root
  rootP : F.P root = -1
  nonneg : ∀ x : Int, S x → 0 ≤ x
  par : ∀ x : Int, S x → (F.P x = -1 ∧ x = root) ∨
    (F.P x ≠ -1 ∧ S (F.P x) ∧ (F.C0 (F.P x) = x ∨ F.C1 (F.P x) = x))
  ch : ∀ x : Int, S x → (F.C0 x = -1 ∧ F.C1 x = -1) ∨
    (S (F.C0 x) ∧ S (F.C1 x) ∧ F.C0 x ≠ F.C1 x ∧ F.P (F.C0 x) = x ∧ F.P (F.C1 x) = x)
  rank : ∃ rank : Int → Nat, ∀ x : Int, S x → F.P x ≠ -1 → rank (F.P x) < rank x

/-- The renaming of slot `src` to slot `dest`, on slot numbers. -/
def relabel (src dest x : Int) : Int := if x = src then dest else x

/-- The links `F2` are the links `F` with the nodes of `S` renamed by `σ`. -/
def IsoOn (S : Int → Prop) (σ : Int → Int) (F F2 : NodeFn) : Prop :=
  ∀ x : Int, S x → F2.P (σ x) = σ (F.P x) ∧ F2.C0 (σ x) = σ (F.C0 x) ∧
    F2.C1 (σ x) = σ (F.C1 x)

/-! ## Closed forms of renaming, grafting and splicing -/

/-- The array after `rename_node(tree, src, dest)` for `src != dest`: the node
is copied to `dest`, its parent and its children point to `dest`. -/
def renameNodes (N : List LocalNode) (src dest : Int) : List LocalNode :=
  let sn := nodeAt N src
  let N1 := updAt N dest sn
  let N2 := if sn.parent ≠ -1 then replaceChild N1 sn.parent src dest else N1
  let N3 := if sn.child0 ≠ -1 then setParent N2 sn.child0 dest else N2
  if sn.child1 ≠ -1 then setParent N3 sn.child1 dest else N3

/-- The array after the blocks "add new leaf", "add new coal node" and "fix
pointers" of `add_tree_branch`: the new leaf `nl` and the new node `nc` are
put on the branch between `node2` and `parent2`. -/
def graftNodes (N : List LocalNode) (nl nc parent2 node2 time pop_path : Int) :
    List LocalNode :=
  let N1 := updAt N nl ⟨nc, -1, -1, 0, pop_path⟩
  let N2 := updAt N1 nc ⟨parent2, nl, node2, time, (nodeAt N node2).pop_path⟩
  let N3 := setParent N2 node2 nc
  if parent2 ≠ -1 then replaceChild N3 parent2 node2 nc else N3

/-- The array after the block "remove coal node" of `remove_tree_branch`
without population tree: `cc` is linked to `cp` in the place of `rc`. -/
def spliceNodes (N : List LocalNode) (rc cc cp : Int) : List LocalNode :=
  let N1 := setParent N cc cp
  if cp ≠ -1 then replaceChild N1 cp rc cc else N1

/-- A node with its links renamed by `σ`; age and population path are kept. -/
def mapNode (σ : Int → Int) (n : LocalNode) : LocalNode :=
  { parent := σ n.parent, child0 := σ n.child0, child1 := σ n.child1, age := n.age,
    pop_path := n.pop_path }

/-- The array `N2` holds the nodes of `S` of the array `N`, renamed by `σ`:
the node `x` is found in slot `σ x`, with its links renamed. -/
def IsoNodes (S : Int → Prop) (σ : Int → Int) (N N2 : List LocalNode) : Prop :=
  ∀ x : Int, S x → nodeAt N2 (σ x) = mapNode σ (nodeAt N x)

/-- The slots `σ x` for the slots `x` of `S`. -/
def imageSet (S : Int → Prop) (σ : Int → Int) : Int → Prop :=
  fun y => ∃ x : Int, S x ∧ σ x = y

/-- The renaming made by the guarded call
`if (cond) rename_node(tree, src, dest)`. -/
def relabelIf (cond : Bool) (src dest x : Int) : Int :=
  if cond then relabel src dest x else x

/-- The leaves of the tree occupy the first slots: `nnodes = 2 L - 1` for
`L = get_num_leaves()`, and node `i` is a leaf exactly when `i < L`. -/
def LeavesFirst (t : LocalTree) : Prop :=
  t.nnodes = 2 * t.get_num_leaves - 1 ∧
  ∀ i : Int, 0 ≤ i → i < t.nnodes → ((t.node i).child0 = -1 ↔ i < t.get_num_leaves)

instance (t : LocalTree) : Decidable (LeavesFirst t) := by
  unfold LeavesFirst; infer_instance

/-- The tree `t'` is `t` with a new leaf branch added at `(node, time)`: it
has `nnodes + 2` nodes; the new leaf is node `L` (the old number of leaves),
with age 0 and the given population path, under the new node `nnodes + 1`;
the new node has age `time`, children `[L, node']` and the former parent of
`node` as parent; the old node `x` is found in slot `σ x`, where `σ` renames
`L` to `nnodes`, with its age, its path and its links renamed by `σ`, except
that the link between `node` and its parent now goes through `nnodes + 1`;
the root is the new node when `node` was the root, the old root renamed
otherwise. -/
def AddBranchResult (t : LocalTree) (node time pop_path : Int) (t' : LocalTree) : Prop :=
  let L := t.get_num_leaves
  let n := t.nnodes
  let σ := relabel L n
  t'.nnodes = n + 2 ∧
  t'.root = (if (t.node node).parent = -1 then n + 1 else σ t.root) ∧
  t'.node L = ⟨n + 1, -1, -1, 0, pop_path⟩ ∧
  t'.node (n + 1) = ⟨σ (t.node node).parent, L, σ node, time, (t.node node).pop_path⟩ ∧
  ∀ x : Int, 0 ≤ x → x < n →
    t'.node (σ x) =
      ⟨if x = node then n + 1 else σ (t.node x).parent,
        if (t.node x).child0 = node then n + 1 else σ (t.node x).child0,
        if (t.node x).child1 = node then n + 1 else σ (t.node x).child1,
        (t.node x).age, (t.node x).pop_path⟩

/-- The scenario tree `((0,1)3,2)4` in an array with room for two more
nodes. -/
def tree5room : LocalTree :=
  { nnodes := 5, root := 4,
    nodes := [⟨3, -1, -1, 0, 0⟩, ⟨3, -1, -1, 0, 0⟩, ⟨4, -1, -1, 0, 0⟩, ⟨4, 0, 1, 50, 0⟩,
      ⟨-1, 2, 3, 150, 0⟩, default, default] }

/-- The one-node trunk in an array with room for two more nodes. -/
def trunkRoom : LocalTree :=
  { nnodes := 1, root := 0, nodes := [⟨-1, -1, -1, 0, 0⟩, default, default] }

/-- The displacement of the nodes made by `remove_tree_branch` on a tree with
`n` nodes and `L` leaves, when the leaf `rl` and its parent `rc` are removed:
the last leaf goes to the slot of `rl`, node `n - 2` to the slot of the last
leaf, node `n - 1` to the slot of `rc` (to the slot of the last leaf when `rc`
is `n - 2`); the removed nodes, and -1, go to -1. -/
def removeDisplace (n L rl rc x : Int) : Int :=
  if x = rl ∨ x = rc then -1
  else if x = L - 1 then rl
  else if x = n - 2 then L - 1
  else if x = n - 1 then (if rc ≠ n - 2 then rc else L - 1)
  else x

/-- The arrays `N` and `N2` hold the same age in every slot. -/
def SameAges (N N2 : List LocalNode) : Prop :=
  ∀ j : Int, (nodeAt N2 j).age = (nodeAt N j).age

/-- The tree `(0,1)2` with two leaves: parent array `[2,2,-1]`, ages
`[0,0,10]`. -/
def tree3 : LocalTree :=
  { nnodes := 3, root := 2,
    nodes := [⟨2, -1, -1, 0, 0⟩, ⟨2, -1, -1, 0, 0⟩, ⟨-1, 0, 1, 10, 0⟩] }

/-- The tree `((0,1)3,2)4` with an ancient sample: leaf 1 has age 7; parent
array `[3,3,4,4,-1]`, ages `[0,7,0,50,150]`, in an array with room for two
more nodes. -/
def treeAncient : LocalTree :=
  { nnodes := 5, root := 4,
    nodes := [⟨3, -1, -1, 0, 0⟩, ⟨3, -1, -1, 7, 0⟩, ⟨4, -1, -1, 0, 0⟩, ⟨4, 0, 1, 50, 0⟩,
      ⟨-1, 2, 3, 150, 0⟩, default, default] }

/-! ## The list of local trees -/

/-- A local tree with the SPR and the mapping that lead to it, and the length
of its block (`class LocalTreeSpr`); `mapping` is `none` for `NULL`. -/
structure LocalTreeSpr where
  tree : LocalTree
  spr : Spr
  mapping : Option (List Int)
  blocklen : Int
deriving DecidableEq, Repr

/-- The ARG as a list of local trees (`class LocalTrees`). -/
structure LocalTrees where
  chrom : String
  start_coord : Int
  end_coord : Int
  nnodes : Int
  trees : List LocalTreeSpr
  seqids : List Int
deriving DecidableEq, Repr

/-- The value left by `Spr::set_null`, also `Spr(-1, -1, -1, -1, -1)`. -/
def Spr.null : Spr := ⟨-1, -1, -1, -1, -1⟩

/-- The constructor `LocalTree(ptree, nnodes, ages, NULL, capacity)`: the
field `capacity` starts at 0 and `set_ptree` takes the argument when it is not
negative. -/
def LocalTree.ofPtree (ptree ages : List Int) (capacity : Int) : Option LocalTree :=
  set_ptree ptree ages (if 0 ≤ capacity then capacity.toNat else 0)

/-- The method `LocalTrees::make_trunk`: the trunk genealogy, one tree with
the single node 0; the trees held before are cleared, `chrom` is not
touched. -/
def LocalTrees.make_trunk (trees : LocalTrees) (start end_ seqid pop_path capacity : Int) :
    Option LocalTrees :=
  (LocalTree.ofPtree [-1] [0] capacity).bind fun tree =>
  -- `tree->nodes[0].pop_path = pop_path`
  (modNode tree.nodes 0 fun n => { n with pop_path := pop_path }).map fun nodes =>
  { chrom := trees.chrom, start_coord := start, end_coord := end_, nnodes := 1,
    trees := [{ tree := { tree with nodes := nodes }, spr := ⟨-1, -1, -1, -1, -1⟩,
                mapping := none, blocklen := end_ - start }],
    seqids := [seqid] }

/-- The loop of `LocalTrees::get_block`: the position in the list, the start
and the end of the first block that holds `site`; `none` for `end()`. -/
def get_block_loop : List LocalTreeSpr → Nat → Int → Int → Option (Nat × Int × Int)
  | [], _, _, _ => none
  | x :: rest, i, end_, site =>
    let start := end_
    let end_ := end_ + x.blocklen
    if start ≤ site ∧ site < end_ then some (i, start, end_)
    else get_block_loop rest (i + 1) end_ site

/-- The method `LocalTrees::get_block(site, start, end)`. -/
def LocalTrees.get_block (trees : LocalTrees) (site : Int) : Option (Nat × Int × Int) :=
  get_block_loop trees.trees 0 trees.start_coord site

/-- Lines 837-842 of `partition_local_trees`: the copy of the first `nnodes`
entries of a mapping, `NULL` for `NULL`. -/
def copy_mapping (mapping : Option (List Int)) (nnodes : Int) : Option (Option (List Int)) :=
  match mapping with
  | none => some none
  | some m => if nnodes ≤ m.length then some (some (m.take nnodes.toNat)) else none

/-- The function `partition_local_trees(trees, pos, it, it_start, trim)` of
`local_tree.cpp`: the trees from position `it` on are moved to a new list
`trees2`; the result is the pair of `trees` after the call and `trees2`. -/
def partition_local_trees_at (trees : LocalTrees) (pos : Int) (it : Nat) (it_start : Int)
    (trim : Bool) : Option (LocalTrees × LocalTrees) :=
  match trees.trees.drop it with
  | [] => none -- `it2` cannot be dereferenced
  | first :: rest =>
    (if trim then
        -- copy first tree back
        first.tree.copy.bind fun last_tree =>
        (copy_mapping first.mapping trees.nnodes).map fun mapping =>
        (trees.trees.take it ++
            [{ tree := last_tree, spr := first.spr, mapping := mapping,
               blocklen := pos - it_start }],
          -- modify first tree of trees2
          { first with mapping := none, spr := ⟨-1, -1, -1, -1, -1⟩ })
      else some (trees.trees.take it, first)).bind fun (left, first) =>
    let first := { first with blocklen := first.blocklen - (pos - it_start) }
    (assertion (decide (first.blocklen > 0))).map fun _ =>
    ({ trees with trees := left, end_coord := pos },
      { chrom := trees.chrom, start_coord := pos, end_coord := trees.end_coord,
        nnodes := trees.nnodes, trees := first :: rest, seqids := trees.seqids })

/-- The function `partition_local_trees(trees, pos, trim)` of
`local_tree.cpp`: breaks a list of local trees in two.  The result is the
pair of `trees` after the call and the list returned, `none` for `NULL`. -/
def partition_local_trees (trees : LocalTrees) (pos : Int) (trim : Bool) :
    Option (LocalTrees × Option LocalTrees) :=
  -- special case (pos at beginning of local trees)
  if pos = trees.start_coord then
    some ({ trees with trees := [], end_coord := pos },
      some { chrom := trees.chrom, start_coord := pos, end_coord := trees.end_coord,
             nnodes := trees.nnodes, trees := trees.trees, seqids := trees.seqids })
  -- special case (pos at end of local trees)
  else if pos = trees.end_coord then
    some (trees,
      some { chrom := trees.chrom, start_coord := pos, end_coord := pos,
             nnodes := trees.nnodes, trees := [],
             seqids := trees.seqids ++ trees.seqids })
  else
    -- find break point
    match trees.get_block pos with
    | some (it, start, _) =>
        (partition_local_trees_at trees pos it start trim).map fun (l, r) => (l, some r)
    | none => some (trees, none) -- break point was not found

/-- The sum of the block lengths of a list of local trees. -/
def sumBlocklen (l : List LocalTreeSpr) : Int := (l.map fun x => x.blocklen).sum

/-- The storage of every local tree holds `nnodes` nodes, and every mapping
has `nnodes` entries. -/
def StorageOk (trees : LocalTrees) : Prop :=
  ∀ x ∈ trees.trees, x.tree.nnodes ≤ x.tree.nodes.length ∧
    ∀ m : List Int, x.mapping = some m → trees.nnodes ≤ m.length

/-- The trunk tree on one node. -/
def trunkTree : LocalTree := { nnodes := 1, root := 0, nodes := [⟨-1, -1, -1, 0, 0⟩] }

/-- A trunk ARG on `[0, 10)` with a block of length 10 and a stub of length
0, as left by a partition at the start of a block. -/
def treesStub : LocalTrees :=
  { chrom := "chr", start_coord := 0, end_coord := 10, nnodes := 1,
    trees := [⟨trunkTree, ⟨-1, -1, -1, -1, -1⟩, none, 10⟩, ⟨trunkTree, ⟨0, 0, 0, 0, 0⟩, some [0], 0⟩],
    seqids := [7] }

/-- A trunk ARG on `[0, 10)` with the blocks `[0, 4)` and `[4, 10)`. -/
def treesTwo : LocalTrees :=
  { chrom := "chr", start_coord := 0, end_coord := 10, nnodes := 1,
    trees := [⟨trunkTree, ⟨-1, -1, -1, -1, -1⟩, none, 4⟩, ⟨trunkTree, ⟨0, 0, 0, 0, 0⟩, some [0], 6⟩],
    seqids := [7] }

/-- The left part of `treesTwo` split at position 7. -/
def treesTwoLeft : LocalTrees :=
  { chrom := "chr", start_coord := 0, end_coord := 7, nnodes := 1,
    trees := [⟨trunkTree, ⟨-1, -1, -1, -1, -1⟩, none, 4⟩, ⟨trunkTree, ⟨0, 0, 0, 0, 0⟩, some [0], 3⟩],
    seqids := [7] }

/-- The right part of `treesTwo` split at position 7. -/
def treesTwoRight : LocalTrees :=
  { chrom := "chr", start_coord := 7, end_coord := 10, nnodes := 1,
    trees := [⟨trunkTree, ⟨-1, -1, -1, -1, -1⟩, none, 3⟩], seqids := [7] }

/-! ## Removal paths -/

/-- The method `LocalTree::get_sibling`: -1 for a node without parent. -/
def LocalTree.get_sibling (tree : LocalTree) (node : Int) : Option Int :=
  (getNode tree.nodes node).bind fun n =>
  let parent := n.parent
  if parent = -1 then some (-1)
  else
    (getNode tree.nodes parent).map fun pn =>
    if pn.child0 = node then pn.child1 else pn.child0

/-- The function `get_next_removal_nodes` of `thread.cpp`: the next possible
branches in a removal path; the result is the array `next_nodes`. -/
def get_next_removal_nodes (tree1 : LocalTree) (spr2 : Spr) (mapping2 : List Int)
    (node recoal : Int) : Option (Int × Int) :=
  if spr2.coal_node = spr2.recomb_node then
    (getAt mapping2 node).bind fun n0 =>
    (assertion (decide (n0 ≠ -1))).map fun _ => (n0, -1)
  else
    (if recoal = -1 then get_recoal_node tree1 spr2 mapping2 else some recoal).bind
      fun recoal =>
    -- get passive transition
    (getAt mapping2 node).bind fun n0 =>
    (if n0 = -1 then
        -- node is broken by SPR
        (tree1.get_sibling spr2.recomb_node).bind fun sib =>
        if spr2.coal_node = sib then some recoal else getAt mapping2 sib
      else some n0).map fun n0 =>
    -- get possible active transition
    (n0, if spr2.coal_node = node then recoal else -1)

/-- Lines 1756-1802 of `remove_arg_thread_path`, the edit of one local tree:
a tree whose removal node is the root is kept; otherwise the branch of the
removal node is pruned and regrafted above the root at `maxtime`, and the
subtree is made the first child of the new root. -/
def remove_path_prune (tree : LocalTree) (removal_node maxtime : Int)
    (pop_tree : Option PopulationTree) : Option LocalTree :=
  if removal_node = tree.root then
    -- removal path has "fallen off the top" there is nothing to edit
    some tree
  else
    -- modify local into subtree-maintree format
    (getNode tree.nodes removal_node).bind fun vn =>
    let broken_node := vn.parent
    (getNode tree.nodes broken_node).bind fun _ =>
    (tree.get_sibling removal_node).bind fun _ =>
    let pop_path := match pop_tree with
      | none => 0
      | some pt => pt.path_to_root tree.nodes removal_node
    let removal_spr : Spr := ⟨removal_node, vn.age, tree.root, maxtime, pop_path⟩
    (apply_spr tree removal_spr pop_tree).bind fun tree =>
    -- determine subtree and maintree roots
    let subtree_root := removal_node
    (tree.get_sibling subtree_root).bind fun maintree_root =>
    -- ensure subtree is the first child of the root
    (getNode tree.nodes tree.root).bind fun rn =>
    if rn.child0 = maintree_root then
      (modNode tree.nodes tree.root fun n =>
        { n with child0 := subtree_root, child1 := maintree_root }).map fun nodes =>
      { tree with nodes := nodes }
    else some tree

/-- The loop `for (node = 0; node < n; node++) out[node] = f(node)` for a body
that may abort: the list of the results. -/
def tabulateOpt {α : Type} (f : Int → Option α) : List Nat → Option (List α)
  | [] => some []
  | i :: rest => (f i).bind fun a => (tabulateOpt f rest).map fun l => a :: l

/-- Lines 731-737 of `get_prev_removal_nodes` (also 770-774 of
`get_all_prev_removal_nodes`): "make inverse mapping". -/
def fill_inv_mapping (nnodes : Int) (mapping2 : List Int) : Option (List Int) :=
  forLoop (fun i inv =>
      (getAt mapping2 i).bind fun mi =>
      if mi ≠ -1 then setAt inv mi i else some inv)
    (List.range nnodes.toNat) (List.replicate nnodes.toNat (-1))

/-- Lines 719-723 of `get_prev_removal_nodes`: the first index whose mapping
is `node`, -1 when there is none. -/
def find_preimage (mapping2 : List Int) (node : Int) : List Nat → Option Int
  | [] => some (-1)
  | i :: rest =>
    (getAt mapping2 i).bind fun mi =>
    if mi = node then some i else find_preimage mapping2 node rest

/-- The function `get_prev_removal_nodes` of `thread.cpp`: the previous
possible branches in a removal path; the result is the array `prev_nodes`,
and `inv_mapping` is `none` for `NULL`. -/
def get_prev_removal_nodes (tree1 : LocalTree) (spr2 : Spr) (mapping2 : List Int)
    (node : Int) (inv_mapping : Option (List Int)) : Option (Int × Int) :=
  let nnodes := tree1.nnodes
  if spr2.coal_node = spr2.recomb_node then
    (find_preimage mapping2 node (List.range nnodes.toNat)).bind fun p0 =>
    (assertion (decide (p0 ≠ -1))).map fun _ => (p0, -1)
  else
    -- make inverse mapping
    (match inv_mapping with
      | some inv => some inv
      | none => fill_inv_mapping nnodes mapping2).bind fun inv =>
    -- get first transition
    (getAt inv node).bind fun p0 =>
    (if p0 = -1 then
        -- there is no inv_mapping because node is recoal
        -- the node spr.coal_node therefore is the previous node
        (tree1.get_sibling spr2.recomb_node).bind fun sib =>
        if sib = spr2.coal_node then
          (getNode tree1.nodes sib).map fun (sn : LocalNode) => (spr2.coal_node, sn.parent)
        else some ((spr2.coal_node, -1) : Int × Int)
      else
        -- get optional second transition
        (tree1.get_sibling spr2.recomb_node).bind fun sib =>
        (getAt mapping2 sib).bind fun ms =>
        if ms = node ∧ sib ≠ spr2.coal_node then
          (getNode tree1.nodes sib).map fun (sn : LocalNode) => (p0, sn.parent)
        else some (p0, -1)).bind fun pv =>
    (assertion (decide (pv.1 ≥ 0 ∨ pv.2 ≥ 0))).map fun _ => pv

/-- The function `get_all_next_removal_nodes` of `thread.cpp`. -/
def get_all_next_removal_nodes (tree1 : LocalTree) (spr2 : Spr) (mapping2 : List Int) :
    Option (List (Int × Int)) :=
  (get_recoal_node tree1 spr2 mapping2).bind fun recoal =>
  tabulateOpt (fun node =>
      (get_next_removal_nodes tree1 spr2 mapping2 node recoal).bind fun nx =>
      (assertion (decide (nx.1 ≠ nx.2))).map fun _ => nx)
    (List.range tree1.nnodes.toNat)

/-- The function `get_all_prev_removal_nodes` of `thread.cpp`. -/
def get_all_prev_removal_nodes (tree1 : LocalTree) (spr2 : Spr) (mapping2 : List Int) :
    Option (List (Int × Int)) :=
  (fill_inv_mapping tree1.nnodes mapping2).bind fun inv_mapping =>
  tabulateOpt (fun node => get_prev_removal_nodes tree1 spr2 mapping2 node (some inv_mapping))
    (List.range tree1.nnodes.toNat)

/-- Lines 947-953 of `sample_arg_removal_path_recomb`: "assert transitions". -/
def assert_transitions (nnodes : Int) (next_nodes prev_nodes : List (Int × Int)) :
    Option Unit :=
  forLoop (fun j _ =>
      (getAt next_nodes j).bind fun nx =>
      (getAt prev_nodes nx.1).bind fun pk =>
      (assertion (decide (pk.1 = j ∨ pk.2 = j))).bind fun _ =>
      if nx.2 ≠ -1 then
        (getAt prev_nodes nx.2).bind fun pk =>
        assertion (decide (pk.1 = j ∨ pk.2 = j))
      else some ())
    (List.range nnodes.toNat) ()

/-- The mapping of an SPR with broken node `b` on `n` nodes, up to the names
of the nodes: entries -1 or nodes, injective on the entries other than -1,
and `b` the only node mapped to -1. -/
def IsRemovalMapping (n b : Int) (m : List Int) : Prop :=
  n ≤ m.length ∧ MappingInRange n m ∧ MappingInjective n m ∧ readAt m b = -1 ∧
  ∀ i : Int, 0 ≤ i → i < n → readAt m i = -1 → i = b

instance (n b : Int) (m : List Int) : Decidable (IsRemovalMapping n b m) := by
  unfold IsRemovalMapping; infer_instance

/-- The mapping of a self SPR on `n` nodes: a permutation of the nodes. -/
def IsPermMapping (n : Int) (m : List Int) : Prop :=
  n ≤ m.length ∧ MappingInRange n m ∧ MappingInjective n m ∧
  ∀ i : Int, 0 ≤ i → i < n → readAt m i ≠ -1

instance (n : Int) (m : List Int) : Decidable (IsPermMapping n m) := by
  unfold IsPermMapping; infer_instance

/-- The node `k` is one of the next removal nodes of `j`: one of the two
entries of `next_nodes` written by `get_next_removal_nodes` (with the recoal
node looked up by the function). -/
def isNextRemovalNode (tree1 : LocalTree) (spr2 : Spr) (mapping2 : List Int) (j k : Int) :
    Bool :=
  match get_next_removal_nodes tree1 spr2 mapping2 j (-1) with
  | some nx => decide (k = nx.1 ∨ k = nx.2)
  | none => false

/-- The node `j` is one of the previous removal nodes of `k`: one of the two
entries of `prev_nodes` written by `get_prev_removal_nodes` (with the inverse
mapping made by the function). -/
def isPrevRemovalNode (tree1 : LocalTree) (spr2 : Spr) (mapping2 : List Int) (k j : Int) :
    Bool :=
  match get_prev_removal_nodes tree1 spr2 mapping2 k none with
  | some pv => decide (j = pv.1 ∨ j = pv.2)
  | none => false

/-- The step relation of removal paths across a non-self SPR, in terms of the
mapping: `k` is the image of `j`; or `j` is the broken node and `k` the image
of the sibling of `recomb_node`, when that sibling is not `coal_node`; or `k`
is the recoal node `u` and `j` is `coal_node`, or the broken node when
`coal_node` is the sibling of `recomb_node`. -/
def RemovalStep (tree1 : LocalTree) (spr2 : Spr) (mapping2 : List Int) (u j k : Int) : Prop :=
  readAt mapping2 j = k ∨
  (j = (tree1.node spr2.recomb_node).parent ∧ tree1.sibling spr2.recomb_node ≠ spr2.coal_node ∧
    readAt mapping2 (tree1.sibling spr2.recomb_node) = k) ∨
  (k = u ∧ (j = spr2.coal_node ∨
    (j = (tree1.node spr2.recomb_node).parent ∧ tree1.sibling spr2.recomb_node = spr2.coal_node)))

/-! ## Removing null SPRs (`remove_null_spr`, `remove_null_sprs`) -/

/-- The three assertions in the loop of `remove_null_spr` for node `i`: the
node and its image under `it2->mapping` have the same age, their parents have
the same age (for `i` other than the root), and, with a population tree, their
population paths agree (for `i` other than the subtree root). -/
def null_spr_asserts (tree1 tree2 : LocalTree) (mapping2 : List Int)
    (pop_tree : Option PopulationTree) (subtree_root i : Int) : Option Unit :=
  (getNode tree1.nodes i).bind fun n1 =>
  (getAt mapping2 i).bind fun mi =>
  (getNode tree2.nodes mi).bind fun n2 =>
  (assertion (decide (n1.age = n2.age))).bind fun _ =>
  (if i ≠ tree1.root then
      (getNode tree1.nodes n1.parent).bind fun p1 =>
      (getNode tree2.nodes n2.parent).bind fun p2 =>
      assertion (decide (p1.age = p2.age))
    else some ()).bind fun _ =>
  if i = subtree_root then some ()
  else
    match pop_tree with
    | none => some ()
    | some pt =>
      (if i = tree1.root then some (-1)
        else (getNode tree1.nodes n1.parent).map fun p1 => p1.age).bind fun parent_age =>
      assertion (pt.paths_equal n1.pop_path n2.pop_path n1.age parent_age)

/-- One pass of the loop of assertions of `remove_null_spr`; the pass reads
`it2->mapping[i]`. -/
def null_spr_check (it it2 : LocalTreeSpr) (pop_tree : Option PopulationTree)
    (subtree_root i : Int) : Option Unit :=
  match it2.mapping with
  | none => none
  | some mapping2 => null_spr_asserts it.tree it2.tree mapping2 pop_tree subtree_root i

/-- The block "compute transitive mapping" / "set mapping" of
`remove_null_spr`: `mapping[i] = M2[M1[i]]` (or -1), then copied into `M2`. -/
def transitive_mapping (nnodes : Int) (M1 M2 : List Int) : Option (List Int) :=
  (tabulateOpt (fun i => (getAt M1 i).bind fun a => if a ≠ -1 then getAt M2 a else some (-1))
    (List.range nnodes.toNat)).bind fun mapping =>
  forLoop (fun i m2 => (getAt mapping i).bind fun v => setAt m2 i v)
    (List.range nnodes.toNat) M2

/-- The function `remove_null_spr(trees, it, pop_tree)` on the tuple `it` and
the tuple after it (`none` at the end of the list).  The result is
`some none` when the function returns `false` (nothing changes) and
`some (some x)` when it returns `true`: `it` has been erased and `x` stands
in the place of the next tuple. -/
def remove_null_spr (it : LocalTreeSpr) (next : Option LocalTreeSpr)
    (pop_tree : Option PopulationTree) : Option (Option LocalTreeSpr) :=
  match next with
  | none => some none
  | some it2 =>
    -- get spr from next tree, skip it if it is not null
    if it2.spr.is_null = false then some none
    else
      let nnodes := it2.tree.nnodes
      (getNode it.tree.nodes it.tree.root).bind fun rn =>
      let subtree_root := rn.child0
      (forLoop (fun i _ => null_spr_check it it2 pop_tree subtree_root i)
        (List.range nnodes.toNat) ()).bind fun _ =>
      (match it.mapping with
        | none =>
          -- it2 will become first tree and therefore does not need a mapping
          some ({ it2 with mapping := none } : LocalTreeSpr)
        | some M1 =>
          match it2.mapping with
          | none => none
          | some M2 =>
            (transitive_mapping nnodes M1 M2).bind fun m =>
            -- copy over non-null spr
            (assertion (!it.spr.is_null)).map fun _ =>
            ({ it2 with mapping := some m, spr := it.spr } : LocalTreeSpr)).map
        fun (it2 : LocalTreeSpr) =>
      -- delete this tree
      some { it2 with blocklen := it2.blocklen + it.blocklen }

/-- The loop of `remove_null_sprs` from the iterator `it` on, where `rest` is
the list after `it`; the result is the list from `it` on after the loop. -/
def remove_null_sprs_from (pop_tree : Option PopulationTree) (it : LocalTreeSpr) :
    List LocalTreeSpr → Option (List LocalTreeSpr)
  | [] => (remove_null_spr it none pop_tree).map fun _ => [it]
  | it2 :: rest =>
    (remove_null_spr it (some it2) pop_tree).bind fun r =>
    match r with
    | some merged => remove_null_sprs_from pop_tree merged rest
    | none => (remove_null_sprs_from pop_tree it2 rest).map fun l => it :: l

/-- The function `remove_null_sprs(trees, pop_tree)`. -/
def remove_null_sprs (trees : LocalTrees) (pop_tree : Option PopulationTree) :
    Option LocalTrees :=
  match trees.trees with
  | [] => some trees
  | it :: rest =>
    (remove_null_sprs_from pop_tree it rest).map fun l => { trees with trees := l }

/-- A mapping array for trees of `n` nodes: `n` entries, each -1 or a node. -/
def MappingOk (n : Int) (m : List Int) : Prop :=
  n ≤ m.length ∧ ∀ i : Int, 0 ≤ i → i < n → readAt m i = -1 ∨ (0 ≤ readAt m i ∧ readAt m i < n)

instance (n : Int) (m : List Int) : Decidable (MappingOk n m) := by
  unfold MappingOk; infer_instance

/-- The test `pop_tree == NULL || pop_tree->paths_equal(path1, path2, t1, t2)`
as a proposition. -/
def PathsAgree (pop_tree : Option PopulationTree) (path1 path2 t1 t2 : Int) : Prop :=
  match pop_tree with
  | none => True
  | some pt => pt.paths_equal path1 path2 t1 t2 = true

instance (pop_tree : Option PopulationTree) (path1 path2 t1 t2 : Int) :
    Decidable (PathsAgree pop_tree path1 path2 t1 t2) := by
  unfold PathsAgree; cases pop_tree <;> infer_instance

/-- The tree `tree2` is congruent to `tree1` under `mapping`: every node of
`tree1` has an image of the same age, the parents of a node and of its image
have the same age, and with a population tree the population paths agree
(the subtree root apart). -/
def Congruent (pop_tree : Option PopulationTree) (tree1 tree2 : LocalTree)
    (mapping : List Int) : Prop :=
  inArr tree1.nodes tree1.root ∧
  ∀ i : Int, 0 ≤ i → i < tree2.nnodes →
    inArr tree1.nodes i ∧ inArr mapping i ∧ inArr tree2.nodes (readAt mapping i) ∧
    (nodeAt tree1.nodes i).age = (nodeAt tree2.nodes (readAt mapping i)).age ∧
    (i ≠ tree1.root →
      inArr tree1.nodes (nodeAt tree1.nodes i).parent ∧
      inArr tree2.nodes (nodeAt tree2.nodes (readAt mapping i)).parent ∧
      (nodeAt tree1.nodes (nodeAt tree1.nodes i).parent).age =
        (nodeAt tree2.nodes (nodeAt tree2.nodes (readAt mapping i)).parent).age) ∧
    (i ≠ (nodeAt tree1.nodes tree1.root).child0 →
      PathsAgree pop_tree (nodeAt tree1.nodes i).pop_path
        (nodeAt tree2.nodes (readAt mapping i)).pop_path (nodeAt tree1.nodes i).age
        (if i = tree1.root then -1
          else (nodeAt tree1.nodes (nodeAt tree1.nodes i).parent).age))

instance (pop_tree : Option PopulationTree) (tree1 tree2 : LocalTree) (mapping : List Int) :
    Decidable (Congruent pop_tree tree1 tree2 mapping) := by
  unfold Congruent; infer_instance

/-- Every tuple of the list with a null SPR carries a mapping under which its
tree is congruent to the tree before it (`prev` before the first). -/
def NullCongruent (pop_tree : Option PopulationTree) :
    LocalTree → List LocalTreeSpr → Prop
  | _, [] => True
  | prev, x :: rest =>
    (x.spr.is_null = true → ∃ m, x.mapping = some m ∧ Congruent pop_tree prev x.tree m) ∧
    NullCongruent pop_tree x.tree rest

/-- Every tuple of the ARG with a null SPR, the first apart, is congruent to
its predecessor under its mapping. -/
def NullSprsCongruent (pop_tree : Option PopulationTree) (l : List LocalTreeSpr) : Prop :=
  match l with
  | [] => True
  | first :: rest => NullCongruent pop_tree first.tree rest

/-- The list shape of an ARG: the first tuple has a null SPR and no mapping,
every other tuple carries a mapping array, and all trees have `n` nodes. -/
def ListShape (n : Int) (l : List LocalTreeSpr) : Prop :=
  match l with
  | [] => True
  | first :: rest =>
    first.spr.is_null = true ∧ first.mapping = none ∧ first.tree.nnodes = n ∧
    ∀ x ∈ rest, x.tree.nnodes = n ∧ ∃ m, x.mapping = some m ∧ MappingOk n m

/-- The property that `remove_null_sprs` restores: the first tuple has a null
SPR and no mapping, every other tuple has a non-null SPR. -/
def NoNullSprs (l : List LocalTreeSpr) : Prop :=
  match l with
  | [] => True
  | first :: rest =>
    first.spr.is_null = true ∧ first.mapping = none ∧ ∀ x ∈ rest, x.spr.is_null = false

/-- The kind of tuple the loop of `remove_null_sprs` stands on: the first of
the list (null SPR, no mapping) or a tuple with a non-null SPR and a mapping. -/
def IterKind (n : Int) (first : Bool) (it : LocalTreeSpr) : Prop :=
  if first then it.spr.is_null = true ∧ it.mapping = none
  else it.spr.is_null = false ∧ ∃ m, it.mapping = some m ∧ MappingOk n m

/-- An ARG of four copies of the tree `(0,1)2` on `[0, 10)`: the second and
the fourth tuple have a null SPR, the third has the SPR that moves leaf 0
onto leaf 1 at time 5. -/
def treesNull : LocalTrees :=
  { chrom := "chr", start_coord := 0, end_coord := 10, nnodes := 3,
    trees := [⟨tree3, Spr.null, none, 2⟩, ⟨tree3, Spr.null, some [0, 1, 2], 3⟩,
              ⟨tree3, ⟨0, 5, 1, 10, 0⟩, some [0, 1, -1], 1⟩,
              ⟨tree3, Spr.null, some [1, 0, 2], 4⟩],
    seqids := [0, 1] }

/-! ## Copying an ARG (`LocalTrees::copy`) and the rejection step of
`resample_arg_mcmc` -/

/-- The body of the loop "copy local trees" of `LocalTrees::copy` for one
tuple: a new tree that copies `it->tree`, and a new mapping array of
`it->tree->nnodes` entries. -/
def copy_tuple (it : LocalTreeSpr) : Option LocalTreeSpr :=
  (LocalTree.copy it.tree).bind fun tree2 =>
  (copy_mapping it.mapping it.tree.nnodes).map fun mapping2 =>
  { tree := tree2, spr := it.spr, mapping := mapping2, blocklen := it.blocklen }

/-- The loop "copy local trees" of `LocalTrees::copy`. -/
def copy_tuples : List LocalTreeSpr → Option (List LocalTreeSpr)
  | [] => some []
  | it :: rest =>
    (copy_tuple it).bind fun x => (copy_tuples rest).map fun l => x :: l

/-- The method `LocalTrees::copy(other)`: the previous data are cleared, so
the result depends on `other` alone. -/
def LocalTrees.copy (other : LocalTrees) : Option LocalTrees :=
  (copy_tuples other.trees).map fun l =>
  { chrom := other.chrom, start_coord := other.start_coord, end_coord := other.end_coord,
    nnodes := other.nnodes, trees := l, seqids := other.seqids }

/-- The function `resample_arg_mcmc(model, sequences, trees)`.  The calls
between the saving of the copy and the test (`sample_arg_removal_path_uniform`,
`remove_arg_thread_path`, `sample_arg_thread_internal`,
`count_total_arg_removal_paths`) and the draw `frand() < accept_prob` are the
parameter `propose`: it maps the ARG to the ARG after removal and
rethreading, together with the value of `accept`.  The result is the ARG
after the call and the returned flag. -/
def resample_arg_mcmc (propose : LocalTrees → Option (LocalTrees × Bool)) (trees : LocalTrees) :
    Option (LocalTrees × Bool) :=
  -- save a copy of the local trees
  (LocalTrees.copy trees).bind fun trees2 =>
  (propose trees).bind fun (trees, accept) =>
  -- perform reject if needed
  (if !accept then LocalTrees.copy trees2 else some trees).map fun trees =>
  (trees, accept)

/-- Two mapping pointers are both NULL, or both arrays with the same first `n`
entries. -/
def SameMapping (n : Int) (a b : Option (List Int)) : Prop :=
  match a, b with
  | none, none => True
  | some ma, some mb => ∀ i : Int, 0 ≤ i → i < n → readAt ma i = readAt mb i
  | _, _ => False

/-- Two tuples agree in the tree (number of nodes, root, every node), the SPR,
the block length and the mapping. -/
def SameTuple (a b : LocalTreeSpr) : Prop :=
  a.tree.nnodes = b.tree.nnodes ∧ a.tree.root = b.tree.root ∧
  (∀ i : Int, 0 ≤ i → i < b.tree.nnodes → nodeAt a.tree.nodes i = nodeAt b.tree.nodes i) ∧
  a.spr = b.spr ∧ a.blocklen = b.blocklen ∧ SameMapping b.tree.nnodes a.mapping b.mapping

/-- Two ARGs agree in `chrom`, `start_coord`, `end_coord`, `nnodes`, `seqids`
and tuple by tuple. -/
def SameArg (a b : LocalTrees) : Prop :=
  a.chrom = b.chrom ∧ a.start_coord = b.start_coord ∧ a.end_coord = b.end_coord ∧
  a.nnodes = b.nnodes ∧ a.seqids = b.seqids ∧ List.Forall₂ SameTuple a.trees b.trees

/-- The arrays of every tuple hold the nodes of its tree: `nnodes` is at most
the capacity, and a mapping has at least `nnodes` entries. -/
def TupleStorage (trees : LocalTrees) : Prop :=
  ∀ x ∈ trees.trees, x.tree.nnodes ≤ x.tree.nodes.length ∧
    ∀ m : List Int, x.mapping = some m → x.tree.nnodes ≤ m.length

instance (trees : LocalTrees) : Decidable (TupleStorage trees) := by
  unfold TupleStorage
  have : ∀ x : LocalTreeSpr, Decidable (∀ m : List Int, x.mapping = some m →
      x.tree.nnodes ≤ m.length) := fun x =>
    match h : x.mapping with
    | none => isTrue (fun m hm => by cases hm)
    | some m0 =>
      if h0 : x.tree.nnodes ≤ m0.length then isTrue (fun m hm => by cases hm; exact h0)
      else isFalse (fun hall => h0 (hall m0 rfl))
  infer_instance

/-- A proposal for the scenarios: the thread of the last sequence is removed
from the ARG, which leaves the trunk, and the move is rejected. -/
def proposeTrunk (trees : LocalTrees) : Option (LocalTrees × Bool) :=
  some ({ trees with nnodes := 1, trees := [⟨trunkTree, Spr.null, none, 10⟩] }, false)

/-! ## Resampling of population sizes (`resample_popsizes`)

Values of type `double` are modelled by exact rationals. -/

/-- A parameter of the population size configuration (`PopsizeConfigParam`):
the flag `sample` and the set `pops` of the intervals tied to the parameter,
listed in the order of iteration. -/
structure PopsizeConfigParam where
  sample : Bool
  pops : List Int
deriving DecidableEq, Repr

/-- The loop `for (it2 = it->pops.begin(); ...) if ((*it2) > maxpop) maxpop = *it2;`
from `maxpop = -1`. -/
def max_pop (pops : List Int) : Int :=
  pops.foldl (fun maxpop p => if p > maxpop then p else maxpop) (-1)

/-- The loop `for (it2 = it->pops.begin(); ...) model->popsizes[*it2] = value`. -/
def set_popsizes (popsizes : List ℚ) (value : ℚ) : List Int → Option (List ℚ)
  | [] => some popsizes
  | p :: rest => (setAt popsizes p value).bind fun popsizes => set_popsizes popsizes value rest

/-- The body of the loop over the parameters in `resample_popsizes`, as it acts
on `model->popsizes`.  The proposal `new_popsize` (the value of `rand_gamma`)
and the outcome `accept` of the Metropolis-Hastings test (which depends on
`calc_arg_prior`, `lgamma` and `frand`) are parameters.  The read of
`model->popsizes[maxpop+1]` for the neighbour prior is kept. -/
def popsize_proposal (ntimes : Int) (neighbor_prior : Bool) (popsizes : List ℚ)
    (it : PopsizeConfigParam) (new_popsize : ℚ) (accept : Bool) : Option (List ℚ) :=
  if it.sample = false then some popsizes
  else
    let maxpop := max_pop it.pops
    (getAt popsizes maxpop).bind fun old_popsize =>
    (if neighbor_prior = false ∨ maxpop ≥ 2 * ntimes - 2 then some old_popsize
      else getAt popsizes (maxpop + 1)).bind fun _prev_popsize =>
    (set_popsizes popsizes new_popsize it.pops).bind fun popsizes =>
    if accept then some popsizes
    else set_popsizes popsizes old_popsize it.pops

/-! ## Resampling of migration rates (`resample_migrates`) -/

/-- Modelled from the spec: the class `MigMatrix` is not among the sources.  A
migration matrix is a square table of probabilities, one row for each
population a lineage migrates from, with the accessors `get(from, to)` and
`set(from, to, value)`. -/
structure MigMatrix where
  rows : List (List ℚ)
deriving DecidableEq, Repr, Inhabited

/-- The accessor `MigMatrix::get(from_pop, to_pop)`. -/
def MigMatrix.get (m : MigMatrix) (from_pop to_pop : Int) : Option ℚ :=
  (getAt m.rows from_pop).bind fun row => getAt row to_pop

/-- The accessor `MigMatrix::set(from_pop, to_pop, value)`. -/
def MigMatrix.set (m : MigMatrix) (from_pop to_pop : Int) (value : ℚ) : Option MigMatrix :=
  (getAt m.rows from_pop).bind fun row =>
  (setAt row to_pop value).bind fun row =>
  (setAt m.rows from_pop row).map fun rows => { rows := rows }

/-- A migration parameter (`MigParam`). -/
structure MigParam where
  from_pop : Int
  to_pop : Int
  time_idx : Int
  alpha : ℚ
  beta : ℚ
deriving DecidableEq, Repr

/-- The loop `new_migrate = 1.0; while (new_migrate > 0.5) new_migrate =
rand_beta(alpha, beta);`.  The values that `rand_beta` returns are the list
`draws`; the result is the first draw that ends the loop and the draws that
are left (`none` when no draw of the list ends it). -/
def draw_new_migrate : List ℚ → Option (ℚ × List ℚ)
  | [] => none
  | d :: rest => if d > 1 / 2 then draw_new_migrate rest else some (d, rest)

/-- The body of the loop of `resample_migrates` for the migration parameter
`mp`, as it acts on `pop_tree->mig_matrix`.  The counts of
`count_mig_events` enter the draw of `rand_beta` only, whose values are the
parameter `draws`; `update_population_probs` does not write the matrices. -/
def resample_migrate (mig_matrix : List MigMatrix) (mp : MigParam) (draws : List ℚ) :
    Option (List MigMatrix × List ℚ) :=
  (draw_new_migrate draws).bind fun (new_migrate, draws) =>
  (getAt mig_matrix mp.time_idx).bind fun m =>
  (m.get mp.from_pop mp.to_pop).bind fun curr_migrate =>
  let diff := new_migrate - curr_migrate
  (m.get mp.from_pop mp.from_pop).bind fun curr_self_rate =>
  (m.set mp.from_pop mp.to_pop new_migrate).bind fun m =>
  (setAt mig_matrix mp.time_idx m).bind fun mig_matrix =>
  (getAt mig_matrix mp.time_idx).bind fun m =>
  (m.set mp.from_pop mp.from_pop (curr_self_rate - diff)).bind fun m =>
  (setAt mig_matrix mp.time_idx m).map fun mig_matrix =>
  (mig_matrix, draws)

/-- The function `resample_migrates` on the migration matrices of the
population tree (`none` for `model->pop_tree == NULL`): the loop over
`pop_tree->mig_params`. -/
def resample_migrates (pop_tree : Option (List MigParam × List MigMatrix)) (draws : List ℚ) :
    Option (Option (List MigParam × List MigMatrix)) :=
  match pop_tree with
  | none => some none
  | some (mig_params, mig_matrix) =>
    (mig_params.foldlM (fun (s : List MigMatrix × List ℚ) mp => resample_migrate s.1 mp s.2)
      (mig_matrix, draws)).map fun s => some (mig_params, s.1)

/-- Row `from_pop` of the matrix `mig_matrix[time_idx]`. -/
def migRow (mig_matrix : List MigMatrix) (time_idx from_pop : Int) : List ℚ :=
  readAt (readAt mig_matrix time_idx).rows from_pop

/-- Three populations, one time interval: population 0 keeps a lineage with
probability 1/8, sends it to population 1 with probability 1/8 and to
population 2 with probability 3/4. -/
def migThree : List MigMatrix := [⟨[[1/8, 1/8, 3/4], [0, 1, 0], [0, 0, 1]]⟩]

/-! ## The time grid (`find_time`, `get_coal_time_steps`)

Values of type `double` are modelled by exact rationals, and `INFINITY` by
the top element of `WithTop ℚ`: these are the functions over exact arithmetic.
The same functions in the arithmetic of doubles, where every sum and every
difference is rounded, are `find_time_double` and
`get_coal_time_steps_double`. -/

/-- The function `find_time(time, times, ntimes)`: "find closest time in
times array". -/
def find_time (time : ℚ) (times : List ℚ) (ntimes : Int) : Option Int :=
  (forLoop (fun i (s : WithTop ℚ × Int) =>
      (getAt times i).map fun ti =>
      let diff : ℚ := |ti - time|
      if (diff : WithTop ℚ) < s.1 then ((diff : WithTop ℚ), i) else s)
    (List.range ntimes.toNat) ((⊤ : WithTop ℚ), (-1 : Int))).bind fun s =>
  (assertion (decide (s.2 ≠ -1))).map fun _ => s.2

/-- The state of the loop of `find_time` after the indices below `m`: the
index of the first closest grid point so far, and its distance. -/
def FindTimeInv (time : ℚ) (times : List ℚ) (m : Nat) (s : WithTop ℚ × Int) : Prop :=
  (m = 0 ∧ s = ((⊤ : WithTop ℚ), (-1 : Int))) ∨
  (0 ≤ s.2 ∧ s.2 < m ∧ s.1 = ((|readAt times s.2 - time| : ℚ) : WithTop ℚ) ∧
    (∀ j : Int, 0 ≤ j → j < m → |readAt times s.2 - time| ≤ |readAt times j - time|) ∧
    (∀ j : Int, 0 ≤ j → j < s.2 → |readAt times s.2 - time| < |readAt times j - time|))

/-- The body of the last loop of `get_coal_time_steps`:
`coal_time_steps[i] = times2[min(i+1, 2*ntimes)] - times2[i]`, followed by
the test that the step is not negative.  A slot of `times2` that was never
written has no value to read. -/
def coal_time_step (times2 : List (Option ℚ)) (ntimes : Int) (i : Int)
    (steps : List (WithTop ℚ)) : Option (List (WithTop ℚ)) :=
  (getAt times2 (min (i + 1) (2 * ntimes))).bind fun a =>
  (getAt times2 i).bind fun b =>
  match a, b with
  | some a, some b =>
    (setAt steps i ((a - b : ℚ) : WithTop ℚ)).bind fun steps =>
    (assertion (decide (¬ a - b < 0))).map fun _ => steps
  | _, _ => none

/-- The function `get_coal_time_steps(times, ntimes, coal_time_steps, linear,
delta)`; the result is the array `coal_time_steps` of `2*ntimes-1` entries.
The function `get_time_point` of the non-linear branch is a parameter.  The
array `times2` has `2*ntimes+1` slots, of which the last two are never
written; they are modelled as slots without a value. -/
def get_coal_time_steps (get_time_point : Int → Int → ℚ → ℚ → ℚ) (times : List ℚ)
    (ntimes : Int) (linear : Bool) (delta : ℚ) : Option (List (WithTop ℚ)) :=
  -- get midpoints
  let times2 : List (Option ℚ) := List.replicate (2 * ntimes + 1).toNat none
  (forLoop (fun i t2 => (getAt times i).bind fun ti => setAt t2 (2 * i) (some ti))
    (List.range ntimes.toNat) times2).bind fun times2 =>
  (if linear then
      forLoop (fun i t2 =>
          (getAt times (i + 1)).bind fun a => (getAt times i).bind fun b =>
          setAt t2 (2 * i + 1) (some (1 / 2 * (a + b))))
        (List.range (ntimes - 1).toNat) times2
    else
      forLoop (fun i t2 =>
          (getAt times (ntimes - 1)).bind fun last =>
          setAt t2 (2 * i + 1) (some (get_time_point (2 * i + 1) (2 * ntimes - 2) last delta)))
        (List.range (ntimes - 1).toNat) times2).bind fun times2 =>
  (forLoop (coal_time_step times2 ntimes) (List.range (2 * ntimes - 2).toNat)
    (List.replicate (2 * ntimes - 1).toNat (0 : WithTop ℚ))).bind fun steps =>
  setAt steps (2 * ntimes - 2) ⊤

/-- The grid of midpoints that `get_coal_time_steps` builds in linear mode:
the grid point `times[k/2]` at an even index `k`, the midpoint of `times[k/2]`
and `times[k/2+1]` at an odd index. -/
def midGrid (times : List ℚ) (k : Int) : ℚ :=
  if k % 2 = 0 then readAt times (k / 2)
  else 1 / 2 * (readAt times (k / 2 + 1) + readAt times (k / 2))

/-! ## Lineage counts (`count_lineages`, `count_lineages_internal`) -/

/-- The four output arrays of the lineage counts: `nbranches[ntimes]`,
`nrecombs[ntimes]`, `nbranches_pop[npop][2*ntimes]` and
`ncoals_pop[npop][ntimes]`. -/
structure LineageCounts where
  nbranches : List Int
  nrecombs : List Int
  nbranches_pop : List (List Int)
  ncoals_pop : List (List Int)
deriving DecidableEq, Repr

/-- The statement `xs[i]++`. -/
def incrAt (xs : List Int) (i : Int) : Option (List Int) :=
  (getAt xs i).bind fun v => setAt xs i (v + 1)

/-- The statement `xss[p][i]++`. -/
def incrAt2 (xss : List (List Int)) (p i : Int) : Option (List (List Int)) :=
  (getAt xss p).bind fun row => (incrAt row i).bind fun row => setAt xss p row

/-- The statement `xss[p][i] = v`. -/
def setAt2 (xss : List (List Int)) (p i v : Int) : Option (List (List Int)) :=
  (getAt xss p).bind fun row => (setAt row i v).bind fun row => setAt xss p row

/-- The method `LocalNode::get_pop(time, pop_tree)`. -/
def LocalNode.get_pop (n : LocalNode) (time : Int) (pop_tree : Option PopulationTree) : Int :=
  match pop_tree with
  | none => 0
  | some pt => pt.get_pop n.pop_path time

/-- The value `pop_tree == NULL ? 1 : pop_tree->npop`. -/
def num_pops (pop_tree : Option PopulationTree) : Int :=
  match pop_tree with
  | none => 1
  | some pt => pt.npop

/-- The value `pop_tree == NULL ? 0 : pop_tree->final_pop()`. -/
def final_pop (pop_tree : Option PopulationTree) : Int :=
  match pop_tree with
  | none => 0
  | some pt => pt.final_pop

/-- The block "initialize counts": all four arrays are set to zero. -/
def init_counts (ntimes npop : Int) : LineageCounts :=
  { nbranches := List.replicate ntimes.toNat 0,
    nrecombs := List.replicate ntimes.toNat 0,
    nbranches_pop := List.replicate npop.toNat (List.replicate (2 * ntimes).toNat 0),
    ncoals_pop := List.replicate npop.toNat (List.replicate ntimes.toNat 0) }

/-- The body of the loop "add counts for every segment along branch" for the
node `n` and the time `j`. -/
def count_segment (n : LocalNode) (pop_tree : Option PopulationTree) (j : Int)
    (c : LineageCounts) : Option LineageCounts :=
  let pop := n.get_pop j pop_tree
  (incrAt c.nbranches j).bind fun nbranches =>
  (incrAt c.nrecombs j).bind fun nrecombs =>
  (incrAt2 c.nbranches_pop pop (2 * j)).bind fun nbranches_pop =>
  (incrAt2 c.ncoals_pop pop j).bind fun ncoals_pop =>
  let pop := n.get_pop (j + 1) pop_tree
  (incrAt2 nbranches_pop pop (2 * j + 1)).map fun nbranches_pop =>
  { nbranches := nbranches, nrecombs := nrecombs, nbranches_pop := nbranches_pop,
    ncoals_pop := ncoals_pop }

/-- The block "recomb and coal are also allowed at the top of a branch" for
the node `n`; `top` is the test `parent == -1` of `count_lineages`, or
`parent == tree->root` of `count_lineages_internal`. -/
def count_top (n : LocalNode) (pop_tree : Option PopulationTree) (parent_age : Int)
    (top : Bool) (c : LineageCounts) : Option LineageCounts :=
  let pop := n.get_pop parent_age pop_tree
  (incrAt c.nrecombs parent_age).bind fun nrecombs =>
  (incrAt2 c.ncoals_pop pop parent_age).bind fun ncoals_pop =>
  if top then
    (incrAt c.nbranches parent_age).bind fun nbranches =>
    (incrAt2 c.nbranches_pop pop (2 * parent_age)).bind fun nbranches_pop =>
    let pop := n.get_pop (parent_age + 1) pop_tree
    (incrAt2 nbranches_pop pop (2 * parent_age + 1)).map fun nbranches_pop =>
    { nbranches := nbranches, nrecombs := nrecombs, nbranches_pop := nbranches_pop,
      ncoals_pop := ncoals_pop }
  else
    some { c with nrecombs := nrecombs, ncoals_pop := ncoals_pop }

/-- The body of the loop "iterate over the branches of the tree" of
`count_lineages` for the node `i`. -/
def count_node (tree : LocalTree) (ntimes : Int) (pop_tree : Option PopulationTree) (i : Int)
    (c : LineageCounts) : Option LineageCounts :=
  (getNode tree.nodes i).bind fun n =>
  (assertion (decide (n.age < ntimes - 1))).bind fun _ =>
  let parent := n.parent
  (if parent = -1 then some (ntimes - 2)
    else (getNode tree.nodes parent).map fun p => p.age).bind fun parent_age =>
  -- add counts for every segment along branch
  (forLoop (fun k c => count_segment n pop_tree (n.age + k) c)
    (List.range (parent_age - n.age).toNat) c).bind fun c =>
  count_top n pop_tree parent_age (decide (parent = -1)) c

/-- The block "ensure last time segment always has one branch" of
`count_lineages`. -/
def count_last (ntimes : Int) (pop_tree : Option PopulationTree) (c : LineageCounts) :
    Option LineageCounts :=
  (setAt c.nbranches (ntimes - 1) 1).bind fun nbranches =>
  (forLoop (fun i (s : List (List Int) × List (List Int)) =>
      let v : Int := if i = final_pop pop_tree then 1 else 0
      (setAt2 s.1 i (2 * ntimes - 1) v).bind fun nbranches_pop =>
      (setAt2 nbranches_pop i (2 * (ntimes - 1)) v).bind fun nbranches_pop =>
      (setAt2 s.2 i (ntimes - 1) v).map fun ncoals_pop => (nbranches_pop, ncoals_pop))
    (List.range (num_pops pop_tree).toNat) (c.nbranches_pop, c.ncoals_pop)).map fun s =>
  { nbranches := nbranches, nrecombs := c.nrecombs, nbranches_pop := s.1, ncoals_pop := s.2 }

/-- The function `count_lineages(tree, ntimes, nbranches, nrecombs,
nbranches_pop, ncoals_pop, pop_tree)`; the result holds the four arrays. -/
def count_lineages (tree : LocalTree) (ntimes : Int) (pop_tree : Option PopulationTree) :
    Option LineageCounts :=
  (forLoop (count_node tree ntimes pop_tree) (List.range tree.nnodes.toNat)
    (init_counts ntimes (num_pops pop_tree))).bind fun c =>
  count_last ntimes pop_tree c

/-- The body of the loop "iterate over the branches of the tree" of
`count_lineages_internal` for the node `i`. -/
def count_node_internal (tree : LocalTree) (ntimes : Int) (pop_tree : Option PopulationTree)
    (subtree_root : Int) (i : Int) (c : LineageCounts) : Option LineageCounts :=
  -- skip virtual branches
  if i = subtree_root ∨ i = tree.root then some c
  else
    (getNode tree.nodes i).bind fun n =>
    (assertion (decide (n.age < ntimes - 1))).bind fun _ =>
    let parent := n.parent
    (if parent = tree.root then some (ntimes - 2)
      else (getNode tree.nodes parent).map fun p => p.age).bind fun parent_age =>
    -- add counts for every segment along branch
    (forLoop (fun k c =>
        (count_segment n pop_tree (n.age + k) c).bind fun c =>
        (assertion (decide (n.age + k < ntimes - 1))).map fun _ => c)
      (List.range (parent_age - n.age).toNat) c).bind fun c =>
    count_top n pop_tree parent_age (decide (parent = tree.root)) c

/-- The block "ensure last time segment always has one branch" of
`count_lineages_internal`. -/
def count_last_internal (ntimes : Int) (pop_tree : Option PopulationTree) (c : LineageCounts) :
    Option LineageCounts :=
  (setAt c.nbranches (ntimes - 1) 1).bind fun nbranches =>
  (forLoop (fun i (s : List (List Int) × List (List Int)) =>
      if i = final_pop pop_tree then
        (setAt2 s.1 i (2 * ntimes - 2) 1).bind fun nbranches_pop =>
        (setAt2 nbranches_pop i (2 * ntimes - 1) 1).bind fun nbranches_pop =>
        (setAt2 s.2 i (ntimes - 1) 1).map fun ncoals_pop => (nbranches_pop, ncoals_pop)
      else
        (getAt s.1 i).bind fun bp => (getAt bp (2 * ntimes - 1)).bind fun a =>
        (if a = 0 then (getAt bp (2 * ntimes - 2)).bind fun b =>
            if b = 0 then (getAt s.2 i).bind fun nc => (getAt nc (ntimes - 1)).map fun d =>
              decide (d = 0)
            else some false
          else some false).bind fun ok =>
        (assertion ok).map fun _ => s)
    (List.range (num_pops pop_tree).toNat) (c.nbranches_pop, c.ncoals_pop)).map fun s =>
  { nbranches := nbranches, nrecombs := c.nrecombs, nbranches_pop := s.1, ncoals_pop := s.2 }

/-- The function `count_lineages_internal(tree, ntimes, nbranches, nrecombs,
nbranches_pop, ncoals_pop, pop_tree)`. -/
def count_lineages_internal (tree : LocalTree) (ntimes : Int)
    (pop_tree : Option PopulationTree) : Option LineageCounts :=
  (getNode tree.nodes tree.root).bind fun rn =>
  let subtree_root := rn.child0
  (forLoop (count_node_internal tree ntimes pop_tree subtree_root)
    (List.range tree.nnodes.toNat) (init_counts ntimes (num_pops pop_tree))).bind fun c =>
  count_last_internal ntimes pop_tree c

/-- The number of leaves of age at most `j`. -/
def leavesUpTo (t : LocalTree) (j : Int) : Int :=
  ((List.range t.nnodes.toNat).filter fun (i : Nat) =>
    decide ((t.node (i : Int)).child0 = -1 ∧ (t.node (i : Int)).age ≤ j)).length

/-- The number of internal nodes of age at most `j`. -/
def internalUpTo (t : LocalTree) (j : Int) : Int :=
  ((List.range t.nnodes.toNat).filter fun (i : Nat) =>
    decide ((t.node (i : Int)).child0 ≠ -1 ∧ (t.node (i : Int)).age ≤ j)).length

/-- Every node has an age that is a time index in `[0, ntimes-2]`. -/
def AgesBelowTop (t : LocalTree) (ntimes : Int) : Prop :=
  ∀ i : Int, 0 ≤ i → i < t.nnodes → 0 ≤ (t.node i).age ∧ (t.node i).age ≤ ntimes - 2

instance (t : LocalTree) (ntimes : Int) : Decidable (AgesBelowTop t ntimes) := by
  unfold AgesBelowTop; infer_instance

/-- The four arrays have the sizes of a count without population model:
`ntimes` entries, and one row of `2*ntimes` and of `ntimes` entries. -/
def CountsOk (ntimes : Int) (c : LineageCounts) : Prop :=
  (c.nbranches.length : Int) = ntimes ∧ (c.nrecombs.length : Int) = ntimes ∧
  c.nbranches_pop.length = 1 ∧ ((readAt c.nbranches_pop 0).length : Int) = 2 * ntimes ∧
  c.ncoals_pop.length = 1 ∧ ((readAt c.ncoals_pop 0).length : Int) = ntimes

/-- The counts `c2` are the counts `c` plus `dB x` branches and `dR x`
recombination (and coalescence) points at every time `x`; the branch counts by
half time step `y` grow by `dB (y / 2)`. -/
def CountsAdd (ntimes : Int) (c c2 : LineageCounts) (dB dR : Int → Int) : Prop :=
  CountsOk ntimes c2 ∧
  (∀ x : Int, readAt c2.nbranches x = readAt c.nbranches x + dB x) ∧
  (∀ x : Int, readAt c2.nrecombs x = readAt c.nrecombs x + dR x) ∧
  (∀ y : Int, readAt (readAt c2.nbranches_pop 0) y =
    readAt (readAt c.nbranches_pop 0) y + dB (y / 2)) ∧
  (∀ x : Int, readAt (readAt c2.ncoals_pop 0) x = readAt (readAt c.ncoals_pop 0) x + dR x)

/-- The age at which the branch above node `i` ends for the lineage counts:
`ntimes - 2` when the parent is `top` (-1 in `count_lineages`, the root in
`count_lineages_internal`), the age of the parent otherwise. -/
def branchTop (t : LocalTree) (ntimes top i : Int) : Int :=
  if (t.node i).parent = top then ntimes - 2 else (t.node (t.node i).parent).age

/-- The number of branches that node `i` adds at time `x`: one for every time
from its age up to the end of its branch, the end included only at the top. -/
def branchAdd (t : LocalTree) (ntimes top i x : Int) : Int :=
  (if (t.node i).age ≤ x ∧ x < branchTop t ntimes top i then 1 else 0) +
  (if (t.node i).parent = top ∧ x = branchTop t ntimes top i then 1 else 0)

/-- The number of recombination points that node `i` adds at time `x`: one for
every time from its age up to the end of its branch, the end included. -/
def recombAdd (t : LocalTree) (ntimes top i x : Int) : Int :=
  if (t.node i).age ≤ x ∧ x ≤ branchTop t ntimes top i then 1 else 0

/-- A partial tree on 7 nodes with 5 time points in view: the subtree
`(0,1)4` with root 4 of age 1, the main tree `(2,3)5` with root 5 of age 2,
and the root 6 of age 5 with the children 4 and 5. -/
def partialTree7 : LocalTree :=
  { nnodes := 7, root := 6,
    nodes := [⟨4, -1, -1, 0, 0⟩, ⟨4, -1, -1, 0, 0⟩, ⟨5, -1, -1, 0, 0⟩, ⟨5, -1, -1, 0, 0⟩,
      ⟨6, 0, 1, 1, 0⟩, ⟨6, 2, 3, 2, 0⟩, ⟨-1, 4, 5, 5, 0⟩] }

/-- The main tree `(2,3)5` of `partialTree7` as a tree of its own, with the
nodes 2, 3, 5 renumbered 0, 1, 2. -/
def mainTree3 : LocalTree :=
  { nnodes := 3, root := 2,
    nodes := [⟨2, -1, -1, 0, 0⟩, ⟨2, -1, -1, 0, 0⟩, ⟨-1, 0, 1, 2, 0⟩] }

/-! ## Rate maps (`complete_map`, `ArgModel::setup_maps`) -/

/-- A region of a chromosome with a value (`RegionValue<T>`): `start` is
inclusive, `end_` (the field `end`) is exclusive. -/
structure RegionValue (α : Type) where
  chrom : String
  start : Int
  end_ : Int
  value : α
deriving DecidableEq, Repr, Inhabited

/-- The function `complete_map` from the second region on: the loop
`for (; it != track.end(); ++it)` with the end `last` of the region before
`it`.  After `it = track.insert(it, gap)` the statement `last = it->end` sets
`last` to the start of the old region, and the next pass stands on the old
region, passes both tests and sets `last` to its end.  The result is the list
from `it` on, and `false` when the function returned `false` at an overlap. -/
def complete_loop {α : Type} (chrom : String) (default_value : α) :
    Int → List (RegionValue α) → List (RegionValue α) × Bool
  | _, [] => ([], true)
  | last, r :: rest =>
    if r.start > last then
      let res := complete_loop chrom default_value r.end_ rest
      (⟨chrom, last, r.start, default_value⟩ :: r :: res.1, res.2)
    else if r.start < last then
      (r :: rest, false)
    else
      let res := complete_loop chrom default_value r.end_ rest
      (r :: res.1, res.2)

/-- The function `complete_map(track, chrom, start, end, default_value)`: the
track after the call and the returned flag. -/
def complete_map {α : Type} (track : List (RegionValue α)) (chrom : String) (start end_ : Int)
    (default_value : α) : List (RegionValue α) × Bool :=
  match track with
  | [] =>
    -- check for empty track
    ([⟨chrom, start, end_, default_value⟩], true)
  | first :: rest =>
    -- check that start and end cover desired range
    let track1 :=
      if first.start > start then ⟨chrom, start, first.start, default_value⟩ :: first :: rest
      else first :: rest
    let back := (first :: rest).getLast (List.cons_ne_nil first rest)
    let track2 :=
      if back.end_ < end_ then track1 ++ [⟨chrom, back.end_, end_, default_value⟩]
      else track1
    match track2 with
    | [] => ([], true)
    | it :: rest2 =>
      let res := complete_loop chrom default_value it.end_ rest2
      (it :: res.1, res.2)

/-- The fields of `ArgModel` that `setup_maps` uses: the default rates `mu`
and `rho`, and the two maps.  Rates are exact rationals. -/
structure ArgModel where
  mu : ℚ
  rho : ℚ
  mutmap : List (RegionValue ℚ)
  recombmap : List (RegionValue ℚ)
deriving DecidableEq, Repr

/-- The state of the loop "create new mut and recomb maps that share common
boundaries" of `setup_maps`. -/
structure MapMerge where
  pos : Int
  i : Int
  j : Int
  mutmap2 : List (RegionValue ℚ)
  recombmap2 : List (RegionValue ℚ)
deriving DecidableEq, Repr

/-- The body of the loop of `setup_maps`; it reads `mutmap[i]` and
`recombmap[j]`. -/
def merge_step (chrom : String) (mutmap recombmap : List (RegionValue ℚ)) (s : MapMerge) :
    Option MapMerge :=
  (getAt mutmap s.i).bind fun m =>
  (getAt recombmap s.j).bind fun r =>
  if m.end_ < r.end_ then
    -- mutation region ends first
    some { pos := m.end_, i := s.i + 1, j := s.j,
           mutmap2 := s.mutmap2 ++ [⟨chrom, s.pos, m.end_, m.value⟩],
           recombmap2 := s.recombmap2 ++ [⟨chrom, s.pos, m.end_, r.value⟩] }
  else if m.end_ > r.end_ then
    -- recombination region ends first
    some { pos := r.end_, i := s.i, j := s.j + 1,
           mutmap2 := s.mutmap2 ++ [⟨chrom, s.pos, r.end_, m.value⟩],
           recombmap2 := s.recombmap2 ++ [⟨chrom, s.pos, r.end_, r.value⟩] }
  else
    -- mutation and region region end together
    some { pos := r.end_, i := s.i + 1, j := s.j + 1,
           mutmap2 := s.mutmap2 ++ [⟨chrom, s.pos, r.end_, m.value⟩],
           recombmap2 := s.recombmap2 ++ [⟨chrom, s.pos, r.end_, r.value⟩] }

/-- A loop `while (cond) body` run for at most `fuel` passes; `none` when the
body aborts or the passes run out. -/
def whileLoop {σ : Type} (cond : σ → Bool) (body : σ → Option σ) : Nat → σ → Option σ
  | 0, s => if cond s then none else some s
  | fuel + 1, s => if cond s then (body s).bind (whileLoop cond body fuel) else some s

/-- The method `ArgModel::setup_maps(chrom, start, end)`: the model after the
call and the returned flag.  Every pass of the merging loop advances `i` or
`j`, so `mutmap.size() + recombmap.size()` passes are enough. -/
def ArgModel.setup_maps (model : ArgModel) (chrom : String) (start end_ : Int) :
    Option (ArgModel × Bool) :=
  -- check maps
  let m := complete_map model.mutmap chrom start end_ model.mu
  if m.2 = false then some ({ model with mutmap := m.1 }, false)
  else
    let r := complete_map model.recombmap chrom start end_ model.rho
    if r.2 = false then some ({ model with mutmap := m.1, recombmap := r.1 }, false)
    else
      -- create new mut and recomb maps that share common boundaries
      (whileLoop (fun s => decide (s.i < (m.1.length : Int) ∨ s.j < (r.1.length : Int)))
        (merge_step chrom m.1 r.1) (m.1.length + r.1.length)
        { pos := start, i := 0, j := 0, mutmap2 := [], recombmap2 := [] }).map fun s =>
      -- copy over new maps
      ({ model with mutmap := s.mutmap2, recombmap := s.recombmap2 }, true)

/-- The regions of a track are non-empty, sorted, non-overlapping and
contained in `[a, b]`. -/
def SortedIn {α : Type} : Int → Int → List (RegionValue α) → Prop
  | a, b, [] => a ≤ b
  | a, b, r :: rest => a ≤ r.start ∧ r.start < r.end_ ∧ SortedIn r.end_ b rest

instance SortedIn.decide {α : Type} :
    ∀ (a b : Int) (l : List (RegionValue α)), Decidable (SortedIn a b l)
  | a, b, [] => by unfold SortedIn; infer_instance
  | a, b, r :: rest => by
    unfold SortedIn
    have := SortedIn.decide r.end_ b rest
    infer_instance

/-- The regions of a track are non-empty and contiguous, the first starts at
`a` and the last ends at `b`. -/
def Tiling {α : Type} : Int → Int → List (RegionValue α) → Prop
  | a, b, [] => a = b
  | a, b, r :: rest => r.start = a ∧ r.start < r.end_ ∧ Tiling r.end_ b rest

/-- The regions of a track from a position `pos` inside its first region on:
contiguous up to `b`. -/
def TailTiling {α : Type} : Int → Int → List (RegionValue α) → Prop
  | pos, b, [] => pos = b
  | pos, b, r :: rest => r.start ≤ pos ∧ pos < r.end_ ∧ Tiling r.end_ b rest

/-- Every region of `out` lies inside a region of `track` with the same
value. -/
def Refines {α : Type} (out track : List (RegionValue α)) : Prop :=
  ∀ r ∈ out, ∃ m ∈ track, m.start ≤ r.start ∧ r.end_ ≤ m.end_ ∧ r.value = m.value

/-- The end of the last region of a track, `a` for a track without regions. -/
def endOf {α : Type} : Int → List (RegionValue α) → Int
  | a, [] => a
  | _, r :: rest => endOf r.end_ rest

/-- The region `r` is one of the track, or a gap between its regions filled
with the default value. -/
def FromTrack {α : Type} (track : List (RegionValue α)) (default_value : α)
    (r : RegionValue α) : Prop :=
  r ∈ track ∨
    (r.value = default_value ∧ ∀ r2 ∈ track, r2.end_ ≤ r.start ∨ r.end_ ≤ r2.start)

/-- The rate of a map at position `x`: the value of the first region that
contains `x`, the default value in a gap. -/
def rateAt {α : Type} (track : List (RegionValue α)) (default_value : α) (x : Int) : α :=
  match track.find? (fun r => decide (r.start ≤ x ∧ x < r.end_)) with
  | some r => r.value
  | none => default_value

/-- Two tracks have the same number of regions, with pairwise identical
`(start, end)`. -/
def SameBounds {α : Type} (a b : List (RegionValue α)) : Prop :=
  a.map (fun r => (r.start, r.end_)) = b.map (fun r => (r.start, r.end_))

/-- The invariant of the loop of `setup_maps` on two maps that tile
`[start, end_]`: the regions written so far tile `[start, pos]` with the same
bounds in both new maps, and the regions not yet passed tile `[pos, end_]`. -/
def MergeInv (start end_ : Int) (mutmap recombmap : List (RegionValue ℚ)) (s : MapMerge) :
    Prop :=
  0 ≤ s.i ∧ s.i ≤ mutmap.length ∧ 0 ≤ s.j ∧ s.j ≤ recombmap.length ∧
  TailTiling s.pos end_ (mutmap.drop s.i.toNat) ∧
  TailTiling s.pos end_ (recombmap.drop s.j.toNat) ∧
  Tiling start s.pos s.mutmap2 ∧ SameBounds s.mutmap2 s.recombmap2 ∧
  Refines s.mutmap2 mutmap ∧ Refines s.recombmap2 recombmap

/-- The name of the chromosome in the scenarios. -/
def chrName : String := "chr"

/-- A model for the scenarios: a mutation map with the regions `[2, 4)` and
`[6, 8)`, and a recombination map with the region `[3, 7)`. -/
def modelMaps : ArgModel :=
  { mu := 1, rho := 2,
    mutmap := [⟨"chr", 2, 4, 10⟩, ⟨"chr", 6, 8, 30⟩],
    recombmap := [⟨"chr", 3, 7, 50⟩] }

/-- A model whose mutation map has one region, the empty region `[10, 10)`,
and whose recombination map has no region. -/
def modelEmptyRegion : ArgModel :=
  { mu := 1, rho := 2, mutmap := [⟨"chr", 10, 10, 5⟩], recombmap := [] }

/-! ## Adding a thread to an ARG (`assert_trees`, `add_spr_branch`,
`add_arg_thread`)

The functions are modelled for `pop_tree == NULL`, as `assert_spr` above. -/

/-- Modelled from the spec: the class `State` is not among the sources.  A
coalescent state is a triple `(node, time, pop_path)`; `thread.cpp` reads and
writes these three fields. -/
structure State where
  node : Int
  time : Int
  pop_path : Int
deriving DecidableEq, Repr, Inhabited

instance : Inhabited Spr := ⟨Spr.null⟩

/-- The method `LocalTrees::get_num_leaves`: `(nnodes + 1) / 2` in C++ integer
arithmetic. -/
def LocalTrees.get_num_leaves (trees : LocalTrees) : Int := Int.tdiv (trees.nnodes + 1) 2

/-- The two assertions of `assert_trees` on the first tuple: a null SPR and no
mapping. -/
def assert_trees_first : List LocalTreeSpr → Option Unit
  | [] => some ()
  | it :: _ => (assertion it.spr.is_null).bind fun _ => assertion it.mapping.isNone

/-- The statement `if (last_tree) assert(assert_spr(last_tree, tree, spr,
mapping, pop_tree, pruned_internal))` of `assert_trees`; `assert_spr` reads
the mapping, so a null mapping aborts. -/
def assert_trees_spr (pruned_internal : Bool) (it : LocalTreeSpr) :
    Option LocalTree → Option Unit
  | none => some ()
  | some last_tree =>
    it.mapping.bind fun mapping =>
    assertOpt (assert_spr last_tree it.tree it.spr mapping pruned_internal)

/-- The body of the loop of `assert_trees` on the state `(last_tree, seqlen)`. -/
def assert_trees_block (pruned_internal : Bool) (it : LocalTreeSpr)
    (s : Option LocalTree × Int) : Option (Option LocalTree × Int) :=
  let seqlen := s.2 + it.blocklen
  (assertion (decide (it.blocklen ≥ 0))).bind fun _ =>
  (assertOpt (assert_tree it.tree none)).bind fun _ =>
  (assert_trees_spr pruned_internal it s.1).map fun _ =>
  (some it.tree, seqlen)

/-- The loop "loop through blocks" of `assert_trees`. -/
def assert_trees_loop (pruned_internal : Bool) :
    List LocalTreeSpr → Option LocalTree × Int → Option (Option LocalTree × Int)
  | [], s => some s
  | it :: rest, s =>
    (assert_trees_block pruned_internal it s).bind (assert_trees_loop pruned_internal rest)

/-- The function `assert_trees` of `local_tree.cpp` for `pop_tree == NULL`:
it returns `true` when no assertion fails. -/
def assert_trees (trees : LocalTrees) (pruned_internal : Bool) : Option Bool :=
  -- assert first tree has null mapping and spr
  (assert_trees_first trees.trees).bind fun _ =>
  -- loop through blocks
  (assert_trees_loop pruned_internal trees.trees (none, 0)).bind fun s =>
  (assertion (decide (s.2 = trees.end_coord - trees.start_coord))).map fun _ => true

/-- The method `LocalTree::ensure_capacity`: a larger array whose new slots
hold freshly constructed nodes. -/
def LocalTree.ensure_capacity (tree : LocalTree) (capacity : Int) : LocalTree :=
  if tree.capacity < capacity then
    { tree with
      nodes := tree.nodes ++ List.replicate (capacity.toNat - tree.nodes.length) default }
  else tree

/-- The new mapping array of `LocalTreeSpr::set_capacity`:
`std::copy(mapping, mapping + _capacity, tmp)` reads `_capacity` entries of
the old array. -/
def mapping_set_capacity (capacity : Int) : Option (List Int) → Option (Option (List Int))
  | none => some none
  | some mapping =>
    (assertion (decide (capacity ≤ mapping.length))).map fun _ =>
    some (mapping.take capacity.toNat)

/-- The method `LocalTreeSpr::ensure_capacity`: ensure capacity of tree and
mapping. -/
def LocalTreeSpr.ensure_capacity (it : LocalTreeSpr) (capacity : Int) : Option LocalTreeSpr :=
  if it.tree.capacity < capacity then
    (mapping_set_capacity capacity it.mapping).map fun mapping =>
    { it with tree := it.tree.ensure_capacity capacity, mapping := mapping }
  else some it

/-- The loop `while (true)` at the end of `add_spr_branch`: walk down from `x`
to a child without recomb or coal on it, until a mapped node is found.  The
walk goes down one level per pass, so it is run for at most `fuel` passes. -/
def find_mapped_child (last_nodes : List LocalNode) (spr : Spr) (mapping : List Int) :
    Nat → Int → Option Int
  | 0, _ => none
  | fuel + 1, x =>
    (getNode last_nodes x).bind fun n =>
    let y := n.child0
    let y := if y = spr.coal_node ∨ y = spr.recomb_node then n.child1 else y
    (getAt mapping y).bind fun my =>
    if my ≠ -1 then some y else find_mapped_child last_nodes spr mapping fuel y

/-- Lines 235-308 of `add_spr_branch`: the update of the SPR by cases; the
result is the SPR, the mapping and the flag `fix_mapping`. -/
def add_spr_branch_cases (tree last_tree : LocalTree) (state last_state : State)
    (spr : Spr) (mapping : List Int) (newleaf displaced newcoal last_node2 node2 recoal : Int) :
    Option (Spr × List Int × Bool) :=
  if spr.recomb_node = spr.coal_node then
    if last_state.node = spr.recomb_node then
      if last_state.time < spr.recomb_time ∨
          (last_state.time = spr.recomb_time ∧ state.time = spr.recomb_time) then
        (getNode last_tree.nodes spr.recomb_node).map fun ln =>
        ({ spr with recomb_node := ln.parent, coal_node := ln.parent }, mapping, false)
      else if last_state.time ≥ spr.recomb_time ∧ last_state.time < spr.coal_time then
        if state.time ≤ last_state.time then
          (assertion (decide (state.time ≥ spr.recomb_time))).bind fun _ =>
          (last_tree.get_sibling spr.recomb_node).bind fun sib =>
          (setAt mapping newcoal (-1)).map fun mapping =>
          ({ spr with coal_node := sib, coal_time := state.time }, mapping, false)
        else
          (assertion (decide (state.time = spr.coal_time))).bind fun _ =>
          (setAt mapping newcoal (-1)).map fun mapping =>
          ({ spr with coal_node := newcoal }, mapping, false)
      else if last_state.time = spr.coal_time then
        (last_tree.get_sibling spr.recomb_node).bind fun sib =>
        (setAt mapping newcoal (-1)).map fun mapping =>
        ({ spr with coal_time := state.time, coal_node := sib }, mapping, false)
      -- if last_state.time > spr->coal_time do nothing
      else some (spr, mapping, true)
    else some (spr, mapping, true)
  else if recoal = newcoal then
    if spr.recomb_node = spr.coal_node then
      -- (4) new branch breaks "bubble" recomb.
      if last_state.time > spr.recomb_time ∧ last_state.time < spr.coal_time then
        (assertion (decide (state.time = spr.coal_time))).map fun _ =>
        ({ spr with coal_node := recoal }, mapping, true)
      else if last_state.time ≤ spr.recomb_time then
        some ({ spr with recomb_node := recoal, coal_node := recoal }, mapping, true)
      else some (spr, mapping, true)
    else
      (getAt mapping last_node2).bind fun ml =>
      if ml = node2 then
        -- (1) recomb is above coal state, we rename spr recomb node
        some ({ spr with recomb_node := newcoal }, mapping, true)
      else
        -- if this is a mediated coal, then state should equal recomb
        let state_node := if state.node ≠ newleaf then state.node else displaced
        (getAt mapping spr.recomb_node).bind fun mr =>
        if state_node = mr then
          -- (3) this is a mediated coal, rename coal node and time
          (assertion (decide (spr.coal_time ≥ state.time))).map fun _ =>
          ({ spr with coal_node := newleaf, coal_time := state.time }, mapping, true)
        else
          -- (2) this is the new branch escaping
          some (spr, mapping, true)
  else
    -- the other possibility is that newcoal is under recoal point
    (getNode tree.nodes recoal).bind fun rc =>
    if rc.child0 = newcoal ∨ rc.child1 = newcoal then
      (getNode last_tree.nodes spr.coal_node).map fun lc =>
      if lc.parent = newcoal then ({ spr with coal_node := newcoal }, mapping, true)
      else (spr, mapping, true)
    else some (spr, mapping, true)

/-- Lines 312-334 of `add_spr_branch`: determine if mapping of new node needs
to be changed. -/
def add_spr_branch_fix (tree last_tree : LocalTree) (spr : Spr) (mapping : List Int)
    (newcoal : Int) : Option (List Int) :=
  (getNode last_tree.nodes spr.recomb_node).bind fun lr =>
  if lr.parent = newcoal then
    -- newcoal was parent of recomb, it is broken
    if spr.recomb_node ≠ spr.coal_node then
      (setAt mapping newcoal (-1)).bind fun mapping =>
      (getNode last_tree.nodes newcoal).bind fun ln =>
      let p := ln.parent
      if p ≠ -1 then setAt mapping p newcoal else some mapping
    else some mapping
  else
    -- newcoal was not broken: find child without recomb or coal on it
    (find_mapped_child last_tree.nodes spr mapping last_tree.nodes.length newcoal).bind fun x =>
    (getAt mapping x).bind fun mx =>
    (getNode tree.nodes mx).bind fun n =>
    setAt mapping newcoal n.parent

/-- The loop `for (int i=newleaf+1; i<tree->nnodes; i++)` of `add_spr_branch`;
a pass at a negative index aborts. -/
def add_spr_branch_displace (nnodes newleaf displaced : Int) (mapping : List Int) :
    Option (List Int) :=
  (assertion (decide (0 ≤ newleaf + 1 ∨ nnodes ≤ newleaf + 1))).bind fun _ =>
  forLoop (fun i m =>
      (getAt m i).bind fun mi =>
      if mi = newleaf then setAt m i displaced else some m)
    ((List.range nnodes.toNat).drop (newleaf + 1).toNat) mapping

/-- The function `add_spr_branch` of `thread.cpp`: update an SPR and mapping
after adding a new branch to two neighboring local trees.  The result is the
SPR and the mapping after the call. -/
def add_spr_branch (tree last_tree : LocalTree) (state last_state : State)
    (spr : Spr) (mapping : List Int) (newleaf displaced newcoal : Int) :
    Option (Spr × List Int) :=
  -- determine node displacement
  let last_node2 := if last_state.node ≠ newleaf then last_state.node else displaced
  let node2 := if state.node ≠ newleaf then state.node else displaced
  -- update mapping due to displacement
  (getAt mapping newleaf).bind fun ml =>
  (setAt mapping displaced ml).bind fun mapping =>
  (setAt mapping newleaf newleaf).bind fun mapping =>
  -- set default new node mapping
  (setAt mapping newcoal newcoal).bind fun mapping =>
  (add_spr_branch_displace tree.nnodes newleaf displaced mapping).bind fun mapping =>
  -- update spr due to displacement
  let spr := if spr.recomb_node = newleaf then { spr with recomb_node := displaced } else spr
  let spr := if spr.coal_node = newleaf then { spr with coal_node := displaced } else spr
  -- parent of recomb node should be the recoal point
  (getAt mapping spr.recomb_node).bind fun mr =>
  (getNode tree.nodes mr).bind fun rn =>
  let recoal := rn.parent
  (add_spr_branch_cases tree last_tree state last_state spr mapping newleaf displaced newcoal
    last_node2 node2 recoal).bind fun r =>
  if r.2.2 then
    (add_spr_branch_fix tree last_tree r.1 r.2.1 newcoal).map fun mapping => (r.1, mapping)
  else some (r.1, r.2.1)

/-- Lines 412-442 of `add_arg_thread`: the SPR of a new recombination in the
names of the tree with the new branch. -/
def thread_recomb_spr (tree : LocalTree) (state last_state : State) (recomb : Spr)
    (newleaf displaced newcoal : Int) : Option Spr :=
  -- determine real name of recomb node
  let spr2 := recomb
  let spr2 := if spr2.recomb_node = newleaf then { spr2 with recomb_node := displaced } else spr2
  let spr2 := if spr2.coal_node = newleaf then { spr2 with coal_node := displaced } else spr2
  (getNode tree.nodes newcoal).bind fun nc =>
  (assertion (decide (spr2.recomb_time ≤ nc.age))).bind fun _ =>
  -- determine coal node and time
  if spr2.recomb_node = -1 ∧ spr2.coal_node = -1 then
    some { spr2 with recomb_node := newleaf, coal_node := newleaf }
  else if spr2.recomb_node = -1 then
    -- recomb on new branch, coal given thread
    let spr2 := { spr2 with recomb_node := newleaf }
    -- fix coal node due to displacement
    let spr2 := if spr2.coal_node = newleaf then { spr2 with coal_node := displaced } else spr2
    -- rename coal node due to newcoal underneath
    let spr2 := if state.node = last_state.node ∧ state.time > last_state.time then
      { spr2 with coal_node := newcoal } else spr2
    some spr2
  else
    -- recomb in ARG, coal on new branch
    if state.time > last_state.time then
      (getNode tree.nodes newleaf).map fun nl => { spr2 with coal_node := nl.parent }
    else some { spr2 with coal_node := newleaf }

/-- The statements `new LocalTree(nnodes2, tree->capacity)` and
`new_tree->copy(*tree)`: the array has `max(nnodes2, tree->capacity)` slots,
the first `tree->nnodes` nodes are copied. -/
def new_tree_copy (nnodes2 : Int) (tree : LocalTree) : Option LocalTree :=
  let capacity := if tree.capacity < nnodes2 then nnodes2 else tree.capacity
  if tree.nnodes ≤ tree.capacity then
    some { nnodes := tree.nnodes, root := tree.root,
           nodes := tree.nodes.take tree.nnodes.toNat ++
             List.replicate (capacity.toNat - tree.nnodes.toNat) default }
  else none

/-- Lines 402-457 of `add_arg_thread`: the new tree, SPR and mapping for the
recombination `irecomb` at `pos` in the block of `tree`.  The entries of
`mapping2` from `nnodes2` on are not initialised by the code; they are 0
here. -/
def thread_recomb (states : List State) (thread_path : List Int) (recombs : List Spr)
    (nnodes2 newleaf displaced newcoal : Int) (irecomb : Nat) (pos : Int) (tree : LocalTree) :
    Option (LocalTree × Spr × List Int) :=
  (getAt thread_path pos).bind fun k =>
  (getAt states k).bind fun state =>
  (getAt thread_path (pos - 1)).bind fun k1 =>
  (getAt states k1).bind fun last_state =>
  -- assert that thread time is still on track
  (getNode tree.nodes newcoal).bind fun nc =>
  (assertion (decide (nc.age = last_state.time))).bind fun _ =>
  (getAt recombs irecomb).bind fun recomb =>
  (thread_recomb_spr tree state last_state recomb newleaf displaced newcoal).bind fun spr2 =>
  -- determine mapping: all nodes keep their name expect the broken node
  (forLoop (fun j m => setAt m j j) (List.range nnodes2.toNat)
    (List.replicate tree.nodes.length 0)).bind fun mapping2 =>
  (if spr2.recomb_node ≠ spr2.coal_node then
      (getNode tree.nodes spr2.recomb_node).bind fun rn => setAt mapping2 rn.parent (-1)
    else some mapping2).bind fun mapping2 =>
  -- make new local tree and apply SPR operation
  (new_tree_copy nnodes2 tree).bind fun new_tree =>
  (apply_spr new_tree spr2 none).map fun new_tree =>
  (new_tree, spr2, mapping2)

/-- The variables of the loop over the new recombinations of one block:
`it` is the tuple under the iterator, `done` holds the tuples of the block
that the iterator has left. -/
structure ThreadBlock where
  irecomb : Nat
  tree : LocalTree
  start : Int
  it : LocalTreeSpr
  done : List LocalTreeSpr
deriving DecidableEq, Repr

/-- The statement "calculate block end" of `add_arg_thread`. -/
def thread_block_end (recomb_pos : List Int) (recombs : List Spr) (irecomb : Nat) (end_ : Int) :
    Option Int :=
  if irecomb + 1 < recombs.length then
    -- use next recomb in this block to determine block end
    (getAt recomb_pos ((irecomb : Int) + 1)).map fun p => min p end_
  else
    -- no more recombs in this block
    some end_

/-- One pass of the loop "break this block for each new recomb within this
block" of `add_arg_thread`, for the recombination at `pos`. -/
def thread_block_step (states : List State) (thread_path : List Int) (recomb_pos : List Int)
    (recombs : List Spr) (nnodes2 newleaf displaced newcoal : Int) (end_ : Int) (pos : Int)
    (s : ThreadBlock) : Option ThreadBlock :=
  (thread_recomb states thread_path recombs nnodes2 newleaf displaced newcoal s.irecomb pos
    s.tree).bind fun r =>
  -- calculate block end
  (thread_block_end recomb_pos recombs s.irecomb end_).bind fun block_end =>
  -- assert tree and SPR
  (assertOpt (assert_spr s.tree r.1 r.2.1 r.2.2 false)).map fun _ =>
  -- insert new tree and spr into local trees list
  { irecomb := s.irecomb + 1, tree := r.1, start := pos,
    it := { tree := r.1, spr := r.2.1, mapping := some r.2.2, blocklen := block_end - pos },
    done := s.done ++ [{ s.it with blocklen := pos - s.start }] }

/-- The loop `for (;irecomb < recombs.size() && recomb_pos[irecomb] < end;
irecomb++)` of `add_arg_thread`.  Every pass advances `irecomb`, so
`recombs.size() - irecomb` passes are enough. -/
def thread_block_loop (states : List State) (thread_path : List Int) (recomb_pos : List Int)
    (recombs : List Spr) (nnodes2 newleaf displaced newcoal : Int) (end_ : Int) :
    Nat → ThreadBlock → Option ThreadBlock
  | 0, s =>
    if s.irecomb < recombs.length then
      (getAt recomb_pos (s.irecomb : Int)).bind fun pos =>
      if pos < end_ then none else some s
    else some s
  | fuel + 1, s =>
    if s.irecomb < recombs.length then
      (getAt recomb_pos (s.irecomb : Int)).bind fun pos =>
      if pos < end_ then
        (thread_block_step states thread_path recomb_pos recombs nnodes2 newleaf displaced
          newcoal end_ pos s).bind
          (thread_block_loop states thread_path recomb_pos recombs nnodes2 newleaf displaced
            newcoal end_ fuel)
      else some s
    else some s

/-- The variables of `add_arg_thread` that go from one block to the next;
`last_tree` and `last_state` are `none` before the first block. -/
structure ThreadState where
  irecomb : Nat
  end_ : Int
  last_tree : Option LocalTree
  last_state : Option State
deriving DecidableEq, Repr

/-- The statement `if (mapping) { add_spr_branch(...); assert(assert_spr(...)); }`
of `add_arg_thread`: the SPR and the mapping of the tuple after it. -/
def thread_update_spr (tree : LocalTree) (state : State) (st : ThreadState) (spr : Spr)
    (newleaf displaced newcoal : Int) : Option (List Int) → Option (Spr × Option (List Int))
  | none => some (spr, none)
  | some mapping =>
    st.last_tree.bind fun last_tree =>
    st.last_state.bind fun last_state =>
    (add_spr_branch tree last_tree state last_state spr mapping newleaf displaced
      newcoal).bind fun r =>
    (assertOpt (assert_spr last_tree tree r.1 r.2 false)).map fun _ => (r.1, some r.2)

/-- Lines 380-397 of `add_arg_thread`: add the new branch to the local tree of
the tuple `it` and update its mapping and SPR. -/
def thread_block_head (states : List State) (thread_path : List Int)
    (nnodes2 newleaf displaced newcoal : Int) (start : Int) (st : ThreadState)
    (it : LocalTreeSpr) : Option LocalTreeSpr :=
  -- add new branch to local tree
  (it.ensure_capacity nnodes2).bind fun it =>
  (getAt thread_path start).bind fun k =>
  (getAt states k).bind fun state =>
  (add_tree_branch it.tree state.node state.time state.pop_path).bind fun tree =>
  -- update mapping and spr
  (thread_update_spr tree state st it.spr newleaf displaced newcoal it.mapping).bind fun r =>
  -- assert new branch is where it should be
  (getNode tree.nodes newcoal).bind fun nc =>
  (assertion (decide (nc.age = state.time))).map fun _ =>
  { it with tree := tree, spr := r.1, mapping := r.2 }

/-- The body of the loop "loop through blocks" of `add_arg_thread` on the tuple
`it`: the tuples that replace it in the list and the variables for the next
block.  The parameter `get_coal_states` stands for
`states_model.get_coal_states`, whose class is not among the sources. -/
def thread_block (get_coal_states : LocalTree → List State) (thread_path : List Int)
    (recomb_pos : List Int) (recombs : List Spr) (nnodes2 newleaf displaced newcoal : Int)
    (it : LocalTreeSpr) (st : ThreadState) : Option (List LocalTreeSpr × ThreadState) :=
  let start := st.end_
  let end_ := st.end_ + it.blocklen
  let states := get_coal_states it.tree
  (thread_block_head states thread_path nnodes2 newleaf displaced newcoal start st it).bind
    fun it2 =>
  -- break this block for each new recomb within this block
  (thread_block_loop states thread_path recomb_pos recombs nnodes2 newleaf displaced newcoal
    end_ (recombs.length - st.irecomb)
    { irecomb := st.irecomb, tree := it2.tree, start := start, it := it2, done := [] }).bind
    fun s =>
  -- remember the previous tree for next iteration of loop
  (getAt thread_path (end_ - 1)).bind fun k =>
  (getAt states k).map fun last_state =>
  let last_state :=
    if last_state.node = newleaf then { last_state with node := displaced } else last_state
  (s.done ++ [s.it],
   { irecomb := s.irecomb, end_ := end_, last_tree := some s.tree,
     last_state := some last_state })

/-- The loop "loop through blocks" of `add_arg_thread`: the new list of tuples
and the variables after the last block. -/
def thread_blocks (get_coal_states : LocalTree → List State) (thread_path : List Int)
    (recomb_pos : List Int) (recombs : List Spr) (nnodes2 newleaf displaced newcoal : Int) :
    List LocalTreeSpr → ThreadState → Option (List LocalTreeSpr × ThreadState)
  | [], st => some ([], st)
  | it :: rest, st =>
    (thread_block get_coal_states thread_path recomb_pos recombs nnodes2 newleaf displaced
      newcoal it st).bind fun r =>
    (thread_blocks get_coal_states thread_path recomb_pos recombs nnodes2 newleaf displaced
      newcoal rest r.2).map fun r2 =>
    (r.1 ++ r2.1, r2.2)

/-- The function `add_arg_thread` of `thread.cpp` for `pop_tree == NULL`: add
a leaf thread to an ARG.  The result is the ARG after the call; `none` when an
assertion fails or an array is read outside its bounds. -/
def add_arg_thread (trees : LocalTrees) (get_coal_states : LocalTree → List State)
    (ntimes : Int) (thread_path : List Int) (seqid : Int) (recomb_pos : List Int)
    (recombs : List Spr) : Option LocalTrees :=
  let nleaves := trees.get_num_leaves
  let nnodes := trees.nnodes
  let nnodes2 := nnodes + 2
  -- node names
  let newleaf := nleaves
  let displaced := nnodes
  let newcoal := nnodes + 1
  (assert_trees trees true).bind fun _ =>
  -- update trees info
  let trees := { trees with seqids := trees.seqids ++ [seqid], nnodes := nnodes2 }
  -- loop through blocks
  (thread_blocks get_coal_states thread_path recomb_pos recombs nnodes2 newleaf displaced
    newcoal trees.trees
    { irecomb := 0, end_ := trees.start_coord, last_tree := none, last_state := none }).bind
    fun r =>
  let trees := { trees with trees := r.1 }
  (assert_trees trees false).map fun _ => trees

/-- The tree `(0,1)2` with root age 10 in an array with room for two more
nodes. -/
def treeA5 : LocalTree :=
  { nnodes := 3, root := 2,
    nodes := [⟨2, -1, -1, 0, 0⟩, ⟨2, -1, -1, 0, 0⟩, ⟨-1, 0, 1, 10, 0⟩, default, default] }

/-- The tree `(0,1)2` with root age 8 in an array with room for two more
nodes. -/
def treeB5 : LocalTree :=
  { nnodes := 3, root := 2,
    nodes := [⟨2, -1, -1, 0, 0⟩, ⟨2, -1, -1, 0, 0⟩, ⟨-1, 0, 1, 8, 0⟩, default, default] }

/-- An ARG of two blocks `[0, 4)` and `[4, 10)` on two leaves: at 4 the branch
of leaf 0 is cut at time 5 and coalesces with leaf 1 at time 8. -/
def argTwo : LocalTrees :=
  { chrom := "chr", start_coord := 0, end_coord := 10, nnodes := 3,
    trees := [⟨treeA5, Spr.null, none, 4⟩,
              ⟨treeB5, ⟨0, 5, 1, 8, 0⟩, some [0, 1, -1, 0, 0], 6⟩],
    seqids := [0, 1] }

/-- Three coalescent states on the trees of `argTwo`: node 1 at time 3, node 0
at time 3, node 1 at time 6. -/
def coalStatesTwo : LocalTree → List State := fun _ => [⟨1, 3, 0⟩, ⟨0, 3, 0⟩, ⟨1, 6, 0⟩]

/-- A thread on `argTwo`: node 1 at time 3 on `[0, 2)`, node 1 at time 6 on
`[2, 7)`, node 1 at time 3 on `[7, 10)`. -/
def threadPathTwo : List Int := [0, 0, 2, 2, 2, 2, 2, 0, 0, 0]

/-- The two recombinations of the thread `threadPathTwo`, at the positions 2
and 7, both on the new branch at time 1. -/
def threadRecombsTwo : List Spr := [⟨-1, 1, 1, 6, 0⟩, ⟨-1, 1, 1, 3, 0⟩]

/-- The ARG `argTwo` with the thread `threadPathTwo` of the sequence 7: four
blocks of the lengths 2, 2, 3 and 3. -/
def argTwoThreaded : LocalTrees :=
  { chrom := "chr", start_coord := 0, end_coord := 10, nnodes := 5,
    trees := [
      ⟨⟨5, 3, [⟨3, -1, -1, 0, 0⟩, ⟨4, -1, -1, 0, 0⟩, ⟨4, -1, -1, 0, 0⟩, ⟨-1, 0, 4, 10, 0⟩,
        ⟨3, 2, 1, 3, 0⟩]⟩, ⟨-1, -1, -1, -1, -1⟩, none, 2⟩,
      ⟨⟨5, 3, [⟨3, -1, -1, 0, 0⟩, ⟨4, -1, -1, 0, 0⟩, ⟨4, -1, -1, 0, 0⟩, ⟨-1, 0, 4, 10, 0⟩,
        ⟨3, 2, 1, 6, 0⟩]⟩, ⟨2, 1, 4, 6, 0⟩, some [0, 1, 2, 3, -1], 2⟩,
      ⟨⟨5, 3, [⟨3, -1, -1, 0, 0⟩, ⟨4, -1, -1, 0, 0⟩, ⟨4, -1, -1, 0, 0⟩, ⟨-1, 0, 4, 8, 0⟩,
        ⟨3, 2, 1, 6, 0⟩]⟩, ⟨0, 5, 4, 8, 0⟩, some [0, 1, 2, -1, 4], 3⟩,
      ⟨⟨5, 3, [⟨3, -1, -1, 0, 0⟩, ⟨4, -1, -1, 0, 0⟩, ⟨4, -1, -1, 0, 0⟩, ⟨-1, 0, 4, 8, 0⟩,
        ⟨3, 2, 1, 3, 0⟩]⟩, ⟨2, 1, 1, 3, 0⟩, some [0, 1, 2, 3, -1], 3⟩],
    seqids := [0, 1, 7] }

/-! ## Counting removal paths (`logadd`, `logsum`, `count_arg_removal_paths`)

The table `counts` holds doubles that are logarithms of numbers of paths.  A
double that holds the logarithm of a quantity is represented here by the
quantity itself: `-INFINITY` by 0, `0.0` by 1, the logarithm `log(a + b)` by
`a + b`, a difference `lna - lnb` by the ratio of `a` and `b`.  Rounding is
not modelled: this is the computation over exact arithmetic.  The constants `500.0` and `SUM_LOG_THRESHOLD = -15` of the
comparisons become the numbers e^500 and e^15, which are irrational; the
functions take rational numbers `exp500` and `exp15` in their place. -/

/-- The function `logadd` of `common.h` on the counts `a` and `b` whose
logarithms are `lna` and `lnb`.  The tests `lna == 1.0` and `lnb == 1.0` ask
for the count e, which no natural number is.  The test `diff < 500.0` is
`a / b < e^500`; it holds for `a = 0 < b` (`diff` is `-INFINITY`) and fails
for `b = 0` (`diff` is `INFINITY`, or NaN when `a = 0` too).  The branch
`log(exp(diff) + 1.0) + lnb` is the logarithm of `(a / b + 1) * b`. -/
def logadd (exp500 : ℚ) (a b : Nat) : Nat :=
  if (a : ℚ) < exp500 * b then a + b
  else a

/-- The function `logsum` of `common.h` on the counts `vals` whose logarithms
are in the array; the result is the quantity whose logarithm is returned.  The
test `vals[i] - maxval > SUM_LOG_THRESHOLD` is `vals[i] / maxval > e^-15`; it
fails when `vals[i]` is 0 (the difference is `-INFINITY`, or NaN when `maxval`
is 0 too).  `exp(vals[i] - maxval)` is the ratio, and `maxval + log(expsum)`
the logarithm of the product. -/
def logsum (exp15 : ℚ) (vals : List Nat) (nvals : Int) : Option ℚ :=
  (getAt vals 0).bind fun v0 =>
  -- find maxval
  (forLoop (fun i (s : Nat × Int) =>
      (getAt vals i).map fun (v : Nat) => if v > s.1 then (v, i) else s)
    ((List.range nvals.toNat).drop 1) (v0, 0)).bind fun s =>
  let maxval := s.1
  let maxi := s.2
  (forLoop (fun i (expsum : ℚ) =>
      (getAt vals i).map fun (v : Nat) =>
      if i ≠ maxi ∧ (maxval : ℚ) < v * exp15 then expsum + (v : ℚ) / (maxval : ℚ) else expsum)
    (List.range nvals.toNat) 1).map fun expsum =>
  (maxval : ℚ) * expsum

/-- The statement "calc counts column" of `count_arg_removal_paths` for the
node `j`: the entry `counts[i][j]` from the column `prev` of the tree before
and the back pointers `ptrs` of the node. -/
def count_entry (exp500 : ℚ) (prev : List Nat) (ptrs : Int × Int) : Option Nat :=
  if ptrs.1 < 0 ∧ ptrs.2 < 0 then some 0
  else if ptrs.2 = -1 then getAt prev ptrs.1
  else if ptrs.1 = -1 then getAt prev ptrs.2
  else
    (getAt prev ptrs.1).bind fun a =>
    (getAt prev ptrs.2).map fun b => logadd exp500 a b

/-- The loop `for (int j=0; j<nnodes; j++)` of `count_arg_removal_paths`: the
column `counts[i]` from the column `counts[i-1]` and the row `backptrs[i]`. -/
def count_column (exp500 : ℚ) (nnodes : Int) (backptrs : List (Int × Int)) (prev : List Nat) :
    Option (List Nat) :=
  tabulateOpt (fun j => (getAt backptrs j).bind fun ptrs => count_entry exp500 prev ptrs)
    (List.range nnodes.toNat)

/-- The loop `for (int i=1; i<ntrees; i++, ++it)` of
`count_arg_removal_paths`: the columns `counts[i]` for the tuples that follow
`last_tree`, whose column is `prev`.  A tuple without mapping makes
`get_all_prev_removal_nodes` read through a null pointer. -/
def count_columns (exp500 : ℚ) (nnodes : Int) :
    LocalTree → List LocalTreeSpr → List Nat → Option (List (List Nat))
  | _, [], _ => some []
  | last_tree, it :: rest, prev =>
    it.mapping.bind fun mapping =>
    -- get back pointers
    (get_all_prev_removal_nodes last_tree it.spr mapping).bind fun backptrs =>
    -- calc counts column
    (count_column exp500 nnodes backptrs prev).bind fun col =>
    (count_columns exp500 nnodes it.tree rest col).map fun l => col :: l

/-- The function `count_arg_removal_paths` of `thread.cpp`: count number of
removal paths.  The result is the table `removal_paths.counts`, one column of
`nnodes` entries for each local tree (the class `RemovalPaths` is not among
the sources).  An empty list of trees makes `it->tree` read `end()`. -/
def count_arg_removal_paths (exp500 : ℚ) (trees : LocalTrees) : Option (List (List Nat)) :=
  let nnodes := trees.nnodes
  match trees.trees with
  | [] => none
  | first :: rest =>
    -- calculate first column
    let col0 := List.replicate nnodes.toNat 1
    (count_columns exp500 nnodes first.tree rest col0).map fun l => col0 :: l

/-- The function `count_total_arg_removal_paths` of `thread.cpp` on the table
`counts` of `ntrees` columns: the quantity whose logarithm is returned. -/
def count_total_arg_removal_paths (exp15 : ℚ) (counts : List (List Nat)) (nnodes : Int) :
    Option ℚ :=
  (getAt counts ((counts.length : Int) - 1)).bind fun row => logsum exp15 row nnodes

/-! ### Exhaustive enumeration of the removal paths -/

/-- The node `k` is a next removal node of `j` across the tuple `it` that
follows the tree `tree1`. -/
def nextAcross (tree1 : LocalTree) (it : LocalTreeSpr) (j k : Int) : Bool :=
  match it.mapping with
  | some mapping => isNextRemovalNode tree1 it.spr mapping j k
  | none => false

/-- The removal paths one tree longer: every path in `paths` followed by every
next removal node of its last node.  A path is a list of nodes with its last
node first. -/
def extend_paths (nnodes : Int) (tree1 : LocalTree) (it : LocalTreeSpr)
    (paths : List (List Int)) : List (List Int) :=
  (paths.map fun p =>
    ((List.range nnodes.toNat).filter fun (k : Nat) =>
      nextAcross tree1 it (p.headD (-1)) (k : Int)).map fun (k : Nat) => (k : Int) :: p).flatten

/-- The removal paths through `last_tree` and the trees of `rest` that extend
a path of `paths`. -/
def removal_paths_from (nnodes : Int) :
    LocalTree → List LocalTreeSpr → List (List Int) → List (List Int)
  | _, [], paths => paths
  | last_tree, it :: rest, paths =>
    removal_paths_from nnodes it.tree rest (extend_paths nnodes last_tree it paths)

/-- All removal paths through the first `i + 1` trees of the ARG, by
exhaustive enumeration: the sequences `(p_0, ..., p_i)` of nodes in which each
`p_{k+1}` is a next removal node of `p_k`, each listed from `p_i` back to
`p_0`. -/
def removal_paths (trees : LocalTrees) (i : Nat) : List (List Int) :=
  match trees.trees with
  | [] => []
  | first :: rest =>
    removal_paths_from trees.nnodes first.tree (rest.take i)
      ((List.range trees.nnodes.toNat).map fun (j : Nat) => [(j : Int)])

/-- The number of paths in `paths` that end in the node `j`. -/
def paths_to (paths : List (List Int)) (j : Int) : Nat :=
  paths.countP fun p => decide (p.head? = some j)

/-- The mapping of a tuple is the mapping of its SPR on `tree1`: it has
entries -1 or nodes, is injective on its entries other than -1, and has -1
exactly at the parent of `recomb_node` (for a self SPR: it is a permutation). -/
def MappingConsistent (tree1 : LocalTree) (spr : Spr) : Option (List Int) → Prop
  | none => False
  | some m =>
    (spr.coal_node ≠ spr.recomb_node ∧
      IsRemovalMapping tree1.nnodes (tree1.node spr.recomb_node).parent m) ∨
    (spr.coal_node = spr.recomb_node ∧ IsPermMapping tree1.nnodes m)

instance (tree1 : LocalTree) (spr : Spr) :
    ∀ o : Option (List Int), Decidable (MappingConsistent tree1 spr o)
  | none => by unfold MappingConsistent; infer_instance
  | some m => by unfold MappingConsistent; infer_instance

/-- The tuple `it` after the tree `tree1` is consistent for removal paths on
`n` nodes: `tree1` is a well-formed tree on `n` nodes, the SPR is on nodes of
`tree1` with `recomb_node` other than the root, and the mapping is the mapping
of the SPR. -/
def TupleConsistent (n : Int) (tree1 : LocalTree) (it : LocalTreeSpr) : Prop :=
  tree1.nnodes = n ∧ WellFormed tree1 ∧ tree1.isNode it.spr.recomb_node ∧
  tree1.isNode it.spr.coal_node ∧ it.spr.recomb_node ≠ tree1.root ∧
  MappingConsistent tree1 it.spr it.mapping

instance (n : Int) (tree1 : LocalTree) (it : LocalTreeSpr) :
    Decidable (TupleConsistent n tree1 it) := by
  unfold TupleConsistent LocalTree.isNode; infer_instance

/-- Every tuple of the list is consistent with the tree before it. -/
def TuplesConsistent (n : Int) : LocalTree → List LocalTreeSpr → Prop
  | _, [] => True
  | last_tree, it :: rest => TupleConsistent n last_tree it ∧ TuplesConsistent n it.tree rest

instance TuplesConsistent.decide (n : Int) :
    ∀ (last_tree : LocalTree) (l : List LocalTreeSpr), Decidable (TuplesConsistent n last_tree l)
  | _, [] => by unfold TuplesConsistent; infer_instance
  | last_tree, it :: rest => by
    unfold TuplesConsistent
    have := TuplesConsistent.decide n it.tree rest
    infer_instance

/-- The list of tuples has a first tree, and every other tuple is consistent
with the tree before it. -/
def ListConsistent (n : Int) : List LocalTreeSpr → Prop
  | [] => False
  | first :: rest => TuplesConsistent n first.tree rest

instance (n : Int) : ∀ l : List LocalTreeSpr, Decidable (ListConsistent n l)
  | [] => by unfold ListConsistent; infer_instance
  | first :: rest => by unfold ListConsistent; infer_instance

/-- The SPR/mapping tuples of the ARG are consistent, and the ARG has at least
one tree and one node. -/
def ArgConsistent (trees : LocalTrees) : Prop :=
  0 < trees.nnodes ∧ ListConsistent trees.nnodes trees.trees

instance (trees : LocalTrees) : Decidable (ArgConsistent trees) := by
  unfold ArgConsistent; infer_instance

/-- The tree `(0,1)2` with root age 20. -/
def treeTall3 : LocalTree :=
  { nnodes := 3, root := 2,
    nodes := [⟨2, -1, -1, 0, 0⟩, ⟨2, -1, -1, 0, 0⟩, ⟨-1, 0, 1, 20, 0⟩] }

/-- The tuples `i`, ..., `i + k - 1` of an ARG on the leaves 0 and 1 in which,
at every breakpoint, the branch of leaf 0 is cut at time 5: at the breakpoints
with an even number it coalesces again above the root at time 20, at the others
with leaf 1 at time 10. -/
def fibTuples : Nat → Nat → List LocalTreeSpr
  | _, 0 => []
  | i, k + 1 =>
    (if i % 2 = 0 then ⟨treeTall3, ⟨0, 5, 2, 20, 0⟩, some [0, 1, -1], 1⟩
      else ⟨tree3, ⟨0, 5, 1, 10, 0⟩, some [0, 1, -1], 1⟩) :: fibTuples (i + 1) k

/-- An ARG of `k + 1` trees: the tree `(0,1)2` with root age 10 followed by
`fibTuples 0 k`. -/
def fibArg (k : Nat) : LocalTrees :=
  { chrom := "chr", start_coord := 0, end_coord := k + 1, nnodes := 3,
    trees := ⟨tree3, Spr.null, none, 1⟩ :: fibTuples 0 k, seqids := [0, 1] }

/-- The number e^15 to twelve decimal places. -/
def exp15Approx : ℚ := 3269017372472110639 / 1000000000000

/-- The number e^500 to seventeen significant digits. -/
def exp500Approx : ℚ := 14035922178528374 * 10 ^ 201

/-! ## Checking a rate map (`check_map`) -/

/-- The loop of `check_map` from the second region on, with the end `last` of
the region before: `false` at the first region that does not start at
`last`. -/
def check_flush {α : Type} : Int → List (RegionValue α) → Bool
  | _, [] => true
  | last, it :: rest => if it.start ≠ last then false else check_flush it.end_ rest

/-- The function `check_map(track, start, end)` of `model.cpp`: returns true
if regions in track are flush with one another and cover the desired range. -/
def check_map {α : Type} (track : List (RegionValue α)) (start end_ : Int) : Bool :=
  match track with
  | [] =>
    -- check that track is not empty
    false
  | it :: rest =>
    let back := (it :: rest).getLast (List.cons_ne_nil it rest)
    -- check that start and end cover desired range
    if it.start > start ∨ back.end_ < end_ then false
    else check_flush it.end_ rest

/-- Each region of the list starts where the region before it ends; the first
one starts at `last`. -/
def Flush {α : Type} : Int → List (RegionValue α) → Prop
  | _, [] => True
  | last, r :: rest => r.start = last ∧ Flush r.end_ rest

/-- Some region of the list starts before the end of the region before it,
where `last` is the end of the region before the list. -/
def HasOverlap {α : Type} : Int → List (RegionValue α) → Prop
  | _, [] => False
  | last, r :: rest => r.start < last ∨ HasOverlap r.end_ rest

/-- Some region of the track starts before the end of its predecessor. -/
def Overlaps {α : Type} (track : List (RegionValue α)) : Prop :=
  ∃ l1 r1 r2 l2, track = l1 ++ r1 :: r2 :: l2 ∧ r2.start < r1.end_

/-- A recombination map with a gap `[4, 6)` between its two regions. -/
def trackGap : List (RegionValue ℚ) := [⟨chrName, 2, 4, 1⟩, ⟨chrName, 6, 8, 3⟩]

/-- A map whose second region starts before the end of the first. -/
def trackOverlap : List (RegionValue ℚ) := [⟨chrName, 2, 6, 1⟩, ⟨chrName, 4, 8, 3⟩]

/-! ## Resampling in sliding windows (`resample_arg_regions`) -/

/-- The variables of the loop of `resample_arg_regions`; `windows` records the
arguments `(start, end)` of the calls of `resample_arg_region`, in order. -/
structure RegionsLoop where
  trees : LocalTrees
  accept_rate : ℚ
  nwindows : Int
  start : Int
  windows : List (Int × Int)

/-- The function `resample_arg_regions` of `sample_arg.cpp`: resample an ARG
a region at a time in a sliding window.  The window size `currwindow` drawn by
`irand` is a parameter, and so is the call `resample_arg_region(model,
sequences, trees, start, end, niters, true, heat)`, which maps the ARG to the
ARG after the call and the acceptance rate returned.  The result is the ARG,
the value returned and the windows passed to `resample_arg_region`.  Every
pass moves `start` forward by `currstep`; the loop is run for at most
`end_coord - start_coord + 1` passes. -/
def resample_arg_regions (resample_arg_region : LocalTrees → Int → Int → LocalTrees × ℚ)
    (currwindow : Int) (trees : LocalTrees) : Option (LocalTrees × ℚ × List (Int × Int)) :=
  let currstep := Int.tdiv currwindow 2 + 1
  (whileLoop
    (fun (s : RegionsLoop) =>
      decide (s.start = s.trees.start_coord ∨
        s.start + Int.tdiv currwindow 2 < s.trees.end_coord))
    (fun (s : RegionsLoop) =>
      let end_ := min (s.start + currwindow) s.trees.end_coord
      let r := resample_arg_region s.trees s.start end_
      some { trees := r.1, accept_rate := s.accept_rate + r.2, nwindows := s.nwindows + 1,
             start := s.start + currstep, windows := s.windows ++ [(s.start, end_)] })
    ((trees.end_coord - trees.start_coord).toNat + 1)
    { trees := trees, accept_rate := 0, nwindows := 0, start := trees.start_coord,
      windows := [] }).map fun s =>
  (s.trees, s.accept_rate / s.nwindows, s.windows)

/-- An ARG with the coordinates `[0, 5)`. -/
def argFive : LocalTrees :=
  { chrom := chrName, start_coord := 0, end_coord := 5, nnodes := 1,
    trees := [⟨trunkTree, Spr.null, none, 5⟩], seqids := [0] }

/-- A resampling step that leaves the ARG as it is and accepts. -/
def regionKeep : LocalTrees → Int → Int → LocalTrees × ℚ := fun t _ _ => (t, 1)

/-! ## Parsing a local tree from a Newick string (`parse_local_tree`)

The string is the list of its characters; `newick[len]` is the terminating
NUL character, and a read at any other index outside the string aborts.  The
calls `sscanf(&newick[i], "%d", ...)`, `parse_node_age` and
`parse_node_pop_path` are parameters: they get the text they are called on. -/

/-- The character `newick[i]`: the NUL character at `i = len`, and `none`
before the start of the string and after the NUL. -/
def charAt (newick : List Char) (i : Int) : Option Char :=
  if i = newick.length then some (Char.ofNat 0) else getAt newick i

/-- A loop `while (j < len && p(newick[j])) j++`; it makes at most `len`
passes. -/
def advance (newick : List Char) (p : Char → Bool) : Nat → Int → Int
  | 0, j => j
  | fuel + 1, j =>
    if j < newick.length ∧ p (readAt newick j) = true then advance newick p fuel (j + 1) else j

/-- The vectors and the current node of `parse_local_tree`; the last element of
`stack` is `stack.back()`. -/
structure NewickScan where
  ptree : List Int
  ages : List Int
  names : List Int
  pop_paths : List Int
  stack : List Int
  node : Int
deriving DecidableEq, Repr

/-- The call `inChars(c, ")(,:;[")`. -/
def inDelims (c : Char) : Bool :=
  c = ')' ∨ c = '(' ∨ c = ',' ∨ c = ':' ∨ c = ';' ∨ c = '['

/-- The case `'['` of `parse_local_tree` at index `i`: the state and the value
of `i` after it. -/
def parse_comment (newick : List Char) (times : List ℚ) (ntimes : Int)
    (parse_node_age : List Char → Option ℚ) (parse_node_pop_path : List Char → Int)
    (i : Int) (s : NewickScan) : Option (NewickScan × Int) :=
  let len : Int := newick.length
  let j := advance newick (fun c => c ≠ ']') newick.length (i + 1)
  (charAt newick j).bind fun c =>
  if c = ']' then
    let text := (newick.drop (i + 1).toNat).take (j - (i + 1)).toNat
    -- parse age field
    (match parse_node_age text with
      | some age => (find_time age times ntimes).bind fun a => setAt s.ages s.node a
      | none => some s.ages).bind fun ages =>
    (setAt s.pop_paths s.node (parse_node_pop_path text)).map fun pop_paths =>
    ({ s with ages := ages, pop_paths := pop_paths }, j)
  else
    -- error, quit early
    some (s, len)

/-- The case `default` of `parse_local_tree` at index `i`; it starts with the
read of `newick[i-1]`. -/
def parse_token (newick : List Char) (scan_int : List Char → Option Int) (i : Int)
    (s : NewickScan) : Option (NewickScan × Int) :=
  (charAt newick (i - 1)).bind fun last =>
  -- skip leading whitespace
  let i := advance newick (fun c => c = ' ') newick.length i
  -- find end of token
  let j := advance newick (fun c => !inDelims c) newick.length i
  (if last = ')' ∨ last = '(' ∨ last = ',' then
      -- name; on failure `i = len` is overwritten by `i = j - 1` below
      match scan_int (newick.drop i.toNat) with
      | some v => setAt s.names s.node v
      | none => some s.names
    else some s.names).map fun names =>
  ({ s with names := names }, j - 1)

/-- The body of the loop `for (int i=0; i<len; i++)` of `parse_local_tree` at
index `i`: the state and the value of `i` before `i++`. -/
def parse_char (newick : List Char) (times : List ℚ) (ntimes : Int)
    (scan_int : List Char → Option Int) (parse_node_age : List Char → Option ℚ)
    (parse_node_pop_path : List Char → Int) (i : Int) (s : NewickScan) :
    Option (NewickScan × Int) :=
  (charAt newick i).bind fun c =>
  if c = '(' then
    -- new branchset
    some ({ ptree := s.ptree ++ [s.node], ages := s.ages ++ [-1],
            pop_paths := s.pop_paths ++ [0], names := s.names ++ [-1],
            stack := s.stack ++ [s.node], node := (s.ptree.length : Int) + 1 - 1 }, i)
  else if c = ',' then
    -- another branch: `stack.back()`
    s.stack.getLast?.map fun b =>
    ({ s with ptree := s.ptree ++ [b], ages := s.ages ++ [-1],
              pop_paths := s.pop_paths ++ [0], names := s.names ++ [-1],
              node := (s.ptree.length : Int) + 1 - 1 }, i)
  else if c = ')' then
    -- optional name next: `stack.back()`, `stack.pop_back()`
    s.stack.getLast?.map fun b => ({ s with node := b, stack := s.stack.dropLast }, i)
  else if c = ':' then some (s, i)
  else if c = '[' then
    parse_comment newick times ntimes parse_node_age parse_node_pop_path i s
  else if c = ';' then some (s, i)
  else parse_token newick scan_int i s

/-- The loop `for (int i=0; i<len; i++)` of `parse_local_tree`.  Every pass
ends at an index not before the one it started at, so `len` passes are
enough. -/
def parse_scan (newick : List Char) (times : List ℚ) (ntimes : Int)
    (scan_int : List Char → Option Int) (parse_node_age : List Char → Option ℚ)
    (parse_node_pop_path : List Char → Int) : Nat → Int → NewickScan → Option NewickScan
  | 0, i, s => if i < newick.length then none else some s
  | fuel + 1, i, s =>
    if i < newick.length then
      (parse_char newick times ntimes scan_int parse_node_age parse_node_pop_path i s).bind
        fun r =>
      parse_scan newick times ntimes scan_int parse_node_age parse_node_pop_path fuel
        (r.2 + 1) r.1
    else some s

/-- The loop "add nodes to tree" of `parse_local_tree`; the inner `none` is
`return false`. -/
def parse_add_nodes (s : NewickScan) : List Nat → LocalTree → Option (Option LocalTree)
  | [], tree => some (some tree)
  | i :: rest, tree =>
    (getAt s.names i).bind fun j =>
    if j = -1 then some none
    else
      (getAt s.ptree i).bind fun p =>
      (if p ≠ -1 then (getAt s.names p).map fun q => (q, tree.root)
        else some (-1, j)).bind fun pr =>
      (getAt s.ages i).bind fun age =>
      (getAt s.pop_paths i).bind fun pop_path =>
      (modNode tree.nodes j fun _ =>
        { parent := pr.1, child0 := -1, child1 := -1, age := age, pop_path := pop_path }).bind
        fun nodes =>
      parse_add_nodes s rest { tree with nodes := nodes, root := pr.2 }

/-- The method `LocalTree::add_child(parent, child)`; the inner `none` is the
result -1. -/
def LocalTree.add_child (tree : LocalTree) (parent child : Int) : Option (Option LocalTree) :=
  (getNode tree.nodes parent).bind fun pn =>
  if pn.child0 = -1 then
    (modNode tree.nodes parent fun n => { n with child0 := child }).bind fun nodes =>
    (modNode nodes child fun n => { n with parent := parent }).map fun nodes =>
    some { tree with nodes := nodes }
  else if pn.child1 = -1 then
    (modNode tree.nodes parent fun n => { n with child1 := child }).bind fun nodes =>
    (modNode nodes child fun n => { n with parent := parent }).map fun nodes =>
    some { tree with nodes := nodes }
  else some none

/-- The loop "set children" of `parse_local_tree`; the inner `none` is
`return false`. -/
def parse_set_children (s : NewickScan) : List Nat → LocalTree → Option (Option LocalTree)
  | [], tree => some (some tree)
  | i :: rest, tree =>
    (getAt s.ptree i).bind fun p =>
    if p ≠ -1 then
      (getAt s.names p).bind fun parent =>
      (getAt s.names i).bind fun child =>
      (tree.add_child parent child).bind fun r =>
      match r with
      | none => some none
      | some tree2 => parse_set_children s rest tree2
    else parse_set_children s rest tree

/-- The loop "leaves default to age 0" of `parse_local_tree`. -/
def parse_leaf_ages (nnodes : Int) (tree : LocalTree) : Option LocalTree :=
  (forLoop (fun i nodes =>
      (getNode nodes i).bind fun n =>
      if n.is_leaf ∧ n.age = -1 then modNode nodes i fun n => { n with age := 0 }
      else some nodes)
    (List.range nnodes.toNat) tree.nodes).map fun nodes => { tree with nodes := nodes }

/-- The part of `parse_local_tree` after the scan: "fill in local tree data
structure". -/
def parse_fill (s : NewickScan) (tree : LocalTree) : Option (Bool × LocalTree) :=
  let nnodes : Int := s.ptree.length
  -- `tree->clear()`
  let tree := { tree with nnodes := 0, root := -1 }
  let tree := tree.ensure_capacity nnodes
  let tree := { tree with nnodes := nnodes }
  (parse_add_nodes s (List.range nnodes.toNat) tree).bind fun r =>
  match r with
  | none => some (false, tree)
  | some tree =>
    (parse_set_children s (List.range nnodes.toNat) tree).bind fun r =>
    match r with
    | none => some (false, tree)
    | some tree =>
      (parse_leaf_ages nnodes tree).bind fun tree =>
      -- check for valid tree structure
      (assert_tree tree none).map fun ok => (ok, tree)

/-- The function `parse_local_tree(newick, tree, times, ntimes)` of
`local_tree.cpp`: the value returned and the tree after the call; `none` when
the function reads or writes outside an array, or takes the back of the empty
stack. -/
def parse_local_tree (newick : List Char) (tree : LocalTree) (times : List ℚ) (ntimes : Int)
    (scan_int : List Char → Option Int) (parse_node_age : List Char → Option ℚ)
    (parse_node_pop_path : List Char → Int) : Option (Bool × LocalTree) :=
  -- create root node
  (parse_scan newick times ntimes scan_int parse_node_age parse_node_pop_path newick.length 0
    { ptree := [-1], ages := [-1], names := [-1], pop_paths := [0], stack := [],
      node := 0 }).bind fun s =>
  if s.stack.length ≠ 0 then some (false, tree)
  else parse_fill s tree

/-- A stand-in for `sscanf(text, "%d", ...)` on names of one digit. -/
def scanDigit (text : List Char) : Option Int :=
  match text with
  | c :: _ => if c.isDigit then some ((c.toNat : Int) - 48) else none
  | [] => none

/-- A stand-in for `parse_node_age` that finds no age. -/
def noAge : List Char → Option ℚ := fun _ => none

/-- A stand-in for `parse_node_pop_path` that finds no path. -/
def noPopPath : List Char → Int := fun _ => 0

/-- An empty tree with room for three nodes. -/
def treeEmpty3 : LocalTree := { nnodes := 0, root := -1, nodes := [default, default, default] }

/-! ## One column of the forward algorithm across a block boundary
(`arghmm_forward_switch`)

The `double`s are exact rationals, so the assertions `!isnan` and `!isinf`
hold and are left out; the assertion `norm != 0.0` is kept. -/

/-- Modelled from the spec: the class `TransMatrixSwitch`, with the fields that
`arghmm_forward_switch` reads; the method `get(j, k)` is the field `get`. -/
structure TransMatrixSwitch where
  nstates1 : Int
  nstates2 : Int
  determ : List Int
  determprob : List ℚ
  recombsrc : List Int
  recoalsrc : List Int
  get : Int → Int → ℚ

/-- The loop "initialize all entries in col2 to 0". -/
def forward_switch_zero (nstates2 : Int) (col2 : List ℚ) : Option (List ℚ) :=
  forLoop (fun k c => setAt c k (0 : ℚ)) (List.range nstates2.toNat) col2

/-- The loop "add deterministic transitions". -/
def forward_switch_determ (matrix : TransMatrixSwitch) (nstates1 : Int) (col1 col2 : List ℚ) :
    Option (List ℚ) :=
  forLoop (fun j c =>
      (getAt matrix.determ j).bind fun k =>
      if k ≠ -1 then
        (getAt matrix.recombsrc j).bind fun rs =>
        if rs < 0 then
          (getAt matrix.recoalsrc j).bind fun cs =>
          if cs < 0 then
            (getAt c k).bind fun old =>
            (getAt col1 j).bind fun x =>
            (getAt matrix.determprob j).bind fun p =>
            setAt c k (old + x * p)
          else some c
        else some c
      else some c)
    (List.range nstates1.toNat) col2

/-- The inner loop `for (int k=0; k<nstates2; k++)` of the recombination and
recoalescing transitions, for the source state `j`. -/
def forward_switch_row (matrix : TransMatrixSwitch) (nstates2 : Int) (col1 : List ℚ) (j : Int)
    (col2 : List ℚ) : Option (List ℚ) :=
  forLoop (fun k c =>
      let val := matrix.get j k
      if val > 0 then
        (getAt c k).bind fun old =>
        (getAt col1 j).bind fun x =>
        setAt c k (old + x * val)
      else some c)
    (List.range nstates2.toNat) col2

/-- The two loops "add recombination and recoalescing transitions": `src` is
`recombsrc` and `other` is `recoalsrc` in the first loop, and the other way
round in the second. -/
def forward_switch_src (matrix : TransMatrixSwitch) (src other : List Int)
    (nstates1 nstates2 : Int) (col1 col2 : List ℚ) : Option (List ℚ) :=
  forLoop (fun j c =>
      (getAt src j).bind fun s =>
      if s ≥ 0 then
        (getAt other j).bind fun o =>
        (assertion (decide (o < 0))).bind fun _ =>
        forward_switch_row matrix nstates2 col1 j c
      else some c)
    (List.range nstates1.toNat) col2

/-- The loop `col2[k] *= emit[k]; norm += col2[k]`, from `norm = 0.0`. -/
def forward_switch_emit (nstates2 : Int) (emit col2 : List ℚ) : Option (List ℚ × ℚ) :=
  forLoop (fun k s =>
      (getAt s.1 k).bind fun old =>
      (getAt emit k).bind fun e =>
      (setAt s.1 k (old * e)).map fun c => (c, s.2 + readAt c k))
    (List.range nstates2.toNat) (col2, 0)

/-- The function `arghmm_forward_switch` up to the assertion on `norm`: the
column before it is normalised, and `norm`. -/
def forward_switch_unnorm (col1 col2 : List ℚ) (matrix : TransMatrixSwitch) (emit : List ℚ) :
    Option (List ℚ × ℚ) :=
  -- if state space is size zero, we still treat it as size 1
  let nstates1 := max matrix.nstates1 1
  let nstates2 := max matrix.nstates2 1
  (forward_switch_zero nstates2 col2).bind fun c =>
  (forward_switch_determ matrix nstates1 col1 c).bind fun c =>
  (forward_switch_src matrix matrix.recombsrc matrix.recoalsrc nstates1 nstates2 col1 c).bind
    fun c =>
  (forward_switch_src matrix matrix.recoalsrc matrix.recombsrc nstates1 nstates2 col1 c).bind
    fun c =>
  forward_switch_emit nstates2 emit c

/-- The function `arghmm_forward_switch(col1, col2, matrix, emit)` of
`sample_thread.cpp`: the array `col2` after the call; `none` when an assertion
fails or an array is read or written outside its bounds. -/
def arghmm_forward_switch (col1 col2 : List ℚ) (matrix : TransMatrixSwitch) (emit : List ℚ) :
    Option (List ℚ) :=
  let nstates2 := max matrix.nstates2 1
  (forward_switch_unnorm col1 col2 matrix emit).bind fun s =>
  (assertion (decide (s.2 ≠ 0))).bind fun _ =>
  -- normalize column for numerical stability
  forLoop (fun k c => (getAt c k).bind fun old => setAt c k (old / s.2))
    (List.range nstates2.toNat) s.1

/-- The sum of the first `n` entries of a column. -/
def columnSum (n : Int) (col : List ℚ) : ℚ :=
  ((List.range n.toNat).map fun (k : Nat) => readAt col (k : Int)).sum

/-- A switch matrix from two states to two states: state 0 has a deterministic
transition to state 1, and state 1 is a recombination source. -/
def switchTwo : TransMatrixSwitch :=
  { nstates1 := 2, nstates2 := 2, determ := [1, -1], determprob := [1 / 2, 0],
    recombsrc := [-1, 0], recoalsrc := [-1, -1],
    get := fun j k => if j = 1 then (if k = 0 then 1 / 3 else 1 / 6) else 0 }

/-! ## Postorder traversal (`LocalTree::get_postorder`, `assert_tree_postorder`)

The array `order` is a list of optional integers: an entry that has not been
written holds `none`, and reading such an entry aborts. -/

/-- Read `order[i]`; `none` outside the array and for an entry that has not
been written. -/
def readOrder (order : List (Option Int)) (i : Int) : Option Int := (getAt order i).bind id

/-- The loop "list leaves first" of `get_postorder`, from index `i`: the index
at which it stops and the array `order`. -/
def postorder_leaves (tree : LocalTree) :
    Nat → Int → List (Option Int) → Option (Int × List (Option Int))
  | 0, i, order => some (i, order)
  | fuel + 1, i, order =>
    if i < tree.nnodes then
      (getNode tree.nodes i).bind fun n =>
      if !n.is_leaf then some (i, order)
      else (setAt order i (some i)).bind fun order => postorder_leaves tree fuel (i + 1) order
    else some (i, order)

/-- The variables of the loop "add the remaining nodes" of `get_postorder`. -/
structure PostorderFill where
  visit : List Int
  order : List (Option Int)
  end_ : Int

/-- One pass of the loop "add the remaining nodes" of `get_postorder`, at
index `i`. -/
def postorder_pass (tree : LocalTree) (i : Int) (s : PostorderFill) : Option PostorderFill :=
  (readOrder s.order i).bind fun o =>
  (getNode tree.nodes o).bind fun n =>
  let parent := n.parent
  if parent ≠ -1 then
    (getAt s.visit parent).bind fun v =>
    (setAt s.visit parent (v + 1)).bind fun visit =>
    -- add parent to queue if both children have been seen
    if v + 1 = 2 then
      (setAt s.order s.end_ (some parent)).map fun order =>
      { visit := visit, order := order, end_ := s.end_ + 1 }
    else some { s with visit := visit }
  else some s

/-- The loop "add the remaining nodes" of `get_postorder`. -/
def postorder_fill (tree : LocalTree) (s0 : PostorderFill) : Option PostorderFill :=
  forLoop (postorder_pass tree) (List.range tree.nnodes.toNat) s0

/-- The method `LocalTree::get_postorder(order)` of `local_tree.h`: the array
`order` after the call.  The array `visit` has `nnodes` entries, all 0 after
the first loop, and its counters are integers. -/
def LocalTree.get_postorder (tree : LocalTree) (order : List (Option Int)) :
    Option (List (Option Int)) :=
  let visit := List.replicate tree.nnodes.toNat (0 : Int)
  (postorder_leaves tree tree.nnodes.toNat 0 order).bind fun r =>
  (postorder_fill tree { visit := visit, order := r.2, end_ := r.1 }).map fun s => s.order

/-- The loop of `assert_tree_postorder`, over the indices in the list. -/
def assert_postorder_loop (tree : LocalTree) (order : List (Option Int)) :
    List Nat → List Bool → Option Bool
  | [], _ => some true
  | i :: rest, seen =>
    (readOrder order i).bind fun node =>
    (setAt seen node true).bind fun seen =>
    (getNode tree.nodes node).bind fun n =>
    if !n.is_leaf then
      (getAt seen n.child0).bind fun s0 =>
      if !s0 then some false
      else
        (getAt seen n.child1).bind fun s1 =>
        if !s1 then some false
        else assert_postorder_loop tree order rest seen
    else assert_postorder_loop tree order rest seen

/-- The function `assert_tree_postorder(tree, order)` of `local_tree.cpp`. -/
def assert_tree_postorder (tree : LocalTree) (order : List (Option Int)) : Option Bool :=
  (readOrder order (tree.nnodes - 1)).bind fun last =>
  if tree.root ≠ last then some false
  else
    assert_postorder_loop tree order (List.range tree.nnodes.toNat)
      (List.replicate tree.nnodes.toNat false)

/-- The invariant of the loop "add the remaining nodes" before pass `i`, for
an array `order` of `cap` entries: `w` lists the entries written so far.  They
are distinct nodes, namely the leaves and the nodes visited twice; `visit`
counts, for every node, the entries before `i` that have it as parent; and
every internal node written stands after both of its children. -/
structure PostorderInv (t : LocalTree) (cap : Nat) (i : Nat) (s : PostorderFill)
    (w : List Int) : Prop where
  hend : s.end_ = w.length
  hlen : s.order.length = cap
  hvis : s.visit.length = t.nnodes.toNat
  hread : ∀ k : Nat, k < w.length → readAt s.order (k : Int) = w[k]?
  hnd : w.Nodup
  hnode : ∀ x ∈ w, t.isNode x
  hmem : ∀ x, t.isNode x → (x ∈ w ↔ ((t.node x).child0 = -1 ∨ readAt s.visit x = 2))
  hcount : ∀ p, t.isNode p →
    readAt s.visit p = (((w.take i).countP fun x => decide ((t.node x).parent = p) : Nat) : Int)
  hle : i ≤ w.length
  hpost : ∀ (k : Nat) (x : Int), w[k]? = some x → (t.node x).child0 ≠ -1 →
    (t.node x).child0 ∈ w.take k ∧ (t.node x).child1 ∈ w.take k

/-- The nodes `0 .. n-1` as a list. -/
def nodeRange (n : Int) : List Int := (List.range n.toNat).map Int.ofNat

/-! ## Sampling a removal path through a node and a position
(`sample_arg_removal_path`)

The outcomes of the calls `rand() < prob_switch` are a parameter `coins`: the
call made while the entry `path[i]` is chosen has the outcome `coins i`.  The
list of local trees is a doubly linked list with a sentinel, so the iterator
before `begin()` is `end()`: the backward loop stops after the first tuple. -/

/-- The statements `if (nodes[1] == -1) j = 0; else j = int(rand() <
prob_switch);` followed by the read of `nodes[j]`. -/
def pick_removal_node (nodes : Int × Int) (coin : Bool) : Int :=
  let j : Int := if nodes.2 = -1 then 0 else (if coin then 1 else 0)
  if j = 0 then nodes.1 else nodes.2

/-- The body of the loop of `sample_arg_removal_path_forward` for a tuple `it`
that follows the tree `last_tree`; a null mapping is read and aborts. -/
def removal_forward_step (coins : Int → Bool) (last_tree : LocalTree) (it : LocalTreeSpr)
    (s : List Int × Int) : Option (List Int × Int) :=
  let path := s.1
  let i := s.2
  it.mapping.bind fun mapping =>
  (getAt path (i - 1)).bind fun prev =>
  (get_next_removal_nodes last_tree it.spr mapping prev (-1)).bind fun next_nodes =>
  (setAt path i (pick_removal_node next_nodes (coins i))).bind fun path =>
  let i := i + 1
  -- ensure that a removal path re-enters the local tree correctly
  (getAt path (i - 2)).bind fun a =>
  (getAt path (i - 1)).bind fun b =>
  (if last_tree.root = a ∧ it.tree.root ≠ b then
      assertion (decide (it.spr.coal_node = last_tree.root))
    else some ()).map fun _ => (path, i)

/-- The loop of `sample_arg_removal_path_forward` after its first pass. -/
def removal_forward_loop (coins : Int → Bool) :
    LocalTree → List LocalTreeSpr → List Int × Int → Option (List Int × Int)
  | _, [], s => some s
  | last_tree, it :: rest, s =>
    (removal_forward_step coins last_tree it s).bind
      (removal_forward_loop coins it.tree rest)

/-- The function `sample_arg_removal_path_forward` of `thread.cpp`, called
with the iterator at the tuple number `it`: the array `path` after the call. -/
def sample_arg_removal_path_forward (coins : Int → Bool) (trees : LocalTrees) (it : Nat)
    (node : Int) (path : List Int) (i : Int) : Option (List Int) :=
  (setAt path i node).bind fun path =>
  match trees.trees.drop it with
  | [] => some path
  | first :: rest => (removal_forward_loop coins first.tree rest (path, i + 1)).map Prod.fst

/-- The body of the loop of `sample_arg_removal_path_backward` for a tuple `it`
that precedes the tuple `cur` (`tree2`, `spr2`, `mapping2`). -/
def removal_backward_step (coins : Int → Bool) (cur it : LocalTreeSpr)
    (s : List Int × Int) : Option (List Int × Int) :=
  let path := s.1
  let i := s.2
  (assertion (!cur.spr.is_null)).bind fun _ =>
  cur.mapping.bind fun mapping2 =>
  (getAt path (i + 1)).bind fun next =>
  (get_prev_removal_nodes it.tree cur.spr mapping2 next none).bind fun prev_nodes =>
  (setAt path i (pick_removal_node prev_nodes (coins i))).map fun path => (path, i - 1)

/-- The loop of `sample_arg_removal_path_backward`: `earlier` holds the tuples
before `cur`, the nearest one first. -/
def removal_backward_loop (coins : Int → Bool) :
    LocalTreeSpr → List LocalTreeSpr → List Int × Int → Option (List Int × Int)
  | _, [], s => some s
  | cur, it :: rest, s =>
    (removal_backward_step coins cur it s).bind (removal_backward_loop coins it rest)

/-- The function `sample_arg_removal_path_backward` of `thread.cpp`, called
with the iterator at the tuple number `it`; at `end()` the read of `it->tree`
aborts. -/
def sample_arg_removal_path_backward (coins : Int → Bool) (trees : LocalTrees) (it : Nat)
    (node : Int) (path : List Int) (i : Int) : Option (List Int) :=
  (setAt path i node).bind fun path =>
  match trees.trees.drop it with
  | [] => none
  | cur :: _ =>
    (removal_backward_loop coins cur (trees.trees.take it).reverse (path, i - 1)).map Prod.fst

/-- The loop "search for block with pos" of `sample_arg_removal_path`: the
index `i` at which it stops. -/
def find_path_block : List LocalTreeSpr → Int → Int → Nat → Nat
  | [], _, _, i => i
  | x :: rest, end_, pos, i =>
    let start := end_
    let end_ := end_ + x.blocklen
    if start ≤ pos ∧ pos < end_ then i else find_path_block rest end_ pos (i + 1)

/-- The function `sample_arg_removal_path(trees, node, pos, path,
prob_switch)` of `thread.cpp`: sample a removal path that goes through a
particular node and position in the ARG.  The result is the array `path`. -/
def sample_arg_removal_path (coins : Int → Bool) (trees : LocalTrees) (node pos : Int)
    (path : List Int) : Option (List Int) :=
  -- search for block with pos
  let i := find_path_block trees.trees trees.start_coord pos 0
  -- search forward
  (sample_arg_removal_path_forward coins trees i node path i).bind fun path =>
  sample_arg_removal_path_backward coins trees i node path i

/-- A removal path that leaves the root of `tree1` arrives at the root of the
next tree, unless the SPR coalesces above the root of `tree1`. -/
def RootFollows (n : Int) (tree1 : LocalTree) (it : LocalTreeSpr) : Prop :=
  it.spr.coal_node ≠ tree1.root →
    ∀ k : Int, 0 ≤ k → k < n → nextAcross tree1 it tree1.root k = true → k = it.tree.root

instance (n : Int) (tree1 : LocalTree) (it : LocalTreeSpr) :
    Decidable (RootFollows n tree1 it) := by
  unfold RootFollows; infer_instance

/-- Every tuple of the list is consistent with the tree before it, and the
roots follow each other. -/
def PathTuples (n : Int) : LocalTree → List LocalTreeSpr → Prop
  | _, [] => True
  | last_tree, it :: rest =>
    TupleConsistent n last_tree it ∧ RootFollows n last_tree it ∧ PathTuples n it.tree rest

instance PathTuples.decide (n : Int) :
    ∀ (last_tree : LocalTree) (l : List LocalTreeSpr), Decidable (PathTuples n last_tree l)
  | _, [] => by unfold PathTuples; infer_instance
  | last_tree, it :: rest => by
    unfold PathTuples
    have := PathTuples.decide n it.tree rest
    infer_instance

/-- A valid ARG for the sampling of removal paths: it has a first tree, every
other tuple has a well-formed tree before it, an SPR on nodes of that tree
with `recomb_node` other than the root and the mapping of the SPR, and the
roots follow each other. -/
def PathArg (trees : LocalTrees) : Prop :=
  match trees.trees with
  | [] => False
  | first :: rest => PathTuples trees.nnodes first.tree rest

instance (trees : LocalTrees) : Decidable (PathArg trees) := by
  unfold PathArg
  cases trees.trees with
  | nil => exact isFalse (fun h => h)
  | cons first rest => exact PathTuples.decide trees.nnodes first.tree rest

/-- The coins that come up "switch" at the odd entries of the path. -/
def coinsOdd : Int → Bool := fun i => i % 2 = 1

/-! ## Appending two ARGs (`map_congruent_trees`, `repair_spr`,
`append_local_trees`) -/

/-- The inner loop of "reconcile leaves" in `map_congruent_trees`: the first
`j` in the list with `seqids2[j] == seqid`, -1 when there is none. -/
def find_seqid (seqids2 : List Int) (seqid : Int) : List Nat → Option Int
  | [] => some (-1)
  | j :: rest =>
    (getAt seqids2 j).bind fun s =>
    if s = seqid then some (j : Int) else find_seqid seqids2 seqid rest

/-- The loop "reconcile leaves" of `map_congruent_trees`. -/
def congruent_leaves (nleaves1 nleaves2 : Int) (seqids1 seqids2 : List Int)
    (mapping : List Int) : Option (List Int) :=
  forLoop (fun i m =>
      (getAt seqids1 i).bind fun seqid =>
      (setAt m i (-1)).bind fun m =>
      (find_seqid seqids2 seqid (List.range nleaves2.toNat)).bind fun j =>
      if j ≠ -1 then setAt m i j else some m)
    (List.range nleaves1.toNat) mapping

/-- One pass of the loop "postorder iterate over full tree to reconcile
internal nodes" of `map_congruent_trees`, for the node `j = order[i]`. -/
def congruent_node (tree1 tree2 : LocalTree) (j : Int) (mapping : List Int) :
    Option (List Int) :=
  (getNode tree1.nodes j).bind fun n =>
  if !n.is_leaf then
    (getAt mapping n.child0).bind fun m0 =>
    if m0 ≠ -1 then
      (getAt mapping n.child1).bind fun m1 =>
      if m1 ≠ -1 then
        -- both children mapping, so we map to their LCA
        (getNode tree2.nodes m0).bind fun a =>
        (setAt mapping j a.parent).bind fun mapping =>
        (getAt mapping n.child0).bind fun m0 =>
        (getNode tree2.nodes m0).bind fun a =>
        (getAt mapping n.child1).bind fun m1 =>
        (getNode tree2.nodes m1).bind fun b =>
        (assertion (decide (a.parent = b.parent))).map fun _ => mapping
      else
        -- single child maps, copy its mapping
        (getAt mapping n.child0).bind fun m0 => setAt mapping j m0
    else
      (getAt mapping n.child1).bind fun m1 =>
      if m1 ≠ -1 then
        -- single child maps, copy its mapping
        (getAt mapping n.child1).bind fun m1 => setAt mapping j m1
      else
        -- neither child maps, so neither do we
        setAt mapping j (-1)
  else some mapping

/-- The function `map_congruent_trees(tree1, seqids1, tree2, seqids2,
mapping)` of `local_tree.cpp`: the array `mapping` after the call.  The array
`order` is fresh, so none of its entries has been written before
`get_postorder`. -/
def map_congruent_trees (tree1 : LocalTree) (seqids1 : List Int) (tree2 : LocalTree)
    (seqids2 : List Int) (mapping : List Int) : Option (List Int) :=
  let nleaves1 := tree1.get_num_leaves
  let nleaves2 := tree2.get_num_leaves
  (forLoop (fun i m => setAt m i (-1)) (List.range tree1.nnodes.toNat) mapping).bind
    fun mapping =>
  -- reconcile leaves
  (congruent_leaves nleaves1 nleaves2 seqids1 seqids2 mapping).bind fun mapping =>
  -- postorder iterate over full tree to reconcile internal nodes
  (tree1.get_postorder (List.replicate tree1.nnodes.toNat none)).bind fun order =>
  forLoop (fun i m => (readOrder order i).bind fun j => congruent_node tree1 tree2 j m)
    (List.range tree1.nnodes.toNat) mapping

/-- One pass of the loop "calculate mapping as much as possible" of
`infer_mapping`, for the node `j = order[i]`. -/
def infer_node (tree1 tree2 : LocalTree) (j : Int) (mapping : List Int) : Option (List Int) :=
  (getNode tree1.nodes j).bind fun n =>
  if n.is_leaf then some mapping
  else
    (getAt mapping n.child0).bind fun m0 =>
    if m0 = -1 then some mapping
    else
      (getAt mapping n.child1).bind fun m1 =>
      if m1 = -1 then some mapping
      else
        -- both children mapping, see if they share parent
        (getNode tree2.nodes m0).bind fun an =>
        (getNode tree2.nodes m1).bind fun bn =>
        if an.parent = bn.parent then setAt mapping j an.parent else some mapping

/-- One pass of the loop "map remaining nodes" of `infer_mapping`, for the
node `j = order[i]`. -/
def infer_remaining (tree1 tree2 : LocalTree) (broken other recoal j : Int)
    (mapping : List Int) : Option (List Int) :=
  (getNode tree1.nodes j).bind fun n =>
  if !n.is_leaf ∧ j ≠ broken then
    -- skip over broken node
    let a := if n.child0 = broken then other else n.child0
    let b := if n.child1 = broken then other else n.child1
    (getAt mapping a).bind fun c =>
    (getAt mapping b).bind fun d =>
    (getNode tree2.nodes c).bind fun cn =>
    (getNode tree2.nodes d).bind fun dn =>
    -- skip over recoal node
    (if cn.parent = recoal then (getNode tree2.nodes cn.parent).map fun x => x.parent
      else some cn.parent).bind fun c =>
    (if dn.parent = recoal then (getNode tree2.nodes dn.parent).map fun x => x.parent
      else some dn.parent).bind fun d =>
    (assertion (decide (c = d))).bind fun _ =>
    setAt mapping j c
  else some mapping

/-- The function `infer_mapping(tree1, tree2, recomb_node, mapping)` of
`local_tree.cpp`: the array `mapping` after the call. -/
def infer_mapping (tree1 tree2 : LocalTree) (recomb_node : Int) (mapping : List Int) :
    Option (List Int) :=
  let nleaves1 := tree1.get_num_leaves
  -- map leaves
  (forLoop (fun i m => setAt m i i) (List.range nleaves1.toNat) mapping).bind fun mapping =>
  (forLoop (fun k m => setAt m (nleaves1 + k) (-1))
    (List.range (tree1.nnodes - nleaves1).toNat) mapping).bind fun mapping =>
  -- calculate mapping as much as possible
  (tree1.get_postorder (List.replicate tree1.nnodes.toNat none)).bind fun order =>
  (forLoop (fun i m => (readOrder order i).bind fun j => infer_node tree1 tree2 j m)
    (List.range tree1.nnodes.toNat) mapping).bind fun mapping =>
  -- use mapping to find important nodes
  (getNode tree1.nodes recomb_node).bind fun rn =>
  let broken := rn.parent
  (tree1.get_sibling recomb_node).bind fun other =>
  (getAt mapping recomb_node).bind fun recomb =>
  (assertion (decide (recomb ≠ -1))).bind fun _ =>
  (getNode tree2.nodes recomb).bind fun rcn =>
  let recoal := rcn.parent
  -- map remaining nodes
  (forLoop (fun i m =>
      (readOrder order i).bind fun j => infer_remaining tree1 tree2 broken other recoal j m)
    (List.range tree1.nnodes.toNat) mapping).bind fun mapping =>
  -- ensure broken node maps to nothing
  setAt mapping broken (-1)

/-- The function `get_inverse_mapping(mapping, size, inv_mapping)` of
`local_tree.cpp`, on a fresh array `inv_mapping` of `size` entries. -/
def get_inverse_mapping (mapping : List Int) (size : Int) : Option (List Int) :=
  forLoop (fun i inv =>
      (getAt mapping i).bind fun mi =>
      if mi ≠ -1 then setAt inv mi i else some inv)
    (List.range size.toNat) (List.replicate size.toNat (-1))

/-- The function `repair_spr(last_tree, tree, spr, mapping)` of
`local_tree.cpp`: the SPR and the array `mapping` after the call; a null
`mapping` is written to and aborts. -/
def repair_spr (last_tree tree : LocalTree) (spr : Spr) (mapping : Option (List Int)) :
    Option (Spr × List Int) :=
  mapping.bind fun mapping =>
  -- infer the mapping between local trees using the recombination node
  (infer_mapping last_tree tree spr.recomb_node mapping).bind fun mapping =>
  -- determine the coal time
  (getNode last_tree.nodes spr.recomb_node).bind fun rn =>
  let broken := rn.parent
  (getAt mapping spr.recomb_node).bind fun recomb =>
  (assertion (decide (recomb ≠ -1))).bind fun _ =>
  (getNode tree.nodes recomb).bind fun rcn =>
  let recoal := rcn.parent
  (getNode tree.nodes recoal).bind fun rln =>
  let spr := { spr with coal_time := rln.age }
  -- determine the coal node
  (tree.get_sibling recomb).bind fun other =>
  (get_inverse_mapping mapping tree.nnodes).bind fun inv_mapping =>
  (getAt inv_mapping other).bind fun cn =>
  let spr := { spr with coal_node := cn }
  -- adjust coal node due to branch movement
  (if spr.coal_node = broken then
      (last_tree.get_sibling spr.recomb_node).map fun s => { spr with coal_node := s }
    else some spr).bind fun spr =>
  (getNode last_tree.nodes spr.coal_node).bind fun cnn =>
  let parent := cnn.parent
  (if parent ≠ -1 then
      (getNode last_tree.nodes parent).map fun pn =>
      if spr.coal_time > pn.age then { spr with coal_node := parent } else spr
    else some spr).map fun spr => (spr, mapping)

/-- The block "set the mapping the newly neighboring trees" of
`append_local_trees`, for the last tuple `it` of `trees` and the first tuple
`it2` of `trees2`: the list of tuples after the block.  A new mapping array
has `trees2->nnodes` entries. -/
def append_merge (trees trees2 : LocalTrees) (pop_tree : Option PopulationTree)
    (it it2 : LocalTreeSpr) (rest2 : List LocalTreeSpr) : Option (List LocalTreeSpr) :=
  if it2.spr.is_null then
    -- there is no SPR between these trees
    -- infer a congruent mapping and remove redunant local blocks
    let mapping := match it2.mapping with
      | none => List.replicate trees2.nnodes.toNat (0 : Int)
      | some m => m
    (map_congruent_trees it.tree trees.seqids it2.tree trees2.seqids mapping).bind fun mapping =>
    let it2 := { it2 with mapping := some mapping }
    (remove_null_spr it (some it2) pop_tree).map fun r =>
    match r with
    | some merged => trees.trees.dropLast ++ merged :: rest2
    | none => trees.trees ++ it2 :: rest2
  else
    -- there should be an SPR between these trees, repair it.
    (repair_spr it.tree it2.tree it2.spr it2.mapping).map fun r =>
    trees.trees ++ { it2 with spr := r.1, mapping := some r.2 } :: rest2

/-- The function `append_local_trees(trees, trees2, merge, pop_tree)` of
`local_tree.cpp`: appends the data in `trees2` to `trees`.  The result is the
pair of `trees` and `trees2` after the call. -/
def append_local_trees (trees trees2 : LocalTrees) (merge : Bool)
    (pop_tree : Option PopulationTree) : Option (LocalTrees × LocalTrees) :=
  -- ensure seqids are the same
  (forLoop (fun i _ =>
      (getAt trees.seqids i).bind fun a =>
      (getAt trees2.seqids i).bind fun b => assertion (decide (a = b)))
    (List.range trees.seqids.length) ()).bind fun _ =>
  (assertion (decide (trees.nnodes = trees2.nnodes))).bind fun _ =>
  -- move trees2 onto end of trees
  -- set the mapping the newly neighboring trees
  (if merge = true ∧ 0 < trees.trees.length ∧ 0 < trees2.trees.length then
      trees.trees.getLast?.bind fun it =>
      trees2.trees.head?.bind fun it2 =>
      append_merge trees trees2 pop_tree it it2 trees2.trees.tail
    else some (trees.trees ++ trees2.trees)).map fun l =>
  ({ trees with trees := l, end_coord := trees2.end_coord },
    { trees2 with trees := [], end_coord := trees2.start_coord })

/-- The call `partition_local_trees(trees, pos, true)` followed by
`append_local_trees(trees, trees2, true, NULL)`; a null `trees2` aborts. -/
def partition_append (trees : LocalTrees) (pos : Int) : Option (LocalTrees × LocalTrees) :=
  (partition_local_trees trees pos true).bind fun r =>
  r.2.bind fun trees2 => append_local_trees r.1 trees2 true none

/-- A valid ARG without population model, for `append_local_trees`: the first
tuple has the null SPR and no mapping; every other tuple has a non-null SPR
and a mapping array of entries -1 or nodes; every tree is a well-formed tree
on `nnodes` nodes whose leaves come first; the blocks have positive lengths
that add up to the span; and the ids of the sequences are pairwise distinct,
one for every leaf. -/
def AppendArg (trees : LocalTrees) : Prop :=
  ListShape trees.nnodes trees.trees ∧ NoNullSprs trees.trees ∧
  (∀ x ∈ trees.trees.head?, x.spr = Spr.null) ∧
  (∀ x ∈ trees.trees, WellFormed x.tree ∧ LeavesFirst x.tree ∧ 0 < x.blocklen ∧
    x.tree.nnodes = trees.nnodes) ∧
  sumBlocklen trees.trees = trees.end_coord - trees.start_coord ∧
  trees.seqids.Nodup ∧ (trees.seqids.length : Int) = trees.get_num_leaves

/-! ## Binary floating point (`double`)

The type `double` is IEEE 754 binary64: 53 bits of precision, exponents from
-1022 to 1023, rounding to nearest with ties to even, gradual underflow and
overflow to infinity.  The sign of zero is not modelled. -/

/-- A value of type `double`: a finite number, plus or minus infinity, or a
NaN. -/
inductive Dbl where
  | fin (q : ℚ)
  | inf (neg : Bool)
  | nan
deriving DecidableEq, Repr, Inhabited

/-- The power `2^e` for an integer exponent. -/
def pow2 (e : Int) : ℚ :=
  if 0 ≤ e then ((2 ^ e.toNat : Nat) : ℚ) else 1 / ((2 ^ (-e).toNat : Nat) : ℚ)

/-- The integer nearest to `x`, the even one of the two when `x` lies half way
between two integers. -/
def roundEven (x : ℚ) : Int :=
  let f := x.floor
  let r := x - f
  if r < 1 / 2 then f
  else if 1 / 2 < r then f + 1
  else if f % 2 = 0 then f else f + 1

/-- The number of halvings that take `n` below 2, found in at most `fuel`
steps; with `fuel = n` it is the position of the leading bit of `n`. -/
def bitLength : Nat → Nat → Nat
  | 0, _ => 0
  | fuel + 1, n => if 2 ≤ n then bitLength fuel (n / 2) + 1 else 0

/-- The binary exponent of a number other than 0: the `e` with
`2^e <= |x| < 2^(e+1)`. -/
def binExp (x : ℚ) : Int :=
  let e0 : Int := (bitLength x.num.natAbs x.num.natAbs : Int) - (bitLength x.den x.den : Int)
  if pow2 e0 ≤ |x| then e0 else e0 - 1

/-- The double nearest to the real number `x`: `x` is rounded to 53 significant
bits (to a multiple of `2^-1074` below `2^-1022`), and a result of magnitude
`2^1024` or more is an infinity. -/
def roundDouble (x : ℚ) : Dbl :=
  if x = 0 then Dbl.fin 0
  else
    let e := max (binExp x) (-1022)
    let ulp := pow2 (e - 52)
    let y : ℚ := (roundEven (x / ulp) : ℚ) * ulp
    if pow2 1024 ≤ |y| then Dbl.inf (decide (x < 0)) else Dbl.fin y

/-- The unary minus on doubles. -/
def Dbl.neg : Dbl → Dbl
  | Dbl.fin x => Dbl.fin (-x)
  | Dbl.inf b => Dbl.inf (!b)
  | Dbl.nan => Dbl.nan

/-- The sum of two doubles. -/
def Dbl.add : Dbl → Dbl → Dbl
  | Dbl.fin x, Dbl.fin y => roundDouble (x + y)
  | Dbl.nan, _ => Dbl.nan
  | _, Dbl.nan => Dbl.nan
  | Dbl.inf a, Dbl.inf b => if a = b then Dbl.inf a else Dbl.nan
  | Dbl.inf a, Dbl.fin _ => Dbl.inf a
  | Dbl.fin _, Dbl.inf b => Dbl.inf b

/-- The difference of two doubles. -/
def Dbl.sub (a b : Dbl) : Dbl := a.add b.neg

/-- The product of two doubles. -/
def Dbl.mul : Dbl → Dbl → Dbl
  | Dbl.fin x, Dbl.fin y => roundDouble (x * y)
  | Dbl.nan, _ => Dbl.nan
  | _, Dbl.nan => Dbl.nan
  | Dbl.inf a, Dbl.inf b => Dbl.inf (a != b)
  | Dbl.inf a, Dbl.fin y => if y = 0 then Dbl.nan else Dbl.inf (a != decide (y < 0))
  | Dbl.fin x, Dbl.inf b => if x = 0 then Dbl.nan else Dbl.inf (b != decide (x < 0))

/-- The function `fabs`. -/
def Dbl.abs : Dbl → Dbl
  | Dbl.fin x => Dbl.fin |x|
  | Dbl.inf _ => Dbl.inf false
  | Dbl.nan => Dbl.nan

/-- The comparison `a < b` of two doubles; it is false when one of them is a
NaN. -/
def Dbl.lt : Dbl → Dbl → Bool
  | Dbl.fin x, Dbl.fin y => decide (x < y)
  | Dbl.fin _, Dbl.inf b => !b
  | Dbl.inf a, Dbl.fin _ => a
  | Dbl.inf a, Dbl.inf b => a && !b
  | Dbl.nan, _ => false
  | _, Dbl.nan => false

/-- The function `find_time(time, times, ntimes)` in the arithmetic of
doubles. -/
def find_time_double (time : Dbl) (times : List Dbl) (ntimes : Int) : Option Int :=
  (forLoop (fun i (s : Dbl × Int) =>
      (getAt times i).map fun ti =>
      let diff := (ti.sub time).abs
      if diff.lt s.1 then (diff, i) else s)
    (List.range ntimes.toNat) (Dbl.inf false, (-1 : Int))).bind fun s =>
  (assertion (decide (s.2 ≠ -1))).map fun _ => s.2

/-- The body of the last loop of `get_coal_time_steps` in the arithmetic of
doubles. -/
def coal_time_step_double (times2 : List (Option Dbl)) (ntimes : Int) (i : Int)
    (steps : List Dbl) : Option (List Dbl) :=
  (getAt times2 (min (i + 1) (2 * ntimes))).bind fun a =>
  (getAt times2 i).bind fun b =>
  match a, b with
  | some a, some b =>
    (setAt steps i (a.sub b)).bind fun steps =>
    (assertion (!(a.sub b).lt (Dbl.fin 0))).map fun _ => steps
  | _, _ => none

/-- The function `get_coal_time_steps(times, ntimes, coal_time_steps, linear,
delta)` in the arithmetic of doubles; `get_time_point` is a parameter, and the
slots of `times2` that are never written have no value. -/
def get_coal_time_steps_double (get_time_point : Int → Int → Dbl → Dbl → Dbl)
    (times : List Dbl) (ntimes : Int) (linear : Bool) (delta : Dbl) : Option (List Dbl) :=
  -- get midpoints
  let times2 : List (Option Dbl) := List.replicate (2 * ntimes + 1).toNat none
  (forLoop (fun i t2 => (getAt times i).bind fun ti => setAt t2 (2 * i) (some ti))
    (List.range ntimes.toNat) times2).bind fun times2 =>
  (if linear then
      forLoop (fun i t2 =>
          (getAt times (i + 1)).bind fun a => (getAt times i).bind fun b =>
          setAt t2 (2 * i + 1) (some ((Dbl.fin (1 / 2)).mul (a.add b))))
        (List.range (ntimes - 1).toNat) times2
    else
      forLoop (fun i t2 =>
          (getAt times (ntimes - 1)).bind fun last =>
          setAt t2 (2 * i + 1) (some (get_time_point (2 * i + 1) (2 * ntimes - 2) last delta)))
        (List.range (ntimes - 1).toNat) times2).bind fun times2 =>
  (forLoop (coal_time_step_double times2 ntimes) (List.range (2 * ntimes - 2).toNat)
    (List.replicate (2 * ntimes - 1).toNat (Dbl.fin 0))).bind fun steps =>
  setAt steps (2 * ntimes - 2) (Dbl.inf false)

/-- The two entries that `resample_migrates` writes, in the arithmetic of
doubles: `diff = new_migrate - curr_migrate`, then `M[from][to] = new_migrate`
and `M[from][from] = curr_self_rate - diff`. -/
def migrate_update_double (new_migrate curr_migrate curr_self_rate : Dbl) : Dbl × Dbl :=
  let diff := new_migrate.sub curr_migrate
  (new_migrate, curr_self_rate.sub diff)

/-! ## `apply_spr` with the tree at the point of failure

The function `apply_spr` writes the tree in place.  To say what the tree holds
when an assertion stops the call, the statements are run one by one over the
node array, and a failure keeps the array as the statements before it left
it. -/

/-- The outcome of a routine that writes a state of type `σ` in place:
`returned a` when it runs through, `failed s` when an assertion fails or an
access leaves the array, with the state `s` as it is at that point. -/
inductive Outcome (σ α : Type) where
  | returned (a : α)
  | failed (s : σ)
deriving DecidableEq, Repr

/-- Sequencing: the statements `f` run when `r` has run through. -/
def Outcome.bind {σ α β : Type} (r : Outcome σ α) (f : α → Outcome σ β) : Outcome σ β :=
  match r with
  | Outcome.returned a => f a
  | Outcome.failed s => Outcome.failed s

/-- The outcome without the state at the point of failure. -/
def Outcome.toOption {σ α : Type} : Outcome σ α → Option α
  | Outcome.returned a => some a
  | Outcome.failed _ => none

/-- One statement that writes the state `s`: it leaves the new state, or it
fails and `s` is as before. -/
def Outcome.write {σ : Type} (s : σ) (r : Option σ) : Outcome σ σ :=
  match r with
  | some s1 => Outcome.returned s1
  | none => Outcome.failed s

/-- One read in the state `s`, followed by the statements `k`: a read that
fails leaves `s` as it is. -/
def Outcome.read {σ α β : Type} (s : σ) (v : Option α) (k : α → Outcome σ β) : Outcome σ β :=
  match v with
  | some a => k a
  | none => Outcome.failed s

/-- The statement `if (c[0] == old) c[0] = new_; else c[1] = new_;` of
`apply_spr`, as `replace_child`, with the array at the point of failure. -/
def replace_child_traced (nodes : List LocalNode) (parent old new_ : Int) :
    Outcome (List LocalNode) (List LocalNode) :=
  Outcome.read nodes (getNode nodes parent) fun pn =>
    if pn.child0 = old then
      Outcome.write nodes (modNode nodes parent fun n => { n with child0 := new_ })
    else Outcome.write nodes (modNode nodes parent fun n => { n with child1 := new_ })

/-- Lines 389-404 of `apply_spr`, as `apply_spr_self`, with the array at the
point of failure: both assertions come before the one write. -/
def apply_spr_self_traced (tree : LocalTree) (spr : Spr) (pop_tree : Option PopulationTree) :
    Outcome (List LocalNode) (List LocalNode) :=
  match pop_tree with
  | none => Outcome.failed tree.nodes -- `assert(pop_tree != NULL)`
  | some pt =>
    Outcome.read tree.nodes (getNode tree.nodes spr.recomb_node) fun rn =>
    let path1 := rn.pop_path
    let path2 := spr.pop_path
    -- `assert(!pop_tree->paths_equal(path1, path2, recomb_time, coal_time))`
    if pt.paths_equal path1 path2 spr.recomb_time spr.coal_time then Outcome.failed tree.nodes
    else
      let path3 := pt.consistent_path path1 path2 rn.age spr.recomb_time spr.coal_time
      Outcome.write tree.nodes (modNode tree.nodes spr.recomb_node fun n =>
        { n with pop_path := pt.consistent_path path3 path1 rn.age spr.coal_time (-1) })

/-- Lines 417-426 of `apply_spr`, as `spr_prune`, with the array at the point
of failure. -/
def spr_prune_traced (nodes : List LocalNode) (recoal recomb_sib broke_parent : Int) :
    Outcome (List LocalNode) (List LocalNode × Int) :=
  (Outcome.write nodes
    (modNode nodes recomb_sib fun n => { n with parent := broke_parent })).bind fun nodes =>
  Outcome.read nodes (spr_slot nodes recoal broke_parent) fun x =>
  (Outcome.write nodes
    (if broke_parent ≠ -1 then
      modNode nodes broke_parent fun n => n.setChild x recomb_sib
    else some nodes)).bind fun nodes =>
  Outcome.returned (nodes, x)

/-- Lines 430-437 of `apply_spr`, as `spr_recoal_broken`, with the array at
the point of failure. -/
def spr_recoal_broken_traced (nodes : List LocalNode) (pop_tree : Option PopulationTree)
    (recoal other recomb_sib broke_parent x : Int) : Outcome (List LocalNode) (List LocalNode) :=
  (Outcome.write nodes
    (modNode nodes recoal fun n => n.setChild other recomb_sib)).bind fun nodes =>
  Outcome.read nodes (getNode nodes recomb_sib) fun sibn =>
  (Outcome.write nodes
    (modNode nodes recoal fun n => { n with parent := sibn.parent })).bind fun nodes =>
  (Outcome.write nodes
    (modNode nodes recomb_sib fun n => { n with parent := recoal })).bind fun nodes =>
  (Outcome.write nodes
    (if broke_parent ≠ -1 then
      modNode nodes broke_parent fun n => n.setChild x recoal
    else some nodes)).bind fun nodes =>
  match pop_tree with
  | some _ =>
      Outcome.read nodes (getNode nodes recomb_sib) fun sibn =>
      Outcome.write nodes (modNode nodes recoal fun n => { n with pop_path := sibn.pop_path })
  | none => Outcome.returned nodes

/-- Lines 439-452 of `apply_spr`, as `spr_recoal_branch`, with the array at
the point of failure. -/
def spr_recoal_branch_traced (nodes : List LocalNode) (recoal other coal_node : Int) :
    Outcome (List LocalNode) (List LocalNode) :=
  (Outcome.write nodes
    (modNode nodes recoal fun n => n.setChild other coal_node)).bind fun nodes =>
  Outcome.read nodes (getNode nodes coal_node) fun cn =>
  (Outcome.write nodes
    (modNode nodes recoal fun n => { n with parent := cn.parent })).bind fun nodes =>
  Outcome.read nodes (getNode nodes coal_node) fun cn =>
  (Outcome.write nodes
    (modNode nodes recoal fun n => { n with pop_path := cn.pop_path })).bind fun nodes =>
  (Outcome.write nodes
    (modNode nodes coal_node fun n => { n with parent := recoal })).bind fun nodes =>
  -- fix coal_node parent
  Outcome.read nodes (getNode nodes recoal) fun rcn =>
  let parent := rcn.parent
  if parent ≠ -1 then replace_child_traced nodes parent coal_node recoal
  else Outcome.returned nodes

/-- The statements of `apply_spr` after the two special cases (lines 406-478),
with the array at the point of failure; the result is the array and the new
root. -/
def apply_spr_body_traced (tree : LocalTree) (spr : Spr) (pop_tree : Option PopulationTree) :
    Outcome (List LocalNode) (List LocalNode × Int) :=
  let nodes := tree.nodes
  -- recoal is also the node we are breaking
  Outcome.read nodes (getNode nodes spr.recomb_node) fun rn =>
  let recoal := rn.parent
  -- find recomb node sibling and broke node parent
  Outcome.read nodes (getNode nodes recoal) fun c =>
  let other : Int := if c.child0 = spr.recomb_node then 1 else 0
  let recomb_sib := c.child other
  let broke_parent := c.parent
  (Outcome.write nodes (spr_sib_path nodes pop_tree recomb_sib)).bind fun nodes =>
  (spr_prune_traced nodes recoal recomb_sib broke_parent).bind fun (nodes, x) =>
  -- reuse node as recoal
  (if spr.coal_node = recoal then
      spr_recoal_broken_traced nodes pop_tree recoal other recomb_sib broke_parent x
    else spr_recoal_branch_traced nodes recoal other spr.coal_node).bind fun nodes =>
  (Outcome.write nodes (spr_recomb_path nodes pop_tree spr)).bind fun nodes =>
  (Outcome.write nodes
    (modNode nodes recoal fun n => { n with age := spr.coal_time })).bind fun nodes =>
  Outcome.returned (nodes, spr_new_root tree.root recoal recomb_sib spr.coal_node)

/-- The function `apply_spr` of `local_tree.cpp` with the tree at the point of
failure: `returned` holds the tree that the call leaves, `failed` the tree as
it is when an assertion fails or an access leaves the node array.  The field
`root` is written by the last statement only. -/
def apply_spr_traced (tree : LocalTree) (spr : Spr) (pop_tree : Option PopulationTree) :
    Outcome LocalTree LocalTree :=
  -- trivial case: `assert(0)`
  if spr.recomb_node = tree.root then Outcome.failed tree
  else if spr.recomb_node = spr.coal_node then
    match apply_spr_self_traced tree spr pop_tree with
    | Outcome.returned nodes => Outcome.returned { tree with nodes := nodes }
    | Outcome.failed nodes => Outcome.failed { tree with nodes := nodes }
  else
    match apply_spr_body_traced tree spr pop_tree with
    | Outcome.returned (nodes, root) => Outcome.returned { tree with nodes := nodes, root := root }
    | Outcome.failed nodes => Outcome.failed { tree with nodes := nodes }

/-! # Lemmas -/

/-! ## Reading fields after an update -/

@[simp] theorem length_updAt {α : Type} (xs : List α) (i : Int) (x : α) :
    (updAt xs i x).length = xs.length := by
  unfold updAt; split <;> simp

@[simp] theorem inArr_updAt {α : Type} (xs : List α) (i j : Int) (x : α) :
    inArr (updAt xs i x) j ↔ inArr xs j := by
  simp [inArr]

theorem readAt_updAt {α : Type} [Inhabited α] (xs : List α) (i j : Int) (x : α) :
    readAt (updAt xs i x) j = if j = i ∧ inArr xs i then x else readAt xs j := by
  unfold readAt updAt inArr
  by_cases hj : 0 ≤ j
  · by_cases hi : 0 ≤ i
    · simp only [hj, hi, if_true, true_and]
      by_cases hij : j = i
      · subst hij
        by_cases hl : j < xs.length
        · have : j.toNat < xs.length := by omega
          simp [hl, List.getD_eq_getElem?_getD, List.getElem?_set, this]
        · have h1 : xs.length ≤ j.toNat := by omega
          have h2 : ¬ j.toNat < xs.length := by omega
          simp [hl, List.getD_eq_getElem?_getD, List.getElem?_set, List.getElem?_eq_none h1, h2]
      · have : i.toNat ≠ j.toNat := by omega
        simp [hij, List.getD_eq_getElem?_getD, List.getElem?_set, this]
    · have : j ≠ i := by omega
      simp [hj, hi, this]
  · have : ¬ (j = i ∧ 0 ≤ i ∧ i < xs.length) := by omega
    simp [hj, this]

theorem readAt_updAt_of_inArr {α : Type} [Inhabited α] (xs : List α) (i j : Int) (x : α)
    (h : inArr xs i) :
    readAt (updAt xs i x) j = if j = i then x else readAt xs j := by
  rw [readAt_updAt]; simp [h]

theorem nodeAt_updAt (nodes : List LocalNode) (i j : Int) (x : LocalNode) :
    nodeAt (updAt nodes i x) j = if j = i ∧ inArr nodes i then x else nodeAt nodes j :=
  readAt_updAt nodes i j x

theorem getAt_eq {α : Type} [Inhabited α] {xs : List α} {i : Int} (h : inArr xs i) :
    getAt xs i = some (readAt xs i) := by
  simp [getAt, h]

theorem setAt_eq {α : Type} {xs : List α} {i : Int} (x : α) (h : inArr xs i) :
    setAt xs i x = some (updAt xs i x) := by
  simp [setAt, h]

theorem getNode_eq {nodes : List LocalNode} {i : Int} (h : inArr nodes i) :
    getNode nodes i = some (nodeAt nodes i) := by
  simp [getNode, getAt, h, nodeAt]

theorem modNode_eq {nodes : List LocalNode} {i : Int} (f : LocalNode → LocalNode)
    (h : inArr nodes i) :
    modNode nodes i f = some (updAt nodes i (f (nodeAt nodes i))) := by
  simp [modNode, h]

@[simp] theorem length_setParent (nodes : List LocalNode) (i v : Int) :
    (setParent nodes i v).length = nodes.length := by
  simp [setParent]

@[simp] theorem inArr_setParent (nodes : List LocalNode) (i j v : Int) :
    inArr (setParent nodes i v) j ↔ inArr nodes j := by
  simp [setParent]

theorem modNode_parent {nodes : List LocalNode} {i : Int} (v : Int) (h : inArr nodes i) :
    modNode nodes i (fun n => { n with parent := v }) = some (setParent nodes i v) := by
  simp [modNode, h, setParent]

@[simp] theorem parent_setParent (nodes : List LocalNode) (i j v : Int) :
    (nodeAt (setParent nodes i v) j).parent = if j = i ∧ inArr nodes i then v else (nodeAt nodes j).parent := by
  unfold setParent; rw [nodeAt_updAt]; split <;> rfl

@[simp] theorem child0_setParent (nodes : List LocalNode) (i j v : Int) :
    (nodeAt (setParent nodes i v) j).child0 = (nodeAt nodes j).child0 := by
  unfold setParent; rw [nodeAt_updAt]; split
  · rename_i h; rw [h.1]
  · rfl

@[simp] theorem child1_setParent (nodes : List LocalNode) (i j v : Int) :
    (nodeAt (setParent nodes i v) j).child1 = (nodeAt nodes j).child1 := by
  unfold setParent; rw [nodeAt_updAt]; split
  · rename_i h; rw [h.1]
  · rfl

@[simp] theorem age_setParent (nodes : List LocalNode) (i j v : Int) :
    (nodeAt (setParent nodes i v) j).age = (nodeAt nodes j).age := by
  unfold setParent; rw [nodeAt_updAt]; split
  · rename_i h; rw [h.1]
  · rfl

@[simp] theorem pop_path_setParent (nodes : List LocalNode) (i j v : Int) :
    (nodeAt (setParent nodes i v) j).pop_path = (nodeAt nodes j).pop_path := by
  unfold setParent; rw [nodeAt_updAt]; split
  · rename_i h; rw [h.1]
  · rfl

@[simp] theorem length_setChild0 (nodes : List LocalNode) (i v : Int) :
    (setChild0 nodes i v).length = nodes.length := by
  simp [setChild0]

@[simp] theorem inArr_setChild0 (nodes : List LocalNode) (i j v : Int) :
    inArr (setChild0 nodes i v) j ↔ inArr nodes j := by
  simp [setChild0]

theorem modNode_child0 {nodes : List LocalNode} {i : Int} (v : Int) (h : inArr nodes i) :
    modNode nodes i (fun n => { n with child0 := v }) = some (setChild0 nodes i v) := by
  simp [modNode, h, setChild0]

@[simp] theorem parent_setChild0 (nodes : List LocalNode) (i j v : Int) :
    (nodeAt (setChild0 nodes i v) j).parent = (nodeAt nodes j).parent := by
  unfold setChild0; rw [nodeAt_updAt]; split
  · rename_i h; rw [h.1]
  · rfl

@[simp] theorem child0_setChild0 (nodes : List LocalNode) (i j v : Int) :
    (nodeAt (setChild0 nodes i v) j).child0 = if j = i ∧ inArr nodes i then v else (nodeAt nodes j).child0 := by
  unfold setChild0; rw [nodeAt_updAt]; split <;> rfl

@[simp] theorem child1_setChild0 (nodes : List LocalNode) (i j v : Int) :
    (nodeAt (setChild0 nodes i v) j).child1 = (nodeAt nodes j).child1 := by
  unfold setChild0; rw [nodeAt_updAt]; split
  · rename_i h; rw [h.1]
  · rfl

@[simp] theorem age_setChild0 (nodes : List LocalNode) (i j v : Int) :
    (nodeAt (setChild0 nodes i v) j).age = (nodeAt nodes j).age := by
  unfold setChild0; rw [nodeAt_updAt]; split
  · rename_i h; rw [h.1]
  · rfl

@[simp] theorem pop_path_setChild0 (nodes : List LocalNode) (i j v : Int) :
    (nodeAt (setChild0 nodes i v) j).pop_path = (nodeAt nodes j).pop_path := by
  unfold setChild0; rw [nodeAt_updAt]; split
  · rename_i h; rw [h.1]
  · rfl

@[simp] theorem length_setChild1 (nodes : List LocalNode) (i v : Int) :
    (setChild1 nodes i v).length = nodes.length := by
  simp [setChild1]

@[simp] theorem inArr_setChild1 (nodes : List LocalNode) (i j v : Int) :
    inArr (setChild1 nodes i v) j ↔ inArr nodes j := by
  simp [setChild1]

theorem modNode_child1 {nodes : List LocalNode} {i : Int} (v : Int) (h : inArr nodes i) :
    modNode nodes i (fun n => { n with child1 := v }) = some (setChild1 nodes i v) := by
  simp [modNode, h, setChild1]

@[simp] theorem parent_setChild1 (nodes : List LocalNode) (i j v : Int) :
    (nodeAt (setChild1 nodes i v) j).parent = (nodeAt nodes j).parent := by
  unfold setChild1; rw [nodeAt_updAt]; split
  · rename_i h; rw [h.1]
  · rfl

@[simp] theorem child0_setChild1 (nodes : List LocalNode) (i j v : Int) :
    (nodeAt (setChild1 nodes i v) j).child0 = (nodeAt nodes j).child0 := by
  unfold setChild1; rw [nodeAt_updAt]; split
  · rename_i h; rw [h.1]
  · rfl

@[simp] theorem child1_setChild1 (nodes : List LocalNode) (i j v : Int) :
    (nodeAt (setChild1 nodes i v) j).child1 = if j = i ∧ inArr nodes i then v else (nodeAt nodes j).child1 := by
  unfold setChild1; rw [nodeAt_updAt]; split <;> rfl

@[simp] theorem age_setChild1 (nodes : List LocalNode) (i j v : Int) :
    (nodeAt (setChild1 nodes i v) j).age = (nodeAt nodes j).age := by
  unfold setChild1; rw [nodeAt_updAt]; split
  · rename_i h; rw [h.1]
  · rfl

@[simp] theorem pop_path_setChild1 (nodes : List LocalNode) (i j v : Int) :
    (nodeAt (setChild1 nodes i v) j).pop_path = (nodeAt nodes j).pop_path := by
  unfold setChild1; rw [nodeAt_updAt]; split
  · rename_i h; rw [h.1]
  · rfl

@[simp] theorem length_setAge (nodes : List LocalNode) (i v : Int) :
    (setAge nodes i v).length = nodes.length := by
  simp [setAge]

@[simp] theorem inArr_setAge (nodes : List LocalNode) (i j v : Int) :
    inArr (setAge nodes i v) j ↔ inArr nodes j := by
  simp [setAge]

theorem modNode_age {nodes : List LocalNode} {i : Int} (v : Int) (h : inArr nodes i) :
    modNode nodes i (fun n => { n with age := v }) = some (setAge nodes i v) := by
  simp [modNode, h, setAge]

@[simp] theorem parent_setAge (nodes : List LocalNode) (i j v : Int) :
    (nodeAt (setAge nodes i v) j).parent = (nodeAt nodes j).parent := by
  unfold setAge; rw [nodeAt_updAt]; split
  · rename_i h; rw [h.1]
  · rfl

@[simp] theorem child0_setAge (nodes : List LocalNode) (i j v : Int) :
    (nodeAt (setAge nodes i v) j).child0 = (nodeAt nodes j).child0 := by
  unfold setAge; rw [nodeAt_updAt]; split
  · rename_i h; rw [h.1]
  · rfl

@[simp] theorem child1_setAge (nodes : List LocalNode) (i j v : Int) :
    (nodeAt (setAge nodes i v) j).child1 = (nodeAt nodes j).child1 := by
  unfold setAge; rw [nodeAt_updAt]; split
  · rename_i h; rw [h.1]
  · rfl

@[simp] theorem age_setAge (nodes : List LocalNode) (i j v : Int) :
    (nodeAt (setAge nodes i v) j).age = if j = i ∧ inArr nodes i then v else (nodeAt nodes j).age := by
  unfold setAge; rw [nodeAt_updAt]; split <;> rfl

@[simp] theorem pop_path_setAge (nodes : List LocalNode) (i j v : Int) :
    (nodeAt (setAge nodes i v) j).pop_path = (nodeAt nodes j).pop_path := by
  unfold setAge; rw [nodeAt_updAt]; split
  · rename_i h; rw [h.1]
  · rfl

@[simp] theorem length_setPath (nodes : List LocalNode) (i v : Int) :
    (setPath nodes i v).length = nodes.length := by
  simp [setPath]

@[simp] theorem inArr_setPath (nodes : List LocalNode) (i j v : Int) :
    inArr (setPath nodes i v) j ↔ inArr nodes j := by
  simp [setPath]

theorem modNode_pop_path {nodes : List LocalNode} {i : Int} (v : Int) (h : inArr nodes i) :
    modNode nodes i (fun n => { n with pop_path := v }) = some (setPath nodes i v) := by
  simp [modNode, h, setPath]

@[simp] theorem parent_setPath (nodes : List LocalNode) (i j v : Int) :
    (nodeAt (setPath nodes i v) j).parent = (nodeAt nodes j).parent := by
  unfold setPath; rw [nodeAt_updAt]; split
  · rename_i h; rw [h.1]
  · rfl

@[simp] theorem child0_setPath (nodes : List LocalNode) (i j v : Int) :
    (nodeAt (setPath nodes i v) j).child0 = (nodeAt nodes j).child0 := by
  unfold setPath; rw [nodeAt_updAt]; split
  · rename_i h; rw [h.1]
  · rfl

@[simp] theorem child1_setPath (nodes : List LocalNode) (i j v : Int) :
    (nodeAt (setPath nodes i v) j).child1 = (nodeAt nodes j).child1 := by
  unfold setPath; rw [nodeAt_updAt]; split
  · rename_i h; rw [h.1]
  · rfl

@[simp] theorem age_setPath (nodes : List LocalNode) (i j v : Int) :
    (nodeAt (setPath nodes i v) j).age = (nodeAt nodes j).age := by
  unfold setPath; rw [nodeAt_updAt]; split
  · rename_i h; rw [h.1]
  · rfl

@[simp] theorem pop_path_setPath (nodes : List LocalNode) (i j v : Int) :
    (nodeAt (setPath nodes i v) j).pop_path = if j = i ∧ inArr nodes i then v else (nodeAt nodes j).pop_path := by
  unfold setPath; rw [nodeAt_updAt]; split <;> rfl


theorem LocalNode.ext_fields (a b : LocalNode) (h1 : a.parent = b.parent)
    (h2 : a.child0 = b.child0) (h3 : a.child1 = b.child1) (h4 : a.age = b.age)
    (h5 : a.pop_path = b.pop_path) : a = b := by
  cases a; cases b; simp_all

@[simp] theorem inArr_ite {α : Type} (p : Prop) [Decidable p] (A B : List α) (j : Int) :
    inArr (if p then A else B) j ↔ if p then inArr A j else inArr B j := by
  split <;> rfl

@[simp] theorem length_ite_nodes (p : Prop) [Decidable p] (A B : List LocalNode) :
    (if p then A else B).length = if p then A.length else B.length := by
  split <;> rfl

@[simp] theorem parent_ite (p : Prop) [Decidable p] (A B : List LocalNode) (j : Int) :
    (nodeAt (if p then A else B) j).parent =
      if p then (nodeAt A j).parent else (nodeAt B j).parent := by
  split <;> rfl

@[simp] theorem child0_ite (p : Prop) [Decidable p] (A B : List LocalNode) (j : Int) :
    (nodeAt (if p then A else B) j).child0 =
      if p then (nodeAt A j).child0 else (nodeAt B j).child0 := by
  split <;> rfl

@[simp] theorem child1_ite (p : Prop) [Decidable p] (A B : List LocalNode) (j : Int) :
    (nodeAt (if p then A else B) j).child1 =
      if p then (nodeAt A j).child1 else (nodeAt B j).child1 := by
  split <;> rfl

@[simp] theorem age_ite (p : Prop) [Decidable p] (A B : List LocalNode) (j : Int) :
    (nodeAt (if p then A else B) j).age =
      if p then (nodeAt A j).age else (nodeAt B j).age := by
  split <;> rfl

@[simp] theorem pop_path_ite (p : Prop) [Decidable p] (A B : List LocalNode) (j : Int) :
    (nodeAt (if p then A else B) j).pop_path =
      if p then (nodeAt A j).pop_path else (nodeAt B j).pop_path := by
  split <;> rfl

/-! ## Reaching the root and rank functions -/

theorem reaches_zero (nodes : List LocalNode) (target i : Int) :
    reaches nodes target 0 i = true ↔ i = target := by
  simp [reaches]

theorem reaches_succ (nodes : List LocalNode) (target : Int) (k : Nat) (i : Int) :
    reaches nodes target (k + 1) i = true ↔
      i = target ∨ (inArr nodes i ∧ reaches nodes target k (nodeAt nodes i).parent = true) := by
  simp [reaches]

theorem reaches_mono (nodes : List LocalNode) (target : Int) (k : Nat) :
    ∀ (i : Int), reaches nodes target k i = true → reaches nodes target (k + 1) i = true := by
  induction k with
  | zero =>
    intro i h
    rw [reaches_zero] at h
    rw [reaches_succ]; exact Or.inl h
  | succ k ih =>
    intro i h
    rw [reaches_succ] at h
    rw [reaches_succ]
    rcases h with h | ⟨h1, h2⟩
    · exact Or.inl h
    · exact Or.inr ⟨h1, ih _ h2⟩

theorem reaches_mono_le (nodes : List LocalNode) (target : Int) {k m : Nat} (hkm : k ≤ m)
    (i : Int) (h : reaches nodes target k i = true) : reaches nodes target m i = true := by
  induction hkm with
  | refl => exact h
  | step _ ih => exact reaches_mono _ _ _ _ ih

/-- A rank that decreases along parent links gives a bound on the number of
links to follow up to the root. -/
theorem reaches_of_rank (nodes : List LocalNode) (root n : Int) (rank : Int → Nat)
    (hn : n ≤ nodes.length)
    (hpar : ∀ i : Int, 0 ≤ i → i < n →
      if (nodeAt nodes i).parent = -1 then i = root
      else (0 ≤ (nodeAt nodes i).parent ∧ (nodeAt nodes i).parent < n) ∧
        rank (nodeAt nodes i).parent < rank i) :
    ∀ (m : Nat) (i : Int), 0 ≤ i → i < n → rank i ≤ m → reaches nodes root m i = true := by
  intro m
  induction m with
  | zero =>
    intro i h0 h1 hr
    have := hpar i h0 h1
    split at this
    · rw [reaches_zero]; exact this
    · omega
  | succ m ih =>
    intro i h0 h1 hr
    have := hpar i h0 h1
    rw [reaches_succ]
    split at this
    · exact Or.inl this
    · right
      refine ⟨⟨h0, by omega⟩, ih _ this.1.1 this.1.2 (by omega)⟩

/-- Acyclicity from a rank function: if the rank decreases along every parent
link, every node reaches the root within `n` links. -/
theorem reaches_of_rank_bounded (nodes : List LocalNode) (root n : Int) (rank : Int → Nat)
    (hn : n ≤ nodes.length)
    (hpar : ∀ i : Int, 0 ≤ i → i < n →
      if (nodeAt nodes i).parent = -1 then i = root
      else (0 ≤ (nodeAt nodes i).parent ∧ (nodeAt nodes i).parent < n) ∧
        rank (nodeAt nodes i).parent < rank i) :
    ∀ (i : Int), 0 ≤ i → i < n → reaches nodes root n.toNat i = true := by
  -- normalise the rank: count the nodes of smaller rank
  let rank' : Int → Nat := fun i =>
    ((Finset.range n.toNat).filter fun j : Nat => rank (j : Int) < rank i).card
  have hle : ∀ i, rank' i ≤ n.toNat := fun i => by
    calc rank' i ≤ (Finset.range n.toNat).card := Finset.card_filter_le _ _
      _ = n.toNat := Finset.card_range _
  have hpar' : ∀ i : Int, 0 ≤ i → i < n →
      if (nodeAt nodes i).parent = -1 then i = root
      else (0 ≤ (nodeAt nodes i).parent ∧ (nodeAt nodes i).parent < n) ∧
        rank' (nodeAt nodes i).parent < rank' i := by
    intro i h0 h1
    have := hpar i h0 h1
    split at this
    · rename_i h; rw [if_pos h]; exact this
    · rename_i h
      rw [if_neg h]
      refine ⟨this.1, ?_⟩
      have hp0 := this.1.1
      have hp1 := this.1.2
      have hlt := this.2
      apply Finset.card_lt_card
      rw [Finset.ssubset_iff_of_subset]
      · refine ⟨(nodeAt nodes i).parent.toNat, ?_, ?_⟩
        · simp only [Finset.mem_filter, Finset.mem_range]
          have h2 : (((nodeAt nodes i).parent.toNat : Nat) : Int) = (nodeAt nodes i).parent := by
            omega
          rw [h2]
          exact ⟨by omega, this.2⟩
        · simp only [Finset.mem_filter, Finset.mem_range, not_and]
          have h2 : (((nodeAt nodes i).parent.toNat : Nat) : Int) = (nodeAt nodes i).parent := by
            omega
          rw [h2]
          intro _; omega
      · intro j hj
        simp only [Finset.mem_filter, Finset.mem_range] at hj ⊢
        exact ⟨hj.1, by omega⟩
  intro i h0 h1
  exact reaches_of_rank nodes root n rank' hn hpar' n.toNat i h0 h1 (hle i)

/-- A rank function from reachability: the number of links up to the root
decreases along every parent link. -/
theorem exists_rank_of_reaches (nodes : List LocalNode) (root : Int) :
    ∃ rank : Int → Nat, ∀ (i : Int) (k : Nat), reaches nodes root k i = true → i ≠ root →
      rank (nodeAt nodes i).parent < rank i := by
  classical
  refine ⟨fun i => if h : ∃ k, reaches nodes root k i = true then Nat.find h else 0, ?_⟩
  intro i k hk hne
  have hex : ∃ k, reaches nodes root k i = true := ⟨k, hk⟩
  simp only [dif_pos hex]
  have hspec := Nat.find_spec hex
  cases hm : Nat.find hex with
  | zero =>
    rw [hm, reaches_zero] at hspec
    exact absurd hspec hne
  | succ m =>
    rw [hm, reaches_succ] at hspec
    rcases hspec with h | ⟨_, h2⟩
    · exact absurd h hne
    · have hex' : ∃ k, reaches nodes root k (nodeAt nodes i).parent = true := ⟨m, h2⟩
      simp only [dif_pos hex']
      have := Nat.find_min' hex' h2
      omega


/-! ## Facts about well-formed trees -/

theorem WellFormed.inArr {t : LocalTree} (h : WellFormed t) {i : Int} (hi : t.isNode i) :
    inArr t.nodes i := by
  obtain ⟨h1, -⟩ := h
  unfold LocalTree.isNode at hi
  unfold argweaver.inArr
  omega

theorem WellFormed.parent_cases {t : LocalTree} (h : WellFormed t) {i : Int}
    (hi : t.isNode i) :
    ((t.node i).parent = -1 ∧ i = t.root) ∨
    ((t.node i).parent ≠ -1 ∧ i ≠ t.root ∧ t.isNode (t.node i).parent ∧
      ((t.node (t.node i).parent).child0 = i ∨ (t.node (t.node i).parent).child1 = i)) := by
  obtain ⟨-, -, hrp, hpar, -, -⟩ := h
  have := hpar i hi.1 hi.2
  unfold ParentOk at this
  by_cases hp : (t.node i).parent = -1
  · rw [if_pos hp] at this; exact Or.inl ⟨hp, this⟩
  · rw [if_neg hp] at this
    refine Or.inr ⟨hp, ?_, this.1, this.2⟩
    intro hir; rw [hir] at hp; exact hp hrp

theorem WellFormed.children {t : LocalTree} (h : WellFormed t) {i : Int}
    (hi : t.isNode i) : ChildrenOk t i := h.2.2.2.2.1 i hi.1 hi.2

/-- In a well-formed tree a rank decreases along parent links. -/
theorem WellFormed.exists_rank {t : LocalTree} (h : WellFormed t) :
    ∃ rank : Int → Nat, ∀ i : Int, t.isNode i → (t.node i).parent ≠ -1 →
      rank (t.node i).parent < rank i := by
  obtain ⟨rank, hrank⟩ := exists_rank_of_reaches t.nodes t.root
  refine ⟨rank, fun i hi hp => ?_⟩
  rcases h.parent_cases hi with ⟨h1, -⟩ | ⟨-, h2, -, -⟩
  · exact absurd h1 hp
  · exact hrank i _ (h.2.2.2.2.2 i hi.1 hi.2) h2


/-! ## Closed forms of the blocks -/

@[simp] theorem length_setChildK (nodes : List LocalNode) (i k v : Int) :
    (setChildK nodes i k v).length = nodes.length := by
  unfold setChildK; split <;> simp

@[simp] theorem inArr_setChildK (nodes : List LocalNode) (i j k v : Int) :
    inArr (setChildK nodes i k v) j ↔ inArr nodes j := by
  simp [inArr]

@[simp] theorem length_replaceChild (nodes : List LocalNode) (p old new_ : Int) :
    (replaceChild nodes p old new_).length = nodes.length := by
  unfold replaceChild; split <;> simp

@[simp] theorem inArr_replaceChild (nodes : List LocalNode) (p j old new_ : Int) :
    inArr (replaceChild nodes p old new_) j ↔ inArr nodes j := by
  simp [inArr]

@[simp] theorem child0_setChildK (nodes : List LocalNode) (i j k v : Int) :
    (nodeAt (setChildK nodes i k v) j).child0 =
      if k = 0 ∧ j = i ∧ inArr nodes i then v else (nodeAt nodes j).child0 := by
  unfold setChildK; by_cases hk : k = 0 <;> simp [hk]

@[simp] theorem child1_setChildK (nodes : List LocalNode) (i j k v : Int) :
    (nodeAt (setChildK nodes i k v) j).child1 =
      if k ≠ 0 ∧ j = i ∧ inArr nodes i then v else (nodeAt nodes j).child1 := by
  unfold setChildK; by_cases hk : k = 0 <;> simp [hk]

@[simp] theorem child0_replaceChild (nodes : List LocalNode) (p j old new_ : Int) :
    (nodeAt (replaceChild nodes p old new_) j).child0 =
      if (nodeAt nodes p).child0 = old ∧ j = p ∧ inArr nodes p then new_
      else (nodeAt nodes j).child0 := by
  unfold replaceChild; by_cases hk : (nodeAt nodes p).child0 = old <;> simp [hk]

@[simp] theorem child1_replaceChild (nodes : List LocalNode) (p j old new_ : Int) :
    (nodeAt (replaceChild nodes p old new_) j).child1 =
      if (nodeAt nodes p).child0 ≠ old ∧ j = p ∧ inArr nodes p then new_
      else (nodeAt nodes j).child1 := by
  unfold replaceChild; by_cases hk : (nodeAt nodes p).child0 = old <;> simp [hk]

@[simp] theorem parent_setChildK (nodes : List LocalNode) (i j k v : Int) :
    (nodeAt (setChildK nodes i k v) j).parent = (nodeAt nodes j).parent := by
  unfold setChildK; split <;> simp

@[simp] theorem parent_replaceChild (nodes : List LocalNode) (p j old new_ : Int) :
    (nodeAt (replaceChild nodes p old new_) j).parent = (nodeAt nodes j).parent := by
  unfold replaceChild; split <;> simp

@[simp] theorem age_setChildK (nodes : List LocalNode) (i j k v : Int) :
    (nodeAt (setChildK nodes i k v) j).age = (nodeAt nodes j).age := by
  unfold setChildK; split <;> simp

@[simp] theorem age_replaceChild (nodes : List LocalNode) (p j old new_ : Int) :
    (nodeAt (replaceChild nodes p old new_) j).age = (nodeAt nodes j).age := by
  unfold replaceChild; split <;> simp

@[simp] theorem pop_path_setChildK (nodes : List LocalNode) (i j k v : Int) :
    (nodeAt (setChildK nodes i k v) j).pop_path = (nodeAt nodes j).pop_path := by
  unfold setChildK; split <;> simp

@[simp] theorem pop_path_replaceChild (nodes : List LocalNode) (p j old new_ : Int) :
    (nodeAt (replaceChild nodes p old new_) j).pop_path = (nodeAt nodes j).pop_path := by
  unfold replaceChild; split <;> simp

theorem modNode_setChild {nodes : List LocalNode} {i : Int} (x v : Int) (h : inArr nodes i) :
    modNode nodes i (fun n => n.setChild x v) = some (setChildK nodes i x v) := by
  unfold LocalNode.setChild setChildK
  split
  · exact modNode_child0 v h
  · exact modNode_child1 v h

theorem replace_child_eq {nodes : List LocalNode} {parent : Int} (old new_ : Int)
    (h : inArr nodes parent) :
    replace_child nodes parent old new_ = some (replaceChild nodes parent old new_) := by
  unfold replace_child replaceChild
  rw [getNode_eq h]
  simp only [Option.some_bind]
  split
  · exact modNode_child0 new_ h
  · exact modNode_child1 new_ h

theorem spr_prune_eq {nodes : List LocalNode} (b : Int) {sb bp : Int} (hs : inArr nodes sb)
    (hbp : bp ≠ -1 → inArr nodes bp) :
    spr_prune nodes b sb bp = some (pruneNodes nodes b sb bp,
      if bp ≠ -1 then (if (nodeAt nodes bp).child0 = b then 0 else 1) else 0) := by
  unfold spr_prune spr_slot pruneNodes
  rw [modNode_parent _ hs]
  by_cases h : bp = -1
  · simp [h]
  · have h1 : inArr (setParent nodes sb bp) bp := by simp [hbp h]
    simp [h, getNode_eq h1, modNode_setChild _ _ h1, setChildK, replaceChild]

theorem spr_recoal_branch_eq {nodes : List LocalNode} {b c : Int} (other : Int)
    (hb : inArr nodes b) (hc : inArr nodes c) (hcb : c ≠ b)
    (hcp : (nodeAt nodes c).parent ≠ -1 → inArr nodes (nodeAt nodes c).parent) :
    spr_recoal_branch nodes b other c = some (regraftNodes nodes b other c) := by
  unfold spr_recoal_branch regraftNodes
  simp [modNode_setChild, getNode_eq, modNode_parent, modNode_pop_path, hb, hc, hcb, Ne.symm hcb]
  by_cases h : (nodeAt nodes c).parent = -1
  · simp [h]
  · simp [h, replace_child_eq, hcp h]

theorem spr_new_recoal_branch_eq {nodes : List LocalNode} {b c : Int} (other : Int)
    (hb : inArr nodes b) (hc : inArr nodes c) (hcb : c ≠ b)
    (hcp : (nodeAt nodes c).parent ≠ -1 → inArr nodes (nodeAt nodes c).parent) :
    spr_new_recoal_branch nodes b other c = some (regraftNodesNew nodes b other c) := by
  unfold spr_new_recoal_branch regraftNodesNew
  simp [modNode_setChild, getNode_eq, modNode_parent, hb, hc, hcb, Ne.symm hcb]
  by_cases h : (nodeAt nodes c).parent = -1
  · simp [h]
  · simp [h, replace_child_eq, hcp h]

/-! reads of pruneNodes -/
theorem parent_pruneNodes (N : List LocalNode) (b sb bp j : Int) (hs : inArr N sb) :
    (nodeAt (pruneNodes N b sb bp) j).parent = if j = sb then bp else (nodeAt N j).parent := by
  unfold pruneNodes; split <;> simp [hs]

theorem child0_pruneNodes (N : List LocalNode) (b sb bp j : Int)
    (hbpA : bp ≠ -1 → inArr N bp) :
    (nodeAt (pruneNodes N b sb bp) j).child0 =
      if j = bp ∧ bp ≠ -1 ∧ (nodeAt N bp).child0 = b then sb else (nodeAt N j).child0 := by
  unfold pruneNodes
  by_cases h : bp = -1
  · simp [h]
  · simp [h, hbpA h]; congr 1; simp only [eq_iff_iff]; tauto

theorem child1_pruneNodes (N : List LocalNode) (b sb bp j : Int)
    (hbpA : bp ≠ -1 → inArr N bp) :
    (nodeAt (pruneNodes N b sb bp) j).child1 =
      if j = bp ∧ bp ≠ -1 ∧ (nodeAt N bp).child0 ≠ b then sb else (nodeAt N j).child1 := by
  unfold pruneNodes
  by_cases h : bp = -1
  · simp [h]
  · simp [h, hbpA h]; congr 1; simp only [eq_iff_iff]; tauto

theorem age_pruneNodes (N : List LocalNode) (b sb bp j : Int) :
    (nodeAt (pruneNodes N b sb bp) j).age = (nodeAt N j).age := by
  unfold pruneNodes; split <;> simp

theorem pop_path_pruneNodes (N : List LocalNode) (b sb bp j : Int) :
    (nodeAt (pruneNodes N b sb bp) j).pop_path = (nodeAt N j).pop_path := by
  unfold pruneNodes; split <;> simp

@[simp] theorem length_pruneNodes (N : List LocalNode) (b sb bp : Int) :
    (pruneNodes N b sb bp).length = N.length := by
  unfold pruneNodes; split <;> simp

@[simp] theorem inArr_pruneNodes (N : List LocalNode) (b sb bp j : Int) :
    inArr (pruneNodes N b sb bp) j ↔ inArr N j := by
  simp [inArr]

/-! reads of regraftNodes -/
theorem parent_regraftNodes (M : List LocalNode) (b other c j : Int)
    (hb : inArr M b) (hc : inArr M c) :
    (nodeAt (regraftNodes M b other c) j).parent =
      if j = c then b else if j = b then (nodeAt M c).parent else (nodeAt M j).parent := by
  unfold regraftNodes; simp only []; split <;> simp [hb, hc]

theorem child0_regraftNodes (M : List LocalNode) (b other c j : Int)
    (hb : inArr M b) (hcb : (nodeAt M c).parent ≠ b)
    (hcp : (nodeAt M c).parent ≠ -1 → inArr M (nodeAt M c).parent) :
    (nodeAt (regraftNodes M b other c) j).child0 =
      if j = (nodeAt M c).parent ∧ (nodeAt M c).parent ≠ -1 ∧
          (nodeAt M (nodeAt M c).parent).child0 = c then b
      else if j = b ∧ other = 0 then c else (nodeAt M j).child0 := by
  unfold regraftNodes; simp only []
  by_cases h : (nodeAt M c).parent = -1
  · simp [h, hb]; congr 1; simp only [eq_iff_iff]; tauto
  · simp [h, hb, hcp h, hcb]
    by_cases h1 : j = (nodeAt M c).parent
    · simp [h1, hcb]
    · simp [h1]; congr 1; simp only [eq_iff_iff]; tauto

theorem child1_regraftNodes (M : List LocalNode) (b other c j : Int)
    (hb : inArr M b) (hcb : (nodeAt M c).parent ≠ b)
    (hcp : (nodeAt M c).parent ≠ -1 → inArr M (nodeAt M c).parent) :
    (nodeAt (regraftNodes M b other c) j).child1 =
      if j = (nodeAt M c).parent ∧ (nodeAt M c).parent ≠ -1 ∧
          (nodeAt M (nodeAt M c).parent).child0 ≠ c then b
      else if j = b ∧ other ≠ 0 then c else (nodeAt M j).child1 := by
  unfold regraftNodes; simp only []
  by_cases h : (nodeAt M c).parent = -1
  · simp [h, hb]; congr 1; simp only [eq_iff_iff]; tauto
  · simp [h, hb, hcp h, hcb]
    by_cases h1 : j = (nodeAt M c).parent
    · simp [h1, hcb]
    · simp [h1]; congr 1; simp only [eq_iff_iff]; tauto

theorem age_regraftNodes (M : List LocalNode) (b other c j : Int) :
    (nodeAt (regraftNodes M b other c) j).age = (nodeAt M j).age := by
  unfold regraftNodes; simp only []; split <;> simp

theorem pop_path_regraftNodes (M : List LocalNode) (b other c j : Int) (hb : inArr M b) :
    (nodeAt (regraftNodes M b other c) j).pop_path =
      if j = b then (nodeAt M c).pop_path else (nodeAt M j).pop_path := by
  unfold regraftNodes; simp only []; split <;> simp [hb]

@[simp] theorem length_regraftNodes (M : List LocalNode) (b other c : Int) :
    (regraftNodes M b other c).length = M.length := by
  unfold regraftNodes; simp only []; split <;> simp

@[simp] theorem inArr_regraftNodes (M : List LocalNode) (b other c j : Int) :
    inArr (regraftNodes M b other c) j ↔ inArr M j := by
  simp [inArr]


set_option maxHeartbeats 1000000 in
/-- The general case of `apply_spr` read field by field: `c` is neither the
broken node `b` nor the sibling `sb`. -/
theorem spr_general_fields (N : List LocalNode) (r c b sb bp cp ct : Int)
    (hbA : inArr N b) (hsA : inArr N sb) (hcA : inArr N c)
    (hcp : (nodeAt N c).parent = cp)
    (hbpA : bp ≠ -1 → inArr N bp) (hcpA : cp ≠ -1 → inArr N cp)
    (h1 : (nodeAt N b).child0 ≠ r → (nodeAt N b).child1 = r)
    (hcb : c ≠ b) (hcs : c ≠ sb) (hbpb : bp ≠ b) (hcpb : cp ≠ b)
    (hbpc : bp ≠ -1 → ((nodeAt N bp).child1 = b ↔ (nodeAt N bp).child0 ≠ b))
    (hcpc : cp ≠ -1 → ((nodeAt N cp).child1 = c ↔ (nodeAt N cp).child0 ≠ c))
    (j : Int) (hj : 0 ≤ j) :
    let N' := setAge (regraftNodes (pruneNodes N b sb bp) b
      (if (nodeAt N b).child0 = r then 1 else 0) c) b ct
    (nodeAt N' j).parent = (if j = b then cp else if j = sb then bp else if j = c then b
      else (nodeAt N j).parent) ∧
    (nodeAt N' j).child0 = (if j = b then (if (nodeAt N b).child0 = r then r else c)
      else if j = cp ∧ (nodeAt N j).child0 = c then b
      else if j = bp ∧ (nodeAt N j).child0 = b then sb else (nodeAt N j).child0) ∧
    (nodeAt N' j).child1 = (if j = b then (if (nodeAt N b).child0 = r then c else r)
      else if j = cp ∧ (nodeAt N j).child1 = c then b
      else if j = bp ∧ (nodeAt N j).child1 = b then sb else (nodeAt N j).child1) ∧
    (nodeAt N' j).age = (if j = b then ct else (nodeAt N j).age) ∧
    (nodeAt N' j).pop_path = (if j = b then (nodeAt N c).pop_path
      else (nodeAt N j).pop_path) := by
  intro N'
  have hMb : inArr (pruneNodes N b sb bp) b := by simp [hbA]
  have hMc : (nodeAt (pruneNodes N b sb bp) c).parent = cp := by
    rw [parent_pruneNodes _ _ _ _ _ hsA, if_neg hcs, hcp]
  have hMcb : (nodeAt (pruneNodes N b sb bp) c).parent ≠ b := by rw [hMc]; exact hcpb
  have hMcp : (nodeAt (pruneNodes N b sb bp) c).parent ≠ -1 →
      inArr (pruneNodes N b sb bp) (nodeAt (pruneNodes N b sb bp) c).parent := by
    rw [hMc]; intro h; simp [hcpA h]
  have hMcA : inArr (pruneNodes N b sb bp) c := by simp [hcA]
  refine ⟨?_, ?_, ?_, ?_, ?_⟩
  · -- parent
    simp only [N', parent_setAge, parent_regraftNodes _ _ _ _ _ hMb hMcA, hMc,
      parent_pruneNodes _ _ _ _ _ hsA]
    clear hbpc hcpc h1 hbpA hcpA hMcp
    by_cases hjb : j = b <;> by_cases hjs : j = sb <;> by_cases hjc : j = c <;>
    simp [*] <;> omega
  · -- child0
    simp only [N', child0_setAge, child0_regraftNodes _ _ _ _ _ hMb hMcb hMcp, hMc,
      child0_pruneNodes _ _ _ _ _ hbpA]
    clear hbpc hcpc h1 hbpA hcpA hMcp hMb hMc hMcb hMcA hbA hsA hcA hcp
    have hj' : j ≠ -1 := by omega
    by_cases hv1 : (nodeAt N bp).child0 = b <;> by_cases hv2 : (nodeAt N cp).child0 = c <;>
    by_cases hv3 : (nodeAt N b).child0 = r <;>
    by_cases hjb : j = b <;> by_cases hjc : j = cp <;> by_cases hjp : j = bp <;>
    (try subst hjb) <;> (try subst hjc) <;> (try subst hjp) <;>
    simp [*, Ne.symm hcs, Ne.symm hcb] <;> omega
  · -- child1
    simp only [N', child1_setAge, child1_regraftNodes _ _ _ _ _ hMb hMcb hMcp, hMc,
      child0_pruneNodes _ _ _ _ _ hbpA, child1_pruneNodes _ _ _ _ _ hbpA]
    clear hbpA hcpA hMcp hMb hMc hMcb hMcA hbA hsA hcA hcp
    have hj' : j ≠ -1 := by omega
    by_cases hv1 : (nodeAt N bp).child0 = b <;> by_cases hv2 : (nodeAt N cp).child0 = c <;>
    by_cases hv3 : (nodeAt N b).child0 = r <;>
    by_cases hjb : j = b <;> by_cases hjc : j = cp <;> by_cases hjp : j = bp <;>
    (try subst hjb) <;> (try subst hjc) <;> (try subst hjp) <;>
    simp [*, Ne.symm hcs, Ne.symm hcb] <;> omega
  · simp only [N', age_setAge, age_regraftNodes, age_pruneNodes]
    simp [hMb]
  · simp only [N', pop_path_setAge, pop_path_regraftNodes _ _ _ _ _ hMb, pop_path_pruneNodes]


theorem spr_recoal_broken_eq {nodes : List LocalNode} {b sb bp : Int} (other x : Int)
    (hb : inArr nodes b) (hs : inArr nodes sb) (hbp : bp ≠ -1 → inArr nodes bp) :
    spr_recoal_broken nodes none b other sb bp x = some (brokenNodes nodes b other sb bp x) := by
  unfold spr_recoal_broken brokenNodes
  by_cases h : bp = -1
  · simp [modNode_setChild, getNode_eq, modNode_parent, hb, hs, h]
  · simp [modNode_setChild, getNode_eq, modNode_parent, hb, hs, h, hbp h]

theorem spr_new_recoal_broken_eq {nodes : List LocalNode} {b sb bp : Int} (other x : Int)
    (hb : inArr nodes b) (hs : inArr nodes sb) (hbp : bp ≠ -1 → inArr nodes bp) :
    spr_new_recoal_broken nodes b other sb bp x = some (brokenNodes nodes b other sb bp x) := by
  unfold spr_new_recoal_broken brokenNodes
  by_cases h : bp = -1
  · simp [modNode_setChild, getNode_eq, modNode_parent, hb, hs, h]
  · simp [modNode_setChild, getNode_eq, modNode_parent, hb, hs, h, hbp h]

@[simp] theorem length_brokenNodes (M : List LocalNode) (b other sb bp x : Int) :
    (brokenNodes M b other sb bp x).length = M.length := by
  unfold brokenNodes; simp only []; split <;> simp

@[simp] theorem inArr_brokenNodes (M : List LocalNode) (b other sb bp x j : Int) :
    inArr (brokenNodes M b other sb bp x) j ↔ inArr M j := by
  simp [inArr]

set_option maxHeartbeats 1000000 in
/-- The case `coal_node == recoal` of `apply_spr` read field by field: the
links come back to what they were, only the age of `b` changes. -/
theorem spr_broken_fields (N : List LocalNode) (r b sb bp ct : Int)
    (hbA : inArr N b) (hsA : inArr N sb)
    (hbp : (nodeAt N b).parent = bp) (hsp : (nodeAt N sb).parent = b)
    (hbpA : bp ≠ -1 → inArr N bp)
    (h0 : (nodeAt N b).child0 = r → (nodeAt N b).child1 = sb)
    (h1 : (nodeAt N b).child0 ≠ r → (nodeAt N b).child0 = sb)
    (hbs : b ≠ sb) (hbpb : bp ≠ b)
    (hbpc : bp ≠ -1 → ((nodeAt N bp).child1 = b ↔ (nodeAt N bp).child0 ≠ b))
    (j : Int) (hj : 0 ≤ j) :
    let N' := setAge (brokenNodes (pruneNodes N b sb bp) b
      (if (nodeAt N b).child0 = r then 1 else 0) sb bp
      (if bp ≠ -1 then (if (nodeAt N bp).child0 = b then 0 else 1) else 0)) b ct
    (nodeAt N' j).parent = (nodeAt N j).parent ∧
    (nodeAt N' j).child0 = (nodeAt N j).child0 ∧
    (nodeAt N' j).child1 = (nodeAt N j).child1 ∧
    (nodeAt N' j).age = (if j = b then ct else (nodeAt N j).age) ∧
    (nodeAt N' j).pop_path = (nodeAt N j).pop_path := by
  intro N'
  have hj' : j ≠ -1 := by omega
  simp only [N', brokenNodes]
  by_cases hbp1 : bp = -1
  · subst hbp1
    by_cases hv3 : (nodeAt N b).child0 = r <;>
    by_cases hjb : j = b <;> by_cases hjs : j = sb <;>
    (try subst hjb) <;> (try subst hjs) <;>
    simp [*, parent_pruneNodes, child0_pruneNodes, child1_pruneNodes, age_pruneNodes,
      pop_path_pruneNodes, Ne.symm hbs] <;> omega
  · have hbpA' := hbpA hbp1
    have hbpc' := hbpc hbp1
    by_cases hv1 : (nodeAt N bp).child0 = b <;>
    by_cases hv3 : (nodeAt N b).child0 = r <;>
    by_cases hjb : j = b <;> by_cases hjs : j = sb <;> by_cases hjp : j = bp <;>
    (try subst hjb) <;> (try subst hjs) <;> (try subst hjp) <;>
    simp [*, parent_pruneNodes, child0_pruneNodes, child1_pruneNodes, age_pruneNodes,
      pop_path_pruneNodes, Ne.symm hbs] <;> omega


set_option maxHeartbeats 1000000 in
/-- The case where `coal_node` is the sibling `sb` of the recomb node, read
field by field: the links come back to what they were; `b` takes the age
`ct` and the population path of `sb`. -/
theorem spr_sibling_fields (N : List LocalNode) (r b sb bp ct : Int)
    (hbA : inArr N b) (hsA : inArr N sb)
    (hbp : (nodeAt N b).parent = bp) (hsp : (nodeAt N sb).parent = b)
    (hbpA : bp ≠ -1 → inArr N bp)
    (h0 : (nodeAt N b).child0 = r → (nodeAt N b).child1 = sb)
    (h1 : (nodeAt N b).child0 ≠ r → (nodeAt N b).child0 = sb)
    (hbs : b ≠ sb) (hbpb : bp ≠ b)
    (hbpc : bp ≠ -1 → ((nodeAt N bp).child1 = b ↔ (nodeAt N bp).child0 ≠ b))
    (hbps : bp ≠ -1 → (nodeAt N bp).child0 ≠ sb)
    (j : Int) (hj : 0 ≤ j) :
    let N' := setAge (regraftNodes (pruneNodes N b sb bp) b
      (if (nodeAt N b).child0 = r then 1 else 0) sb) b ct
    (nodeAt N' j).parent = (nodeAt N j).parent ∧
    (nodeAt N' j).child0 = (nodeAt N j).child0 ∧
    (nodeAt N' j).child1 = (nodeAt N j).child1 ∧
    (nodeAt N' j).age = (if j = b then ct else (nodeAt N j).age) ∧
    (nodeAt N' j).pop_path = (if j = b then (nodeAt N sb).pop_path
      else (nodeAt N j).pop_path) := by
  intro N'
  have hj' : j ≠ -1 := by omega
  have hMb : inArr (pruneNodes N b sb bp) b := by simp [hbA]
  have hMs : inArr (pruneNodes N b sb bp) sb := by simp [hsA]
  have hMc : (nodeAt (pruneNodes N b sb bp) sb).parent = bp := by
    rw [parent_pruneNodes _ _ _ _ _ hsA, if_pos rfl]
  have hMcb : (nodeAt (pruneNodes N b sb bp) sb).parent ≠ b := by rw [hMc]; exact hbpb
  have hMcp : (nodeAt (pruneNodes N b sb bp) sb).parent ≠ -1 →
      inArr (pruneNodes N b sb bp) (nodeAt (pruneNodes N b sb bp) sb).parent := by
    rw [hMc]; intro h; simp [hbpA h]
  simp only [N', parent_setAge, child0_setAge, child1_setAge, age_setAge, pop_path_setAge,
    parent_regraftNodes _ _ _ _ _ hMb hMs, child0_regraftNodes _ _ _ _ _ hMb hMcb hMcp,
    child1_regraftNodes _ _ _ _ _ hMb hMcb hMcp, age_regraftNodes,
    pop_path_regraftNodes _ _ _ _ _ hMb, hMc,
    parent_pruneNodes _ _ _ _ _ hsA, child0_pruneNodes _ _ _ _ _ hbpA,
    child1_pruneNodes _ _ _ _ _ hbpA, age_pruneNodes, pop_path_pruneNodes]
  clear hMb hMs hMc hMcb hMcp
  by_cases hbp1 : bp = -1
  · subst hbp1
    by_cases hv3 : (nodeAt N b).child0 = r <;>
    by_cases hjb : j = b <;> by_cases hjs : j = sb <;>
    (try subst hjb) <;> (try subst hjs) <;>
    simp [*, Ne.symm hbs] <;> omega
  · have hbpc' := hbpc hbp1
    have hbps' := hbps hbp1
    by_cases hv1 : (nodeAt N bp).child0 = b <;>
    by_cases hv3 : (nodeAt N b).child0 = r <;>
    by_cases hjb : j = b <;> by_cases hjs : j = sb <;> by_cases hjp : j = bp <;>
    (try subst hjb) <;> (try subst hjs) <;> (try subst hjp) <;>
    simp [*, Ne.symm hbs] <;> omega


/-- In a well-formed tree the neighbourhood of an SPR with
`recomb_node != root` has the shape that `apply_spr` relies on. -/
theorem WellFormed.sprLocal {t : LocalTree} (hwf : WellFormed t) {r c : Int}
    (hr : t.isNode r) (hc : t.isNode c) (hroot : r ≠ t.root) (hne : r ≠ c) :
    SprLocal t.nodes r c (t.node r).parent (t.sibling r)
      (t.node (t.node r).parent).parent (t.node c).parent := by
  obtain ⟨rank, hrank⟩ := hwf.exists_rank
  rcases hwf.parent_cases hr with ⟨-, h⟩ | ⟨hrp, -, hb, hbch⟩
  · exact absurd h hroot
  have hbC := hwf.children hb
  have hrk_r := hrank _ hr hrp
  have hcP := hwf.parent_cases hc
  have hbP := hwf.parent_cases hb
  unfold ChildrenOk at hbC
  unfold LocalTree.sibling
  simp only [LocalTree.node] at *
  generalize hbdef : (nodeAt t.nodes r).parent = b at *
  rcases hbC with ⟨h0, h1⟩ | ⟨hc0, hc1, hc01, hc0p, hc1p⟩
  · exfalso; have := hr.1; rcases hbch with h | h <;> omega
  have hrk0 := hrank _ hc0 (by rw [hc0p]; exact hrp)
  have hrk1 := hrank _ hc1 (by rw [hc1p]; exact hrp)
  rw [hc0p] at hrk0
  rw [hc1p] at hrk1
  -- the sibling
  have hsbN : t.isNode (if (nodeAt t.nodes b).child0 = r then (nodeAt t.nodes b).child1
      else (nodeAt t.nodes b).child0) := by split <;> assumption
  have hsbp : (nodeAt t.nodes (if (nodeAt t.nodes b).child0 = r then (nodeAt t.nodes b).child1
      else (nodeAt t.nodes b).child0)).parent = b := by split <;> assumption
  have hsbrk : rank b < rank (if (nodeAt t.nodes b).child0 = r then (nodeAt t.nodes b).child1
      else (nodeAt t.nodes b).child0) := by split <;> assumption
  have hsbr : r ≠ (if (nodeAt t.nodes b).child0 = r then (nodeAt t.nodes b).child1
      else (nodeAt t.nodes b).child0) := by
    split
    · rename_i h; intro h'; exact hc01 (h.trans h')
    · rename_i h; exact fun h' => h h'.symm
  generalize hsdef : (if (nodeAt t.nodes b).child0 = r then (nodeAt t.nodes b).child1
      else (nodeAt t.nodes b).child0) = sb at *
  have hbpfacts : (nodeAt t.nodes b).parent ≠ -1 →
      t.isNode (nodeAt t.nodes b).parent ∧ rank (nodeAt t.nodes b).parent < rank b ∧
      ((nodeAt t.nodes (nodeAt t.nodes b).parent).child0 = b ∨
        (nodeAt t.nodes (nodeAt t.nodes b).parent).child1 = b) ∧
      ChildrenOk t (nodeAt t.nodes b).parent := by
    intro h
    rcases hbP with ⟨h', -⟩ | ⟨-, -, h1, h2⟩
    · exact absurd h' h
    · exact ⟨h1, hrank _ hb h, h2, hwf.children h1⟩
  have hcpfacts : (nodeAt t.nodes c).parent ≠ -1 →
      t.isNode (nodeAt t.nodes c).parent ∧
      ((nodeAt t.nodes (nodeAt t.nodes c).parent).child0 = c ∨
        (nodeAt t.nodes (nodeAt t.nodes c).parent).child1 = c) ∧
      ChildrenOk t (nodeAt t.nodes c).parent := by
    intro h
    rcases hcP with ⟨h', -⟩ | ⟨-, -, h1, h2⟩
    · exact absurd h' h
    · exact ⟨h1, h2, hwf.children h1⟩
  refine
    { hrA := hwf.inArr hr, hbA := hwf.inArr hb, hsA := hwf.inArr hsbN, hcA := hwf.inArr hc
      hrp := hbdef, hbp := rfl, hcp := rfl, hsp := hsbp, hsb := hsdef.symm
      h1 := ?_, hbpA := ?_, hcpA := ?_, hrs := hsbr
      hbr := ?_, hbs := ?_, hcr := Ne.symm hne, hbpb := ?_, hbpc := ?_, hbps := ?_, hcpb := ?_
      hcpc := ?_ }
  · intro h; rcases hbch with h' | h'
    · exact absurd h' h
    · exact h'
  · intro h; exact hwf.inArr (hbpfacts h).1
  · intro h; exact hwf.inArr (hcpfacts h).1
  · intro h; rw [h] at hrk_r; omega
  · intro h; rw [← h] at hsbrk; omega
  · intro h
    have hb1 : (nodeAt t.nodes b).parent ≠ -1 := by rw [h]; exact hrp
    have := (hbpfacts hb1).2.1
    rw [h] at this; omega
  · intro h
    obtain ⟨-, -, hch, hC⟩ := hbpfacts h
    unfold ChildrenOk at hC
    simp only [LocalTree.node] at hC
    rcases hC with ⟨h0, h1⟩ | ⟨-, -, h01, -, -⟩
    · exfalso; have := hb.1; rcases hch with h' | h' <;> omega
    · constructor
      · intro h1 h0; exact h01 (h0.trans h1.symm)
      · intro h0; rcases hch with h' | h'
        · exact absurd h' h0
        · exact h'
  · intro h h0
    obtain ⟨-, hrk, -, hC⟩ := hbpfacts h
    unfold ChildrenOk at hC
    simp only [LocalTree.node] at hC
    rcases hC with ⟨h0', h1⟩ | ⟨-, -, -, hp0, -⟩
    · have := hsbN.1; omega
    · rw [h0, hsbp] at hp0
      rw [← hp0] at hrk; omega
  · intro hcb hcs h
    have hcp1 : (nodeAt t.nodes c).parent ≠ -1 := by rw [h]; exact hrp
    obtain ⟨-, hch, -⟩ := hcpfacts hcp1
    rw [h] at hch
    rw [← hsdef] at hcs
    rcases hbch with h' | h'
    · rw [if_pos h'] at hcs
      rcases hch with h'' | h''
      · exact hne (h'.symm.trans h'')
      · exact hcs h''.symm
    · by_cases h0 : (nodeAt t.nodes b).child0 = r
      · rcases hch with h'' | h''
        · exact hne (h0.symm.trans h'')
        · exact hne (h'.symm.trans h'')
      · rw [if_neg h0] at hcs
        rcases hch with h'' | h''
        · exact hcs h''.symm
        · exact hne (h'.symm.trans h'')
  · intro h
    obtain ⟨-, hch, hC⟩ := hcpfacts h
    unfold ChildrenOk at hC
    simp only [LocalTree.node] at hC
    rcases hC with ⟨h0, h1⟩ | ⟨-, -, h01, -, -⟩
    · exfalso; have := hc.1; rcases hch with h' | h' <;> omega
    · constructor
      · intro h1 h0; exact h01 (h0.trans h1.symm)
      · intro h0; rcases hch with h' | h'
        · exact absurd h' h0
        · exact h'


theorem SprLocal.sb_eq {N : List LocalNode} {r c b sb bp cp : Int}
    (L : SprLocal N r c b sb bp cp) :
    (nodeAt N b).child (if (nodeAt N b).child0 = r then 1 else 0) = sb := by
  rw [L.hsb]; unfold LocalNode.child
  split <;> simp

/-- Under the local facts `apply_spr` without population tree runs through
and produces the closed form `sprNodes`. -/
theorem apply_spr_eq (t : LocalTree) (s : Spr) {b sb bp cp : Int}
    (L : SprLocal t.nodes s.recomb_node s.coal_node b sb bp cp)
    (hroot : s.recomb_node ≠ t.root) :
    apply_spr t s none = some { t with
      nodes := sprNodes t.nodes s.recomb_node s.coal_node s.coal_time
      root := spr_new_root t.root b sb s.coal_node } := by
  have hne : s.recomb_node ≠ s.coal_node := Ne.symm L.hcr
  have hbp := L.hbp
  have hMb : inArr (pruneNodes t.nodes b sb bp) b := by simp [L.hbA]
  have hMs : inArr (pruneNodes t.nodes b sb bp) sb := by simp [L.hsA]
  have hMc : inArr (pruneNodes t.nodes b sb bp) s.coal_node := by simp [L.hcA]
  have hMbp : bp ≠ -1 → inArr (pruneNodes t.nodes b sb bp) bp := by
    intro h; simp [L.hbpA h]
  unfold apply_spr sprNodes
  simp only [hroot, hne, if_false, getNode_eq L.hrA, Option.some_bind, L.hrp,
    getNode_eq L.hbA, spr_sib_path, spr_recomb_path, L.sb_eq, hbp,
    spr_prune_eq b L.hsA L.hbpA]
  by_cases hcb : s.coal_node = b
  · simp only [hcb, if_true, spr_recoal_broken_eq _ _ hMb hMs hMbp, Option.some_bind]
    rw [modNode_age _ (by simp [L.hbA])]
    simp
  · have hMcp : (nodeAt (pruneNodes t.nodes b sb bp) s.coal_node).parent ≠ -1 →
        inArr (pruneNodes t.nodes b sb bp)
          (nodeAt (pruneNodes t.nodes b sb bp) s.coal_node).parent := by
      rw [parent_pruneNodes _ _ _ _ _ L.hsA]
      split
      · intro h; simp [L.hbpA h]
      · rw [L.hcp]; intro h; simp [L.hcpA h]
    simp only [hcb, if_false, spr_recoal_branch_eq _ hMb hMc hcb hMcp, Option.some_bind]
    rw [modNode_age _ (by simp [L.hbA])]
    simp


/-- The closed form `sprNodes` read node by node: it is the description
`sprNodeAt`. -/
theorem sprNodes_node (N : List LocalNode) (r c ct b sb bp cp : Int)
    (L : SprLocal N r c b sb bp cp) (j : Int) (hj : 0 ≤ j) :
    nodeAt (sprNodes N r c ct) j = sprNodeAt N r c ct b sb bp cp j := by
  unfold sprNodes sprNodeAt
  simp only [L.hrp, L.sb_eq, L.hbp]
  have h0 : (nodeAt N b).child0 = r → (nodeAt N b).child1 = sb := by
    intro h; rw [L.hsb, if_pos h]
  have h1 : (nodeAt N b).child0 ≠ r → (nodeAt N b).child0 = sb := by
    intro h; rw [L.hsb, if_neg h]
  by_cases hcb : c = b
  · simp only [hcb, if_true]
    obtain ⟨e1, e2, e3, e4, e5⟩ := spr_broken_fields N r b sb bp ct L.hbA L.hsA
      L.hbp L.hsp L.hbpA h0 h1 L.hbs L.hbpb L.hbpc j hj
    apply LocalNode.ext_fields
    · rw [e1]; split <;> rfl
    · rw [e2]; split <;> rfl
    · rw [e3]; split <;> rfl
    · rw [e4]; split <;> simp [*]
    · rw [e5]; split <;> rfl
  · simp only [hcb, if_false]
    by_cases hcs : c = sb
    · subst hcs
      simp only [if_true]
      obtain ⟨e1, e2, e3, e4, e5⟩ := spr_sibling_fields N r b c bp ct L.hbA
        L.hsA L.hbp L.hsp L.hbpA h0 h1 L.hbs L.hbpb L.hbpc L.hbps j hj
      apply LocalNode.ext_fields
      · rw [e1]; split <;> rfl
      · rw [e2]; split <;> rfl
      · rw [e3]; split <;> rfl
      · rw [e4]; split <;> simp [*]
      · rw [e5]; split <;> simp [*]
    · simp only [hcs, if_false]
      obtain ⟨e1, e2, e3, e4, e5⟩ := spr_general_fields N r c b sb bp cp ct
        L.hbA L.hsA L.hcA L.hcp L.hbpA L.hcpA L.h1 hcb hcs L.hbpb (L.hcpb hcb hcs)
        L.hbpc L.hcpc j hj
      apply LocalNode.ext_fields
      · rw [e1]
      · rw [e2]
        by_cases hjb : j = b
        · subst hjb; rfl
        · simp only [hjb, if_false]
      · rw [e3]
        by_cases hjb : j = b
        · subst hjb; rfl
        · simp only [hjb, if_false]
      · rw [e4]
      · rw [e5]


/-- `apply_spr` without population tree on a well-formed tree: it returns a
tree, with the same `nnodes` and array size, whose root is `spr_new_root` and
whose nodes are described by `sprNode`. -/
theorem apply_spr_spec (t : LocalTree) (s : Spr) (hwf : WellFormed t)
    (hr : t.isNode s.recomb_node) (hc : t.isNode s.coal_node)
    (hroot : s.recomb_node ≠ t.root) (hne : s.recomb_node ≠ s.coal_node) :
    ∃ t', apply_spr t s none = some t' ∧ t'.nnodes = t.nnodes ∧
      t'.nodes.length = t.nodes.length ∧
      t'.root = spr_new_root t.root (t.node s.recomb_node).parent
        (t.sibling s.recomb_node) s.coal_node ∧
      ∀ j : Int, 0 ≤ j → t'.node j = sprNode t s j := by
  have L := hwf.sprLocal hr hc hroot hne
  refine ⟨_, apply_spr_eq t s L hroot, rfl, ?_, rfl, ?_⟩
  · simp [sprNodes]
  · intro j hj
    exact sprNodes_node t.nodes _ _ _ _ _ _ _ L j hj


set_option maxHeartbeats 1000000 in
/-- The clauses of `SprReusesBroken`, read off the description `sprNodeAt`. -/
theorem sprReuses_core (N N' : List LocalNode) (r c ct b sb bp cp n : Int)
    (L : SprLocal N r c b sb bp cp)
    (hnode : ∀ j : Int, 0 ≤ j → nodeAt N' j = sprNodeAt N r c ct b sb bp cp j) :
    (nodeAt N' b).age = ct ∧
    (((nodeAt N' b).child0 = r ∧ (nodeAt N' b).child1 = (if c = b then sb else c)) ∨
      ((nodeAt N' b).child0 = (if c = b then sb else c) ∧ (nodeAt N' b).child1 = r)) ∧
    (nodeAt N' r).parent = b ∧ (nodeAt N' (if c = b then sb else c)).parent = b ∧
    (nodeAt N' b).parent = (if c = sb then bp else cp) ∧
    (c ≠ b → c ≠ sb → (nodeAt N' sb).parent = bp ∧
      (bp ≠ -1 → ((nodeAt N bp).child0 = b → (nodeAt N' bp).child0 = sb) ∧
        ((nodeAt N bp).child1 = b → (nodeAt N' bp).child1 = sb))) ∧
    ((c = b ∨ c = sb) → ∀ j : Int, 0 ≤ j → j < n →
      (nodeAt N' j).parent = (nodeAt N j).parent ∧ (nodeAt N' j).child0 = (nodeAt N j).child0 ∧
      (nodeAt N' j).child1 = (nodeAt N j).child1) := by
  have hb := hnode b L.hbA.1
  have hr := hnode r L.hrA.1
  have hs := hnode sb L.hsA.1
  have hc := hnode c L.hcA.1
  have h0 : (nodeAt N b).child0 = r → (nodeAt N b).child1 = sb := by
    intro h; rw [L.hsb, if_pos h]
  have h1 : (nodeAt N b).child0 ≠ r → (nodeAt N b).child0 = sb := by
    intro h; rw [L.hsb, if_neg h]
  have h1' := L.h1
  have hrp := L.hrp
  have hbp := L.hbp
  have hcp := L.hcp
  have hsp := L.hsp
  have hbr := L.hbr
  have hbs := L.hbs
  have hrs := L.hrs
  have hcr := L.hcr
  have hbpb := L.hbpb
  by_cases hcb : c = b
  · have hbpcp : bp = cp := by rw [← hbp, ← hcp, hcb]
    subst hcb
    simp only [sprNodeAt, if_true] at hb hr hs hc hnode
    refine ⟨?_, ?_, ?_, ?_, ?_, ?_, ?_⟩
    · rw [hb]
    · rw [hb]; simp only []
      by_cases hv : (nodeAt N c).child0 = r
      · left; exact ⟨hv, h0 hv⟩
      · right; exact ⟨h1 hv, h1' hv⟩
    · rw [hr, if_neg (Ne.symm hbr), hrp]
    · rw [if_pos rfl, hs, if_neg (Ne.symm hbs), hsp]
    · rw [hb, if_neg hbs]; exact hcp
    · intro h; exact absurd rfl h
    · intro _ j hj _
      rw [hnode j hj]
      split <;> simp
  · by_cases hcs : c = sb
    · subst hcs
      simp only [sprNodeAt, if_neg hcb, if_true] at hb hr hs hc hnode
      refine ⟨?_, ?_, ?_, ?_, ?_, ?_, ?_⟩
      · rw [hb]
      · rw [hb, if_neg hcb]; simp only []
        by_cases hv : (nodeAt N b).child0 = r
        · left; exact ⟨hv, h0 hv⟩
        · right; exact ⟨h1 hv, h1' hv⟩
      · rw [hr, if_neg (Ne.symm hbr), hrp]
      · rw [if_neg hcb, hs, hsp]
      · rw [hb, if_pos rfl]; simp only []; exact hbp
      · intro _ h; exact absurd rfl h
      · intro _ j hj _
        rw [hnode j hj]
        split <;> simp
    · simp only [sprNodeAt, if_neg hcb, if_neg hcs] at hb hr hs hc hnode
      have hcpb := L.hcpb hcb hcs
      refine ⟨?_, ?_, ?_, ?_, ?_, ?_, ?_⟩
      · rw [hb]; simp
      · rw [hb, if_neg hcb]; simp only [if_true]
        by_cases hv : (nodeAt N b).child0 = r
        · left; simp [hv]
        · right; simp [hv]
      · rw [hr]; simp only [if_neg (Ne.symm hbr), if_neg hrs, if_neg (Ne.symm hcr)]; exact hrp
      · rw [if_neg hcb, hc]; simp only [if_neg hcb, if_neg hcs, if_true]
      · rw [hb, if_neg hcs]; simp
      · intro _ _
        refine ⟨?_, ?_⟩
        · rw [hs]; simp [Ne.symm hbs]
        · intro hbp1
          have hbp0 : 0 ≤ bp := (L.hbpA hbp1).1
          rw [hnode bp hbp0]
          simp only [if_neg hbpb]
          have hbpc := L.hbpc hbp1
          have hbc : b ≠ c := Ne.symm hcb
          constructor
          · intro h; simp [h, hbc]
          · intro h
            have : (nodeAt N bp).child1 ≠ c := by rw [h]; exact Ne.symm hcb
            simp [h, this, hbc]
      · intro h; rcases h with h | h
        · exact absurd h hcb
        · exact absurd h hcs


/-! ## Building well-formed trees -/

/-- In a well-formed tree there is a rank, bounded by `nnodes`, that decreases
along parent links. -/
theorem WellFormed.exists_rank_le {t : LocalTree} (h : WellFormed t) :
    ∃ rank : Int → Nat, (∀ i : Int, t.isNode i → rank i ≤ t.nnodes.toNat) ∧
      ∀ i : Int, t.isNode i → (t.node i).parent ≠ -1 →
        rank (t.node i).parent < rank i := by
  classical
  let rank : Int → Nat := fun i =>
    if h : ∃ k, reaches t.nodes t.root k i = true then Nat.find h else 0
  have hreach := h.2.2.2.2.2
  refine ⟨rank, ?_, ?_⟩
  · intro i hi
    have hex : ∃ k, reaches t.nodes t.root k i = true := ⟨_, hreach i hi.1 hi.2⟩
    simp only [rank, dif_pos hex]
    exact Nat.find_min' hex (hreach i hi.1 hi.2)
  · intro i hi hp
    have hne : i ≠ t.root := by
      rcases h.parent_cases hi with ⟨h1, -⟩ | ⟨-, h2, -, -⟩
      · exact absurd h1 hp
      · exact h2
    have hex : ∃ k, reaches t.nodes t.root k i = true := ⟨_, hreach i hi.1 hi.2⟩
    simp only [rank, dif_pos hex]
    have hspec := Nat.find_spec hex
    cases hm : Nat.find hex with
    | zero =>
      rw [hm, reaches_zero] at hspec
      exact absurd hspec hne
    | succ m =>
      rw [hm, reaches_succ] at hspec
      rcases hspec with h' | ⟨_, h2⟩
      · exact absurd h' hne
      · have hex' : ∃ k, reaches t.nodes t.root k (t.node i).parent = true := ⟨m, h2⟩
        simp only [dif_pos hex']
        have := Nat.find_min' hex' h2
        omega

/-- A tree is well-formed when its links are consistent and some rank
decreases along its parent links. -/
theorem wellFormed_of_rank (t : LocalTree) (rank : Int → Nat)
    (hcap : t.nnodes ≤ t.nodes.length) (hroot : t.isNode t.root)
    (hrootp : (t.node t.root).parent = -1)
    (hpar : ∀ i : Int, 0 ≤ i → i < t.nnodes → ParentOk t i)
    (hch : ∀ i : Int, 0 ≤ i → i < t.nnodes → ChildrenOk t i)
    (hrank : ∀ i : Int, 0 ≤ i → i < t.nnodes → (t.node i).parent ≠ -1 →
      rank (t.node i).parent < rank i) :
    WellFormed t := by
  refine ⟨hcap, hroot, hrootp, hpar, hch, ?_⟩
  apply reaches_of_rank_bounded t.nodes t.root t.nnodes rank hcap
  intro i h0 h1
  have hp := hpar i h0 h1
  unfold ParentOk at hp
  by_cases h : (t.node i).parent = -1
  · rw [if_pos h] at hp
    simp only [LocalTree.node] at h
    rw [if_pos h]; exact hp
  · rw [if_neg h] at hp
    have hr := hrank i h0 h1 h
    simp only [LocalTree.node] at h hr hp
    rw [if_neg h]
    exact ⟨hp.1, hr⟩

/-- Well-formedness only depends on `nnodes`, the size of the array, `root`
and the parent and child links of the nodes in use. -/
theorem wellFormed_of_links_eq {t t' : LocalTree} (hwf : WellFormed t)
    (hn : t'.nnodes = t.nnodes) (hlen : t'.nodes.length = t.nodes.length)
    (hroot : t'.root = t.root)
    (hl : ∀ j : Int, 0 ≤ j → j < t.nnodes →
      (t'.node j).parent = (t.node j).parent ∧ (t'.node j).child0 = (t.node j).child0 ∧
      (t'.node j).child1 = (t.node j).child1) :
    WellFormed t' := by
  obtain ⟨rank, -, hrank⟩ := hwf.exists_rank_le
  have hwf' := hwf
  obtain ⟨hcap, hrt, hrtp, hpar, hch, -⟩ := hwf'
  apply wellFormed_of_rank t' rank
  · rw [hn, hlen]; exact hcap
  · rw [hroot]; unfold LocalTree.isNode; rw [hn]; exact hrt
  · rw [hroot, (hl _ hrt.1 hrt.2).1]; exact hrtp
  · intro i h0 h1
    rw [hn] at h1
    have hp := hpar i h0 h1
    unfold ParentOk at hp ⊢
    rw [(hl i h0 h1).1, hroot]
    by_cases h : (t.node i).parent = -1
    · rw [if_pos h] at hp ⊢; exact hp
    · rw [if_neg h] at hp ⊢
      obtain ⟨hpN, hpc⟩ := hp
      refine ⟨?_, ?_⟩
      · unfold LocalTree.isNode; rw [hn]; exact hpN
      · rw [(hl _ hpN.1 hpN.2).2.1, (hl _ hpN.1 hpN.2).2.2]; exact hpc
  · intro i h0 h1
    rw [hn] at h1
    have hc := hch i h0 h1
    unfold ChildrenOk at hc ⊢
    rw [(hl i h0 h1).2.1, (hl i h0 h1).2.2]
    rcases hc with hc | ⟨hc0, hc1, hne, hp0, hp1⟩
    · exact Or.inl hc
    · right
      refine ⟨?_, ?_, hne, ?_, ?_⟩
      · unfold LocalTree.isNode; rw [hn]; exact hc0
      · unfold LocalTree.isNode; rw [hn]; exact hc1
      · rw [(hl _ hc0.1 hc0.2).1]; exact hp0
      · rw [(hl _ hc1.1 hc1.2).1]; exact hp1
  · intro i h0 h1 hp
    rw [hn] at h1
    rw [(hl i h0 h1).1] at hp ⊢
    exact hrank i ⟨h0, h1⟩ hp


/-! ## The links after an SPR -/

set_option maxHeartbeats 1000000 in
/-- After the surgery every node has a consistent parent link. -/
theorem spr_parent_ok {n root : Int} {P C0 C1 : Int → Int} {r c b sb bp cp : Int}
    (F : SprFacts n root P C0 C1 r c b sb bp cp) (i : Int) (h0 : 0 ≤ i) (h1 : i < n) :
    (sprParent P c b sb bp cp i = -1 ∧ i = spr_new_root root b sb c) ∨
    (sprParent P c b sb bp cp i ≠ -1 ∧
      0 ≤ sprParent P c b sb bp cp i ∧ sprParent P c b sb bp cp i < n ∧
      (sprChild0 C0 r c b sb bp cp (sprParent P c b sb bp cp i) = i ∨
        sprChild1 C0 C1 r c b sb bp cp (sprParent P c b sb bp cp i) = i)) := by
  have hcb := F.hcb
  have hcs := F.hcs
  have hbs := F.hbs
  have hbpb := F.hbpb
  have hcpb := F.hcpb
  have hcr := F.hcr
  have hbr := F.hbr
  have hrs := F.hrs
  have hPb := F.par b F.hb.1 F.hb.2
  have hPc := F.par c F.hc.1 F.hc.2
  have hPs := F.par sb F.hs.1 F.hs.2
  have hPr := F.par r F.hr.1 F.hr.2
  rw [F.hbp] at hPb
  rw [F.hcp] at hPc
  rw [F.hsp] at hPs
  rw [F.hrp] at hPr
  have hb := F.hb
  by_cases hib : i = b
  · subst hib
    have e : sprParent P c i sb bp cp i = cp := by simp [sprParent]
    rw [e]
    unfold spr_new_root sprChild0 sprChild1
    rcases hPc with ⟨h, h'⟩ | ⟨h, h', h2, h3, h4⟩
    · left; simp [h, h']
    · right
      refine ⟨h, h2, h3, ?_⟩
      rw [if_neg hcpb, if_neg hcpb]
      rcases h4 with h4 | h4
      · left; simp [h4]
      · right; simp [h4]
  by_cases his : i = sb
  · subst his
    have e : sprParent P c b i bp cp i = bp := by simp [sprParent, hib]
    rw [e]
    unfold spr_new_root sprChild0 sprChild1
    rcases hPb with ⟨h, h'⟩ | ⟨h, h', h2, h3, h4⟩
    · left
      refine ⟨h, ?_⟩
      have : c ≠ root := by rw [← h']; exact hcb
      simp [this, h', hcs]
    · right
      refine ⟨h, h2, h3, ?_⟩
      rw [if_neg hbpb, if_neg hbpb]
      rcases h4 with h4 | h4
      · left; simp [h4, Ne.symm hcb]
      · right; simp [h4, Ne.symm hcb]
  by_cases hic : i = c
  · subst hic
    have e : sprParent P i b sb bp cp i = b := by simp [sprParent, hib, his]
    rw [e]
    right
    refine ⟨by omega, hb.1, hb.2, ?_⟩
    unfold sprChild0 sprChild1
    by_cases h : C0 b = r
    · right; simp [h]
    · left; simp [h]
  have e : sprParent P c b sb bp cp i = P i := by simp [sprParent, hib, his, hic]
  rw [e]
  have hPi := F.par i h0 h1
  have hCb := F.ch b F.hb.1 F.hb.2
  rcases hPi with ⟨h, h'⟩ | ⟨h, h', h2, h3, h4⟩
  · left
    refine ⟨h, ?_⟩
    unfold spr_new_root
    have hc' : c ≠ root := by rw [← h']; exact Ne.symm hic
    have hb' : b ≠ root := by rw [← h']; exact Ne.symm hib
    simp [hc', hb', h']
  · right
    refine ⟨h, h2, h3, ?_⟩
    unfold sprChild0 sprChild1
    by_cases hpb : P i = b
    · rw [hpb] at h4 ⊢
      have hsb := F.hsb
      have hh1 := F.h1
      have hir : i = r := by
        by_cases h : C0 b = r
        · rw [if_pos h] at hsb
          rcases h4 with h4 | h4
          · omega
          · omega
        · rw [if_neg h] at hsb
          have := hh1 h
          rcases h4 with h4 | h4
          · omega
          · omega
      subst hir
      by_cases h : C0 b = i
      · left; simp [h]
      · right; simp [h]
    · rw [if_neg hpb, if_neg hpb]
      rcases h4 with h4 | h4
      · left; simp [h4, hic, hib]
      · right; simp [h4, hic, hib]

/-- After the surgery the new root is a node without parent. -/
theorem spr_root_ok {n root : Int} {P C0 C1 : Int → Int} {r c b sb bp cp : Int}
    (F : SprFacts n root P C0 C1 r c b sb bp cp) :
    (0 ≤ spr_new_root root b sb c ∧ spr_new_root root b sb c < n) ∧
    sprParent P c b sb bp cp (spr_new_root root b sb c) = -1 := by
  have hcb := F.hcb
  have hcs := F.hcs
  have hbs := F.hbs
  have hb := F.hb
  have hs := F.hs
  have hrt := F.rootN
  have hrp := F.rootp
  have hcp := F.hcp
  have hbp := F.hbp
  have hsp := F.hsp
  unfold spr_new_root sprParent
  by_cases h1 : c = root
  · subst h1
    simp only [if_true]
    exact ⟨hb, by omega⟩
  · rw [if_neg h1]
    by_cases h2 : b = root
    · subst h2
      rw [if_pos rfl, if_neg hcs, if_neg (Ne.symm hbs), if_pos rfl]
      exact ⟨hs, by omega⟩
    · rw [if_neg h2, if_neg (Ne.symm h2)]
      have h3 : root ≠ sb := by
        intro h; rw [← h] at hsp; omega
      rw [if_neg h3, if_neg (Ne.symm h1)]
      exact ⟨hrt, hrp⟩

/-- The relabelling `c -> b`, `b -> sb` of the children is injective away
from `sb`. -/
theorem spr_relabel_inj (u v c b sb : Int) (hus : u ≠ sb) (hvs : v ≠ sb)
    (hne : u ≠ v) :
    (if u = c then b else if u = b then sb else u) ≠
      (if v = c then b else if v = b then sb else v) := by
  split_ifs <;> omega

set_option maxHeartbeats 1000000 in
/-- After the surgery every node is a leaf or has two distinct children whose
parent it is. -/
theorem spr_children_ok {n root : Int} {P C0 C1 : Int → Int} {r c b sb bp cp : Int}
    (F : SprFacts n root P C0 C1 r c b sb bp cp) (i : Int) (h0 : 0 ≤ i) (h1 : i < n) :
    (sprChild0 C0 r c b sb bp cp i = -1 ∧ sprChild1 C0 C1 r c b sb bp cp i = -1) ∨
    (0 ≤ sprChild0 C0 r c b sb bp cp i ∧ sprChild0 C0 r c b sb bp cp i < n ∧
      0 ≤ sprChild1 C0 C1 r c b sb bp cp i ∧ sprChild1 C0 C1 r c b sb bp cp i < n ∧
      sprChild0 C0 r c b sb bp cp i ≠ sprChild1 C0 C1 r c b sb bp cp i ∧
      sprParent P c b sb bp cp (sprChild0 C0 r c b sb bp cp i) = i ∧
      sprParent P c b sb bp cp (sprChild1 C0 C1 r c b sb bp cp i) = i) := by
  have hcb := F.hcb
  have hcs := F.hcs
  have hbs := F.hbs
  have hbpb := F.hbpb
  have hcpb := F.hcpb
  have hcr := F.hcr
  have hbr := F.hbr
  have hrs := F.hrs
  have hb := F.hb
  have hs := F.hs
  have hc := F.hc
  have hr := F.hr
  have hrp := F.hrp
  have hbp := F.hbp
  have hcp := F.hcp
  have hsp := F.hsp
  by_cases hib : i = b
  · subst hib
    right
    have e1 : sprParent P c i sb bp cp r = i := by
      simp [sprParent, Ne.symm hbr, hrs, Ne.symm hcr, hrp]
    have e2 : sprParent P c i sb bp cp c = i := by
      simp [sprParent, hcb, hcs]
    unfold sprChild0 sprChild1
    by_cases h : C0 i = r
    · simp only [if_true, h]
      exact ⟨hr.1, hr.2, hc.1, hc.2, Ne.symm hcr, e1, e2⟩
    · simp only [if_true, if_neg h]
      exact ⟨hc.1, hc.2, hr.1, hr.2, hcr, e2, e1⟩
  -- the new children of `i` are the images of the old ones under
  -- `c -> b`, `b -> sb`
  have key1 : ∀ u : Int, P u = i →
      (if i = cp ∧ u = c then b else if i = bp ∧ u = b then sb else u) =
        (if u = c then b else if u = b then sb else u) := by
    intro u hu
    by_cases huc : u = c
    · subst huc
      have : i = cp := by omega
      simp [this]
    · by_cases hub : u = b
      · subst hub
        have : i = bp := by omega
        simp [this, huc]
      · simp [huc, hub]
  have key2 : ∀ u : Int, P u = i → 0 ≤ u → u < n →
      0 ≤ (if u = c then b else if u = b then sb else u) ∧
      (if u = c then b else if u = b then sb else u) < n ∧
      sprParent P c b sb bp cp (if u = c then b else if u = b then sb else u) = i := by
    intro u hu hu0 hu1
    by_cases huc : u = c
    · subst huc
      rw [if_pos rfl]
      refine ⟨hb.1, hb.2, ?_⟩
      unfold sprParent
      rw [if_pos rfl]; omega
    · by_cases hub : u = b
      · subst hub
        rw [if_neg huc, if_pos rfl]
        refine ⟨hs.1, hs.2, ?_⟩
        unfold sprParent
        rw [if_neg (Ne.symm hbs), if_pos rfl]; omega
      · have hus : u ≠ sb := by
          intro h; subst h; omega
        rw [if_neg huc, if_neg hub]
        refine ⟨hu0, hu1, ?_⟩
        unfold sprParent
        rw [if_neg hub, if_neg hus, if_neg huc]; exact hu
  rcases F.ch i h0 h1 with ⟨hl0, hl1⟩ | ⟨a0, a1, b0, b1, hne, p0, p1⟩
  · left
    unfold sprChild0 sprChild1
    rw [if_neg hib, if_neg hib, hl0, hl1]
    have e1 : ¬ (i = cp ∧ (-1 : Int) = c) := by omega
    have e2 : ¬ (i = bp ∧ (-1 : Int) = b) := by omega
    simp only [if_neg e1, if_neg e2, and_self]
  · right
    obtain ⟨hu3, hu4, hu5⟩ := key2 (C0 i) p0 a0 a1
    obtain ⟨hv3, hv4, hv5⟩ := key2 (C1 i) p1 b0 b1
    have e0 : sprChild0 C0 r c b sb bp cp i =
        (if C0 i = c then b else if C0 i = b then sb else C0 i) := by
      unfold sprChild0; rw [if_neg hib]; exact key1 (C0 i) p0
    have e1 : sprChild1 C0 C1 r c b sb bp cp i =
        (if C1 i = c then b else if C1 i = b then sb else C1 i) := by
      unfold sprChild1; rw [if_neg hib]; exact key1 (C1 i) p1
    have hus : C0 i ≠ sb := by
      intro h; rw [h] at p0; omega
    have hvs : C1 i ≠ sb := by
      intro h; rw [h] at p1; omega
    rw [e0, e1]
    refine ⟨hu3, hu4, hv3, hv4, ?_, hu5, hv5⟩
    exact spr_relabel_inj _ _ c b sb hus hvs hne

set_option maxHeartbeats 1000000 in
/-- After the surgery a rank still decreases along the parent links, when `c`
is not below `r`: `D` is the set of nodes below `r`. -/
theorem spr_rank_ok {n root : Int} {P C0 C1 : Int → Int} {r c b sb bp cp : Int}
    (F : SprFacts n root P C0 C1 r c b sb bp cp) (rank : Int → Nat)
    (hrank : ∀ i : Int, 0 ≤ i → i < n → P i ≠ -1 → rank (P i) < rank i)
    (D : Int → Prop) (d1 : D r)
    (d2 : ∀ x : Int, 0 ≤ x → x < n → x ≠ r → D x → D (P x))
    (d3 : ∀ x : Int, 0 ≤ x → x < n → D (P x) → D x)
    (d4 : ¬ D b) (d5 : ¬ D c) :
    ∃ rank' : Int → Nat, ∀ i : Int, 0 ≤ i → i < n → sprParent P c b sb bp cp i ≠ -1 →
      rank' (sprParent P c b sb bp cp i) < rank' i := by
  classical
  have hcb := F.hcb
  have hcs := F.hcs
  have hbs := F.hbs
  have hbpb := F.hbpb
  have hcpb := F.hcpb
  have hcr := F.hcr
  have hbr := F.hbr
  have hrs := F.hrs
  have hb := F.hb
  have hs := F.hs
  have hc := F.hc
  have hr := F.hr
  have hrp := F.hrp
  have hbp := F.hbp
  have hcp := F.hcp
  have hsp := F.hsp
  have d6 : ¬ D sb := by
    intro h
    have := d2 sb hs.1 hs.2 (Ne.symm hrs) h
    rw [hsp] at this; exact d4 this
  have d7 : ¬ D cp := by
    intro h; rw [← hcp] at h; exact d5 (d3 c hc.1 hc.2 h)
  have d8 : ¬ D bp := by
    intro h; rw [← hbp] at h; exact d4 (d3 b hb.1 hb.2 h)
  refine ⟨fun x => if D x then 2 * rank c + 2 * rank x + 1 else if x = b then 2 * rank c
    else 2 * rank x + 1, ?_⟩
  intro i h0 h1
  by_cases hib : i = b
  · subst hib
    have e : sprParent P c i sb bp cp i = cp := by simp [sprParent]
    rw [e]
    intro hne
    have := hrank c hc.1 hc.2 (by omega)
    rw [hcp] at this
    simp only [if_neg d7, if_neg d4, if_neg hcpb, if_true]
    omega
  by_cases his : i = sb
  · subst his
    have e : sprParent P c b i bp cp i = bp := by simp [sprParent, hib]
    rw [e]
    intro hne
    have h1 := hrank b hb.1 hb.2 (by omega)
    have h2 := hrank i hs.1 hs.2 (by omega)
    rw [hbp] at h1
    rw [hsp] at h2
    simp only [if_neg d8, if_neg d6, if_neg hbpb, if_neg hib]
    omega
  by_cases hic : i = c
  · subst hic
    have e : sprParent P i b sb bp cp i = b := by simp [sprParent, hib, his]
    rw [e]
    intro _
    simp only [if_neg d4, if_neg d5, if_neg hib, if_true]
    omega
  have e : sprParent P c b sb bp cp i = P i := by simp [sprParent, hib, his, hic]
  rw [e]
  intro hne
  have hlt := hrank i h0 h1 hne
  by_cases hD : D i
  · by_cases hir : i = r
    · subst hir
      rw [hrp] at hlt ⊢
      simp only [if_neg d4, if_pos hD, if_true]
      omega
    · have := d2 i h0 h1 hir hD
      simp only [if_pos this, if_pos hD]
      omega
  · have hDp : ¬ D (P i) := fun h => hD (d3 i h0 h1 h)
    have hpb : P i ≠ b := by
      intro hpb
      rcases F.par i h0 h1 with ⟨h, -⟩ | ⟨-, -, -, -, h4⟩
      · exact hne h
      · rw [hpb] at h4
        have hsb := F.hsb
        have hh1 := F.h1
        by_cases h : C0 b = r
        · rw [if_pos h] at hsb
          rcases h4 with h4 | h4
          · rw [← h4, h] at hD; exact hD d1
          · omega
        · rw [if_neg h] at hsb
          have := hh1 h
          rcases h4 with h4 | h4
          · omega
          · rw [← h4, this] at hD; exact hD d1
    simp only [if_neg hDp, if_neg hD, if_neg hpb, if_neg hib]
    omega



/-! ## Well-formedness after an SPR -/

/-- A node below `target` has a rank at least that of `target`, and reaches it
within the difference of the ranks. -/
theorem reaches_rank_bound (t : LocalTree) (hwf : WellFormed t) (rank : Int → Nat)
    (hrank : ∀ i : Int, t.isNode i → (t.node i).parent ≠ -1 →
      rank (t.node i).parent < rank i) (target : Int) (htar : 0 ≤ target) :
    ∀ (k : Nat) (x : Int), t.isNode x → reaches t.nodes target k x = true →
      rank target ≤ rank x ∧ reaches t.nodes target (rank x - rank target) x = true := by
  intro k
  induction k with
  | zero =>
    intro x _ h
    rw [reaches_zero] at h
    subst h
    exact ⟨le_refl _, by simp [reaches_zero]⟩
  | succ k ih =>
    intro x hx h
    rw [reaches_succ] at h
    rcases h with h | ⟨_, h2⟩
    · subst h
      exact ⟨le_refl _, by simp [reaches_zero]⟩
    · have hp : (t.node x).parent ≠ -1 := by
        intro hp
        simp only [LocalTree.node] at hp
        rw [hp] at h2
        cases k with
        | zero => rw [reaches_zero] at h2; omega
        | succ k =>
          rw [reaches_succ] at h2
          rcases h2 with h2 | ⟨h2, -⟩
          · omega
          · exact absurd h2.1 (by omega)
      rcases hwf.parent_cases hx with ⟨h', -⟩ | ⟨-, -, hpN, -⟩
      · exact absurd h' hp
      · obtain ⟨i1, i2⟩ := ih _ hpN h2
        have := hrank x hx hp
        refine ⟨by omega, ?_⟩
        have e : rank x - rank target = (rank (t.node x).parent - rank target) + 
            (rank x - rank (t.node x).parent - 1) + 1 := by omega
        rw [e, reaches_succ]
        right
        exact ⟨hwf.inArr hx, reaches_mono_le _ _ (by omega) _ i2⟩

/-- The facts `SprFacts` hold in a well-formed tree, for an SPR whose
`coal_node` is neither the parent nor the sibling of `recomb_node`. -/
theorem WellFormed.sprFacts {t : LocalTree} (hwf : WellFormed t) {r c : Int}
    (hr : t.isNode r) (hc : t.isNode c) (hroot : r ≠ t.root) (hne : r ≠ c)
    (hcb : c ≠ (t.node r).parent) (hcs : c ≠ t.sibling r) :
    SprFacts t.nnodes t.root (fun j => (t.node j).parent) (fun j => (t.node j).child0)
      (fun j => (t.node j).child1) r c (t.node r).parent (t.sibling r)
      (t.node (t.node r).parent).parent (t.node c).parent := by
  have L := hwf.sprLocal hr hc hroot hne
  have hb : t.isNode (t.node r).parent := by
    rcases hwf.parent_cases hr with ⟨-, h⟩ | ⟨-, -, h, -⟩
    · exact absurd h hroot
    · exact h
  have hs : t.isNode (t.sibling r) := by
    have hC := hwf.children hb
    have h1 := L.h1
    have hsb := L.hsb
    simp only [LocalTree.node] at hC h1 hsb ⊢
    unfold ChildrenOk at hC
    simp only [LocalTree.node] at hC
    rcases hC with ⟨hC0, hC1⟩ | ⟨hC0, hC1, -⟩
    · exfalso
      have := hr.1
      by_cases h : (nodeAt t.nodes (nodeAt t.nodes r).parent).child0 = r
      · omega
      · have := h1 h; omega
    · rw [hsb]
      split
      · exact hC1
      · exact hC0
  refine { par := ?_, ch := ?_, rootN := hwf.2.1, rootp := hwf.2.2.1, hr := hr, hc := hc,
           hb := hb, hs := hs, hrp := rfl, hbp := rfl, hcp := rfl, hsp := L.hsp, hsb := L.hsb,
           h1 := L.h1, hrs := L.hrs, hbr := L.hbr, hbs := L.hbs, hcr := L.hcr, hcb := hcb,
           hcs := hcs, hbpb := L.hbpb, hcpb := L.hcpb hcb hcs }
  · intro i h0 h1
    rcases hwf.parent_cases ⟨h0, h1⟩ with h | ⟨a, b, c, d⟩
    · exact Or.inl h
    · exact Or.inr ⟨a, b, c.1, c.2, d⟩
  · intro i h0 h1
    have hC := hwf.children ⟨h0, h1⟩
    unfold ChildrenOk at hC
    rcases hC with h | ⟨a, b, c, d, e⟩
    · exact Or.inl h
    · exact Or.inr ⟨a.1, a.2, b.1, b.2, c, d, e⟩


/-- The links of the tree described by `sprNode`, when `coal_node` is neither
the parent nor the sibling of `recomb_node`. -/
theorem sprNode_links (t : LocalTree) (s : Spr) (j : Int)
    (hcb : s.coal_node ≠ (t.node s.recomb_node).parent)
    (hcs : s.coal_node ≠ t.sibling s.recomb_node) :
    (sprNode t s j).parent = sprParent (fun j => (t.node j).parent) s.coal_node
      (t.node s.recomb_node).parent (t.sibling s.recomb_node)
      (t.node (t.node s.recomb_node).parent).parent (t.node s.coal_node).parent j ∧
    (sprNode t s j).child0 = sprChild0 (fun j => (t.node j).child0) s.recomb_node s.coal_node
      (t.node s.recomb_node).parent (t.sibling s.recomb_node)
      (t.node (t.node s.recomb_node).parent).parent (t.node s.coal_node).parent j ∧
    (sprNode t s j).child1 = sprChild1 (fun j => (t.node j).child0)
      (fun j => (t.node j).child1) s.recomb_node s.coal_node
      (t.node s.recomb_node).parent (t.sibling s.recomb_node)
      (t.node (t.node s.recomb_node).parent).parent (t.node s.coal_node).parent j ∧
    (sprNode t s j).age = (if j = (t.node s.recomb_node).parent then s.coal_time
      else (t.node j).age) := by
  unfold sprNode sprNodeAt sprParent sprChild0 sprChild1
  simp only [LocalTree.node] at hcb ⊢
  simp only [if_neg hcb, if_neg hcs]
  by_cases h : j = (nodeAt t.nodes s.recomb_node).parent
  · subst h
    simp only [if_true, and_self]
  · simp only [if_neg h, and_self]

/-- When `coal_node` is the parent or the sibling of `recomb_node`, the tree
described by `sprNode` has the links of the old tree. -/
theorem sprNode_links_same (t : LocalTree) (s : Spr) (j : Int)
    (h : s.coal_node = (t.node s.recomb_node).parent ∨ s.coal_node = t.sibling s.recomb_node) :
    (sprNode t s j).parent = (t.node j).parent ∧ (sprNode t s j).child0 = (t.node j).child0 ∧
    (sprNode t s j).child1 = (t.node j).child1 ∧
    (sprNode t s j).age = (if j = (t.node s.recomb_node).parent then s.coal_time
      else (t.node j).age) := by
  unfold sprNode sprNodeAt
  simp only [LocalTree.node]
  by_cases h1 : s.coal_node = (nodeAt t.nodes s.recomb_node).parent
  · rw [if_pos h1]
    split <;> simp
  · rw [if_neg h1]
    have h2 : s.coal_node = t.sibling s.recomb_node := by
      rcases h with h | h
      · exact absurd h h1
      · exact h
    rw [if_pos h2]
    split <;> simp

/-- The root set by `apply_spr` is the old root when `coal_node` is the parent
or the sibling of `recomb_node`. -/
theorem spr_new_root_same (t : LocalTree) (hwf : WellFormed t) (r c : Int)
    (hr : t.isNode r) (hc : t.isNode c) (hroot : r ≠ t.root) (hne : r ≠ c)
    (h : c = (t.node r).parent ∨ c = t.sibling r) :
    spr_new_root t.root (t.node r).parent (t.sibling r) c = t.root := by
  have L := hwf.sprLocal hr hc hroot hne
  unfold spr_new_root
  rcases h with h | h
  · rw [← h]
    split
    · assumption
    · rfl
  · rw [← h]
    have hsp := L.hsp
    have hrp := hwf.2.2.1
    have hbA := L.hbA.1
    simp only [LocalTree.node] at hsp hrp hbA
    rw [← h] at hsp
    have : c ≠ t.root := by
      intro e; rw [e] at hsp; omega
    rw [if_neg this]
    split
    · simp; assumption
    · rfl

set_option maxHeartbeats 1000000 in
/-- Core of claim C2: `apply_spr` keeps a tree well-formed when `coal_node` is
not in the subtree below `recomb_node`. -/
theorem apply_spr_wellFormed (t : LocalTree) (s : Spr) (hwf : WellFormed t)
    (hr : t.isNode s.recomb_node) (hc : t.isNode s.coal_node)
    (hroot : s.recomb_node ≠ t.root) (hne : s.recomb_node ≠ s.coal_node)
    (hbelow : reaches t.nodes s.recomb_node t.nnodes.toNat s.coal_node = false) :
    ∃ t', apply_spr t s none = some t' ∧ WellFormed t' ∧ t'.nnodes = t.nnodes ∧
      ∀ j : Int, 0 ≤ j → t'.node j = sprNode t s j := by
  obtain ⟨t', h, hn, hlen, hrt, hnode⟩ := apply_spr_spec t s hwf hr hc hroot hne
  refine ⟨t', h, ?_, hn, hnode⟩
  by_cases hsame : s.coal_node = (t.node s.recomb_node).parent ∨
      s.coal_node = t.sibling s.recomb_node
  · apply wellFormed_of_links_eq hwf hn hlen
    · rw [hrt]; exact spr_new_root_same t hwf _ _ hr hc hroot hne hsame
    · intro j h0 _
      rw [hnode j h0]
      have := sprNode_links_same t s j hsame
      exact ⟨this.1, this.2.1, this.2.2.1⟩
  · have hcb : s.coal_node ≠ (t.node s.recomb_node).parent := fun e => hsame (Or.inl e)
    have hcs : s.coal_node ≠ t.sibling s.recomb_node := fun e => hsame (Or.inr e)
    have F := hwf.sprFacts hr hc hroot hne hcb hcs
    obtain ⟨rank, hle, hrank⟩ := hwf.exists_rank_le
    have hb := F.hb
    -- the nodes below `recomb_node`
    have d4 : ¬ ∃ k, reaches t.nodes s.recomb_node k (t.node s.recomb_node).parent = true := by
      rintro ⟨k, hk⟩
      have := (reaches_rank_bound t hwf rank hrank _ hr.1 k _ hb hk).1
      have := hrank _ hr (by have := hb.1; omega)
      omega
    have d5 : ¬ ∃ k, reaches t.nodes s.recomb_node k s.coal_node = true := by
      rintro ⟨k, hk⟩
      have h1 := (reaches_rank_bound t hwf rank hrank _ hr.1 k _ hc hk).2
      have h2 := hle _ hc
      have h3 : rank s.coal_node - rank s.recomb_node ≤ t.nnodes.toNat := by omega
      have h4 := reaches_mono_le _ _ h3 _ h1
      rw [hbelow] at h4
      exact Bool.false_ne_true h4
    obtain ⟨rank', hrank'⟩ := spr_rank_ok F rank (fun i h0 h1 hp => hrank i ⟨h0, h1⟩ hp)
      (fun x => ∃ k, reaches t.nodes s.recomb_node k x = true)
      ⟨0, by rw [reaches_zero]⟩
      (by
        rintro x h0 h1 hx ⟨k, hk⟩
        cases k with
        | zero => rw [reaches_zero] at hk; exact absurd hk hx
        | succ k =>
          rw [reaches_succ] at hk
          rcases hk with hk | ⟨-, hk⟩
          · exact absurd hk hx
          · exact ⟨k, hk⟩)
      (by
        rintro x h0 h1 ⟨k, hk⟩
        exact ⟨k + 1, by rw [reaches_succ]; exact Or.inr ⟨hwf.inArr ⟨h0, h1⟩, hk⟩⟩)
      d4 d5
    have hl : ∀ j : Int, 0 ≤ j → _ := fun j h0 => by
      have := sprNode_links t s j hcb hcs
      rw [← hnode j h0] at this
      exact this
    have hR := spr_root_ok F
    apply wellFormed_of_rank t' rank'
    · rw [hn, hlen]; exact hwf.1
    · rw [hrt]; unfold LocalTree.isNode; rw [hn]; exact hR.1
    · rw [hrt, (hl _ hR.1.1).1]; exact hR.2
    · intro i h0 h1
      rw [hn] at h1
      have hP := spr_parent_ok F i h0 h1
      unfold ParentOk LocalTree.isNode
      rw [hn, hrt, (hl i h0).1]
      rcases hP with ⟨a, b⟩ | ⟨a, b, c, d⟩
      · rw [if_pos a]; exact b
      · rw [if_neg a, (hl _ b).2.1, (hl _ b).2.2.1]
        exact ⟨⟨b, c⟩, d⟩
    · intro i h0 h1
      rw [hn] at h1
      have hC := spr_children_ok F i h0 h1
      unfold ChildrenOk LocalTree.isNode
      rw [hn, (hl i h0).2.1, (hl i h0).2.2.1]
      rcases hC with hC | ⟨a0, a1, b0, b1, hne', p0, p1⟩
      · exact Or.inl hC
      · right
        rw [(hl _ a0).1, (hl _ b0).1]
        exact ⟨⟨a0, a1⟩, ⟨b0, b1⟩, hne', p0, p1⟩
    · intro i h0 h1 hp
      rw [hn] at h1
      rw [(hl i h0).1] at hp ⊢
      exact hrank' i h0 h1 hp



/-! ## Ages after an SPR -/

/-- In a well-formed tree a node whose parent is `parent(r)` is `r` or the
sibling of `r`. -/
theorem WellFormed.child_of_parent {t : LocalTree} (hwf : WellFormed t) {r c : Int}
    (hr : t.isNode r) (hc : t.isNode c) (hroot : r ≠ t.root) (hne : r ≠ c)
    (i : Int) (hi : t.isNode i) (hp : (t.node i).parent = (t.node r).parent) :
    i = r ∨ i = t.sibling r := by
  have L := hwf.sprLocal hr hc hroot hne
  have hsb := L.hsb
  have h1 := L.h1
  have hbA := L.hbA.1
  rcases hwf.parent_cases hi with ⟨h, -⟩ | ⟨-, -, -, h4⟩
  · rw [hp] at h; simp only [LocalTree.node] at h hbA; omega
  · rw [hp] at h4
    simp only [LocalTree.node] at h4 hsb h1
    by_cases h : (nodeAt t.nodes (nodeAt t.nodes r).parent).child0 = r
    · rw [if_pos h] at hsb
      rcases h4 with h4 | h4
      · left; omega
      · right; omega
    · rw [if_neg h] at hsb
      have := h1 h
      rcases h4 with h4 | h4
      · right; omega
      · left; omega

set_option maxHeartbeats 1000000 in
/-- After the surgery the ages are still ordered along the new parent links,
when `b` gets the age `ct`. -/
theorem spr_age_ok {n root : Int} {P C0 C1 : Int → Int} {r c b sb bp cp : Int}
    (F : SprFacts n root P C0 C1 r c b sb bp cp) (A : Int → Int) (ct : Int)
    (hA : ∀ i : Int, 0 ≤ i → i < n → P i ≠ -1 → A i ≤ A (P i))
    (h1 : A r ≤ ct) (h2 : A c ≤ ct) (h3 : cp ≠ -1 → ct ≤ A cp)
    (i : Int) (hi0 : 0 ≤ i) (hi1 : i < n) (hp : sprParent P c b sb bp cp i ≠ -1) :
    (if i = b then ct else A i) ≤
      (if sprParent P c b sb bp cp i = b then ct else A (sprParent P c b sb bp cp i)) := by
  have hcb := F.hcb
  have hcs := F.hcs
  have hbs := F.hbs
  have hbpb := F.hbpb
  have hcpb := F.hcpb
  have hb := F.hb
  have hs := F.hs
  have hrp := F.hrp
  have hbp := F.hbp
  have hsp := F.hsp
  by_cases hib : i = b
  · subst hib
    have e : sprParent P c i sb bp cp i = cp := by simp [sprParent]
    rw [e] at hp ⊢
    rw [if_pos rfl, if_neg hcpb]
    exact h3 hp
  by_cases his : i = sb
  · subst his
    have e : sprParent P c b i bp cp i = bp := by simp [sprParent, hib]
    rw [e] at hp ⊢
    rw [if_neg hib, if_neg hbpb]
    have a1 := hA i hs.1 hs.2 (by omega)
    have a2 := hA b hb.1 hb.2 (by omega)
    rw [hsp] at a1
    rw [hbp] at a2
    omega
  by_cases hic : i = c
  · subst hic
    have e : sprParent P i b sb bp cp i = b := by simp [sprParent, hib, his]
    rw [e, if_neg hib, if_pos rfl]
    exact h2
  have e : sprParent P c b sb bp cp i = P i := by simp [sprParent, hib, his, hic]
  rw [e] at hp ⊢
  rw [if_neg hib]
  by_cases hpb : P i = b
  · rw [if_pos hpb]
    have hir : i = r := by
      rcases F.par i hi0 hi1 with ⟨h, -⟩ | ⟨-, -, -, -, h4⟩
      · exact absurd h hp
      · rw [hpb] at h4
        have hsb := F.hsb
        have hh1 := F.h1
        by_cases h : C0 b = r
        · rw [if_pos h] at hsb
          rcases h4 with h4 | h4 <;> omega
        · rw [if_neg h] at hsb
          have := hh1 h
          rcases h4 with h4 | h4 <;> omega
    rw [hir]; exact h1
  · rw [if_neg hpb]
    exact hA i hi0 hi1 hp

/-- With unchanged links, the ages are still ordered when `b = P r` gets the
age `ct` and `c` is `b` or the sibling `sb` of `r`. -/
theorem spr_age_same_ok {n : Int} {P : Int → Int} {r c b sb bp : Int} (A : Int → Int) (ct : Int)
    (hb : 0 ≤ b ∧ b < n) (hs : 0 ≤ sb ∧ sb < n)
    (hbp : P b = bp) (hsp : P sb = b) (hbpb : bp ≠ b)
    (hch : ∀ i : Int, 0 ≤ i → i < n → P i = b → i = r ∨ i = sb)
    (hc : c = b ∨ c = sb)
    (hA : ∀ i : Int, 0 ≤ i → i < n → P i ≠ -1 → A i ≤ A (P i))
    (h1 : A r ≤ ct) (h2 : A c ≤ ct) (h3 : P c ≠ -1 → ct ≤ A (P c))
    (i : Int) (hi0 : 0 ≤ i) (hi1 : i < n) (hp : P i ≠ -1) :
    (if i = b then ct else A i) ≤ (if P i = b then ct else A (P i)) := by
  by_cases hib : i = b
  · subst hib
    rw [if_pos rfl, hbp, if_neg hbpb]
    rw [hbp] at hp
    rcases hc with hc | hc
    · subst hc
      rw [hbp] at h3
      exact h3 hp
    · subst hc
      rw [hsp] at h3
      have := hA i hb.1 hb.2 (by omega)
      rw [hbp] at this
      have := h3 (by omega)
      omega
  · rw [if_neg hib]
    by_cases hpb : P i = b
    · rw [if_pos hpb]
      rcases hch i hi0 hi1 hpb with h | h
      · rw [h]; exact h1
      · rcases hc with hc | hc
        · subst hc
          have := hA i hi0 hi1 hp
          rw [hpb] at this
          omega
        · rw [h, ← hc]; exact h2
    · rw [if_neg hpb]
      exact hA i hi0 hi1 hp

set_option maxHeartbeats 1000000 in
/-- Core of claim C3: `apply_spr` keeps the ages ordered along the edges. -/
theorem apply_spr_ageOrdered (t : LocalTree) (s : Spr) (hwf : WellFormed t)
    (hage : AgeOrdered t)
    (hr : t.isNode s.recomb_node) (hc : t.isNode s.coal_node)
    (hroot : s.recomb_node ≠ t.root) (hne : s.recomb_node ≠ s.coal_node)
    (h1 : (t.node s.recomb_node).age ≤ s.coal_time)
    (h2 : (t.node s.coal_node).age ≤ s.coal_time)
    (h3 : (t.node s.coal_node).parent ≠ -1 →
      s.coal_time ≤ (t.node (t.node s.coal_node).parent).age) :
    ∃ t', apply_spr t s none = some t' ∧ AgeOrdered t' := by
  obtain ⟨t', h, hn, hlen, hrt, hnode⟩ := apply_spr_spec t s hwf hr hc hroot hne
  refine ⟨t', h, ?_⟩
  have L := hwf.sprLocal hr hc hroot hne
  intro i hi0 hi1 hp
  rw [hn] at hi1
  by_cases hsame : s.coal_node = (t.node s.recomb_node).parent ∨
      s.coal_node = t.sibling s.recomb_node
  · have hl := sprNode_links_same t s i hsame
    rw [← hnode i hi0] at hl
    rw [hl.1] at hp ⊢
    have hp0 : 0 ≤ (t.node i).parent := by
      rcases hwf.parent_cases ⟨hi0, hi1⟩ with ⟨h', -⟩ | ⟨-, -, h', -⟩
      · exact absurd h' hp
      · exact h'.1
    have hl2 := sprNode_links_same t s (t.node i).parent hsame
    rw [← hnode _ hp0] at hl2
    rw [hl.2.2.2, hl2.2.2.2]
    have hb : t.isNode (t.node s.recomb_node).parent := by
      rcases hwf.parent_cases hr with ⟨-, h'⟩ | ⟨-, -, h', -⟩
      · exact absurd h' hroot
      · exact h'
    have hs : t.isNode (t.sibling s.recomb_node) := by
      rcases hsame with e | e
      · have := L.hsA
        have hC := hwf.children hb
        have hh1 := L.h1
        have hsb := L.hsb
        unfold ChildrenOk at hC
        simp only [LocalTree.node] at hC hh1 hsb ⊢
        rcases hC with ⟨hC0, hC1⟩ | ⟨hC0, hC1, -⟩
        · exfalso
          have := hr.1
          by_cases h' : (nodeAt t.nodes (nodeAt t.nodes s.recomb_node).parent).child0 =
              s.recomb_node
          · omega
          · have := hh1 h'; omega
        · rw [hsb]
          split
          · exact hC1
          · exact hC0
      · rw [← e]; exact hc
    exact spr_age_same_ok (fun j => (t.node j).age) s.coal_time hb hs rfl L.hsp L.hbpb
      (fun j j0 j1 jp => hwf.child_of_parent hr hc hroot hne j ⟨j0, j1⟩ jp)
      hsame (fun j j0 j1 jp => hage j j0 j1 jp) h1 h2 h3 i hi0 hi1 hp
  · have hcb : s.coal_node ≠ (t.node s.recomb_node).parent := fun e => hsame (Or.inl e)
    have hcs : s.coal_node ≠ t.sibling s.recomb_node := fun e => hsame (Or.inr e)
    have F := hwf.sprFacts hr hc hroot hne hcb hcs
    have hl := sprNode_links t s i hcb hcs
    rw [← hnode i hi0] at hl
    rw [hl.1] at hp ⊢
    have hp0 : 0 ≤ sprParent (fun j => (t.node j).parent) s.coal_node
        (t.node s.recomb_node).parent (t.sibling s.recomb_node)
        (t.node (t.node s.recomb_node).parent).parent (t.node s.coal_node).parent i := by
      rcases spr_parent_ok F i hi0 hi1 with ⟨h', -⟩ | ⟨-, h', -⟩
      · exact absurd h' hp
      · exact h'
    have hl2 := sprNode_links t s (sprParent (fun j => (t.node j).parent) s.coal_node
        (t.node s.recomb_node).parent (t.sibling s.recomb_node)
        (t.node (t.node s.recomb_node).parent).parent (t.node s.coal_node).parent i) hcb hcs
    rw [← hnode _ hp0] at hl2
    rw [hl.2.2.2, hl2.2.2.2]
    exact spr_age_ok F (fun j => (t.node j).age) s.coal_time
      (fun j j0 j1 jp => hage j j0 j1 jp) h1 h2 h3 i hi0 hi1 hp



/-! ## What assert_tree decides -/

theorem andThen_eq_true (a b : Option Bool) :
    andThen a b = some true ↔ a = some true ∧ b = some true := by
  unfold andThen
  rcases a with _ | _ | _ <;> simp

theorem getNode_eq_some_iff (nodes : List LocalNode) (i : Int) (n : LocalNode) :
    getNode nodes i = some n ↔ inArr nodes i ∧ nodeAt nodes i = n := by
  by_cases h : inArr nodes i
  · rw [getNode_eq h]; simp [h]
  · simp [getNode, getAt, h]

theorem getNode_eq_none_of (nodes : List LocalNode) (i : Int) (h : ¬ inArr nodes i) :
    getNode nodes i = none := by
  simp [getNode, getAt, h]

/-- The check of a child link passes exactly when the child is -1 or a node in
the array whose parent is `i`. -/
theorem assert_tree_child_iff (t : LocalTree) (i ch : Int) :
    assert_tree_child t i ch = some true ↔
      (ch ≠ -1 → (t.isNode ch ∧ inArr t.nodes ch) ∧ (nodeAt t.nodes ch).parent = i) := by
  unfold assert_tree_child LocalTree.isNode
  by_cases h : ch = -1
  · simp [h]
  · rw [if_pos h]
    by_cases h2 : ch < 0 ∨ ch ≥ t.nnodes
    · rw [if_pos h2]
      simp only [Option.some.injEq, Bool.false_eq_true, false_iff]
      intro hh
      have := (hh h).1.1
      omega
    · rw [if_neg h2]
      by_cases h3 : inArr t.nodes ch
      · rw [getNode_eq h3]
        simp only [Option.map_some', Option.some.injEq, decide_eq_true_eq]
        constructor
        · intro e _; exact ⟨⟨by omega, h3⟩, e⟩
        · intro hh; exact (hh h).2
      · rw [getNode_eq_none_of _ _ h3]
        simp only [Option.map_none', reduceCtorEq, false_iff]
        intro hh
        exact h3 (hh h).1.2

/-- The loop body of `assert_tree` passes at `i` exactly when `i` is in the
array and the three checks hold. -/
theorem assert_tree_node_iff (t : LocalTree) (i : Int) :
    assert_tree_node t none i = some true ↔
      inArr t.nodes i ∧
      ((nodeAt t.nodes i).child0 ≠ -1 → (t.isNode (nodeAt t.nodes i).child0 ∧
        inArr t.nodes (nodeAt t.nodes i).child0) ∧
        (nodeAt t.nodes (nodeAt t.nodes i).child0).parent = i) ∧
      ((nodeAt t.nodes i).child1 ≠ -1 → (t.isNode (nodeAt t.nodes i).child1 ∧
        inArr t.nodes (nodeAt t.nodes i).child1) ∧
        (nodeAt t.nodes (nodeAt t.nodes i).child1).parent = i) ∧
      (if (nodeAt t.nodes i).parent = -1 then t.root = i
        else t.isNode (nodeAt t.nodes i).parent) := by
  unfold assert_tree_node
  by_cases h : inArr t.nodes i
  · rw [getNode_eq h]
    simp only [Option.some_bind, andThen_eq_true, assert_tree_child_iff, assert_tree_pop, h,
      true_and, and_true]
    apply and_congr Iff.rfl
    apply and_congr Iff.rfl
    unfold LocalTree.isNode
    by_cases hp : (nodeAt t.nodes i).parent = -1
    · simp [hp]
    · simp only [if_neg hp, Option.some.injEq, decide_eq_true_eq]
      constructor <;> intro hh <;> omega
  · rw [getNode_eq_none_of _ _ h]
    simp [h]

theorem assert_tree_loop_iff (t : LocalTree) (l : List Nat) :
    assert_tree_loop t none l = some true ↔
      ∀ i ∈ l, assert_tree_node t none ((i : Nat) : Int) = some true := by
  induction l with
  | nil => simp [assert_tree_loop]
  | cons a l ih =>
    simp only [assert_tree_loop, andThen_eq_true, ih, List.mem_cons, forall_eq_or_imp]

set_option maxHeartbeats 1000000 in
/-- What `assert_tree` decides, without population tree. -/
theorem assert_tree_iff (t : LocalTree) :
    assert_tree t none = some true ↔ AssertTreeHolds t := by
  unfold assert_tree AssertTreeHolds
  rw [andThen_eq_true, assert_tree_loop_iff]
  have hrootIff : ((getNode t.nodes t.root).map fun rn => decide (rn.parent = -1)) = some true ↔
      inArr t.nodes t.root ∧ (t.node t.root).parent = -1 := by
    by_cases h : inArr t.nodes t.root
    · rw [getNode_eq h]; simp [h, LocalTree.node]
    · rw [getNode_eq_none_of _ _ h]; simp [h]
  rw [hrootIff]
  constructor
  · rintro ⟨hloop, hr1, hr2⟩
    have hall : ∀ i : Int, 0 ≤ i → i < t.nnodes → assert_tree_node t none i = some true := by
      intro i h0 h1
      have := hloop i.toNat (by rw [List.mem_range]; omega)
      rwa [Int.toNat_of_nonneg h0] at this
    have hcap : t.nnodes ≤ t.nodes.length := by
      by_contra hcon
      have hlen : (0 : Int) ≤ t.nodes.length := Int.natCast_nonneg _
      have := hall (t.nnodes - 1) (by omega) (by omega)
      rw [assert_tree_node_iff] at this
      have := this.1.2
      omega
    refine ⟨hcap, hr1, hr2, ?_⟩
    intro i h0 h1
    have := hall i h0 h1
    rw [assert_tree_node_iff] at this
    unfold NodeLinksChecked
    simp only [LocalTree.node]
    obtain ⟨-, a, b, c⟩ := this
    exact ⟨fun h => ⟨(a h).1.1, (a h).2⟩, fun h => ⟨(b h).1.1, (b h).2⟩, c⟩
  · rintro ⟨hcap, hr1, hr2, hall⟩
    refine ⟨?_, hr1, hr2⟩
    intro i hi
    rw [List.mem_range] at hi
    have h0 : (0 : Int) ≤ (i : Int) := Int.natCast_nonneg _
    have h1 : (i : Int) < t.nnodes := by omega
    have := hall i h0 h1
    unfold NodeLinksChecked at this
    simp only [LocalTree.node] at this
    rw [assert_tree_node_iff]
    obtain ⟨a, b, c⟩ := this
    have hin : ∀ x : Int, t.isNode x → inArr t.nodes x := by
      intro x hx; unfold LocalTree.isNode at hx; unfold inArr; omega
    exact ⟨hin _ ⟨h0, h1⟩, fun h => ⟨⟨(a h).1, hin _ (a h).1⟩, (a h).2⟩,
      fun h => ⟨⟨(b h).1, hin _ (b h).1⟩, (b h).2⟩, c⟩



/-! ## The mapping of an SPR -/

/-- A loop that writes `f i` into slot `i` for the indices of a list, all
inside the array: it runs through, and the final array holds `f j` in the
slots `j` of the list and its old values elsewhere. -/
theorem forLoop_setAt {α : Type} [Inhabited α] (f : Int → α) (l : List Nat) :
    ∀ m0 : List α, (∀ i ∈ l, i < m0.length) →
      ∃ m, forLoop (fun i m => setAt m i (f i)) l m0 = some m ∧ m.length = m0.length ∧
        ∀ j : Int, readAt m j = if (∃ i ∈ l, ((i : Nat) : Int) = j) then f j else readAt m0 j := by
  induction l with
  | nil =>
    intro m0 _
    exact ⟨m0, rfl, rfl, fun j => by simp⟩
  | cons a l ih =>
    intro m0 h
    have ha : inArr m0 (a : Int) := by
      have := h a (List.mem_cons_self _ _)
      unfold inArr; omega
    obtain ⟨m, h1, h2, h3⟩ := ih (updAt m0 a (f a)) (by
      intro i hi
      rw [length_updAt]
      exact h i (List.mem_cons_of_mem _ hi))
    refine ⟨m, ?_, ?_, ?_⟩
    · simp only [forLoop, setAt_eq _ ha, Option.some_bind]
      exact h1
    · rw [h2, length_updAt]
    · intro j
      rw [h3 j, readAt_updAt_of_inArr _ _ _ _ ha]
      by_cases hj : ∃ i ∈ l, ((i : Nat) : Int) = j
      · have : ∃ i ∈ a :: l, ((i : Nat) : Int) = j := by
          obtain ⟨i, hi, e⟩ := hj
          exact ⟨i, List.mem_cons_of_mem _ hi, e⟩
        rw [if_pos hj, if_pos this]
      · rw [if_neg hj]
        by_cases hja : j = a
        · have : ∃ i ∈ a :: l, ((i : Nat) : Int) = j := ⟨a, List.mem_cons_self _ _, hja.symm⟩
          rw [if_pos hja, if_pos this, hja]
        · have : ¬ ∃ i ∈ a :: l, ((i : Nat) : Int) = j := by
            rintro ⟨i, hi, e⟩
            rcases List.mem_cons.mp hi with hi | hi
            · subst hi; exact hja e.symm
            · exact hj ⟨i, hi, e⟩
          rw [if_neg hja, if_neg this]

/-- The loop `for (i = 0; i < n; i++) m[i] = f(i)` on an array of length at
least `n`. -/
theorem forLoop_setAt_range {α : Type} [Inhabited α] (f : Int → α) (n : Int) (m0 : List α)
    (hn : n ≤ m0.length) :
    ∃ m, forLoop (fun i m => setAt m i (f i)) (List.range n.toNat) m0 = some m ∧
      m.length = m0.length ∧
      ∀ j : Int, readAt m j = if 0 ≤ j ∧ j < n then f j else readAt m0 j := by
  obtain ⟨m, h1, h2, h3⟩ := forLoop_setAt f (List.range n.toNat) m0 (by
    intro i hi; rw [List.mem_range] at hi; omega)
  refine ⟨m, h1, h2, fun j => ?_⟩
  rw [h3 j]
  have : (∃ i ∈ List.range n.toNat, ((i : Nat) : Int) = j) ↔ (0 ≤ j ∧ j < n) := by
    constructor
    · rintro ⟨i, hi, e⟩
      rw [List.mem_range] at hi
      omega
    · rintro ⟨h0, h1⟩
      exact ⟨j.toNat, by rw [List.mem_range]; omega, by omega⟩
  simp only [this]

/-- The mapping that `make_node_mapping` writes: the identity on
`[0, nnodes)` except `-1` for `broken = ptree[recomb_node]`. -/
theorem make_node_mapping_spec (ptree : List Int) (nnodes recomb_node : Int) (mapping : List Int)
    (hn : nnodes ≤ mapping.length) (hr : inArr ptree recomb_node)
    (hb : 0 ≤ readAt ptree recomb_node ∧ readAt ptree recomb_node < nnodes) :
    ∃ m, make_node_mapping ptree nnodes recomb_node mapping = some m ∧
      m.length = mapping.length ∧
      ∀ j : Int, 0 ≤ j → j < nnodes →
        readAt m j = if j = readAt ptree recomb_node then -1 else j := by
  obtain ⟨m, h1, h2, h3⟩ := forLoop_setAt_range (fun j => j) nnodes mapping hn
  have hbA : inArr m (readAt ptree recomb_node) := by
    unfold inArr; rw [h2]; omega
  refine ⟨updAt m (readAt ptree recomb_node) (-1), ?_, ?_, ?_⟩
  · unfold make_node_mapping
    rw [h1]
    simp only [Option.some_bind, getAt_eq hr, setAt_eq _ hbA]
  · rw [length_updAt, h2]
  · intro j h0 hj
    have e : (0 ≤ j ∧ j < nnodes) := ⟨h0, hj⟩
    rw [readAt_updAt_of_inArr _ _ _ _ hbA, h3 j]
    simp only [e, and_self, if_true]

/-- The mapping that the loop of `apply_spr_new` writes: the identity on
`[0, nnodes)` except `-1` for the parent of `recomb_node`. -/
theorem spr_fill_mapping_spec (t : LocalTree) (s : Spr) (mapping : List Int)
    (hn : t.nnodes ≤ mapping.length) (hr : inArr t.nodes s.recomb_node) :
    ∃ m, spr_fill_mapping t s mapping = some m ∧ m.length = mapping.length ∧
      ∀ j : Int, 0 ≤ j → j < t.nnodes →
        readAt m j = if j = (t.node s.recomb_node).parent then -1 else j := by
  obtain ⟨m, h1, h2, h3⟩ := forLoop_setAt_range
    (fun j => if j ≠ (t.node s.recomb_node).parent then j else -1) t.nnodes mapping hn
  refine ⟨m, ?_, h2, ?_⟩
  · unfold spr_fill_mapping
    rw [← h1]
    congr 1
    funext i m
    rw [getNode_eq hr]
    simp only [Option.some_bind, LocalTree.node]
    split <;> rfl
  · intro j h0 hj
    rw [h3 j, if_pos ⟨h0, hj⟩]
    by_cases h : j = (t.node s.recomb_node).parent
    · simp [h]
    · simp [h]



/-! ## The function apply_spr_new -/

/-! reads of regraftNodesNew -/
theorem parent_regraftNodesNew (M : List LocalNode) (b other c j : Int)
    (hb : inArr M b) (hc : inArr M c) :
    (nodeAt (regraftNodesNew M b other c) j).parent =
      (nodeAt (regraftNodes M b other c) j).parent := by
  rw [parent_regraftNodes _ _ _ _ _ hb hc]
  unfold regraftNodesNew; simp only []; split <;> simp [hb, hc]

theorem child0_regraftNodesNew (M : List LocalNode) (b other c j : Int)
    (hb : inArr M b) (hcb : (nodeAt M c).parent ≠ b)
    (hcp : (nodeAt M c).parent ≠ -1 → inArr M (nodeAt M c).parent) :
    (nodeAt (regraftNodesNew M b other c) j).child0 =
      (nodeAt (regraftNodes M b other c) j).child0 := by
  rw [child0_regraftNodes _ _ _ _ _ hb hcb hcp]
  unfold regraftNodesNew; simp only []
  by_cases h : (nodeAt M c).parent = -1
  · simp [h, hb]; congr 1; simp only [eq_iff_iff]; tauto
  · simp [h, hb, hcp h, hcb]
    by_cases h1 : j = (nodeAt M c).parent
    · simp [h1, hcb]
    · simp [h1]; congr 1; simp only [eq_iff_iff]; tauto

theorem child1_regraftNodesNew (M : List LocalNode) (b other c j : Int)
    (hb : inArr M b) (hcb : (nodeAt M c).parent ≠ b)
    (hcp : (nodeAt M c).parent ≠ -1 → inArr M (nodeAt M c).parent) :
    (nodeAt (regraftNodesNew M b other c) j).child1 =
      (nodeAt (regraftNodes M b other c) j).child1 := by
  rw [child1_regraftNodes _ _ _ _ _ hb hcb hcp]
  unfold regraftNodesNew; simp only []
  by_cases h : (nodeAt M c).parent = -1
  · simp [h, hb]; congr 1; simp only [eq_iff_iff]; tauto
  · simp [h, hb, hcp h, hcb]
    by_cases h1 : j = (nodeAt M c).parent
    · simp [h1, hcb]
    · simp [h1]; congr 1; simp only [eq_iff_iff]; tauto

theorem age_regraftNodesNew (M : List LocalNode) (b other c j : Int) :
    (nodeAt (regraftNodesNew M b other c) j).age = (nodeAt M j).age := by
  unfold regraftNodesNew; simp only []; split <;> simp

theorem pop_path_regraftNodesNew (M : List LocalNode) (b other c j : Int) :
    (nodeAt (regraftNodesNew M b other c) j).pop_path = (nodeAt M j).pop_path := by
  unfold regraftNodesNew; simp only []; split <;> simp

@[simp] theorem length_regraftNodesNew (M : List LocalNode) (b other c : Int) :
    (regraftNodesNew M b other c).length = M.length := by
  unfold regraftNodesNew; simp only []; split <;> simp

@[simp] theorem inArr_regraftNodesNew (M : List LocalNode) (b other c j : Int) :
    inArr (regraftNodesNew M b other c) j ↔ inArr M j := by
  simp [inArr]

/-- The closed form `sprNodesNew` read node by node: the links and ages of
`sprNodeAt`, with the population paths of the old array. -/
theorem sprNodesNew_node (N : List LocalNode) (r c ct b sb bp cp : Int)
    (L : SprLocal N r c b sb bp cp) (j : Int) (hj : 0 ≤ j) :
    nodeAt (sprNodesNew N r c ct) j =
      { sprNodeAt N r c ct b sb bp cp j with pop_path := (nodeAt N j).pop_path } := by
  have key := sprNodes_node N r c ct b sb bp cp L j hj
  by_cases hcb : c = b
  · have e : sprNodesNew N r c ct = sprNodes N r c ct := by
      unfold sprNodesNew sprNodes
      simp only [L.hrp, hcb, if_true]
    rw [e, key]
    unfold sprNodeAt
    simp only [hcb, if_true]
    split <;> rfl
  · have hMb : inArr (pruneNodes N b sb bp) b := by simp [L.hbA]
    have hMcA : inArr (pruneNodes N b sb bp) c := by simp [L.hcA]
    have hMc : (nodeAt (pruneNodes N b sb bp) c).parent = if c = sb then bp else cp := by
      rw [parent_pruneNodes _ _ _ _ _ L.hsA, L.hcp]
    have hMcb : (nodeAt (pruneNodes N b sb bp) c).parent ≠ b := by
      rw [hMc]
      split
      · exact L.hbpb
      · exact L.hcpb hcb (by assumption)
    have hMcp : (nodeAt (pruneNodes N b sb bp) c).parent ≠ -1 →
        inArr (pruneNodes N b sb bp) (nodeAt (pruneNodes N b sb bp) c).parent := by
      rw [hMc]
      split
      · intro h; simp [L.hbpA h]
      · intro h; simp [L.hcpA h]
    have eN : sprNodesNew N r c ct = setAge (regraftNodesNew (pruneNodes N b sb bp) b
        (if (nodeAt N b).child0 = r then 1 else 0) c) b ct := by
      unfold sprNodesNew
      simp only [L.hrp, L.sb_eq, L.hbp, hcb, if_false]
    have eO : sprNodes N r c ct = setAge (regraftNodes (pruneNodes N b sb bp) b
        (if (nodeAt N b).child0 = r then 1 else 0) c) b ct := by
      unfold sprNodes
      simp only [L.hrp, L.sb_eq, L.hbp, hcb, if_false]
    rw [eO] at key
    rw [eN]
    apply LocalNode.ext_fields
    · rw [← key]
      simp only [parent_setAge, parent_regraftNodesNew _ _ _ _ _ hMb hMcA]
    · rw [← key]
      simp only [child0_setAge, child0_regraftNodesNew _ _ _ _ _ hMb hMcb hMcp]
    · rw [← key]
      simp only [child1_setAge, child1_regraftNodesNew _ _ _ _ _ hMb hMcb hMcp]
    · rw [← key]
      simp only [age_setAge, age_regraftNodesNew, age_regraftNodes, inArr_regraftNodesNew,
        inArr_regraftNodes]
    · simp only [pop_path_setAge, pop_path_regraftNodesNew, pop_path_pruneNodes]

/-- Under the local facts the surgery of `apply_spr_new` on the node array
`N` of the copy runs through and produces the closed form `sprNodesNew`. -/
theorem apply_spr_new_eq (t tc : LocalTree) (s : Spr) (mapping m : List Int) {b sb bp cp : Int}
    (hcopy : t.copy = some tc) (hm : spr_fill_mapping t s mapping = some m)
    (L : SprLocal tc.nodes s.recomb_node s.coal_node b sb bp cp)
    (hroot : s.recomb_node ≠ tc.root) :
    apply_spr_new t s mapping = some ({ tc with
      nodes := sprNodesNew tc.nodes s.recomb_node s.coal_node s.coal_time
      root := spr_new_root tc.root b sb s.coal_node }, m) := by
  have hne : s.recomb_node ≠ s.coal_node := Ne.symm L.hcr
  have hbp := L.hbp
  have hMb : inArr (pruneNodes tc.nodes b sb bp) b := by simp [L.hbA]
  have hMs : inArr (pruneNodes tc.nodes b sb bp) sb := by simp [L.hsA]
  have hMc : inArr (pruneNodes tc.nodes b sb bp) s.coal_node := by simp [L.hcA]
  have hMbp : bp ≠ -1 → inArr (pruneNodes tc.nodes b sb bp) bp := by
    intro h; simp [L.hbpA h]
  unfold apply_spr_new sprNodesNew
  simp only [hcopy, hm, hroot, hne, if_false, getNode_eq L.hrA, Option.some_bind, L.hrp,
    getNode_eq L.hbA, L.sb_eq, hbp, spr_prune_eq b L.hsA L.hbpA]
  by_cases hcb : s.coal_node = b
  · simp only [hcb, if_true, spr_new_recoal_broken_eq _ _ hMb hMs hMbp, Option.some_bind]
    rw [modNode_age _ (by simp [L.hbA])]
    simp
  · have hMcp : (nodeAt (pruneNodes tc.nodes b sb bp) s.coal_node).parent ≠ -1 →
        inArr (pruneNodes tc.nodes b sb bp)
          (nodeAt (pruneNodes tc.nodes b sb bp) s.coal_node).parent := by
      rw [parent_pruneNodes _ _ _ _ _ L.hsA]
      split
      · intro h; simp [L.hbpA h]
      · rw [L.hcp]; intro h; simp [L.hcpA h]
    simp only [hcb, if_false, spr_new_recoal_branch_eq _ hMb hMc hcb hMcp, Option.some_bind]
    rw [modNode_age _ (by simp [L.hbA])]
    simp


/-- The copy of a tree whose nodes fit in its array: same `nnodes`, `root` and
array size, and the same nodes in `[0, nnodes)`. -/
theorem copy_spec (t : LocalTree) (hcap : t.nnodes ≤ t.nodes.length) :
    ∃ tc, t.copy = some tc ∧ tc.nnodes = t.nnodes ∧ tc.root = t.root ∧
      tc.nodes.length = t.nodes.length ∧
      ∀ j : Int, 0 ≤ j → j < t.nnodes → tc.node j = t.node j := by
  refine ⟨LocalTree.mk t.nnodes t.root (t.nodes.take t.nnodes.toNat ++
        List.replicate (t.nodes.length - t.nnodes.toNat) default),
    by unfold LocalTree.copy LocalTree.capacity; rw [if_pos hcap], rfl, rfl, ?_, ?_⟩
  · simp only [List.length_append, List.length_take, List.length_replicate]
    omega
  · intro j h0 h1
    simp only [LocalTree.node, nodeAt, readAt, if_pos h0]
    have h2 : j.toNat < t.nnodes.toNat := by omega
    have h3 : j.toNat < t.nodes.length := by omega
    rw [List.getD_eq_getElem?_getD, List.getD_eq_getElem?_getD,
      List.getElem?_append_left (by simp only [List.length_take]; omega),
      List.getElem?_take_of_lt h2]

/-- The copy of a well-formed tree is well-formed. -/
theorem copy_wellFormed (t tc : LocalTree) (hwf : WellFormed t)
    (hn : tc.nnodes = t.nnodes) (hroot : tc.root = t.root)
    (hlen : tc.nodes.length = t.nodes.length)
    (hnode : ∀ j : Int, 0 ≤ j → j < t.nnodes → tc.node j = t.node j) : WellFormed tc :=
  wellFormed_of_links_eq hwf hn hlen hroot (fun j h0 h1 => by
    rw [hnode j h0 h1]; exact ⟨rfl, rfl, rfl⟩)

set_option maxHeartbeats 1000000 in
/-- The function `apply_spr_new` on a well-formed tree: it returns a tree and
a mapping; the tree has the same `nnodes` and array size, its root is
`spr_new_root`, its nodes have the links and ages described by `sprNode` and
their old population paths; the mapping is the identity except `-1` for the
parent of `recomb_node`. -/
theorem apply_spr_new_spec (t : LocalTree) (s : Spr) (mapping : List Int) (hwf : WellFormed t)
    (hr : t.isNode s.recomb_node) (hc : t.isNode s.coal_node)
    (hroot : s.recomb_node ≠ t.root) (hne : s.recomb_node ≠ s.coal_node)
    (hm : t.nnodes ≤ mapping.length) :
    ∃ t2 m, apply_spr_new t s mapping = some (t2, m) ∧ t2.nnodes = t.nnodes ∧
      t2.nodes.length = t.nodes.length ∧
      t2.root = spr_new_root t.root (t.node s.recomb_node).parent
        (t.sibling s.recomb_node) s.coal_node ∧
      (∀ j : Int, 0 ≤ j → j < t.nnodes →
        t2.node j = { sprNode t s j with pop_path := (t.node j).pop_path }) ∧
      m.length = mapping.length ∧
      ∀ j : Int, 0 ≤ j → j < t.nnodes →
        readAt m j = if j = (t.node s.recomb_node).parent then -1 else j := by
  obtain ⟨tc, hcopy, hn, hrt, hlen, hnode⟩ := copy_spec t hwf.1
  have hwfc := copy_wellFormed t tc hwf hn hrt hlen hnode
  obtain ⟨m, hfill, hmlen, hmval⟩ := spr_fill_mapping_spec t s mapping hm (hwf.inArr hr)
  have hr' : tc.isNode s.recomb_node := by unfold LocalTree.isNode; rw [hn]; exact hr
  have hc' : tc.isNode s.coal_node := by unfold LocalTree.isNode; rw [hn]; exact hc
  have hroot' : s.recomb_node ≠ tc.root := by rw [hrt]; exact hroot
  have L := hwfc.sprLocal hr' hc' hroot' hne
  have hb : t.isNode (t.node s.recomb_node).parent := by
    rcases hwf.parent_cases hr with ⟨-, h⟩ | ⟨-, -, h, -⟩
    · exact absurd h hroot
    · exact h
  have eb : (tc.node s.recomb_node).parent = (t.node s.recomb_node).parent := by
    rw [hnode _ hr.1 hr.2]
  have ebn : tc.node (t.node s.recomb_node).parent = t.node (t.node s.recomb_node).parent :=
    hnode _ hb.1 hb.2
  have es : tc.sibling s.recomb_node = t.sibling s.recomb_node := by
    unfold LocalTree.sibling
    simp only [eb, ebn]
  have ecn : tc.node s.coal_node = t.node s.coal_node := hnode _ hc.1 hc.2
  rw [eb, es, ebn, ecn] at L
  refine ⟨_, m, apply_spr_new_eq t tc s mapping m hcopy hfill L hroot', hn, ?_, ?_, ?_,
    hmlen, hmval⟩
  · show (sprNodesNew tc.nodes s.recomb_node s.coal_node s.coal_time).length = t.nodes.length
    rw [← hlen]
    unfold sprNodesNew
    simp only []
    split <;> simp
  · show spr_new_root tc.root _ _ _ = _
    rw [hrt]
  · intro j h0 h1
    show nodeAt (sprNodesNew tc.nodes s.recomb_node s.coal_node s.coal_time) j = _
    rw [sprNodesNew_node tc.nodes _ _ _ _ _ _ _ L j h0]
    have ej : nodeAt tc.nodes j = nodeAt t.nodes j := hnode j h0 h1
    have ec : nodeAt tc.nodes s.coal_node = nodeAt t.nodes s.coal_node := ecn
    unfold sprNode sprNodeAt
    simp only [ej, ec, LocalTree.node]


/-- A mapping that is the identity except `-1` at `b` is an SPR mapping. -/
theorem isSprMapping_of_values (n b : Int) (m : List Int)
    (h : ∀ j : Int, 0 ≤ j → j < n → readAt m j = if j = b then -1 else j) :
    IsSprMapping n b m := by
  refine ⟨h, ?_, ?_⟩
  · intro i i0 i1 j j0 j1 hi e
    rw [h i i0 i1] at hi e
    rw [h j j0 j1] at e
    by_cases hib : i = b
    · rw [if_pos hib] at hi; exact absurd rfl hi
    · rw [if_neg hib] at e
      by_cases hjb : j = b
      · rw [if_pos hjb] at e; omega
      · rw [if_neg hjb] at e; exact e
  · intro j j0 j1
    rw [h j j0 j1]
    by_cases hjb : j = b
    · simp [hjb]
    · rw [if_neg hjb]
      constructor
      · intro h; omega
      · intro h; exact absurd h hjb

/-- Reading the parent array of a tree. -/
theorem readAt_ptree (t : LocalTree) (hcap : t.nnodes ≤ t.nodes.length) (j : Int)
    (h0 : 0 ≤ j) (h1 : j < t.nnodes) :
    inArr t.ptree j ∧ readAt t.ptree j = (t.node j).parent := by
  have h2 : j.toNat < t.nnodes.toNat := by omega
  have h3 : j.toNat < t.nodes.length := by omega
  have hlen : t.ptree.length = t.nnodes.toNat := by
    unfold LocalTree.ptree
    simp only [List.length_map, List.length_take]
    omega
  refine ⟨by unfold inArr; omega, ?_⟩
  unfold LocalTree.ptree LocalTree.node nodeAt readAt
  simp only [if_pos h0, List.getD_eq_getElem?_getD, List.getElem?_map,
    List.getElem?_take_of_lt h2, List.getElem?_eq_getElem h3, Option.map_some',
    Option.getD_some]



/-! ## The function assert_spr -/

theorem assertion_true : assertion true = some () := rfl

theorem assertion_of {b : Bool} (h : b = true) : assertion b = some () := by
  subst h; rfl

/-- A loop of checks passes when every pass does. -/
theorem forLoop_unit (body : Int → Option Unit) (l : List Nat)
    (h : ∀ i ∈ l, body ((i : Nat) : Int) = some ()) :
    forLoop (fun i _ => body i) l () = some () := by
  induction l with
  | nil => rfl
  | cons a l ih =>
    simp only [forLoop, h a (List.mem_cons_self _ _), Option.some_bind]
    exact ih (fun i hi => h i (List.mem_cons_of_mem _ hi))

/-- The checks of `assert_spr` on the times pass for an SPR that meets the SPR
constraints on a well-formed tree. -/
theorem assert_spr_times_ok (t : LocalTree) (s : Spr) (hwf : WellFormed t)
    (hcons : SprConstraints t s) : assert_spr_times t s = some () := by
  obtain ⟨hr, hc, hroot, hne, a1, a2, a3, a4, a5⟩ := hcons
  have hrA := hwf.inArr hr
  have hcA := hwf.inArr hc
  rcases hwf.parent_cases hr with ⟨-, h⟩ | ⟨hp, -, hb, -⟩
  · exact absurd h hroot
  have hbA := hwf.inArr hb
  simp only [LocalTree.node] at a1 a2 a3 a4 a5 hp hbA
  unfold assert_spr_times
  have e1 : assertion (s.recomb_node != -1) = some () :=
    assertion_of (by have := hr.1; simp; omega)
  have e2 : assertion (!decide (s.recomb_time > s.coal_time)) = some () :=
    assertion_of (by simp; omega)
  have e3 : assertion ((nodeAt t.nodes s.recomb_node).parent != -1) = some () :=
    assertion_of (by simp; exact hp)
  have e4 : ((nodeAt t.nodes s.recomb_node).parent != -1) = true := by simp; exact hp
  have e5 : decide (s.recomb_time > (nodeAt t.nodes (nodeAt t.nodes s.recomb_node).parent).age)
      = false := by simp; omega
  have e6 : decide (s.recomb_time < (nodeAt t.nodes s.recomb_node).age) = false := by
    simp; omega
  have e7 : assertion (!decide (s.coal_time < (nodeAt t.nodes s.coal_node).age)) = some () :=
    assertion_of (by simp; omega)
  simp only [e1, e2, Option.some_bind, getNode_eq hrA, e3, e4, getNode_eq hbA, Option.map_some',
    e5, e6, andThen, orElse, assertOpt, Bool.not_false, assertion_true, getNode_eq hcA, e7]
  by_cases hcp : (nodeAt t.nodes s.coal_node).parent = -1
  · simp only [hcp, ne_eq, not_true_eq_false, if_false]
  · have hcpN : t.isNode (t.node s.coal_node).parent := by
      rcases hwf.parent_cases hc with ⟨h, -⟩ | ⟨-, -, h, -⟩
      · exact absurd h hcp
      · exact h
    have := a5 hcp
    have hcpA : inArr t.nodes (nodeAt t.nodes s.coal_node).parent := hwf.inArr hcpN
    simp only [hcp, ne_eq, not_false_eq_true, if_true, getNode_eq hcpA, Option.some_bind]
    apply assertion_of
    simp
    omega

/-- The block "ensure spr matches the trees" passes when the new tree has the
recoal node `b` above `recomb_node` with the expected other child. -/
theorem assert_spr_match_ok (t t2 : LocalTree) (s : Spr) (m : List Int) (b sb : Int)
    (hmr : inArr m s.recomb_node) (vr : readAt m s.recomb_node = s.recomb_node)
    (h2r : inArr t2.nodes s.recomb_node) (p2r : (nodeAt t2.nodes s.recomb_node).parent = b)
    (hb0 : 0 ≤ b) (h2b : inArr t2.nodes b)
    (hmc : inArr m s.coal_node) (vc : readAt m s.coal_node = if s.coal_node = b then -1
      else s.coal_node) (hc0 : 0 ≤ s.coal_node)
    (F2 : s.coal_node ≠ b → (if (nodeAt t2.nodes b).child0 = s.recomb_node
      then (nodeAt t2.nodes b).child1 else (nodeAt t2.nodes b).child0) = s.coal_node)
    (hr : inArr t.nodes s.recomb_node) (pr : (nodeAt t.nodes s.recomb_node).parent = b)
    (hbA : inArr t.nodes b)
    (hsb : (if (nodeAt t.nodes b).child0 = s.recomb_node then (nodeAt t.nodes b).child1
      else (nodeAt t.nodes b).child0) = sb)
    (hms : inArr m sb) (vs : readAt m sb = sb) (hs0 : 0 ≤ sb) (h2s : inArr t2.nodes sb)
    (F3 : s.coal_node = b → (nodeAt t2.nodes sb).parent = b) :
    assert_spr_match t t2 s m = some () := by
  unfold assert_spr_match
  have e1 : assertion (b != -1) = some () := by
    apply assertion_of; simp; omega
  simp only [getAt_eq hmr, vr, Option.some_bind, getNode_eq h2r, p2r, e1, getNode_eq h2b,
    getAt_eq hmc, vc]
  by_cases hcb : s.coal_node = b
  · have e2 : assertion (sb != -1) = some () := by
      apply assertion_of; simp; omega
    have e3 : assertion ((nodeAt t2.nodes sb).parent == b) = some () := by
      apply assertion_of; simp; exact F3 hcb
    simp only [hcb, if_true, ne_eq, not_true_eq_false, if_false, getNode_eq hr, pr,
      Option.some_bind, getNode_eq hbA, hsb, getAt_eq hms, vs, e2, getNode_eq h2s, e3]
  · have hc1 : s.coal_node ≠ -1 := by omega
    have e2 := F2 hcb
    simp only [hcb, if_false, ne_eq, hc1, not_false_eq_true, if_true]
    apply assertion_of
    simp
    exact e2

/-- One pass of the loop "ensure mapped nodes don't change in age" passes at a
node that keeps its age and stays a leaf if it is one. -/
theorem assert_spr_age_node_ok (t t2 : LocalTree) (m : List Int) (b i : Int)
    (hmi : inArr m i) (vi : readAt m i = if i = b then -1 else i)
    (hi : inArr t.nodes i) (h2i : inArr t2.nodes i)
    (F4 : i ≠ b → (nodeAt t2.nodes i).age = (nodeAt t.nodes i).age)
    (F5 : (nodeAt t.nodes i).child0 = -1 → i ≠ b ∧ (nodeAt t2.nodes i).child0 = -1) :
    assert_spr_age_node t t2 m i = some () := by
  unfold assert_spr_age_node
  have hi1 : i ≠ -1 := by have := hi.1; omega
  simp only [getAt_eq hmi, vi, Option.some_bind, getNode_eq hi]
  by_cases hib : i = b
  · have hl : (nodeAt t.nodes i).is_leaf = false := by
      unfold LocalNode.is_leaf
      simp only [beq_eq_false_iff_ne, ne_eq]
      intro h
      exact (F5 h).1 hib
    subst hib
    simp [hl]
  · have e1 : assertion ((nodeAt t.nodes i).age == (nodeAt t2.nodes i).age) = some () := by
      apply assertion_of; simp; exact (F4 hib).symm
    simp only [hib, if_false, ne_eq, hi1, not_false_eq_true, if_true, getNode_eq h2i,
      Option.some_bind, e1]
    by_cases hl : (nodeAt t.nodes i).is_leaf = true
    · have : (nodeAt t2.nodes i).is_leaf = true := by
        unfold LocalNode.is_leaf at hl ⊢
        simp only [beq_iff_eq] at hl ⊢
        exact (F5 hl).2
      simp [hl, this, assertion_true]
    · simp [hl]

set_option maxHeartbeats 1000000 in
/-- Core of claim C6: the tree and the mapping made by `apply_spr_new` pass
`assert_spr`. -/
theorem apply_spr_new_assert_spr (t : LocalTree) (s : Spr) (mapping : List Int)
    (pruned_internal : Bool) (hwf : WellFormed t) (hcons : SprConstraints t s)
    (hm : t.nnodes ≤ mapping.length) :
    ∃ t2 m, apply_spr_new t s mapping = some (t2, m) ∧
      assert_spr t t2 s m pruned_internal = some true := by
  have hcons' := hcons
  obtain ⟨hr, hc, hroot, hne, -⟩ := hcons'
  obtain ⟨t2, m, happ, hn2, hlen2, -, hnode2, hmlen, hmval⟩ :=
    apply_spr_new_spec t s mapping hwf hr hc hroot hne hm
  obtain ⟨t', -, -, -, -, hnode'⟩ := apply_spr_spec t s hwf hr hc hroot hne
  have L := hwf.sprLocal hr hc hroot hne
  have core := sprReuses_core t.nodes t'.nodes _ _ s.coal_time _ _ _ _ t.nnodes L hnode'
  obtain ⟨-, c2, c3, c4, -, -, -⟩ := core
  refine ⟨t2, m, happ, ?_⟩
  have hb : t.isNode (t.node s.recomb_node).parent := by
    rcases hwf.parent_cases hr with ⟨-, h⟩ | ⟨-, -, h, -⟩
    · exact absurd h hroot
    · exact h
  have hsN : t.isNode (t.sibling s.recomb_node) := by
    have hC := hwf.children hb
    have h1 := L.h1
    have hsb := L.hsb
    unfold ChildrenOk at hC
    simp only [LocalTree.node] at hC h1 hsb ⊢
    rcases hC with ⟨hC0, hC1⟩ | ⟨hC0, hC1, -⟩
    · exfalso
      have := hr.1
      by_cases h : (nodeAt t.nodes (nodeAt t.nodes s.recomb_node).parent).child0 = s.recomb_node
      · omega
      · have := h1 h; omega
    · rw [hsb]
      split
      · exact hC1
      · exact hC0
  -- links of the new tree, through the tree made by `apply_spr`
  have hlink : ∀ j : Int, 0 ≤ j → j < t.nnodes →
      (nodeAt t2.nodes j).parent = (nodeAt t'.nodes j).parent ∧
      (nodeAt t2.nodes j).child0 = (nodeAt t'.nodes j).child0 ∧
      (nodeAt t2.nodes j).child1 = (nodeAt t'.nodes j).child1 ∧
      (nodeAt t2.nodes j).age = (nodeAt t'.nodes j).age := by
    intro j h0 h1
    have e1 := hnode2 j h0 h1
    have e2 := hnode' j h0
    simp only [LocalTree.node] at e1 e2
    rw [e1, e2]
    exact ⟨rfl, rfl, rfl, rfl⟩
  have hin2 : ∀ j : Int, 0 ≤ j → j < t.nnodes → inArr t2.nodes j := by
    intro j h0 h1
    have := hwf.1
    unfold inArr; omega
  have hinm : ∀ j : Int, 0 ≤ j → j < t.nnodes → inArr m j := by
    intro j h0 h1
    unfold inArr; omega
  have hbr := L.hbr
  have hbs := L.hbs
  have hmatch : assert_spr_match t t2 s m = some () := by
    apply assert_spr_match_ok t t2 s m (t.node s.recomb_node).parent (t.sibling s.recomb_node)
      (hinm _ hr.1 hr.2)
    · rw [hmval _ hr.1 hr.2, if_neg (Ne.symm hbr)]
    · exact hin2 _ hr.1 hr.2
    · rw [(hlink _ hr.1 hr.2).1]; exact c3
    · exact hb.1
    · exact hin2 _ hb.1 hb.2
    · exact hinm _ hc.1 hc.2
    · exact hmval _ hc.1 hc.2
    · exact hc.1
    · intro hcb
      rw [(hlink _ hb.1 hb.2).2.1, (hlink _ hb.1 hb.2).2.2.1]
      simp only [hcb, if_false] at c2
      rcases c2 with ⟨x1, x2⟩ | ⟨x1, x2⟩
      · rw [if_pos x1, x2]
      · rw [x1, if_neg L.hcr]
    · exact hwf.inArr hr
    · rfl
    · exact hwf.inArr hb
    · exact L.hsb.symm
    · exact hinm _ hsN.1 hsN.2
    · rw [hmval _ hsN.1 hsN.2, if_neg (Ne.symm hbs)]
    · exact hsN.1
    · exact hin2 _ hsN.1 hsN.2
    · intro hcb
      rw [(hlink _ hsN.1 hsN.2).1]
      simp only [hcb, if_true] at c4
      exact c4
  have hloop : forLoop (fun i _ => assert_spr_age_node t t2 m i)
      (List.range t.nnodes.toNat) () = some () := by
    apply forLoop_unit
    intro i hi
    rw [List.mem_range] at hi
    have h0 : (0 : Int) ≤ (i : Int) := Int.natCast_nonneg _
    have h1 : (i : Int) < t.nnodes := by omega
    apply assert_spr_age_node_ok t t2 m (t.node s.recomb_node).parent _ (hinm _ h0 h1)
      (hmval _ h0 h1) (hwf.inArr ⟨h0, h1⟩) (hin2 _ h0 h1)
    · intro hib
      have hib' : (i : Int) ≠ (nodeAt t.nodes s.recomb_node).parent := hib
      have e1 := hnode2 _ h0 h1
      simp only [LocalTree.node] at e1
      rw [e1]
      by_cases hsame : s.coal_node = (t.node s.recomb_node).parent ∨
          s.coal_node = t.sibling s.recomb_node
      · have := (sprNode_links_same t s i hsame).2.2.2
        simp only [this, LocalTree.node, if_neg hib']
      · have := (sprNode_links t s i (fun e => hsame (Or.inl e))
          (fun e => hsame (Or.inr e))).2.2.2
        simp only [this, LocalTree.node, if_neg hib']
    · intro hleaf
      have hib : (i : Int) ≠ (t.node s.recomb_node).parent := by
        intro hib
        rw [hib] at hleaf
        have hsb := L.hsb
        have := hr.1
        have := hsN.1
        simp only [LocalTree.node] at hleaf hsb
        by_cases h : (nodeAt t.nodes (nodeAt t.nodes s.recomb_node).parent).child0 = s.recomb_node
        · omega
        · rw [if_neg h] at hsb; omega
      have hib' : (i : Int) ≠ (nodeAt t.nodes s.recomb_node).parent := hib
      refine ⟨hib, ?_⟩
      have e1 := hnode2 _ h0 h1
      simp only [LocalTree.node] at e1
      rw [e1]
      by_cases hsame : s.coal_node = (t.node s.recomb_node).parent ∨
          s.coal_node = t.sibling s.recomb_node
      · have := (sprNode_links_same t s i hsame).2.1
        simp only [this, LocalTree.node]
        exact hleaf
      · have := (sprNode_links t s i (fun e => hsame (Or.inl e))
          (fun e => hsame (Or.inr e))).2.1
        simp only [this, sprChild0, LocalTree.node, if_neg hib', hleaf]
        have hc0 := hc.1
        have hb0 := hb.1
        have x1 : ¬ ((i : Int) = (nodeAt t.nodes s.coal_node).parent ∧ (-1 : Int) = s.coal_node) := by
          omega
        have x2 : ¬ ((i : Int) = (nodeAt t.nodes (nodeAt t.nodes s.recomb_node).parent).parent ∧
            (-1 : Int) = (nodeAt t.nodes s.recomb_node).parent) := by
          simp only [LocalTree.node] at hb0; omega
        simp only [if_neg x1, if_neg x2]
  unfold assert_spr
  have hnull : s.is_null = false := by
    unfold Spr.is_null
    have := hr.1
    simp; omega
  have e1 : assertion (s.recomb_node != -1) = some () := by
    apply assertion_of
    have := hr.1
    simp; omega
  have e2 : assertion (s.recomb_node != s.coal_node) = some () := by
    apply assertion_of
    simp; exact hne
  simp only [hnull, Bool.false_eq_true, if_false, assert_spr_times_ok t s hwf hcons,
    Option.some_bind, getAt_eq (hinm _ hr.1 hr.2), hmval _ hr.1 hr.2, if_neg (Ne.symm hbr), e1,
    if_neg hne, hmatch, hloop, e2, Option.map_some']


/-! ## The function get_recoal_node -/

/-- The marking loop of `get_recoal_node` over a list of indices: it runs
through when the entries read are -1 or inside the array of marks, and then a
slot is marked exactly when it was marked before or is the image of an index
of the list. -/
theorem mark_loop_spec (m : List Int) (l : List Nat) :
    ∀ mp0 : List Bool, (∀ i ∈ l, (i : Int) < m.length) →
      (∀ i ∈ l, readAt m (i : Int) = -1 ∨ inArr mp0 (readAt m (i : Int))) →
      ∃ mp, forLoop (fun i mp => (getAt m i).bind fun mi =>
          if mi ≠ -1 then setAt mp mi true else some mp) l mp0 = some mp ∧
        mp.length = mp0.length ∧
        ∀ j : Int, readAt mp j = true ↔
          (readAt mp0 j = true ∨ ∃ i ∈ l, readAt m (i : Int) = j ∧ j ≠ -1) := by
  induction l with
  | nil =>
    intro mp0 _ _
    exact ⟨mp0, rfl, rfl, fun j => by simp⟩
  | cons a l ih =>
    intro mp0 h1 h2
    have haA : inArr m (a : Int) := by
      have := h1 a (List.mem_cons_self _ _)
      unfold inArr; omega
    by_cases hv : readAt m (a : Int) = -1
    · obtain ⟨mp, e1, e2, e3⟩ := ih mp0 (fun i hi => h1 i (List.mem_cons_of_mem _ hi))
        (fun i hi => h2 i (List.mem_cons_of_mem _ hi))
      refine ⟨mp, ?_, e2, ?_⟩
      · simp only [forLoop, getAt_eq haA, hv, Option.some_bind, ne_eq, not_true_eq_false, if_false]
        exact e1
      · intro j
        rw [e3 j]
        constructor
        · rintro (h | ⟨i, hi, e, hj⟩)
          · exact Or.inl h
          · exact Or.inr ⟨i, List.mem_cons_of_mem _ hi, e, hj⟩
        · rintro (h | ⟨i, hi, e, hj⟩)
          · exact Or.inl h
          · rcases List.mem_cons.mp hi with hi | hi
            · subst hi; rw [hv] at e; exact absurd e.symm hj
            · exact Or.inr ⟨i, hi, e, hj⟩
    · have hin : inArr mp0 (readAt m (a : Int)) := by
        rcases h2 a (List.mem_cons_self _ _) with h | h
        · exact absurd h hv
        · exact h
      obtain ⟨mp, e1, e2, e3⟩ := ih (updAt mp0 (readAt m (a : Int)) true)
        (fun i hi => h1 i (List.mem_cons_of_mem _ hi))
        (fun i hi => by
          rcases h2 i (List.mem_cons_of_mem _ hi) with h | h
          · exact Or.inl h
          · right; rw [inArr_updAt]; exact h)
      refine ⟨mp, ?_, ?_, ?_⟩
      · simp only [forLoop, getAt_eq haA, Option.some_bind, ne_eq, hv, not_false_eq_true, if_true,
          setAt_eq _ hin]
        exact e1
      · rw [e2, length_updAt]
      · intro j
        rw [e3 j, readAt_updAt_of_inArr _ _ _ _ hin]
        constructor
        · rintro (h | ⟨i, hi, e, hj⟩)
          · by_cases hja : j = readAt m (a : Int)
            · exact Or.inr ⟨a, List.mem_cons_self _ _, hja.symm, by rw [hja]; exact hv⟩
            · rw [if_neg hja] at h; exact Or.inl h
          · exact Or.inr ⟨i, List.mem_cons_of_mem _ hi, e, hj⟩
        · rintro (h | ⟨i, hi, e, hj⟩)
          · by_cases hja : j = readAt m (a : Int)
            · left; rw [if_pos hja]
            · left; rw [if_neg hja]; exact h
          · rcases List.mem_cons.mp hi with hi | hi
            · subst hi; left; rw [if_pos e.symm]
            · exact Or.inr ⟨i, hi, e, hj⟩

theorem readAt_replicate_false (k : Nat) (j : Int) :
    readAt (List.replicate k false) j = false := by
  unfold readAt
  split
  · rw [List.getD_eq_getElem?_getD]
    by_cases h : j.toNat < k
    · simp [List.getElem?_replicate, h]
    · simp [List.getElem?_replicate, h]
  · rfl

/-- The marks computed by `get_recoal_node`: slot `j` is marked exactly when
some `i` in `[0, n)` has `mapping[i] = j`. -/
theorem mark_mapped_spec (n : Int) (m : List Int) (hlen : n ≤ m.length)
    (hrange : MappingInRange n m) :
    ∃ mp, mark_mapped n m = some mp ∧
      ∀ j : Int, 0 ≤ j → (readAt mp j = true ↔ ∃ i : Int, 0 ≤ i ∧ i < n ∧ readAt m i = j) := by
  obtain ⟨mp, e1, e2, e3⟩ := mark_loop_spec m (List.range n.toNat)
    (List.replicate n.toNat false)
    (by intro i hi; rw [List.mem_range] at hi; omega)
    (by
      intro i hi
      rw [List.mem_range] at hi
      rcases hrange i (Int.natCast_nonneg _) (by omega) with h | h
      · exact Or.inl h
      · right; unfold inArr; rw [List.length_replicate]; omega)
  refine ⟨mp, e1, ?_⟩
  intro j hj
  rw [e3 j, readAt_replicate_false]
  constructor
  · rintro (h | ⟨i, hi, e, -⟩)
    · exact absurd h (by simp)
    · rw [List.mem_range] at hi
      exact ⟨i, Int.natCast_nonneg _, by omega, e⟩
  · rintro ⟨i, h0, h1, e⟩
    right
    exact ⟨i.toNat, by rw [List.mem_range]; omega, by rw [Int.toNat_of_nonneg h0]; exact e,
      by omega⟩


/-- Counting: a mapping on `[0, n)` into `[0, n)` that is injective on its
entries other than -1 and has exactly one entry -1 misses exactly one node. -/
theorem unique_unmapped (n : Int) (m : List Int) (hrange : MappingInRange n m)
    (hinj : MappingInjective n m) (b : Int) (hb : 0 ≤ b ∧ b < n) (hb1 : readAt m b = -1)
    (hbu : ∀ i : Int, 0 ≤ i → i < n → readAt m i = -1 → i = b) :
    ∃ a : Int, IsUniqueUnmapped n m a := by
  classical
  let f : ℕ → ℕ := fun i => (readAt m (i : Int)).toNat
  let D : Finset ℕ := (Finset.range n.toNat).erase b.toNat
  have hDmem : ∀ i : ℕ, i ∈ D ↔ (i < n.toNat ∧ i ≠ b.toNat) := by
    intro i
    simp only [D, Finset.mem_erase, Finset.mem_range]
    tauto
  have hval : ∀ i : ℕ, i ∈ D → 0 ≤ readAt m (i : Int) ∧ readAt m (i : Int) < n := by
    intro i hi
    rw [hDmem] at hi
    rcases hrange i (Int.natCast_nonneg _) (by omega) with h | h
    · have := hbu i (Int.natCast_nonneg _) (by omega) h
      omega
    · exact h
  have hinjOn : Set.InjOn f (D : Set ℕ) := by
    intro i hi i' hi'
    intro e
    have hi2 := (hDmem i).mp hi
    have hi2' := (hDmem i').mp hi'
    have v1 := hval i hi
    have v2 := hval i' hi'
    simp only [f] at e
    have e' : readAt m (i : Int) = readAt m (i' : Int) := by omega
    have := hinj i (Int.natCast_nonneg _) (by omega) i' (Int.natCast_nonneg _) (by omega)
      (by omega) e'
    omega
  have hcardD : D.card = n.toNat - 1 := by
    simp only [D]
    rw [Finset.card_erase_of_mem (by rw [Finset.mem_range]; omega), Finset.card_range]
  have hsub : D.image f ⊆ Finset.range n.toNat := by
    intro x hx
    rw [Finset.mem_image] at hx
    obtain ⟨i, hi, e⟩ := hx
    have := hval i hi
    rw [Finset.mem_range]
    simp only [f] at e
    omega
  have hcardI : (D.image f).card = n.toNat - 1 := by
    rw [Finset.card_image_of_injOn hinjOn, hcardD]
  have hcardU : (Finset.range n.toNat \ D.image f).card = 1 := by
    rw [Finset.card_sdiff hsub, hcardI, Finset.card_range]
    omega
  obtain ⟨a, ha⟩ := Finset.card_eq_one.mp hcardU
  have hamem : a ∈ Finset.range n.toNat \ D.image f := by rw [ha]; exact Finset.mem_singleton_self a
  rw [Finset.mem_sdiff, Finset.mem_range] at hamem
  refine ⟨(a : Int), ⟨Int.natCast_nonneg _, by omega⟩, ?_, ?_⟩
  · intro i h0 h1 e
    apply hamem.2
    rw [Finset.mem_image]
    refine ⟨i.toNat, ?_, ?_⟩
    · rw [hDmem]
      refine ⟨by omega, ?_⟩
      intro hib
      have : i = b := by omega
      rw [this, hb1] at e
      omega
    · simp only [f]
      rw [Int.toNat_of_nonneg h0, e]
      simp
  · intro k k0 k1 hk
    have : k.toNat ∈ Finset.range n.toNat \ D.image f := by
      rw [Finset.mem_sdiff, Finset.mem_range]
      refine ⟨by omega, ?_⟩
      intro hmem
      rw [Finset.mem_image] at hmem
      obtain ⟨i, hi, e⟩ := hmem
      have v := hval i hi
      have hi2 := (hDmem i).mp hi
      simp only [f] at e
      exact hk i (Int.natCast_nonneg _) (by omega) (by omega)
    rw [ha, Finset.mem_singleton] at this
    omega

/-- Counting: a mapping on `[0, n)` into `[0, n)` that is injective and has no
entry -1 reaches every node. -/
theorem all_mapped (n : Int) (m : List Int) (hrange : MappingInRange n m)
    (hinj : MappingInjective n m) (hno : ∀ i : Int, 0 ≤ i → i < n → readAt m i ≠ -1)
    (j : Int) (hj0 : 0 ≤ j) (hj1 : j < n) :
    ∃ i : Int, 0 ≤ i ∧ i < n ∧ readAt m i = j := by
  classical
  let f : ℕ → ℕ := fun i => (readAt m (i : Int)).toNat
  have hval : ∀ i : ℕ, i ∈ Finset.range n.toNat →
      0 ≤ readAt m (i : Int) ∧ readAt m (i : Int) < n := by
    intro i hi
    rw [Finset.mem_range] at hi
    rcases hrange i (Int.natCast_nonneg _) (by omega) with h | h
    · exact absurd h (hno i (Int.natCast_nonneg _) (by omega))
    · exact h
  have hinjOn : Set.InjOn f (Finset.range n.toNat : Set ℕ) := by
    intro i hi i' hi'
    intro e
    have v1 := hval i hi
    have v2 := hval i' hi'
    rw [Finset.mem_coe, Finset.mem_range] at hi hi'
    simp only [f] at e
    have e' : readAt m (i : Int) = readAt m (i' : Int) := by omega
    have := hinj i (Int.natCast_nonneg _) (by omega) i' (Int.natCast_nonneg _) (by omega)
      (by omega) e'
    omega
  have hsub : (Finset.range n.toNat).image f ⊆ Finset.range n.toNat := by
    intro x hx
    rw [Finset.mem_image] at hx
    obtain ⟨i, hi, e⟩ := hx
    have := hval i hi
    rw [Finset.mem_range]
    simp only [f] at e
    omega
  have heq : (Finset.range n.toNat).image f = Finset.range n.toNat :=
    Finset.eq_of_subset_of_card_le hsub (by rw [Finset.card_image_of_injOn hinjOn])
  have : j.toNat ∈ (Finset.range n.toNat).image f := by
    rw [heq, Finset.mem_range]; omega
  rw [Finset.mem_image] at this
  obtain ⟨i, hi, e⟩ := this
  have v := hval i hi
  rw [Finset.mem_range] at hi
  simp only [f] at e
  exact ⟨i, Int.natCast_nonneg _, by omega, by omega⟩

/-- What `get_recoal_node` returns: the first node without preimage, or
`spr.coal_node` when every node has one. -/
theorem get_recoal_node_spec (t : LocalTree) (s : Spr) (m : List Int)
    (hlen : t.nnodes ≤ m.length) (hrange : MappingInRange t.nnodes m) :
    ∃ j, get_recoal_node t s m = some j ∧
      ((∃ k : Int, 0 ≤ k ∧ k < t.nnodes ∧ NoPreimage t.nnodes m k) →
        (0 ≤ j ∧ j < t.nnodes) ∧ NoPreimage t.nnodes m j) ∧
      ((∀ k : Int, 0 ≤ k → k < t.nnodes → ∃ i : Int, 0 ≤ i ∧ i < t.nnodes ∧ readAt m i = k) →
        j = s.coal_node) := by
  obtain ⟨mp, e1, e2⟩ := mark_mapped_spec t.nnodes m hlen hrange
  unfold get_recoal_node
  rw [e1]
  simp only [Option.map_some']
  cases hf : (List.range t.nnodes.toNat).find? (fun (i : Nat) => !(readAt mp (i : Int))) with
  | none =>
    refine ⟨s.coal_node, rfl, ?_, fun _ => rfl⟩
    rintro ⟨k, k0, k1, hk⟩
    exfalso
    rw [List.find?_eq_none] at hf
    have := hf k.toNat (by rw [List.mem_range]; omega)
    rw [Int.toNat_of_nonneg k0] at this
    simp only [Bool.not_eq_true', Bool.not_eq_false] at this
    obtain ⟨i, i0, i1, e⟩ := (e2 k k0).mp (by simpa using this)
    exact hk i i0 i1 e
  | some i0 =>
    have hp := List.find?_some hf
    have hmem := List.mem_of_find?_eq_some hf
    rw [List.mem_range] at hmem
    have hnot : readAt mp (i0 : Int) ≠ true := by simpa using hp
    refine ⟨(i0 : Int), rfl, ?_, ?_⟩
    · intro _
      refine ⟨⟨Int.natCast_nonneg _, by omega⟩, ?_⟩
      intro i h0 h1 e
      exact hnot ((e2 _ (Int.natCast_nonneg _)).mpr ⟨i, h0, h1, e⟩)
    · intro hall
      exfalso
      obtain ⟨i, h0, h1, e⟩ := hall i0 (Int.natCast_nonneg _) (by omega)
      exact hnot ((e2 _ (Int.natCast_nonneg _)).mpr ⟨i, h0, h1, e⟩)


/-- In the tree described by `sprNode` the parent of `recomb_node` is still
`b = parent(recomb_node)`. -/
theorem sprNode_parent_recomb (t : LocalTree) (s : Spr) (hwf : WellFormed t)
    (hr : t.isNode s.recomb_node) (hc : t.isNode s.coal_node)
    (hroot : s.recomb_node ≠ t.root) (hne : s.recomb_node ≠ s.coal_node) :
    (sprNode t s s.recomb_node).parent = (t.node s.recomb_node).parent := by
  have L := hwf.sprLocal hr hc hroot hne
  by_cases hsame : s.coal_node = (t.node s.recomb_node).parent ∨
      s.coal_node = t.sibling s.recomb_node
  · exact (sprNode_links_same t s _ hsame).1
  · rw [(sprNode_links t s _ (fun e => hsame (Or.inl e)) (fun e => hsame (Or.inr e))).1]
    unfold sprParent
    rw [if_neg (Ne.symm L.hbr), if_neg L.hrs, if_neg hne]

/-- The recoal node found for the tree and mapping made by `apply_spr_new` is
the parent of `recomb_node` in the new tree. -/
theorem get_recoal_node_apply_spr_new (t : LocalTree) (s : Spr) (mapping : List Int)
    (hwf : WellFormed t) (hr : t.isNode s.recomb_node) (hc : t.isNode s.coal_node)
    (hroot : s.recomb_node ≠ t.root) (hne : s.recomb_node ≠ s.coal_node)
    (hm : t.nnodes ≤ mapping.length) :
    ∃ t2 m, apply_spr_new t s mapping = some (t2, m) ∧
      get_recoal_node t2 s m = some (t2.node s.recomb_node).parent := by
  obtain ⟨t2, m, happ, hn2, hlen2, -, hnode2, hmlen, hmval⟩ :=
    apply_spr_new_spec t s mapping hwf hr hc hroot hne hm
  refine ⟨t2, m, happ, ?_⟩
  have hb : t.isNode (t.node s.recomb_node).parent := by
    rcases hwf.parent_cases hr with ⟨-, h⟩ | ⟨-, -, h, -⟩
    · exact absurd h hroot
    · exact h
  have hrange : MappingInRange t2.nnodes m := by
    intro i h0 h1
    rw [hn2] at h1 ⊢
    rw [hmval i h0 h1]
    split
    · exact Or.inl rfl
    · exact Or.inr ⟨h0, h1⟩
  obtain ⟨j, hj, hj1, -⟩ := get_recoal_node_spec t2 s m (by rw [hn2, hmlen]; exact hm) hrange
  have hbun : NoPreimage t2.nnodes m (t.node s.recomb_node).parent := by
    intro i h0 h1
    rw [hn2] at h1
    rw [hmval i h0 h1]
    have := hb.1
    split
    · omega
    · assumption
  obtain ⟨⟨j0, j1⟩, hju⟩ := hj1 ⟨_, hb.1, by rw [hn2]; exact hb.2, hbun⟩
  have hjb : j = (t.node s.recomb_node).parent := by
    by_contra hne'
    rw [hn2] at j1
    have := hju j j0 (by rw [hn2]; exact j1)
    rw [hmval j j0 j1, if_neg hne'] at this
    exact this rfl
  rw [hj, hjb, hnode2 _ hr.1 hr.2]
  show some _ = some (sprNode t s s.recomb_node).parent
  rw [sprNode_parent_recomb t s hwf hr hc hroot hne]


/-! ## Trees on a set of live slots -/

/-- A tree renamed by a map `σ` that has an inverse `τ` on the nodes is a
tree on the renamed nodes. -/
theorem treeOn_of_iso {S S2 : Int → Prop} {root : Int} {F F2 : NodeFn} (σ τ : Int → Int)
    (h : TreeOn S root F) (hτ : ∀ x : Int, S x → τ (σ x) = x) (hneg : σ (-1) = -1)
    (hnn : ∀ x : Int, S x → 0 ≤ σ x)
    (hS2 : ∀ y : Int, S2 y ↔ ∃ x : Int, S x ∧ σ x = y)
    (hiso : IsoOn S σ F F2) : TreeOn S2 (σ root) F2 := by
  have hmem : ∀ x : Int, S x → S2 (σ x) := fun x hx => (hS2 _).mpr ⟨x, hx, rfl⟩
  have hinj : ∀ x y : Int, S x → S y → σ x = σ y → x = y := by
    intro x y hx hy e
    rw [← hτ x hx, ← hτ y hy, e]
  refine { rootS := hmem _ h.rootS, rootP := ?_, nonneg := ?_, par := ?_, ch := ?_, rank := ?_ }
  · rw [(hiso _ h.rootS).1, h.rootP, hneg]
  · intro y hy
    obtain ⟨x, hx, rfl⟩ := (hS2 y).mp hy
    exact hnn x hx
  · intro y hy
    obtain ⟨x, hx, rfl⟩ := (hS2 y).mp hy
    rw [(hiso x hx).1]
    rcases h.par x hx with ⟨h1, h2⟩ | ⟨h1, h2, h3⟩
    · left; rw [h1, h2]; exact ⟨hneg, rfl⟩
    · right
      refine ⟨?_, hmem _ h2, ?_⟩
      · have := hnn _ h2; omega
      · rw [(hiso _ h2).2.1, (hiso _ h2).2.2]
        rcases h3 with h3 | h3
        · left; rw [h3]
        · right; rw [h3]
  · intro y hy
    obtain ⟨x, hx, rfl⟩ := (hS2 y).mp hy
    rw [(hiso x hx).2.1, (hiso x hx).2.2]
    rcases h.ch x hx with ⟨h1, h2⟩ | ⟨h1, h2, h3, h4, h5⟩
    · left; rw [h1, h2]; exact ⟨hneg, hneg⟩
    · right
      refine ⟨hmem _ h1, hmem _ h2, ?_, ?_, ?_⟩
      · intro e; exact h3 (hinj _ _ h1 h2 e)
      · rw [(hiso _ h1).1, h4]
      · rw [(hiso _ h2).1, h5]
  · obtain ⟨rank, hrank⟩ := h.rank
    refine ⟨fun y => rank (τ y), ?_⟩
    intro y hy hp
    obtain ⟨x, hx, rfl⟩ := (hS2 y).mp hy
    rw [(hiso x hx).1] at hp ⊢
    have hpx : F.P x ≠ -1 := by
      intro e; rw [e, hneg] at hp; exact hp rfl
    rcases h.par x hx with ⟨h1, -⟩ | ⟨-, h2, -⟩
    · exact absurd h1 hpx
    · simp only [hτ x hx, hτ _ h2]
      exact hrank x hx hpx

/-- The links after `rename_node`, described on functions, are the old links
renamed by `src -> dest`, when `dest` is a free slot. -/
theorem iso_rename {S : Int → Prop} {root : Int} {F F2 : NodeFn} (src dest : Int)
    (h : TreeOn S root F) (hs : S src) (hd : ¬ S dest)
    (hP : ∀ j : Int, 0 ≤ j → F2.P j = if (j = F.C0 src) ∨ (j = F.C1 src) then dest
      else if j = dest then F.P src else F.P j)
    (hC0 : ∀ j : Int, 0 ≤ j → F2.C0 j = if j = F.P src ∧ F.C0 (F.P src) = src then dest
      else if j = dest then F.C0 src else F.C0 j)
    (hC1 : ∀ j : Int, 0 ≤ j → F2.C1 j = if j = F.P src ∧ F.C0 (F.P src) ≠ src then dest
      else if j = dest then F.C1 src else F.C1 j)
    (hd0 : 0 ≤ dest) :
    IsoOn S (relabel src dest) F F2 := by
  have hsd : src ≠ dest := fun e => hd (e ▸ hs)
  have hs0 := h.nonneg _ hs
  -- a node of `S` is never `dest`
  have hne : ∀ x : Int, S x → x ≠ dest := fun x hx e => hd (e ▸ hx)
  have hchS := h.ch src hs
  have hpS := h.par src hs
  intro x hx
  have hx0 := h.nonneg _ hx
  have hxd := hne x hx
  by_cases hxs : x = src
  · subst hxs
    have e : relabel x dest x = dest := by simp [relabel]
    rw [e, hP _ hd0, hC0 _ hd0, hC1 _ hd0]
    have n0 : ¬ (dest = F.C0 x ∨ dest = F.C1 x) := by
      rintro (e | e)
      · rcases hchS with ⟨h1, -⟩ | ⟨h1, -⟩
        · omega
        · exact hd (e ▸ h1)
      · rcases hchS with ⟨-, h1⟩ | ⟨-, h1, -⟩
        · omega
        · exact hd (e ▸ h1)
    have n1 : dest ≠ F.P x := by
      intro e
      rcases hpS with ⟨h1, -⟩ | ⟨-, h1, -⟩
      · omega
      · exact hd (e ▸ h1)
    have pne : F.P x ≠ x := by
      intro e
      obtain ⟨rank, hrank⟩ := h.rank
      have := hrank x hx (by omega)
      rw [e] at this; omega
    have c0ne : F.C0 x ≠ x := by
      intro e
      rcases hchS with ⟨h1, -⟩ | ⟨-, -, -, h1, -⟩
      · omega
      · rw [e] at h1; exact pne h1
    have c1ne : F.C1 x ≠ x := by
      intro e
      rcases hchS with ⟨-, h1⟩ | ⟨-, -, -, -, h1⟩
      · omega
      · rw [e] at h1; exact pne h1
    simp only [if_neg n0, if_true, relabel, if_neg pne, if_neg c0ne, if_neg c1ne]
    refine ⟨trivial, ?_, ?_⟩
    · rw [if_neg (fun hh => n1 hh.1)]
    · rw [if_neg (fun hh => n1 hh.1)]
  · have e : relabel src dest x = x := by simp [relabel, hxs]
    rw [e, hP _ hx0, hC0 _ hx0, hC1 _ hx0]
    simp only [if_neg hxd]
    refine ⟨?_, ?_, ?_⟩
    · -- parent
      by_cases hc : x = F.C0 src ∨ x = F.C1 src
      · rw [if_pos hc]
        have : F.P x = src := by
          rcases hchS with ⟨h1, h2⟩ | ⟨-, -, -, h4, h5⟩
          · rcases hc with e | e <;> omega
          · rcases hc with e | e
            · rw [e]; exact h4
            · rw [e]; exact h5
        simp [relabel, this]
      · rw [if_neg hc]
        have : F.P x ≠ src := by
          intro hp
          rcases h.par x hx with ⟨h1, -⟩ | ⟨-, -, h3⟩
          · omega
          · rw [hp] at h3
            exact hc (by rcases h3 with h3 | h3 <;> [left; right] <;> exact h3.symm)
        simp [relabel, this]
    · -- child0
      by_cases hc : x = F.P src ∧ F.C0 (F.P src) = src
      · rw [if_pos hc]
        obtain ⟨e1, e2⟩ := hc
        rw [← e1] at e2
        simp [relabel, e2]
      · rw [if_neg hc]
        have : F.C0 x ≠ src := by
          intro hp
          rcases h.ch x hx with ⟨h1, -⟩ | ⟨-, -, -, h4, -⟩
          · omega
          · rw [hp] at h4
            exact hc ⟨h4.symm, by rw [h4]; exact hp⟩
        simp [relabel, this]
    · -- child1
      by_cases hp : F.C1 x = src
      · have hpx : F.P src = x := by
          rcases h.ch x hx with ⟨-, h1⟩ | ⟨-, -, -, -, h5⟩
          · omega
          · rw [hp] at h5; exact h5
        have hne0 : F.C0 x ≠ src := by
          rcases h.ch x hx with ⟨-, h1⟩ | ⟨-, -, h3, -, -⟩
          · omega
          · rw [hp] at h3; exact h3
        rw [if_pos ⟨hpx.symm, by rw [hpx]; exact hne0⟩]
        simp [relabel, hp]
      · have : ¬ (x = F.P src ∧ F.C0 (F.P src) ≠ src) := by
          rintro ⟨e1, e2⟩
          rw [← e1] at e2
          rcases hpS with ⟨h1, -⟩ | ⟨-, -, h3⟩
          · omega
          · rw [← e1] at h3
            rcases h3 with h3 | h3
            · exact e2 h3
            · exact hp h3
        rw [if_neg this]
        simp [relabel, hp]

/-- In a tree no node is its own parent. -/
theorem TreeOn.parent_ne {S : Int → Prop} {root : Int} {F : NodeFn} (h : TreeOn S root F)
    {x : Int} (hx : S x) : F.P x ≠ x := by
  intro e
  obtain ⟨rank, hrank⟩ := h.rank
  have := hrank x hx (by have := h.nonneg x hx; omega)
  rw [e] at this; omega

/-- In a tree a node with parent `p` is one of the two children of `p`, and
`p` is not a leaf. -/
theorem TreeOn.child_cases {S : Int → Prop} {root : Int} {F : NodeFn} (h : TreeOn S root F)
    {x : Int} (hx : S x) (hp : F.P x ≠ -1) :
    S (F.P x) ∧ S (F.C0 (F.P x)) ∧ S (F.C1 (F.P x)) ∧ F.C0 (F.P x) ≠ F.C1 (F.P x) ∧
      F.P (F.C0 (F.P x)) = F.P x ∧ F.P (F.C1 (F.P x)) = F.P x ∧
      (F.C0 (F.P x) = x ∨ F.C1 (F.P x) = x) := by
  rcases h.par x hx with ⟨h1, -⟩ | ⟨-, h2, h3⟩
  · exact absurd h1 hp
  · have hx0 := h.nonneg x hx
    rcases h.ch _ h2 with ⟨c1, c2⟩ | ⟨c1, c2, c3, c4, c5⟩
    · rcases h3 with h3 | h3 <;> omega
    · exact ⟨h2, c1, c2, c3, c4, c5, h3⟩

set_option maxHeartbeats 1000000 in
/-- Grafting a new leaf `nl` with a new internal node `nc` on the branch above
`node2` keeps a tree. -/
theorem treeOn_graft {S : Int → Prop} {root : Int} {F F2 : NodeFn} (node2 nl nc : Int)
    (h : TreeOn S root F) (hn : S node2) (hl : ¬ S nl) (hc : ¬ S nc) (hlc : nl ≠ nc)
    (hl0 : 0 ≤ nl) (hc0 : 0 ≤ nc)
    (hP : ∀ j : Int, 0 ≤ j → F2.P j = if j = nl then nc else if j = nc then F.P node2
      else if j = node2 then nc else F.P j)
    (hC0 : ∀ j : Int, 0 ≤ j → F2.C0 j = if j = nl then -1 else if j = nc then nl
      else if j = F.P node2 ∧ F.C0 (F.P node2) = node2 then nc else F.C0 j)
    (hC1 : ∀ j : Int, 0 ≤ j → F2.C1 j = if j = nl then -1 else if j = nc then node2
      else if j = F.P node2 ∧ F.C0 (F.P node2) ≠ node2 then nc else F.C1 j) :
    TreeOn (fun x => S x ∨ x = nl ∨ x = nc) (if F.P node2 = -1 then nc else root) F2 := by
  have hne : ∀ x : Int, S x → x ≠ nl ∧ x ≠ nc :=
    fun x hx => ⟨fun e => hl (e ▸ hx), fun e => hc (e ▸ hx)⟩
  have hn0 := h.nonneg _ hn
  have hnl := (hne _ hn).1
  have hnc := (hne _ hn).2
  have hPl : F2.P nl = nc := by rw [hP _ hl0, if_pos rfl]
  have hPc : F2.P nc = F.P node2 := by rw [hP _ hc0, if_neg (Ne.symm hlc), if_pos rfl]
  have hPn : F2.P node2 = nc := by rw [hP _ hn0, if_neg hnl, if_neg hnc, if_pos rfl]
  have hPo : ∀ x : Int, S x → x ≠ node2 → F2.P x = F.P x := by
    intro x hx hxn
    rw [hP _ (h.nonneg x hx), if_neg (hne x hx).1, if_neg (hne x hx).2, if_neg hxn]
  have hC0c : F2.C0 nc = nl := by rw [hC0 _ hc0, if_neg (Ne.symm hlc), if_pos rfl]
  have hC1c : F2.C1 nc = node2 := by rw [hC1 _ hc0, if_neg (Ne.symm hlc), if_pos rfl]
  have hC0o : ∀ x : Int, S x → F2.C0 x = if x = F.P node2 ∧ F.C0 (F.P node2) = node2 then nc
      else F.C0 x := by
    intro x hx
    rw [hC0 _ (h.nonneg x hx), if_neg (hne x hx).1, if_neg (hne x hx).2]
  have hC1o : ∀ x : Int, S x → F2.C1 x = if x = F.P node2 ∧ F.C0 (F.P node2) ≠ node2 then nc
      else F.C1 x := by
    intro x hx
    rw [hC1 _ (h.nonneg x hx), if_neg (hne x hx).1, if_neg (hne x hx).2]
  refine { rootS := ?_, rootP := ?_, nonneg := ?_, par := ?_, ch := ?_, rank := ?_ }
  · split
    · exact Or.inr (Or.inr rfl)
    · exact Or.inl h.rootS
  · by_cases hp : F.P node2 = -1
    · rw [if_pos hp, hPc, hp]
    · rw [if_neg hp, hPo _ h.rootS (fun e => hp (e ▸ h.rootP)), h.rootP]
  · rintro x (hx | hx | hx)
    · exact h.nonneg x hx
    · omega
    · omega
  · rintro x (hx | hx | hx)
    · by_cases hxn : x = node2
      · subst hxn
        right
        rw [hPn]
        exact ⟨by omega, Or.inr (Or.inr rfl), Or.inr hC1c⟩
      · rw [hPo x hx hxn]
        rcases h.par x hx with ⟨h1, h2⟩ | ⟨h1, h2, h3⟩
        · left
          refine ⟨h1, ?_⟩
          have : F.P node2 ≠ -1 := by
            intro e
            rcases h.par _ hn with ⟨-, h4⟩ | ⟨h4, -⟩
            · exact hxn (h2.trans h4.symm)
            · exact h4 e
          rw [if_neg this]; exact h2
        · right
          refine ⟨h1, Or.inl h2, ?_⟩
          rw [hC0o _ h2, hC1o _ h2]
          rcases h3 with h3 | h3
          · left
            rw [if_neg]; exact h3
            rintro ⟨e1, e2⟩
            rw [← e1, h3] at e2
            exact hxn e2
          · right
            rw [if_neg]; exact h3
            rintro ⟨e1, e2⟩
            have hpn : F.P node2 ≠ -1 := by rw [← e1]; exact h1
            obtain ⟨-, -, -, -, -, -, c7⟩ := h.child_cases hn hpn
            rw [← e1] at c7 e2
            rcases c7 with c7 | c7
            · exact e2 c7
            · exact hxn (h3.symm.trans c7)
    · subst hx
      right
      rw [hPl]
      exact ⟨by omega, Or.inr (Or.inr rfl), Or.inl hC0c⟩
    · subst hx
      rw [hPc]
      by_cases hp : F.P node2 = -1
      · left; exact ⟨hp, by rw [if_pos hp]⟩
      · right
        obtain ⟨c1, -, -, -, -, -, c7⟩ := h.child_cases hn hp
        refine ⟨hp, Or.inl c1, ?_⟩
        rw [hC0o _ c1, hC1o _ c1]
        by_cases h0 : F.C0 (F.P node2) = node2
        · left; rw [if_pos ⟨rfl, h0⟩]
        · right; rw [if_pos ⟨rfl, h0⟩]
  · rintro x (hx | hx | hx)
    · rw [hC0o x hx, hC1o x hx]
      rcases h.ch x hx with ⟨h1, h2⟩ | ⟨h1, h2, h3, h4, h5⟩
      · left
        have hxp : x ≠ F.P node2 := by
          intro e
          have hpn : F.P node2 ≠ -1 := by rw [← e]; have := h.nonneg x hx; omega
          obtain ⟨-, -, -, -, -, -, c7⟩ := h.child_cases hn hpn
          rw [← e] at c7
          rcases c7 with c7 | c7 <;> omega
        rw [if_neg (fun hh => hxp hh.1), if_neg (fun hh => hxp hh.1)]
        exact ⟨h1, h2⟩
      · right
        by_cases hxp : x = F.P node2
        · have hpn : F.P node2 ≠ -1 := by rw [← hxp]; have := h.nonneg x hx; omega
          by_cases h0 : F.C0 (F.P node2) = node2
          · rw [if_pos ⟨hxp, h0⟩, if_neg (fun hh => hh.2 h0)]
            have h21 : F.C1 x ≠ node2 := by
              intro e; rw [hxp] at h3 e; exact h3 (h0.trans e.symm)
            refine ⟨Or.inr (Or.inr rfl), Or.inl h2, fun e => (hne _ h2).2 e.symm, ?_, ?_⟩
            · rw [hPc]; exact hxp.symm
            · rw [hPo _ h2 h21]; exact h5
          · rw [if_neg (fun hh => h0 hh.2), if_pos ⟨hxp, h0⟩]
            have h20 : F.C0 x ≠ node2 := by rw [hxp]; exact h0
            refine ⟨Or.inl h1, Or.inr (Or.inr rfl), fun e => (hne _ h1).2 e, ?_, ?_⟩
            · rw [hPo _ h1 h20]; exact h4
            · rw [hPc]; exact hxp.symm
        · rw [if_neg (fun hh => hxp hh.1), if_neg (fun hh => hxp hh.1)]
          have h20 : F.C0 x ≠ node2 := by
            intro e; rw [e] at h4; exact hxp h4.symm
          have h21 : F.C1 x ≠ node2 := by
            intro e; rw [e] at h5; exact hxp h5.symm
          refine ⟨Or.inl h1, Or.inl h2, h3, ?_, ?_⟩
          · rw [hPo _ h1 h20]; exact h4
          · rw [hPo _ h2 h21]; exact h5
    · subst hx
      left
      rw [hC0 _ hl0, hC1 _ hl0, if_pos rfl, if_pos rfl]
      exact ⟨rfl, rfl⟩
    · subst hx
      right
      rw [hC0c, hC1c, hPl, hPn]
      exact ⟨Or.inr (Or.inl rfl), Or.inl hn, Ne.symm hnl, rfl, rfl⟩
  · obtain ⟨rank, hrank⟩ := h.rank
    refine ⟨fun j => if j = nl then 2 * rank node2 + 2 else if j = nc then 2 * rank node2 + 1
      else 2 * rank j + 2, ?_⟩
    rintro x (hx | hx | hx) hp
    · by_cases hxn : x = node2
      · subst hxn
        rw [hPn]
        simp only [if_neg hnl, if_neg hnc, if_neg (Ne.symm hlc), if_true]
        omega
      · rw [hPo x hx hxn] at hp ⊢
        rcases h.par x hx with ⟨h1, -⟩ | ⟨-, h2, -⟩
        · exact absurd h1 hp
        · have := hrank x hx hp
          simp only [if_neg (hne x hx).1, if_neg (hne x hx).2, if_neg (hne _ h2).1,
            if_neg (hne _ h2).2]
          omega
    · subst hx
      rw [hPl]
      simp only [if_neg (Ne.symm hlc), if_true]
      omega
    · subst hx
      rw [hPc] at hp ⊢
      obtain ⟨c1, -⟩ := h.child_cases hn hp
      have := hrank _ hn hp
      simp only [if_neg (hne _ c1).1, if_neg (hne _ c1).2, if_neg (Ne.symm hlc), if_true]
      omega

set_option maxHeartbeats 1000000 in
/-- Splicing out a leaf `rl` together with its parent `rc` keeps a tree: the
sibling `cc` of `rl` takes the place of `rc` under `cp = P rc`. -/
theorem treeOn_splice {S : Int → Prop} {root : Int} {F F2 : NodeFn} (rl : Int)
    (h : TreeOn S root F) (hl : S rl) (hleaf : F.C0 rl = -1) (hroot : rl ≠ root)
    (cc : Int) (hcc : cc = if F.C0 (F.P rl) = rl then F.C1 (F.P rl) else F.C0 (F.P rl))
    (hP : ∀ j : Int, 0 ≤ j → F2.P j = if j = cc then F.P (F.P rl) else F.P j)
    (hC0 : ∀ j : Int, 0 ≤ j → F2.C0 j =
      if j = F.P (F.P rl) ∧ F.C0 (F.P (F.P rl)) = F.P rl then cc else F.C0 j)
    (hC1 : ∀ j : Int, 0 ≤ j → F2.C1 j =
      if j = F.P (F.P rl) ∧ F.C0 (F.P (F.P rl)) ≠ F.P rl then cc else F.C1 j) :
    TreeOn (fun x => S x ∧ x ≠ rl ∧ x ≠ F.P rl) (if root = F.P rl then cc else root) F2 ∧
    S cc ∧ cc ≠ rl ∧ cc ≠ F.P rl ∧ F.P cc = F.P rl ∧ S (F.P rl) := by
  have hl0 := h.nonneg _ hl
  have hrlp : F.P rl ≠ -1 := by
    intro e
    rcases h.par rl hl with ⟨-, h2⟩ | ⟨h1, -⟩
    · exact hroot h2
    · exact h1 e
  obtain ⟨hrc, c2, c3, c4, c5, c6, c7⟩ := h.child_cases hl hrlp
  have hleaf1 : F.C1 rl = -1 := by
    rcases h.ch rl hl with ⟨-, h2⟩ | ⟨h1, -⟩
    · exact h2
    · have := h.nonneg _ h1; omega
  have hrc0 := h.nonneg _ hrc
  -- the sibling
  have hccS : S cc := by rw [hcc]; split <;> assumption
  have hccP : F.P cc = F.P rl := by rw [hcc]; split <;> assumption
  have hccl : cc ≠ rl := by
    rw [hcc]
    split
    · rename_i e; intro e2; exact c4 (e.trans e2.symm)
    · rename_i e; exact e
  have hccc : cc ≠ F.P rl := by
    intro e; rw [e] at hccP; exact h.parent_ne hrc hccP
  have hcc0 := h.nonneg _ hccS
  -- the children of `rc` are `rl` and `cc`
  have hchild : ∀ x : Int, S x → F.P x = F.P rl → x = rl ∨ x = cc := by
    intro x hx e
    have hx0 := h.nonneg x hx
    obtain ⟨-, -, -, -, -, -, d7⟩ := h.child_cases hx (by rw [e]; exact hrlp)
    rw [e] at d7
    rw [hcc]
    by_cases h0 : F.C0 (F.P rl) = rl
    · rw [if_pos h0]
      rcases d7 with d7 | d7
      · left; rw [← d7, h0]
      · right; exact d7.symm
    · rw [if_neg h0]
      rcases c7 with c7 | c7
      · exact absurd c7 h0
      · rcases d7 with d7 | d7
        · right; exact d7.symm
        · left; rw [← d7, c7]
  -- a leaf is nobody's parent
  have hnotpar : ∀ x : Int, S x → F.P x ≠ rl := by
    intro x hx e
    have hx0 := h.nonneg x hx
    obtain ⟨-, -, -, -, -, -, d7⟩ := h.child_cases hx (by rw [e]; omega)
    rw [e] at d7
    rcases d7 with d7 | d7 <;> omega
  have hPo : ∀ x : Int, S x → x ≠ cc → F2.P x = F.P x := by
    intro x hx hxc
    rw [hP _ (h.nonneg x hx), if_neg hxc]
  have hPc : F2.P cc = F.P (F.P rl) := by rw [hP _ hcc0, if_pos rfl]
  refine ⟨{ rootS := ?_, rootP := ?_, nonneg := ?_, par := ?_, ch := ?_, rank := ?_ },
    hccS, hccl, hccc, hccP, hrc⟩
  · by_cases hr : root = F.P rl
    · rw [if_pos hr]; exact ⟨hccS, hccl, hccc⟩
    · rw [if_neg hr]; exact ⟨h.rootS, Ne.symm hroot, hr⟩
  · by_cases hr : root = F.P rl
    · rw [if_pos hr, hPc, ← hr, h.rootP]
    · rw [if_neg hr, hPo _ h.rootS, h.rootP]
      intro e
      have e3 := h.rootP
      rw [e, hccP] at e3
      exact hrlp e3
  · intro x hx; exact h.nonneg x hx.1
  · rintro x ⟨hx, hxl, hxc⟩
    have hx0 := h.nonneg x hx
    by_cases hxcc : x = cc
    · subst hxcc
      rw [hPc]
      by_cases hp : F.P (F.P rl) = -1
      · left
        refine ⟨hp, ?_⟩
        rcases h.par _ hrc with ⟨-, h2⟩ | ⟨h1, -⟩
        · rw [if_pos h2.symm]
        · exact absurd hp h1
      · right
        obtain ⟨d1, -, -, -, -, -, d7⟩ := h.child_cases hrc hp
        have hd0 := h.nonneg _ d1
        refine ⟨hp, ⟨d1, fun e => hnotpar _ hrc e, fun e => h.parent_ne hrc e⟩, ?_⟩
        rw [hC0 _ hd0, hC1 _ hd0]
        by_cases h0 : F.C0 (F.P (F.P rl)) = F.P rl
        · left; rw [if_pos ⟨rfl, h0⟩]
        · right; rw [if_pos ⟨rfl, h0⟩]
    · rw [hPo x hx hxcc]
      rcases h.par x hx with ⟨h1, h2⟩ | ⟨h1, h2, h3⟩
      · left
        refine ⟨h1, ?_⟩
        rw [if_neg (fun e => hxc (h2.trans e))]; exact h2
      · right
        have hpl : F.P x ≠ rl := hnotpar x hx
        have hpc : F.P x ≠ F.P rl := by
          intro e
          rcases hchild x hx e with e2 | e2
          · exact hxl e2
          · exact hxcc e2
        have hp0 := h.nonneg _ h2
        refine ⟨h1, ⟨h2, hpl, hpc⟩, ?_⟩
        rw [hC0 _ hp0, hC1 _ hp0]
        rcases h3 with h3 | h3
        · left
          rw [if_neg]; exact h3
          rintro ⟨e1, e2⟩
          rw [← e1, h3] at e2
          exact hxc e2
        · right
          rw [if_neg]; exact h3
          rintro ⟨e1, e2⟩
          have hp2 : F.P (F.P rl) ≠ -1 := by rw [← e1]; exact h1
          obtain ⟨-, -, -, -, -, -, d7⟩ := h.child_cases hrc hp2
          rw [← e1] at d7 e2
          rcases d7 with d7 | d7
          · exact e2 d7
          · exact hxc (h3.symm.trans d7)
  · rintro x ⟨hx, hxl, hxc⟩
    have hx0 := h.nonneg x hx
    rw [hC0 _ hx0, hC1 _ hx0]
    rcases h.ch x hx with ⟨h1, h2⟩ | ⟨h1, h2, h3, h4, h5⟩
    · left
      have hxp : x ≠ F.P (F.P rl) := by
        intro e
        have hp2 : F.P (F.P rl) ≠ -1 := by rw [← e]; omega
        obtain ⟨-, -, -, -, -, -, d7⟩ := h.child_cases hrc hp2
        rw [← e] at d7
        rcases d7 with d7 | d7 <;> omega
      rw [if_neg (fun hh => hxp hh.1), if_neg (fun hh => hxp hh.1)]
      exact ⟨h1, h2⟩
    · right
      -- a child of `x` is in the new set unless it is `rc`
      have hmem : ∀ y : Int, S y → F.P y = x → y ≠ F.P rl → (S y ∧ y ≠ rl ∧ y ≠ F.P rl) :=
        fun y hy e hne => ⟨hy, fun e2 => hxc (by rw [← e, e2]), hne⟩
      have hPy : ∀ y : Int, S y → F.P y = x → F2.P y = x := by
        intro y hy e
        rw [hPo y hy, e]
        intro e2; rw [e2, hccP] at e; exact hxc e.symm
      by_cases hxp : x = F.P (F.P rl)
      · by_cases h0 : F.C0 (F.P (F.P rl)) = F.P rl
        · rw [if_pos ⟨hxp, h0⟩, if_neg (fun hh => hh.2 h0)]
          have h21 : F.C1 x ≠ F.P rl := by
            intro e; rw [hxp] at h3 e; exact h3 (h0.trans e.symm)
          refine ⟨⟨hccS, hccl, hccc⟩, hmem _ h2 h5 h21, ?_, ?_, hPy _ h2 h5⟩
          · intro e; rw [← e, hccP] at h5; exact hxc h5.symm
          · rw [hPc]; exact hxp.symm
        · rw [if_neg (fun hh => h0 hh.2), if_pos ⟨hxp, h0⟩]
          have h20 : F.C0 x ≠ F.P rl := by rw [hxp]; exact h0
          refine ⟨hmem _ h1 h4 h20, ⟨hccS, hccl, hccc⟩, ?_, hPy _ h1 h4, ?_⟩
          · intro e; rw [e, hccP] at h4; exact hxc h4.symm
          · rw [hPc]; exact hxp.symm
      · rw [if_neg (fun hh => hxp hh.1), if_neg (fun hh => hxp hh.1)]
        have h20 : F.C0 x ≠ F.P rl := by
          intro e; rw [e] at h4; exact hxp h4.symm
        have h21 : F.C1 x ≠ F.P rl := by
          intro e; rw [e] at h5; exact hxp h5.symm
        exact ⟨hmem _ h1 h4 h20, hmem _ h2 h5 h21, h3, hPy _ h1 h4, hPy _ h2 h5⟩
  · obtain ⟨rank, hrank⟩ := h.rank
    refine ⟨rank, ?_⟩
    rintro x ⟨hx, hxl, hxc⟩ hp
    by_cases hxcc : x = cc
    · subst hxcc
      rw [hPc] at hp ⊢
      have r1 := hrank _ hrc hp
      have r2 := hrank _ hccS (by rw [hccP]; exact hrlp)
      rw [hccP] at r2
      omega
    · rw [hPo x hx hxcc] at hp ⊢
      exact hrank x hx hp

@[simp] theorem length_renameNodes (N : List LocalNode) (src dest : Int) :
    (renameNodes N src dest).length = N.length := by
  unfold renameNodes
  simp only []
  split <;> split <;> split <;> simp

@[simp] theorem length_graftNodes (N : List LocalNode) (nl nc parent2 node2 time pp : Int) :
    (graftNodes N nl nc parent2 node2 time pp).length = N.length := by
  unfold graftNodes
  simp only []
  split <;> simp

@[simp] theorem length_spliceNodes (N : List LocalNode) (rc cc cp : Int) :
    (spliceNodes N rc cc cp).length = N.length := by
  unfold spliceNodes
  simp only []
  split <;> simp

/-- The function `rename_node` runs through and produces `renameNodes`, when
the slots it touches lie in the array and `dest` is not linked to `src`. -/
theorem rename_node_eq (N : List LocalNode) (src dest : Int) (hsd : src ≠ dest)
    (hs : inArr N src) (hd : inArr N dest)
    (hp : (nodeAt N src).parent ≠ -1 →
      inArr N (nodeAt N src).parent ∧ (nodeAt N src).parent ≠ dest)
    (hc0 : (nodeAt N src).child0 ≠ -1 →
      inArr N (nodeAt N src).child0 ∧ (nodeAt N src).child0 ≠ dest)
    (hc1 : (nodeAt N src).child1 ≠ -1 →
      inArr N (nodeAt N src).child1 ∧ (nodeAt N src).child1 ≠ dest) :
    rename_node N src dest = some (renameNodes N src dest) := by
  unfold rename_node renameNodes notify_child
  have hd1 : inArr (updAt N dest (nodeAt N src)) dest := by simp [hd]
  have e1 : nodeAt (updAt N dest (nodeAt N src)) dest = nodeAt N src := by
    rw [nodeAt_updAt]; simp [hd]
  simp only [if_neg hsd, getNode_eq hs, Option.some_bind, setAt_eq _ hd, getNode_eq hd1, e1]
  by_cases hp' : (nodeAt N src).parent = -1
  · by_cases h0 : (nodeAt N src).child0 = -1
    · by_cases h1 : (nodeAt N src).child1 = -1
      · simp [hp', h0, h1, getNode_eq, hd, e1]
      · have a1 := hc1 h1
        simp [hp', h0, h1, getNode_eq, hd, e1, modNode_parent, a1.1]
    · have a0 := hc0 h0
      by_cases h1 : (nodeAt N src).child1 = -1
      · simp [hp', h0, h1, getNode_eq, hd, e1, modNode_parent, a0.1, nodeAt_updAt, Ne.symm a0.2]
      · have a1 := hc1 h1
        simp [hp', h0, h1, getNode_eq, hd, e1, modNode_parent, a0.1, a1.1, nodeAt_updAt,
          Ne.symm a0.2]
  · have ap := hp hp'
    by_cases h0 : (nodeAt N src).child0 = -1
    · by_cases h1 : (nodeAt N src).child1 = -1
      · simp [hp', h0, h1, getNode_eq, hd, e1, replace_child_eq, ap.1, nodeAt_updAt,
          Ne.symm ap.2]
      · have a1 := hc1 h1
        simp [hp', h0, h1, getNode_eq, hd, e1, modNode_parent, a1.1, replace_child_eq, ap.1,
          nodeAt_updAt, Ne.symm ap.2]
    · have a0 := hc0 h0
      by_cases h1 : (nodeAt N src).child1 = -1
      · simp [hp', h0, h1, getNode_eq, hd, e1, modNode_parent, a0.1, nodeAt_updAt, Ne.symm a0.2,
          replace_child_eq, ap.1, Ne.symm ap.2]
      · have a1 := hc1 h1
        simp [hp', h0, h1, getNode_eq, hd, e1, modNode_parent, a0.1, a1.1, nodeAt_updAt,
          Ne.symm a0.2, replace_child_eq, ap.1, Ne.symm ap.2]

set_option maxHeartbeats 2000000 in
/-- The array `renameNodes` read field by field. -/
theorem renameNodes_fields (N : List LocalNode) (src dest j : Int) (hj : 0 ≤ j)
    (hd : inArr N dest)
    (hp : (nodeAt N src).parent ≠ -1 →
      inArr N (nodeAt N src).parent ∧ (nodeAt N src).parent ≠ dest)
    (hc0 : (nodeAt N src).child0 ≠ -1 →
      inArr N (nodeAt N src).child0 ∧ (nodeAt N src).child0 ≠ dest)
    (hc1 : (nodeAt N src).child1 ≠ -1 →
      inArr N (nodeAt N src).child1 ∧ (nodeAt N src).child1 ≠ dest) :
    (nodeAt (renameNodes N src dest) j).parent =
      (if j = (nodeAt N src).child0 ∨ j = (nodeAt N src).child1 then dest
        else if j = dest then (nodeAt N src).parent else (nodeAt N j).parent) ∧
    (nodeAt (renameNodes N src dest) j).child0 =
      (if j = (nodeAt N src).parent ∧ (nodeAt N (nodeAt N src).parent).child0 = src then dest
        else if j = dest then (nodeAt N src).child0 else (nodeAt N j).child0) ∧
    (nodeAt (renameNodes N src dest) j).child1 =
      (if j = (nodeAt N src).parent ∧ (nodeAt N (nodeAt N src).parent).child0 ≠ src then dest
        else if j = dest then (nodeAt N src).child1 else (nodeAt N j).child1) ∧
    (nodeAt (renameNodes N src dest) j).age =
      (if j = dest then (nodeAt N src).age else (nodeAt N j).age) ∧
    (nodeAt (renameNodes N src dest) j).pop_path =
      (if j = dest then (nodeAt N src).pop_path else (nodeAt N j).pop_path) := by
  have hj1 : j ≠ -1 := by omega
  unfold renameNodes
  simp only []
  refine ⟨?_, ?_, ?_, ?_, ?_⟩
  · -- parent
    by_cases h0 : (nodeAt N src).child0 = -1 <;> by_cases h1 : (nodeAt N src).child1 = -1 <;>
    by_cases hp' : (nodeAt N src).parent = -1 <;>
    by_cases hjd : j = dest <;>
    by_cases hj0 : j = (nodeAt N src).child0 <;> by_cases hj1' : j = (nodeAt N src).child1 <;>
    simp [*, nodeAt_updAt] <;> omega
  · -- child0
    by_cases h0 : (nodeAt N src).child0 = -1 <;> by_cases h1 : (nodeAt N src).child1 = -1 <;>
    by_cases hp' : (nodeAt N src).parent = -1 <;>
    by_cases hjd : j = dest <;>
    by_cases hjp : j = (nodeAt N src).parent <;>
    by_cases hv : (nodeAt N (nodeAt N src).parent).child0 = src <;>
    simp [*, nodeAt_updAt] <;> omega
  · -- child1
    by_cases h0 : (nodeAt N src).child0 = -1 <;> by_cases h1 : (nodeAt N src).child1 = -1 <;>
    by_cases hp' : (nodeAt N src).parent = -1 <;>
    by_cases hjd : j = dest <;>
    by_cases hjp : j = (nodeAt N src).parent <;>
    by_cases hv : (nodeAt N (nodeAt N src).parent).child0 = src <;>
    simp [*, nodeAt_updAt] <;> omega
  · by_cases h0 : (nodeAt N src).child0 = -1 <;> by_cases h1 : (nodeAt N src).child1 = -1 <;>
    by_cases hp' : (nodeAt N src).parent = -1 <;>
    by_cases hjd : j = dest <;>
    simp [*, nodeAt_updAt]
  · by_cases h0 : (nodeAt N src).child0 = -1 <;> by_cases h1 : (nodeAt N src).child1 = -1 <;>
    by_cases hp' : (nodeAt N src).parent = -1 <;>
    by_cases hjd : j = dest <;>
    simp [*, nodeAt_updAt]

theorem updAt_updAt_same {α : Type} (xs : List α) (i : Int) (x y : α) :
    updAt (updAt xs i x) i y = updAt xs i y := by
  unfold updAt
  split
  · simp [List.set_set]
  · rfl

/-- The blocks "add new leaf", "add new coal node" and "fix pointers" of
`add_tree_branch` run through and produce `graftNodes`. -/
theorem graft_eq (N : List LocalNode) (nl nc parent2 node2 time pp : Int)
    (hl : inArr N nl) (hc : inArr N nc) (hn : inArr N node2) (hlc : nl ≠ nc)
    (hnl : node2 ≠ nl) (hnc : node2 ≠ nc) (hp : parent2 ≠ -1 → inArr N parent2) :
    (add_new_nodes N nl nc parent2 node2 time pp).bind
      (fun M => add_fix_pointers M nc parent2 node2) =
    some (graftNodes N nl nc parent2 node2 time pp) := by
  unfold add_new_nodes add_fix_pointers graftNodes
  have h1 : inArr (updAt N nl ⟨nc, -1, -1, 0, pp⟩) nc := by simp [hc]
  simp only [modNode_eq _ hl, Option.some_bind, modNode_eq _ h1]
  have h2 : inArr (updAt (updAt N nl ⟨nc, -1, -1, 0, pp⟩) nc
      { nodeAt (updAt N nl ⟨nc, -1, -1, 0, pp⟩) nc with
        parent := parent2, child0 := nl, child1 := node2, age := time }) nc := by simp [hc]
  have h3 : inArr (updAt (updAt N nl ⟨nc, -1, -1, 0, pp⟩) nc
      { nodeAt (updAt N nl ⟨nc, -1, -1, 0, pp⟩) nc with
        parent := parent2, child0 := nl, child1 := node2, age := time }) node2 := by simp [hn]
  simp only [getNode_eq h2, Option.some_bind]
  have e1 : (nodeAt (updAt (updAt N nl ⟨nc, -1, -1, 0, pp⟩) nc
      { nodeAt (updAt N nl ⟨nc, -1, -1, 0, pp⟩) nc with
        parent := parent2, child0 := nl, child1 := node2, age := time }) nc).child1 = node2 := by
    rw [nodeAt_updAt]; simp [hc]
  rw [e1]
  simp only [getNode_eq h3, Option.some_bind, modNode_eq _ h2, updAt_updAt_same]
  have e2 : (nodeAt (updAt (updAt N nl ⟨nc, -1, -1, 0, pp⟩) nc
      { nodeAt (updAt N nl ⟨nc, -1, -1, 0, pp⟩) nc with
        parent := parent2, child0 := nl, child1 := node2, age := time }) node2) =
      nodeAt N node2 := by
    rw [nodeAt_updAt, if_neg (fun h => hnc h.1), nodeAt_updAt, if_neg (fun h => hnl h.1)]
  have e3 : nodeAt (updAt (updAt N nl ⟨nc, -1, -1, 0, pp⟩) nc
      { nodeAt (updAt N nl ⟨nc, -1, -1, 0, pp⟩) nc with
        parent := parent2, child0 := nl, child1 := node2, age := time }) nc =
      { nodeAt (updAt N nl ⟨nc, -1, -1, 0, pp⟩) nc with
        parent := parent2, child0 := nl, child1 := node2, age := time } := by
    rw [nodeAt_updAt]; simp [hc]
  rw [e2, e3]
  have h4 : inArr (updAt (updAt N nl ⟨nc, -1, -1, 0, pp⟩) nc
      ⟨parent2, nl, node2, time, (nodeAt N node2).pop_path⟩) node2 := by simp [hn]
  simp only [modNode_parent _ h4]
  by_cases hp' : parent2 = -1
  · simp [hp']
  · have h5 : inArr (setParent (updAt (updAt N nl ⟨nc, -1, -1, 0, pp⟩) nc
        ⟨parent2, nl, node2, time, (nodeAt N node2).pop_path⟩) node2 nc) parent2 := by
      simp [hp hp']
    simp [hp', replace_child_eq _ _ h5]

set_option maxHeartbeats 2000000 in
/-- The array `graftNodes` read field by field. -/
theorem graftNodes_fields (N : List LocalNode) (nl nc parent2 node2 time pp j : Int)
    (hj : 0 ≤ j) (hl : inArr N nl) (hc : inArr N nc) (hn : inArr N node2) (hlc : nl ≠ nc)
    (hnl : node2 ≠ nl) (hnc : node2 ≠ nc)
    (hp : parent2 ≠ -1 → inArr N parent2 ∧ parent2 ≠ nl ∧ parent2 ≠ nc) :
    (nodeAt (graftNodes N nl nc parent2 node2 time pp) j).parent =
      (if j = nl then nc else if j = nc then parent2 else if j = node2 then nc
        else (nodeAt N j).parent) ∧
    (nodeAt (graftNodes N nl nc parent2 node2 time pp) j).child0 =
      (if j = nl then -1 else if j = nc then nl
        else if j = parent2 ∧ (nodeAt N parent2).child0 = node2 then nc
        else (nodeAt N j).child0) ∧
    (nodeAt (graftNodes N nl nc parent2 node2 time pp) j).child1 =
      (if j = nl then -1 else if j = nc then node2
        else if j = parent2 ∧ (nodeAt N parent2).child0 ≠ node2 then nc
        else (nodeAt N j).child1) ∧
    (nodeAt (graftNodes N nl nc parent2 node2 time pp) j).age =
      (if j = nl then 0 else if j = nc then time else (nodeAt N j).age) ∧
    (nodeAt (graftNodes N nl nc parent2 node2 time pp) j).pop_path =
      (if j = nl then pp else if j = nc then (nodeAt N node2).pop_path
        else (nodeAt N j).pop_path) := by
  have hj1 : j ≠ -1 := by omega
  unfold graftNodes
  simp only []
  refine ⟨?_, ?_, ?_, ?_, ?_⟩
  · by_cases hp' : parent2 = -1 <;> by_cases hjl : j = nl <;> by_cases hjc : j = nc <;>
    by_cases hjn : j = node2 <;> simp [*, nodeAt_updAt] <;> omega
  · by_cases hp' : parent2 = -1 <;> by_cases hjl : j = nl <;> by_cases hjc : j = nc <;>
    by_cases hjp : j = parent2 <;> by_cases hv : (nodeAt N parent2).child0 = node2 <;>
    simp [*, nodeAt_updAt] <;> omega
  · by_cases hp' : parent2 = -1 <;> by_cases hjl : j = nl <;> by_cases hjc : j = nc <;>
    by_cases hjp : j = parent2 <;> by_cases hv : (nodeAt N parent2).child0 = node2 <;>
    simp [*, nodeAt_updAt] <;> omega
  · by_cases hp' : parent2 = -1 <;> by_cases hjl : j = nl <;> by_cases hjc : j = nc <;>
    simp [*, nodeAt_updAt] <;> omega
  · by_cases hp' : parent2 = -1 <;> by_cases hjl : j = nl <;> by_cases hjc : j = nc <;>
    simp [*, nodeAt_updAt] <;> omega

/-- The block "remove coal node" of `remove_tree_branch` without population
tree runs through and produces `spliceNodes`. -/
theorem remove_coal_node_eq (N : List LocalNode) (rl ntimes : Int) (hl : inArr N rl)
    (hc : inArr N (nodeAt N rl).parent)
    (hcc : inArr N (if (nodeAt N (nodeAt N rl).parent).child0 = rl
      then (nodeAt N (nodeAt N rl).parent).child1 else (nodeAt N (nodeAt N rl).parent).child0))
    (hp : (nodeAt N (nodeAt N rl).parent).parent ≠ -1 →
      inArr N (nodeAt N (nodeAt N rl).parent).parent) :
    remove_coal_node N rl none ntimes =
      some (spliceNodes N (nodeAt N rl).parent
        (if (nodeAt N (nodeAt N rl).parent).child0 = rl
          then (nodeAt N (nodeAt N rl).parent).child1
          else (nodeAt N (nodeAt N rl).parent).child0)
        (nodeAt N (nodeAt N rl).parent).parent, (nodeAt N rl).parent,
        (if (nodeAt N (nodeAt N rl).parent).child0 = rl
          then (nodeAt N (nodeAt N rl).parent).child1
          else (nodeAt N (nodeAt N rl).parent).child0),
        (nodeAt N (nodeAt N rl).parent).parent) := by
  unfold remove_coal_node spliceNodes remove_coal_path
  simp only [getNode_eq hl, Option.some_bind, getNode_eq hc, modNode_parent _ hcc]
  by_cases hp' : (nodeAt N (nodeAt N rl).parent).parent = -1
  · simp [hp']
  · simp [hp', replace_child_eq, hp hp']

/-- The array `spliceNodes` read field by field. -/
theorem spliceNodes_fields (N : List LocalNode) (rc cc cp j : Int) (hj : 0 ≤ j)
    (hcc : inArr N cc) (hp : cp ≠ -1 → inArr N cp) :
    (nodeAt (spliceNodes N rc cc cp) j).parent =
      (if j = cc then cp else (nodeAt N j).parent) ∧
    (nodeAt (spliceNodes N rc cc cp) j).child0 =
      (if j = cp ∧ (nodeAt N cp).child0 = rc then cc else (nodeAt N j).child0) ∧
    (nodeAt (spliceNodes N rc cc cp) j).child1 =
      (if j = cp ∧ (nodeAt N cp).child0 ≠ rc then cc else (nodeAt N j).child1) ∧
    (nodeAt (spliceNodes N rc cc cp) j).age = (nodeAt N j).age ∧
    (nodeAt (spliceNodes N rc cc cp) j).pop_path = (nodeAt N j).pop_path := by
  have hj1 : j ≠ -1 := by omega
  unfold spliceNodes
  simp only []
  refine ⟨?_, ?_, ?_, ?_, ?_⟩
  · by_cases hp' : cp = -1 <;> by_cases hjc : j = cc <;> simp [*]
  · by_cases hp' : cp = -1 <;> by_cases hjp : j = cp <;>
    by_cases hv : (nodeAt N cp).child0 = rc <;> simp [*] <;> omega
  · by_cases hp' : cp = -1 <;> by_cases hjp : j = cp <;>
    by_cases hv : (nodeAt N cp).child0 = rc <;> simp [*] <;> omega
  · by_cases hp' : cp = -1 <;> simp [*]
  · by_cases hp' : cp = -1 <;> simp [*]


/-! ## Adding a leaf branch -/

/-- A well-formed tree is a tree on the slots `[0, nnodes)`. -/
theorem WellFormed.treeOn {t : LocalTree} (h : WellFormed t) :
    TreeOn (fun x => 0 ≤ x ∧ x < t.nnodes) t.root (fnOf t.nodes) := by
  obtain ⟨rank, hrank⟩ := h.exists_rank
  refine { rootS := h.2.1, rootP := h.2.2.1, nonneg := fun x hx => hx.1, par := ?_, ch := ?_,
           rank := ⟨rank, fun x hx hp => hrank x hx hp⟩ }
  · intro x hx
    rcases h.parent_cases hx with h1 | ⟨h1, -, h3, h4⟩
    · exact Or.inl h1
    · exact Or.inr ⟨h1, h3, h4⟩
  · intro x hx
    have := h.children hx
    unfold ChildrenOk at this
    exact this

/-- A tree on the slots `[0, nnodes)` of an array that holds them is a
well-formed tree. -/
theorem wellFormed_of_treeOn (t : LocalTree) (hcap : t.nnodes ≤ t.nodes.length)
    (h : TreeOn (fun x => 0 ≤ x ∧ x < t.nnodes) t.root (fnOf t.nodes)) : WellFormed t := by
  obtain ⟨rank, hrank⟩ := h.rank
  apply wellFormed_of_rank t rank hcap h.rootS h.rootP
  · intro i h0 h1
    unfold ParentOk
    rcases h.par i ⟨h0, h1⟩ with ⟨a, b⟩ | ⟨a, b, c⟩
    · have a' : (t.node i).parent = -1 := a
      rw [if_pos a']; exact b
    · have a' : (t.node i).parent ≠ -1 := a
      rw [if_neg a']; exact ⟨b, c⟩
  · intro i h0 h1
    exact h.ch i ⟨h0, h1⟩
  · intro i h0 h1 hp
    exact hrank i ⟨h0, h1⟩ hp

theorem relabel_neg (src dest : Int) (hs : 0 ≤ src) : relabel src dest (-1) = -1 := by
  unfold relabel; rw [if_neg]; omega

theorem relabel_inv (src dest x : Int) (hx : x ≠ dest) :
    relabel dest src (relabel src dest x) = x := by
  unfold relabel
  by_cases h : x = src
  · rw [if_pos h, if_pos rfl, h]
  · rw [if_neg h, if_neg hx]

/-- The tree after `rename_node(src, dest)`, seen as a tree on the renamed
slots; also for `src = dest`, where nothing is renamed. -/
theorem treeOn_rename {S : Int → Prop} {root : Int} {N N2 : List LocalNode} (src dest : Int)
    (h : TreeOn S root (fnOf N)) (hs : S src) (hd : src ≠ dest → ¬ S dest) (hd0 : 0 ≤ dest)
    (hiso : IsoOn S (relabel src dest) (fnOf N) (fnOf N2)) :
    TreeOn (fun y => (S y ∧ y ≠ src) ∨ y = dest) (relabel src dest root) (fnOf N2) := by
  have hs0 := h.nonneg _ hs
  apply treeOn_of_iso (relabel src dest) (relabel dest src) h
  · intro x hx
    by_cases hsd : src = dest
    · subst hsd
      unfold relabel
      by_cases hxs : x = src
      · simp [hxs]
      · simp [hxs]
    · exact relabel_inv src dest x (fun e => hd hsd (e ▸ hx))
  · exact relabel_neg src dest hs0
  · intro x hx
    unfold relabel
    split
    · exact hd0
    · exact h.nonneg x hx
  · intro y
    constructor
    · rintro (⟨hy, hys⟩ | hy)
      · exact ⟨y, hy, by simp [relabel, hys]⟩
      · exact ⟨src, hs, by simp [relabel, hy]⟩
    · rintro ⟨x, hx, rfl⟩
      unfold relabel
      by_cases hxs : x = src
      · rw [if_pos hxs]; exact Or.inr rfl
      · rw [if_neg hxs]; exact Or.inl ⟨hx, hxs⟩
  · exact hiso

theorem IsoNodes.isoOn {S : Int → Prop} {σ : Int → Int} {N N2 : List LocalNode}
    (h : IsoNodes S σ N N2) : IsoOn S σ (fnOf N) (fnOf N2) := by
  intro x hx
  have := h x hx
  simp only [fnOf, this, mapNode, and_self]

set_option maxHeartbeats 1000000 in
/-- One renaming step: `rename_node(src, dest)` on a tree on the slots `S`,
with `dest` a free slot of the array (or `src = dest` and no call), gives the
same tree on the renamed slots. -/
theorem rename_step {S : Int → Prop} {root : Int} (N : List LocalNode) (src dest : Int)
    (cond : Bool) (hT : TreeOn S root (fnOf N)) (hA : ∀ x : Int, S x → inArr N x)
    (hs : S src) (hdA : inArr N dest) (hfree : src ≠ dest → ¬ S dest)
    (hcond : cond = true ↔ src ≠ dest) :
    ∃ N2, rename_node_if cond N src dest = some N2 ∧ N2.length = N.length ∧
      IsoNodes S (relabel src dest) N N2 ∧
      TreeOn (fun y => (S y ∧ y ≠ src) ∨ y = dest) (relabel src dest root) (fnOf N2) := by
  by_cases hsd : src = dest
  · have hc : cond = false := by
      cases cond
      · rfl
      · exact absurd hsd (hcond.mp rfl)
    have hiso : IsoNodes S (relabel src dest) N N := by
      intro x hx
      have e : ∀ y : Int, relabel src dest y = y := by
        intro y; unfold relabel; rw [hsd]; split
        · rename_i h; exact h.symm
        · rfl
      unfold mapNode
      simp only [e]
    refine ⟨N, by unfold rename_node_if; rw [hc]; rfl, rfl, hiso, ?_⟩
    exact treeOn_rename src dest hT hs hfree hdA.1 hiso.isoOn
  · have hc : cond = true := hcond.mpr hsd
    have hd := hfree hsd
    have hne : ∀ x : Int, S x → x ≠ dest := fun x hx e => hd (e ▸ hx)
    have hp : (nodeAt N src).parent ≠ -1 →
        inArr N (nodeAt N src).parent ∧ (nodeAt N src).parent ≠ dest := by
      intro h
      rcases hT.par src hs with ⟨h1, -⟩ | ⟨-, h2, -⟩
      · exact absurd h1 h
      · exact ⟨hA _ h2, hne _ h2⟩
    have hc0 : (nodeAt N src).child0 ≠ -1 →
        inArr N (nodeAt N src).child0 ∧ (nodeAt N src).child0 ≠ dest := by
      intro h
      rcases hT.ch src hs with ⟨h1, -⟩ | ⟨h1, -⟩
      · exact absurd h1 h
      · exact ⟨hA _ h1, hne _ h1⟩
    have hc1 : (nodeAt N src).child1 ≠ -1 →
        inArr N (nodeAt N src).child1 ∧ (nodeAt N src).child1 ≠ dest := by
      intro h
      rcases hT.ch src hs with ⟨-, h1⟩ | ⟨-, h1, -⟩
      · exact absurd h1 h
      · exact ⟨hA _ h1, hne _ h1⟩
    have hf := fun j hj => renameNodes_fields N src dest j hj hdA hp hc0 hc1
    have hlink : IsoOn S (relabel src dest) (fnOf N) (fnOf (renameNodes N src dest)) :=
      iso_rename src dest hT hs hd (fun j hj => (hf j hj).1) (fun j hj => (hf j hj).2.1)
        (fun j hj => (hf j hj).2.2.1) hdA.1
    have hiso : IsoNodes S (relabel src dest) N (renameNodes N src dest) := by
      intro x hx
      have hx0 := hT.nonneg x hx
      have hσ0 : 0 ≤ relabel src dest x := by
        unfold relabel; split
        · exact hdA.1
        · exact hx0
      obtain ⟨l1, l2, l3⟩ := hlink x hx
      apply LocalNode.ext_fields
      · exact l1
      · exact l2
      · exact l3
      · rw [(hf _ hσ0).2.2.2.1]
        unfold relabel mapNode
        by_cases hxs : x = src
        · simp [hxs]
        · simp [hxs, hne x hx]
      · rw [(hf _ hσ0).2.2.2.2]
        unfold relabel mapNode
        by_cases hxs : x = src
        · simp [hxs]
        · simp [hxs, hne x hx]
    refine ⟨renameNodes N src dest, ?_, length_renameNodes _ _ _, hiso, ?_⟩
    · unfold rename_node_if
      rw [hc, if_pos rfl]
      exact rename_node_eq N src dest hsd (hA _ hs) hdA hp hc0 hc1
    · exact treeOn_rename src dest hT hs hfree hdA.1 hiso.isoOn

theorem TreeOn.congr {S S2 : Int → Prop} {root : Int} {F : NodeFn} (h : TreeOn S root F)
    (e : ∀ x : Int, S x ↔ S2 x) : TreeOn S2 root F := by
  have : S = S2 := funext fun x => propext (e x)
  rw [← this]; exact h

theorem IsoNodes.comp {S : Int → Prop} {σ σ2 : Int → Int} {N N1 N2 : List LocalNode}
    (h1 : IsoNodes S σ N N1) (h2 : IsoNodes (imageSet S σ) σ2 N1 N2) :
    IsoNodes S (fun x => σ2 (σ x)) N N2 := by
  intro x hx
  rw [h2 (σ x) ⟨x, hx, rfl⟩, h1 x hx]
  rfl

/-- The guarded renaming step
`if (cond) rename_node(tree, src, dest)`: when the call is made, `src` is a
node of the tree and `dest` a free slot of the array. -/
theorem rename_step_if {S : Int → Prop} {root : Int} (N : List LocalNode) (src dest : Int)
    (cond : Bool) (hT : TreeOn S root (fnOf N)) (hA : ∀ x : Int, S x → inArr N x)
    (hs : cond = true → S src ∧ ¬ S dest ∧ inArr N dest) :
    ∃ N2, rename_node_if cond N src dest = some N2 ∧ N2.length = N.length ∧
      IsoNodes S (relabelIf cond src dest) N N2 ∧
      TreeOn (imageSet S (relabelIf cond src dest)) (relabelIf cond src dest root) (fnOf N2) := by
  cases cond with
  | false =>
    refine ⟨N, rfl, rfl, ?_, ?_⟩
    · intro x hx
      show nodeAt N x = mapNode (fun y => y) (nodeAt N x)
      rfl
    · apply hT.congr
      intro x
      constructor
      · intro hx; exact ⟨x, hx, rfl⟩
      · rintro ⟨y, hy, rfl⟩; exact hy
  | true =>
    obtain ⟨h1, h2, h3⟩ := hs rfl
    have hsd : src ≠ dest := fun e => h2 (e ▸ h1)
    obtain ⟨N2, e1, e2, e3, e4⟩ := rename_step N src dest true hT hA h1 h3 (fun _ => h2)
      (by simp [hsd])
    refine ⟨N2, e1, e2, e3, ?_⟩
    apply e4.congr
    intro y
    show _ ↔ ∃ x, S x ∧ relabel src dest x = y
    constructor
    · rintro (⟨hy, hys⟩ | hy)
      · exact ⟨y, hy, by simp [relabel, hys]⟩
      · exact ⟨src, h1, by simp [relabel, hy]⟩
    · rintro ⟨x, hx, rfl⟩
      unfold relabel
      by_cases hxs : x = src
      · rw [if_pos hxs]; exact Or.inr rfl
      · rw [if_neg hxs]; exact Or.inl ⟨hx, hxs⟩

theorem tdiv_two_mul (k : Int) : Int.tdiv (2 * k) 2 = k := by
  exact Int.mul_tdiv_cancel_left k (by decide)

/-- The renaming `src -> dest` is injective on values other than `dest`. -/
theorem relabel_inj (src dest x y : Int) (hx : x ≠ dest) (hy : y ≠ dest)
    (e : relabel src dest x = relabel src dest y) : x = y := by
  rw [← relabel_inv src dest x hx, ← relabel_inv src dest y hy, e]

set_option maxHeartbeats 2000000 in
/-- The renaming step of `add_tree_branch`: the node named `L` (if there is
an internal node) is moved to the free slot `nnodes`. -/
theorem add_rename (t : LocalTree) (hwf : WellFormed t) (hlf : LeavesFirst t)
    (hcap : t.nnodes + 2 ≤ t.nodes.length) :
    ∃ N1, rename_node_if (decide (t.get_num_leaves < t.nnodes)) t.nodes t.get_num_leaves
        t.nnodes = some N1 ∧ N1.length = t.nodes.length ∧
      IsoNodes (fun x => 0 ≤ x ∧ x < t.nnodes) (relabel t.get_num_leaves t.nnodes) t.nodes N1 ∧
      TreeOn (fun y => 0 ≤ y ∧ y ≤ t.nnodes ∧ y ≠ t.get_num_leaves)
        (relabel t.get_num_leaves t.nnodes t.root) (fnOf N1) := by
  have hT := hwf.treeOn
  have hn := hlf.1
  have hr := hwf.2.1
  have hA : ∀ x : Int, (0 ≤ x ∧ x < t.nnodes) → inArr t.nodes x := by
    intro x hx; unfold inArr; omega
  obtain ⟨N1, e1, e2, e3, e4⟩ := rename_step_if t.nodes t.get_num_leaves t.nnodes
    (decide (t.get_num_leaves < t.nnodes)) hT hA (by
      intro hc
      have hc' : t.get_num_leaves < t.nnodes := of_decide_eq_true hc
      refine ⟨⟨by omega, hc'⟩, by omega, ?_⟩
      unfold inArr; omega)
  have hσ : ∀ x : Int, (0 ≤ x ∧ x < t.nnodes) →
      relabelIf (decide (t.get_num_leaves < t.nnodes)) t.get_num_leaves t.nnodes x =
        relabel t.get_num_leaves t.nnodes x := by
    intro x hx
    unfold relabelIf
    by_cases hc : t.get_num_leaves < t.nnodes
    · simp [hc]
    · have : x ≠ t.get_num_leaves := by omega
      simp [hc, relabel, this]
  refine ⟨N1, e1, e2, ?_, ?_⟩
  · intro x hx
    have := e3 x hx
    rw [hσ x hx] at this
    rw [this]
    have hn0 : nodeAt t.nodes x = t.node x := rfl
    unfold mapNode
    -- the links of `x` are nodes or -1
    have hp : (nodeAt t.nodes x).parent = -1 ∨
        (0 ≤ (nodeAt t.nodes x).parent ∧ (nodeAt t.nodes x).parent < t.nnodes) := by
      rcases hT.par x hx with ⟨h1, -⟩ | ⟨-, h2, -⟩
      · exact Or.inl h1
      · exact Or.inr h2
    have hc0 : (nodeAt t.nodes x).child0 = -1 ∨
        (0 ≤ (nodeAt t.nodes x).child0 ∧ (nodeAt t.nodes x).child0 < t.nnodes) := by
      rcases hT.ch x hx with ⟨h1, -⟩ | ⟨h2, -⟩
      · exact Or.inl h1
      · exact Or.inr h2
    have hc1 : (nodeAt t.nodes x).child1 = -1 ∨
        (0 ≤ (nodeAt t.nodes x).child1 ∧ (nodeAt t.nodes x).child1 < t.nnodes) := by
      rcases hT.ch x hx with ⟨-, h1⟩ | ⟨-, h2, -⟩
      · exact Or.inl h1
      · exact Or.inr h2
    have hσ' : ∀ v : Int, (v = -1 ∨ (0 ≤ v ∧ v < t.nnodes)) →
        relabelIf (decide (t.get_num_leaves < t.nnodes)) t.get_num_leaves t.nnodes v =
          relabel t.get_num_leaves t.nnodes v := by
      intro v hv
      rcases hv with hv | hv
      · unfold relabelIf relabel
        have : v ≠ t.get_num_leaves := by omega
        by_cases hc : t.get_num_leaves < t.nnodes
        · simp [hc]
        · simp [hc, this]
      · exact hσ v hv
    rw [hσ' _ hp, hσ' _ hc0, hσ' _ hc1]
  · rw [← hσ _ hr]
    apply e4.congr
    intro y
    constructor
    · rintro ⟨x, hx, rfl⟩
      rw [hσ x hx]
      unfold relabel
      split <;> omega
    · rintro ⟨y0, y1, y2⟩
      by_cases hyn : y = t.nnodes
      · refine ⟨t.get_num_leaves, by omega, ?_⟩
        rw [hσ _ (by omega)]
        simp [relabel, hyn]
      · refine ⟨y, by omega, ?_⟩
        rw [hσ _ (by omega)]
        simp [relabel, y2]

set_option maxHeartbeats 4000000 in
/-- The function `add_tree_branch` on a well-formed tree with its leaves
first: it returns a tree on `nnodes + 2` slots; the old node `x` is found in
slot `σ x` for the renaming `σ = (L -> nnodes)`, with its links renamed,
except that `node` now hangs under the new node `nnodes + 1`, which has taken
its place under its parent. -/
theorem add_tree_branch_spec (t : LocalTree) (node time pp : Int) (hwf : WellFormed t)
    (hlf : LeavesFirst t) (hcap : t.nnodes + 2 ≤ t.nodes.length) (hnode : t.isNode node) :
    ∃ t', add_tree_branch t node time pp = some t' ∧ t'.nnodes = t.nnodes + 2 ∧
      t'.nodes.length = t.nodes.length ∧
      t'.root = (if (t.node node).parent = -1 then t.nnodes + 1
        else relabel t.get_num_leaves t.nnodes t.root) ∧
      TreeOn (fun y => 0 ≤ y ∧ y < t.nnodes + 2) t'.root (fnOf t'.nodes) ∧
      t'.node t.get_num_leaves = ⟨t.nnodes + 1, -1, -1, 0, pp⟩ ∧
      t'.node (t.nnodes + 1) = ⟨relabel t.get_num_leaves t.nnodes (t.node node).parent,
        t.get_num_leaves, relabel t.get_num_leaves t.nnodes node, time, (t.node node).pop_path⟩ ∧
      ∀ x : Int, 0 ≤ x → x < t.nnodes →
        t'.node (relabel t.get_num_leaves t.nnodes x) =
          ⟨if x = node then t.nnodes + 1
              else relabel t.get_num_leaves t.nnodes (t.node x).parent,
            if (t.node x).child0 = node then t.nnodes + 1
              else relabel t.get_num_leaves t.nnodes (t.node x).child0,
            if (t.node x).child1 = node then t.nnodes + 1
              else relabel t.get_num_leaves t.nnodes (t.node x).child1,
            (t.node x).age, (t.node x).pop_path⟩ := by
  have hT := hwf.treeOn
  have hn := hlf.1
  have hr : 0 ≤ t.root ∧ t.root < t.nnodes := hwf.2.1
  have hnode' : 0 ≤ node ∧ node < t.nnodes := hnode
  have hL : 1 ≤ t.get_num_leaves := by omega
  obtain ⟨N1, e1, e2, hiso, hT1⟩ := add_rename t hwf hlf hcap
  -- abbreviations are avoided: the slots are compared by arithmetic
  have hσS : ∀ x : Int, 0 ≤ x → x < t.nnodes →
      (0 ≤ relabel t.get_num_leaves t.nnodes x ∧ relabel t.get_num_leaves t.nnodes x ≤ t.nnodes ∧
        relabel t.get_num_leaves t.nnodes x ≠ t.get_num_leaves) := by
    intro x h0 h1
    unfold relabel
    split <;> omega
  have hσinj : ∀ x y : Int, x < t.nnodes → y < t.nnodes →
      relabel t.get_num_leaves t.nnodes x = relabel t.get_num_leaves t.nnodes y → x = y :=
    fun x y hx hy e => relabel_inj _ _ x y (by omega) (by omega) e
  have hσneg : relabel t.get_num_leaves t.nnodes (-1) = -1 := relabel_neg _ _ (by omega)
  have hA1 : ∀ y : Int, 0 ≤ y → y < t.nnodes + 2 → inArr N1 y := by
    intro y h0 h1; unfold inArr; omega
  -- the node to graft on and its parent, after the renaming
  have hnodeS := hσS node hnode.1 hnode.2
  have hisoN := hiso node hnode
  have hP1 : (nodeAt N1 (relabel t.get_num_leaves t.nnodes node)).parent =
      relabel t.get_num_leaves t.nnodes (t.node node).parent := by
    rw [hisoN]; rfl
  have hparent : (t.node node).parent = -1 ∨
      (0 ≤ (t.node node).parent ∧ (t.node node).parent < t.nnodes) := by
    rcases hT.par node hnode with ⟨h1, -⟩ | ⟨-, h2, -⟩
    · exact Or.inl h1
    · exact Or.inr h2
  have hp2 : relabel t.get_num_leaves t.nnodes (t.node node).parent ≠ -1 →
      (0 ≤ relabel t.get_num_leaves t.nnodes (t.node node).parent ∧
       relabel t.get_num_leaves t.nnodes (t.node node).parent ≤ t.nnodes ∧
       relabel t.get_num_leaves t.nnodes (t.node node).parent ≠ t.get_num_leaves) := by
    intro h
    rcases hparent with h1 | h1
    · rw [h1, hσneg] at h; exact absurd rfl h
    · exact hσS _ h1.1 h1.2
  have hp2neg : relabel t.get_num_leaves t.nnodes (t.node node).parent = -1 ↔
      (t.node node).parent = -1 := by
    constructor
    · intro h
      rcases hparent with h1 | h1
      · exact h1
      · have := hσS _ h1.1 h1.2; omega
    · intro h; rw [h, hσneg]
  have hfields := fun j hj => graftNodes_fields N1 t.get_num_leaves (t.nnodes + 1)
    (relabel t.get_num_leaves t.nnodes (t.node node).parent)
    (relabel t.get_num_leaves t.nnodes node) time pp j hj
    (hA1 _ (by omega) (by omega)) (hA1 _ (by omega) (by omega))
    (hA1 _ hnodeS.1 (by omega)) (by omega) hnodeS.2.2 (by omega)
    (fun h => ⟨hA1 _ (hp2 h).1 (by have := (hp2 h).2.1; omega), (hp2 h).2.2,
      by have := (hp2 h).2.1; omega⟩)
  have heq := graft_eq N1 t.get_num_leaves (t.nnodes + 1)
    (relabel t.get_num_leaves t.nnodes (t.node node).parent)
    (relabel t.get_num_leaves t.nnodes node) time pp
    (hA1 _ (by omega) (by omega)) (hA1 _ (by omega) (by omega))
    (hA1 _ hnodeS.1 (by omega)) (by omega) hnodeS.2.2 (by omega)
    (fun h => hA1 _ (hp2 h).1 (by have := (hp2 h).2.1; omega))
  -- the tree after grafting
  have hT2 := @treeOn_graft _ _ _ (fnOf (graftNodes N1 t.get_num_leaves (t.nnodes + 1)
      (relabel t.get_num_leaves t.nnodes (t.node node).parent)
      (relabel t.get_num_leaves t.nnodes node) time pp))
    (relabel t.get_num_leaves t.nnodes node) t.get_num_leaves (t.nnodes + 1) hT1
    hnodeS (by intro h; exact h.2.2 rfl) (by intro h; omega) (by omega) (by omega) (by omega)
    (fun j hj => by
      show (nodeAt _ j).parent = _
      rw [(hfields j hj).1]
      show _ = if j = _ then _ else if j = _ then (nodeAt N1 _).parent else _
      rw [hP1]; rfl)
    (fun j hj => by
      show (nodeAt _ j).child0 = _
      rw [(hfields j hj).2.1]
      show _ = if j = _ then _ else if j = _ then _
        else if j = (nodeAt N1 _).parent ∧ (nodeAt N1 (nodeAt N1 _).parent).child0 = _ then _
        else _
      rw [hP1]; rfl)
    (fun j hj => by
      show (nodeAt _ j).child1 = _
      rw [(hfields j hj).2.2.1]
      show _ = if j = _ then _ else if j = _ then _
        else if j = (nodeAt N1 _).parent ∧ (nodeAt N1 (nodeAt N1 _).parent).child0 ≠ _ then _
        else _
      rw [hP1]; rfl)
  have hfnP : (fnOf N1).P (relabel t.get_num_leaves t.nnodes node) =
      relabel t.get_num_leaves t.nnodes (t.node node).parent := hP1
  rw [hfnP] at hT2
  have hnc := hfields (t.nnodes + 1) (by omega)
  have hncP : (nodeAt (graftNodes N1 t.get_num_leaves (t.nnodes + 1)
      (relabel t.get_num_leaves t.nnodes (t.node node).parent)
      (relabel t.get_num_leaves t.nnodes node) time pp) (t.nnodes + 1)).parent =
      relabel t.get_num_leaves t.nnodes (t.node node).parent := by
    rw [hnc.1, if_neg (by omega), if_pos rfl]
  refine ⟨{ nnodes := t.nnodes + 2,
            root := if (t.node node).parent = -1 then t.nnodes + 1
              else relabel t.get_num_leaves t.nnodes t.root,
            nodes := graftNodes N1 t.get_num_leaves (t.nnodes + 1)
              (relabel t.get_num_leaves t.nnodes (t.node node).parent)
              (relabel t.get_num_leaves t.nnodes node) time pp }, ?_, rfl, ?_, rfl, ?_, ?_, ?_, ?_⟩
  · -- the run of the function
    unfold add_tree_branch
    have hc : assertion (decide (t.capacity ≥ t.nnodes + 2)) = some () := by
      apply assertion_of
      unfold LocalTree.capacity
      simp; omega
    have hnA : inArr t.nodes node := by unfold inArr; omega
    have en : (if node ≠ t.get_num_leaves then node else t.nnodes) =
        relabel t.get_num_leaves t.nnodes node := by
      unfold relabel; by_cases h : node = t.get_num_leaves <;> simp [h]
    have ep : (if (nodeAt t.nodes node).parent ≠ t.get_num_leaves then (nodeAt t.nodes node).parent
        else t.nnodes) = relabel t.get_num_leaves t.nnodes (t.node node).parent := by
      unfold relabel LocalTree.node
      by_cases h : (nodeAt t.nodes node).parent = t.get_num_leaves <;> simp [h]
    have er : (if t.root ≠ t.get_num_leaves then t.root else t.nnodes) =
        relabel t.get_num_leaves t.nnodes t.root := by
      unfold relabel; by_cases h : t.root = t.get_num_leaves <;> simp [h]
    obtain ⟨M, hM1, hM2⟩ := Option.bind_eq_some.mp heq
    simp only [hc, Option.some_bind, getNode_eq hnA, en, ep, e1, er, hM1, hM2]
    have hncA : inArr (graftNodes N1 t.get_num_leaves (t.nnodes + 1)
        (relabel t.get_num_leaves t.nnodes (t.node node).parent)
        (relabel t.get_num_leaves t.nnodes node) time pp) (t.nnodes + 1) := by
      unfold inArr; rw [length_graftNodes]; omega
    simp only [Option.some_bind, getNode_eq hncA, hncP, hp2neg]
  · show (graftNodes _ _ _ _ _ _ _).length = _
    rw [length_graftNodes, e2]
  · -- the tree
    show TreeOn _ (if (t.node node).parent = -1 then t.nnodes + 1
      else relabel t.get_num_leaves t.nnodes t.root) _
    have hroot2 : (if relabel t.get_num_leaves t.nnodes (t.node node).parent = -1
        then t.nnodes + 1 else relabel t.get_num_leaves t.nnodes t.root) =
        (if (t.node node).parent = -1 then t.nnodes + 1
          else relabel t.get_num_leaves t.nnodes t.root) := by
      by_cases h : (t.node node).parent = -1
      · rw [if_pos h, if_pos (hp2neg.mpr h)]
      · rw [if_neg h, if_neg (fun e => h (hp2neg.mp e))]
    rw [hroot2] at hT2
    apply hT2.congr
    intro y
    constructor
    · rintro (⟨h0, h1, h2⟩ | h | h) <;> omega
    · rintro ⟨h0, h1⟩
      by_cases hy1 : y = t.get_num_leaves
      · exact Or.inr (Or.inl hy1)
      · by_cases hy2 : y = t.nnodes + 1
        · exact Or.inr (Or.inr hy2)
        · exact Or.inl ⟨h0, by omega, hy1⟩
  · -- the new leaf
    have hl := hfields t.get_num_leaves (by omega)
    apply LocalNode.ext_fields
    · exact hl.1.trans (if_pos rfl)
    · exact hl.2.1.trans (if_pos rfl)
    · exact hl.2.2.1.trans (if_pos rfl)
    · exact hl.2.2.2.1.trans (if_pos rfl)
    · exact hl.2.2.2.2.trans (if_pos rfl)
  · -- the new coal node
    have hne : t.nnodes + 1 ≠ t.get_num_leaves := by omega
    apply LocalNode.ext_fields
    · exact hncP
    · exact hnc.2.1.trans (by rw [if_neg hne, if_pos rfl])
    · exact hnc.2.2.1.trans (by rw [if_neg hne, if_pos rfl])
    · exact hnc.2.2.2.1.trans (by rw [if_neg hne, if_pos rfl])
    · refine hnc.2.2.2.2.trans ?_
      rw [if_neg hne, if_pos rfl, hisoN]
      rfl
  · -- the old nodes
    intro x h0 h1
    have hxS := hσS x h0 h1
    have hf := hfields _ hxS.1
    have hix := hiso x ⟨h0, h1⟩
    have hxl : relabel t.get_num_leaves t.nnodes x ≠ t.get_num_leaves := hxS.2.2
    have hxc : relabel t.get_num_leaves t.nnodes x ≠ t.nnodes + 1 := by omega
    have hxn : relabel t.get_num_leaves t.nnodes x = relabel t.get_num_leaves t.nnodes node ↔
        x = node := ⟨fun e => hσinj _ _ h1 hnode.2 e, fun e => by rw [e]⟩
    -- the children of `x` that are `node`
    have hchild0 : (relabel t.get_num_leaves t.nnodes x =
          relabel t.get_num_leaves t.nnodes (t.node node).parent ∧
        (nodeAt N1 (relabel t.get_num_leaves t.nnodes (t.node node).parent)).child0 =
          relabel t.get_num_leaves t.nnodes node) ↔ (t.node x).child0 = node := by
      constructor
      · rintro ⟨a, b⟩
        rcases hparent with hp | hp
        · rw [hp, hσneg] at a; omega
        · have hxp : x = (t.node node).parent := hσinj _ _ h1 hp.2 a
          rw [← hxp, hix] at b
          have b' : relabel t.get_num_leaves t.nnodes (t.node x).child0 =
              relabel t.get_num_leaves t.nnodes node := b
          rcases hT.ch x ⟨h0, h1⟩ with ⟨c, -⟩ | ⟨c, -⟩
          · have c' : (t.node x).child0 = -1 := c
            rw [c', hσneg] at b'; omega
          · exact hσinj _ _ c.2 hnode.2 b'
      · intro hc
        have hpx : (t.node node).parent = x := by
          rcases hT.ch x ⟨h0, h1⟩ with ⟨c, -⟩ | ⟨-, -, -, c, -⟩
          · have c' : (t.node x).child0 = -1 := c
            have := hnode.1; omega
          · have c' : (t.node (t.node x).child0).parent = x := c
            rw [hc] at c'; exact c'
        refine ⟨by rw [hpx], ?_⟩
        rw [hpx, hix]
        show relabel _ _ (t.node x).child0 = _
        rw [hc]
    have hchild1 : (relabel t.get_num_leaves t.nnodes x =
          relabel t.get_num_leaves t.nnodes (t.node node).parent ∧
        (nodeAt N1 (relabel t.get_num_leaves t.nnodes (t.node node).parent)).child0 ≠
          relabel t.get_num_leaves t.nnodes node) ↔ (t.node x).child1 = node := by
      constructor
      · rintro ⟨a, b⟩
        rcases hparent with hp | hp
        · rw [hp, hσneg] at a; omega
        · have hxp : x = (t.node node).parent := hσinj _ _ h1 hp.2 a
          rw [← hxp, hix] at b
          have b' : relabel t.get_num_leaves t.nnodes (t.node x).child0 ≠
              relabel t.get_num_leaves t.nnodes node := b
          have hpn : (fnOf t.nodes).P node ≠ -1 := by
            show (t.node node).parent ≠ -1
            omega
          obtain ⟨-, -, -, -, -, -, c7⟩ := hT.child_cases hnode hpn
          have c7' : (t.node (t.node node).parent).child0 = node ∨
              (t.node (t.node node).parent).child1 = node := c7
          rw [← hxp] at c7'
          rcases c7' with c | c
          · rw [c] at b'; exact absurd rfl b'
          · exact c
      · intro hc
        rcases hT.ch x ⟨h0, h1⟩ with ⟨-, c⟩ | ⟨-, -, c3, -, c5⟩
        · have c' : (t.node x).child1 = -1 := c
          have := hnode.1; omega
        · have c5' : (t.node (t.node x).child1).parent = x := c5
          have c3' : (t.node x).child0 ≠ (t.node x).child1 := c3
          rw [hc] at c5' c3'
          refine ⟨by rw [c5'], ?_⟩
          rw [c5', hix]
          show relabel _ _ (t.node x).child0 ≠ _
          intro e
          rcases hT.ch x ⟨h0, h1⟩ with ⟨d, -⟩ | ⟨d, -⟩
          · have d' : (t.node x).child0 = -1 := d
            rw [d', hσneg] at e; have := hnodeS.1; omega
          · exact c3' (hσinj _ _ d.2 hnode.2 e)
    apply LocalNode.ext_fields
    · refine hf.1.trans ?_
      rw [if_neg hxl, if_neg hxc, hix]
      by_cases hxn' : x = node
      · rw [if_pos (hxn.mpr hxn'), if_pos hxn']
      · rw [if_neg (fun e => hxn' (hxn.mp e)), if_neg hxn']; rfl
    · refine hf.2.1.trans ?_
      rw [if_neg hxl, if_neg hxc]
      by_cases hc : (t.node x).child0 = node
      · rw [if_pos (hchild0.mpr hc), if_pos hc]
      · rw [if_neg (fun e => hc (hchild0.mp e)), if_neg hc, hix]; rfl
    · refine hf.2.2.1.trans ?_
      rw [if_neg hxl, if_neg hxc]
      by_cases hc : (t.node x).child1 = node
      · rw [if_pos (hchild1.mpr hc), if_pos hc]
      · rw [if_neg (fun e => hc (hchild1.mp e)), if_neg hc, hix]; rfl
    · refine hf.2.2.2.1.trans ?_
      rw [if_neg hxl, if_neg hxc, hix]; rfl
    · refine hf.2.2.2.2.trans ?_
      rw [if_neg hxl, if_neg hxc, hix]; rfl

set_option maxHeartbeats 2000000 in
/-- Core of claim C8: `add_tree_branch` gives a well-formed tree with its
leaves first, described by `AddBranchResult`. -/
theorem add_tree_branch_wellFormed (t : LocalTree) (node time pp : Int) (hwf : WellFormed t)
    (hlf : LeavesFirst t) (hcap : t.nnodes + 2 ≤ t.nodes.length) (hnode : t.isNode node) :
    ∃ t', add_tree_branch t node time pp = some t' ∧ WellFormed t' ∧ LeavesFirst t' ∧
      t'.get_num_leaves = t.get_num_leaves + 1 ∧ AddBranchResult t node time pp t' := by
  obtain ⟨t', h1, h2, h3, h4, h5, h6, h7, h8⟩ :=
    add_tree_branch_spec t node time pp hwf hlf hcap hnode
  have hn := hlf.1
  have hr : 0 ≤ t.root ∧ t.root < t.nnodes := hwf.2.1
  have hnode' : 0 ≤ node ∧ node < t.nnodes := hnode
  have hL : 1 ≤ t.get_num_leaves := by omega
  have hT := hwf.treeOn
  have hleaves : t'.get_num_leaves = t.get_num_leaves + 1 := by
    unfold LocalTree.get_num_leaves
    rw [h2]
    have : t.nnodes + 2 + 1 = 2 * (t.get_num_leaves + 1) := by omega
    rw [this, tdiv_two_mul]
    rfl
  refine ⟨t', h1, ?_, ?_, hleaves, ⟨h2, h4, h6, h7, h8⟩⟩
  · apply wellFormed_of_treeOn t' (by rw [h2, h3]; exact hcap)
    rw [h2]; exact h5
  · refine ⟨by rw [hleaves, h2]; omega, ?_⟩
    intro i i0 i1
    rw [h2] at i1
    rw [hleaves]
    by_cases hi1 : i = t.get_num_leaves
    · rw [hi1, h6]
      simp
    · by_cases hi2 : i = t.nnodes + 1
      · rw [hi2, h7]
        show t.get_num_leaves = -1 ↔ _
        constructor
        · intro h; omega
        · intro h; omega
      · -- an old node
        have hσneg : ∀ v : Int, relabel t.get_num_leaves t.nnodes v = -1 ↔ v = -1 := by
          intro v; unfold relabel; split <;> omega
        have key : ∀ x : Int, 0 ≤ x → x < t.nnodes →
            ((t'.node (relabel t.get_num_leaves t.nnodes x)).child0 = -1 ↔
              relabel t.get_num_leaves t.nnodes x < t.get_num_leaves + 1) := by
          intro x x0 x1
          rw [h8 x x0 x1]
          show (if (t.node x).child0 = node then t.nnodes + 1
            else relabel t.get_num_leaves t.nnodes (t.node x).child0) = -1 ↔ _
          have hx := hlf.2 x x0 x1
          have e1 : (if (t.node x).child0 = node then t.nnodes + 1
              else relabel t.get_num_leaves t.nnodes (t.node x).child0) = -1 ↔
              (t.node x).child0 = -1 := by
            by_cases hc : (t.node x).child0 = node
            · rw [if_pos hc]
              constructor
              · intro h; omega
              · intro h; omega
            · rw [if_neg hc]; exact hσneg _
          rw [e1, hx]
          unfold relabel
          split <;> omega
        by_cases hin : i = t.nnodes
        · have := key t.get_num_leaves (by omega) (by omega)
          have e : relabel t.get_num_leaves t.nnodes t.get_num_leaves = t.nnodes := by
            simp [relabel]
          rw [e] at this
          rw [hin]; exact this
        · have := key i i0 (by omega)
          have e : relabel t.get_num_leaves t.nnodes i = i := by
            simp [relabel, hi1]
          rw [e] at this
          exact this


/-! ## Adding and removing the same leaf branch -/

set_option maxHeartbeats 4000000 in
/-- After `add_tree_branch`, the block "remove coal node" of
`remove_tree_branch` for the new leaf gives back the old nodes, still renamed
by `σ = (L -> nnodes)`. -/
theorem add_then_splice (t t' : LocalTree) (node time pp : Int) (hwf : WellFormed t)
    (hlf : LeavesFirst t) (hcap : t.nnodes + 2 ≤ t.nodes.length) (hnode : t.isNode node)
    (hlen : t'.nodes.length = t.nodes.length)
    (hres : AddBranchResult t node time pp t') (ntimes : Int) :
    remove_coal_node t'.nodes t.get_num_leaves none ntimes =
      some (spliceNodes t'.nodes (t.nnodes + 1) (relabel t.get_num_leaves t.nnodes node)
        (relabel t.get_num_leaves t.nnodes (t.node node).parent), t.nnodes + 1,
        relabel t.get_num_leaves t.nnodes node,
        relabel t.get_num_leaves t.nnodes (t.node node).parent) ∧
    IsoNodes (fun x => 0 ≤ x ∧ x < t.nnodes) (relabel t.get_num_leaves t.nnodes) t.nodes
      (spliceNodes t'.nodes (t.nnodes + 1) (relabel t.get_num_leaves t.nnodes node)
        (relabel t.get_num_leaves t.nnodes (t.node node).parent)) := by
  obtain ⟨h2, h4, h6, h7, h8⟩ := hres
  have hT := hwf.treeOn
  have hn := hlf.1
  have hr : 0 ≤ t.root ∧ t.root < t.nnodes := hwf.2.1
  have hnode' : 0 ≤ node ∧ node < t.nnodes := hnode
  have hL : 1 ≤ t.get_num_leaves := by omega
  have hσS : ∀ x : Int, 0 ≤ x → x < t.nnodes →
      (0 ≤ relabel t.get_num_leaves t.nnodes x ∧ relabel t.get_num_leaves t.nnodes x ≤ t.nnodes ∧
        relabel t.get_num_leaves t.nnodes x ≠ t.get_num_leaves) := by
    intro x h0 h1
    unfold relabel
    split <;> omega
  have hσinj : ∀ x y : Int, x < t.nnodes → y < t.nnodes →
      relabel t.get_num_leaves t.nnodes x = relabel t.get_num_leaves t.nnodes y → x = y :=
    fun x y hx hy e => relabel_inj _ _ x y (by omega) (by omega) e
  have hσneg : relabel t.get_num_leaves t.nnodes (-1) = -1 := relabel_neg _ _ (by omega)
  -- a link of the old tree, renamed, is -1 or a slot up to `nnodes`
  have hσle : ∀ v : Int, (v = -1 ∨ (0 ≤ v ∧ v < t.nnodes)) →
      relabel t.get_num_leaves t.nnodes v ≠ t.nnodes + 1 := by
    intro v hv
    unfold relabel
    split <;> omega
  have hA : ∀ y : Int, 0 ≤ y → y < t.nnodes + 2 → inArr t'.nodes y := by
    intro y h0 h1; unfold inArr; omega
  have hparent : (t.node node).parent = -1 ∨
      (0 ≤ (t.node node).parent ∧ (t.node node).parent < t.nnodes) := by
    rcases hT.par node hnode with ⟨h1, -⟩ | ⟨-, h2, -⟩
    · exact Or.inl h1
    · exact Or.inr h2
  have hnodeS := hσS node hnode.1 hnode.2
  have e6 : nodeAt t'.nodes t.get_num_leaves = ⟨t.nnodes + 1, -1, -1, 0, pp⟩ := h6
  have e7 : nodeAt t'.nodes (t.nnodes + 1) =
      ⟨relabel t.get_num_leaves t.nnodes (t.node node).parent, t.get_num_leaves,
        relabel t.get_num_leaves t.nnodes node, time, (t.node node).pop_path⟩ := h7
  have hcpA : relabel t.get_num_leaves t.nnodes (t.node node).parent ≠ -1 →
      inArr t'.nodes (relabel t.get_num_leaves t.nnodes (t.node node).parent) := by
    intro h
    rcases hparent with hp | hp
    · rw [hp, hσneg] at h; exact absurd rfl h
    · have := hσS _ hp.1 hp.2
      exact hA _ this.1 (by omega)
  constructor
  · have := remove_coal_node_eq t'.nodes t.get_num_leaves ntimes (hA _ (by omega) (by omega))
      (by simp only [e6]; exact hA _ (by omega) (by omega))
      (by simp only [e6, e7, if_true]; exact hA _ hnodeS.1 (by omega))
      (by simp only [e6, e7]; exact hcpA)
    rw [this]
    simp only [e6, e7, if_true]
  · intro x hx
    have hxS := hσS x hx.1 hx.2
    have hf := spliceNodes_fields t'.nodes (t.nnodes + 1)
      (relabel t.get_num_leaves t.nnodes node)
      (relabel t.get_num_leaves t.nnodes (t.node node).parent)
      (relabel t.get_num_leaves t.nnodes x) hxS.1 (hA _ hnodeS.1 (by omega)) hcpA
    have hx8 : nodeAt t'.nodes (relabel t.get_num_leaves t.nnodes x) = _ := h8 x hx.1 hx.2
    have hxn : relabel t.get_num_leaves t.nnodes x = relabel t.get_num_leaves t.nnodes node ↔
        x = node := ⟨fun e => hσinj _ _ hx.2 hnode.2 e, fun e => by rw [e]⟩
    have hxp : relabel t.get_num_leaves t.nnodes x =
        relabel t.get_num_leaves t.nnodes (t.node node).parent ↔ x = (t.node node).parent := by
      constructor
      · intro e
        rcases hparent with hp | hp
        · rw [hp, hσneg] at e; omega
        · exact hσinj _ _ hx.2 hp.2 e
      · intro e; rw [← e]
    have hc0 : (t.node x).child0 = -1 ∨ (0 ≤ (t.node x).child0 ∧ (t.node x).child0 < t.nnodes) := by
      rcases hT.ch x hx with ⟨h1, -⟩ | ⟨h2, -⟩
      · exact Or.inl h1
      · exact Or.inr h2
    have hc1 : (t.node x).child1 = -1 ∨ (0 ≤ (t.node x).child1 ∧ (t.node x).child1 < t.nnodes) := by
      rcases hT.ch x hx with ⟨-, h1⟩ | ⟨-, h2, -⟩
      · exact Or.inl h1
      · exact Or.inr h2
    -- the child slot of the parent of `node`
    have hpc : ∀ y : Int, (0 ≤ y ∧ y < t.nnodes) →
        (nodeAt t'.nodes (relabel t.get_num_leaves t.nnodes y)).child0 =
          (if (t.node y).child0 = node then t.nnodes + 1
            else relabel t.get_num_leaves t.nnodes (t.node y).child0) := by
      intro y hy
      have : nodeAt t'.nodes (relabel t.get_num_leaves t.nnodes y) = _ := h8 y hy.1 hy.2
      rw [this]
    apply LocalNode.ext_fields
    · rw [hf.1, hx8]
      show (if _ then _ else (if x = node then t.nnodes + 1 else _)) = _
      by_cases hxn' : x = node
      · rw [if_pos (hxn.mpr hxn'), hxn']; rfl
      · rw [if_neg (fun e => hxn' (hxn.mp e)), if_neg hxn']; rfl
    · rw [hf.2.1, hx8]
      show (if _ then _ else (if (t.node x).child0 = node then t.nnodes + 1 else _)) = _
      by_cases hc : (t.node x).child0 = node
      · have hxpar : x = (t.node node).parent := by
          rcases hT.ch x hx with ⟨c, -⟩ | ⟨-, -, -, c, -⟩
          · have c' : (t.node x).child0 = -1 := c
            omega
          · have c' : (t.node (t.node x).child0).parent = x := c
            rw [hc] at c'; exact c'.symm
        rw [if_pos ⟨hxp.mpr hxpar, by rw [← hxpar, hpc x hx, if_pos hc]⟩]
        show _ = relabel _ _ (t.node x).child0
        rw [hc]
      · rw [if_neg hc, if_neg]
        · rfl
        · rintro ⟨a, b⟩
          have hxpar := hxp.mp a
          rw [← hxpar, hpc x hx, if_neg hc] at b
          exact hσle _ hc0 b
    · rw [hf.2.2.1, hx8]
      show (if _ then _ else (if (t.node x).child1 = node then t.nnodes + 1 else _)) = _
      by_cases hc : (t.node x).child1 = node
      · have hxpar : x = (t.node node).parent ∧ (t.node x).child0 ≠ node := by
          rcases hT.ch x hx with ⟨-, c⟩ | ⟨-, -, c3, -, c5⟩
          · have c' : (t.node x).child1 = -1 := c
            omega
          · have c5' : (t.node (t.node x).child1).parent = x := c5
            have c3' : (t.node x).child0 ≠ (t.node x).child1 := c3
            rw [hc] at c5' c3'
            exact ⟨c5'.symm, c3'⟩
        rw [if_pos ⟨hxp.mpr hxpar.1, by
          rw [← hxpar.1, hpc x hx, if_neg hxpar.2]; exact hσle _ hc0⟩]
        show _ = relabel _ _ (t.node x).child1
        rw [hc]
      · rw [if_neg hc, if_neg]
        · rfl
        · rintro ⟨a, b⟩
          have hxpar := hxp.mp a
          rw [← hxpar, hpc x hx] at b
          have hpn : (fnOf t.nodes).P node ≠ -1 := by
            show (t.node node).parent ≠ -1
            rw [← hxpar]; omega
          obtain ⟨-, -, -, -, -, -, c7⟩ := hT.child_cases hnode hpn
          have c7' : (t.node (t.node node).parent).child0 = node ∨
              (t.node (t.node node).parent).child1 = node := c7
          rw [← hxpar] at c7'
          rcases c7' with c | c
          · rw [if_pos c] at b; exact b rfl
          · exact hc c
    · rw [hf.2.2.2.1, hx8]; rfl
    · rw [hf.2.2.2.2, hx8]; rfl

theorem displace_set_none (cond : Bool) (i v : Int) :
    displace_set cond none i v = some none := by
  unfold displace_set; cases cond <;> rfl

set_option maxHeartbeats 4000000 in
/-- Core of claim C9: `add_tree_branch` followed by `remove_tree_branch` of the
new leaf gives back the nodes, the root and `nnodes` of the tree. -/
theorem add_remove_round_trip (t : LocalTree) (node time pp ntimes : Int)
    (hwf : WellFormed t) (hlf : LeavesFirst t) (hcap : t.nnodes + 2 ≤ t.nodes.length)
    (hnode : t.isNode node) :
    ∃ t' t'', add_tree_branch t node time pp = some t' ∧
      remove_tree_branch t' t.get_num_leaves none ntimes none = some (t'', none) ∧
      t''.nnodes = t.nnodes ∧ t''.root = t.root ∧
      ∀ i : Int, 0 ≤ i → i < t.nnodes → t''.node i = t.node i := by
  obtain ⟨t', h1, h2, h3, h4, h5, h6, h7, h8⟩ :=
    add_tree_branch_spec t node time pp hwf hlf hcap hnode
  have hres : AddBranchResult t node time pp t' := ⟨h2, h4, h6, h7, h8⟩
  obtain ⟨hsplice, hiso⟩ := add_then_splice t t' node time pp hwf hlf hcap hnode h3 hres ntimes
  have hT := hwf.treeOn
  have hn := hlf.1
  have hr : 0 ≤ t.root ∧ t.root < t.nnodes := hwf.2.1
  have hnode' : 0 ≤ node ∧ node < t.nnodes := hnode
  have hL : 1 ≤ t.get_num_leaves := by omega
  have hleaves : t'.get_num_leaves = t.get_num_leaves + 1 := by
    unfold LocalTree.get_num_leaves
    rw [h2]
    have : t.nnodes + 2 + 1 = 2 * (t.get_num_leaves + 1) := by omega
    rw [this, tdiv_two_mul]
    rfl
  have hσneg : relabel t.get_num_leaves t.nnodes (-1) = -1 := relabel_neg _ _ (by omega)
  have hτσ : ∀ v : Int, v ≠ t.nnodes →
      relabel t.nnodes t.get_num_leaves (relabel t.get_num_leaves t.nnodes v) = v :=
    fun v hv => relabel_inv _ _ v hv
  -- the tree after the splice
  have hT1 : TreeOn (imageSet (fun x => 0 ≤ x ∧ x < t.nnodes)
      (relabel t.get_num_leaves t.nnodes)) (relabel t.get_num_leaves t.nnodes t.root)
      (fnOf (spliceNodes t'.nodes (t.nnodes + 1) (relabel t.get_num_leaves t.nnodes node)
        (relabel t.get_num_leaves t.nnodes (t.node node).parent))) := by
    apply treeOn_of_iso (relabel t.get_num_leaves t.nnodes)
      (relabel t.nnodes t.get_num_leaves) hT
    · intro x hx; exact hτσ x (by omega)
    · exact hσneg
    · intro x hx; unfold relabel; split <;> omega
    · intro y; exact Iff.rfl
    · exact hiso.isoOn
  -- the renaming back
  have hback : ∃ N4, rename_node_if true
      (spliceNodes t'.nodes (t.nnodes + 1) (relabel t.get_num_leaves t.nnodes node)
        (relabel t.get_num_leaves t.nnodes (t.node node).parent)) t.nnodes t.get_num_leaves =
        some N4 ∧
      ∀ i : Int, 0 ≤ i → i < t.nnodes → nodeAt N4 i = nodeAt t.nodes i := by
    -- the links of an old node are -1 or old nodes
    have hmap : ∀ i : Int, 0 ≤ i → i < t.nnodes →
        mapNode (relabel t.nnodes t.get_num_leaves)
          (mapNode (relabel t.get_num_leaves t.nnodes) (nodeAt t.nodes i)) = nodeAt t.nodes i := by
      intro i i0 i1
      have hp : (nodeAt t.nodes i).parent ≠ t.nnodes := by
        rcases hT.par i ⟨i0, i1⟩ with ⟨a, -⟩ | ⟨-, a, -⟩
        · have a' : (nodeAt t.nodes i).parent = -1 := a
          omega
        · have a' : 0 ≤ (nodeAt t.nodes i).parent ∧ (nodeAt t.nodes i).parent < t.nnodes := a
          omega
      have hc : (nodeAt t.nodes i).child0 ≠ t.nnodes ∧ (nodeAt t.nodes i).child1 ≠ t.nnodes := by
        rcases hT.ch i ⟨i0, i1⟩ with ⟨a, b⟩ | ⟨a, b, -⟩
        · have a' : (nodeAt t.nodes i).child0 = -1 := a
          have b' : (nodeAt t.nodes i).child1 = -1 := b
          omega
        · have a' : 0 ≤ (nodeAt t.nodes i).child0 ∧ (nodeAt t.nodes i).child0 < t.nnodes := a
          have b' : 0 ≤ (nodeAt t.nodes i).child1 ∧ (nodeAt t.nodes i).child1 < t.nnodes := b
          omega
      unfold mapNode
      simp only [hτσ _ hp, hτσ _ hc.1, hτσ _ hc.2]
    by_cases hLn : t.get_num_leaves = t.nnodes
    · refine ⟨spliceNodes t'.nodes (t.nnodes + 1) (relabel t.get_num_leaves t.nnodes node)
          (relabel t.get_num_leaves t.nnodes (t.node node).parent),
        by unfold rename_node_if rename_node; rw [if_pos rfl, if_pos hLn.symm], ?_⟩
      intro i i0 i1
      have := hiso i ⟨i0, i1⟩
      have e : ∀ v : Int, relabel t.get_num_leaves t.nnodes v = v := by
        intro v; unfold relabel; rw [hLn]; split
        · rename_i h; exact h.symm
        · rfl
      rw [e i] at this
      rw [this]
      unfold mapNode
      simp only [e]
    · obtain ⟨N4, e1, e2, e3, e4⟩ := rename_step
        (spliceNodes t'.nodes (t.nnodes + 1) (relabel t.get_num_leaves t.nnodes node)
          (relabel t.get_num_leaves t.nnodes (t.node node).parent))
        t.nnodes t.get_num_leaves true hT1
        (by
          rintro y ⟨x, hx, rfl⟩
          unfold inArr
          rw [length_spliceNodes, h3]
          unfold relabel
          split <;> omega)
        ⟨t.get_num_leaves, by omega, by simp [relabel]⟩
        (by unfold inArr; rw [length_spliceNodes, h3]; omega)
        (by
          rintro - ⟨x, hx, e⟩
          unfold relabel at e
          split at e <;> omega)
        (by simp; omega)
      refine ⟨N4, e1, ?_⟩
      intro i i0 i1
      have := e3 (relabel t.get_num_leaves t.nnodes i) ⟨i, ⟨i0, i1⟩, rfl⟩
      rw [hτσ i (by omega), hiso i ⟨i0, i1⟩] at this
      rw [this]
      exact hmap i i0 i1
  obtain ⟨N4, hN4, hnodes⟩ := hback
  refine ⟨t', { nnodes := t'.nnodes - 2,
                root := remove_new_root t'.root t'.nnodes (t.nnodes + 1)
                  (relabel t.get_num_leaves t.nnodes node) (t'.get_num_leaves - 1)
                  (if t.nnodes + 1 ≠ t'.nnodes - 2 then t.nnodes + 1
                    else t'.get_num_leaves - 1),
                nodes := N4 }, h1, ?_, ?_, ?_, ?_⟩
  · unfold remove_tree_branch
    have c1 : decide (t'.get_num_leaves - 1 ≠ t.get_num_leaves) = false :=
      decide_eq_false (by omega)
    have c2 : decide (t.nnodes + 1 ≠ t'.nnodes - 2) = true :=
      decide_eq_true (by omega)
    have c3 : decide (t.nnodes + 1 ≠ t'.nnodes - 1) = false :=
      decide_eq_false (by omega)
    have e1 : t'.nnodes - 2 = t.nnodes := by omega
    have e2 : t'.get_num_leaves - 1 = t.get_num_leaves := by omega
    simp only [hsplice, Option.some_bind, displace_init, displace_set_none, c1, c2, c3]
    simp only [rename_node_if, Bool.false_eq_true, if_false, Option.some_bind, e1, e2, if_true]
    simp only [rename_node_if, if_true] at hN4
    rw [hN4]
    simp only [Option.some_bind]
  · show t'.nnodes - 2 = t.nnodes
    omega
  · show remove_new_root _ _ _ _ _ _ = t.root
    unfold remove_new_root
    rw [h4, h2, hleaves]
    simp only []
    by_cases hp : (t.node node).parent = -1
    · have hnr : node = t.root := by
        rcases hT.par node hnode with ⟨-, a⟩ | ⟨a, -⟩
        · exact a
        · exact absurd hp a
      simp only [if_pos hp, if_true]
      rw [hnr]
      unfold relabel
      split_ifs <;> omega
    · simp only [if_neg hp]
      unfold relabel
      split_ifs <;> omega
  · intro i i0 i1
    exact hnodes i i0 i1


set_option maxHeartbeats 2000000 in
/-- The three guarded renamings of `remove_tree_branch`, one after the other,
are the displacement `removeDisplace` on the surviving nodes and on -1. -/
theorem displace_comp (n L rl rc x : Int) (hn : n = 2 * L - 1) (hL : 3 ≤ L)
    (hrl : 0 ≤ rl ∧ rl < L) (hrc : L ≤ rc ∧ rc < n)
    (hx : (0 ≤ x ∧ x < n ∧ x ≠ rl ∧ x ≠ rc) ∨ x = -1) :
    relabelIf (decide (rc ≠ n - 1)) (n - 1) (if rc ≠ n - 2 then rc else L - 1)
      (relabelIf (decide (rc ≠ n - 2)) (n - 2) (L - 1)
        (relabelIf (decide (L - 1 ≠ rl)) (L - 1) rl x)) = removeDisplace n L rl rc x := by
  unfold relabelIf relabel removeDisplace
  simp only [decide_eq_true_eq]
  split_ifs <;> omega

/-- In a tree with at least two nodes the root is not a leaf. -/
theorem TreeOn.root_not_leaf {S : Int → Prop} {root : Int} {F : NodeFn} (h : TreeOn S root F)
    (y : Int) (hy : S y) (hyr : y ≠ root) : F.C0 root ≠ -1 := by
  obtain ⟨rank, hrank⟩ := h.rank
  have key : ∀ k : Nat, ∀ x : Int, S x → x ≠ root → rank x = k → F.C0 root ≠ -1 := by
    intro k
    induction k using Nat.strong_induction_on with
    | _ k ih =>
      intro x hx hxr hk
      have hp : F.P x ≠ -1 := by
        intro e
        rcases h.par x hx with ⟨-, a⟩ | ⟨a, -⟩
        · exact hxr a
        · exact a e
      obtain ⟨c1, c2, -, -, -, -, -⟩ := h.child_cases hx hp
      by_cases hpr : F.P x = root
      · rw [hpr] at c2
        have := h.nonneg _ c2
        omega
      · have := hrank x hx hp
        exact ih (rank (F.P x)) (by omega) (F.P x) c1 hpr rfl
  exact key (rank y) y hy hyr rfl

theorem imageSet_rename1 (n L rl rc : Int) (hn : n = 2 * L - 1) (hL : 3 ≤ L)
    (hrl : 0 ≤ rl ∧ rl < L) (hrc : L ≤ rc ∧ rc < n) (y : Int) :
    imageSet (fun x => (0 ≤ x ∧ x < n) ∧ x ≠ rl ∧ x ≠ rc)
      (relabelIf (decide (L - 1 ≠ rl)) (L - 1) rl) y ↔
    (0 ≤ y ∧ y < n ∧ y ≠ L - 1 ∧ y ≠ rc) := by
  unfold imageSet relabelIf relabel
  simp only [decide_eq_true_eq]
  constructor
  · rintro ⟨x, hx, rfl⟩
    split_ifs <;> omega
  · intro hy
    refine ⟨if y = rl then L - 1 else y, ?_, ?_⟩
    · split_ifs <;> omega
    · split_ifs <;> omega

theorem imageSet_rename2 (n L rl rc : Int) (hn : n = 2 * L - 1) (hL : 3 ≤ L)
    (hrl : 0 ≤ rl ∧ rl < L) (hrc : L ≤ rc ∧ rc < n) (y : Int) :
    imageSet (fun x => 0 ≤ x ∧ x < n ∧ x ≠ L - 1 ∧ x ≠ rc)
      (relabelIf (decide (rc ≠ n - 2)) (n - 2) (L - 1)) y ↔
    (0 ≤ y ∧ y < n ∧ y ≠ n - 2 ∧ y ≠ (if rc ≠ n - 2 then rc else L - 1)) := by
  unfold imageSet relabelIf relabel
  simp only [decide_eq_true_eq]
  constructor
  · rintro ⟨x, hx, rfl⟩
    split_ifs <;> omega
  · intro hy
    refine ⟨if y = L - 1 then n - 2 else y, ?_, ?_⟩
    · split_ifs at hy ⊢ <;> omega
    · split_ifs at hy ⊢ <;> omega

theorem imageSet_rename3 (n L rl rc : Int) (hn : n = 2 * L - 1) (hL : 3 ≤ L)
    (hrl : 0 ≤ rl ∧ rl < L) (hrc : L ≤ rc ∧ rc < n) (y : Int) :
    imageSet (fun x => 0 ≤ x ∧ x < n ∧ x ≠ n - 2 ∧ x ≠ (if rc ≠ n - 2 then rc else L - 1))
      (relabelIf (decide (rc ≠ n - 1)) (n - 1) (if rc ≠ n - 2 then rc else L - 1)) y ↔
    (0 ≤ y ∧ y < n - 2) := by
  unfold imageSet relabelIf relabel
  simp only [decide_eq_true_eq]
  constructor
  · rintro ⟨x, hx, rfl⟩
    split_ifs at hx ⊢ <;> omega
  · intro hy
    refine ⟨if y = (if rc ≠ n - 2 then rc else L - 1) then n - 1 else y, ?_, ?_⟩
    · split_ifs <;> omega
    · split_ifs <;> omega

/-- An isomorphism on a set is one on every smaller set. -/
theorem IsoNodes.mono {S S2 : Int → Prop} {σ : Int → Int} {N N2 : List LocalNode}
    (h : IsoNodes S σ N N2) (hs : ∀ x : Int, S2 x → S x) : IsoNodes S2 σ N N2 :=
  fun x hx => h x (hs x hx)

set_option maxHeartbeats 4000000 in
/-- The block "remove coal node" of `remove_tree_branch` on a well-formed
tree with its leaves first and at least two nodes besides the leaf: the leaf
`rl` and its parent `rc` are spliced out. -/
theorem remove_splice (t : LocalTree) (rl ntimes : Int) (hwf : WellFormed t)
    (hlf : LeavesFirst t) (hn3 : 3 ≤ t.nnodes) (hrl : 0 ≤ rl ∧ rl < t.get_num_leaves) :
    ∃ N1 rc cc cp, remove_coal_node t.nodes rl none ntimes = some (N1, rc, cc, cp) ∧
      rc = (t.node rl).parent ∧ cp = (t.node rc).parent ∧
      cc = (if (t.node rc).child0 = rl then (t.node rc).child1 else (t.node rc).child0) ∧
      N1.length = t.nodes.length ∧
      (t.get_num_leaves ≤ rc ∧ rc < t.nnodes) ∧
      ((0 ≤ cc ∧ cc < t.nnodes) ∧ cc ≠ rl ∧ cc ≠ rc) ∧ (t.node cc).parent = rc ∧
      TreeOn (fun x => (0 ≤ x ∧ x < t.nnodes) ∧ x ≠ rl ∧ x ≠ rc)
        (if t.root = rc then cc else t.root) (fnOf N1) ∧
      ∀ x : Int, (0 ≤ x ∧ x < t.nnodes) → x ≠ rl → x ≠ rc →
        nodeAt N1 x = ⟨if (t.node x).parent = rc then cp else (t.node x).parent,
          if (t.node x).child0 = rc then cc else (t.node x).child0,
          if (t.node x).child1 = rc then cc else (t.node x).child1,
          (t.node x).age, (t.node x).pop_path⟩ := by
  have hT := hwf.treeOn
  have hn := hlf.1
  have hr : 0 ≤ t.root ∧ t.root < t.nnodes := hwf.2.1
  have hL : 2 ≤ t.get_num_leaves := by omega
  have hrlS : (0 ≤ rl ∧ rl < t.nnodes) := by omega
  have hleaf : (t.node rl).child0 = -1 := (hlf.2 rl hrlS.1 hrlS.2).mpr hrl.2
  -- the root is not a leaf
  have hrootnl : (t.node t.root).child0 ≠ -1 := by
    by_cases h0 : (0 : Int) = t.root
    · exact hT.root_not_leaf 1 ⟨by omega, by omega⟩ (by omega)
    · exact hT.root_not_leaf 0 ⟨by omega, by omega⟩ h0
  have hroot : rl ≠ t.root := by
    intro e; rw [e] at hleaf; exact hrootnl hleaf
  have hA : ∀ y : Int, 0 ≤ y → y < t.nnodes → inArr t.nodes y := by
    intro y h0 h1; unfold inArr; have := hwf.1; omega
  have hrlp : (t.node rl).parent ≠ -1 := by
    intro e
    rcases hT.par rl hrlS with ⟨-, a⟩ | ⟨a, -⟩
    · exact hroot a
    · exact a e
  obtain ⟨hrc, c2, c3, c4, c5, c6, c7⟩ := hT.child_cases hrlS hrlp
  have hrc' : 0 ≤ (t.node rl).parent ∧ (t.node rl).parent < t.nnodes := hrc
  have c2' : 0 ≤ (t.node (t.node rl).parent).child0 ∧
      (t.node (t.node rl).parent).child0 < t.nnodes := c2
  have c3' : 0 ≤ (t.node (t.node rl).parent).child1 ∧
      (t.node (t.node rl).parent).child1 < t.nnodes := c3
  have c4' : (t.node (t.node rl).parent).child0 ≠ (t.node (t.node rl).parent).child1 := c4
  have c5' : (t.node (t.node (t.node rl).parent).child0).parent = (t.node rl).parent := c5
  have c6' : (t.node (t.node (t.node rl).parent).child1).parent = (t.node rl).parent := c6
  have c7' : (t.node (t.node rl).parent).child0 = rl ∨ (t.node (t.node rl).parent).child1 = rl :=
    c7
  have hccS0 : 0 ≤ (if (t.node (t.node rl).parent).child0 = rl
      then (t.node (t.node rl).parent).child1 else (t.node (t.node rl).parent).child0) ∧
      (if (t.node (t.node rl).parent).child0 = rl
      then (t.node (t.node rl).parent).child1 else (t.node (t.node rl).parent).child0) <
        t.nnodes := by
    split
    · exact c3'
    · exact c2'
  have hcpS : (t.node (t.node rl).parent).parent ≠ -1 →
      (0 ≤ (t.node (t.node rl).parent).parent ∧ (t.node (t.node rl).parent).parent < t.nnodes) := by
    intro h
    rcases hT.par _ hrc with ⟨a, -⟩ | ⟨-, a, -⟩
    · exact absurd a h
    · exact a
  have hfs := fun j hj => spliceNodes_fields t.nodes (t.node rl).parent
    (if (t.node (t.node rl).parent).child0 = rl then (t.node (t.node rl).parent).child1
      else (t.node (t.node rl).parent).child0)
    (t.node (t.node rl).parent).parent j hj (hA _ hccS0.1 hccS0.2)
    (fun h => hA _ (hcpS h).1 (hcpS h).2)
  obtain ⟨hT1, hccS, hccl, hccc, hccP, hrcS⟩ := @treeOn_splice _ _ _
    (fnOf (spliceNodes t.nodes (t.node rl).parent
      (if (t.node (t.node rl).parent).child0 = rl then (t.node (t.node rl).parent).child1
        else (t.node (t.node rl).parent).child0)
      (t.node (t.node rl).parent).parent))
    rl hT hrlS hleaf hroot
    (if (t.node (t.node rl).parent).child0 = rl then (t.node (t.node rl).parent).child1
      else (t.node (t.node rl).parent).child0) rfl
    (fun j hj => (hfs j hj).1) (fun j hj => (hfs j hj).2.1) (fun j hj => (hfs j hj).2.2.1)
  have hccP' : (t.node (if (t.node (t.node rl).parent).child0 = rl
      then (t.node (t.node rl).parent).child1 else (t.node (t.node rl).parent).child0)).parent =
      (t.node rl).parent := hccP
  have hrcL : t.get_num_leaves ≤ (t.node rl).parent := by
    by_contra hcon
    have := (hlf.2 _ hrc'.1 hrc'.2).mpr (by omega)
    omega
  refine ⟨_, _, _, _, remove_coal_node_eq t.nodes rl ntimes (hA _ hrlS.1 hrlS.2)
    (hA _ hrc'.1 hrc'.2) (hA _ hccS0.1 hccS0.2) (fun h => hA _ (hcpS h).1 (hcpS h).2),
    rfl, rfl, rfl, length_spliceNodes _ _ _ _, ⟨hrcL, hrc'.2⟩, ⟨hccS0, hccl, hccc⟩, hccP',
    hT1, ?_⟩
  intro x hx hxl hxc
  have hf := hfs x hx.1
  -- the children of `rc` are `rl` and `cc`
  have hxcc : x = (if (t.node (t.node rl).parent).child0 = rl
      then (t.node (t.node rl).parent).child1 else (t.node (t.node rl).parent).child0) ↔
      (t.node x).parent = (t.node rl).parent := by
    constructor
    · intro e; rw [e]; exact hccP'
    · intro e
      obtain ⟨-, -, -, -, -, -, d7⟩ := hT.child_cases hx (by
        show (t.node x).parent ≠ -1
        rw [e]; exact hrlp)
      have d7' : (t.node (t.node x).parent).child0 = x ∨ (t.node (t.node x).parent).child1 = x :=
        d7
      rw [e] at d7'
      by_cases h0 : (t.node (t.node rl).parent).child0 = rl
      · rw [if_pos h0]
        rcases d7' with d | d
        · exact absurd (d.symm.trans h0) hxl
        · exact d.symm
      · rw [if_neg h0]
        rcases c7' with c | c
        · exact absurd c h0
        · rcases d7' with d | d
          · exact d.symm
          · exact absurd (d.symm.trans c) hxl
  have hx0 : (x = (t.node (t.node rl).parent).parent ∧
      (nodeAt t.nodes (t.node (t.node rl).parent).parent).child0 = (t.node rl).parent) ↔
      (t.node x).child0 = (t.node rl).parent := by
    constructor
    · rintro ⟨a, b⟩; rw [a]; exact b
    · intro e
      rcases hT.ch x hx with ⟨d, -⟩ | ⟨-, -, -, d, -⟩
      · have d' : (t.node x).child0 = -1 := d
        omega
      · have d' : (t.node (t.node x).child0).parent = x := d
        rw [e] at d'
        exact ⟨d'.symm, by rw [d']; exact e⟩
  have hx1 : (x = (t.node (t.node rl).parent).parent ∧
      (nodeAt t.nodes (t.node (t.node rl).parent).parent).child0 ≠ (t.node rl).parent) ↔
      (t.node x).child1 = (t.node rl).parent := by
    constructor
    · rintro ⟨a, b⟩
      have hp2 : (fnOf t.nodes).P (t.node rl).parent ≠ -1 := by
        show (t.node (t.node rl).parent).parent ≠ -1
        rw [← a]; omega
      obtain ⟨-, -, -, -, -, -, d7⟩ := hT.child_cases hrc hp2
      have d7' : (t.node (t.node (t.node rl).parent).parent).child0 = (t.node rl).parent ∨
          (t.node (t.node (t.node rl).parent).parent).child1 = (t.node rl).parent := d7
      rcases d7' with d | d
      · exact absurd d b
      · rw [a]; exact d
    · intro e
      rcases hT.ch x hx with ⟨-, d⟩ | ⟨-, -, d3, -, d⟩
      · have d' : (t.node x).child1 = -1 := d
        omega
      · have d' : (t.node (t.node x).child1).parent = x := d
        have d3' : (t.node x).child0 ≠ (t.node x).child1 := d3
        rw [e] at d' d3'
        exact ⟨d'.symm, by rw [d']; exact d3'⟩
  simp only [LocalTree.node] at hf hxcc hx0 hx1
  apply LocalNode.ext_fields <;> simp only [LocalTree.node]
  · rw [hf.1]
    by_cases h : (nodeAt t.nodes x).parent = (nodeAt t.nodes rl).parent
    · rw [if_pos (hxcc.mpr h)]; exact (if_pos h).symm
    · rw [if_neg (fun e => h (hxcc.mp e))]; exact (if_neg h).symm
  · rw [hf.2.1]
    by_cases h : (nodeAt t.nodes x).child0 = (nodeAt t.nodes rl).parent
    · rw [if_pos (hx0.mpr h)]; exact (if_pos h).symm
    · rw [if_neg (fun e => h (hx0.mp e))]; exact (if_neg h).symm
  · rw [hf.2.2.1]
    by_cases h : (nodeAt t.nodes x).child1 = (nodeAt t.nodes rl).parent
    · rw [if_pos (hx1.mpr h)]; exact (if_pos h).symm
    · rw [if_neg (fun e => h (hx1.mp e))]; exact (if_neg h).symm
  · exact hf.2.2.2.1
  · exact hf.2.2.2.2

/-- The value that `remove_tree_branch` leaves in `displace[-1]` would be
`-1`: the renaming keeps "no node". -/
theorem removeDisplace_neg (n L rl rc : Int) (hn : n = 2 * L - 1) (hL : 3 ≤ L)
    (hrl : 0 ≤ rl ∧ rl < L) (hrc : L ≤ rc ∧ rc < n) : removeDisplace n L rl rc (-1) = -1 := by
  unfold removeDisplace
  split_ifs <;> omega

/-- The renaming of `remove_tree_branch` maps the surviving nodes into
`[0, n - 2)`, leaves to `[0, L - 1)` and the others to `[L - 1, n - 2)`. -/
theorem removeDisplace_range (n L rl rc x : Int) (hn : n = 2 * L - 1) (hL : 3 ≤ L)
    (hrl : 0 ≤ rl ∧ rl < L) (hrc : L ≤ rc ∧ rc < n)
    (hx : 0 ≤ x ∧ x < n ∧ x ≠ rl ∧ x ≠ rc) :
    0 ≤ removeDisplace n L rl rc x ∧ removeDisplace n L rl rc x < n - 2 ∧
      (removeDisplace n L rl rc x < L - 1 ↔ x < L) := by
  unfold removeDisplace
  split_ifs <;> omega

/-- The renaming of `remove_tree_branch` is injective on the surviving
nodes. -/
theorem removeDisplace_inj (n L rl rc x y : Int) (hn : n = 2 * L - 1) (hL : 3 ≤ L)
    (hrl : 0 ≤ rl ∧ rl < L) (hrc : L ≤ rc ∧ rc < n)
    (hx : 0 ≤ x ∧ x < n ∧ x ≠ rl ∧ x ≠ rc) (hy : 0 ≤ y ∧ y < n ∧ y ≠ rl ∧ y ≠ rc)
    (e : removeDisplace n L rl rc x = removeDisplace n L rl rc y) : x = y := by
  unfold removeDisplace at e
  split_ifs at e <;> omega

/-- Every slot of `[0, n - 2)` is the new name of a surviving node. -/
theorem removeDisplace_surj (n L rl rc y : Int) (hn : n = 2 * L - 1) (hL : 3 ≤ L)
    (hrl : 0 ≤ rl ∧ rl < L) (hrc : L ≤ rc ∧ rc < n) (hy : 0 ≤ y ∧ y < n - 2) :
    ∃ x : Int, (0 ≤ x ∧ x < n ∧ x ≠ rl ∧ x ≠ rc) ∧ removeDisplace n L rl rc x = y := by
  have h := (imageSet_rename3 n L rl rc hn hL hrl hrc y).mpr hy
  obtain ⟨x3, hx3, e3⟩ := h
  obtain ⟨x2, hx2, e2⟩ := (imageSet_rename2 n L rl rc hn hL hrl hrc x3).mpr hx3
  obtain ⟨x1, hx1, e1⟩ := (imageSet_rename1 n L rl rc hn hL hrl hrc x2).mpr hx2
  refine ⟨x1, ⟨hx1.1.1, hx1.1.2, hx1.2.1, hx1.2.2⟩, ?_⟩
  rw [← displace_comp n L rl rc x1 hn hL hrl hrc
    (Or.inl ⟨hx1.1.1, hx1.1.2, hx1.2.1, hx1.2.2⟩), e1, e2, e3]

/-- The statements of `remove_tree_branch` on the array `displace`, for
slots inside the array: they run through, and the array holds the values
written, the last write to a slot being the one that counts. -/
theorem displace_run (d : List Int) (n L rl rc hole : Int) (c1 c2 c3 : Bool)
    (hd : n ≤ d.length) (hrl : 0 ≤ rl ∧ rl < n) (hrc : 0 ≤ rc ∧ rc < n)
    (hL : 0 ≤ L - 1 ∧ L - 1 < n) (hn2 : 0 ≤ n - 2) :
    ∃ d1 d2 d3 d4, displace_init (some d) n rl rc = some (some d1) ∧
      displace_set c1 (some d1) (L - 1) rl = some (some d2) ∧
      displace_set c2 (some d2) (n - 2) (L - 1) = some (some d3) ∧
      displace_set c3 (some d3) (n - 1) hole = some (some d4) ∧
      d4.length = d.length ∧
      ∀ i : Int, readAt d4 i =
        if c3 = true ∧ i = n - 1 then hole
        else if c2 = true ∧ i = n - 2 then L - 1
        else if c1 = true ∧ i = L - 1 then rl
        else if i = rc ∨ i = rl then -1
        else if 0 ≤ i ∧ i < n then i else readAt d i := by
  obtain ⟨m, hm1, hm2, hm3⟩ := forLoop_setAt_range (fun i => i) n d hd
  have a1 : inArr m rl := by unfold inArr; omega
  have a2 : inArr (updAt m rl (-1)) rc := by unfold inArr; rw [length_updAt]; omega
  have e1 : displace_init (some d) n rl rc = some (some (updAt (updAt m rl (-1)) rc (-1))) := by
    unfold displace_init
    simp only [hm1, Option.some_bind, setAt_eq _ a1, setAt_eq _ a2, Option.map_some']
  have r1 : ∀ i : Int, readAt (updAt (updAt m rl (-1)) rc (-1)) i =
      if i = rc ∨ i = rl then -1 else if 0 ≤ i ∧ i < n then i else readAt d i := by
    intro i
    rw [readAt_updAt_of_inArr _ _ _ _ a2, readAt_updAt_of_inArr _ _ _ _ a1, hm3]
    by_cases h1 : i = rc <;> by_cases h2 : i = rl <;> simp [h1, h2]
  -- the three guarded assignments
  have step : ∀ (c : Bool) (e : List Int) (i v : Int), inArr e i →
      ∃ e2, displace_set c (some e) i v = some (some e2) ∧ e2.length = e.length ∧
        ∀ j : Int, readAt e2 j = if c = true ∧ j = i then v else readAt e j := by
    intro c e i v hi
    cases c with
    | false => exact ⟨e, rfl, rfl, fun j => by simp⟩
    | true =>
      refine ⟨updAt e i v, ?_, length_updAt _ _ _, fun j => ?_⟩
      · unfold displace_set
        simp only [if_true, setAt_eq _ hi, Option.map_some']
      · rw [readAt_updAt_of_inArr _ _ _ _ hi]; simp
  have l1 : (updAt (updAt m rl (-1)) rc (-1)).length = d.length := by
    rw [length_updAt, length_updAt, hm2]
  obtain ⟨d2, f1, f2, f3⟩ := step c1 _ (L - 1) rl (by unfold inArr; rw [l1]; omega)
  obtain ⟨d3, g1, g2, g3⟩ := step c2 d2 (n - 2) (L - 1) (by unfold inArr; rw [f2, l1]; omega)
  obtain ⟨d4, k1, k2, k3⟩ := step c3 d3 (n - 1) hole (by unfold inArr; rw [g2, f2, l1]; omega)
  refine ⟨_, d2, d3, d4, e1, f1, g1, k1, by rw [k2, g2, f2, l1], fun i => ?_⟩
  rw [k3, g3, f3, r1]

set_option maxHeartbeats 4000000 in
/-- The statements of `remove_tree_branch` on the array `displace`, for a tree
with at least three leaves: they run through when the array has room for `n`
entries, and leave in slot `i < n` the new name of node `i`, `-1` for the two
removed nodes. -/
theorem displace_spec (d : List Int) (n L rl rc : Int) (hn : n = 2 * L - 1) (hL : 3 ≤ L)
    (hrl : 0 ≤ rl ∧ rl < L) (hrc : L ≤ rc ∧ rc < n) (hd : n ≤ d.length) :
    ∃ d1 d2 d3 d4, displace_init (some d) n rl rc = some (some d1) ∧
      displace_set (decide (L - 1 ≠ rl)) (some d1) (L - 1) rl = some (some d2) ∧
      displace_set (decide (rc ≠ n - 2)) (some d2) (n - 2) (L - 1) = some (some d3) ∧
      displace_set (decide (rc ≠ n - 1)) (some d3) (n - 1)
        (if rc ≠ n - 2 then rc else L - 1) = some (some d4) ∧
      d4.length = d.length ∧
      ∀ i : Int, readAt d4 i =
        if 0 ≤ i ∧ i < n then removeDisplace n L rl rc i else readAt d i := by
  obtain ⟨d1, d2, d3, d4, f1, f2, f3, f4, f5, f6⟩ := displace_run d n L rl rc
    (if rc ≠ n - 2 then rc else L - 1) (decide (L - 1 ≠ rl)) (decide (rc ≠ n - 2))
    (decide (rc ≠ n - 1)) hd (by omega) (by omega) (by omega) (by omega)
  refine ⟨d1, d2, d3, d4, f1, f2, f3, f4, f5, fun i => ?_⟩
  rw [f6]
  unfold removeDisplace
  simp only [decide_eq_true_eq]
  split_ifs <;> omega

set_option maxHeartbeats 4000000 in
/-- The three guarded renamings of `remove_tree_branch` after the splice: they
run through and leave a tree on the slots `[0, n - 2)`, in which the surviving
node `x` is found in slot `removeDisplace x` with its links renamed. -/
theorem remove_renames (N1 : List LocalNode) (n L rl rc root1 : Int) (hn : n = 2 * L - 1)
    (hL : 3 ≤ L) (hrl : 0 ≤ rl ∧ rl < L) (hrc : L ≤ rc ∧ rc < n) (hlen : n ≤ N1.length)
    (hT : TreeOn (fun x => (0 ≤ x ∧ x < n) ∧ x ≠ rl ∧ x ≠ rc) root1 (fnOf N1)) :
    ∃ N2 N3 N4, rename_node_if (decide (L - 1 ≠ rl)) N1 (L - 1) rl = some N2 ∧
      rename_node_if (decide (rc ≠ n - 2)) N2 (n - 2) (L - 1) = some N3 ∧
      rename_node_if (decide (rc ≠ n - 1)) N3 (n - 1) (if rc ≠ n - 2 then rc else L - 1) =
        some N4 ∧
      N4.length = N1.length ∧
      TreeOn (fun y => 0 ≤ y ∧ y < n - 2) (removeDisplace n L rl rc root1) (fnOf N4) ∧
      ∀ x : Int, (0 ≤ x ∧ x < n) → x ≠ rl → x ≠ rc →
        nodeAt N4 (removeDisplace n L rl rc x) =
          mapNode (removeDisplace n L rl rc) (nodeAt N1 x) := by
  -- first renaming
  obtain ⟨N2, a1, a2, a3, a4⟩ := rename_step_if N1 (L - 1) rl (decide (L - 1 ≠ rl)) hT
    (fun x hx => by unfold inArr; omega)
    (fun hc => by
      have hc' : L - 1 ≠ rl := of_decide_eq_true hc
      refine ⟨⟨by omega, hc', by omega⟩, fun h => h.2.1 rfl, by unfold inArr; omega⟩)
  have a4' := a4.congr (imageSet_rename1 n L rl rc hn hL hrl hrc)
  -- second renaming
  obtain ⟨N3, b1, b2, b3, b4⟩ := rename_step_if N2 (n - 2) (L - 1) (decide (rc ≠ n - 2)) a4'
    (fun x hx => by unfold inArr; omega)
    (fun hc => by
      have hc' : rc ≠ n - 2 := of_decide_eq_true hc
      refine ⟨⟨by omega, by omega, by omega, by omega⟩, fun h => h.2.2.1 rfl,
        by unfold inArr; omega⟩)
  have b4' := b4.congr (imageSet_rename2 n L rl rc hn hL hrl hrc)
  -- third renaming
  obtain ⟨N4, c1, c2, c3, c4⟩ := rename_step_if N3 (n - 1)
    (if rc ≠ n - 2 then rc else L - 1) (decide (rc ≠ n - 1)) b4'
    (fun x hx => by unfold inArr; omega)
    (fun hc => by
      have hc' : rc ≠ n - 1 := of_decide_eq_true hc
      refine ⟨⟨by omega, by omega, by omega, by split_ifs <;> omega⟩, fun h => h.2.2.2 rfl,
        by unfold inArr; split_ifs <;> omega⟩)
  have c4' := c4.congr (imageSet_rename3 n L rl rc hn hL hrl hrc)
  -- the composition
  have hcomp := (a3.comp (b3.mono fun x hx =>
    (imageSet_rename1 n L rl rc hn hL hrl hrc x).mp hx)).comp
    (c3.mono fun x hx => by
      obtain ⟨z, hz, rfl⟩ := hx
      exact (imageSet_rename2 n L rl rc hn hL hrl hrc _).mp
        ⟨_, (imageSet_rename1 n L rl rc hn hL hrl hrc _).mp ⟨z, hz, rfl⟩, rfl⟩)
  have hσ : ∀ x : Int, ((0 ≤ x ∧ x < n ∧ x ≠ rl ∧ x ≠ rc) ∨ x = -1) →
      relabelIf (decide (rc ≠ n - 1)) (n - 1) (if rc ≠ n - 2 then rc else L - 1)
        (relabelIf (decide (rc ≠ n - 2)) (n - 2) (L - 1)
          (relabelIf (decide (L - 1 ≠ rl)) (L - 1) rl x)) = removeDisplace n L rl rc x :=
    fun x hx => displace_comp n L rl rc x hn hL hrl hrc hx
  have hroot := hT.rootS
  refine ⟨N2, N3, N4, a1, b1, c1, by rw [c2, b2, a2], ?_, ?_⟩
  · rw [← hσ root1 (Or.inl ⟨hroot.1.1, hroot.1.2, hroot.2.1, hroot.2.2⟩)]
    exact c4'
  · intro x hx hxl hxc
    have hxS : (0 ≤ x ∧ x < n) ∧ x ≠ rl ∧ x ≠ rc := ⟨hx, hxl, hxc⟩
    have h1 := hcomp x hxS
    simp only [] at h1
    rw [hσ x (Or.inl ⟨hx.1, hx.2, hxl, hxc⟩)] at h1
    rw [h1]
    have hp : (0 ≤ (nodeAt N1 x).parent ∧ (nodeAt N1 x).parent < n ∧
        (nodeAt N1 x).parent ≠ rl ∧ (nodeAt N1 x).parent ≠ rc) ∨ (nodeAt N1 x).parent = -1 := by
      rcases hT.par x hxS with ⟨a, -⟩ | ⟨-, a, -⟩
      · exact Or.inr a
      · exact Or.inl ⟨a.1.1, a.1.2, a.2.1, a.2.2⟩
    have hc : ((0 ≤ (nodeAt N1 x).child0 ∧ (nodeAt N1 x).child0 < n ∧
        (nodeAt N1 x).child0 ≠ rl ∧ (nodeAt N1 x).child0 ≠ rc) ∨ (nodeAt N1 x).child0 = -1) ∧
        ((0 ≤ (nodeAt N1 x).child1 ∧ (nodeAt N1 x).child1 < n ∧
        (nodeAt N1 x).child1 ≠ rl ∧ (nodeAt N1 x).child1 ≠ rc) ∨ (nodeAt N1 x).child1 = -1) := by
      rcases hT.ch x hxS with ⟨a, b⟩ | ⟨a, b, -⟩
      · exact ⟨Or.inr a, Or.inr b⟩
      · exact ⟨Or.inl ⟨a.1.1, a.1.2, a.2.1, a.2.2⟩, Or.inl ⟨b.1.1, b.1.2, b.2.1, b.2.2⟩⟩
    unfold mapNode
    simp only [hσ _ hp, hσ _ hc.1, hσ _ hc.2]

set_option maxHeartbeats 4000000 in
/-- The function `remove_tree_branch` without population tree, on a
well-formed tree with its leaves first and at least three leaves, for a leaf
`rl`: the call runs through; the result has two nodes less, is well formed
with its leaves first; the surviving node `x` is found in slot
`removeDisplace x`, with its age and path, and with its links renamed, the
removed parent `rc` of `rl` being replaced by its own parent above the sibling
of `rl` and by that sibling below; `displace`, when given with room for
`nnodes` entries, holds `removeDisplace`. -/
theorem remove_tree_branch_spec (t : LocalTree) (rl ntimes : Int) (d : Option (List Int))
    (hwf : WellFormed t) (hlf : LeavesFirst t) (hn5 : 5 ≤ t.nnodes)
    (hrl : 0 ≤ rl ∧ rl < t.get_num_leaves)
    (hd : ∀ d0 : List Int, d = some d0 → t.nnodes ≤ d0.length) :
    ∃ t2 d2, remove_tree_branch t rl none ntimes d = some (t2, d2) ∧
      t2.nnodes = t.nnodes - 2 ∧ t2.nodes.length = t.nodes.length ∧
      WellFormed t2 ∧ LeavesFirst t2 ∧
      t2.root = removeDisplace t.nnodes t.get_num_leaves rl (t.node rl).parent
        (if t.root = (t.node rl).parent then t.sibling rl else t.root) ∧
      (∀ x : Int, 0 ≤ x → x < t.nnodes → x ≠ rl → x ≠ (t.node rl).parent →
        t2.node (removeDisplace t.nnodes t.get_num_leaves rl (t.node rl).parent x) =
          mapNode (removeDisplace t.nnodes t.get_num_leaves rl (t.node rl).parent)
            ⟨if (t.node x).parent = (t.node rl).parent then (t.node (t.node rl).parent).parent
              else (t.node x).parent,
             if (t.node x).child0 = (t.node rl).parent then t.sibling rl else (t.node x).child0,
             if (t.node x).child1 = (t.node rl).parent then t.sibling rl else (t.node x).child1,
             (t.node x).age, (t.node x).pop_path⟩) ∧
      (d = none → d2 = none) ∧
      (∀ d0 : List Int, d = some d0 → ∃ d4, d2 = some d4 ∧ d4.length = d0.length ∧
        ∀ i : Int, readAt d4 i = if 0 ≤ i ∧ i < t.nnodes
          then removeDisplace t.nnodes t.get_num_leaves rl (t.node rl).parent i
          else readAt d0 i) := by
  have hn := hlf.1
  have hL : 3 ≤ t.get_num_leaves := by omega
  have hcap : t.nnodes ≤ t.nodes.length := hwf.1
  obtain ⟨N1, rc, cc, cp, hsplice, rfl, rfl, hcc, hlen1, hrc, hccS, hccP, hT1, hnode1⟩ :=
    remove_splice t rl ntimes hwf hlf (by omega) hrl
  have hcc' : cc = t.sibling rl := hcc
  obtain ⟨N2, N3, N4, a1, b1, c1, hlen4, hT4, hnode4⟩ :=
    remove_renames N1 t.nnodes t.get_num_leaves rl (t.node rl).parent
      (if t.root = (t.node rl).parent then cc else t.root) hn hL hrl hrc (by rw [hlen1]; exact hcap)
      hT1
  -- the root of the spliced tree is not a leaf
  have hroot1 := hT1.rootS
  have hy : ∃ y : Int, ((0 ≤ y ∧ y < t.nnodes) ∧ y ≠ rl ∧ y ≠ (t.node rl).parent) ∧
      y ≠ (if t.root = (t.node rl).parent then cc else t.root) := by
    by_cases h0 : rl ≠ 0 ∧ (if t.root = (t.node rl).parent then cc else t.root) ≠ 0
    · exact ⟨0, ⟨⟨by omega, by omega⟩, by omega, by omega⟩, by omega⟩
    · by_cases h1 : rl ≠ 1 ∧ (if t.root = (t.node rl).parent then cc else t.root) ≠ 1
      · exact ⟨1, ⟨⟨by omega, by omega⟩, by omega, by omega⟩, by omega⟩
      · exact ⟨2, ⟨⟨by omega, by omega⟩, by omega, by omega⟩, by omega⟩
  obtain ⟨y, hyS, hyr⟩ := hy
  have hnl := hT1.root_not_leaf y hyS hyr
  have hnl' : (nodeAt N1 (if t.root = (t.node rl).parent then cc else t.root)).child0 ≠ -1 := hnl
  rw [hnode1 _ hroot1.1 hroot1.2.1 hroot1.2.2] at hnl'
  have hrootL : t.get_num_leaves ≤ (if t.root = (t.node rl).parent then cc else t.root) := by
    by_contra hcon
    have := (hlf.2 _ hroot1.1.1 hroot1.1.2).mpr (by omega)
    rw [this] at hnl'
    simp only [] at hnl'
    rw [if_neg (by omega)] at hnl'
    exact hnl' rfl
  have hnn : t.nnodes - 2 + 1 = 2 * (t.get_num_leaves - 1) := by omega
  have hleaves : Int.tdiv (t.nnodes - 2 + 1) 2 = t.get_num_leaves - 1 := by
    rw [hnn, tdiv_two_mul]
  have hrooteq : remove_new_root t.root t.nnodes (t.node rl).parent cc (t.get_num_leaves - 1)
      (if (t.node rl).parent ≠ t.nnodes - 2 then (t.node rl).parent else t.get_num_leaves - 1) =
      removeDisplace t.nnodes t.get_num_leaves rl (t.node rl).parent
        (if t.root = (t.node rl).parent then cc else t.root) := by
    unfold remove_new_root removeDisplace
    simp only []
    generalize (if t.root = (t.node rl).parent then cc else t.root) = r1 at hroot1 hrootL
    split_ifs <;> omega
  -- the displace array
  have hdis : ∃ e1 e2 e3 e4, displace_init d t.nnodes rl (t.node rl).parent = some e1 ∧
      displace_set (decide (t.get_num_leaves - 1 ≠ rl)) e1 (t.get_num_leaves - 1) rl = some e2 ∧
      displace_set (decide ((t.node rl).parent ≠ t.nnodes - 2)) e2 (t.nnodes - 2)
        (t.get_num_leaves - 1) = some e3 ∧
      displace_set (decide ((t.node rl).parent ≠ t.nnodes - 1)) e3 (t.nnodes - 1)
        (if (t.node rl).parent ≠ t.nnodes - 2 then (t.node rl).parent
          else t.get_num_leaves - 1) = some e4 ∧
      (d = none → e4 = none) ∧
      (∀ d0 : List Int, d = some d0 → ∃ d4, e4 = some d4 ∧ d4.length = d0.length ∧
        ∀ i : Int, readAt d4 i = if 0 ≤ i ∧ i < t.nnodes
          then removeDisplace t.nnodes t.get_num_leaves rl (t.node rl).parent i
          else readAt d0 i) := by
    cases d with
    | none =>
      exact ⟨none, none, none, none, rfl, displace_set_none _ _ _, displace_set_none _ _ _,
        displace_set_none _ _ _, (fun _ => rfl), (fun d0 h => by cases h)⟩
    | some d0 =>
      obtain ⟨d1, d2, d3, d4, f1, f2, f3, f4, f5, f6⟩ :=
        displace_spec d0 t.nnodes t.get_num_leaves rl (t.node rl).parent hn hL hrl hrc
          (hd d0 rfl)
      refine ⟨some d1, some d2, some d3, some d4, f1, f2, f3, f4, (fun h => by cases h), ?_⟩
      intro d0' h
      cases h
      exact ⟨d4, rfl, f5, f6⟩
  obtain ⟨e1, e2, e3, e4, g1, g2, g3, g4, g5, g6⟩ := hdis
  have hrun : remove_tree_branch t rl none ntimes d =
      some (LocalTree.mk (t.nnodes - 2)
        (remove_new_root t.root t.nnodes (t.node rl).parent cc (t.get_num_leaves - 1)
          (if (t.node rl).parent ≠ t.nnodes - 2 then (t.node rl).parent
            else t.get_num_leaves - 1)) N4, e4) := by
    unfold remove_tree_branch
    simp only [hsplice, Option.some_bind, g1, g2, g3, g4, a1, b1, c1]
  -- the nodes of the result
  have hnodes : ∀ x : Int, 0 ≤ x → x < t.nnodes → x ≠ rl → x ≠ (t.node rl).parent →
      nodeAt N4 (removeDisplace t.nnodes t.get_num_leaves rl (t.node rl).parent x) =
        mapNode (removeDisplace t.nnodes t.get_num_leaves rl (t.node rl).parent)
          ⟨if (t.node x).parent = (t.node rl).parent then (t.node (t.node rl).parent).parent
            else (t.node x).parent,
           if (t.node x).child0 = (t.node rl).parent then cc else (t.node x).child0,
           if (t.node x).child1 = (t.node rl).parent then cc else (t.node x).child1,
           (t.node x).age, (t.node x).pop_path⟩ := by
    intro x x0 x1 hxl hxc
    rw [hnode4 x ⟨x0, x1⟩ hxl hxc, hnode1 x ⟨x0, x1⟩ hxl hxc]
  refine ⟨_, e4, hrun, rfl, hlen4.trans hlen1, ?_, ?_, ?_, ?_, g5, g6⟩
  · apply wellFormed_of_treeOn
    · show t.nnodes - 2 ≤ (N4.length : Int)
      rw [hlen4, hlen1]; omega
    · show TreeOn (fun x => 0 ≤ x ∧ x < t.nnodes - 2) (remove_new_root _ _ _ _ _ _) (fnOf N4)
      rw [hrooteq]
      exact hT4
  · refine ⟨?_, ?_⟩
    · show t.nnodes - 2 = 2 * Int.tdiv (t.nnodes - 2 + 1) 2 - 1
      rw [hleaves]; omega
    · intro i i0 i1
      have i1' : i < t.nnodes - 2 := i1
      show (nodeAt N4 i).child0 = -1 ↔ i < Int.tdiv (t.nnodes - 2 + 1) 2
      rw [hleaves]
      obtain ⟨x, hx, rfl⟩ := removeDisplace_surj t.nnodes t.get_num_leaves rl
        (t.node rl).parent i hn hL hrl hrc ⟨i0, i1'⟩
      have hrg := removeDisplace_range t.nnodes t.get_num_leaves rl (t.node rl).parent x
        hn hL hrl hrc hx
      rw [hnodes x hx.1 hx.2.1 hx.2.2.1 hx.2.2.2, hrg.2.2, ← hlf.2 x hx.1 hx.2.1]
      show removeDisplace _ _ _ _ (if (t.node x).child0 = (t.node rl).parent then cc
        else (t.node x).child0) = -1 ↔ _
      have hxS : (0 ≤ x ∧ x < t.nnodes) ∧ x ≠ rl ∧ x ≠ (t.node rl).parent :=
        ⟨⟨hx.1, hx.2.1⟩, hx.2.2.1, hx.2.2.2⟩
      have hch := hT1.ch x hxS
      have e0 : (fnOf N1).C0 x = (if (t.node x).child0 = (t.node rl).parent then cc
          else (t.node x).child0) := by
        show (nodeAt N1 x).child0 = _
        rw [hnode1 x hxS.1 hxS.2.1 hxS.2.2]
      rw [e0] at hch
      constructor
      · intro h
        rcases hch with ⟨a, -⟩ | ⟨a, -⟩
        · split_ifs at a with hq
          · omega
          · exact a
        · have := removeDisplace_range t.nnodes t.get_num_leaves rl (t.node rl).parent _
            hn hL hrl hrc ⟨a.1.1, a.1.2, a.2.1, a.2.2⟩
          omega
      · intro h
        rw [if_neg (by omega), h]
        exact removeDisplace_neg _ _ _ _ hn hL hrl hrc
  · show remove_new_root _ _ _ _ _ _ = _
    rw [hrooteq, hcc']
  · intro x x0 x1 hxl hxc
    show nodeAt N4 _ = _
    rw [hnodes x x0 x1 hxl hxc, hcc']

theorem SameAges.refl (N : List LocalNode) : SameAges N N := fun _ => rfl

theorem SameAges.trans {N N2 N3 : List LocalNode} (h1 : SameAges N N2) (h2 : SameAges N2 N3) :
    SameAges N N3 := fun j => (h2 j).trans (h1 j)

/-- An update of one node that keeps its age keeps all ages. -/
theorem modNode_sameAges {N N2 : List LocalNode} {i : Int} {f : LocalNode → LocalNode}
    (h : modNode N i f = some N2) (hf : ∀ n : LocalNode, (f n).age = n.age) : SameAges N N2 := by
  unfold modNode at h
  split at h
  · cases h
    intro j
    rw [nodeAt_updAt]
    split
    · rename_i hj; rw [hf, hj.1]
    · rfl
  · cases h

theorem setChild_age (n : LocalNode) (k v : Int) : (n.setChild k v).age = n.age := by
  unfold LocalNode.setChild; split <;> rfl

theorem replace_child_sameAges {N N2 : List LocalNode} {p o v : Int}
    (h : replace_child N p o v = some N2) : SameAges N N2 := by
  unfold replace_child at h
  obtain ⟨pn, -, h⟩ := Option.bind_eq_some.mp h
  split at h
  · exact modNode_sameAges h (fun _ => rfl)
  · exact modNode_sameAges h (fun _ => rfl)

theorem spr_sib_path_sameAges {N N2 : List LocalNode} {pt : Option PopulationTree} {sb : Int}
    (h : spr_sib_path N pt sb = some N2) : SameAges N N2 := by
  unfold spr_sib_path at h
  cases pt with
  | none => cases h; exact SameAges.refl _
  | some p => exact modNode_sameAges h (fun _ => rfl)

theorem spr_prune_sameAges {N N2 : List LocalNode} {b sb bp x : Int}
    (h : spr_prune N b sb bp = some (N2, x)) : SameAges N N2 := by
  unfold spr_prune at h
  obtain ⟨M1, h1, h⟩ := Option.bind_eq_some.mp h
  obtain ⟨x1, -, h⟩ := Option.bind_eq_some.mp h
  obtain ⟨M2, h2, h⟩ := Option.map_eq_some'.mp h
  cases h
  refine (modNode_sameAges h1 (fun _ => rfl)).trans ?_
  split at h2
  · exact modNode_sameAges h2 (fun n => setChild_age n _ _)
  · cases h2; exact SameAges.refl _

theorem spr_recoal_broken_sameAges {N N2 : List LocalNode} {pt : Option PopulationTree}
    {b o sb bp x : Int} (h : spr_recoal_broken N pt b o sb bp x = some N2) : SameAges N N2 := by
  unfold spr_recoal_broken at h
  obtain ⟨M1, h1, h⟩ := Option.bind_eq_some.mp h
  obtain ⟨n1, -, h⟩ := Option.bind_eq_some.mp h
  obtain ⟨M2, h2, h⟩ := Option.bind_eq_some.mp h
  obtain ⟨M3, h3, h⟩ := Option.bind_eq_some.mp h
  obtain ⟨M4, h4, h⟩ := Option.bind_eq_some.mp h
  have s1 := modNode_sameAges h1 (fun n => setChild_age n _ _)
  have s2 := modNode_sameAges h2 (fun _ => rfl)
  have s3 := modNode_sameAges h3 (fun _ => rfl)
  have s4 : SameAges M3 M4 := by
    split at h4
    · exact modNode_sameAges h4 (fun n => setChild_age n _ _)
    · cases h4; exact SameAges.refl _
  refine ((s1.trans s2).trans s3).trans (s4.trans ?_)
  cases pt with
  | none => cases h; exact SameAges.refl _
  | some p =>
    obtain ⟨n2, -, h⟩ := Option.bind_eq_some.mp h
    exact modNode_sameAges h (fun _ => rfl)

theorem spr_recoal_branch_sameAges {N N2 : List LocalNode} {b o c : Int}
    (h : spr_recoal_branch N b o c = some N2) : SameAges N N2 := by
  unfold spr_recoal_branch at h
  obtain ⟨M1, h1, h⟩ := Option.bind_eq_some.mp h
  obtain ⟨n1, -, h⟩ := Option.bind_eq_some.mp h
  obtain ⟨M2, h2, h⟩ := Option.bind_eq_some.mp h
  obtain ⟨n2, -, h⟩ := Option.bind_eq_some.mp h
  obtain ⟨M3, h3, h⟩ := Option.bind_eq_some.mp h
  obtain ⟨M4, h4, h⟩ := Option.bind_eq_some.mp h
  obtain ⟨n3, -, h⟩ := Option.bind_eq_some.mp h
  have s1 := modNode_sameAges h1 (fun n => setChild_age n _ _)
  have s2 := modNode_sameAges h2 (fun _ => rfl)
  have s3 := modNode_sameAges h3 (fun _ => rfl)
  have s4 := modNode_sameAges h4 (fun _ => rfl)
  refine (((s1.trans s2).trans s3).trans s4).trans ?_
  simp only [] at h
  split at h
  · exact replace_child_sameAges h
  · cases h; exact SameAges.refl _

theorem spr_recomb_path_sameAges {N N2 : List LocalNode} {pt : Option PopulationTree} {s : Spr}
    (h : spr_recomb_path N pt s = some N2) : SameAges N N2 := by
  unfold spr_recomb_path at h
  cases pt with
  | none => cases h; exact SameAges.refl _
  | some p =>
    obtain ⟨n1, -, h⟩ := Option.bind_eq_some.mp h
    obtain ⟨n2, -, h⟩ := Option.bind_eq_some.mp h
    exact modNode_sameAges h (fun _ => rfl)

theorem apply_spr_self_sameAges {t t2 : LocalTree} {s : Spr} {pt : Option PopulationTree}
    (h : apply_spr_self t s pt = some t2) : SameAges t.nodes t2.nodes := by
  unfold apply_spr_self at h
  cases pt with
  | none => cases h
  | some p =>
    obtain ⟨n1, -, h⟩ := Option.bind_eq_some.mp h
    simp only [] at h
    by_cases hq : p.paths_equal n1.pop_path s.pop_path s.recomb_time s.coal_time = true
    · rw [if_pos hq] at h; cases h
    · rw [if_neg hq] at h
      obtain ⟨M, hM, h⟩ := Option.map_eq_some'.mp h
      cases h
      exact modNode_sameAges hM (fun _ => rfl)

/-- Frame of `apply_spr` on the ages, with or without population tree: the
only age written is that of the parent of `recomb_node`. -/
theorem apply_spr_age_frame (t t2 : LocalTree) (s : Spr) (pt : Option PopulationTree)
    (h : apply_spr t s pt = some t2) (j : Int) (hj : j ≠ (t.node s.recomb_node).parent) :
    (t2.node j).age = (t.node j).age := by
  unfold apply_spr at h
  simp only [] at h
  split at h
  · cases h
  · split at h
    · exact apply_spr_self_sameAges h j
    · obtain ⟨rn, hrn, h⟩ := Option.bind_eq_some.mp h
      obtain ⟨c, -, h⟩ := Option.bind_eq_some.mp h
      obtain ⟨M1, h1, h⟩ := Option.bind_eq_some.mp h
      obtain ⟨⟨M2, x⟩, h2, h⟩ := Option.bind_eq_some.mp h
      obtain ⟨M3, h3, h⟩ := Option.bind_eq_some.mp h
      obtain ⟨M4, h4, h⟩ := Option.bind_eq_some.mp h
      obtain ⟨M5, h5, h⟩ := Option.bind_eq_some.mp h
      cases h
      have hrn2 : rn = nodeAt t.nodes s.recomb_node := by
        unfold getNode getAt at hrn
        split at hrn
        · cases hrn; rfl
        · cases hrn
      have s1 := spr_sib_path_sameAges h1
      have s2 := spr_prune_sameAges h2
      have s3 : SameAges M2 M3 := by
        split at h3
        · exact spr_recoal_broken_sameAges h3
        · exact spr_recoal_branch_sameAges h3
      have s4 := spr_recomb_path_sameAges h4
      have s := ((s1.trans s2).trans s3).trans s4
      show (nodeAt M5 j).age = (nodeAt t.nodes j).age
      rw [← s j]
      unfold modNode at h5
      split at h5
      · cases h5
        rw [nodeAt_updAt, if_neg]
        rintro ⟨e, -⟩
        apply hj
        rw [e, hrn2]
        rfl
      · cases h5

set_option maxHeartbeats 4000000 in
/-- The function `remove_tree_branch` on a tree with two leaves: the
surviving leaf `l` keeps its slot in `displace`, and the node in that slot has
the age of `l`. -/
theorem remove_tree_branch_three (t : LocalTree) (rl ntimes : Int) (d0 : List Int)
    (hwf : WellFormed t) (hlf : LeavesFirst t) (hn3 : t.nnodes = 3)
    (hrl : 0 ≤ rl ∧ rl < t.get_num_leaves) (hd : t.nnodes ≤ d0.length) :
    ∃ t2 d4, remove_tree_branch t rl none ntimes (some d0) = some (t2, some d4) ∧
      ∀ l : Int, 0 ≤ l → l < t.get_num_leaves → l ≠ rl →
        readAt d4 l = l ∧ (t2.node l).age = (t.node l).age := by
  have hn := hlf.1
  have hL : t.get_num_leaves = 2 := by omega
  have hcap : t.nnodes ≤ t.nodes.length := hwf.1
  obtain ⟨N1, rc, cc, cp, hsplice, rfl, rfl, hcc, hlen1, hrc, hccS, hccP, hT1, hnode1⟩ :=
    remove_splice t rl ntimes hwf hlf (by omega) hrl
  have hrc2 : (t.node rl).parent = 2 := by omega
  -- the surviving leaf is the root of the spliced tree, and a leaf of it
  have hroot1 := hT1.rootS
  have hsurv : ∀ l : Int, 0 ≤ l → l < t.get_num_leaves → l ≠ rl →
      (nodeAt N1 l).parent = -1 ∧ (nodeAt N1 l).child0 = -1 ∧ (nodeAt N1 l).child1 = -1 ∧
      (nodeAt N1 l).age = (t.node l).age := by
    intro l l0 l1 hl
    have hlS : (0 ≤ l ∧ l < t.nnodes) ∧ l ≠ rl ∧ l ≠ (t.node rl).parent :=
      ⟨⟨l0, by omega⟩, hl, by omega⟩
    have hlr : l = (if t.root = (t.node rl).parent then cc else t.root) := by omega
    refine ⟨?_, ?_, ?_, ?_⟩
    · have := hT1.rootP
      rw [← hlr] at this
      exact this
    · rcases hT1.ch l hlS with ⟨a, -⟩ | ⟨a, b, c, -⟩
      · exact a
      · exfalso; apply c; omega
    · rcases hT1.ch l hlS with ⟨-, a⟩ | ⟨a, b, c, -⟩
      · exact a
      · exfalso; apply c; omega
    · rw [hnode1 l hlS.1 hlS.2.1 hlS.2.2]
  -- the displace array
  obtain ⟨d1, d2, d3, d4, f1, f2, f3, f4, f5, f6⟩ := displace_run d0 t.nnodes t.get_num_leaves rl
    (t.node rl).parent
    (if (t.node rl).parent ≠ t.nnodes - 2 then (t.node rl).parent else t.get_num_leaves - 1)
    (decide (t.get_num_leaves - 1 ≠ rl)) (decide ((t.node rl).parent ≠ t.nnodes - 2))
    (decide ((t.node rl).parent ≠ t.nnodes - 1)) hd (by omega) (by omega) (by omega) (by omega)
  have hdis : ∀ l : Int, 0 ≤ l → l < t.get_num_leaves → l ≠ rl → readAt d4 l = l := by
    intro l l0 l1 hl
    rw [f6]
    simp only [decide_eq_true_eq]
    split_ifs <;> omega
  have hif : ∀ (c : Prop) [Decidable c] (N : List LocalNode) (s d : Int), ¬ c →
      rename_node_if (decide c) N s d = some N := by
    intro c _ N s d hc
    unfold rename_node_if
    rw [if_neg (by simp [hc])]
  have r2 : ∀ N : List LocalNode, rename_node_if (decide ((t.node rl).parent ≠ t.nnodes - 2)) N
      (t.nnodes - 2) (t.get_num_leaves - 1) = some N := by
    intro N
    unfold rename_node_if rename_node
    rw [if_pos (decide_eq_true (by omega)), if_pos (by omega)]
  have r3 : ∀ N : List LocalNode, rename_node_if (decide ((t.node rl).parent ≠ t.nnodes - 1)) N
      (t.nnodes - 1) (if (t.node rl).parent ≠ t.nnodes - 2 then (t.node rl).parent
        else t.get_num_leaves - 1) = some N :=
    fun N => hif _ N _ _ (by omega)
  by_cases h0 : rl = 1
  · -- the last leaf is removed: no node moves
    have r1 : rename_node_if (decide (t.get_num_leaves - 1 ≠ rl)) N1 (t.get_num_leaves - 1) rl =
        some N1 := hif _ N1 _ _ (by omega)
    refine ⟨LocalTree.mk (t.nnodes - 2)
      (remove_new_root t.root t.nnodes (t.node rl).parent cc (t.get_num_leaves - 1)
        (if (t.node rl).parent ≠ t.nnodes - 2 then (t.node rl).parent
          else t.get_num_leaves - 1)) N1, d4, ?_, ?_⟩
    · unfold remove_tree_branch
      simp only [hsplice, Option.some_bind, f1, f2, f3, f4, r1, r2, r3]
    · intro l l0 l1 hl
      exact ⟨hdis l l0 l1 hl, (hsurv l l0 l1 hl).2.2.2⟩
  · -- leaf 0 is removed: leaf 1 is copied to slot 0
    have hrl0 : rl = 0 := by omega
    have hs1 := hsurv 1 (by omega) (by omega) (by omega)
    have hL1 : t.get_num_leaves - 1 = 1 := by omega
    have hA1 : inArr N1 1 := by unfold inArr; omega
    have hA0 : inArr N1 0 := by unfold inArr; omega
    have hren := rename_node_eq N1 1 0 (by omega) hA1 hA0
      (fun h => absurd hs1.1 h) (fun h => absurd hs1.2.1 h) (fun h => absurd hs1.2.2.1 h)
    have hage := (renameNodes_fields N1 1 0 1 (by omega) hA0
      (fun h => absurd hs1.1 h) (fun h => absurd hs1.2.1 h) (fun h => absurd hs1.2.2.1 h)).2.2.2.1
    have r1 : rename_node_if (decide (t.get_num_leaves - 1 ≠ rl)) N1 (t.get_num_leaves - 1) rl =
        some (renameNodes N1 1 0) := by
      unfold rename_node_if
      rw [if_pos (decide_eq_true (by omega)), hL1, hrl0]
      exact hren
    refine ⟨LocalTree.mk (t.nnodes - 2)
      (remove_new_root t.root t.nnodes (t.node rl).parent cc (t.get_num_leaves - 1)
        (if (t.node rl).parent ≠ t.nnodes - 2 then (t.node rl).parent
          else t.get_num_leaves - 1)) (renameNodes N1 1 0), d4, ?_, ?_⟩
    · unfold remove_tree_branch
      simp only [hsplice, Option.some_bind, f1, f2, f3, f4, r1, r2, r3]
    · intro l l0 l1 hl
      have hl1 : l = 1 := by omega
      refine ⟨hdis l l0 l1 hl, ?_⟩
      subst hl1
      show (nodeAt (renameNodes N1 1 0) 1).age = _
      rw [hage, if_neg (by omega)]
      exact hs1.2.2.2

/-- In a well-formed tree the parent of a node is not a leaf. -/
theorem WellFormed.parent_not_leaf {t : LocalTree} (hwf : WellFormed t) (r l : Int)
    (hr : t.isNode r) (hroot : r ≠ t.root) (hl : (t.node l).child0 = -1) :
    l ≠ (t.node r).parent := by
  have hT := hwf.treeOn
  intro e
  rcases hT.par r hr with ⟨-, a⟩ | ⟨-, b, c⟩
  · exact hroot a
  · have hr0 : 0 ≤ r := hr.1
    have c' : (t.node (t.node r).parent).child0 = r ∨ (t.node (t.node r).parent).child1 = r := c
    have b' : 0 ≤ (t.node r).parent ∧ (t.node r).parent < t.nnodes := b
    rw [← e] at c' b'
    rcases hT.ch l b' with ⟨d1, d2⟩ | ⟨d1, -⟩
    · have d1' : (t.node l).child0 = -1 := d1
      have d2' : (t.node l).child1 = -1 := d2
      omega
    · have d1' : 0 ≤ (t.node l).child0 := d1.1
      omega

/-- The surviving leaves keep their age through `remove_tree_branch`, under
their new name in `displace`. -/
theorem remove_tree_branch_leaf_ages (t : LocalTree) (rl ntimes : Int) (d0 : List Int)
    (hwf : WellFormed t) (hlf : LeavesFirst t) (hn : 3 ≤ t.nnodes)
    (hrl : 0 ≤ rl ∧ rl < t.get_num_leaves) (hd : t.nnodes ≤ d0.length) :
    ∃ t2 d4, remove_tree_branch t rl none ntimes (some d0) = some (t2, some d4) ∧
      ∀ l : Int, 0 ≤ l → l < t.get_num_leaves → l ≠ rl →
        (t2.node (readAt d4 l)).age = (t.node l).age := by
  have hnn := hlf.1
  by_cases h3 : t.nnodes = 3
  · obtain ⟨t2, d4, h1, h2⟩ := remove_tree_branch_three t rl ntimes d0 hwf hlf h3 hrl hd
    refine ⟨t2, d4, h1, fun l l0 l1 hl => ?_⟩
    rw [(h2 l l0 l1 hl).1]
    exact (h2 l l0 l1 hl).2
  · obtain ⟨t2, d2, h1, -, -, -, -, -, h7, -, h9⟩ :=
      remove_tree_branch_spec t rl ntimes (some d0) hwf hlf (by omega) hrl
        (fun d h => by cases h; exact hd)
    obtain ⟨d4, rfl, -, hread⟩ := h9 d0 rfl
    refine ⟨t2, d4, h1, fun l l0 l1 hl => ?_⟩
    have hlp : l ≠ (t.node rl).parent := by
      apply hwf.parent_not_leaf rl l ⟨hrl.1, by omega⟩
      · intro e
        have h0 : (t.node rl).child0 = -1 := (hlf.2 rl hrl.1 (by omega)).mpr hrl.2
        have hr : 0 ≤ t.root ∧ t.root < t.nnodes := hwf.2.1
        have : ∃ y : Int, (0 ≤ y ∧ y < t.nnodes) ∧ y ≠ t.root := by
          by_cases h : t.root = 0
          · exact ⟨1, ⟨by omega, by omega⟩, by omega⟩
          · exact ⟨0, ⟨by omega, by omega⟩, by omega⟩
        obtain ⟨y, hy, hyr⟩ := this
        have := hwf.treeOn.root_not_leaf y hy hyr
        rw [← e] at this
        exact this h0
      · exact (hlf.2 l l0 (by omega)).mpr l1
    rw [hread, if_pos ⟨l0, by omega⟩, h7 l l0 (by omega) hl hlp]
    rfl

/-- In a well-formed tree `get_sibling` of a node below the root returns the
other child of its parent. -/
theorem get_sibling_eq (t : LocalTree) (hwf : WellFormed t) (r : Int) (hr : t.isNode r)
    (hroot : r ≠ t.root) : t.get_sibling r = some (t.sibling r) := by
  have hT := hwf.treeOn
  rcases hT.par r hr with ⟨-, a⟩ | ⟨a, b, -⟩
  · exact absurd a hroot
  · have a' : (nodeAt t.nodes r).parent ≠ -1 := a
    have b' : t.isNode (nodeAt t.nodes r).parent := b
    unfold LocalTree.get_sibling LocalTree.sibling
    simp only [getNode_eq (hwf.inArr hr), Option.some_bind, if_neg a', getNode_eq (hwf.inArr b'),
      Option.map_some', LocalTree.node]

/-- The function `get_sibling` on the root: -1. -/
theorem get_sibling_root (t : LocalTree) (hwf : WellFormed t) :
    t.get_sibling t.root = some (-1) := by
  have h1 : t.isNode t.root := hwf.2.1
  have h2 : (nodeAt t.nodes t.root).parent = -1 := hwf.2.2.1
  unfold LocalTree.get_sibling
  simp only [getNode_eq (hwf.inArr h1), Option.some_bind, h2, if_true]

/-- The sibling of a node below the root is a node other than the node and its
parent, a child of the same parent. -/
theorem WellFormed.sibling_facts {t : LocalTree} (hwf : WellFormed t) (r : Int)
    (hr : t.isNode r) (hroot : r ≠ t.root) :
    t.isNode (t.node r).parent ∧ t.isNode (t.sibling r) ∧ t.sibling r ≠ r ∧
    t.sibling r ≠ (t.node r).parent ∧ (t.node (t.sibling r)).parent = (t.node r).parent ∧
    (t.node r).parent ≠ r := by
  have hT := hwf.treeOn
  have hp : (fnOf t.nodes).P r ≠ -1 := by
    intro e
    rcases hT.par r hr with ⟨-, a⟩ | ⟨a, -⟩
    · exact hroot a
    · exact a e
  obtain ⟨c1, c2, c3, c4, c5, c6, c7⟩ := hT.child_cases hr hp
  have c2' : t.isNode (t.node (t.node r).parent).child0 := c2
  have c3' : t.isNode (t.node (t.node r).parent).child1 := c3
  have c4' : (t.node (t.node r).parent).child0 ≠ (t.node (t.node r).parent).child1 := c4
  have c5' : (t.node (t.node (t.node r).parent).child0).parent = (t.node r).parent := c5
  have c6' : (t.node (t.node (t.node r).parent).child1).parent = (t.node r).parent := c6
  have c7' : (t.node (t.node r).parent).child0 = r ∨ (t.node (t.node r).parent).child1 = r := c7
  have hpne : (t.node r).parent ≠ r := hT.parent_ne hr
  have hs : t.sibling r = (if (t.node (t.node r).parent).child0 = r
      then (t.node (t.node r).parent).child1 else (t.node (t.node r).parent).child0) := rfl
  refine ⟨c1, ?_, ?_, ?_, ?_, hpne⟩
  · rw [hs]; split
    · exact c3'
    · exact c2'
  · rw [hs]; split
    · rename_i h; intro e; exact c4' (h.trans e.symm)
    · rename_i h; exact h
  · rw [hs]
    intro e
    split at e
    · rw [e] at c6'; exact hT.parent_ne c1 c6'
    · rw [e] at c5'; exact hT.parent_ne c1 c5'
  · rw [hs]; split
    · exact c6'
    · exact c5'

theorem sumBlocklen_nil : sumBlocklen [] = 0 := rfl

theorem sumBlocklen_cons (x : LocalTreeSpr) (l : List LocalTreeSpr) :
    sumBlocklen (x :: l) = x.blocklen + sumBlocklen l := by
  simp [sumBlocklen]

theorem sumBlocklen_append (l1 l2 : List LocalTreeSpr) :
    sumBlocklen (l1 ++ l2) = sumBlocklen l1 + sumBlocklen l2 := by
  simp [sumBlocklen]

/-- The loop of `get_block` on blocks of positive length: a site inside the
span of the list lies in exactly one block, which the loop returns with its
start and its end. -/
theorem get_block_loop_spec (l : List LocalTreeSpr) :
    ∀ (i : Nat) (e site : Int), (∀ x ∈ l, 0 < x.blocklen) → e ≤ site →
      site < e + sumBlocklen l →
      ∃ (j : Nat) (first : LocalTreeSpr) (rest : List LocalTreeSpr),
        l.drop j = first :: rest ∧
        get_block_loop l i e site = some (i + j, e + sumBlocklen (l.take j),
          e + sumBlocklen (l.take j) + first.blocklen) ∧
        e + sumBlocklen (l.take j) ≤ site ∧
        site < e + sumBlocklen (l.take j) + first.blocklen := by
  induction l with
  | nil =>
    intro i e site _ h1 h2
    rw [sumBlocklen_nil] at h2
    omega
  | cons x l ih =>
    intro i e site hpos h1 h2
    rw [sumBlocklen_cons] at h2
    by_cases hx : site < e + x.blocklen
    · refine ⟨0, x, l, rfl, ?_, ?_, ?_⟩
      · unfold get_block_loop
        simp only [List.take_zero, sumBlocklen_nil, add_zero]
        rw [if_pos ⟨h1, hx⟩]
      · simp only [List.take_zero, sumBlocklen_nil, add_zero]; exact h1
      · simp only [List.take_zero, sumBlocklen_nil, add_zero]; exact hx
    · obtain ⟨j, first, rest, e1, e2, e3, e4⟩ := ih (i + 1) (e + x.blocklen) site
        (fun y hy => hpos y (List.mem_cons_of_mem _ hy)) (by omega) (by omega)
      refine ⟨j + 1, first, rest, e1, ?_, ?_, ?_⟩
      · unfold get_block_loop
        simp only []
        rw [if_neg (fun h => hx h.2), e2]
        simp only [List.take_succ_cons, sumBlocklen_cons]
        have a1 : i + 1 + j = i + (j + 1) := by omega
        rw [a1, add_assoc e]
      · simp only [List.take_succ_cons, sumBlocklen_cons]
        omega
      · simp only [List.take_succ_cons, sumBlocklen_cons]
        omega

/-- The general case of `partition_local_trees` with `trim = true`, on blocks
of positive length, for a position strictly inside the span. -/
theorem partition_inside (trees : LocalTrees) (pos : Int)
    (hsum : sumBlocklen trees.trees = trees.end_coord - trees.start_coord)
    (hpos : ∀ x ∈ trees.trees, 0 < x.blocklen) (hst : StorageOk trees)
    (h1 : trees.start_coord < pos) (h2 : pos < trees.end_coord) :
    ∃ (j : Nat) (first last : LocalTreeSpr) (rest : List LocalTreeSpr),
      trees.trees.drop j = first :: rest ∧
      last.blocklen = pos - (trees.start_coord + sumBlocklen (trees.trees.take j)) ∧
      0 ≤ last.blocklen ∧ last.blocklen < first.blocklen ∧
      partition_local_trees trees pos true =
        some ({ trees with trees := trees.trees.take j ++ [last], end_coord := pos },
          some { chrom := trees.chrom, start_coord := pos, end_coord := trees.end_coord,
                 nnodes := trees.nnodes,
                 trees := { first with mapping := none, spr := ⟨-1, -1, -1, -1, -1⟩,
                                       blocklen := first.blocklen - last.blocklen } :: rest,
                 seqids := trees.seqids }) := by
  obtain ⟨j, first, rest, e1, e2, e3, e4⟩ := get_block_loop_spec trees.trees 0 trees.start_coord
    pos hpos (by omega) (by omega)
  have hmem : first ∈ trees.trees := by
    have : first ∈ trees.trees.drop j := by rw [e1]; exact List.mem_cons_self _ _
    exact List.mem_of_mem_drop this
  obtain ⟨hcap, hmap⟩ := hst first hmem
  obtain ⟨tc, htc, -⟩ := copy_spec first.tree hcap
  have hcm : ∃ mc, copy_mapping first.mapping trees.nnodes = some mc := by
    unfold copy_mapping
    cases hm : first.mapping with
    | none => exact ⟨none, rfl⟩
    | some m => exact ⟨some (m.take trees.nnodes.toNat), by simp only []; rw [if_pos (hmap m hm)]⟩
  obtain ⟨mc, hmc⟩ := hcm
  refine ⟨j, first, ⟨tc, first.spr, mc,
    pos - (trees.start_coord + sumBlocklen (trees.trees.take j))⟩, rest, e1, rfl, ?_, ?_, ?_⟩
  · show 0 ≤ pos - (trees.start_coord + sumBlocklen (trees.trees.take j))
    omega
  · show pos - (trees.start_coord + sumBlocklen (trees.trees.take j)) < first.blocklen
    omega
  · unfold partition_local_trees LocalTrees.get_block
    rw [if_neg (by omega), if_neg (by omega), e2]
    simp only [Nat.zero_add]
    unfold partition_local_trees_at
    rw [e1]
    have hgt : first.blocklen - (pos - (trees.start_coord + sumBlocklen (trees.trees.take j))) >
        0 := by omega
    simp only [if_true, htc, hmc, Option.some_bind, Option.map_some', assertion,
      decide_eq_true hgt]

set_option maxHeartbeats 4000000 in
/-- The edit of one tree in `remove_arg_thread_path`, for a removal node `v`
below the root of a well-formed tree and no population tree. -/
theorem remove_path_prune_spec (t : LocalTree) (v maxtime : Int) (hwf : WellFormed t)
    (hv : t.isNode v) (hroot : v ≠ t.root) :
    ∃ t2, remove_path_prune t v maxtime none = some t2 ∧ t2.nnodes = t.nnodes ∧
      t2.root = (t.node v).parent ∧
      (t2.node t2.root).parent = -1 ∧
      (t2.node t2.root).age = maxtime ∧
      (t2.node t2.root).child0 = v ∧
      (t2.node t2.root).child1 =
        (if (t.node v).parent = t.root then t.sibling v else t.root) ∧
      (t2.node v).parent = (t.node v).parent ∧
      ((t.node v).parent ≠ t.root →
        (t2.node t.root).parent = (t.node v).parent ∧
        (t2.node (t.sibling v)).parent = (t.node (t.node v).parent).parent ∧
        (if (t.node (t.node (t.node v).parent).parent).child0 = (t.node v).parent
          then (t2.node (t.node (t.node v).parent).parent).child0
          else (t2.node (t.node (t.node v).parent).parent).child1) = t.sibling v) := by
  obtain ⟨hb, hsb, hsv, hsbb, hsp, hbv⟩ := hwf.sibling_facts v hv hroot
  have hrootN : t.isNode t.root := hwf.2.1
  have hrootP : (t.node t.root).parent = -1 := hwf.2.2.1
  have hv' : 0 ≤ v ∧ v < t.nnodes := hv
  have hb' : 0 ≤ (t.node v).parent ∧ (t.node v).parent < t.nnodes := hb
  have hsb' : 0 ≤ t.sibling v ∧ t.sibling v < t.nnodes := hsb
  have hr' : 0 ≤ t.root ∧ t.root < t.nnodes := hrootN
  have hsroot : t.sibling v ≠ t.root := by
    intro e; rw [e, hrootP] at hsp; omega
  -- the children of the broken node
  have hT := hwf.treeOn
  have hp : (fnOf t.nodes).P v ≠ -1 := by
    show (t.node v).parent ≠ -1
    omega
  obtain ⟨-, -, -, c4, -, -, c7⟩ := hT.child_cases hv hp
  have c4' : (t.node (t.node v).parent).child0 ≠ (t.node (t.node v).parent).child1 := c4
  have c7' : (t.node (t.node v).parent).child0 = v ∨ (t.node (t.node v).parent).child1 = v := c7
  have hsdef : t.sibling v = (if (t.node (t.node v).parent).child0 = v
      then (t.node (t.node v).parent).child1 else (t.node (t.node v).parent).child0) := rfl
  -- the SPR
  obtain ⟨t1, h1, h2, h3, h4, h5⟩ := apply_spr_spec t ⟨v, (t.node v).age, t.root, maxtime, 0⟩ hwf
    hv hrootN hroot hroot
  have hroot1 : t1.root = (t.node v).parent := by
    rw [h4]; unfold spr_new_root; rw [if_pos rfl]
  have hcap : t.nnodes ≤ t.nodes.length := hwf.1
  have hA1 : ∀ x : Int, 0 ≤ x → x < t.nnodes → inArr t1.nodes x := by
    intro x x0 x1; unfold inArr; rw [h3]; omega
  -- the nodes v and b after the SPR
  have hvn : (t1.node v).parent = (t.node v).parent := by
    rw [h5 v hv'.1]
    unfold sprNode sprNodeAt
    simp only [LocalTree.node] at hbv hsv hroot hsroot ⊢
    by_cases hcb : t.root = (nodeAt t.nodes v).parent
    · rw [if_pos hcb, if_neg (by rw [← hcb]; exact hroot)]
    · rw [if_neg hcb, if_neg (Ne.symm hsroot)]
      simp only [if_neg (Ne.symm hbv), if_neg (Ne.symm hsv), if_neg hroot]
  have hbn : (t1.node (t.node v).parent).parent = -1 ∧
      (t1.node (t.node v).parent).age = maxtime ∧
      (((t1.node (t.node v).parent).child0 = v ∧
        (t1.node (t.node v).parent).child1 =
          (if (t.node v).parent = t.root then t.sibling v else t.root)) ∨
       ((t1.node (t.node v).parent).child1 = v ∧
        (t1.node (t.node v).parent).child0 =
          (if (t.node v).parent = t.root then t.sibling v else t.root))) := by
    rw [h5 _ hb'.1]
    unfold sprNode sprNodeAt
    simp only [LocalTree.node] at hbv hsv hroot hsroot hrootP c4' c7' hsdef ⊢
    by_cases hcb : t.root = (nodeAt t.nodes v).parent
    · rw [if_pos hcb, if_pos hcb.symm]
      simp only [if_true]
      refine ⟨by rw [← hcb]; exact hrootP, trivial, ?_⟩
      rw [hsdef]
      by_cases h0 : (nodeAt t.nodes (nodeAt t.nodes v).parent).child0 = v
      · left; rw [if_pos h0]; exact ⟨h0, rfl⟩
      · right; rw [if_neg h0]
        rcases c7' with c | c
        · exact absurd c h0
        · exact ⟨c, rfl⟩
    · have hcb' : ¬ (nodeAt t.nodes v).parent = t.root := Ne.symm hcb
      simp only [if_neg hcb, if_neg (Ne.symm hsroot), if_neg hcb', if_true]
      refine ⟨hrootP, trivial, ?_⟩
      by_cases h0 : (nodeAt t.nodes (nodeAt t.nodes v).parent).child0 = v
      · left; simp only [if_pos h0, and_self]
      · right; simp only [if_neg h0, and_self]
  have hmne : (if (t.node v).parent = t.root then t.sibling v else t.root) ≠ v := by
    split
    · exact hsv
    · exact Ne.symm hroot
  -- the second `get_sibling`
  have hsib1 : t1.get_sibling v = some (if (t.node v).parent = t.root then t.sibling v
      else t.root) := by
    unfold LocalTree.get_sibling
    have e1 : (nodeAt t1.nodes v).parent = (t.node v).parent := hvn
    simp only [getNode_eq (hA1 v hv'.1 hv'.2), Option.some_bind, e1,
      if_neg (show (t.node v).parent ≠ -1 by omega), getNode_eq (hA1 _ hb'.1 hb'.2),
      Option.map_some']
    rcases hbn.2.2 with ⟨a, b⟩ | ⟨a, b⟩
    · have a' : (nodeAt t1.nodes (t.node v).parent).child0 = v := a
      rw [if_pos a']; exact congrArg some b
    · have a' : (nodeAt t1.nodes (t.node v).parent).child1 = v := a
      have b' : (nodeAt t1.nodes (t.node v).parent).child0 = _ := b
      rw [if_neg (by rw [b']; exact hmne)]
      exact congrArg some b
  -- the run
  have hrun : remove_path_prune t v maxtime none =
      (if (t1.node (t.node v).parent).child0 =
          (if (t.node v).parent = t.root then t.sibling v else t.root)
        then some (LocalTree.mk t1.nnodes t1.root (updAt t1.nodes (t.node v).parent
          (LocalNode.mk (t1.node (t.node v).parent).parent v
            (if (t.node v).parent = t.root then t.sibling v else t.root)
            (t1.node (t.node v).parent).age (t1.node (t.node v).parent).pop_path)))
        else some t1) := by
    have hbA : inArr t.nodes (nodeAt t.nodes v).parent := hwf.inArr hb
    have hbA1 : inArr t1.nodes t1.root := by rw [hroot1]; exact hA1 _ hb'.1 hb'.2
    unfold remove_path_prune
    rw [if_neg hroot]
    simp only [getNode_eq (hwf.inArr hv), Option.some_bind, getNode_eq hbA,
      get_sibling_eq t hwf v hv hroot]
    have h1' : apply_spr t ⟨v, (nodeAt t.nodes v).age, t.root, maxtime, 0⟩ none = some t1 := h1
    rw [h1']
    simp only [Option.some_bind, hsib1, getNode_eq hbA1, modNode_eq _ hbA1, Option.map_some']
    rw [hroot1]
    rfl
  have hother : ∀ (x : Int) (n : LocalNode), x ≠ (t.node v).parent →
      nodeAt (updAt t1.nodes (t.node v).parent n) x = t1.node x := by
    intro x n hx
    rw [nodeAt_updAt, if_neg (fun h => hx h.1)]
    rfl
  -- the facts on the tree after the SPR that the swap keeps
  have hfar : (t.node v).parent ≠ t.root →
      (t1.node t.root).parent = (t.node v).parent ∧
      (t1.node (t.sibling v)).parent = (t.node (t.node v).parent).parent ∧
      (if (t.node (t.node (t.node v).parent).parent).child0 = (t.node v).parent
        then (t1.node (t.node (t.node v).parent).parent).child0
        else (t1.node (t.node (t.node v).parent).parent).child1) = t.sibling v := by
    intro hne
    refine ⟨?_, ?_, ?_⟩
    · rw [h5 _ hr'.1]
      unfold sprNode sprNodeAt
      simp only [LocalTree.node] at hne hsroot ⊢
      rw [if_neg (Ne.symm hne), if_neg (Ne.symm hsroot)]
      simp only [if_neg (Ne.symm hne), if_neg (Ne.symm hsroot), if_true]
    · rw [h5 _ hsb'.1]
      unfold sprNode sprNodeAt
      simp only [LocalTree.node] at hne hsroot hsbb ⊢
      rw [if_neg (Ne.symm hne), if_neg (Ne.symm hsroot)]
      simp only [if_neg hsbb, if_true]
    · have hbpN : t.isNode (t.node (t.node v).parent).parent := by
        rcases hT.par _ hb with ⟨-, a⟩ | ⟨-, a, -⟩
        · exact absurd a hne
        · exact a
      have hbp0 : 0 ≤ (t.node (t.node v).parent).parent := hbpN.1
      have hbpb : (t.node (t.node v).parent).parent ≠ (t.node v).parent :=
        hT.parent_ne hb
      rw [h5 _ hbp0]
      unfold sprNode sprNodeAt
      simp only [LocalTree.node] at hne hsroot hsbb hbpb hrootP hbp0 ⊢
      rw [if_neg (Ne.symm hne), if_neg (Ne.symm hsroot)]
      simp only [if_neg hbpb, hrootP]
      have hm1 : (nodeAt t.nodes (nodeAt t.nodes v).parent).parent ≠ -1 := by omega
      by_cases h0 : (nodeAt t.nodes (nodeAt t.nodes (nodeAt t.nodes v).parent).parent).child0 =
          (nodeAt t.nodes v).parent
      · simp only [if_pos h0, hm1, false_and, if_false, true_and, if_true]
      · have hc1 : (nodeAt t.nodes (nodeAt t.nodes (nodeAt t.nodes v).parent).parent).child1 =
            (nodeAt t.nodes v).parent := by
          rcases hT.par _ hb with ⟨-, a⟩ | ⟨-, -, a⟩
          · exact absurd a hne
          · rcases a with a | a
            · exact absurd a h0
            · exact a
        simp only [if_neg h0, hm1, false_and, if_false, true_and, hc1, if_true]
  by_cases hsw : (t1.node (t.node v).parent).child0 =
      (if (t.node v).parent = t.root then t.sibling v else t.root)
  · rw [if_pos hsw] at hrun
    have hnb : nodeAt (updAt t1.nodes (t.node v).parent
        (LocalNode.mk (t1.node (t.node v).parent).parent v
          (if (t.node v).parent = t.root then t.sibling v else t.root)
          (t1.node (t.node v).parent).age (t1.node (t.node v).parent).pop_path))
        (t.node v).parent =
        LocalNode.mk (t1.node (t.node v).parent).parent v
          (if (t.node v).parent = t.root then t.sibling v else t.root)
          (t1.node (t.node v).parent).age (t1.node (t.node v).parent).pop_path := by
      rw [nodeAt_updAt, if_pos ⟨rfl, hA1 _ hb'.1 hb'.2⟩]
    refine ⟨_, hrun, h2, hroot1, ?_, ?_, ?_, ?_, ?_, ?_⟩
    · show (nodeAt _ t1.root).parent = -1
      rw [hroot1, hnb]; exact hbn.1
    · show (nodeAt _ t1.root).age = maxtime
      rw [hroot1, hnb]; exact hbn.2.1
    · show (nodeAt _ t1.root).child0 = v
      rw [hroot1, hnb]
    · show (nodeAt _ t1.root).child1 = _
      rw [hroot1, hnb]
    · show (nodeAt (updAt t1.nodes _ _) v).parent = _
      rw [hother v _ (Ne.symm hbv)]; exact hvn
    · intro hne
      obtain ⟨f1, f2, f3⟩ := hfar hne
      have hbpb : (t.node (t.node v).parent).parent ≠ (t.node v).parent := hT.parent_ne hb
      refine ⟨?_, ?_, ?_⟩
      · show (nodeAt (updAt t1.nodes _ _) t.root).parent = _
        rw [hother t.root _ (Ne.symm hne)]; exact f1
      · show (nodeAt (updAt t1.nodes _ _) (t.sibling v)).parent = _
        rw [hother _ _ hsbb]; exact f2
      · show (if _ then (nodeAt (updAt t1.nodes _ _) (t.node (t.node v).parent).parent).child0
          else (nodeAt (updAt t1.nodes _ _) (t.node (t.node v).parent).parent).child1) = _
        rw [hother _ _ hbpb]; exact f3
  · rw [if_neg hsw] at hrun
    have hc : (t1.node (t.node v).parent).child0 = v ∧
        (t1.node (t.node v).parent).child1 =
          (if (t.node v).parent = t.root then t.sibling v else t.root) := by
      rcases hbn.2.2 with h | h
      · exact h
      · exact absurd h.2 hsw
    refine ⟨t1, hrun, h2, hroot1, ?_, ?_, ?_, ?_, hvn, hfar⟩
    · rw [hroot1]; exact hbn.1
    · rw [hroot1]; exact hbn.2.1
    · rw [hroot1]; exact hc.1
    · rw [hroot1]; exact hc.2

theorem readAt_replicate_neg (k : Nat) (j : Int) (h0 : 0 ≤ j) (h1 : j < k) :
    readAt (List.replicate k (-1 : Int)) j = -1 := by
  unfold readAt
  rw [if_pos h0]
  have : j.toNat < k := by omega
  simp [List.getD_eq_getElem?_getD, List.getElem?_replicate, this]

/-- The loop that fills the inverse mapping, over a list of indices on which
the mapping is injective: it runs through, and slot `k` holds the index mapped
to `k` when there is one in the list, its old value otherwise. -/
theorem inv_loop_spec (m : List Int) (l : List Nat) :
    ∀ inv0 : List Int, (∀ i ∈ l, (i : Int) < m.length) →
      (∀ i ∈ l, readAt m (i : Int) = -1 ∨ inArr inv0 (readAt m (i : Int))) →
      (∀ i ∈ l, ∀ i2 ∈ l, readAt m (i : Int) ≠ -1 →
        readAt m (i : Int) = readAt m (i2 : Int) → i = i2) →
      ∃ inv, forLoop (fun i inv => (getAt m i).bind fun mi =>
          if mi ≠ -1 then setAt inv mi i else some inv) l inv0 = some inv ∧
        inv.length = inv0.length ∧
        ∀ k : Int, k ≠ -1 →
          (∀ i ∈ l, readAt m (i : Int) = k → readAt inv k = (i : Int)) ∧
          ((∀ i ∈ l, readAt m (i : Int) ≠ k) → readAt inv k = readAt inv0 k) := by
  induction l with
  | nil =>
    intro inv0 _ _ _
    exact ⟨inv0, rfl, rfl, fun k _ => ⟨fun i hi => by simp at hi, fun _ => rfl⟩⟩
  | cons a l ih =>
    intro inv0 h1 h2 h3
    have haA : inArr m (a : Int) := by
      have := h1 a (List.mem_cons_self _ _)
      unfold inArr; omega
    have h1' : ∀ i ∈ l, (i : Int) < m.length := fun i hi => h1 i (List.mem_cons_of_mem _ hi)
    have h3' : ∀ i ∈ l, ∀ i2 ∈ l, readAt m (i : Int) ≠ -1 →
        readAt m (i : Int) = readAt m (i2 : Int) → i = i2 :=
      fun i hi i2 hi2 => h3 i (List.mem_cons_of_mem _ hi) i2 (List.mem_cons_of_mem _ hi2)
    by_cases hv : readAt m (a : Int) = -1
    · obtain ⟨inv, e1, e2, e3⟩ := ih inv0 h1'
        (fun i hi => h2 i (List.mem_cons_of_mem _ hi)) h3'
      refine ⟨inv, ?_, e2, ?_⟩
      · simp only [forLoop, getAt_eq haA, hv, Option.some_bind, ne_eq, not_true_eq_false,
          if_false]
        exact e1
      · intro k hk
        refine ⟨?_, ?_⟩
        · intro i hi e
          rcases List.mem_cons.mp hi with hi | hi
          · subst hi; rw [hv] at e; exact absurd e.symm hk
          · exact (e3 k hk).1 i hi e
        · intro hno
          exact (e3 k hk).2 (fun i hi => hno i (List.mem_cons_of_mem _ hi))
    · have hin : inArr inv0 (readAt m (a : Int)) := by
        rcases h2 a (List.mem_cons_self _ _) with h | h
        · exact absurd h hv
        · exact h
      obtain ⟨inv, e1, e2, e3⟩ := ih (updAt inv0 (readAt m (a : Int)) (a : Int)) h1'
        (fun i hi => by
          rcases h2 i (List.mem_cons_of_mem _ hi) with h | h
          · exact Or.inl h
          · right; rw [inArr_updAt]; exact h) h3'
      refine ⟨inv, ?_, ?_, ?_⟩
      · simp only [forLoop, getAt_eq haA, Option.some_bind, ne_eq, hv, not_false_eq_true, if_true,
          setAt_eq _ hin]
        exact e1
      · rw [e2, length_updAt]
      · intro k hk
        refine ⟨?_, ?_⟩
        · intro i hi e
          rcases List.mem_cons.mp hi with hi | hi
          · subst hi
            by_cases hex : ∃ i2 ∈ l, readAt m (i2 : Int) = k
            · obtain ⟨i2, hi2, e2'⟩ := hex
              have : i = i2 := h3 i (List.mem_cons_self _ _) i2 (List.mem_cons_of_mem _ hi2) hv
                (e.trans e2'.symm)
              rw [this]
              exact (e3 k hk).1 i2 hi2 e2'
            · rw [(e3 k hk).2 (fun i2 hi2 e2' => hex ⟨i2, hi2, e2'⟩),
                readAt_updAt_of_inArr _ _ _ _ hin, if_pos e.symm]
          · exact (e3 k hk).1 i hi e
        · intro hno
          rw [(e3 k hk).2 (fun i hi => hno i (List.mem_cons_of_mem _ hi)),
            readAt_updAt_of_inArr _ _ _ _ hin,
            if_neg (fun e => hno a (List.mem_cons_self _ _) e.symm)]

/-- The inverse mapping filled by `get_prev_removal_nodes`, for a mapping
with entries -1 or nodes that is injective on the entries other than -1: slot
`k` holds the node mapped to `k`, and -1 when no node is mapped to `k`. -/
theorem fill_inv_mapping_spec (n : Int) (m : List Int) (hlen : n ≤ m.length)
    (hrange : MappingInRange n m) (hinj : MappingInjective n m) :
    ∃ inv, fill_inv_mapping n m = some inv ∧ (inv.length : Int) = n.toNat ∧
      ∀ k : Int, 0 ≤ k → k < n →
        (∀ i : Int, 0 ≤ i → i < n → readAt m i = k → readAt inv k = i) ∧
        (NoPreimage n m k → readAt inv k = -1) := by
  obtain ⟨inv, e1, e2, e3⟩ := inv_loop_spec m (List.range n.toNat)
    (List.replicate n.toNat (-1))
    (by intro i hi; rw [List.mem_range] at hi; omega)
    (by
      intro i hi
      rw [List.mem_range] at hi
      rcases hrange i (Int.natCast_nonneg _) (by omega) with h | h
      · exact Or.inl h
      · right; unfold inArr; rw [List.length_replicate]; omega)
    (by
      intro i hi i2 hi2 hne e
      rw [List.mem_range] at hi hi2
      have := hinj i (Int.natCast_nonneg _) (by omega) i2 (Int.natCast_nonneg _) (by omega)
        hne e
      exact_mod_cast this)
  refine ⟨inv, e1, by rw [e2, List.length_replicate], ?_⟩
  intro k k0 k1
  refine ⟨?_, ?_⟩
  · intro i i0 i1 e
    have := (e3 k (by omega)).1 i.toNat (by rw [List.mem_range]; omega)
      (by rw [Int.toNat_of_nonneg i0]; exact e)
    rw [this, Int.toNat_of_nonneg i0]
  · intro hno
    rw [(e3 k (by omega)).2 (fun i hi => by
      rw [List.mem_range] at hi
      exact hno i (Int.natCast_nonneg _) (by omega))]
    exact readAt_replicate_neg _ _ k0 (by omega)

/-- The search loop of `get_prev_removal_nodes` for a self SPR: it returns the
first index of the list whose mapping is `node`, -1 when there is none. -/
theorem find_preimage_spec (m : List Int) (node : Int) (l : List Nat) :
    (∀ i ∈ l, (i : Int) < m.length) →
    ∃ r, find_preimage m node l = some r ∧
      ((r = -1 ∧ ∀ i ∈ l, readAt m (i : Int) ≠ node) ∨
       (∃ i ∈ l, r = (i : Int) ∧ readAt m (i : Int) = node)) := by
  induction l with
  | nil => intro _; exact ⟨-1, rfl, Or.inl ⟨rfl, fun i hi => by simp at hi⟩⟩
  | cons a l ih =>
    intro h1
    have haA : inArr m (a : Int) := by
      have := h1 a (List.mem_cons_self _ _)
      unfold inArr; omega
    by_cases hv : readAt m (a : Int) = node
    · refine ⟨a, ?_, Or.inr ⟨a, List.mem_cons_self _ _, rfl, hv⟩⟩
      simp only [find_preimage, getAt_eq haA, Option.some_bind, hv, if_true]
    · obtain ⟨r, e1, e2⟩ := ih (fun i hi => h1 i (List.mem_cons_of_mem _ hi))
      refine ⟨r, ?_, ?_⟩
      · simp only [find_preimage, getAt_eq haA, Option.some_bind, hv, if_false]
        exact e1
      · rcases e2 with ⟨e, hno⟩ | ⟨i, hi, e, h⟩
        · left
          refine ⟨e, fun i hi => ?_⟩
          rcases List.mem_cons.mp hi with hi | hi
          · subst hi; exact hv
          · exact hno i hi
        · exact Or.inr ⟨i, List.mem_cons_of_mem _ hi, e, h⟩

/-- For the mapping of an SPR, `get_recoal_node` returns the single node
without preimage. -/
theorem get_recoal_node_unique (t : LocalTree) (s : Spr) (m : List Int) (b : Int)
    (hb : 0 ≤ b ∧ b < t.nnodes) (hm : IsRemovalMapping t.nnodes b m) :
    ∃ u, get_recoal_node t s m = some u ∧ IsUniqueUnmapped t.nnodes m u := by
  obtain ⟨hlen, hrange, hinj, hb1, hbu⟩ := hm
  obtain ⟨j, hj, h1, -⟩ := get_recoal_node_spec t s m hlen hrange
  obtain ⟨a, ha⟩ := unique_unmapped t.nnodes m hrange hinj b hb hb1 hbu
  obtain ⟨hj3, hj4⟩ := h1 ⟨a, ha.1.1, ha.1.2, ha.2.1⟩
  have hja : j = a := ha.2.2 j hj3.1 hj3.2 hj4
  rw [hja] at hj
  exact ⟨a, hj, ha⟩

set_option maxHeartbeats 1000000 in
/-- The function `get_next_removal_nodes` for a non-self SPR on a well-formed
tree with the mapping of the SPR: it returns two distinct entries, the first
a node, the second a node or -1, and the nodes among them are the successors
of `j` in the step relation. -/
theorem get_next_spec (t : LocalTree) (s : Spr) (m : List Int) (u j rcl : Int)
    (hwf : WellFormed t) (hr : t.isNode s.recomb_node) (hroot : s.recomb_node ≠ t.root)
    (hne : s.coal_node ≠ s.recomb_node)
    (hm : IsRemovalMapping t.nnodes (t.node s.recomb_node).parent m)
    (hu : get_recoal_node t s m = some u) (huu : IsUniqueUnmapped t.nnodes m u)
    (hj : 0 ≤ j ∧ j < t.nnodes) (hrcl : rcl = -1 ∨ rcl = u) :
    ∃ n0 n1, get_next_removal_nodes t s m j rcl = some (n0, n1) ∧ n0 ≠ n1 ∧
      (0 ≤ n0 ∧ n0 < t.nnodes) ∧ (n1 = -1 ∨ (0 ≤ n1 ∧ n1 < t.nnodes)) ∧
      ∀ k : Int, 0 ≤ k → ((k = n0 ∨ k = n1) ↔ RemovalStep t s m u j k) := by
  obtain ⟨hlen, hrange, hinj, hb1, hbu⟩ := hm
  obtain ⟨hb, hsb, hsv, hsbb, hsp, hbv⟩ := hwf.sibling_facts s.recomb_node hr hroot
  have hb' : 0 ≤ (t.node s.recomb_node).parent ∧ (t.node s.recomb_node).parent < t.nnodes := hb
  have hsb' : 0 ≤ t.sibling s.recomb_node ∧ t.sibling s.recomb_node < t.nnodes := hsb
  have hu0 : 0 ≤ u ∧ u < t.nnodes := huu.1
  have hrec : (if rcl = -1 then get_recoal_node t s m else some rcl) = some u := by
    rcases hrcl with h | h
    · rw [if_pos h]; exact hu
    · rw [if_neg (by omega), h]
  have hA : inArr m j := by unfold inArr; omega
  have hsA : inArr m (t.sibling s.recomb_node) := by unfold inArr; omega
  have hmapped : ∀ i : Int, 0 ≤ i → i < t.nnodes → i ≠ (t.node s.recomb_node).parent →
      (0 ≤ readAt m i ∧ readAt m i < t.nnodes) ∧ readAt m i ≠ u := by
    intro i i0 i1 hi
    have hne1 : readAt m i ≠ -1 := fun e => hi (hbu i i0 i1 e)
    rcases hrange i i0 i1 with h | h
    · exact absurd h hne1
    · exact ⟨h, fun e => huu.2.1 i i0 i1 e⟩
  have hrun : get_next_removal_nodes t s m j rcl =
      some (if readAt m j ≠ -1 then readAt m j
            else if s.coal_node = t.sibling s.recomb_node then u
            else readAt m (t.sibling s.recomb_node),
            if s.coal_node = j then u else -1) := by
    unfold get_next_removal_nodes
    rw [if_neg hne, hrec]
    simp only [Option.some_bind, getAt_eq hA, get_sibling_eq t hwf _ hr hroot]
    by_cases hmj : readAt m j = -1
    · rw [if_pos hmj, if_neg (not_not.mpr hmj)]
      by_cases hs : s.coal_node = t.sibling s.recomb_node
      · simp only [if_pos hs, Option.map_some']
      · simp only [if_neg hs, getAt_eq hsA, Option.map_some']
    · rw [if_neg hmj, if_pos hmj]
      simp only [Option.map_some']
  refine ⟨_, _, hrun, ?_, ?_, ?_, ?_⟩
  · -- the two entries differ
    by_cases hjb : j = (t.node s.recomb_node).parent
    · have hmj : readAt m j = -1 := by rw [hjb]; exact hb1
      rw [if_neg (not_not.mpr hmj)]
      by_cases hs : s.coal_node = t.sibling s.recomb_node
      · rw [if_pos hs, if_neg (by rw [hs, hjb]; exact hsbb)]
        omega
      · rw [if_neg hs]
        have := hmapped _ hsb'.1 hsb'.2 hsbb
        split <;> omega
    · have := hmapped j hj.1 hj.2 hjb
      rw [if_pos (by omega)]
      split <;> omega
  · by_cases hjb : j = (t.node s.recomb_node).parent
    · have hmj : readAt m j = -1 := by rw [hjb]; exact hb1
      rw [if_neg (not_not.mpr hmj)]
      split
      · exact hu0
      · exact (hmapped _ hsb'.1 hsb'.2 hsbb).1
    · have := hmapped j hj.1 hj.2 hjb
      rw [if_pos (by omega)]
      exact this.1
  · split
    · exact Or.inr hu0
    · exact Or.inl rfl
  · intro k hk
    unfold RemovalStep
    by_cases hjb : j = (t.node s.recomb_node).parent
    · have hmj : readAt m j = -1 := by rw [hjb]; exact hb1
      rw [if_neg (not_not.mpr hmj)]
      have hms := hmapped _ hsb'.1 hsb'.2 hsbb
      by_cases hs : s.coal_node = t.sibling s.recomb_node
      · have hcj : s.coal_node ≠ j := by rw [hs, hjb]; exact hsbb
        rw [if_pos hs, if_neg hcj]
        constructor
        · rintro (h | h)
          · exact Or.inr (Or.inr ⟨h, Or.inr ⟨hjb, hs.symm⟩⟩)
          · omega
        · rintro (h | ⟨-, h, -⟩ | ⟨h, -⟩)
          · omega
          · exact absurd hs.symm h
          · exact Or.inl h
      · rw [if_neg hs]
        constructor
        · rintro (h | h)
          · exact Or.inr (Or.inl ⟨hjb, Ne.symm hs, h.symm⟩)
          · split at h
            · rename_i hcj
              exact Or.inr (Or.inr ⟨h, Or.inl hcj.symm⟩)
            · omega
        · rintro (h | ⟨-, -, h⟩ | ⟨h, h2 | ⟨-, h2⟩⟩)
          · omega
          · exact Or.inl h.symm
          · right; rw [if_pos h2.symm]; exact h
          · exact absurd h2.symm hs
    · have hmj := hmapped j hj.1 hj.2 hjb
      rw [if_pos (by omega)]
      constructor
      · rintro (h | h)
        · exact Or.inl h.symm
        · split at h
          · rename_i hcj
            exact Or.inr (Or.inr ⟨h, Or.inl hcj.symm⟩)
          · omega
      · rintro (h | ⟨h, -⟩ | ⟨h, h2 | ⟨h2, -⟩⟩)
        · exact Or.inl h.symm
        · exact absurd h hjb
        · right; rw [if_pos h2.symm]; exact h
        · exact absurd h2 hjb

set_option maxHeartbeats 1000000 in
/-- The function `get_prev_removal_nodes` for a non-self SPR on a well-formed
tree with the mapping of the SPR, with the inverse mapping made by the
function or passed by `get_all_prev_removal_nodes`: it returns, and the nodes
among its two entries are the predecessors of `k` in the step relation. -/
theorem get_prev_spec (t : LocalTree) (s : Spr) (m : List Int) (u k : Int)
    (inv_arg : Option (List Int))
    (hwf : WellFormed t) (hr : t.isNode s.recomb_node) (hroot : s.recomb_node ≠ t.root)
    (hc : t.isNode s.coal_node) (hne : s.coal_node ≠ s.recomb_node)
    (hm : IsRemovalMapping t.nnodes (t.node s.recomb_node).parent m)
    (huu : IsUniqueUnmapped t.nnodes m u) (hk : 0 ≤ k ∧ k < t.nnodes)
    (hinv : inv_arg = none ∨ fill_inv_mapping t.nnodes m = inv_arg) :
    ∃ p0 p1, get_prev_removal_nodes t s m k inv_arg = some (p0, p1) ∧
      (0 ≤ p0 ∧ p0 < t.nnodes) ∧ (p1 = -1 ∨ (0 ≤ p1 ∧ p1 < t.nnodes ∧ p1 ≠ p0)) ∧
      ∀ j : Int, 0 ≤ j → j < t.nnodes → ((j = p0 ∨ j = p1) ↔ RemovalStep t s m u j k) := by
  obtain ⟨hlen, hrange, hinj, hb1, hbu⟩ := hm
  obtain ⟨hb, hsb, hsv, hsbb, hsp, hbv⟩ := hwf.sibling_facts s.recomb_node hr hroot
  have hb' : 0 ≤ (t.node s.recomb_node).parent ∧ (t.node s.recomb_node).parent < t.nnodes := hb
  have hsb' : 0 ≤ t.sibling s.recomb_node ∧ t.sibling s.recomb_node < t.nnodes := hsb
  have hc' : 0 ≤ s.coal_node ∧ s.coal_node < t.nnodes := hc
  have hu0 : 0 ≤ u ∧ u < t.nnodes := huu.1
  have hsA : inArr m (t.sibling s.recomb_node) := by unfold inArr; omega
  have hsN : inArr t.nodes (t.sibling s.recomb_node) := hwf.inArr hsb
  obtain ⟨inv, e1, e2, e3⟩ := fill_inv_mapping_spec t.nnodes m hlen hrange hinj
  have hia : inv_arg = none ∨ inv_arg = some inv := by
    rcases hinv with h | h
    · exact Or.inl h
    · right; rw [← h, e1]
  have hkA : inArr inv k := by unfold inArr; omega
  have hsp' : (nodeAt t.nodes (t.sibling s.recomb_node)).parent =
      (t.node s.recomb_node).parent := hsp
  have hasrt : ∀ p0 p1 : Int, 0 ≤ p0 →
      ((some (p0, p1) : Option (Int × Int)).bind fun pv =>
        (assertion (decide (pv.1 ≥ 0 ∨ pv.2 ≥ 0))).map fun _ => pv) = some (p0, p1) := by
    intro p0 p1 h
    have : assertion (decide ((p0, p1).1 ≥ 0 ∨ (p0, p1).2 ≥ 0)) = some () :=
      assertion_of (decide_eq_true (Or.inl h))
    simp only [Option.some_bind, this, Option.map_some']
  by_cases hpre : NoPreimage t.nnodes m k
  · -- `k` is the recoal node
    have hku : k = u := huu.2.2 k hk.1 hk.2 hpre
    have hp0 : readAt inv k = -1 := (e3 k hk.1 hk.2).2 hpre
    have hrun : get_prev_removal_nodes t s m k inv_arg =
        some (s.coal_node, if t.sibling s.recomb_node = s.coal_node
          then (t.node s.recomb_node).parent else -1) := by
      rcases hia with h | h <;> subst h <;> unfold get_prev_removal_nodes <;>
      rw [if_neg hne] <;>
      simp only [e1, Option.some_bind, getAt_eq hkA, hp0, if_true,
        get_sibling_eq t hwf _ hr hroot, getNode_eq hsN, Option.map_some', hsp']
        <;> by_cases hs : t.sibling s.recomb_node = s.coal_node
      · rw [if_pos hs, if_pos hs]
        exact hasrt _ _ hc'.1
      · rw [if_neg hs, if_neg hs]
        exact hasrt _ _ hc'.1
      · rw [if_pos hs, if_pos hs]
        exact hasrt _ _ hc'.1
      · rw [if_neg hs, if_neg hs]
        exact hasrt _ _ hc'.1
    refine ⟨_, _, hrun, hc', ?_, ?_⟩
    · by_cases hs : t.sibling s.recomb_node = s.coal_node
      · rw [if_pos hs]
        exact Or.inr ⟨hb'.1, hb'.2, fun e => hsbb (hs.trans e.symm)⟩
      · rw [if_neg hs]
        exact Or.inl rfl
    intro j hj hj1
    unfold RemovalStep
    constructor
    · rintro (h | h)
      · exact Or.inr (Or.inr ⟨hku, Or.inl h⟩)
      · split at h
        · rename_i hs
          exact Or.inr (Or.inr ⟨hku, Or.inr ⟨h, hs⟩⟩)
        · omega
    · rintro (h | ⟨-, -, h⟩ | ⟨-, h | ⟨h, hs⟩⟩)
      · exact absurd h (hpre j hj hj1)
      · exact absurd h (hpre _ hsb'.1 hsb'.2)
      · exact Or.inl h
      · right; rw [if_pos hs]; exact h
  · -- `k` is the image of a node `i`
    have hex : ∃ i : Int, (0 ≤ i ∧ i < t.nnodes) ∧ readAt m i = k := by
      unfold NoPreimage at hpre
      push_neg at hpre
      obtain ⟨i, i0, i1, e⟩ := hpre
      exact ⟨i, ⟨i0, i1⟩, e⟩
    obtain ⟨i, hi, hik⟩ := hex
    have hp0 : readAt inv k = i := (e3 k hk.1 hk.2).1 i hi.1 hi.2 hik
    have hku : k ≠ u := fun e => huu.2.1 i hi.1 hi.2 (hik.trans e)
    have hi1 : i ≠ -1 := by omega
    have huniq : ∀ j : Int, 0 ≤ j → j < t.nnodes → readAt m j = k → j = i := by
      intro j j0 j1 e
      exact hinj j j0 j1 i hi.1 hi.2 (by rw [e]; omega) (e.trans hik.symm)
    have hrun : get_prev_removal_nodes t s m k inv_arg =
        some (i, if readAt m (t.sibling s.recomb_node) = k ∧
            t.sibling s.recomb_node ≠ s.coal_node
          then (t.node s.recomb_node).parent else -1) := by
      rcases hia with h | h <;> subst h <;> unfold get_prev_removal_nodes <;>
      rw [if_neg hne] <;>
      simp only [e1, Option.some_bind, getAt_eq hkA, hp0, if_neg hi1,
        get_sibling_eq t hwf _ hr hroot, getNode_eq hsN, Option.map_some', hsp', getAt_eq hsA]
        <;> by_cases hs : readAt m (t.sibling s.recomb_node) = k ∧
          t.sibling s.recomb_node ≠ s.coal_node
      · rw [if_pos hs, if_pos hs]
        exact hasrt _ _ hi.1
      · rw [if_neg hs, if_neg hs]
        exact hasrt _ _ hi.1
      · rw [if_pos hs, if_pos hs]
        exact hasrt _ _ hi.1
      · rw [if_neg hs, if_neg hs]
        exact hasrt _ _ hi.1
    refine ⟨_, _, hrun, hi, ?_, ?_⟩
    · by_cases hs : readAt m (t.sibling s.recomb_node) = k ∧
          t.sibling s.recomb_node ≠ s.coal_node
      · rw [if_pos hs]
        have hsi : t.sibling s.recomb_node = i := huniq _ hsb'.1 hsb'.2 hs.1
        exact Or.inr ⟨hb'.1, hb'.2, fun e => hsbb (hsi.trans e.symm)⟩
      · rw [if_neg hs]
        exact Or.inl rfl
    intro j hj hj1
    unfold RemovalStep
    constructor
    · rintro (h | h)
      · left; rw [h]; exact hik
      · split at h
        · rename_i hs
          exact Or.inr (Or.inl ⟨h, hs.2, hs.1⟩)
        · omega
    · rintro (h | ⟨h1, h2, h3⟩ | ⟨h, -⟩)
      · exact Or.inl (huniq j hj hj1 h)
      · right; rw [if_pos ⟨h3, h2⟩]; exact h1
      · exact absurd h hku

/-- A loop that tabulates a function that returns on every index. -/
theorem tabulateOpt_eq {α : Type} (f : Int → Option α) (g : Int → α) (l : List Nat)
    (h : ∀ i ∈ l, f ((i : Nat) : Int) = some (g i)) :
    tabulateOpt f l = some (l.map fun i => g ((i : Nat) : Int)) := by
  induction l with
  | nil => rfl
  | cons a l ih =>
    simp only [tabulateOpt, h a (List.mem_cons_self _ _), Option.some_bind,
      ih (fun i hi => h i (List.mem_cons_of_mem _ hi)), Option.map_some', List.map_cons]

/-- Reading the table of `g` on `[0, n)`. -/
theorem readAt_map_range {α : Type} [Inhabited α] (g : Int → α) (n : Nat) (j : Int)
    (h0 : 0 ≤ j) (h1 : j < n) :
    readAt ((List.range n).map fun i => g ((i : Nat) : Int)) j = g j := by
  unfold readAt
  rw [if_pos h0]
  have h2 : j.toNat < n := by omega
  simp [List.getD_eq_getElem?_getD, h2, Int.toNat_of_nonneg h0]

/-- The function `get_next_removal_nodes` for a self SPR with a permutation
as mapping. -/
theorem get_next_self (t : LocalTree) (s : Spr) (m : List Int) (j rcl : Int)
    (hself : s.coal_node = s.recomb_node) (hm : IsPermMapping t.nnodes m)
    (hj : 0 ≤ j ∧ j < t.nnodes) :
    get_next_removal_nodes t s m j rcl = some (readAt m j, -1) ∧
      (0 ≤ readAt m j ∧ readAt m j < t.nnodes) := by
  obtain ⟨hlen, hrange, hinj, hno⟩ := hm
  have hA : inArr m j := by unfold inArr; omega
  have h1 := hno j hj.1 hj.2
  refine ⟨?_, ?_⟩
  · unfold get_next_removal_nodes
    rw [if_pos hself, getAt_eq hA]
    simp only [Option.some_bind, assertion, decide_eq_true h1, if_true, Option.map_some']
  · rcases hrange j hj.1 hj.2 with h | h
    · exact absurd h h1
    · exact h

/-- The function `get_prev_removal_nodes` for a self SPR with a permutation
as mapping: the node mapped to `k`. -/
theorem get_prev_self (t : LocalTree) (s : Spr) (m : List Int) (k : Int)
    (ia : Option (List Int))
    (hself : s.coal_node = s.recomb_node) (hm : IsPermMapping t.nnodes m)
    (hk : 0 ≤ k ∧ k < t.nnodes) :
    ∃ i : Int, get_prev_removal_nodes t s m k ia = some (i, -1) ∧
      (0 ≤ i ∧ i < t.nnodes) ∧ readAt m i = k := by
  obtain ⟨hlen, hrange, hinj, hno⟩ := hm
  obtain ⟨r, e1, e2⟩ := find_preimage_spec m k (List.range t.nnodes.toNat)
    (by intro i hi; rw [List.mem_range] at hi; omega)
  obtain ⟨i0, hi0, hi1, hi2⟩ := all_mapped t.nnodes m hrange hinj hno k hk.1 hk.2
  rcases e2 with ⟨-, hnone⟩ | ⟨i, hi, e, h⟩
  · exfalso
    refine hnone i0.toNat (by rw [List.mem_range]; omega) ?_
    rw [Int.toNat_of_nonneg hi0]; exact hi2
  · rw [List.mem_range] at hi
    refine ⟨i, ?_, ⟨Int.natCast_nonneg _, by omega⟩, h⟩
    unfold get_prev_removal_nodes
    rw [if_pos hself, e1, e]
    have hne : ((i : Nat) : Int) ≠ -1 := by omega
    simp only [Option.some_bind, assertion, decide_eq_true hne, if_true, Option.map_some']

set_option maxHeartbeats 1000000 in
/-- The successor and predecessor functions of removal paths across an SPR,
with its mapping: both return on every node, and `k` is a successor of `j`
exactly when `j` is a predecessor of `k`; the assertions of
`get_all_next_removal_nodes` and of `sample_arg_removal_path_recomb` hold. -/
theorem removal_nodes_reverse (t : LocalTree) (s : Spr) (m : List Int)
    (hwf : WellFormed t) (hr : t.isNode s.recomb_node) (hc : t.isNode s.coal_node)
    (hroot : s.recomb_node ≠ t.root)
    (hm : (s.coal_node ≠ s.recomb_node ∧
        IsRemovalMapping t.nnodes (t.node s.recomb_node).parent m) ∨
      (s.coal_node = s.recomb_node ∧ IsPermMapping t.nnodes m)) :
    ∃ (N P : Int → Int × Int),
      (∀ j : Int, 0 ≤ j → j < t.nnodes →
        get_next_removal_nodes t s m j (-1) = some (N j) ∧
        (∀ rc : Int, get_recoal_node t s m = some rc →
          get_next_removal_nodes t s m j rc = some (N j)) ∧
        (N j).1 ≠ (N j).2 ∧ (0 ≤ (N j).1 ∧ (N j).1 < t.nnodes) ∧
        ((N j).2 = -1 ∨ (0 ≤ (N j).2 ∧ (N j).2 < t.nnodes))) ∧
      (∀ k : Int, 0 ≤ k → k < t.nnodes →
        get_prev_removal_nodes t s m k none = some (P k) ∧
        (∀ inv : List Int, fill_inv_mapping t.nnodes m = some inv →
          get_prev_removal_nodes t s m k (some inv) = some (P k))) ∧
      (∃ inv rc, fill_inv_mapping t.nnodes m = some inv ∧ get_recoal_node t s m = some rc) ∧
      (∀ j k : Int, 0 ≤ j → j < t.nnodes → 0 ≤ k → k < t.nnodes →
        ((k = (N j).1 ∨ k = (N j).2) ↔ (j = (P k).1 ∨ j = (P k).2))) := by
  refine ⟨fun j => (get_next_removal_nodes t s m j (-1)).getD (0, 0),
    fun k => (get_prev_removal_nodes t s m k none).getD (0, 0), ?_⟩
  simp only []
  rcases hm with ⟨hne, hm⟩ | ⟨hself, hm⟩
  · obtain ⟨hb, -⟩ := hwf.sibling_facts s.recomb_node hr hroot
    obtain ⟨u, hu, huu⟩ := get_recoal_node_unique t s m _ hb hm
    obtain ⟨inv, hinv, -⟩ := fill_inv_mapping_spec t.nnodes m hm.1 hm.2.1 hm.2.2.1
    have hN := fun j (hj : 0 ≤ j ∧ j < t.nnodes) rcl hrcl =>
      get_next_spec t s m u j rcl hwf hr hroot hne hm hu huu hj hrcl
    have hP := fun k (hk : 0 ≤ k ∧ k < t.nnodes) ia hia =>
      get_prev_spec t s m u k ia hwf hr hroot hc hne hm huu hk hia
    refine ⟨?_, ?_, ⟨inv, u, hinv, hu⟩, ?_⟩
    · intro j j0 j1
      have h : 0 ≤ j ∧ j < t.nnodes := ⟨j0, j1⟩
      obtain ⟨n0, n1, a1, a2, a3, a4, a5⟩ := hN j h (-1) (Or.inl rfl)
      rw [a1]
      refine ⟨rfl, ?_, a2, a3, a4⟩
      intro rc hrc
      have hrcu : rc = u := by rw [hu] at hrc; exact (Option.some.inj hrc).symm
      -- the entries do not depend on the way the recoal node is given
      have key : get_next_removal_nodes t s m j rc = get_next_removal_nodes t s m j (-1) := by
        unfold get_next_removal_nodes
        rw [if_neg hne, if_neg hne]
        have r1 : (if rc = -1 then get_recoal_node t s m else some rc) = some u := by
          rw [hrcu, if_neg (by have := huu.1; omega)]
        have r2 : (if (-1 : Int) = -1 then get_recoal_node t s m else some (-1)) = some u := by
          rw [if_pos rfl]; exact hu
        rw [r1, r2]
      rw [key, a1]
      rfl
    · intro k k0 k1
      have h : 0 ≤ k ∧ k < t.nnodes := ⟨k0, k1⟩
      obtain ⟨p0, p1, a1, -, -, a2⟩ := hP k h none (Or.inl rfl)
      rw [a1]
      refine ⟨rfl, ?_⟩
      intro inv2 hinv2
      have key : get_prev_removal_nodes t s m k (some inv2) =
          get_prev_removal_nodes t s m k none := by
        unfold get_prev_removal_nodes
        rw [if_neg hne, if_neg hne]
        simp only [hinv2]
      rw [key, a1]
      rfl
    · intro j k j0 j1 k0 k1
      have hj : 0 ≤ j ∧ j < t.nnodes := ⟨j0, j1⟩
      have hk : 0 ≤ k ∧ k < t.nnodes := ⟨k0, k1⟩
      obtain ⟨n0, n1, a1, -, -, -, a5⟩ := hN j hj (-1) (Or.inl rfl)
      obtain ⟨p0, p1, b1, -, -, b2⟩ := hP k hk none (Or.inl rfl)
      rw [a1, b1]
      show (k = n0 ∨ k = n1) ↔ (j = p0 ∨ j = p1)
      rw [a5 k k0, b2 j j0 j1]
  · have hP := fun k (hk : 0 ≤ k ∧ k < t.nnodes) ia => get_prev_self t s m k ia hself hm hk
    have hN := fun j (hj : 0 ≤ j ∧ j < t.nnodes) rcl => get_next_self t s m j rcl hself hm hj
    obtain ⟨hlen, hrange, hinj, hno⟩ := hm
    obtain ⟨inv, hinv, -⟩ := fill_inv_mapping_spec t.nnodes m hlen hrange hinj
    obtain ⟨rc, hrc, -⟩ := get_recoal_node_spec t s m hlen hrange
    refine ⟨?_, ?_, ⟨inv, rc, hinv, hrc⟩, ?_⟩
    · intro j j0 j1
      have h1 := hN j ⟨j0, j1⟩ (-1)
      rw [h1.1]
      refine ⟨rfl, fun rc _ => by rw [(hN j ⟨j0, j1⟩ rc).1]; rfl, ?_, h1.2, Or.inl rfl⟩
      show readAt m j ≠ -1
      exact hno j j0 j1
    · intro k k0 k1
      have h : 0 ≤ k ∧ k < t.nnodes := ⟨k0, k1⟩
      obtain ⟨i, a1, a2, a3⟩ := hP k h none
      rw [a1]
      refine ⟨rfl, fun inv2 _ => ?_⟩
      obtain ⟨i2, b1, b2, b3⟩ := hP k h (some inv2)
      have : i2 = i :=
        hinj i2 b2.1 b2.2 _ a2.1 a2.2 (by rw [b3]; omega) (b3.trans a3.symm)
      rw [b1, this]
      rfl
    · intro j k j0 j1 k0 k1
      have hk : 0 ≤ k ∧ k < t.nnodes := ⟨k0, k1⟩
      obtain ⟨i, a1, a2, a3⟩ := hP k hk none
      rw [a1, (hN j ⟨j0, j1⟩ (-1)).1]
      show (k = readAt m j ∨ k = -1) ↔ (j = i ∨ j = -1)
      constructor
      · rintro (h | h)
        · left
          exact hinj j j0 j1 _ a2.1 a2.2 (hno j j0 j1) (h.symm.trans a3.symm)
        · omega
      · rintro (h | h)
        · left; rw [h]; exact a3.symm
        · omega

set_option maxHeartbeats 1000000 in
/-- The tables of `get_all_next_removal_nodes` and
`get_all_prev_removal_nodes` across an SPR with its mapping: both calls
return, entry `j` of each table is the result of the call for node `j`, and
the block "assert transitions" of `sample_arg_removal_path_recomb` passes. -/
theorem removal_tables (t : LocalTree) (s : Spr) (m : List Int)
    (hwf : WellFormed t) (hr : t.isNode s.recomb_node) (hc : t.isNode s.coal_node)
    (hroot : s.recomb_node ≠ t.root)
    (hm : (s.coal_node ≠ s.recomb_node ∧
        IsRemovalMapping t.nnodes (t.node s.recomb_node).parent m) ∨
      (s.coal_node = s.recomb_node ∧ IsPermMapping t.nnodes m)) :
    ∃ nx pv, get_all_next_removal_nodes t s m = some nx ∧
      get_all_prev_removal_nodes t s m = some pv ∧
      (nx.length : Int) = t.nnodes ∧ (pv.length : Int) = t.nnodes ∧
      (∀ j : Int, 0 ≤ j → j < t.nnodes →
        get_next_removal_nodes t s m j (-1) = some (readAt nx j)) ∧
      (∀ k : Int, 0 ≤ k → k < t.nnodes →
        get_prev_removal_nodes t s m k none = some (readAt pv k)) ∧
      assert_transitions t.nnodes nx pv = some () := by
  obtain ⟨N, P, hN, hP, ⟨inv, rc, hinv, hrc⟩, hrev⟩ :=
    removal_nodes_reverse t s m hwf hr hc hroot hm
  have hn : 0 ≤ t.nnodes := by
    have : 0 ≤ t.root ∧ t.root < t.nnodes := hwf.2.1
    omega
  have e1 : get_all_next_removal_nodes t s m =
      some ((List.range t.nnodes.toNat).map fun i => N ((i : Nat) : Int)) := by
    unfold get_all_next_removal_nodes
    rw [hrc]
    simp only [Option.some_bind]
    apply tabulateOpt_eq
    intro i hi
    rw [List.mem_range] at hi
    obtain ⟨-, a2, a3, -⟩ := hN i (Int.natCast_nonneg _) (by omega)
    rw [a2 rc hrc]
    simp only [Option.some_bind, assertion, decide_eq_true a3, if_true, Option.map_some']
  have e2 : get_all_prev_removal_nodes t s m =
      some ((List.range t.nnodes.toNat).map fun i => P ((i : Nat) : Int)) := by
    unfold get_all_prev_removal_nodes
    rw [hinv]
    simp only [Option.some_bind]
    apply tabulateOpt_eq
    intro i hi
    rw [List.mem_range] at hi
    exact (hP i (Int.natCast_nonneg _) (by omega)).2 inv hinv
  have rN : ∀ j : Int, 0 ≤ j → j < t.nnodes →
      readAt ((List.range t.nnodes.toNat).map fun i => N ((i : Nat) : Int)) j = N j :=
    fun j j0 j1 => readAt_map_range N _ j j0 (by omega)
  have rP : ∀ j : Int, 0 ≤ j → j < t.nnodes →
      readAt ((List.range t.nnodes.toNat).map fun i => P ((i : Nat) : Int)) j = P j :=
    fun j j0 j1 => readAt_map_range P _ j j0 (by omega)
  refine ⟨_, _, e1, e2, ?_, ?_, ?_, ?_, ?_⟩
  · simp only [List.length_map, List.length_range]; omega
  · simp only [List.length_map, List.length_range]; omega
  · intro j j0 j1
    rw [rN j j0 j1]; exact (hN j j0 j1).1
  · intro k k0 k1
    rw [rP k k0 k1]; exact (hP k k0 k1).1
  · unfold assert_transitions
    apply forLoop_unit
    intro i hi
    rw [List.mem_range] at hi
    have i0 : (0 : Int) ≤ (i : Nat) := Int.natCast_nonneg _
    have i1 : ((i : Nat) : Int) < t.nnodes := by omega
    obtain ⟨-, -, a3, a4, a5⟩ := hN i i0 i1
    have hA : ∀ x : Int, 0 ≤ x → x < t.nnodes →
        inArr ((List.range t.nnodes.toNat).map fun i => P ((i : Nat) : Int)) x := by
      intro x x0 x1
      unfold inArr
      simp only [List.length_map, List.length_range]; omega
    have hAn : inArr ((List.range t.nnodes.toNat).map fun i => N ((i : Nat) : Int))
        ((i : Nat) : Int) := by
      unfold inArr
      simp only [List.length_map, List.length_range]; omega
    have c1 := (hrev i (N i).1 i0 i1 a4.1 a4.2).mp (Or.inl rfl)
    have c1' : (P (N ((i : Nat) : Int)).1).1 = (i : Int) ∨ (P (N ((i : Nat) : Int)).1).2 = (i : Int) := by
      rcases c1 with h | h
      · exact Or.inl h.symm
      · exact Or.inr h.symm
    simp only [getAt_eq hAn, rN _ i0 i1, Option.some_bind, getAt_eq (hA _ a4.1 a4.2),
      rP _ a4.1 a4.2, assertion, decide_eq_true c1', if_true]
    by_cases h2 : (N ((i : Nat) : Int)).2 = -1
    · rw [if_neg (not_not.mpr h2)]
    · rw [if_pos h2]
      have a5' : 0 ≤ (N ((i : Nat) : Int)).2 ∧ (N ((i : Nat) : Int)).2 < t.nnodes := by
        rcases a5 with h | h
        · exact absurd h h2
        · exact h
      have c2 := (hrev i (N i).2 i0 i1 a5'.1 a5'.2).mp (Or.inr rfl)
      have c2' : (P (N ((i : Nat) : Int)).2).1 = (i : Int) ∨
          (P (N ((i : Nat) : Int)).2).2 = (i : Int) := by
        rcases c2 with h | h
        · exact Or.inl h.symm
        · exact Or.inr h.symm
      simp only [getAt_eq (hA _ a5'.1 a5'.2), rP _ a5'.1 a5'.2, Option.some_bind,
        decide_eq_true c2', if_true]

/-- Two loop bodies that agree on the indices of the list run alike. -/
theorem forLoop_congr {σ : Type} (f g : Int → σ → Option σ) (l : List Nat)
    (h : ∀ i ∈ l, ∀ s, f ((i : Nat) : Int) s = g ((i : Nat) : Int) s) :
    ∀ s, forLoop f l s = forLoop g l s := by
  induction l with
  | nil => intro s; rfl
  | cons a l ih =>
    intro s
    simp only [forLoop, h a (List.mem_cons_self _ _)]
    cases g (a : Int) s with
    | none => rfl
    | some s2 => exact ih (fun i hi => h i (List.mem_cons_of_mem _ hi)) s2

/-- The checks of `remove_null_spr` pass on a node of a congruent tree. -/
theorem null_spr_check_ok (pop_tree : Option PopulationTree) (t1 t2 : LocalTree)
    (m : List Int) (hc : Congruent pop_tree t1 t2 m) (i : Int) (h0 : 0 ≤ i)
    (h1 : i < t2.nnodes) :
    null_spr_asserts t1 t2 m pop_tree (nodeAt t1.nodes t1.root).child0 i = some () := by
  obtain ⟨a1, a2, a3, a4, a5, a6⟩ := hc.2 i h0 h1
  unfold null_spr_asserts
  rw [getNode_eq a1, getAt_eq a2]
  simp only [Option.some_bind]
  rw [getNode_eq a3]
  simp only [Option.some_bind, assertion, decide_eq_true a4, if_true]
  by_cases hr : i = t1.root
  · simp only [hr, ne_eq, not_true_eq_false, if_false, Option.some_bind, if_true]
    by_cases hs : t1.root = (nodeAt t1.nodes t1.root).child0
    · rw [if_pos hs]
    · rw [if_neg hs]
      cases pop_tree with
      | none => rfl
      | some pt =>
        have := a6 (by rw [hr]; exact hs)
        rw [hr] at this
        simp only [if_true, PathsAgree] at this
        simp only [Option.some_bind, this, if_true]
  · obtain ⟨b1, b2, b3⟩ := a5 hr
    simp only [ne_eq, hr, not_false_eq_true, if_true, if_false]
    rw [getNode_eq b1, getNode_eq b2]
    simp only [Option.some_bind, decide_eq_true b3, if_true, Option.map_some']
    by_cases hs : i = (nodeAt t1.nodes t1.root).child0
    · rw [if_pos hs]
    · rw [if_neg hs]
      cases pop_tree with
      | none => rfl
      | some pt =>
        have := a6 hs
        rw [if_neg hr] at this
        simp only [PathsAgree] at this
        simp only [this, if_true]

/-- The transitive mapping of two mapping arrays is a mapping array. -/
theorem transitive_mapping_spec (n : Int) (M1 M2 : List Int) (h1 : MappingOk n M1)
    (h2 : MappingOk n M2) :
    ∃ m, transitive_mapping n M1 M2 = some m ∧ MappingOk n m := by
  let g : Int → Int := fun i => if readAt M1 i ≠ -1 then readAt M2 (readAt M1 i) else -1
  have ht : tabulateOpt (fun i => (getAt M1 i).bind fun a =>
      if a ≠ -1 then getAt M2 a else some (-1)) (List.range n.toNat) =
      some ((List.range n.toNat).map fun i => g ((i : Nat) : Int)) := by
    apply tabulateOpt_eq
    intro i hi
    rw [List.mem_range] at hi
    have hiA : inArr M1 (i : Int) := by
      have := h1.1
      unfold inArr; omega
    rw [getAt_eq hiA]
    simp only [Option.some_bind, g]
    by_cases hm : readAt M1 (i : Int) = -1
    · simp [hm]
    · simp only [ne_eq, hm, not_false_eq_true, if_true]
      rcases h1.2 i (by omega) (by omega) with h | h
      · exact absurd h hm
      · have : inArr M2 (readAt M1 (i : Int)) := by
          have := h2.1
          unfold inArr; omega
        rw [getAt_eq this]
  obtain ⟨m, e1, e2, e3⟩ := forLoop_setAt_range g n M2 h2.1
  refine ⟨m, ?_, ?_, ?_⟩
  · unfold transitive_mapping
    rw [ht]
    simp only [Option.some_bind]
    rw [← e1]
    apply forLoop_congr
    intro i hi s
    rw [List.mem_range] at hi
    have hiA : inArr ((List.range n.toNat).map fun i => g ((i : Nat) : Int)) (i : Int) := by
      unfold inArr
      simp only [List.length_map, List.length_range]
      omega
    rw [getAt_eq hiA, readAt_map_range g n.toNat i (by omega) (by omega)]
    rfl
  · rw [e2]; exact h2.1
  · intro i hi0 hi1
    rw [e3 i, if_pos ⟨hi0, hi1⟩]
    simp only [g]
    by_cases hm : readAt M1 i = -1
    · simp [hm]
    · simp only [ne_eq, hm, not_false_eq_true, if_true]
      rcases h1.2 i hi0 hi1 with h | h
      · exact absurd h hm
      · exact h2.2 _ h.1 h.2

/-- On a next tuple with a null SPR that is congruent to `it`, the function
`remove_null_spr` merges the two tuples. -/
theorem remove_null_spr_merge (pop_tree : Option PopulationTree) (n : Int) (first : Bool)
    (it it2 : LocalTreeSpr) (hk : IterKind n first it) (h2n : it2.tree.nnodes = n)
    (m2 : List Int) (hm2 : it2.mapping = some m2) (hok : MappingOk n m2)
    (hnull : it2.spr.is_null = true) (hc : Congruent pop_tree it.tree it2.tree m2) :
    ∃ merged, remove_null_spr it (some it2) pop_tree = some (some merged) ∧
      merged.tree = it2.tree ∧ merged.blocklen = it2.blocklen + it.blocklen ∧
      IterKind n first merged := by
  have hloop : forLoop (fun i _ => null_spr_check it it2 pop_tree
          (nodeAt it.tree.nodes it.tree.root).child0 i)
      (List.range it2.tree.nnodes.toNat) () = some () := by
    apply forLoop_unit
    intro i hi
    rw [List.mem_range] at hi
    unfold null_spr_check
    rw [hm2]
    exact null_spr_check_ok pop_tree it.tree it2.tree m2 hc i (by omega) (by omega)
  unfold remove_null_spr
  simp only [hnull, Bool.true_eq_false, if_false]
  rw [getNode_eq hc.1]
  simp only [Option.some_bind, hloop]
  cases first with
  | true =>
    obtain ⟨k1, k2⟩ : it.spr.is_null = true ∧ it.mapping = none := hk
    rw [k2]
    simp only [Option.map_some']
    refine ⟨_, rfl, rfl, rfl, ?_⟩
    exact ⟨hnull, rfl⟩
  | false =>
    obtain ⟨k1, M1, k2, k3⟩ :
      it.spr.is_null = false ∧ ∃ m, it.mapping = some m ∧ MappingOk n m := hk
    obtain ⟨m, e1, e2⟩ := transitive_mapping_spec n M1 m2 k3 hok
    rw [k2, hm2]
    simp only [h2n, e1, Option.some_bind, k1, Bool.not_false, assertion, if_true,
      Option.map_some']
    refine ⟨_, rfl, rfl, rfl, ?_⟩
    exact ⟨k1, m, rfl, e2⟩

/-- The loop of `remove_null_sprs` from a tuple `it` on: it runs through, keeps
the kind of `it` at the head, leaves no null SPR behind the head and keeps the
sum of the block lengths. -/
theorem remove_null_sprs_from_spec (pop_tree : Option PopulationTree) (n : Int)
    (rest : List LocalTreeSpr) :
    ∀ (first : Bool) (it : LocalTreeSpr), IterKind n first it →
      (∀ x ∈ rest, x.tree.nnodes = n ∧ ∃ m, x.mapping = some m ∧ MappingOk n m) →
      NullCongruent pop_tree it.tree rest →
      ∃ h t, remove_null_sprs_from pop_tree it rest = some (h :: t) ∧
        IterKind n first h ∧ (∀ x ∈ t, x.spr.is_null = false) ∧
        sumBlocklen (h :: t) = sumBlocklen (it :: rest) := by
  induction rest with
  | nil =>
    intro first it hk _ _
    exact ⟨it, [], rfl, hk, (fun x hx => by cases hx), rfl⟩
  | cons it2 rest ih =>
    intro first it hk hall hcong
    obtain ⟨h2n, m2, hm2, hok⟩ := hall it2 (List.mem_cons_self _ _)
    have hall2 : ∀ x ∈ rest, x.tree.nnodes = n ∧ ∃ m, x.mapping = some m ∧ MappingOk n m :=
      fun x hx => hall x (List.mem_cons_of_mem _ hx)
    obtain ⟨hc1, hc2⟩ : (it2.spr.is_null = true →
        ∃ m, it2.mapping = some m ∧ Congruent pop_tree it.tree it2.tree m) ∧
        NullCongruent pop_tree it2.tree rest := hcong
    cases hnull : it2.spr.is_null with
    | false =>
      have hk2 : IterKind n false it2 := ⟨hnull, m2, hm2, hok⟩
      obtain ⟨h, t, e1, e2, e3, e4⟩ := ih false it2 hk2 hall2 hc2
      refine ⟨it, h :: t, ?_, hk, ?_, ?_⟩
      · simp only [remove_null_sprs_from, remove_null_spr, hnull, if_true, Option.some_bind, e1,
          Option.map_some']
      · intro x hx
        rcases List.mem_cons.mp hx with hx | hx
        · rw [hx]; exact e2.1
        · exact e3 x hx
      · rw [sumBlocklen_cons, e4, sumBlocklen_cons it]
    | true =>
      obtain ⟨m, hm, hcg⟩ := hc1 hnull
      have hmm : m = m2 := by rw [hm2] at hm; exact (Option.some.inj hm).symm
      subst hmm
      obtain ⟨merged, e1, e2, e3, e4⟩ :=
        remove_null_spr_merge pop_tree n first it it2 hk h2n m hm2 hok hnull hcg
      obtain ⟨h, t, f1, f2, f3, f4⟩ := ih first merged e4 hall2 (by rw [e2]; exact hc2)
      refine ⟨h, t, ?_, f2, f3, ?_⟩
      · simp only [remove_null_sprs_from, e1, Option.some_bind]
        exact f1
      · rw [f4, sumBlocklen_cons, e3, sumBlocklen_cons, sumBlocklen_cons]
        ring

/-- A tree that `LocalTree::copy` copies has its nodes inside its array. -/
theorem copy_some_cap (t tc : LocalTree) (h : t.copy = some tc) : t.nnodes ≤ t.nodes.length := by
  by_contra hc
  unfold LocalTree.copy LocalTree.capacity at h
  rw [if_neg hc] at h
  cases h

/-- The copy of a mapping array: it has the same first `n` entries, and `n`
entries of storage. -/
theorem copy_mapping_spec (mapping mc : Option (List Int)) (n : Int)
    (h : copy_mapping mapping n = some mc) :
    SameMapping n mc mapping ∧ (∀ m, mapping = some m → n ≤ m.length) ∧
      (∀ m, mc = some m → n ≤ m.length) := by
  cases mapping with
  | none =>
    have : mc = none := by
      simp only [copy_mapping, Option.some.injEq] at h
      exact h.symm
    subst this
    exact ⟨trivial, (fun m hm => by cases hm), fun m hm => by cases hm⟩
  | some m =>
    by_cases hlen : n ≤ m.length
    · simp only [copy_mapping, hlen, if_true, Option.some.injEq] at h
      subst h
      refine ⟨?_, ?_, ?_⟩
      · intro i h0 h1
        simp only [readAt, if_pos h0]
        rw [List.getD_eq_getElem?_getD, List.getD_eq_getElem?_getD,
          List.getElem?_take_of_lt (by omega)]
      · intro m2 hm2
        cases hm2; exact hlen
      · intro m2 hm2
        cases hm2
        simp only [List.length_take]
        omega
    · simp only [copy_mapping, hlen, if_false] at h
      cases h

theorem copy_mapping_some (mapping : Option (List Int)) (n : Int)
    (h : ∀ m, mapping = some m → n ≤ m.length) : ∃ mc, copy_mapping mapping n = some mc := by
  cases mapping with
  | none => exact ⟨none, rfl⟩
  | some m => exact ⟨some (m.take n.toNat), by simp [copy_mapping, h m rfl]⟩

/-- The copy of a tuple agrees with the tuple, which has its nodes and its
mapping inside their arrays. -/
theorem copy_tuple_spec (x y : LocalTreeSpr) (h : copy_tuple x = some y) :
    SameTuple y x ∧ x.tree.nnodes ≤ x.tree.nodes.length ∧
      (∀ m, x.mapping = some m → x.tree.nnodes ≤ m.length) ∧
      y.tree.nnodes ≤ y.tree.nodes.length ∧
      (∀ m, y.mapping = some m → y.tree.nnodes ≤ m.length) := by
  unfold copy_tuple at h
  obtain ⟨tc, h1, h⟩ := Option.bind_eq_some.mp h
  obtain ⟨mc, h2, h⟩ := Option.map_eq_some'.mp h
  subst h
  have hcap := copy_some_cap _ _ h1
  obtain ⟨tc2, e1, e2, e3, e4, e5⟩ := copy_spec x.tree hcap
  rw [h1] at e1
  cases e1
  obtain ⟨m1, m2, m3⟩ := copy_mapping_spec _ _ _ h2
  refine ⟨⟨e2, e3, e5, rfl, rfl, m1⟩, hcap, m2, ?_, ?_⟩
  · show tc.nnodes ≤ tc.nodes.length
    rw [e2, e4]; exact hcap
  · intro m hm
    show tc.nnodes ≤ _
    rw [e2]; exact m3 m hm

theorem copy_tuple_some (x : LocalTreeSpr) (h1 : x.tree.nnodes ≤ x.tree.nodes.length)
    (h2 : ∀ m, x.mapping = some m → x.tree.nnodes ≤ m.length) :
    ∃ y, copy_tuple x = some y := by
  obtain ⟨tc, e1, _⟩ := copy_spec x.tree h1
  obtain ⟨mc, e2⟩ := copy_mapping_some x.mapping x.tree.nnodes h2
  exact ⟨⟨tc, x.spr, mc, x.blocklen⟩,
    by simp only [copy_tuple, e1, e2, Option.some_bind, Option.map_some']⟩

theorem sameMapping_trans {n : Int} {a b c : Option (List Int)} (h1 : SameMapping n a b)
    (h2 : SameMapping n b c) : SameMapping n a c := by
  cases a <;> cases b <;> cases c <;> simp only [SameMapping] at h1 h2 ⊢
  exact fun i h0 h1i => (h1 i h0 h1i).trans (h2 i h0 h1i)

theorem sameTuple_trans {a b c : LocalTreeSpr} (h1 : SameTuple a b) (h2 : SameTuple b c) :
    SameTuple a c := by
  obtain ⟨a1, a2, a3, a4, a5, a6⟩ := h1
  obtain ⟨b1, b2, b3, b4, b5, b6⟩ := h2
  refine ⟨a1.trans b1, a2.trans b2, ?_, a4.trans b4, a5.trans b5, ?_⟩
  · intro i h0 hi
    rw [a3 i h0 (by rw [b1]; exact hi), b3 i h0 hi]
  · rw [b1] at a6
    exact sameMapping_trans a6 b6

/-- The loop of `LocalTrees::copy`: the copies agree with the tuples, tuple by
tuple, and the copies can be copied again. -/
theorem copy_tuples_spec (l : List LocalTreeSpr) :
    ∀ l2, copy_tuples l = some l2 → List.Forall₂ SameTuple l2 l ∧
      (∀ y ∈ l2, y.tree.nnodes ≤ y.tree.nodes.length ∧
        ∀ m, y.mapping = some m → y.tree.nnodes ≤ m.length) := by
  induction l with
  | nil =>
    intro l2 h
    simp only [copy_tuples, Option.some.injEq] at h
    subst h
    exact ⟨List.Forall₂.nil, fun y hy => by cases hy⟩
  | cons x l ih =>
    intro l2 h
    unfold copy_tuples at h
    obtain ⟨y, h1, h⟩ := Option.bind_eq_some.mp h
    obtain ⟨l3, h2, h⟩ := Option.map_eq_some'.mp h
    subst h
    obtain ⟨s1, s2, s3, s4, s5⟩ := copy_tuple_spec x y h1
    obtain ⟨i1, i2⟩ := ih l3 h2
    refine ⟨List.Forall₂.cons s1 i1, ?_⟩
    intro z hz
    rcases List.mem_cons.mp hz with hz | hz
    · subst hz
      exact ⟨s4, s5⟩
    · exact i2 z hz

theorem copy_tuples_some (l : List LocalTreeSpr)
    (h : ∀ x ∈ l, x.tree.nnodes ≤ x.tree.nodes.length ∧
      ∀ m, x.mapping = some m → x.tree.nnodes ≤ m.length) :
    ∃ l2, copy_tuples l = some l2 := by
  induction l with
  | nil => exact ⟨[], rfl⟩
  | cons x l ih =>
    obtain ⟨y, e1⟩ := copy_tuple_some x (h x (List.mem_cons_self _ _)).1
      (h x (List.mem_cons_self _ _)).2
    obtain ⟨l2, e2⟩ := ih (fun w hw => h w (List.mem_cons_of_mem _ hw))
    exact ⟨y :: l2, by simp only [copy_tuples, e1, e2, Option.some_bind, Option.map_some']⟩

theorem forall₂_sameTuple_trans {l1 l2 l3 : List LocalTreeSpr}
    (h1 : List.Forall₂ SameTuple l1 l2) (h2 : List.Forall₂ SameTuple l2 l3) :
    List.Forall₂ SameTuple l1 l3 := by
  induction h1 generalizing l3 with
  | nil => cases h2; exact List.Forall₂.nil
  | cons hab _ ih =>
    cases h2 with
    | cons hbc hrest => exact List.Forall₂.cons (sameTuple_trans hab hbc) (ih hrest)

/-- The method `LocalTrees::copy` gives an ARG that agrees with its argument. -/
theorem localTrees_copy_spec (trees c : LocalTrees) (h : LocalTrees.copy trees = some c) :
    SameArg c trees := by
  unfold LocalTrees.copy at h
  obtain ⟨l, h1, h⟩ := Option.map_eq_some'.mp h
  subst h
  exact ⟨rfl, rfl, rfl, rfl, rfl, (copy_tuples_spec _ l h1).1⟩

theorem sameArg_trans {a b c : LocalTrees} (h1 : SameArg a b) (h2 : SameArg b c) :
    SameArg a c := by
  obtain ⟨a1, a2, a3, a4, a5, a6⟩ := h1
  obtain ⟨b1, b2, b3, b4, b5, b6⟩ := h2
  exact ⟨a1.trans b1, a2.trans b2, a3.trans b3, a4.trans b4, a5.trans b5,
    forall₂_sameTuple_trans a6 b6⟩

/-- The copy of a copy: `LocalTrees::copy` succeeds on the ARG it returned. -/
theorem localTrees_copy_twice (trees c : LocalTrees) (h : LocalTrees.copy trees = some c) :
    ∃ c2, LocalTrees.copy c = some c2 := by
  unfold LocalTrees.copy at h
  obtain ⟨l, h1, h⟩ := Option.map_eq_some'.mp h
  subst h
  obtain ⟨l2, e⟩ := copy_tuples_some l (copy_tuples_spec _ l h1).2
  exact ⟨⟨trees.chrom, trees.start_coord, trees.end_coord, trees.nnodes, l2, trees.seqids⟩,
    by simp only [LocalTrees.copy, e, Option.map_some']⟩

/-- The method `LocalTrees::copy` succeeds on an ARG whose arrays hold the
nodes of its trees. -/
theorem localTrees_copy_some (trees : LocalTrees) (h : TupleStorage trees) :
    ∃ c, LocalTrees.copy trees = some c := by
  obtain ⟨l2, e⟩ := copy_tuples_some trees.trees h
  exact ⟨⟨trees.chrom, trees.start_coord, trees.end_coord, trees.nnodes, l2, trees.seqids⟩,
    by simp only [LocalTrees.copy, e, Option.map_some']⟩

/-- Two arrays of the same size with the same entries are equal. -/
theorem list_eq_of_readAt {α : Type} [Inhabited α] (a b : List α) (hl : a.length = b.length)
    (h : ∀ j : Int, 0 ≤ j → j < a.length → readAt a j = readAt b j) : a = b := by
  apply List.ext_getElem hl
  intro n h1 h2
  have := h n (by omega) (by omega)
  simp only [readAt, Int.toNat_ofNat, List.getD_eq_getElem?_getD] at this
  rw [if_pos (by omega), if_pos (by omega)] at this
  simpa [List.getElem?_eq_getElem h1, List.getElem?_eq_getElem h2] using this

/-- The loop that writes one value into the entries of a set of indices. -/
theorem set_popsizes_spec (value : ℚ) (pops : List Int) :
    ∀ popsizes : List ℚ, (∀ p ∈ pops, inArr popsizes p) →
      ∃ r, set_popsizes popsizes value pops = some r ∧ r.length = popsizes.length ∧
        ∀ j : Int, readAt r j = if j ∈ pops then value else readAt popsizes j := by
  induction pops with
  | nil =>
    intro popsizes _
    exact ⟨popsizes, rfl, rfl, fun j => by simp⟩
  | cons p rest ih =>
    intro popsizes h
    have hp := h p (List.mem_cons_self _ _)
    obtain ⟨r, e1, e2, e3⟩ := ih (updAt popsizes p value) (by
      intro q hq
      have := h q (List.mem_cons_of_mem _ hq)
      unfold inArr at this ⊢
      rw [length_updAt]; exact this)
    refine ⟨r, ?_, ?_, ?_⟩
    · simp only [set_popsizes, setAt_eq _ hp, Option.some_bind, e1]
    · rw [e2, length_updAt]
    · intro j
      rw [e3 j, readAt_updAt_of_inArr _ _ _ _ hp]
      by_cases hj : j ∈ rest
      · simp [hj]
      · by_cases hjp : j = p
        · simp [hjp]
        · simp [hj, hjp]

theorem max_pop_foldl (pops : List Int) :
    ∀ m : Int, (pops.foldl (fun maxpop p => if p > maxpop then p else maxpop) m = m ∨
        pops.foldl (fun maxpop p => if p > maxpop then p else maxpop) m ∈ pops) ∧
      m ≤ pops.foldl (fun maxpop p => if p > maxpop then p else maxpop) m ∧
      ∀ p ∈ pops, p ≤ pops.foldl (fun maxpop p => if p > maxpop then p else maxpop) m := by
  induction pops with
  | nil => intro m; simp
  | cons a rest ih =>
    intro m
    simp only [List.foldl_cons]
    obtain ⟨h1, h2, h3⟩ := ih (if a > m then a else m)
    refine ⟨?_, ?_, ?_⟩
    · rcases h1 with h1 | h1
      · rw [h1]
        by_cases ha : a > m
        · rw [if_pos ha]; right; exact List.mem_cons_self _ _
        · rw [if_neg ha]; left; rfl
      · right; exact List.mem_cons_of_mem _ h1
    · have : m ≤ (if a > m then a else m) := by split_ifs <;> omega
      omega
    · intro p hp
      rcases List.mem_cons.mp hp with hp | hp
      · subst hp
        have : p ≤ (if p > m then p else m) := by split_ifs <;> omega
        omega
      · exact h3 p hp

/-- The largest interval of a non-empty set of intervals is one of them. -/
theorem max_pop_mem (pops : List Int) (hne : pops ≠ []) (h0 : ∀ p ∈ pops, 0 ≤ p) :
    max_pop pops ∈ pops ∧ ∀ p ∈ pops, p ≤ max_pop pops := by
  obtain ⟨h1, h2, h3⟩ := max_pop_foldl pops (-1)
  refine ⟨?_, h3⟩
  rcases h1 with h1 | h1
  · exfalso
    cases pops with
    | nil => exact hne rfl
    | cons a rest =>
      have := h3 a (List.mem_cons_self _ _)
      have := h0 a (List.mem_cons_self _ _)
      omega
  · exact h1

/-- The draw that ends the loop of `resample_migrates` is at most 1/2. -/
theorem draw_new_migrate_le (draws : List ℚ) :
    ∀ d rest, draw_new_migrate draws = some (d, rest) → d ≤ 1 / 2 := by
  induction draws with
  | nil => intro d rest h; cases h
  | cons a l ih =>
    intro d rest h
    unfold draw_new_migrate at h
    by_cases ha : a > 1 / 2
    · rw [if_pos ha] at h
      exact ih d rest h
    · rw [if_neg ha] at h
      simp only [Option.some.injEq, Prod.mk.injEq] at h
      rw [← h.1]
      exact not_lt.mp ha

/-- The sum of an array after the write of one entry. -/
theorem sum_updAt (row : List ℚ) (i : Int) (v : ℚ) (h : inArr row i) :
    (updAt row i v).sum = row.sum - readAt row i + v := by
  obtain ⟨h0, h1⟩ := h
  unfold updAt readAt
  rw [if_pos h0, if_pos h0, List.sum_set', dif_pos (by omega),
    List.getD_eq_getElem?_getD, List.getElem?_eq_getElem (by omega)]
  simp only [Option.getD_some]
  ring

theorem mem_updAt {α : Type} (xs : List α) (i : Int) (v x : α) (h : x ∈ updAt xs i v) :
    x ∈ xs ∨ x = v := by
  unfold updAt at h
  by_cases h0 : 0 ≤ i
  · rw [if_pos h0] at h
    exact List.mem_or_eq_of_mem_set h
  · rw [if_neg h0] at h
    exact Or.inl h

/-- The body of the loop of `resample_migrates`: it writes the draw into
entry `to_pop` of row `from_pop` of the matrix `mig_matrix[time_idx]`, and the
old self rate minus the change into entry `from_pop`. -/
theorem resample_migrate_spec (mig_matrix : List MigMatrix) (mp : MigParam) (draws : List ℚ)
    (d : ℚ) (rest : List ℚ) (hd : draw_new_migrate draws = some (d, rest))
    (ht : inArr mig_matrix mp.time_idx)
    (hf : inArr (readAt mig_matrix mp.time_idx).rows mp.from_pop)
    (hto : inArr (migRow mig_matrix mp.time_idx mp.from_pop) mp.to_pop)
    (hff : inArr (migRow mig_matrix mp.time_idx mp.from_pop) mp.from_pop) :
    ∃ mm, resample_migrate mig_matrix mp draws = some (mm, rest) ∧
      migRow mm mp.time_idx mp.from_pop =
        updAt (updAt (migRow mig_matrix mp.time_idx mp.from_pop) mp.to_pop d) mp.from_pop
          (readAt (migRow mig_matrix mp.time_idx mp.from_pop) mp.from_pop -
            (d - readAt (migRow mig_matrix mp.time_idx mp.from_pop) mp.to_pop)) := by
  unfold migRow at hto hff ⊢
  generalize hM : readAt mig_matrix mp.time_idx = M at hf hto hff ⊢
  generalize hrow : readAt M.rows mp.from_pop = row at hto hff ⊢
  have hget1 : M.get mp.from_pop mp.to_pop = some (readAt row mp.to_pop) := by
    simp only [MigMatrix.get, getAt_eq hf, Option.some_bind, hrow, getAt_eq hto]
  have hget2 : M.get mp.from_pop mp.from_pop = some (readAt row mp.from_pop) := by
    simp only [MigMatrix.get, getAt_eq hf, Option.some_bind, hrow, getAt_eq hff]
  have hset1 : M.set mp.from_pop mp.to_pop d =
      some ⟨updAt M.rows mp.from_pop (updAt row mp.to_pop d)⟩ := by
    simp only [MigMatrix.set, getAt_eq hf, Option.some_bind, hrow, setAt_eq _ hto,
      setAt_eq _ hf, Option.map_some']
  have ht2 : inArr (updAt mig_matrix mp.time_idx
      (⟨updAt M.rows mp.from_pop (updAt row mp.to_pop d)⟩ : MigMatrix)) mp.time_idx :=
    (inArr_updAt _ _ _ _).mpr ht
  have hread : readAt (updAt mig_matrix mp.time_idx
      (⟨updAt M.rows mp.from_pop (updAt row mp.to_pop d)⟩ : MigMatrix)) mp.time_idx =
      ⟨updAt M.rows mp.from_pop (updAt row mp.to_pop d)⟩ := by
    rw [readAt_updAt_of_inArr _ _ _ _ ht, if_pos rfl]
  have hf2 : inArr (updAt M.rows mp.from_pop (updAt row mp.to_pop d)) mp.from_pop :=
    (inArr_updAt _ _ _ _).mpr hf
  have hrow2 : readAt (updAt M.rows mp.from_pop (updAt row mp.to_pop d)) mp.from_pop =
      updAt row mp.to_pop d := by
    rw [readAt_updAt_of_inArr _ _ _ _ hf, if_pos rfl]
  have hff2 : inArr (updAt row mp.to_pop d) mp.from_pop := (inArr_updAt _ _ _ _).mpr hff
  have hset2 : ∀ v, (⟨updAt M.rows mp.from_pop (updAt row mp.to_pop d)⟩ : MigMatrix).set
      mp.from_pop mp.from_pop v =
      some ⟨updAt (updAt M.rows mp.from_pop (updAt row mp.to_pop d)) mp.from_pop
        (updAt (updAt row mp.to_pop d) mp.from_pop v)⟩ := by
    intro v
    simp only [MigMatrix.set, getAt_eq hf2, Option.some_bind, hrow2, setAt_eq _ hff2,
      setAt_eq _ hf2, Option.map_some']
  refine ⟨updAt (updAt mig_matrix mp.time_idx
      (⟨updAt M.rows mp.from_pop (updAt row mp.to_pop d)⟩ : MigMatrix)) mp.time_idx
      ⟨updAt (updAt M.rows mp.from_pop (updAt row mp.to_pop d)) mp.from_pop
        (updAt (updAt row mp.to_pop d) mp.from_pop
          (readAt row mp.from_pop - (d - readAt row mp.to_pop)))⟩, ?_, ?_⟩
  · unfold resample_migrate
    simp only [hd, Option.some_bind, getAt_eq ht, hM, hget1, hget2, hset1, setAt_eq _ ht,
      getAt_eq ht2, hread, hset2, setAt_eq _ ht2, Option.map_some']
  · rw [readAt_updAt_of_inArr _ _ _ _ ht2, if_pos rfl]
    show readAt (updAt (updAt M.rows mp.from_pop (updAt row mp.to_pop d)) mp.from_pop _)
      mp.from_pop = _
    rw [readAt_updAt_of_inArr _ _ _ _ hf2, if_pos rfl]

theorem forLoop_append {σ : Type} (body : Int → σ → Option σ) (l1 l2 : List Nat) :
    ∀ s, forLoop body (l1 ++ l2) s = (forLoop body l1 s).bind (forLoop body l2) := by
  induction l1 with
  | nil => intro s; rfl
  | cons a l ih =>
    intro s
    simp only [List.cons_append, forLoop]
    cases body (a : Int) s with
    | none => rfl
    | some s2 => simp only [Option.some_bind]; exact ih s2

/-- A loop `for (i = 0; i < n; i++)` with an invariant: when the invariant
holds at the start and every pass runs through and keeps it, the loop runs
through and the invariant holds at the end. -/
theorem forLoop_range_inv {σ : Type} (body : Int → σ → Option σ) (P : Nat → σ → Prop)
    (n : Nat) (s0 : σ) (h0 : P 0 s0)
    (hstep : ∀ m s, m < n → P m s → ∃ s2, body (m : Int) s = some s2 ∧ P (m + 1) s2) :
    ∃ s, forLoop body (List.range n) s0 = some s ∧ P n s := by
  induction n with
  | zero => exact ⟨s0, rfl, h0⟩
  | succ k ih =>
    obtain ⟨s, e1, e2⟩ := ih (fun m s hm hp => hstep m s (by omega) hp)
    obtain ⟨s2, f1, f2⟩ := hstep k s (by omega) e2
    refine ⟨s2, ?_, f2⟩
    rw [List.range_succ, forLoop_append, e1]
    simp only [Option.some_bind, forLoop, f1]

theorem find_time_step (time : ℚ) (times : List ℚ) (m : Nat) (s : WithTop ℚ × Int)
    (hm : (m : Int) < times.length) (hinv : FindTimeInv time times m s) :
    ∃ s2, ((getAt times (m : Int)).map fun ti =>
        let diff : ℚ := |ti - time|
        if (diff : WithTop ℚ) < s.1 then ((diff : WithTop ℚ), (m : Int)) else s) = some s2 ∧
      FindTimeInv time times (m + 1) s2 := by
  have hA : inArr times (m : Int) := ⟨by omega, hm⟩
  rw [getAt_eq hA]
  simp only [Option.map_some']
  rcases hinv with ⟨h1, h2⟩ | ⟨h1, h2, h3, h4, h5⟩
  · subst h1 h2
    refine ⟨_, rfl, ?_⟩
    simp only [WithTop.coe_lt_top, if_true]
    right
    refine ⟨by simp, by simp, rfl, ?_, ?_⟩
    · intro j hj0 hj1
      have : j = 0 := by simp at hj1; omega
      subst this
      simp
    · intro j hj0 hj1
      simp at hj1
      omega
  · refine ⟨_, rfl, ?_⟩
    rw [h3]
    by_cases hlt : |readAt times (m : Int) - time| < |readAt times s.2 - time|
    · simp only [WithTop.coe_lt_coe, hlt, if_true]
      right
      refine ⟨by simp, by simp, rfl, ?_, ?_⟩
      · intro j hj0 hj1
        by_cases hjm : j = m
        · subst hjm; exact le_refl _
        · have := h4 j hj0 (by push_cast at hj1; omega)
          exact le_trans (le_of_lt hlt) this
      · intro j hj0 hj1
        have := h4 j hj0 hj1
        exact lt_of_lt_of_le hlt this
    · simp only [WithTop.coe_lt_coe, hlt, if_false]
      right
      refine ⟨h1, by push_cast; omega, h3, ?_, h5⟩
      intro j hj0 hj1
      by_cases hjm : j = m
      · subst hjm; exact not_lt.mp hlt
      · exact h4 j hj0 (by push_cast at hj1; omega)

/-- The function `find_time` on a non-empty grid: it returns the first index
among those closest to `time`. -/
theorem find_time_spec (time : ℚ) (times : List ℚ) (ntimes : Int) (hn : 0 < ntimes)
    (hlen : ntimes ≤ times.length) :
    ∃ i, find_time time times ntimes = some i ∧ 0 ≤ i ∧ i < ntimes ∧
      (∀ j : Int, 0 ≤ j → j < ntimes → |readAt times i - time| ≤ |readAt times j - time|) ∧
      (∀ j : Int, 0 ≤ j → j < i → |readAt times i - time| < |readAt times j - time|) := by
  obtain ⟨s, e1, e2⟩ := forLoop_range_inv
    (fun i (s : WithTop ℚ × Int) =>
      (getAt times i).map fun ti =>
      let diff : ℚ := |ti - time|
      if (diff : WithTop ℚ) < s.1 then ((diff : WithTop ℚ), i) else s)
    (FindTimeInv time times) ntimes.toNat ((⊤ : WithTop ℚ), (-1 : Int)) (Or.inl ⟨rfl, rfl⟩)
    (fun m s hm hp => find_time_step time times m s (by omega) hp)
  rcases e2 with ⟨h1, _⟩ | ⟨h1, h2, h3, h4, h5⟩
  · omega
  · refine ⟨s.2, ?_, h1, by omega, ?_, h5⟩
    · unfold find_time
      rw [e1]
      have : s.2 ≠ -1 := by omega
      simp only [Option.some_bind, assertion, decide_eq_true this, if_true, Option.map_some']
    · intro j hj0 hj1
      exact h4 j hj0 (by omega)

/-- The first loop of `get_coal_time_steps`: the even slots of `times2` hold
the grid. -/
theorem coal_steps_even (times : List ℚ) (ntimes : Int) (hlen : ntimes ≤ times.length)
    (t0 : List (Option ℚ)) (hl0 : (t0.length : Int) = 2 * ntimes + 1) :
    ∃ t2, forLoop (fun i t2 => (getAt times i).bind fun ti => setAt t2 (2 * i) (some ti))
        (List.range ntimes.toNat) t0 = some t2 ∧ (t2.length : Int) = 2 * ntimes + 1 ∧
      ∀ i : Int, 0 ≤ i → i < ntimes → readAt t2 (2 * i) = some (readAt times i) := by
  obtain ⟨s, e1, e2, e3⟩ := forLoop_range_inv
    (fun i t2 => (getAt times i).bind fun ti => setAt t2 (2 * i) (some ti))
    (fun m (t2 : List (Option ℚ)) => (t2.length : Int) = 2 * ntimes + 1 ∧
      ∀ i : Int, 0 ≤ i → i < m → readAt t2 (2 * i) = some (readAt times i))
    ntimes.toNat t0 ⟨hl0, fun i h0 h1 => by simp at h1; omega⟩
    (by
      intro m s hm ⟨hl, hs⟩
      have hA : inArr times (m : Int) := ⟨by omega, by omega⟩
      have hB : inArr s (2 * (m : Int)) := ⟨by omega, by omega⟩
      refine ⟨updAt s (2 * (m : Int)) (some (readAt times (m : Int))), ?_, ?_, ?_⟩
      · simp only [getAt_eq hA, Option.some_bind, setAt_eq _ hB]
      · rw [length_updAt]; exact hl
      · intro i h0 h1
        rw [readAt_updAt_of_inArr _ _ _ _ hB]
        by_cases hi : i = m
        · subst hi; simp
        · rw [if_neg (by omega)]
          exact hs i h0 (by push_cast at h1; omega))
  exact ⟨s, e1, e2, fun i h0 h1 => e3 i h0 (by omega)⟩

/-- The second loop of `get_coal_time_steps` in linear mode: the odd slots of
`times2` hold the midpoints. -/
theorem coal_steps_odd (times : List ℚ) (ntimes : Int) (hlen : ntimes ≤ times.length)
    (t0 : List (Option ℚ)) (hl0 : (t0.length : Int) = 2 * ntimes + 1)
    (h0 : ∀ i : Int, 0 ≤ i → i < ntimes → readAt t0 (2 * i) = some (readAt times i)) :
    ∃ t2, forLoop (fun i t2 =>
          (getAt times (i + 1)).bind fun a => (getAt times i).bind fun b =>
          setAt t2 (2 * i + 1) (some (1 / 2 * (a + b))))
        (List.range (ntimes - 1).toNat) t0 = some t2 ∧ (t2.length : Int) = 2 * ntimes + 1 ∧
      (∀ i : Int, 0 ≤ i → i < ntimes → readAt t2 (2 * i) = some (readAt times i)) ∧
      ∀ i : Int, 0 ≤ i → i < ntimes - 1 →
        readAt t2 (2 * i + 1) = some (1 / 2 * (readAt times (i + 1) + readAt times i)) := by
  obtain ⟨s, e1, e2, e3, e4⟩ := forLoop_range_inv
    (fun i t2 =>
          (getAt times (i + 1)).bind fun a => (getAt times i).bind fun b =>
          setAt t2 (2 * i + 1) (some (1 / 2 * (a + b))))
    (fun m (t2 : List (Option ℚ)) => (t2.length : Int) = 2 * ntimes + 1 ∧
      (∀ i : Int, 0 ≤ i → i < ntimes → readAt t2 (2 * i) = some (readAt times i)) ∧
      ∀ i : Int, 0 ≤ i → i < m →
        readAt t2 (2 * i + 1) = some (1 / 2 * (readAt times (i + 1) + readAt times i)))
    (ntimes - 1).toNat t0 ⟨hl0, h0, fun i h0 h1 => by simp at h1; omega⟩
    (by
      intro m s hm ⟨hl, hs, hs2⟩
      have hA : inArr times ((m : Int) + 1) := ⟨by omega, by omega⟩
      have hA2 : inArr times (m : Int) := ⟨by omega, by omega⟩
      have hB : inArr s (2 * (m : Int) + 1) := ⟨by omega, by omega⟩
      refine ⟨updAt s (2 * (m : Int) + 1)
        (some (1 / 2 * (readAt times ((m : Int) + 1) + readAt times (m : Int)))), ?_, ?_, ?_, ?_⟩
      · simp only [getAt_eq hA, getAt_eq hA2, Option.some_bind, setAt_eq _ hB]
      · rw [length_updAt]; exact hl
      · intro i h0 h1
        rw [readAt_updAt_of_inArr _ _ _ _ hB, if_neg (by omega)]
        exact hs i h0 h1
      · intro i h0 h1
        rw [readAt_updAt_of_inArr _ _ _ _ hB]
        by_cases hi : i = m
        · subst hi; simp
        · rw [if_neg (by omega)]
          exact hs2 i h0 (by push_cast at h1; omega))
  exact ⟨s, e1, e2, e3, fun i h0 h1 => e4 i h0 (by omega)⟩

/-- The last loop of `get_coal_time_steps`: the differences of consecutive
entries of `times2`, none of which is negative. -/
theorem coal_steps_diff (T : Int → ℚ) (ntimes : Int) (hn : 1 ≤ ntimes) (t2 : List (Option ℚ))
    (hl : 2 * ntimes < (t2.length : Int))
    (ht : ∀ k : Int, 0 ≤ k → k ≤ 2 * ntimes - 2 → readAt t2 k = some (T k))
    (hmono : ∀ k : Int, 0 ≤ k → k < 2 * ntimes - 2 → T k ≤ T (k + 1))
    (s0 : List (WithTop ℚ)) (hs0 : (s0.length : Int) = 2 * ntimes - 1) :
    ∃ steps, forLoop (coal_time_step t2 ntimes) (List.range (2 * ntimes - 2).toNat) s0 =
        some steps ∧ (steps.length : Int) = 2 * ntimes - 1 ∧
      (∀ k : Int, 0 ≤ k → k < 2 * ntimes - 2 →
        readAt steps k = ((T (k + 1) - T k : ℚ) : WithTop ℚ)) := by
  obtain ⟨s, e1, e2, e3⟩ := forLoop_range_inv (coal_time_step t2 ntimes)
    (fun m (steps : List (WithTop ℚ)) => (steps.length : Int) = 2 * ntimes - 1 ∧
      (∀ k : Int, 0 ≤ k → k < m → readAt steps k = ((T (k + 1) - T k : ℚ) : WithTop ℚ)))
    (2 * ntimes - 2).toNat s0 ⟨hs0, (fun i h0 h1 => by simp at h1; omega)⟩
    (by
      intro m s hm ⟨hl1, hs⟩
      have hmin : min ((m : Int) + 1) (2 * ntimes) = (m : Int) + 1 := min_eq_left (by omega)
      have hA : inArr t2 ((m : Int) + 1) := ⟨by omega, by omega⟩
      have hA2 : inArr t2 (m : Int) := ⟨by omega, by omega⟩
      have hB : inArr s (m : Int) := ⟨by omega, by omega⟩
      have hnn : ¬ T ((m : Int) + 1) - T (m : Int) < 0 := by
        have := hmono m (by omega) (by omega)
        linarith
      refine ⟨updAt s (m : Int) ((T ((m : Int) + 1) - T (m : Int) : ℚ) : WithTop ℚ), ?_, ?_, ?_⟩
      · unfold coal_time_step
        simp only [hmin, getAt_eq hA, getAt_eq hA2, Option.some_bind,
          ht ((m : Int) + 1) (by omega) (by omega), ht (m : Int) (by omega) (by omega),
          setAt_eq _ hB, assertion, decide_eq_true hnn, if_true, Option.map_some']
      · rw [length_updAt]; exact hl1
      · intro k h0 h1
        rw [readAt_updAt_of_inArr _ _ _ _ hB]
        by_cases hk : k = m
        · subst hk; simp
        · rw [if_neg hk]
          exact hs k h0 (by push_cast at h1; omega))
  exact ⟨s, e1, e2, (fun k h0 h1 => e3 k h0 (by omega))⟩

theorem midGrid_even (times : List ℚ) (i : Int) : midGrid times (2 * i) = readAt times i := by
  unfold midGrid
  rw [if_pos (by omega)]
  congr 1
  omega

theorem midGrid_odd (times : List ℚ) (i : Int) :
    midGrid times (2 * i + 1) = 1 / 2 * (readAt times (i + 1) + readAt times i) := by
  unfold midGrid
  rw [if_neg (by omega)]
  have : (2 * i + 1) / 2 = i := by omega
  rw [this]

/-- The function `get_coal_time_steps` in linear mode on a non-decreasing
grid: it runs through; the entry `k < 2*ntimes-2` of the result is the
difference of the entries `k+1` and `k` of the grid of midpoints, and the last
entry is infinite. -/
theorem get_coal_time_steps_spec (get_time_point : Int → Int → ℚ → ℚ → ℚ) (times : List ℚ)
    (ntimes : Int) (delta : ℚ) (hn : 1 ≤ ntimes) (hlen : ntimes ≤ times.length)
    (hmono : ∀ i : Int, 0 ≤ i → i < ntimes - 1 → readAt times i ≤ readAt times (i + 1)) :
    ∃ steps, get_coal_time_steps get_time_point times ntimes true delta = some steps ∧
      (steps.length : Int) = 2 * ntimes - 1 ∧
      (∀ k : Int, 0 ≤ k → k < 2 * ntimes - 2 →
        readAt steps k = ((midGrid times (k + 1) - midGrid times k : ℚ) : WithTop ℚ)) ∧
      readAt steps (2 * ntimes - 2) = ⊤ := by
  obtain ⟨t1, a1, a2, a3⟩ := coal_steps_even times ntimes hlen
    (List.replicate (2 * ntimes + 1).toNat none) (by simp only [List.length_replicate]; omega)
  obtain ⟨t2, b1, b2, b3, b4⟩ := coal_steps_odd times ntimes hlen t1 a2 a3
  have hT : ∀ k : Int, 0 ≤ k → k ≤ 2 * ntimes - 2 → readAt t2 k = some (midGrid times k) := by
    intro k h0 h1
    by_cases hk : k % 2 = 0
    · have e : k = 2 * (k / 2) := by omega
      rw [e, midGrid_even, b3 (k / 2) (by omega) (by omega)]
    · have e : k = 2 * (k / 2) + 1 := by omega
      rw [e, midGrid_odd, b4 (k / 2) (by omega) (by omega)]
  have hM : ∀ k : Int, 0 ≤ k → k < 2 * ntimes - 2 → midGrid times k ≤ midGrid times (k + 1) := by
    intro k h0 h1
    by_cases hk : k % 2 = 0
    · have e : k = 2 * (k / 2) := by omega
      have := hmono (k / 2) (by omega) (by omega)
      rw [e, midGrid_even, midGrid_odd]
      linarith
    · have e : k = 2 * (k / 2) + 1 := by omega
      have e2 : 2 * (k / 2) + 1 + 1 = 2 * (k / 2 + 1) := by ring
      have := hmono (k / 2) (by omega) (by omega)
      rw [e, e2, midGrid_even, midGrid_odd]
      linarith
  obtain ⟨s, c1, c2, c3⟩ := coal_steps_diff (midGrid times) ntimes hn t2
    (by omega) hT hM (List.replicate (2 * ntimes - 1).toNat (0 : WithTop ℚ))
    (by simp only [List.length_replicate]; omega)
  have hB : inArr s (2 * ntimes - 2) := ⟨by omega, by omega⟩
  refine ⟨updAt s (2 * ntimes - 2) ⊤, ?_, ?_, ?_, ?_⟩
  · unfold get_coal_time_steps
    simp only [a1, Option.some_bind, if_true, b1, c1, setAt_eq _ hB]
  · rw [length_updAt]; omega
  · intro k h0 h1
    rw [readAt_updAt_of_inArr _ _ _ _ hB, if_neg (by omega)]
    exact c3 k h0 h1
  · rw [readAt_updAt_of_inArr _ _ _ _ hB, if_pos rfl]

/-- Double counting along parent links: in a binary tree on the nodes
`[0, n)`, summing `g (parent i)` over the nodes `i` that have a parent is
summing `2 * g v` over the internal nodes `v`. -/
theorem sum_over_parents (n : Int) (P C0 C1 : Int → Int) (g : Int → Int)
    (par : ∀ i : Int, 0 ≤ i → i < n → P i = -1 ∨
      (0 ≤ P i ∧ P i < n ∧ (C0 (P i) = i ∨ C1 (P i) = i)))
    (ch : ∀ i : Int, 0 ≤ i → i < n → (C0 i = -1 ∧ C1 i = -1) ∨
      (0 ≤ C0 i ∧ C0 i < n ∧ 0 ≤ C1 i ∧ C1 i < n ∧ C0 i ≠ C1 i ∧ P (C0 i) = i ∧ P (C1 i) = i)) :
    ∑ i in (Finset.Ico 0 n).filter (fun i => P i ≠ -1), g (P i) =
      ∑ v in (Finset.Ico 0 n).filter (fun v => C0 v ≠ -1), 2 * g v := by
  have hmaps : ∀ i ∈ (Finset.Ico 0 n).filter (fun i => P i ≠ -1), P i ∈ Finset.Ico 0 n := by
    intro i hi
    rw [Finset.mem_filter, Finset.mem_Ico] at hi
    rcases par i hi.1.1 hi.1.2 with h | h
    · exact absurd h hi.2
    · rw [Finset.mem_Ico]; exact ⟨h.1, h.2.1⟩
  rw [← Finset.sum_fiberwise_of_maps_to hmaps, Finset.sum_filter]
  apply Finset.sum_congr rfl
  intro v hv
  rw [Finset.mem_Ico] at hv
  rcases ch v hv.1 hv.2 with ⟨h0, h1⟩ | ⟨a0, a1, b0, b1, hne, p0, p1⟩
  · rw [if_neg (by rw [h0]; simp)]
    apply Finset.sum_eq_zero
    intro i hi
    exfalso
    rw [Finset.mem_filter, Finset.mem_filter, Finset.mem_Ico] at hi
    rcases par i hi.1.1.1 hi.1.1.2 with h | h
    · exact hi.1.2 h
    · rw [hi.2, h0, h1] at h
      omega
  · rw [if_pos (by omega)]
    have hset : ((Finset.Ico 0 n).filter (fun i => P i ≠ -1)).filter (fun i => P i = v) =
        {C0 v, C1 v} := by
      ext i
      simp only [Finset.mem_filter, Finset.mem_Ico, Finset.mem_insert, Finset.mem_singleton]
      constructor
      · rintro ⟨⟨⟨i0, i1⟩, hp⟩, hpv⟩
        rcases par i i0 i1 with h | h
        · exact absurd h hp
        · rw [hpv] at h
          rcases h.2.2 with h | h
          · exact Or.inl h.symm
          · exact Or.inr h.symm
      · rintro (h | h)
        · subst h; exact ⟨⟨⟨a0, a1⟩, by omega⟩, p0⟩
        · subst h; exact ⟨⟨⟨b0, b1⟩, by omega⟩, p1⟩
    rw [hset, Finset.sum_pair hne, p0, p1]
    ring

/-- A sum over the indices of a loop is the sum over the interval of
integers. -/
theorem sum_range_eq_Ico (n : Nat) (f : Int → Int) :
    ∑ i in Finset.range n, f (i : Int) = ∑ i in Finset.Ico (0 : Int) n, f i := by
  induction n with
  | zero => simp
  | succ k ih =>
    rw [Finset.sum_range_succ, ih]
    have : Finset.Ico (0 : Int) ((k + 1 : Nat) : Int) = insert (k : Int) (Finset.Ico 0 (k : Int)) := by
      ext x
      simp only [Finset.mem_Ico, Finset.mem_insert]
      push_cast
      omega
    rw [this, Finset.sum_insert (by simp)]
    ring

theorem incrAt_eq (xs : List Int) (i : Int) (h : inArr xs i) :
    incrAt xs i = some (updAt xs i (readAt xs i + 1)) := by
  simp only [incrAt, getAt_eq h, Option.some_bind, setAt_eq _ h]

theorem incrAt2_eq (xss : List (List Int)) (p i : Int) (hp : inArr xss p)
    (hi : inArr (readAt xss p) i) :
    incrAt2 xss p i =
      some (updAt xss p (updAt (readAt xss p) i (readAt (readAt xss p) i + 1))) := by
  simp only [incrAt2, getAt_eq hp, Option.some_bind, incrAt_eq _ _ hi, setAt_eq _ hp]

theorem setAt2_eq (xss : List (List Int)) (p i v : Int) (hp : inArr xss p)
    (hi : inArr (readAt xss p) i) :
    setAt2 xss p i v = some (updAt xss p (updAt (readAt xss p) i v)) := by
  simp only [setAt2, getAt_eq hp, Option.some_bind, setAt_eq _ hi, setAt_eq _ hp]

theorem CountsAdd.ok {ntimes : Int} {c c2 : LineageCounts} {dB dR : Int → Int}
    (h : CountsAdd ntimes c c2 dB dR) : CountsOk ntimes c2 := h.1

theorem countsAdd_zero (ntimes : Int) (c : LineageCounts) (hok : CountsOk ntimes c)
    (dB dR : Int → Int) (hB : ∀ x, dB x = 0) (hR : ∀ x, dR x = 0) :
    CountsAdd ntimes c c dB dR :=
  ⟨hok, fun x => by rw [hB]; ring, fun x => by rw [hR]; ring, fun y => by rw [hB]; ring,
    fun x => by rw [hR]; ring⟩

theorem countsAdd_step {ntimes : Int} {c c1 c2 : LineageCounts} {dB dR eB eR : Int → Int}
    (fB fR : Int → Int) (h1 : CountsAdd ntimes c c1 dB dR) (h2 : CountsAdd ntimes c1 c2 eB eR)
    (hB : ∀ x, fB x = dB x + eB x) (hR : ∀ x, fR x = dR x + eR x) :
    CountsAdd ntimes c c2 fB fR := by
  obtain ⟨-, a1, a2, a3, a4⟩ := h1
  obtain ⟨b0, b1, b2, b3, b4⟩ := h2
  refine ⟨b0, fun x => ?_, fun x => ?_, fun y => ?_, fun x => ?_⟩
  · rw [b1, a1, hB]; ring
  · rw [b2, a2, hR]; ring
  · rw [b3, a3, hB]; ring
  · rw [b4, a4, hR]; ring

/-- The counts of one segment of a branch, without population model: one
branch and one recombination point at time `j`. -/
theorem count_segment_adds (n : LocalNode) (ntimes : Int) (c : LineageCounts) (j : Int)
    (hok : CountsOk ntimes c) (h0 : 0 ≤ j) (h1 : j < ntimes) :
    ∃ c2, count_segment n none j c = some c2 ∧
      CountsAdd ntimes c c2 (fun x => if x = j then 1 else 0)
        (fun x => if x = j then 1 else 0) := by
  obtain ⟨k1, k2, k3, k4, k5, k6⟩ := hok
  have hb : inArr c.nbranches j := ⟨h0, by omega⟩
  have hr : inArr c.nrecombs j := ⟨h0, by omega⟩
  have hp0 : inArr c.nbranches_pop 0 := ⟨le_refl _, by omega⟩
  have hq0 : inArr c.ncoals_pop 0 := ⟨le_refl _, by omega⟩
  have hp1 : inArr (readAt c.nbranches_pop 0) (2 * j) := ⟨by omega, by omega⟩
  have hq1 : inArr (readAt c.ncoals_pop 0) j := ⟨h0, by omega⟩
  have hp0b : inArr (updAt c.nbranches_pop 0 (updAt (readAt c.nbranches_pop 0) (2 * j)
      (readAt (readAt c.nbranches_pop 0) (2 * j) + 1))) 0 := (inArr_updAt _ _ _ _).mpr hp0
  have hrow : readAt (updAt c.nbranches_pop 0 (updAt (readAt c.nbranches_pop 0) (2 * j)
      (readAt (readAt c.nbranches_pop 0) (2 * j) + 1))) 0 =
      updAt (readAt c.nbranches_pop 0) (2 * j)
        (readAt (readAt c.nbranches_pop 0) (2 * j) + 1) := by
    rw [readAt_updAt_of_inArr _ _ _ _ hp0, if_pos rfl]
  have hp2 : inArr (readAt (updAt c.nbranches_pop 0 (updAt (readAt c.nbranches_pop 0) (2 * j)
      (readAt (readAt c.nbranches_pop 0) (2 * j) + 1))) 0) (2 * j + 1) := by
    rw [hrow]
    exact (inArr_updAt _ _ _ _).mpr ⟨by omega, by omega⟩
  refine ⟨LineageCounts.mk (updAt c.nbranches j (readAt c.nbranches j + 1))
    (updAt c.nrecombs j (readAt c.nrecombs j + 1))
    (updAt (updAt c.nbranches_pop 0 (updAt (readAt c.nbranches_pop 0) (2 * j)
      (readAt (readAt c.nbranches_pop 0) (2 * j) + 1))) 0
      (updAt (readAt (updAt c.nbranches_pop 0 (updAt (readAt c.nbranches_pop 0) (2 * j)
        (readAt (readAt c.nbranches_pop 0) (2 * j) + 1))) 0) (2 * j + 1)
        (readAt (readAt (updAt c.nbranches_pop 0 (updAt (readAt c.nbranches_pop 0) (2 * j)
          (readAt (readAt c.nbranches_pop 0) (2 * j) + 1))) 0) (2 * j + 1) + 1)))
    (updAt c.ncoals_pop 0 (updAt (readAt c.ncoals_pop 0) j
      (readAt (readAt c.ncoals_pop 0) j + 1))), ?_, ?_⟩
  · simp only [count_segment, LocalNode.get_pop, incrAt_eq _ _ hb, incrAt_eq _ _ hr,
      incrAt2_eq _ _ _ hp0 hp1, incrAt2_eq _ _ _ hq0 hq1, Option.some_bind,
      incrAt2_eq _ _ _ hp0b hp2, Option.map_some']
  · refine ⟨⟨?_, ?_, ?_, ?_, ?_, ?_⟩, ?_, ?_, ?_, ?_⟩
    · simp only [length_updAt]; exact k1
    · simp only [length_updAt]; exact k2
    · simp only [length_updAt]; exact k3
    · simp only [readAt_updAt_of_inArr _ _ _ _ hp0b, if_true, length_updAt, hrow]; exact k4
    · simp only [length_updAt]; exact k5
    · simp only [readAt_updAt_of_inArr _ _ _ _ hq0, if_true, length_updAt]; exact k6
    · intro x
      simp only [readAt_updAt_of_inArr _ _ _ _ hb]
      by_cases hx : x = j
      · subst hx; simp
      · simp [hx]
    · intro x
      simp only [readAt_updAt_of_inArr _ _ _ _ hr]
      by_cases hx : x = j
      · subst hx; simp
      · simp [hx]
    · intro y
      simp only [readAt_updAt_of_inArr _ _ _ _ hp0b, if_true, hrow]
      rw [readAt_updAt_of_inArr _ _ _ _ ((inArr_updAt _ _ _ _).mpr ⟨by omega, by omega⟩),
        readAt_updAt_of_inArr _ _ _ _ hp1, readAt_updAt_of_inArr _ _ _ _ hp1]
      by_cases hy1 : y = 2 * j + 1
      · rw [if_pos hy1, if_neg (by omega), if_pos (by omega)]
        rw [hy1]
      · rw [if_neg hy1]
        by_cases hy0 : y = 2 * j
        · rw [if_pos hy0, if_pos (by omega), hy0]
        · rw [if_neg hy0, if_neg (by omega)]
          ring
    · intro x
      simp only [readAt_updAt_of_inArr _ _ _ _ hq0, if_true,
        readAt_updAt_of_inArr _ _ _ _ hq1]
      by_cases hx : x = j
      · subst hx; simp
      · simp [hx]

/-- The counts at the top of a branch, without population model: one
recombination point at `parent_age`, and one branch there for the top
branch. -/
theorem count_top_adds (n : LocalNode) (ntimes : Int) (c : LineageCounts) (pa : Int)
    (top : Bool) (hok : CountsOk ntimes c) (h0 : 0 ≤ pa) (h1 : pa < ntimes) :
    ∃ c2, count_top n none pa top c = some c2 ∧
      CountsAdd ntimes c c2 (fun x => if top = true ∧ x = pa then 1 else 0)
        (fun x => if x = pa then 1 else 0) := by
  cases top with
  | false =>
    obtain ⟨k1, k2, k3, k4, k5, k6⟩ := hok
    have hr : inArr c.nrecombs pa := ⟨h0, by omega⟩
    have hq0 : inArr c.ncoals_pop 0 := ⟨le_refl _, by omega⟩
    have hq1 : inArr (readAt c.ncoals_pop 0) pa := ⟨h0, by omega⟩
    refine ⟨LineageCounts.mk c.nbranches (updAt c.nrecombs pa (readAt c.nrecombs pa + 1))
      c.nbranches_pop (updAt c.ncoals_pop 0 (updAt (readAt c.ncoals_pop 0) pa
        (readAt (readAt c.ncoals_pop 0) pa + 1))), ?_, ?_⟩
    · simp only [count_top, LocalNode.get_pop, incrAt_eq _ _ hr, incrAt2_eq _ _ _ hq0 hq1,
        Option.some_bind, Bool.false_eq_true, if_false]
    · refine ⟨⟨k1, ?_, k3, k4, ?_, ?_⟩, ?_, ?_, ?_, ?_⟩
      · simp only [length_updAt]; exact k2
      · simp only [length_updAt]; exact k5
      · simp only [readAt_updAt_of_inArr _ _ _ _ hq0, if_true, length_updAt]; exact k6
      · intro x; simp
      · intro x
        simp only [readAt_updAt_of_inArr _ _ _ _ hr]
        by_cases hx : x = pa
        · subst hx; simp
        · simp [hx]
      · intro y; simp
      · intro x
        simp only [readAt_updAt_of_inArr _ _ _ _ hq0, if_true,
          readAt_updAt_of_inArr _ _ _ _ hq1]
        by_cases hx : x = pa
        · subst hx; simp
        · simp [hx]
  | true =>
    obtain ⟨c2, e1, e2⟩ := count_segment_adds n ntimes c pa hok h0 h1
    refine ⟨c2, ?_, ?_⟩
    · rw [← e1]
      obtain ⟨k1, k2, k3, k4, k5, k6⟩ := hok
      have hb : inArr c.nbranches pa := ⟨h0, by omega⟩
      have hr : inArr c.nrecombs pa := ⟨h0, by omega⟩
      have hp0 : inArr c.nbranches_pop 0 := ⟨le_refl _, by omega⟩
      have hq0 : inArr c.ncoals_pop 0 := ⟨le_refl _, by omega⟩
      have hp1 : inArr (readAt c.nbranches_pop 0) (2 * pa) := ⟨by omega, by omega⟩
      have hq1 : inArr (readAt c.ncoals_pop 0) pa := ⟨h0, by omega⟩
      simp only [count_top, count_segment, LocalNode.get_pop, incrAt_eq _ _ hb,
        incrAt_eq _ _ hr, incrAt2_eq _ _ _ hp0 hp1, incrAt2_eq _ _ _ hq0 hq1,
        Option.some_bind, if_true]
    · exact countsAdd_step _ _ (countsAdd_zero ntimes c hok (fun _ => 0) (fun _ => 0)
        (fun _ => rfl) (fun _ => rfl)) e2 (fun x => by simp) (fun x => by simp)

/-- The loop over the segments of a branch from time `a` to `a + len`. -/
theorem count_segments_adds (n : LocalNode) (ntimes : Int) (c : LineageCounts) (a : Int)
    (len : Nat) (hok : CountsOk ntimes c) (h0 : 0 ≤ a) (h1 : a + len ≤ ntimes) :
    ∃ c2, forLoop (fun k c => count_segment n none (a + k) c) (List.range len) c = some c2 ∧
      CountsAdd ntimes c c2 (fun x => if a ≤ x ∧ x < a + len then 1 else 0)
        (fun x => if a ≤ x ∧ x < a + len then 1 else 0) := by
  obtain ⟨c2, e1, e2⟩ := forLoop_range_inv (fun k c => count_segment n none (a + k) c)
    (fun m c2 => CountsAdd ntimes c c2 (fun x => if a ≤ x ∧ x < a + m then 1 else 0)
        (fun x => if a ≤ x ∧ x < a + m then 1 else 0))
    len c (countsAdd_zero ntimes c hok _ _ (fun x => by simp) (fun x => by simp))
    (by
      intro m s hm hs
      obtain ⟨s2, f1, f2⟩ := count_segment_adds n ntimes s (a + m) hs.ok (by omega) (by omega)
      refine ⟨s2, f1, countsAdd_step _ _ hs f2 ?_ ?_⟩
      · intro x
        push_cast
        by_cases hx : x = a + m
        · have h1 : a ≤ x ∧ x < a + (↑m + 1) := by omega
          have h2 : ¬ (a ≤ x ∧ x < a + m) := by omega
          rw [if_pos h1, if_neg h2, if_pos hx]; ring
        · by_cases hx2 : a ≤ x ∧ x < a + m
          · have h1 : a ≤ x ∧ x < a + (↑m + 1) := by omega
            rw [if_pos h1, if_pos hx2, if_neg hx]; ring
          · have h1 : ¬ (a ≤ x ∧ x < a + (↑m + 1)) := by omega
            rw [if_neg h1, if_neg hx2, if_neg hx]; ring
      · intro x
        push_cast
        by_cases hx : x = a + m
        · have h1 : a ≤ x ∧ x < a + (↑m + 1) := by omega
          have h2 : ¬ (a ≤ x ∧ x < a + m) := by omega
          rw [if_pos h1, if_neg h2, if_pos hx]; ring
        · by_cases hx2 : a ≤ x ∧ x < a + m
          · have h1 : a ≤ x ∧ x < a + (↑m + 1) := by omega
            rw [if_pos h1, if_pos hx2, if_neg hx]; ring
          · have h1 : ¬ (a ≤ x ∧ x < a + (↑m + 1)) := by omega
            rw [if_neg h1, if_neg hx2, if_neg hx]; ring)
  exact ⟨c2, e1, e2⟩

/-- The loop over the segments in `count_lineages_internal`, whose assertion
holds below the top time. -/
theorem count_segments_internal (n : LocalNode) (ntimes : Int) (c : LineageCounts) (a : Int)
    (len : Nat) (h1 : a + len ≤ ntimes - 1) :
    forLoop (fun k c =>
        (count_segment n none (a + k) c).bind fun c =>
        (assertion (decide (a + k < ntimes - 1))).map fun _ => c) (List.range len) c =
      forLoop (fun k c => count_segment n none (a + k) c) (List.range len) c := by
  apply forLoop_congr
  intro i hi s
  rw [List.mem_range] at hi
  have : a + (i : Int) < ntimes - 1 := by omega
  cases count_segment n none (a + (i : Int)) s with
  | none => rfl
  | some s2 => simp only [Option.some_bind, assertion, decide_eq_true this, if_true,
      Option.map_some']

/-- The counts of the branch above a node, without population model, for a
node of age in `[0, ntimes-2]` whose branch ends at or above its age and at or
below `ntimes-2`. -/
theorem count_branch_adds (t : LocalTree) (ntimes top i : Int) (c : LineageCounts)
    (hok : CountsOk ntimes c) (ha0 : 0 ≤ (t.node i).age)
    (hap : (t.node i).age ≤ branchTop t ntimes top i)
    (hp1 : branchTop t ntimes top i ≤ ntimes - 2) :
    ∃ c2, ((forLoop (fun k c => count_segment (t.node i) none ((t.node i).age + k) c)
        (List.range (branchTop t ntimes top i - (t.node i).age).toNat) c).bind fun c =>
        count_top (t.node i) none (branchTop t ntimes top i)
          (decide ((t.node i).parent = top)) c) = some c2 ∧
      CountsAdd ntimes c c2 (branchAdd t ntimes top i) (recombAdd t ntimes top i) := by
  obtain ⟨c1, e1, e2⟩ := count_segments_adds (t.node i) ntimes c (t.node i).age
    (branchTop t ntimes top i - (t.node i).age).toNat hok ha0 (by omega)
  obtain ⟨c2, f1, f2⟩ := count_top_adds (t.node i) ntimes c1 (branchTop t ntimes top i)
    (decide ((t.node i).parent = top)) e2.ok (by omega) (by omega)
  refine ⟨c2, by rw [e1]; exact f1, countsAdd_step _ _ e2 f2 ?_ ?_⟩
  · intro x
    unfold branchAdd
    have hc : (t.node i).age + ((branchTop t ntimes top i - (t.node i).age).toNat : Int) =
        branchTop t ntimes top i := by omega
    rw [hc]
    simp only [decide_eq_true_eq]
  · intro x
    unfold recombAdd
    have hc : (t.node i).age + ((branchTop t ntimes top i - (t.node i).age).toNat : Int) =
        branchTop t ntimes top i := by omega
    rw [hc]
    by_cases hx : x = branchTop t ntimes top i
    · have h1 : ¬ ((t.node i).age ≤ x ∧ x < branchTop t ntimes top i) := by omega
      have h2 : (t.node i).age ≤ x ∧ x ≤ branchTop t ntimes top i := by omega
      rw [if_neg h1, if_pos hx, if_pos h2]; ring
    · rw [if_neg hx]
      by_cases hx2 : (t.node i).age ≤ x ∧ x < branchTop t ntimes top i
      · have h2 : (t.node i).age ≤ x ∧ x ≤ branchTop t ntimes top i := by omega
        rw [if_pos hx2, if_pos h2]; ring
      · have h2 : ¬ ((t.node i).age ≤ x ∧ x ≤ branchTop t ntimes top i) := by omega
        rw [if_neg hx2, if_neg h2]; ring

theorem readAt_replicate_zero (k : Nat) (x : Int) : readAt (List.replicate k (0 : Int)) x = 0 := by
  unfold readAt
  split
  · rw [List.getD_eq_getElem?_getD]
    by_cases h : x.toNat < k
    · simp [List.getElem?_replicate, h]
    · simp [List.getElem?_replicate, h]
  · rfl

/-- The arrays after the block "initialize counts", without population
model. -/
theorem init_counts_ok (ntimes : Int) (hn : 0 ≤ ntimes) :
    CountsOk ntimes (init_counts ntimes 1) ∧
      (∀ x : Int, readAt (init_counts ntimes 1).nbranches x = 0) ∧
      (∀ x : Int, readAt (init_counts ntimes 1).nrecombs x = 0) ∧
      (∀ y : Int, readAt (readAt (init_counts ntimes 1).nbranches_pop 0) y = 0) ∧
      (∀ x : Int, readAt (readAt (init_counts ntimes 1).ncoals_pop 0) x = 0) := by
  have h1 : (1 : Int).toNat = 1 := rfl
  have hr : ∀ l : List Int, readAt [l] 0 = l := fun l => rfl
  refine ⟨⟨?_, ?_, ?_, ?_, ?_, ?_⟩, ?_, ?_, ?_, ?_⟩
  · simp only [init_counts, List.length_replicate]; omega
  · simp only [init_counts, List.length_replicate]; omega
  · simp only [init_counts, List.length_replicate, h1]
  · simp only [init_counts, h1, List.replicate_one, hr, List.length_replicate]; omega
  · simp only [init_counts, List.length_replicate, h1]
  · simp only [init_counts, h1, List.replicate_one, hr, List.length_replicate]; omega
  · intro x; simp only [init_counts, readAt_replicate_zero]
  · intro x; simp only [init_counts, readAt_replicate_zero]
  · intro y; simp only [init_counts, h1, List.replicate_one, hr, readAt_replicate_zero]
  · intro x; simp only [init_counts, h1, List.replicate_one, hr, readAt_replicate_zero]

/-- A loop over the nodes whose passes add the counts `fB i`, `fR i`: the loop
adds their sums. -/
theorem count_loop_adds (body : Int → LineageCounts → Option LineageCounts)
    (fB fR : Int → Int → Int) (ntimes : Int) (n : Nat) (c0 : LineageCounts)
    (hok : CountsOk ntimes c0)
    (hbody : ∀ i : Nat, i < n → ∀ c, CountsOk ntimes c →
      ∃ c2, body (i : Int) c = some c2 ∧ CountsAdd ntimes c c2 (fB i) (fR i)) :
    ∃ c, forLoop body (List.range n) c0 = some c ∧
      CountsAdd ntimes c0 c (fun x => ∑ i in Finset.range n, fB (i : Int) x)
        (fun x => ∑ i in Finset.range n, fR (i : Int) x) := by
  obtain ⟨c, e1, e2⟩ := forLoop_range_inv body
    (fun m c => CountsAdd ntimes c0 c (fun x => ∑ i in Finset.range m, fB (i : Int) x)
        (fun x => ∑ i in Finset.range m, fR (i : Int) x))
    n c0 (countsAdd_zero ntimes c0 hok _ _ (fun x => by simp) (fun x => by simp))
    (by
      intro m s hm hs
      obtain ⟨s2, f1, f2⟩ := hbody m hm s hs.ok
      exact ⟨s2, f1, countsAdd_step _ _ hs f2 (fun x => Finset.sum_range_succ _ _)
        (fun x => Finset.sum_range_succ _ _)⟩)
  exact ⟨c, e1, e2⟩

/-- One pass of the loop of `count_lineages` without population model. -/
theorem count_node_adds (t : LocalTree) (ntimes i : Int) (c : LineageCounts)
    (hok : CountsOk ntimes c) (hiA : inArr t.nodes i) (ha0 : 0 ≤ (t.node i).age)
    (ha1 : (t.node i).age ≤ ntimes - 2)
    (hpA : (t.node i).parent ≠ -1 → inArr t.nodes (t.node i).parent)
    (hap : (t.node i).age ≤ branchTop t ntimes (-1) i)
    (hp1 : branchTop t ntimes (-1) i ≤ ntimes - 2) :
    ∃ c2, count_node t ntimes none i c = some c2 ∧
      CountsAdd ntimes c c2 (branchAdd t ntimes (-1) i) (recombAdd t ntimes (-1) i) := by
  obtain ⟨c2, e1, e2⟩ := count_branch_adds t ntimes (-1) i c hok ha0 hap hp1
  refine ⟨c2, ?_, e2⟩
  rw [← e1]
  have hlt : (nodeAt t.nodes i).age < ntimes - 1 := by
    have : (t.node i).age ≤ ntimes - 2 := ha1
    simp only [LocalTree.node] at this
    omega
  have hpa : (if (nodeAt t.nodes i).parent = -1 then some (ntimes - 2)
      else (getNode t.nodes (nodeAt t.nodes i).parent).map fun p => p.age) =
      some (branchTop t ntimes (-1) i) := by
    unfold branchTop
    simp only [LocalTree.node]
    by_cases hp : (nodeAt t.nodes i).parent = -1
    · rw [if_pos hp, if_pos hp]
    · have hA : inArr t.nodes (nodeAt t.nodes i).parent := hpA hp
      rw [if_neg hp, if_neg hp, getNode_eq hA, Option.map_some']
  unfold count_node
  simp only [getNode_eq hiA, Option.some_bind, assertion, decide_eq_true hlt, if_true, hpa,
    LocalTree.node]

/-- One pass of the loop of `count_lineages_internal` without population
model, for a node that is not skipped. -/
theorem count_node_internal_adds (t : LocalTree) (ntimes s i : Int) (c : LineageCounts)
    (hok : CountsOk ntimes c) (hiA : inArr t.nodes i) (his : i ≠ s) (hir : i ≠ t.root)
    (ha0 : 0 ≤ (t.node i).age) (ha1 : (t.node i).age ≤ ntimes - 2)
    (hpA : (t.node i).parent ≠ t.root → inArr t.nodes (t.node i).parent)
    (hap : (t.node i).age ≤ branchTop t ntimes t.root i)
    (hp1 : branchTop t ntimes t.root i ≤ ntimes - 2) :
    ∃ c2, count_node_internal t ntimes none s i c = some c2 ∧
      CountsAdd ntimes c c2 (branchAdd t ntimes t.root i) (recombAdd t ntimes t.root i) := by
  obtain ⟨c2, e1, e2⟩ := count_branch_adds t ntimes t.root i c hok ha0 hap hp1
  refine ⟨c2, ?_, e2⟩
  rw [← e1]
  have hlt : (nodeAt t.nodes i).age < ntimes - 1 := by
    have : (t.node i).age ≤ ntimes - 2 := ha1
    simp only [LocalTree.node] at this
    omega
  have hpa : (if (nodeAt t.nodes i).parent = t.root then some (ntimes - 2)
      else (getNode t.nodes (nodeAt t.nodes i).parent).map fun p => p.age) =
      some (branchTop t ntimes t.root i) := by
    unfold branchTop
    simp only [LocalTree.node]
    by_cases hp : (nodeAt t.nodes i).parent = t.root
    · rw [if_pos hp, if_pos hp]
    · have hA : inArr t.nodes (nodeAt t.nodes i).parent := hpA hp
      rw [if_neg hp, if_neg hp, getNode_eq hA, Option.map_some']
  have hseg := count_segments_internal (nodeAt t.nodes i) ntimes c (nodeAt t.nodes i).age
    (branchTop t ntimes t.root i - (nodeAt t.nodes i).age).toNat (by
      have h1 : (t.node i).age ≤ branchTop t ntimes t.root i := hap
      simp only [LocalTree.node] at h1
      omega)
  unfold count_node_internal
  rw [if_neg (by omega)]
  simp only [getNode_eq hiA, Option.some_bind, assertion, decide_eq_true hlt, if_true, hpa,
    LocalTree.node]
  simp only [assertion, LocalTree.node] at hseg
  rw [hseg]

/-- The block "ensure last time segment always has one branch" of
`count_lineages` without population model: it sets the last entry of
`nbranches`, the last two entries of the row of `nbranches_pop` and the last
entry of the row of `ncoals_pop` to one. -/
theorem count_last_spec (ntimes : Int) (c : LineageCounts) (hok : CountsOk ntimes c)
    (hn : 1 ≤ ntimes) :
    ∃ c2, count_last ntimes none c = some c2 ∧
      c2.nbranches = updAt c.nbranches (ntimes - 1) 1 ∧ c2.nrecombs = c.nrecombs ∧
      readAt c2.nbranches_pop 0 =
        updAt (updAt (readAt c.nbranches_pop 0) (2 * ntimes - 1) 1) (2 * (ntimes - 1)) 1 ∧
      readAt c2.ncoals_pop 0 = updAt (readAt c.ncoals_pop 0) (ntimes - 1) 1 := by
  obtain ⟨k1, k2, k3, k4, k5, k6⟩ := hok
  have hb : inArr c.nbranches (ntimes - 1) := ⟨by omega, by omega⟩
  have hp0 : inArr c.nbranches_pop 0 := ⟨le_refl _, by omega⟩
  have hq0 : inArr c.ncoals_pop 0 := ⟨le_refl _, by omega⟩
  have hp1 : inArr (readAt c.nbranches_pop 0) (2 * ntimes - 1) := ⟨by omega, by omega⟩
  have hq1 : inArr (readAt c.ncoals_pop 0) (ntimes - 1) := ⟨by omega, by omega⟩
  have hp0b : inArr (updAt c.nbranches_pop 0 (updAt (readAt c.nbranches_pop 0)
      (2 * ntimes - 1) 1)) 0 := (inArr_updAt _ _ _ _).mpr hp0
  have hrow : readAt (updAt c.nbranches_pop 0 (updAt (readAt c.nbranches_pop 0)
      (2 * ntimes - 1) 1)) 0 = updAt (readAt c.nbranches_pop 0) (2 * ntimes - 1) 1 := by
    rw [readAt_updAt_of_inArr _ _ _ _ hp0, if_pos rfl]
  have hp2 : inArr (readAt (updAt c.nbranches_pop 0 (updAt (readAt c.nbranches_pop 0)
      (2 * ntimes - 1) 1)) 0) (2 * (ntimes - 1)) := by
    rw [hrow]
    exact (inArr_updAt _ _ _ _).mpr ⟨by omega, by omega⟩
  have h1 : (1 : Int).toNat = 1 := rfl
  have hr1 : List.range 1 = [0] := rfl
  refine ⟨LineageCounts.mk (updAt c.nbranches (ntimes - 1) 1) c.nrecombs
    (updAt (updAt c.nbranches_pop 0 (updAt (readAt c.nbranches_pop 0) (2 * ntimes - 1) 1)) 0
      (updAt (readAt (updAt c.nbranches_pop 0 (updAt (readAt c.nbranches_pop 0)
        (2 * ntimes - 1) 1)) 0) (2 * (ntimes - 1)) 1))
    (updAt c.ncoals_pop 0 (updAt (readAt c.ncoals_pop 0) (ntimes - 1) 1)), ?_, rfl, rfl, ?_, ?_⟩
  · simp only [count_last, setAt_eq _ hb, Option.some_bind, num_pops, h1, hr1, forLoop,
      final_pop, Nat.cast_zero, if_true, setAt2_eq _ _ _ _ hp0 hp1, setAt2_eq _ _ _ _ hp0b hp2,
      setAt2_eq _ _ _ _ hq0 hq1, Option.map_some']
  · show readAt (updAt _ 0 _) 0 = _
    rw [readAt_updAt_of_inArr _ _ _ _ hp0b, if_pos rfl, hrow]
  · show readAt (updAt _ 0 _) 0 = _
    rw [readAt_updAt_of_inArr _ _ _ _ hq0, if_pos rfl]

/-- The function `count_lineages` without population model, on a well-formed
tree with ordered ages in `[0, ntimes-2]`: it runs through; `nbranches[x]` is
the sum of the branch counts of the nodes for `x` other than `ntimes-1`, where
it is one; `nrecombs[x]` is the sum of the recombination counts. -/
theorem count_lineages_sum (t : LocalTree) (ntimes : Int) (hwf : WellFormed t)
    (hord : AgeOrdered t) (hages : AgesBelowTop t ntimes) :
    ∃ c, count_lineages t ntimes none = some c ∧
      (∀ x : Int, x ≠ ntimes - 1 → readAt c.nbranches x =
        ∑ i in Finset.range t.nnodes.toNat, branchAdd t ntimes (-1) (i : Int) x) ∧
      readAt c.nbranches (ntimes - 1) = 1 ∧
      (∀ x : Int, readAt c.nrecombs x =
        ∑ i in Finset.range t.nnodes.toNat, recombAdd t ntimes (-1) (i : Int) x) := by
  have hroot := hages t.root hwf.2.1.1 hwf.2.1.2
  have hn : 2 ≤ ntimes := by omega
  obtain ⟨i0, i1, i2, i3, i4⟩ := init_counts_ok ntimes (by omega)
  obtain ⟨c, e1, e2⟩ := count_loop_adds (count_node t ntimes none)
    (fun i x => branchAdd t ntimes (-1) i x) (fun i x => recombAdd t ntimes (-1) i x)
    ntimes t.nnodes.toNat (init_counts ntimes 1) i0 (by
      intro i hi c hc
      have hiN : t.isNode (i : Int) := ⟨by omega, by omega⟩
      have ha := hages i hiN.1 hiN.2
      have hpar : (t.node (i : Int)).parent ≠ -1 → t.isNode (t.node (i : Int)).parent := by
        intro hp
        rcases hwf.parent_cases hiN with ⟨h, -⟩ | ⟨-, -, h, -⟩
        · exact absurd h hp
        · exact h
      have htop : (t.node (i : Int)).age ≤ branchTop t ntimes (-1) i ∧
          branchTop t ntimes (-1) i ≤ ntimes - 2 := by
        unfold branchTop
        by_cases hp : (t.node (i : Int)).parent = -1
        · rw [if_pos hp]; exact ⟨ha.2, le_refl _⟩
        · rw [if_neg hp]
          have h1 := hord i hiN.1 hiN.2 hp
          have h2 := hages _ (hpar hp).1 (hpar hp).2
          exact ⟨h1, h2.2⟩
      exact count_node_adds t ntimes i c hc (hwf.inArr hiN) ha.1 ha.2
        (fun hp => hwf.inArr (hpar hp)) htop.1 htop.2)
  obtain ⟨c2, f1, f2, f3, -, -⟩ := count_last_spec ntimes c e2.ok (by omega)
  have hb : inArr c.nbranches (ntimes - 1) := ⟨by omega, by have := e2.ok.1; omega⟩
  refine ⟨c2, ?_, ?_, ?_, ?_⟩
  · unfold count_lineages
    simp only [num_pops, e1, Option.some_bind]
    exact f1
  · intro x hx
    rw [f2, readAt_updAt_of_inArr _ _ _ _ hb, if_neg hx, e2.2.1 x, i1 x]
    ring
  · rw [f2, readAt_updAt_of_inArr _ _ _ _ hb, if_pos rfl]
  · intro x
    rw [f3, e2.2.2.1 x, i2 x]
    ring

/-- The number of indices below `n` with a property, as a sum. -/
theorem filter_length_sum (p : Int → Prop) [DecidablePred p] (n : Nat) :
    (((List.range n).filter fun (i : Nat) => decide (p (i : Int))).length : Int) =
      ∑ i in Finset.range n, if p (i : Int) then 1 else 0 := by
  induction n with
  | zero => simp
  | succ k ih =>
    rw [List.range_succ, List.filter_append, List.length_append, Finset.sum_range_succ]
    push_cast
    rw [ih]
    by_cases hp : p (k : Int)
    · simp [hp]
    · simp [hp]

/-- The parent and child links of a well-formed tree, in the form of the
double counting lemma. -/
theorem WellFormed.links (t : LocalTree) (hwf : WellFormed t) :
    (∀ i : Int, 0 ≤ i → i < t.nnodes → (t.node i).parent = -1 ∨
      (0 ≤ (t.node i).parent ∧ (t.node i).parent < t.nnodes ∧
        ((t.node (t.node i).parent).child0 = i ∨ (t.node (t.node i).parent).child1 = i))) ∧
    (∀ i : Int, 0 ≤ i → i < t.nnodes →
      ((t.node i).child0 = -1 ∧ (t.node i).child1 = -1) ∨
      (0 ≤ (t.node i).child0 ∧ (t.node i).child0 < t.nnodes ∧ 0 ≤ (t.node i).child1 ∧
        (t.node i).child1 < t.nnodes ∧ (t.node i).child0 ≠ (t.node i).child1 ∧
        (t.node (t.node i).child0).parent = i ∧ (t.node (t.node i).child1).parent = i)) := by
  constructor
  · intro i h0 h1
    rcases hwf.parent_cases ⟨h0, h1⟩ with ⟨h, -⟩ | ⟨-, -, h, h2⟩
    · exact Or.inl h
    · exact Or.inr ⟨h.1, h.2, h2⟩
  · intro i h0 h1
    rcases hwf.children ⟨h0, h1⟩ with h | ⟨a, b, c, d, e⟩
    · exact Or.inl h
    · exact Or.inr ⟨a.1, a.2, b.1, b.2, c, d, e⟩

/-- Summing a function of the parent over the nodes of a well-formed tree that
have a parent is summing it twice over the internal nodes. -/
theorem sum_parents_tree (t : LocalTree) (hwf : WellFormed t) (g : Int → Int) :
    ∑ i in Finset.range t.nnodes.toNat,
        (if (t.node (i : Int)).parent ≠ -1 then g (t.node (i : Int)).parent else 0) =
      ∑ v in Finset.range t.nnodes.toNat,
        (if (t.node (v : Int)).child0 ≠ -1 then 2 * g v else 0) := by
  have hn : ((t.nnodes.toNat : Nat) : Int) = t.nnodes := by
    have := hwf.2.1.1
    have := hwf.2.1.2
    omega
  obtain ⟨par, ch⟩ := WellFormed.links t hwf
  have h := sum_over_parents t.nnodes (fun i => (t.node i).parent) (fun i => (t.node i).child0)
    (fun i => (t.node i).child1) g par ch
  rw [sum_range_eq_Ico _ (fun i => if (t.node i).parent ≠ -1 then g (t.node i).parent else 0),
    sum_range_eq_Ico _ (fun v => if (t.node v).child0 ≠ -1 then 2 * g v else 0), hn,
    ← Finset.sum_filter, ← Finset.sum_filter]
  exact h

/-- The branch count of a node at a time `j <= ntimes-2`, for `count_lineages`:
one if the node is at most `j` old, minus one if it has a parent that is at
most `j` old. -/
theorem branchAdd_eq (t : LocalTree) (ntimes i j : Int) (hj : j ≤ ntimes - 2)
    (ha : (t.node i).age ≤ ntimes - 2)
    (hord : (t.node i).parent ≠ -1 → (t.node i).age ≤ (t.node (t.node i).parent).age) :
    branchAdd t ntimes (-1) i j =
      (if (t.node i).age ≤ j then 1 else 0) -
        (if (t.node i).parent ≠ -1 then
          (if (t.node (t.node i).parent).age ≤ j then 1 else 0) else 0) := by
  unfold branchAdd branchTop
  by_cases hp : (t.node i).parent = -1
  · simp only [hp, if_true, ne_eq, not_true_eq_false, if_false, true_and, sub_zero]
    split_ifs <;> omega
  · have := hord hp
    simp only [hp, if_false, ne_eq, not_false_eq_true, if_true, false_and, add_zero]
    split_ifs <;> omega

/-- The sum of the branch counts of the nodes: the leaves that are at most `j`
old minus the internal nodes that are at most `j` old. -/
theorem branch_sum_eq (t : LocalTree) (ntimes j : Int) (hwf : WellFormed t)
    (hord : AgeOrdered t) (hages : AgesBelowTop t ntimes) (hj : j ≤ ntimes - 2) :
    ∑ i in Finset.range t.nnodes.toNat, branchAdd t ntimes (-1) (i : Int) j =
      leavesUpTo t j - internalUpTo t j := by
  have h1 : ∑ i in Finset.range t.nnodes.toNat, branchAdd t ntimes (-1) (i : Int) j =
      ∑ i in Finset.range t.nnodes.toNat, ((if (t.node (i : Int)).age ≤ j then 1 else 0) -
        (if (t.node (i : Int)).parent ≠ -1 then
          (if (t.node (t.node (i : Int)).parent).age ≤ j then (1 : Int) else 0)
          else 0)) := by
    apply Finset.sum_congr rfl
    intro i hi
    rw [Finset.mem_range] at hi
    exact branchAdd_eq t ntimes i j hj (hages i (by omega) (by omega)).2
      (hord i (by omega) (by omega))
  have h2 := sum_parents_tree t hwf (fun v => if (t.node v).age ≤ j then (1 : Int) else 0)
  beta_reduce at h2
  rw [h1, Finset.sum_sub_distrib, h2]
  unfold leavesUpTo internalUpTo
  rw [filter_length_sum (fun i => (t.node i).child0 = -1 ∧ (t.node i).age ≤ j),
    filter_length_sum (fun i => (t.node i).child0 ≠ -1 ∧ (t.node i).age ≤ j),
    ← Finset.sum_sub_distrib, ← Finset.sum_sub_distrib]
  apply Finset.sum_congr rfl
  intro i _
  by_cases hl : (t.node (i : Int)).child0 = -1 <;> by_cases ha : (t.node (i : Int)).age ≤ j <;>
    simp [hl, ha]

/-- The block "ensure last time segment always has one branch" of
`count_lineages_internal` without population model. -/
theorem count_last_internal_spec (ntimes : Int) (c : LineageCounts) (hok : CountsOk ntimes c)
    (hn : 1 ≤ ntimes) :
    ∃ c2, count_last_internal ntimes none c = some c2 ∧
      c2.nbranches = updAt c.nbranches (ntimes - 1) 1 ∧ c2.nrecombs = c.nrecombs ∧
      readAt c2.nbranches_pop 0 =
        updAt (updAt (readAt c.nbranches_pop 0) (2 * ntimes - 2) 1) (2 * ntimes - 1) 1 ∧
      readAt c2.ncoals_pop 0 = updAt (readAt c.ncoals_pop 0) (ntimes - 1) 1 := by
  obtain ⟨k1, k2, k3, k4, k5, k6⟩ := hok
  have hb : inArr c.nbranches (ntimes - 1) := ⟨by omega, by omega⟩
  have hp0 : inArr c.nbranches_pop 0 := ⟨le_refl _, by omega⟩
  have hq0 : inArr c.ncoals_pop 0 := ⟨le_refl _, by omega⟩
  have hp1 : inArr (readAt c.nbranches_pop 0) (2 * ntimes - 2) := ⟨by omega, by omega⟩
  have hq1 : inArr (readAt c.ncoals_pop 0) (ntimes - 1) := ⟨by omega, by omega⟩
  have hp0b : inArr (updAt c.nbranches_pop 0 (updAt (readAt c.nbranches_pop 0)
      (2 * ntimes - 2) 1)) 0 := (inArr_updAt _ _ _ _).mpr hp0
  have hrow : readAt (updAt c.nbranches_pop 0 (updAt (readAt c.nbranches_pop 0)
      (2 * ntimes - 2) 1)) 0 = updAt (readAt c.nbranches_pop 0) (2 * ntimes - 2) 1 := by
    rw [readAt_updAt_of_inArr _ _ _ _ hp0, if_pos rfl]
  have hp2 : inArr (readAt (updAt c.nbranches_pop 0 (updAt (readAt c.nbranches_pop 0)
      (2 * ntimes - 2) 1)) 0) (2 * ntimes - 1) := by
    rw [hrow]
    exact (inArr_updAt _ _ _ _).mpr ⟨by omega, by omega⟩
  have h1 : (1 : Int).toNat = 1 := rfl
  have hr1 : List.range 1 = [0] := rfl
  refine ⟨LineageCounts.mk (updAt c.nbranches (ntimes - 1) 1) c.nrecombs
    (updAt (updAt c.nbranches_pop 0 (updAt (readAt c.nbranches_pop 0) (2 * ntimes - 2) 1)) 0
      (updAt (readAt (updAt c.nbranches_pop 0 (updAt (readAt c.nbranches_pop 0)
        (2 * ntimes - 2) 1)) 0) (2 * ntimes - 1) 1))
    (updAt c.ncoals_pop 0 (updAt (readAt c.ncoals_pop 0) (ntimes - 1) 1)), ?_, rfl, rfl, ?_, ?_⟩
  · simp only [count_last_internal, setAt_eq _ hb, Option.some_bind, num_pops, h1, hr1,
      forLoop, final_pop, Nat.cast_zero, if_true, setAt2_eq _ _ _ _ hp0 hp1,
      setAt2_eq _ _ _ _ hp0b hp2, setAt2_eq _ _ _ _ hq0 hq1, Option.map_some']
  · show readAt (updAt _ 0 _) 0 = _
    rw [readAt_updAt_of_inArr _ _ _ _ hp0b, if_pos rfl, hrow]
  · show readAt (updAt _ 0 _) 0 = _
    rw [readAt_updAt_of_inArr _ _ _ _ hq0, if_pos rfl]

/-- The function `count_lineages_internal` without population model, on a
well-formed tree whose root has children and whose other nodes have ordered
ages in `[0, ntimes-2]`: it runs through; the subtree root `root.child[0]` and
the root add nothing, every other node adds its branch and recombination
counts; the last entries are set to one; the rows by population repeat the
other two arrays. -/
theorem count_lineages_internal_sum (t : LocalTree) (ntimes : Int) (hwf : WellFormed t)
    (hroot : (t.node t.root).child0 ≠ -1) (hord : AgeOrdered t)
    (hages : ∀ i : Int, 0 ≤ i → i < t.nnodes → i ≠ t.root →
      0 ≤ (t.node i).age ∧ (t.node i).age ≤ ntimes - 2) :
    ∃ c, count_lineages_internal t ntimes none = some c ∧
      (∀ x : Int, x ≠ ntimes - 1 → readAt c.nbranches x =
        ∑ i in Finset.range t.nnodes.toNat,
          if (i : Int) = (t.node t.root).child0 ∨ (i : Int) = t.root then 0
          else branchAdd t ntimes t.root (i : Int) x) ∧
      readAt c.nbranches (ntimes - 1) = 1 ∧
      (∀ x : Int, readAt c.nrecombs x =
        ∑ i in Finset.range t.nnodes.toNat,
          if (i : Int) = (t.node t.root).child0 ∨ (i : Int) = t.root then 0
          else recombAdd t ntimes t.root (i : Int) x) ∧
      (∀ y : Int, 0 ≤ y → y < 2 * ntimes →
        readAt (readAt c.nbranches_pop 0) y = readAt c.nbranches (y / 2)) ∧
      (∀ x : Int, x ≠ ntimes - 1 → readAt (readAt c.ncoals_pop 0) x = readAt c.nrecombs x) ∧
      readAt (readAt c.ncoals_pop 0) (ntimes - 1) = 1 := by
  have hrN := hwf.2.1
  have hs : t.isNode (t.node t.root).child0 := by
    rcases hwf.children hrN with h | h
    · exact absurd h.1 hroot
    · exact h.1
  have hsr : (t.node t.root).child0 ≠ t.root := by
    intro e
    rcases hwf.children hrN with h | ⟨-, -, -, h, -⟩
    · exact hroot h.1
    · rw [e] at h
      have h3 : (t.node t.root).parent = -1 := hwf.2.2.1
      have := hrN.1
      omega
  have hn : 2 ≤ ntimes := by
    have := hages _ hs.1 hs.2 hsr
    omega
  obtain ⟨i0, i1, i2, i3, i4⟩ := init_counts_ok ntimes (by omega)
  obtain ⟨c, e1, e2⟩ := count_loop_adds
    (count_node_internal t ntimes none (t.node t.root).child0)
    (fun i x => if i = (t.node t.root).child0 ∨ i = t.root then 0
      else branchAdd t ntimes t.root i x)
    (fun i x => if i = (t.node t.root).child0 ∨ i = t.root then 0
      else recombAdd t ntimes t.root i x)
    ntimes t.nnodes.toNat (init_counts ntimes 1) i0 (by
      intro i hi c hc
      by_cases hskip : (i : Int) = (t.node t.root).child0 ∨ (i : Int) = t.root
      · refine ⟨c, ?_, countsAdd_zero ntimes c hc _ _ (fun x => ?_) (fun x => ?_)⟩
        · unfold count_node_internal
          rw [if_pos hskip]
        · simp only [hskip, if_true]
        · simp only [hskip, if_true]
      · have his : (i : Int) ≠ (t.node t.root).child0 := fun e => hskip (Or.inl e)
        have hir : (i : Int) ≠ t.root := fun e => hskip (Or.inr e)
        have hiN : t.isNode (i : Int) := ⟨by omega, by omega⟩
        have ha := hages i hiN.1 hiN.2 hir
        have hpar : t.isNode (t.node (i : Int)).parent ∧ (t.node (i : Int)).parent ≠ -1 := by
          rcases hwf.parent_cases hiN with ⟨-, h⟩ | ⟨h1, -, h, -⟩
          · exact absurd h hir
          · exact ⟨h, h1⟩
        have htop : (t.node (i : Int)).age ≤ branchTop t ntimes t.root i ∧
            branchTop t ntimes t.root i ≤ ntimes - 2 := by
          unfold branchTop
          by_cases hp : (t.node (i : Int)).parent = t.root
          · rw [if_pos hp]; exact ⟨ha.2, le_refl _⟩
          · rw [if_neg hp]
            have h1 := hord i hiN.1 hiN.2 hpar.2
            have h2 := hages _ hpar.1.1 hpar.1.2 hp
            exact ⟨h1, h2.2⟩
        obtain ⟨c2, f1, f2⟩ := count_node_internal_adds t ntimes (t.node t.root).child0 i c hc
          (hwf.inArr hiN) his hir ha.1 ha.2 (fun _ => hwf.inArr hpar.1) htop.1 htop.2
        refine ⟨c2, f1, ?_⟩
        simp only [hskip, if_false]
        exact f2)
  obtain ⟨c2, f1, f2, f3, f4, f5⟩ := count_last_internal_spec ntimes c e2.ok (by omega)
  obtain ⟨k1, k2, k3, k4, k5, k6⟩ := e2.ok
  have hb : inArr c.nbranches (ntimes - 1) := ⟨by omega, by omega⟩
  have hnb : ∀ x : Int, readAt c2.nbranches x =
      if x = ntimes - 1 then 1 else readAt c.nbranches x := by
    intro x
    rw [f2, readAt_updAt_of_inArr _ _ _ _ hb]
  have hrA : inArr t.nodes t.root := hwf.inArr hrN
  refine ⟨c2, ?_, ?_, ?_, ?_, ?_, ?_, ?_⟩
  · unfold count_lineages_internal
    rw [getNode_eq hrA]
    simp only [num_pops, Option.some_bind]
    have e1' := e1
    simp only [LocalTree.node] at e1'
    rw [e1']
    exact f1
  · intro x hx
    rw [hnb, if_neg hx, e2.2.1 x, i1 x]
    ring
  · rw [hnb, if_pos rfl]
  · intro x
    rw [f3, e2.2.2.1 x, i2 x]
    ring
  · intro y hy0 hy1
    rw [f4, hnb,
      readAt_updAt_of_inArr _ _ _ _ ((inArr_updAt _ _ _ _).mpr ⟨by omega, by omega⟩),
      readAt_updAt_of_inArr _ _ _ _ ⟨by omega, by omega⟩]
    by_cases h1 : y = 2 * ntimes - 1
    · rw [if_pos h1, if_pos (by omega)]
    · rw [if_neg h1]
      by_cases h2 : y = 2 * ntimes - 2
      · rw [if_pos h2, if_pos (by omega)]
      · rw [if_neg h2, if_neg (by omega), e2.2.2.2.1 y, e2.2.1 (y / 2), i3 y, i1 (y / 2)]
  · intro x hx
    rw [f5, readAt_updAt_of_inArr _ _ _ _ ⟨by omega, by omega⟩, if_neg hx, f3,
      e2.2.2.2.2 x, e2.2.2.1 x, i4 x, i2 x]
  · rw [f5, readAt_updAt_of_inArr _ _ _ _ ⟨by omega, by omega⟩, if_pos rfl]

/-- A sum over the indices of a loop with one non-zero term. -/
theorem sum_range_single (n : Nat) (s c : Int) (h0 : 0 ≤ s) (h1 : s < n) :
    ∑ i in Finset.range n, (if (i : Int) = s then c else 0) = c := by
  rw [Finset.sum_eq_single s.toNat]
  · rw [if_pos (by omega)]
  · intro b _ hb
    rw [if_neg (by omega)]
  · intro h
    exfalso
    apply h
    rw [Finset.mem_range]
    omega

/-- The branch count of a node at a time `j <= ntimes-2`, for
`count_lineages_internal`. -/
theorem branchAdd_internal_eq (t : LocalTree) (ntimes i j : Int) (hj : j ≤ ntimes - 2)
    (ha : (t.node i).age ≤ ntimes - 2) (hp : (t.node i).parent ≠ -1)
    (hord : (t.node i).age ≤ (t.node (t.node i).parent).age) :
    branchAdd t ntimes t.root i j =
      (if (t.node i).age ≤ j then 1 else 0) -
        (if (t.node i).parent = t.root then 0
          else if (t.node (t.node i).parent).age ≤ j then 1 else 0) := by
  unfold branchAdd branchTop
  by_cases hpr : (t.node i).parent = t.root
  · simp only [hpr, if_true, true_and, sub_zero]
    split_ifs <;> omega
  · simp only [hpr, if_false, false_and, add_zero]
    split_ifs <;> omega

/-- The sum of the branch counts of `count_lineages_internal`: the leaves that
are at most `j` old, minus the internal nodes other than the root that are at
most `j` old, minus one if the subtree root is at most `j` old. -/
theorem branch_sum_internal_eq (t : LocalTree) (ntimes j : Int) (hwf : WellFormed t)
    (hroot : (t.node t.root).child0 ≠ -1) (hord : AgeOrdered t)
    (hages : ∀ i : Int, 0 ≤ i → i < t.nnodes → i ≠ t.root →
      0 ≤ (t.node i).age ∧ (t.node i).age ≤ ntimes - 2)
    (hj : j ≤ ntimes - 2) :
    (∑ i in Finset.range t.nnodes.toNat,
        if (i : Int) = (t.node t.root).child0 ∨ (i : Int) = t.root then 0
        else branchAdd t ntimes t.root (i : Int) j) =
      leavesUpTo t j - internalUpTo t j + (if (t.node t.root).age ≤ j then 1 else 0) -
        (if (t.node (t.node t.root).child0).age ≤ j then 1 else 0) := by
  have hrN := hwf.2.1
  have hrp : (t.node t.root).parent = -1 := hwf.2.2.1
  obtain ⟨hs, hsp⟩ : t.isNode (t.node t.root).child0 ∧
      (t.node (t.node t.root).child0).parent = t.root := by
    rcases hwf.children hrN with h | h
    · exact absurd h.1 hroot
    · exact ⟨h.1, h.2.2.2.1⟩
  have hsr : (t.node t.root).child0 ≠ t.root := by
    intro e
    rw [e, hrp] at hsp
    have := hrN.1
    omega
  have hn : ((t.nnodes.toNat : Nat) : Int) = t.nnodes := by
    have := hrN.1
    have := hrN.2
    omega
  have h1 : (∑ i in Finset.range t.nnodes.toNat,
        if (i : Int) = (t.node t.root).child0 ∨ (i : Int) = t.root then 0
        else branchAdd t ntimes t.root (i : Int) j) =
      ∑ i in Finset.range t.nnodes.toNat,
        ((if (t.node (i : Int)).age ≤ j then 1 else 0) -
          (if (i : Int) = (t.node t.root).child0 then
            (if (t.node (t.node t.root).child0).age ≤ j then 1 else 0) else 0) -
          (if (i : Int) = t.root then (if (t.node t.root).age ≤ j then 1 else 0) else 0) -
          (if (t.node (i : Int)).parent ≠ -1 then
            (if (t.node (i : Int)).parent = t.root then 0
              else if (t.node (t.node (i : Int)).parent).age ≤ j then (1 : Int) else 0)
            else 0)) := by
    apply Finset.sum_congr rfl
    intro i hi
    rw [Finset.mem_range] at hi
    have hiN : t.isNode (i : Int) := ⟨by omega, by omega⟩
    by_cases his : (i : Int) = (t.node t.root).child0
    · rw [his]
      simp [hsr, hsp]
    · by_cases hir : (i : Int) = t.root
      · rw [hir]
        simp [hrp, Ne.symm hsr]
      · have hpar : t.isNode (t.node (i : Int)).parent ∧ (t.node (i : Int)).parent ≠ -1 := by
          rcases hwf.parent_cases hiN with ⟨-, h⟩ | ⟨h1, -, h, -⟩
          · exact absurd h hir
          · exact ⟨h, h1⟩
        have hb := branchAdd_internal_eq t ntimes i j hj (hages i hiN.1 hiN.2 hir).2 hpar.2
          (hord i hiN.1 hiN.2 hpar.2)
        simp only [his, hir, or_self, if_false, hpar.2, ne_eq, not_false_eq_true, if_true, hb,
          sub_zero]
  have h2 := sum_parents_tree t hwf
    (fun v => if v = t.root then 0 else if (t.node v).age ≤ j then (1 : Int) else 0)
  beta_reduce at h2
  rw [h1, Finset.sum_sub_distrib, Finset.sum_sub_distrib, Finset.sum_sub_distrib, h2,
    sum_range_single _ _ _ hs.1 (by have := hs.2; omega),
    sum_range_single _ _ _ hrN.1 (by have := hrN.2; omega)]
  have h3 : (∑ v in Finset.range t.nnodes.toNat,
      if (t.node (v : Int)).child0 ≠ -1 then
        2 * (if (v : Int) = t.root then 0 else if (t.node (v : Int)).age ≤ j then (1 : Int) else 0)
      else 0) =
      ∑ v in Finset.range t.nnodes.toNat,
        (2 * (if (t.node (v : Int)).child0 ≠ -1 ∧ (t.node (v : Int)).age ≤ j then 1 else 0) -
          (if (v : Int) = t.root then 2 * (if (t.node t.root).age ≤ j then 1 else 0) else 0)) := by
    apply Finset.sum_congr rfl
    intro v _
    by_cases hv : (v : Int) = t.root
    · rw [hv, if_pos hroot, if_pos rfl, if_pos rfl]
      by_cases ha : (t.node t.root).age ≤ j
      · simp [ha, hroot]
      · simp [ha]
    · rw [if_neg hv, if_neg hv]
      by_cases hl : (t.node (v : Int)).child0 = -1 <;>
        by_cases ha : (t.node (v : Int)).age ≤ j <;> simp [hl, ha]
  rw [h3, Finset.sum_sub_distrib, sum_range_single _ _ _ hrN.1 (by have := hrN.2; omega),
    ← Finset.mul_sum]
  unfold leavesUpTo internalUpTo
  rw [filter_length_sum (fun i => (t.node i).child0 = -1 ∧ (t.node i).age ≤ j),
    filter_length_sum (fun i => (t.node i).child0 ≠ -1 ∧ (t.node i).age ≤ j)]
  have h4 : (∑ i in Finset.range t.nnodes.toNat, if (t.node (i : Int)).age ≤ j then (1 : Int) else 0) =
      (∑ i in Finset.range t.nnodes.toNat,
        if (t.node (i : Int)).child0 = -1 ∧ (t.node (i : Int)).age ≤ j then (1 : Int) else 0) +
      ∑ i in Finset.range t.nnodes.toNat,
        if (t.node (i : Int)).child0 ≠ -1 ∧ (t.node (i : Int)).age ≤ j then (1 : Int) else 0 := by
    rw [← Finset.sum_add_distrib]
    apply Finset.sum_congr rfl
    intro i _
    by_cases hl : (t.node (i : Int)).child0 = -1 <;>
      by_cases ha : (t.node (i : Int)).age ≤ j <;> simp [hl, ha]
  rw [h4]
  ring

theorem sortedIn_le {α : Type} (l : List (RegionValue α)) :
    ∀ a b : Int, SortedIn a b l → a ≤ endOf a l ∧ endOf a l ≤ b := by
  induction l with
  | nil => intro a b h; exact ⟨le_refl _, h⟩
  | cons r rest ih =>
    intro a b h
    obtain ⟨h1, h2, h3⟩ := h
    have := ih r.end_ b h3
    simp only [endOf]
    omega

theorem sortedIn_mem {α : Type} (l : List (RegionValue α)) :
    ∀ a b : Int, SortedIn a b l → ∀ r ∈ l, a ≤ r.start ∧ r.start < r.end_ ∧
      r.end_ ≤ endOf a l := by
  induction l with
  | nil => intro a b _ r hr; cases hr
  | cons r0 rest ih =>
    intro a b h r hr
    obtain ⟨h1, h2, h3⟩ := h
    have hle := sortedIn_le rest r0.end_ b h3
    simp only [endOf]
    rcases List.mem_cons.mp hr with hr | hr
    · subst hr
      exact ⟨h1, h2, hle.1⟩
    · have := ih r0.end_ b h3 r hr
      exact ⟨by omega, this.2.1, this.2.2⟩

theorem sortedIn_weaken {α : Type} (l : List (RegionValue α)) (a a2 b : Int) (h : a2 ≤ a)
    (hs : SortedIn a b l) : SortedIn a2 b l := by
  cases l with
  | nil =>
    have : a ≤ b := hs
    show a2 ≤ b
    omega
  | cons r rest =>
    obtain ⟨h1, h2, h3⟩ := hs
    exact ⟨by omega, h2, h3⟩

/-- A region appended behind the last region of a sorted track. -/
theorem sortedIn_append {α : Type} (l : List (RegionValue α)) (g : RegionValue α) (b : Int) :
    ∀ a : Int, SortedIn a b l → g.start = endOf a l → g.start < g.end_ → g.end_ ≤ b →
      SortedIn a b (l ++ [g]) ∧ endOf a (l ++ [g]) = g.end_ := by
  induction l with
  | nil =>
    intro a h hg1 hg2 hg3
    simp only [endOf] at hg1
    exact ⟨⟨by omega, hg2, hg3⟩, rfl⟩
  | cons r rest ih =>
    intro a h hg1 hg2 hg3
    obtain ⟨h1, h2, h3⟩ := h
    have := ih r.end_ h3 hg1 hg2 hg3
    exact ⟨⟨h1, h2, this.1⟩, this.2⟩

theorem getLast_end {α : Type} (l : List (RegionValue α)) :
    ∀ (a : Int) (h : l ≠ []), (l.getLast h).end_ = endOf a l := by
  induction l with
  | nil => intro a h; exact absurd rfl h
  | cons r rest ih =>
    intro a h
    cases rest with
    | nil => rfl
    | cons r2 rest2 =>
      rw [List.getLast_cons (List.cons_ne_nil _ _)]
      exact ih r.end_ (List.cons_ne_nil _ _)

theorem tiling_le {α : Type} (l : List (RegionValue α)) :
    ∀ a b : Int, Tiling a b l → a ≤ b := by
  induction l with
  | nil => intro a b h; exact le_of_eq h
  | cons r rest ih =>
    intro a b h
    obtain ⟨h1, h2, h3⟩ := h
    have := ih r.end_ b h3
    omega

/-- The loop of `complete_map` on sorted regions: it runs to the end of the
track and leaves contiguous regions, each a region of the track or a gap. -/
theorem complete_loop_spec {α : Type} (chrom : String) (d : α) (l : List (RegionValue α)) :
    ∀ a b : Int, SortedIn a b l →
      (complete_loop chrom d a l).2 = true ∧
      Tiling a (endOf a l) (complete_loop chrom d a l).1 ∧
      ∀ r ∈ (complete_loop chrom d a l).1, a ≤ r.start ∧ FromTrack l d r := by
  induction l with
  | nil =>
    intro a b _
    exact ⟨rfl, rfl, fun r hr => by cases hr⟩
  | cons r0 rest ih =>
    intro a b h
    obtain ⟨h1, h2, h3⟩ := h
    obtain ⟨i1, i2, i3⟩ := ih r0.end_ b h3
    have hrest := sortedIn_mem rest r0.end_ b h3
    have hmem : ∀ r ∈ (complete_loop chrom d r0.end_ rest).1,
        a ≤ r.start ∧ FromTrack (r0 :: rest) d r := by
      intro r hr
      obtain ⟨j1, j2⟩ := i3 r hr
      refine ⟨by omega, ?_⟩
      rcases j2 with j2 | ⟨j2, j3⟩
      · exact Or.inl (List.mem_cons_of_mem _ j2)
      · refine Or.inr ⟨j2, fun r2 hr2 => ?_⟩
        rcases List.mem_cons.mp hr2 with hr2 | hr2
        · subst hr2; exact Or.inl j1
        · exact j3 r2 hr2
    by_cases hgt : r0.start > a
    · simp only [complete_loop, hgt, if_true, endOf]
      refine ⟨i1, ⟨rfl, hgt, rfl, h2, i2⟩, ?_⟩
      intro r hr
      rcases List.mem_cons.mp hr with hr | hr
      · subst hr
        refine ⟨le_refl _, Or.inr ⟨rfl, fun r2 hr2 => ?_⟩⟩
        rcases List.mem_cons.mp hr2 with hr2 | hr2
        · subst hr2; exact Or.inr (le_refl _)
        · have := (hrest r2 hr2).1
          right
          show r0.start ≤ r2.start
          omega
      · rcases List.mem_cons.mp hr with hr | hr
        · subst hr
          exact ⟨h1, Or.inl (List.mem_cons_self _ _)⟩
        · exact hmem r hr
    · have heq : r0.start = a := by omega
      have hnlt : ¬ r0.start < a := by omega
      simp only [complete_loop, hgt, if_false, hnlt, endOf]
      refine ⟨i1, ⟨heq, h2, i2⟩, ?_⟩
      intro r hr
      rcases List.mem_cons.mp hr with hr | hr
      · subst hr
        exact ⟨h1, Or.inl (List.mem_cons_self _ _)⟩
      · exact hmem r hr

/-- The rate of a sorted map inside one of its regions is the value of the
region. -/
theorem rateAt_mem {α : Type} (d : α) (x : Int) (l : List (RegionValue α)) :
    ∀ a b : Int, SortedIn a b l → ∀ r ∈ l, r.start ≤ x → x < r.end_ →
      rateAt l d x = r.value := by
  induction l with
  | nil => intro a b _ r hr; cases hr
  | cons r0 rest ih =>
    intro a b h r hr hx0 hx1
    obtain ⟨h1, h2, h3⟩ := h
    by_cases hin : r0.start ≤ x ∧ x < r0.end_
    · have hval : rateAt (r0 :: rest) d x = r0.value := by
        simp only [rateAt, List.find?_cons, decide_eq_true hin]
      rw [hval]
      rcases List.mem_cons.mp hr with hr | hr
      · rw [hr]
      · have := (sortedIn_mem rest r0.end_ b h3 r hr).1
        omega
    · have hval : rateAt (r0 :: rest) d x = rateAt rest d x := by
        simp only [rateAt, List.find?_cons, decide_eq_false hin]
      rw [hval]
      rcases List.mem_cons.mp hr with hr | hr
      · subst hr; exact absurd ⟨hx0, hx1⟩ hin
      · exact ih r0.end_ b h3 r hr hx0 hx1

/-- The rate of a map at a position outside its regions is the default. -/
theorem rateAt_gap {α : Type} (d : α) (x : Int) (l : List (RegionValue α))
    (h : ∀ r ∈ l, r.end_ ≤ x ∨ x < r.start) : rateAt l d x = d := by
  induction l with
  | nil => rfl
  | cons r0 rest ih =>
    have hin : ¬ (r0.start ≤ x ∧ x < r0.end_) := by
      have := h r0 (List.mem_cons_self _ _)
      omega
    have hval : rateAt (r0 :: rest) d x = rateAt rest d x := by
      simp only [rateAt, List.find?_cons, decide_eq_false hin]
    rw [hval]
    exact ih (fun r hr => h r (List.mem_cons_of_mem _ hr))

/-- A region of the track or a gap carries the rate of the track at each of
its positions. -/
theorem fromTrack_value {α : Type} (track : List (RegionValue α)) (d : α) (a b : Int)
    (hs : SortedIn a b track) (r : RegionValue α) (hr : FromTrack track d r) (x : Int)
    (hx0 : r.start ≤ x) (hx1 : x < r.end_) : r.value = rateAt track d x := by
  rcases hr with hr | ⟨h1, h2⟩
  · exact (rateAt_mem d x track a b hs r hr hx0 hx1).symm
  · rw [h1]
    symm
    apply rateAt_gap
    intro r2 hr2
    have := h2 r2 hr2
    omega

/-- The function `complete_map` on a track of non-empty, sorted,
non-overlapping regions inside `[start, end]`: it returns `true` and leaves
contiguous regions from `start` to `end`, each a region of the track or a gap
with the default value. -/
theorem complete_map_spec {α : Type} (track : List (RegionValue α)) (chrom : String)
    (start end_ : Int) (d : α) (hs : SortedIn start end_ track) (hlt : start < end_) :
    (complete_map track chrom start end_ d).2 = true ∧
      Tiling start end_ (complete_map track chrom start end_ d).1 ∧
      ∀ r ∈ (complete_map track chrom start end_ d).1, FromTrack track d r := by
  cases track with
  | nil =>
    refine ⟨rfl, ⟨rfl, hlt, rfl⟩, ?_⟩
    intro r hr
    rw [show (complete_map ([] : List (RegionValue α)) chrom start end_ d).1 =
      [⟨chrom, start, end_, d⟩] from rfl, List.mem_singleton] at hr
    subst hr
    exact Or.inr ⟨rfl, fun r2 hr2 => by cases hr2⟩
  | cons first rest =>
    have hback := getLast_end (first :: rest) start (List.cons_ne_nil first rest)
    have hle := sortedIn_le (first :: rest) start end_ hs
    have hmem := sortedIn_mem (first :: rest) start end_ hs
    generalize hbk : (first :: rest).getLast (List.cons_ne_nil first rest) = back at hback
    -- the track with the last gap
    obtain ⟨l2, hl2, hs2, he2, hm2, hsub⟩ : ∃ l2 : List (RegionValue α),
        (if back.end_ < end_ then (first :: rest) ++ [⟨chrom, back.end_, end_, d⟩]
          else first :: rest) = first :: l2 ∧
        SortedIn start end_ (first :: l2) ∧ endOf start (first :: l2) = end_ ∧
        (∀ r ∈ first :: l2, FromTrack (first :: rest) d r) ∧
        ∀ r ∈ first :: rest, r ∈ first :: l2 := by
      by_cases hb : back.end_ < end_
      · rw [if_pos hb]
        have := sortedIn_append (first :: rest) ⟨chrom, back.end_, end_, d⟩
          end_ start hs hback hb (le_refl _)
        refine ⟨rest ++ [RegionValue.mk chrom back.end_ end_ d], rfl, this.1, this.2, ?_, ?_⟩
        · intro r hr
          rw [← List.cons_append, List.mem_append, List.mem_singleton] at hr
          rcases hr with hr | hr
          · exact Or.inl hr
          · subst hr
            refine Or.inr ⟨rfl, fun r2 hr2 => Or.inl ?_⟩
            have := (hmem r2 hr2).2.2
            show r2.end_ ≤ back.end_
            omega
        · intro r hr
          rw [← List.cons_append]
          exact List.mem_append_left _ hr
      · rw [if_neg hb]
        exact ⟨rest, rfl, hs, by omega, fun r hr => Or.inl hr, fun r hr => hr⟩
    obtain ⟨s1, s2, s3⟩ := hs2
    by_cases hgt : first.start > start
    · have hres : complete_map (first :: rest) chrom start end_ d =
          (⟨chrom, start, first.start, d⟩ ::
            (complete_loop chrom d first.start (first :: l2)).1,
            (complete_loop chrom d first.start (first :: l2)).2) := by
        have hl3 : (if back.end_ < end_ then
          (⟨chrom, start, first.start, d⟩ :: first :: rest) ++ [⟨chrom, back.end_, end_, d⟩]
          else ⟨chrom, start, first.start, d⟩ :: first :: rest) =
            ⟨chrom, start, first.start, d⟩ :: first :: l2 := by
          rw [← hl2]
          split <;> rfl
        simp only [complete_map, hgt, if_true, hbk, hl3]
      obtain ⟨i1, i2, i3⟩ := complete_loop_spec chrom d (first :: l2) first.start end_
        ⟨le_refl _, s2, s3⟩
      rw [hres]
      refine ⟨i1, ⟨rfl, hgt, ?_⟩, ?_⟩
      · have he : endOf first.start (first :: l2) = end_ := he2
        rw [he] at i2
        exact i2
      · intro r hr
        rcases List.mem_cons.mp hr with hr | hr
        · subst hr
          refine Or.inr ⟨rfl, fun r2 hr2 => Or.inr ?_⟩
          show first.start ≤ r2.start
          rcases List.mem_cons.mp hr2 with hr2 | hr2
          · rw [hr2]
          · have := (sortedIn_mem rest first.end_ end_ hs.2.2 r2 hr2).1
            have := hs.2.1
            omega
        · obtain ⟨j1, j2⟩ := i3 r hr
          rcases j2 with j2 | ⟨j2, j3⟩
          · exact hm2 r j2
          · exact Or.inr ⟨j2, fun r2 hr2 => j3 r2 (hsub r2 hr2)⟩
    · have heq : first.start = start := by
        have := hs.1
        omega
      have hres : complete_map (first :: rest) chrom start end_ d =
          (first :: (complete_loop chrom d first.end_ l2).1,
            (complete_loop chrom d first.end_ l2).2) := by
        simp only [complete_map, hgt, if_false, hbk, hl2]
      obtain ⟨i1, i2, i3⟩ := complete_loop_spec chrom d l2 first.end_ end_ s3
      rw [hres]
      refine ⟨i1, ⟨heq, s2, ?_⟩, ?_⟩
      · have he : endOf first.end_ l2 = end_ := he2
        rw [he] at i2
        exact i2
      · intro r hr
        rcases List.mem_cons.mp hr with hr | hr
        · subst hr
          exact Or.inl (List.mem_cons_self _ _)
        · obtain ⟨j1, j2⟩ := i3 r hr
          rcases j2 with j2 | ⟨j2, j3⟩
          · exact hm2 r (List.mem_cons_of_mem _ j2)
          · refine Or.inr ⟨j2, fun r2 hr2 => ?_⟩
            rcases List.mem_cons.mp (hsub r2 hr2) with h | h
            · rw [h]
              exact Or.inl j1
            · exact j3 r2 h

/-- A `while` loop with an invariant and a measure that every pass
decreases: with enough fuel the loop ends, the invariant holds and the
condition is false. -/
theorem whileLoop_inv {σ : Type} (cond : σ → Bool) (body : σ → Option σ) (Inv : σ → Prop)
    (μ : σ → Nat)
    (hstep : ∀ s, Inv s → cond s = true → ∃ s2, body s = some s2 ∧ Inv s2 ∧ μ s2 < μ s) :
    ∀ (fuel : Nat) (s : σ), Inv s → μ s ≤ fuel →
      ∃ s2, whileLoop cond body fuel s = some s2 ∧ Inv s2 ∧ cond s2 = false := by
  intro fuel
  induction fuel with
  | zero =>
    intro s hs hμ
    cases hc : cond s with
    | false => exact ⟨s, by simp only [whileLoop, hc, Bool.false_eq_true, if_false], hs, hc⟩
    | true =>
      obtain ⟨s2, -, -, h⟩ := hstep s hs hc
      omega
  | succ k ih =>
    intro s hs hμ
    cases hc : cond s with
    | false => exact ⟨s, by simp only [whileLoop, hc, Bool.false_eq_true, if_false], hs, hc⟩
    | true =>
      obtain ⟨s2, h1, h2, h3⟩ := hstep s hs hc
      obtain ⟨s3, e1, e2, e3⟩ := ih s2 h2 (by omega)
      exact ⟨s3, by simp only [whileLoop, hc, if_true, h1, Option.some_bind, e1], e2, e3⟩

theorem tiling_tail {α : Type} (l : List (RegionValue α)) (a b : Int) (h : Tiling a b l) :
    TailTiling a b l := by
  cases l with
  | nil => exact h
  | cons r rest =>
    obtain ⟨h1, h2, h3⟩ := h
    exact ⟨le_of_eq h1, by omega, h3⟩

theorem tailTiling_lt {α : Type} (r : RegionValue α) (rest : List (RegionValue α))
    (pos b : Int) (h : TailTiling pos b (r :: rest)) : r.end_ ≤ b ∧ pos < b := by
  obtain ⟨h1, h2, h3⟩ := h
  have := tiling_le rest r.end_ b h3
  omega

/-- A region appended behind a tiling. -/
theorem tiling_append {α : Type} (l : List (RegionValue α)) (g : RegionValue α) :
    ∀ a p : Int, Tiling a p l → g.start = p → g.start < g.end_ → Tiling a g.end_ (l ++ [g]) := by
  induction l with
  | nil =>
    intro a p h hg1 hg2
    have : a = p := h
    exact ⟨by omega, hg2, rfl⟩
  | cons r rest ih =>
    intro a p h hg1 hg2
    obtain ⟨h1, h2, h3⟩ := h
    exact ⟨h1, h2, ih r.end_ p h3 hg1 hg2⟩

theorem tiling_of_sameBounds {α : Type} (l1 : List (RegionValue α)) :
    ∀ (l2 : List (RegionValue α)) (a b : Int), SameBounds l1 l2 → Tiling a b l1 →
      Tiling a b l2 := by
  induction l1 with
  | nil =>
    intro l2 a b hs h
    cases l2 with
    | nil => exact h
    | cons r rest => simp [SameBounds] at hs
  | cons r1 rest1 ih =>
    intro l2 a b hs h
    cases l2 with
    | nil => simp [SameBounds] at hs
    | cons r2 rest2 =>
      simp only [SameBounds, List.map_cons, List.cons.injEq, Prod.mk.injEq] at hs
      obtain ⟨⟨e1, e2⟩, e3⟩ := hs
      obtain ⟨h1, h2, h3⟩ := h
      refine ⟨by omega, by omega, ?_⟩
      rw [← e2]
      exact ih rest2 r1.end_ b e3 h3

theorem sameBounds_append {α : Type} (l1 l2 : List (RegionValue α)) (g1 g2 : RegionValue α)
    (h : SameBounds l1 l2) (hs : g1.start = g2.start) (he : g1.end_ = g2.end_) :
    SameBounds (l1 ++ [g1]) (l2 ++ [g2]) := by
  unfold SameBounds at h ⊢
  simp only [List.map_append, List.map_cons, List.map_nil, h, hs, he]

theorem refines_append {α : Type} (out track : List (RegionValue α)) (g m : RegionValue α)
    (h : Refines out track) (hm : m ∈ track) (h1 : m.start ≤ g.start) (h2 : g.end_ ≤ m.end_)
    (h3 : g.value = m.value) : Refines (out ++ [g]) track := by
  intro r hr
  rw [List.mem_append, List.mem_singleton] at hr
  rcases hr with hr | hr
  · exact h r hr
  · subst hr
    exact ⟨m, hm, h1, h2, h3⟩

/-- The entry at an index whose tail is not empty. -/
theorem getAt_of_drop {α : Type} [Inhabited α] (l : List α) (i : Int) (x : α) (rest : List α)
    (h0 : 0 ≤ i) (h : l.drop i.toNat = x :: rest) :
    getAt l i = some x ∧ l.drop (i + 1).toNat = rest ∧ i < l.length ∧ x ∈ l := by
  have hlt : i.toNat < l.length := by
    by_contra hc
    rw [List.drop_eq_nil_of_le (by omega)] at h
    cases h
  have hd := List.drop_eq_getElem_cons hlt
  rw [h] at hd
  simp only [List.cons.injEq] at hd
  have hA : inArr l i := ⟨h0, by omega⟩
  refine ⟨?_, ?_, by omega, ?_⟩
  · rw [getAt_eq hA]
    simp only [readAt, if_pos h0, List.getD_eq_getElem?_getD, List.getElem?_eq_getElem hlt,
      Option.getD_some, hd.1]
  · have : (i + 1).toNat = i.toNat + 1 := by omega
    rw [this, hd.2]
  · rw [hd.1]
    exact List.getElem_mem _

/-- One pass of the merging loop of `setup_maps` on two maps that tile
`[start, end_]`: it runs through, keeps the invariant and advances `i` or
`j`. -/
theorem merge_step_inv (chrom : String) (start end_ : Int) (M R : List (RegionValue ℚ))
    (s : MapMerge) (hinv : MergeInv start end_ M R s)
    (hcond : s.i < M.length ∨ s.j < R.length) :
    ∃ s2, merge_step chrom M R s = some s2 ∧ MergeInv start end_ M R s2 ∧
      (M.length - s2.i.toNat) + (R.length - s2.j.toNat) <
        (M.length - s.i.toNat) + (R.length - s.j.toNat) := by
  obtain ⟨i0, i1, j0, j1, tm, tr, tl, sb, rm, rr⟩ := hinv
  cases hdm : M.drop s.i.toNat with
  | nil =>
    rw [hdm] at tm
    have hpos : s.pos = end_ := tm
    cases hdr : R.drop s.j.toNat with
    | nil =>
      have := List.drop_eq_nil_iff.mp hdm
      have := List.drop_eq_nil_iff.mp hdr
      omega
    | cons r rrest =>
      rw [hdr] at tr
      have := tailTiling_lt r rrest s.pos end_ tr
      omega
  | cons m mrest =>
    rw [hdm] at tm
    have hm := tailTiling_lt m mrest s.pos end_ tm
    cases hdr : R.drop s.j.toNat with
    | nil =>
      rw [hdr] at tr
      have hpos : s.pos = end_ := tr
      omega
    | cons r rrest =>
      rw [hdr] at tr
      obtain ⟨gm1, gm2, gm3, gm4⟩ := getAt_of_drop M s.i m mrest i0 hdm
      obtain ⟨gr1, gr2, gr3, gr4⟩ := getAt_of_drop R s.j r rrest j0 hdr
      obtain ⟨tm1, tm2, tm3⟩ := tm
      obtain ⟨tr1, tr2, tr3⟩ := tr
      have hi1 : (s.i + 1).toNat = s.i.toNat + 1 := by omega
      have hj1 : (s.j + 1).toNat = s.j.toNat + 1 := by omega
      by_cases hlt : m.end_ < r.end_
      · refine ⟨MapMerge.mk m.end_ (s.i + 1) (s.j)
            (s.mutmap2 ++ [⟨chrom, s.pos, m.end_, m.value⟩])
            (s.recombmap2 ++ [⟨chrom, s.pos, m.end_, r.value⟩]), ?_, ?_, ?_⟩
        · simp only [merge_step, gm1, gr1, Option.some_bind, hlt, if_true]
        · refine ⟨by show 0 ≤ s.i + 1; omega, by show s.i + 1 ≤ _; omega, j0, j1, ?_, ?_, ?_,
            ?_, ?_, ?_⟩
          · show TailTiling m.end_ end_ (M.drop (s.i + 1).toNat)
            rw [gm2]
            exact tiling_tail mrest m.end_ end_ tm3
          · show TailTiling m.end_ end_ (R.drop s.j.toNat)
            rw [hdr]
            exact ⟨by omega, hlt, tr3⟩
          · exact tiling_append s.mutmap2 ⟨chrom, s.pos, m.end_, m.value⟩ start s.pos tl rfl tm2
          · exact sameBounds_append _ _ _ _ sb rfl rfl
          · exact refines_append _ _ _ m rm gm4 tm1 (le_refl _) rfl
          · exact refines_append _ _ _ r rr gr4 tr1 (le_of_lt hlt) rfl
        · show (M.length - (s.i + 1).toNat) + (R.length - s.j.toNat) < _
          omega
      · by_cases hgt : m.end_ > r.end_
        · refine ⟨MapMerge.mk r.end_ (s.i) (s.j + 1)
            (s.mutmap2 ++ [⟨chrom, s.pos, r.end_, m.value⟩])
            (s.recombmap2 ++ [⟨chrom, s.pos, r.end_, r.value⟩]), ?_, ?_, ?_⟩
          · simp only [merge_step, gm1, gr1, Option.some_bind, hlt, if_false, hgt, if_true]
          · refine ⟨i0, i1, by show 0 ≤ s.j + 1; omega, by show s.j + 1 ≤ _; omega, ?_, ?_,
              ?_, ?_, ?_, ?_⟩
            · show TailTiling r.end_ end_ (M.drop s.i.toNat)
              rw [hdm]
              exact ⟨by omega, hgt, tm3⟩
            · show TailTiling r.end_ end_ (R.drop (s.j + 1).toNat)
              rw [gr2]
              exact tiling_tail rrest r.end_ end_ tr3
            · exact tiling_append s.mutmap2 ⟨chrom, s.pos, r.end_, m.value⟩ start s.pos tl rfl
                tr2
            · exact sameBounds_append _ _ _ _ sb rfl rfl
            · exact refines_append _ _ _ m rm gm4 tm1 (le_of_lt hgt) rfl
            · exact refines_append _ _ _ r rr gr4 tr1 (le_refl _) rfl
          · show (M.length - s.i.toNat) + (R.length - (s.j + 1).toNat) < _
            omega
        · have heq : m.end_ = r.end_ := by omega
          refine ⟨MapMerge.mk r.end_ (s.i + 1) (s.j + 1)
            (s.mutmap2 ++ [⟨chrom, s.pos, r.end_, m.value⟩])
            (s.recombmap2 ++ [⟨chrom, s.pos, r.end_, r.value⟩]), ?_, ?_, ?_⟩
          · simp only [merge_step, gm1, gr1, Option.some_bind, hlt, if_false, hgt]
          · refine ⟨by show 0 ≤ s.i + 1; omega, by show s.i + 1 ≤ _; omega,
              by show 0 ≤ s.j + 1; omega, by show s.j + 1 ≤ _; omega, ?_, ?_, ?_, ?_, ?_, ?_⟩
            · show TailTiling r.end_ end_ (M.drop (s.i + 1).toNat)
              rw [gm2, ← heq]
              exact tiling_tail mrest m.end_ end_ tm3
            · show TailTiling r.end_ end_ (R.drop (s.j + 1).toNat)
              rw [gr2]
              exact tiling_tail rrest r.end_ end_ tr3
            · exact tiling_append s.mutmap2 ⟨chrom, s.pos, r.end_, m.value⟩ start s.pos tl rfl
                tr2
            · exact sameBounds_append _ _ _ _ sb rfl rfl
            · exact refines_append _ _ _ m rm gm4 tm1 (le_of_eq heq.symm) rfl
            · exact refines_append _ _ _ r rr gr4 tr1 (le_refl _) rfl
          · show (M.length - (s.i + 1).toNat) + (R.length - (s.j + 1).toNat) < _
            omega

/-- The merging loop of `setup_maps` on two maps that tile `[start, end_]`:
it ends, and the new maps tile `[start, end_]` with the same bounds and refine
the two maps. -/
theorem merge_loop_spec (chrom : String) (start end_ : Int) (M R : List (RegionValue ℚ))
    (hM : Tiling start end_ M) (hR : Tiling start end_ R) :
    ∃ s, whileLoop (fun s => decide (s.i < (M.length : Int) ∨ s.j < (R.length : Int)))
        (merge_step chrom M R) (M.length + R.length)
        { pos := start, i := 0, j := 0, mutmap2 := [], recombmap2 := [] } = some s ∧
      Tiling start end_ s.mutmap2 ∧ Tiling start end_ s.recombmap2 ∧
      SameBounds s.mutmap2 s.recombmap2 ∧ Refines s.mutmap2 M ∧ Refines s.recombmap2 R := by
  obtain ⟨s, e1, e2, e3⟩ := whileLoop_inv
    (fun s => decide (s.i < (M.length : Int) ∨ s.j < (R.length : Int)))
    (merge_step chrom M R) (MergeInv start end_ M R)
    (fun s => (M.length - s.i.toNat) + (R.length - s.j.toNat))
    (fun s hs hc => merge_step_inv chrom start end_ M R s hs (of_decide_eq_true hc))
    (M.length + R.length) (MapMerge.mk start 0 0 [] [])
    ⟨le_refl _, by show (0 : Int) ≤ _; omega, le_refl _, by show (0 : Int) ≤ _; omega,
      tiling_tail M start end_ hM, tiling_tail R start end_ hR, rfl, rfl,
      (fun r hr => by cases hr), fun r hr => by cases hr⟩
    (by show (M.length - 0) + (R.length - 0) ≤ _; omega)
  obtain ⟨i0, i1, j0, j1, tm, tr, tl, sb, rm, rr⟩ := e2
  have hc := of_decide_eq_false e3
  have hdm : M.drop s.i.toNat = [] := List.drop_eq_nil_of_le (by omega)
  rw [hdm] at tm
  have hpos : s.pos = end_ := tm
  rw [hpos] at tl
  exact ⟨s, e1, tl, tiling_of_sameBounds _ _ _ _ sb tl, sb, rm, rr⟩

theorem getAt_some_read {α : Type} [Inhabited α] {xs : List α} {i : Int} {p : α}
    (h : getAt xs i = some p) : inArr xs i ∧ p = readAt xs i := by
  unfold getAt at h
  by_cases hi : inArr xs i
  · rw [if_pos hi] at h
    exact ⟨hi, (Option.some.inj h).symm⟩
  · rw [if_neg hi] at h
    cases h

/-- The loop of `assert_trees` adds the block lengths to `seqlen`. -/
theorem assert_trees_loop_sum (p : Bool) (l : List LocalTreeSpr) :
    ∀ (s s2 : Option LocalTree × Int), assert_trees_loop p l s = some s2 →
      s2.2 = s.2 + sumBlocklen l := by
  induction l with
  | nil =>
    intro s s2 h
    simp only [assert_trees_loop, Option.some.injEq] at h
    subst h
    simp [sumBlocklen]
  | cons it rest ih =>
    intro s s2 h
    simp only [assert_trees_loop, Option.bind_eq_some] at h
    obtain ⟨s1, h1, h2⟩ := h
    have h3 := ih s1 s2 h2
    simp only [assert_trees_block, Option.bind_eq_some, Option.map_eq_some'] at h1
    obtain ⟨_, _, _, _, _, _, rfl⟩ := h1
    rw [sumBlocklen_cons]
    simp only at h3
    omega

/-- A list of tuples that passes `assert_trees` has block lengths that add up
to the length of the ARG. -/
theorem assert_trees_sum (trees : LocalTrees) (p b : Bool) (h : assert_trees trees p = some b) :
    sumBlocklen trees.trees = trees.end_coord - trees.start_coord := by
  simp only [assert_trees, Option.bind_eq_some, Option.map_eq_some'] at h
  obtain ⟨_, _, s, h1, u, h2, _⟩ := h
  have h3 := assert_trees_loop_sum p trees.trees _ _ h1
  simp only [assertion] at h2
  by_cases hs : s.2 = trees.end_coord - trees.start_coord
  · simp only at h3
    omega
  · simp [hs] at h2

theorem ensure_capacity_blocklen (it it2 : LocalTreeSpr) (c : Int)
    (h : it.ensure_capacity c = some it2) : it2.blocklen = it.blocklen := by
  unfold LocalTreeSpr.ensure_capacity at h
  split at h
  · simp only [Option.map_eq_some'] at h
    obtain ⟨_, _, rfl⟩ := h
    rfl
  · cases h
    rfl

theorem thread_block_head_blocklen (states : List State) (thread_path : List Int)
    (nnodes2 newleaf displaced newcoal start : Int) (st : ThreadState) (it it2 : LocalTreeSpr)
    (h : thread_block_head states thread_path nnodes2 newleaf displaced newcoal start st it
      = some it2) : it2.blocklen = it.blocklen := by
  simp only [thread_block_head, Option.bind_eq_some, Option.map_eq_some'] at h
  obtain ⟨it1, h1, _, _, _, _, _, _, _, _, _, _, _, _, rfl⟩ := h
  exact ensure_capacity_blocklen it it1 _ h1

/-- One pass of the loop over the new recombinations: the tuple under the
iterator is closed at `pos` and a new tuple is opened that ends at the next
recombination or at the end of the block. -/
theorem thread_block_step_spec (states : List State) (thread_path recomb_pos : List Int)
    (recombs : List Spr) (nnodes2 newleaf displaced newcoal end_ pos : Int) (s s2 : ThreadBlock)
    (h : thread_block_step states thread_path recomb_pos recombs nnodes2 newleaf displaced
      newcoal end_ pos s = some s2) :
    s2.irecomb = s.irecomb + 1 ∧ s2.start = pos ∧
    s2.done = s.done ++ [{ s.it with blocklen := pos - s.start }] ∧
    (s.irecomb + 1 < recombs.length →
      ∃ p, getAt recomb_pos ((s.irecomb : Int) + 1) = some p ∧
        s2.it.blocklen = min p end_ - pos) ∧
    (¬ s.irecomb + 1 < recombs.length → s2.it.blocklen = end_ - pos) := by
  simp only [thread_block_step, Option.bind_eq_some, Option.map_eq_some'] at h
  obtain ⟨r, _, block_end, hb, _, _, rfl⟩ := h
  refine ⟨rfl, rfl, rfl, ?_, ?_⟩
  · intro hlt
    simp only [thread_block_end, if_pos hlt, Option.map_eq_some'] at hb
    obtain ⟨p, hp, rfl⟩ := hb
    exact ⟨p, hp, rfl⟩
  · intro hlt
    simp only [thread_block_end, if_neg hlt, Option.some.injEq] at hb
    subst hb
    rfl

/-- The loop over the new recombinations of a block: the tuples left behind
cover the block from its start to the last recombination, one tuple per
recombination, and at the exit the tuple under the iterator reaches the end of
the block. -/
theorem thread_block_loop_spec (states : List State) (thread_path recomb_pos : List Int)
    (recombs : List Spr) (nnodes2 newleaf displaced newcoal end_ start0 : Int) (i0 : Nat) :
    ∀ (fuel : Nat) (s s2 : ThreadBlock),
      thread_block_loop states thread_path recomb_pos recombs nnodes2 newleaf displaced newcoal
        end_ fuel s = some s2 →
      sumBlocklen s.done = s.start - start0 → s.done.length + i0 = s.irecomb →
      s.irecomb ≤ recombs.length →
      ((recombs.length ≤ s.irecomb ∨
          ∃ p, getAt recomb_pos (s.irecomb : Int) = some p ∧ end_ ≤ p) →
        s.it.blocklen = end_ - s.start) →
      sumBlocklen s2.done = s2.start - start0 ∧ s2.done.length + i0 = s2.irecomb ∧
      s2.irecomb ≤ recombs.length ∧ s2.it.blocklen = end_ - s2.start ∧
      (s2.irecomb < recombs.length →
        ∃ p, getAt recomb_pos (s2.irecomb : Int) = some p ∧ end_ ≤ p) := by
  intro fuel
  induction fuel with
  | zero =>
    intro s s2 h hsum hlen hle hq
    unfold thread_block_loop at h
    by_cases hi : s.irecomb < recombs.length
    · rw [if_pos hi] at h
      simp only [Option.bind_eq_some] at h
      obtain ⟨pos, hp, h⟩ := h
      by_cases hpe : pos < end_
      · rw [if_pos hpe] at h
        cases h
      · rw [if_neg hpe] at h
        cases h
        exact ⟨hsum, hlen, hle, hq (Or.inr ⟨pos, hp, by omega⟩),
          fun _ => ⟨pos, hp, by omega⟩⟩
    · rw [if_neg hi] at h
      cases h
      exact ⟨hsum, hlen, hle, hq (Or.inl (by omega)), fun h => absurd h hi⟩
  | succ fuel ih =>
    intro s s2 h hsum hlen hle hq
    unfold thread_block_loop at h
    by_cases hi : s.irecomb < recombs.length
    · rw [if_pos hi] at h
      simp only [Option.bind_eq_some] at h
      obtain ⟨pos, hp, h⟩ := h
      by_cases hpe : pos < end_
      · rw [if_pos hpe] at h
        simp only [Option.bind_eq_some] at h
        obtain ⟨s1, hs1, h⟩ := h
        obtain ⟨e1, e2, e3, e4, e5⟩ := thread_block_step_spec _ _ _ _ _ _ _ _ _ _ _ _ hs1
        refine ih s1 s2 h ?_ ?_ ?_ ?_
        · rw [e3, sumBlocklen_append, sumBlocklen_cons, sumBlocklen_nil, e2, hsum]
          simp only
          omega
        · rw [e3, e1, List.length_append, List.length_singleton]
          omega
        · omega
        · intro hx
          rw [e2]
          by_cases hn : s.irecomb + 1 < recombs.length
          · obtain ⟨p, hp1, hp2⟩ := e4 hn
            rw [hp2]
            rcases hx with hx | ⟨p2, hx1, hx2⟩
            · omega
            · rw [e1] at hx1
              push_cast at hx1
              rw [hp1] at hx1
              cases hx1
              rw [min_eq_right hx2]
          · exact e5 hn
      · rw [if_neg hpe] at h
        cases h
        exact ⟨hsum, hlen, hle, hq (Or.inr ⟨pos, hp, by omega⟩),
          fun _ => ⟨pos, hp, by omega⟩⟩
    · rw [if_neg hi] at h
      cases h
      exact ⟨hsum, hlen, hle, hq (Or.inl (by omega)), fun h => absurd h hi⟩

/-- One block of `add_arg_thread`: the tuples that replace the tuple `it` are
one more than the recombinations consumed, their block lengths add up to the
block length of `it`, and the next recombination, if any, does not lie before
the end of the block. -/
theorem thread_block_spec (get_coal_states : LocalTree → List State)
    (thread_path recomb_pos : List Int) (recombs : List Spr)
    (nnodes2 newleaf displaced newcoal : Int) (it : LocalTreeSpr) (st : ThreadState)
    (r : List LocalTreeSpr × ThreadState)
    (h : thread_block get_coal_states thread_path recomb_pos recombs nnodes2 newleaf displaced
      newcoal it st = some r)
    (hle : st.irecomb ≤ recombs.length) :
    r.1.length + st.irecomb = r.2.irecomb + 1 ∧ sumBlocklen r.1 = it.blocklen ∧
    r.2.end_ = st.end_ + it.blocklen ∧ r.2.irecomb ≤ recombs.length ∧
    (r.2.irecomb < recombs.length →
      ∃ p, getAt recomb_pos (r.2.irecomb : Int) = some p ∧ r.2.end_ ≤ p) := by
  simp only [thread_block, Option.bind_eq_some, Option.map_eq_some'] at h
  obtain ⟨it2, h1, s, h2, k, _, ls, _, rfl⟩ := h
  have hb := thread_block_head_blocklen _ _ _ _ _ _ _ _ _ _ h1
  obtain ⟨e1, e2, e3, e4, e5⟩ := thread_block_loop_spec _ _ _ _ _ _ _ _ _ st.end_ st.irecomb
    _ _ _ h2 (by simp [sumBlocklen]) (by simp) hle (by intro _; simp only; omega)
  refine ⟨?_, ?_, rfl, e3, e5⟩
  · simp only [List.length_append, List.length_singleton]
    omega
  · rw [sumBlocklen_append, sumBlocklen_cons, sumBlocklen_nil, e1, e4]
    omega

/-- The loop over the blocks of `add_arg_thread`: one more tuple per
recombination consumed, the same sum of block lengths, and the recombinations
that are left do not lie before the end of the last block. -/
theorem thread_blocks_spec (get_coal_states : LocalTree → List State)
    (thread_path recomb_pos : List Int) (recombs : List Spr)
    (nnodes2 newleaf displaced newcoal : Int) (l : List LocalTreeSpr) :
    ∀ (st : ThreadState) (r : List LocalTreeSpr × ThreadState),
      thread_blocks get_coal_states thread_path recomb_pos recombs nnodes2 newleaf displaced
        newcoal l st = some r →
      st.irecomb ≤ recombs.length →
      r.1.length + st.irecomb = l.length + r.2.irecomb ∧ sumBlocklen r.1 = sumBlocklen l ∧
      r.2.end_ = st.end_ + sumBlocklen l ∧ r.2.irecomb ≤ recombs.length ∧
      (l = [] → r.2 = st) ∧
      (l ≠ [] → r.2.irecomb < recombs.length →
        ∃ p, getAt recomb_pos (r.2.irecomb : Int) = some p ∧ r.2.end_ ≤ p) := by
  induction l with
  | nil =>
    intro st r h hle
    simp only [thread_blocks, Option.some.injEq] at h
    subst h
    simp [sumBlocklen, hle]
  | cons it rest ih =>
    intro st r h hle
    simp only [thread_blocks, Option.bind_eq_some, Option.map_eq_some'] at h
    obtain ⟨r1, h1, r2, h2, rfl⟩ := h
    obtain ⟨a1, a2, a3, a4, a5⟩ := thread_block_spec _ _ _ _ _ _ _ _ _ _ _ h1 hle
    obtain ⟨b1, b2, b3, b4, b5, b6⟩ := ih r1.2 r2 h2 a4
    refine ⟨?_, ?_, ?_, b4, (fun hx => by cases hx), fun _ hlt => ?_⟩
    · simp only [List.length_append, List.length_cons]
      omega
    · rw [sumBlocklen_append, sumBlocklen_cons, a2, b2]
    · rw [sumBlocklen_cons]
      simp only
      omega
    · by_cases hr : rest = []
      · have := b5 hr
        simp only at hlt ⊢
        rw [this] at hlt ⊢
        exact a5 hlt
      · exact b6 hr hlt

/-- The passes of the loop over the new recombinations never run out: with
at least `recombs.size() - irecomb` passes allowed, one more pass allowed
changes nothing. -/
theorem thread_block_loop_fuel (states : List State) (thread_path recomb_pos : List Int)
    (recombs : List Spr) (nnodes2 newleaf displaced newcoal end_ : Int) :
    ∀ (fuel : Nat) (s : ThreadBlock), recombs.length - s.irecomb ≤ fuel →
      thread_block_loop states thread_path recomb_pos recombs nnodes2 newleaf displaced newcoal
        end_ (fuel + 1) s =
      thread_block_loop states thread_path recomb_pos recombs nnodes2 newleaf displaced newcoal
        end_ fuel s := by
  intro fuel
  induction fuel with
  | zero =>
    intro s hs
    have hi : ¬ s.irecomb < recombs.length := by omega
    simp only [thread_block_loop, if_neg hi]
  | succ fuel ih =>
    intro s hs
    rw [thread_block_loop]
    conv_rhs => rw [thread_block_loop]
    by_cases hi : s.irecomb < recombs.length
    · simp only [if_pos hi]
      cases hg : getAt recomb_pos (s.irecomb : Int) with
      | none => rfl
      | some pos =>
        simp only [Option.some_bind]
        by_cases hpe : pos < end_
        · simp only [if_pos hpe]
          cases hstep : thread_block_step states thread_path recomb_pos recombs nnodes2 newleaf
              displaced newcoal end_ pos s with
          | none => rfl
          | some s1 =>
            simp only [Option.some_bind]
            have e1 := (thread_block_step_spec _ _ _ _ _ _ _ _ _ _ _ _ hstep).1
            exact ih s1 (by omega)
        · simp only [if_neg hpe]
    · simp only [if_neg hi]

/-- The call of `add_arg_thread` on `argTwo` with the thread `threadPathTwo`
returns `argTwoThreaded`. -/
theorem argTwo_threaded :
    add_arg_thread argTwo coalStatesTwo 4 threadPathTwo 7 [2, 7] threadRecombsTwo
      = some argTwoThreaded := by
  decide

/-- Below the cut-off `logadd` adds the counts. -/
theorem logadd_eq (exp500 : ℚ) (a b : Nat) (h : (a : ℚ) < exp500) :
    logadd exp500 a b = a + b := by
  unfold logadd
  by_cases hb : b = 0
  · subst hb
    simp
  · have h1 : (1 : ℚ) ≤ b := by exact_mod_cast Nat.one_le_iff_ne_zero.mpr hb
    have h0 : (0 : ℚ) ≤ a := Nat.cast_nonneg a
    have h2 : (a : ℚ) < exp500 * b := by nlinarith
    rw [if_pos h2]

/-- A sum over `[0, n)` that picks the entry `q`. -/
theorem sum_range_pick (n : Nat) (f : Nat → Nat) (q : Int) (h0 : 0 ≤ q) (h1 : q < n) :
    ∑ j in Finset.range n, (if (j : Int) = q then f j else 0) = f q.toNat := by
  rw [Finset.sum_eq_single q.toNat]
  · rw [if_pos (by omega)]
  · intro b _ hb
    rw [if_neg (by omega)]
  · intro h
    exfalso
    apply h
    rw [Finset.mem_range]
    omega

/-- The entry of a column of `count_arg_removal_paths`: below the cut-off of
`logadd` it is the sum of the entries of the column before over the back
pointers of the node. -/
theorem count_entry_spec (exp500 : ℚ) (n : Nat) (col : List Nat) (p : Int × Int)
    (hlen : col.length = n)
    (hb : ∀ j : Int, 0 ≤ j → j < n → ((readAt col j : Nat) : ℚ) < exp500)
    (h0 : 0 ≤ p.1 ∧ p.1 < n) (h1 : p.2 = -1 ∨ (0 ≤ p.2 ∧ p.2 < n ∧ p.2 ≠ p.1)) :
    count_entry exp500 col p =
      some (∑ j in Finset.range n,
        if (j : Int) = p.1 ∨ (j : Int) = p.2 then readAt col (j : Int) else 0) := by
  have hA : inArr col p.1 := ⟨h0.1, by omega⟩
  have e1 : ¬ (p.1 < 0 ∧ p.2 < 0) := by omega
  unfold count_entry
  rw [if_neg e1]
  rcases h1 with h1 | ⟨h1, h2, h3⟩
  · rw [if_pos h1, getAt_eq hA]
    congr 1
    have : ∀ j : Nat, ((j : Int) = p.1 ∨ (j : Int) = p.2) ↔ (j : Int) = p.1 := by
      intro j; omega
    simp only [this]
    rw [sum_range_pick n (fun j => readAt col (j : Int)) p.1 h0.1 h0.2,
      Int.toNat_of_nonneg h0.1]
  · have hB : inArr col p.2 := ⟨h1, by omega⟩
    rw [if_neg (by omega), if_neg (by omega), getAt_eq hA, getAt_eq hB]
    simp only [Option.some_bind, Option.map_some']
    rw [logadd_eq _ _ _ (hb p.1 h0.1 h0.2)]
    congr 1
    have : ∀ j : Nat, (if (j : Int) = p.1 ∨ (j : Int) = p.2 then readAt col (j : Int) else 0) =
        (if (j : Int) = p.1 then readAt col (j : Int) else 0) +
        (if (j : Int) = p.2 then readAt col (j : Int) else 0) := by
      intro j
      by_cases a : (j : Int) = p.1
      · have b : ¬ (j : Int) = p.2 := by omega
        rw [if_pos (Or.inl a), if_pos a, if_neg b, add_zero]
      · by_cases c : (j : Int) = p.2
        · rw [if_pos (Or.inr c), if_neg a, if_pos c, zero_add]
        · rw [if_neg (by tauto), if_neg a, if_neg c]
    simp only [this]
    rw [Finset.sum_add_distrib,
      sum_range_pick n (fun j => readAt col (j : Int)) p.1 h0.1 h0.2,
      sum_range_pick n (fun j => readAt col (j : Int)) p.2 h1 h2,
      Int.toNat_of_nonneg h0.1, Int.toNat_of_nonneg h1]

/-- The column of `count_arg_removal_paths` from the column before and a row
of back pointers in range. -/
theorem count_column_spec (exp500 : ℚ) (n : Nat) (pv : List (Int × Int)) (col : List Nat)
    (hpv : pv.length = n) (hlen : col.length = n)
    (hb : ∀ j : Int, 0 ≤ j → j < n → ((readAt col j : Nat) : ℚ) < exp500)
    (hs : ∀ k : Int, 0 ≤ k → k < n → (0 ≤ (readAt pv k).1 ∧ (readAt pv k).1 < n) ∧
      ((readAt pv k).2 = -1 ∨
        (0 ≤ (readAt pv k).2 ∧ (readAt pv k).2 < n ∧ (readAt pv k).2 ≠ (readAt pv k).1))) :
    ∃ col2, count_column exp500 n pv col = some col2 ∧ col2.length = n ∧
      ∀ k : Int, 0 ≤ k → k < n → readAt col2 k =
        ∑ j in Finset.range n,
          if (j : Int) = (readAt pv k).1 ∨ (j : Int) = (readAt pv k).2
          then readAt col (j : Int) else 0 := by
  have e : count_column exp500 n pv col = some ((List.range n).map fun i =>
      (fun k : Int => ∑ j in Finset.range n,
          if (j : Int) = (readAt pv k).1 ∨ (j : Int) = (readAt pv k).2
          then readAt col (j : Int) else 0) ((i : Nat) : Int)) := by
    unfold count_column
    rw [Int.toNat_ofNat]
    refine tabulateOpt_eq _ (fun k : Int => ∑ j in Finset.range n,
          if (j : Int) = (readAt pv k).1 ∨ (j : Int) = (readAt pv k).2
          then readAt col (j : Int) else 0) _ ?_
    intro i hi
    rw [List.mem_range] at hi
    have hA : inArr pv (i : Int) := ⟨Int.natCast_nonneg _, by omega⟩
    rw [getAt_eq hA]
    simp only [Option.some_bind]
    obtain ⟨a1, a2⟩ := hs i (Int.natCast_nonneg _) (by omega)
    exact count_entry_spec exp500 n col _ hlen hb a1 a2
  refine ⟨_, e, by simp, ?_⟩
  intro k k0 k1
  exact readAt_map_range (fun k : Int => ∑ j in Finset.range n,
          if (j : Int) = (readAt pv k).1 ∨ (j : Int) = (readAt pv k).2
          then readAt col (j : Int) else 0) n k k0 k1

/-- Every path of the list ends in a node of `[0, n)`. -/
theorem paths_to_cons (p : List Int) (paths : List (List Int)) (j : Int) :
    paths_to (p :: paths) j = paths_to paths j + if p.head? = some j then 1 else 0 := by
  unfold paths_to
  rw [List.countP_cons]
  simp only [decide_eq_true_eq]

/-- Summing a function of the last node over the paths groups the paths by
their last node. -/
theorem sum_over_paths (n : Nat) (g : Nat → Nat) (paths : List (List Int))
    (hin : ∀ p ∈ paths, ∃ j : Nat, j < n ∧ p.head? = some (j : Int)) :
    (paths.map fun p => g (p.headD (-1)).toNat).sum =
      ∑ j in Finset.range n, g j * paths_to paths (j : Int) := by
  induction paths with
  | nil => simp [paths_to]
  | cons p rest ih =>
    obtain ⟨j0, hj0, hp⟩ := hin p (List.mem_cons_self _ _)
    rw [List.map_cons, List.sum_cons, ih (fun q hq => hin q (List.mem_cons_of_mem _ hq))]
    simp only [paths_to_cons, mul_add, Finset.sum_add_distrib]
    have hd : (p.headD (-1)).toNat = j0 := by
      cases p with
      | nil => cases hp
      | cons a l =>
        simp only [List.head?_cons, Option.some.injEq] at hp
        simp [hp]
    rw [hd, add_comm]
    congr 1
    rw [Finset.sum_eq_single j0]
    · rw [if_pos hp, mul_one]
    · intro b _ hb
      have : ¬ p.head? = some (b : Int) := by
        rw [hp]
        intro e
        apply hb
        have := Option.some.inj e
        omega
      rw [if_neg this, mul_zero]
    · intro h
      exfalso
      apply h
      rw [Finset.mem_range]
      exact hj0

/-- The number of paths is the sum of the numbers of paths to each node. -/
theorem length_eq_sum_paths_to (n : Nat) (paths : List (List Int))
    (hin : ∀ p ∈ paths, ∃ j : Nat, j < n ∧ p.head? = some (j : Int)) :
    paths.length = ∑ j in Finset.range n, paths_to paths (j : Int) := by
  have h := sum_over_paths n (fun _ => 1) paths hin
  simp only [one_mul] at h
  rw [← h]
  simp

/-- The extensions of one path by the nodes of a filtered range: how many end
in `k`. -/
theorem countP_extensions (n : Nat) (q : Nat → Bool) (p : List Int) (k : Nat) (hk : k < n) :
    List.countP (fun r : List Int => decide (r.head? = some (k : Int)))
      (((List.range n).filter q).map fun (k2 : Nat) => (k2 : Int) :: p) =
      if q k = true then 1 else 0 := by
  rw [List.countP_map]
  have hfun : ((fun r : List Int => decide (r.head? = some (k : Int))) ∘
      fun (k2 : Nat) => (k2 : Int) :: p) = fun k2 : Nat => decide (k2 = k) := by
    funext k2
    simp only [Function.comp, List.head?_cons, Option.some.injEq, Nat.cast_inj]
  rw [hfun]
  have hc : List.countP (fun k2 : Nat => decide (k2 = k)) ((List.range n).filter q) =
      List.count k ((List.range n).filter q) := by
    unfold List.count
    congr 1
  rw [hc, List.count_eq_of_nodup ((List.nodup_range n).filter _)]
  simp only [List.mem_filter, List.mem_range, hk, true_and]

/-- The paths one tree longer: the number of paths to `k` is the sum of the
numbers of paths to the nodes of which `k` is a next removal node. -/
theorem extend_paths_count (n : Nat) (tree1 : LocalTree) (it : LocalTreeSpr)
    (paths : List (List Int))
    (hin : ∀ p ∈ paths, ∃ j : Nat, j < n ∧ p.head? = some (j : Int)) (k : Nat) (hk : k < n) :
    paths_to (extend_paths n tree1 it paths) (k : Int) =
      ∑ j in Finset.range n,
        (if nextAcross tree1 it (j : Int) (k : Int) = true then 1 else 0) *
          paths_to paths (j : Int) := by
  rw [← sum_over_paths n
    (fun j => if nextAcross tree1 it (j : Int) (k : Int) = true then 1 else 0) paths hin]
  unfold paths_to extend_paths
  rw [List.countP_flatten, List.map_map, Int.toNat_ofNat]
  congr 1
  apply List.map_congr_left
  intro p hp
  obtain ⟨j0, hj0, e⟩ := hin p hp
  simp only [Function.comp]
  rw [countP_extensions n _ p k hk]
  have hd : p.headD (-1) = (j0 : Int) := by
    cases p with
    | nil => cases e
    | cons a l =>
      simp only [List.head?_cons, Option.some.injEq] at e
      simp [e]
  rw [hd]
  simp

/-- The paths one tree longer end in nodes of `[0, n)`. -/
theorem extend_paths_in (n : Nat) (tree1 : LocalTree) (it : LocalTreeSpr)
    (paths : List (List Int)) :
    ∀ p ∈ extend_paths n tree1 it paths, ∃ j : Nat, j < n ∧ p.head? = some (j : Int) := by
  intro p hp
  unfold extend_paths at hp
  rw [Int.toNat_ofNat] at hp
  simp only [List.mem_flatten, List.mem_map, List.mem_filter, List.mem_range] at hp
  obtain ⟨l, ⟨q, _, rfl⟩, hp⟩ := hp
  simp only [List.mem_map, List.mem_filter, List.mem_range] at hp
  obtain ⟨k, ⟨hk, _⟩, rfl⟩ := hp
  exact ⟨k, hk, rfl⟩

/-- A loop `for (i = 1; i < n; i++)` with an invariant. -/
theorem forLoop_from_one_inv {σ : Type} (body : Int → σ → Option σ) (P : Nat → σ → Prop)
    (n : Nat) (hn : 1 ≤ n) (s0 : σ) (h0 : P 1 s0)
    (hstep : ∀ m s, 1 ≤ m → m < n → P m s → ∃ s2, body (m : Int) s = some s2 ∧ P (m + 1) s2) :
    ∃ s, forLoop body ((List.range n).drop 1) s0 = some s ∧ P n s := by
  induction n with
  | zero => omega
  | succ k ih =>
    by_cases hk : k = 0
    · subst hk
      exact ⟨s0, rfl, h0⟩
    · obtain ⟨s, e1, e2⟩ := ih (by omega) (fun m s hm1 hm hp => hstep m s hm1 (by omega) hp)
      obtain ⟨s2, f1, f2⟩ := hstep k s (by omega) (by omega) e2
      refine ⟨s2, ?_, f2⟩
      rw [List.range_succ, List.drop_append_of_le_length (by simp; omega), forLoop_append, e1]
      simp only [Option.some_bind, forLoop, f1]

/-- A sum over `[0, n)` of rationals that picks the entry `q`. -/
theorem sum_range_pick_rat (n : Nat) (f : Nat → ℚ) (q : Int) (h0 : 0 ≤ q) (h1 : q < n) :
    ∑ j in Finset.range n, (if (j : Int) = q then f j else 0) = f q.toNat := by
  rw [Finset.sum_eq_single q.toNat]
  · rw [if_pos (by omega)]
  · intro b _ hb
    rw [if_neg (by omega)]
  · intro h
    exfalso
    apply h
    rw [Finset.mem_range]
    omega

/-- The function `logsum` on `n ≥ 1` counts: the quantity returned is the sum
of the entries that exceed the largest entry `M` divided by e^15. -/
theorem logsum_spec (exp15 : ℚ) (h15 : 1 < exp15) (n : Nat) (hn : 1 ≤ n) (vals : List Nat)
    (hlen : vals.length = n) :
    ∃ M : Nat, (∀ j : Int, 0 ≤ j → j < n → readAt vals j ≤ M) ∧
      (∃ j : Int, 0 ≤ j ∧ j < n ∧ readAt vals j = M) ∧
      logsum exp15 vals n = some (∑ j in Finset.range n,
        if (M : ℚ) < (readAt vals (j : Int) : Nat) * exp15
        then ((readAt vals (j : Int) : Nat) : ℚ) else 0) := by
  have hA : ∀ j : Int, 0 ≤ j → j < n → inArr vals j := fun j a b => ⟨a, by omega⟩
  -- find maxval
  obtain ⟨s, e1, e2, e3, e4, e5⟩ := forLoop_from_one_inv
    (fun i (s : Nat × Int) => (getAt vals i).map fun (v : Nat) => if v > s.1 then (v, i) else s)
    (fun m (s : Nat × Int) => (∀ j : Int, 0 ≤ j → j < m → readAt vals j ≤ s.1) ∧
      0 ≤ s.2 ∧ s.2 < m ∧ readAt vals s.2 = s.1)
    n hn (readAt vals 0, 0)
    ⟨fun j a b => by
        have : j = 0 := by omega
        rw [this], le_refl _, by simp, rfl⟩
    (by
      intro m s hm1 hm ⟨a1, a2, a3, a4⟩
      dsimp only
      rw [getAt_eq (hA m (by omega) (by omega))]
      simp only [Option.map_some']
      by_cases hv : readAt vals (m : Int) > s.1
      · rw [if_pos hv]
        refine ⟨_, rfl, ?_, by simp, by simp, rfl⟩
        intro j j0 j1
        by_cases hj : j = m
        · rw [hj]
        · have := a1 j j0 (by push_cast at j1; omega)
          simp only
          omega
      · rw [if_neg hv]
        refine ⟨_, rfl, ?_, a2, by push_cast; omega, a4⟩
        intro j j0 j1
        by_cases hj : j = m
        · rw [hj]; omega
        · exact a1 j j0 (by push_cast at j1; omega))
  -- the sum
  obtain ⟨x, f1, f2⟩ := forLoop_range_inv
    (fun i (expsum : ℚ) =>
      (getAt vals i).map fun (v : Nat) =>
      if i ≠ s.2 ∧ (s.1 : ℚ) < v * exp15 then expsum + (v : ℚ) / (s.1 : ℚ) else expsum)
    (fun m (e : ℚ) => e = 1 + ∑ j in Finset.range m,
      if (j : Int) ≠ s.2 ∧ (s.1 : ℚ) < (readAt vals (j : Int) : Nat) * exp15
      then ((readAt vals (j : Int) : Nat) : ℚ) / (s.1 : ℚ) else 0)
    n 1 (by simp)
    (by
      intro m e hm he
      dsimp only
      rw [getAt_eq (hA m (by omega) (by omega))]
      simp only [Option.map_some']
      refine ⟨_, rfl, ?_⟩
      rw [Finset.sum_range_succ, he]
      split_ifs <;> ring)
  refine ⟨s.1, e2, ⟨s.2, e3, e4, e5⟩, ?_⟩
  unfold logsum
  rw [getAt_eq (hA 0 (le_refl _) (by omega)), Int.toNat_ofNat]
  simp only [Option.some_bind, e1, f1, Option.map_some']
  congr 1
  rw [f2, mul_add, mul_one, Finset.mul_sum]
  have hterm : ∀ j : Nat, j ∈ Finset.range n →
      (if (s.1 : ℚ) < (readAt vals (j : Int) : Nat) * exp15
        then ((readAt vals (j : Int) : Nat) : ℚ) else 0) =
      (if (j : Int) = s.2 then (s.1 : ℚ) else 0) +
      (s.1 : ℚ) * (if (j : Int) ≠ s.2 ∧ (s.1 : ℚ) < (readAt vals (j : Int) : Nat) * exp15
        then ((readAt vals (j : Int) : Nat) : ℚ) / (s.1 : ℚ) else 0) := by
    intro j hj
    rw [Finset.mem_range] at hj
    have hle := e2 j (Int.natCast_nonneg _) (by omega)
    by_cases hjs : (j : Int) = s.2
    · have hv : readAt vals (j : Int) = s.1 := by rw [hjs]; exact e5
      have hneg : ¬ ((j : Int) ≠ s.2 ∧ (s.1 : ℚ) < (readAt vals (j : Int) : Nat) * exp15) :=
        fun h => h.1 hjs
      rw [if_pos hjs, if_neg hneg, mul_zero, add_zero, hv]
      by_cases h0 : s.1 = 0
      · simp [h0]
      · have hpos : (0 : ℚ) < s.1 := by exact_mod_cast Nat.pos_of_ne_zero h0
        rw [if_pos (by nlinarith)]
    · rw [if_neg hjs, zero_add]
      by_cases hk : (s.1 : ℚ) < (readAt vals (j : Int) : Nat) * exp15
      · rw [if_pos hk, if_pos ⟨hjs, hk⟩]
        have h0 : (s.1 : ℚ) ≠ 0 := by
          intro h0
          have h00 : s.1 = 0 := by exact_mod_cast h0
          have : readAt vals (j : Int) = 0 := by omega
          rw [this, h0] at hk
          simp at hk
        field_simp
      · rw [if_neg hk, if_neg (by tauto), mul_zero]
  rw [Finset.sum_congr rfl hterm, Finset.sum_add_distrib,
    sum_range_pick_rat n (fun _ => (s.1 : ℚ)) s.2 e3 e4]

/-- The back pointers of a consistent tuple: `get_all_prev_removal_nodes`
returns a row of `n` pairs; the first entry of a pair is a node, the second is
-1 or another node, and the nodes of the pair of `k` are the nodes of which
`k` is a next removal node. -/
theorem tuple_backptrs (n : Nat) (t : LocalTree) (x : LocalTreeSpr)
    (h : TupleConsistent n t x) :
    ∃ m pv, x.mapping = some m ∧ get_all_prev_removal_nodes t x.spr m = some pv ∧
      pv.length = n ∧
      ∀ k : Int, 0 ≤ k → k < n →
        (0 ≤ (readAt pv k).1 ∧ (readAt pv k).1 < n) ∧
        ((readAt pv k).2 = -1 ∨
          (0 ≤ (readAt pv k).2 ∧ (readAt pv k).2 < n ∧ (readAt pv k).2 ≠ (readAt pv k).1)) ∧
        ∀ j : Int, 0 ≤ j → j < n →
          (nextAcross t x j k = true ↔ (j = (readAt pv k).1 ∨ j = (readAt pv k).2)) := by
  obtain ⟨hn, hwf, hr, hc, hroot, hmc⟩ := h
  cases hmap : x.mapping with
  | none =>
    rw [hmap] at hmc
    exact absurd hmc (by unfold MappingConsistent; exact not_false)
  | some m =>
    rw [hmap] at hmc
    have hcase : (x.spr.coal_node ≠ x.spr.recomb_node ∧
        IsRemovalMapping t.nnodes (t.node x.spr.recomb_node).parent m) ∨
      (x.spr.coal_node = x.spr.recomb_node ∧ IsPermMapping t.nnodes m) := hmc
    obtain ⟨nx, pv, -, e2, -, l2, -, a2, -⟩ := removal_tables t x.spr m hwf hr hc hroot hcase
    obtain ⟨N, P, hN, hP, -, hrev⟩ := removal_nodes_reverse t x.spr m hwf hr hc hroot hcase
    refine ⟨m, pv, rfl, e2, by omega, ?_⟩
    intro k k0 k1
    have hk : 0 ≤ k ∧ k < t.nnodes := ⟨k0, by omega⟩
    have hpk := a2 k hk.1 hk.2
    have hPk : P k = readAt pv k := by
      have := (hP k hk.1 hk.2).1
      rw [hpk] at this
      exact (Option.some.inj this).symm
    have hshape : (0 ≤ (readAt pv k).1 ∧ (readAt pv k).1 < t.nnodes) ∧
        ((readAt pv k).2 = -1 ∨ (0 ≤ (readAt pv k).2 ∧ (readAt pv k).2 < t.nnodes ∧
          (readAt pv k).2 ≠ (readAt pv k).1)) := by
      rcases hcase with ⟨hne, hm⟩ | ⟨hself, hm⟩
      · obtain ⟨hb, -⟩ := hwf.sibling_facts x.spr.recomb_node hr hroot
        obtain ⟨u, hu, huu⟩ := get_recoal_node_unique t x.spr m _ hb hm
        obtain ⟨p0, p1, r1, s1, s2, -⟩ :=
          get_prev_spec t x.spr m u k none hwf hr hroot hc hne hm huu hk (Or.inl rfl)
        rw [hpk] at r1
        have := Option.some.inj r1
        rw [this]
        exact ⟨s1, s2⟩
      · obtain ⟨i, r1, hi, -⟩ := get_prev_self t x.spr m k none hself hm hk
        rw [hpk] at r1
        have := Option.some.inj r1
        rw [this]
        exact ⟨hi, Or.inl rfl⟩
    refine ⟨by omega, ?_, ?_⟩
    · rcases hshape.2 with h | h
      · exact Or.inl h
      · exact Or.inr ⟨h.1, by omega, h.2.2⟩
    · intro j j0 j1
      have hj : 0 ≤ j ∧ j < t.nnodes := ⟨j0, by omega⟩
      unfold nextAcross isNextRemovalNode
      rw [hmap]
      simp only [(hN j hj.1 hj.2).1, decide_eq_true_eq]
      rw [hrev j k hj.1 hj.2 hk.1 hk.2, hPk]

/-- A sum over `[0, n)` of at most two entries of a function bounded by `B`. -/
theorem sum_two_le (n : Nat) (f : Nat → Nat) (B : Nat) (p0 p1 : Int)
    (hf : ∀ j, j < n → f j ≤ B)
    (h0 : 0 ≤ p0 ∧ p0 < n) (h1 : p1 = -1 ∨ (0 ≤ p1 ∧ p1 < n ∧ p1 ≠ p0)) :
    ∑ j in Finset.range n, (if (j : Int) = p0 ∨ (j : Int) = p1 then f j else 0) ≤ 2 * B := by
  have hterm : ∀ j ∈ Finset.range n,
      (if (j : Int) = p0 ∨ (j : Int) = p1 then f j else 0) ≤
      (if (j : Int) = p0 then B else 0) + (if (j : Int) = p1 then B else 0) := by
    intro j hj
    rw [Finset.mem_range] at hj
    have := hf j hj
    by_cases a : (j : Int) = p0
    · rw [if_pos (Or.inl a), if_pos a]
      omega
    · by_cases c : (j : Int) = p1
      · rw [if_pos (Or.inr c), if_neg a, if_pos c]
        omega
      · rw [if_neg (by tauto)]
        omega
  refine le_trans (Finset.sum_le_sum hterm) ?_
  rw [Finset.sum_add_distrib, sum_range_pick n (fun _ => B) p0 h0.1 h0.2]
  rcases h1 with h1 | ⟨h1, h2, -⟩
  · have : ∀ j ∈ Finset.range n, (if (j : Int) = p1 then B else 0) = 0 := by
      intro j _
      rw [if_neg (by omega)]
    rw [Finset.sum_congr rfl this]
    simp
    omega
  · rw [sum_range_pick n (fun _ => B) p1 h1 h2]
    omega

theorem readAt_cons_zero {α : Type} [Inhabited α] (a : α) (l : List α) :
    readAt (a :: l) ((0 : Nat) : Int) = a := by
  simp [readAt]

theorem readAt_cons_succ {α : Type} [Inhabited α] (a : α) (l : List α) (i : Nat) :
    readAt (a :: l) ((i + 1 : Nat) : Int) = readAt l (i : Int) := by
  unfold readAt
  rw [if_pos (Int.natCast_nonneg _), if_pos (Int.natCast_nonneg _)]
  simp

/-- The columns of `count_arg_removal_paths` after the column `col` of a tree:
when `col` counts the paths of `paths` by their last node and stays below the
cut-off of `logadd` through the doublings of the trees that follow, the column
of every later tree counts the paths extended to that tree. -/
theorem count_columns_spec (exp500 : ℚ) (n : Nat) (rest : List LocalTreeSpr) :
    ∀ (last : LocalTree) (col : List Nat) (paths : List (List Int)) (B : Nat),
      TuplesConsistent n last rest → col.length = n →
      (∀ p ∈ paths, ∃ j : Nat, j < n ∧ p.head? = some (j : Int)) →
      (∀ j : Int, 0 ≤ j → j < n → readAt col j = paths_to paths j) →
      (∀ j : Int, 0 ≤ j → j < n → readAt col j ≤ B) →
      1 ≤ B → (B : ℚ) * 2 ^ rest.length ≤ exp500 →
      ∃ l, count_columns exp500 n last rest col = some l ∧ l.length = rest.length ∧
        ∀ i : Nat, i < rest.length →
          (readAt l (i : Int)).length = n ∧
          ∀ j : Int, 0 ≤ j → j < n →
            readAt (readAt l (i : Int)) j =
              paths_to (removal_paths_from n last (rest.take (i + 1)) paths) j := by
  induction rest with
  | nil =>
    intro last col paths B _ _ _ _ _ _ _
    exact ⟨[], rfl, rfl, fun i hi => by simp at hi⟩
  | cons x rest ih =>
    intro last col paths B hc hlen hin hcol hB hB1 h500
    obtain ⟨hx, hrest⟩ := hc
    obtain ⟨m, pv, hm, hpv, hpl, hfacts⟩ := tuple_backptrs n last x hx
    have hBq : (1 : ℚ) ≤ B := by exact_mod_cast hB1
    have hpow : (1 : ℚ) ≤ 2 ^ rest.length := one_le_pow₀ (by norm_num)
    have hlt : (B : ℚ) < exp500 := by
      rw [List.length_cons, pow_succ] at h500
      nlinarith
    obtain ⟨col2, e1, e2, e3⟩ := count_column_spec exp500 n pv col hpl hlen
      (fun j j0 j1 => lt_of_le_of_lt (by exact_mod_cast hB j j0 j1) hlt)
      (fun k k0 k1 => ⟨(hfacts k k0 k1).1, (hfacts k k0 k1).2.1⟩)
    have hcount : ∀ j : Int, 0 ≤ j → j < n →
        readAt col2 j = paths_to (extend_paths n last x paths) j := by
      intro k k0 k1
      obtain ⟨kn, rfl⟩ := Int.eq_ofNat_of_zero_le k0
      rw [e3 _ k0 k1, extend_paths_count n last x paths hin kn (by omega)]
      apply Finset.sum_congr rfl
      intro j hj
      rw [Finset.mem_range] at hj
      have hiff := (hfacts (kn : Int) k0 k1).2.2 (j : Int) (Int.natCast_nonneg _) (by omega)
      rw [hcol (j : Int) (Int.natCast_nonneg _) (by omega)]
      by_cases hnx : nextAcross last x (j : Int) (kn : Int) = true
      · rw [if_pos hnx, if_pos (hiff.mp hnx), one_mul]
      · rw [if_neg hnx, if_neg (fun h => hnx (hiff.mpr h)), zero_mul]
    have hbound : ∀ j : Int, 0 ≤ j → j < n → readAt col2 j ≤ 2 * B := by
      intro k k0 k1
      rw [e3 k k0 k1]
      exact sum_two_le n (fun j => readAt col (j : Int)) B _ _
        (fun j hj => hB j (Int.natCast_nonneg _) (by omega))
        (hfacts k k0 k1).1 (hfacts k k0 k1).2.1
    obtain ⟨l, f1, f2, f3⟩ := ih x.tree col2 (extend_paths n last x paths) (2 * B) hrest e2
      (extend_paths_in n last x paths) hcount hbound (by omega)
      (by
        rw [List.length_cons, pow_succ] at h500
        push_cast
        nlinarith)
    refine ⟨col2 :: l, ?_, by simp [f2], ?_⟩
    · unfold count_columns
      simp only [hm, Option.some_bind, hpv, e1, f1, Option.map_some']
    · intro i hi
      cases i with
      | zero =>
        rw [readAt_cons_zero]
        refine ⟨e2, ?_⟩
        intro j j0 j1
        rw [hcount j j0 j1]
        simp [removal_paths_from]
      | succ i =>
        rw [readAt_cons_succ]
        have hi2 : i < rest.length := by
          rw [List.length_cons] at hi
          omega
        obtain ⟨g1, g2⟩ := f3 i hi2
        refine ⟨g1, ?_⟩
        intro j j0 j1
        rw [g2 j j0 j1]
        simp [removal_paths_from]

/-- The paths enumerated through a list of trees end in nodes of `[0, n)`. -/
theorem removal_paths_from_in (n : Nat) (rest : List LocalTreeSpr) :
    ∀ (last : LocalTree) (paths : List (List Int)),
      (∀ p ∈ paths, ∃ j : Nat, j < n ∧ p.head? = some (j : Int)) →
      ∀ p ∈ removal_paths_from n last rest paths, ∃ j : Nat, j < n ∧ p.head? = some (j : Int) := by
  induction rest with
  | nil =>
    intro last paths h
    exact h
  | cons x rest ih =>
    intro last paths h
    exact ih x.tree _ (extend_paths_in n last x paths)

/-- The paths through the first tree alone: one for each node. -/
theorem paths_to_init (n : Nat) (j : Int) (h0 : 0 ≤ j) (h1 : j < n) :
    paths_to ((List.range n).map fun (j : Nat) => [(j : Int)]) j = 1 := by
  obtain ⟨k, rfl⟩ := Int.eq_ofNat_of_zero_le h0
  have := countP_extensions n (fun _ => true) [] k (by omega)
  simp only [List.filter_true, if_true] at this
  exact this

theorem readAt_replicate_one (n : Nat) (j : Int) (h0 : 0 ≤ j) (h1 : j < n) :
    readAt (List.replicate n (1 : Nat)) j = 1 := by
  unfold readAt
  rw [if_pos h0]
  have : j.toNat < n := by omega
  simp [List.getD_eq_getElem?_getD, List.getElem?_replicate, this]

/-- The paths enumerated through the first `i + 1` trees end in nodes. -/
theorem removal_paths_in (trees : LocalTrees) (n : Nat) (hn : trees.nnodes = n) (i : Nat) :
    ∀ p ∈ removal_paths trees i, ∃ j : Nat, j < n ∧ p.head? = some (j : Int) := by
  unfold removal_paths
  cases trees.trees with
  | nil => intro p hp; cases hp
  | cons first rest =>
    simp only [hn, Int.toNat_ofNat]
    apply removal_paths_from_in
    intro p hp
    simp only [List.mem_map, List.mem_range] at hp
    obtain ⟨j, hj, rfl⟩ := hp
    exact ⟨j, hj, rfl⟩

/-- The table of `count_arg_removal_paths` on a consistent ARG that is short
enough for the cut-off of `logadd`: the call returns one column of `nnodes`
entries for each tree, and entry `j` of column `i` is the number of removal
paths through the first `i + 1` trees that end in node `j`. -/
theorem count_paths_spec (exp500 : ℚ) (trees : LocalTrees) (n : Nat) (hn : trees.nnodes = n)
    (h500 : (2 : ℚ) ^ (trees.trees.length - 1) ≤ exp500) (hc : ArgConsistent trees) :
    ∃ counts, count_arg_removal_paths exp500 trees = some counts ∧
      counts.length = trees.trees.length ∧
      ∀ i : Nat, i < trees.trees.length →
        (readAt counts (i : Int)).length = n ∧
        ∀ j : Int, 0 ≤ j → j < n →
          readAt (readAt counts (i : Int)) j = paths_to (removal_paths trees i) j := by
  obtain ⟨hpos, hl⟩ := hc
  unfold count_arg_removal_paths removal_paths
  cases hlist : trees.trees with
  | nil =>
    rw [hlist] at hl
    exact absurd hl (by unfold ListConsistent; exact not_false)
  | cons first rest =>
    rw [hlist] at hl h500
    have hl2 : TuplesConsistent n first.tree rest := by
      unfold ListConsistent at hl
      rw [hn] at hl
      exact hl
    simp only [hn, Int.toNat_ofNat]
    obtain ⟨l, f1, f2, f3⟩ := count_columns_spec exp500 n rest first.tree
      (List.replicate n 1) ((List.range n).map fun (j : Nat) => [(j : Int)]) 1 hl2
      (List.length_replicate _ _)
      (by
        intro p hp
        simp only [List.mem_map, List.mem_range] at hp
        obtain ⟨j, hj, rfl⟩ := hp
        exact ⟨j, hj, rfl⟩)
      (fun j j0 j1 => by rw [readAt_replicate_one n j j0 j1, paths_to_init n j j0 j1])
      (fun j j0 j1 => by rw [readAt_replicate_one n j j0 j1])
      (le_refl _)
      (by
        simp only [List.length_cons, Nat.add_sub_cancel] at h500
        simpa using h500)
    refine ⟨List.replicate n 1 :: l, ?_, by simp [f2], ?_⟩
    · rw [f1]
      rfl
    · intro i hi
      cases i with
      | zero =>
        rw [readAt_cons_zero]
        refine ⟨List.length_replicate _ _, ?_⟩
        intro j j0 j1
        rw [readAt_replicate_one n j j0 j1]
        simp only [List.take_zero, removal_paths_from]
        rw [paths_to_init n j j0 j1]
      | succ i =>
        rw [readAt_cons_succ]
        have hi2 : i < rest.length := by
          rw [List.length_cons] at hi
          omega
        exact f3 i hi2

/-- The tuples of `fibTuples` are consistent with the tree before them. -/
theorem fibTuples_consistent (k : Nat) :
    ∀ i : Nat, TuplesConsistent 3 (if i % 2 = 0 then tree3 else treeTall3) (fibTuples i k) := by
  induction k with
  | zero =>
    intro i
    unfold fibTuples TuplesConsistent
    trivial
  | succ k ih =>
    intro i
    unfold fibTuples TuplesConsistent
    have h := ih (i + 1)
    by_cases hi : i % 2 = 0
    · have h1 : ¬ (i + 1) % 2 = 0 := by omega
      rw [if_neg h1] at h
      rw [if_pos hi, if_pos hi]
      exact ⟨by decide, h⟩
    · have h1 : (i + 1) % 2 = 0 := by omega
      rw [if_pos h1] at h
      rw [if_neg hi, if_neg hi]
      exact ⟨by decide, h⟩

/-- The ARG `fibArg k` is consistent. -/
theorem fibArg_consistent (k : Nat) : ArgConsistent (fibArg k) :=
  ⟨show (0 : Int) < 3 by decide, fibTuples_consistent k 0⟩

/-- The last column of the table of `count_arg_removal_paths` on the ARG
`fibArg 31` of 32 trees. -/
theorem fibArg_last_column :
    (count_arg_removal_paths exp500Approx (fibArg 31)).map (fun c => readAt c 31) =
      some [1, 3524578, 2178309] := by
  decide!


/-- The entries of an array add up to the sum of the list. -/
theorem sum_readAt (l : List Nat) :
    ∀ n : Nat, l.length = n → ∑ j in Finset.range n, readAt l (j : Int) = l.sum := by
  induction l with
  | nil =>
    intro n hn
    simp only [List.length_nil] at hn
    subst hn
    simp
  | cons a l ih =>
    intro n hn
    cases n with
    | zero => simp at hn
    | succ k =>
      have h0 : readAt (a :: l) ((0 : Nat) : Int) = a := readAt_cons_zero a l
      have hs : ∑ j in Finset.range k, readAt (a :: l) ((j + 1 : Nat) : Int) =
          ∑ j in Finset.range k, readAt l (j : Int) :=
        Finset.sum_congr rfl (fun j _ => readAt_cons_succ a l j)
      rw [Finset.sum_range_succ', List.sum_cons, ← ih k (by simpa using hn), add_comm, h0, hs]

/-- The number of removal paths through the first `i + 1` trees of a
consistent ARG is the sum of column `i` of the table of
`count_arg_removal_paths`. -/
theorem removal_paths_length (exp500 : ℚ) (trees : LocalTrees) (n : Nat)
    (hn : trees.nnodes = n) (h500 : (2 : ℚ) ^ (trees.trees.length - 1) ≤ exp500)
    (hc : ArgConsistent trees) (i : Nat) (hi : i < trees.trees.length)
    (col : List Nat) (total : Nat)
    (hcol : (count_arg_removal_paths exp500 trees).map (fun c => readAt c (i : Int)) = some col)
    (hsum : col.sum = total) :
    (removal_paths trees i).length = total := by
  obtain ⟨counts, e1, e2, e3⟩ := count_paths_spec exp500 trees n hn h500 hc
  rw [e1] at hcol
  simp only [Option.map_some', Option.some.injEq] at hcol
  obtain ⟨r1, r2⟩ := e3 i hi
  rw [hcol] at r1 r2
  rw [length_eq_sum_paths_to n _ (removal_paths_in trees n hn i), ← hsum, ← sum_readAt col n r1]
  apply Finset.sum_congr rfl
  intro j hj
  rw [Finset.mem_range] at hj
  exact (r2 (j : Int) (Int.natCast_nonneg _) (by omega)).symm

theorem endOf_append_one {α : Type} (g : RegionValue α) (l : List (RegionValue α)) :
    ∀ a : Int, endOf a (l ++ [g]) = g.end_ := by
  induction l with
  | nil => intro a; rfl
  | cons r rest ih => intro a; exact ih r.end_

theorem check_flush_iff {α : Type} (l : List (RegionValue α)) :
    ∀ a : Int, check_flush a l = true ↔ Flush a l := by
  induction l with
  | nil => intro a; simp [check_flush, Flush]
  | cons r rest ih =>
    intro a
    unfold check_flush Flush
    by_cases h : r.start = a
    · rw [if_neg (not_not.mpr h), ih r.end_]
      exact ⟨fun x => ⟨h, x⟩, fun x => x.2⟩
    · rw [if_pos h]
      exact ⟨(fun x => by cases x), fun x => absurd x.1 h⟩

/-- The loop of `complete_map` when the function goes on to return `true`: the
regions it leaves are flush and end where the track ended. -/
theorem complete_loop_true {α : Type} (chrom : String) (d : α) (l : List (RegionValue α)) :
    ∀ last : Int, (complete_loop chrom d last l).2 = true →
      Flush last (complete_loop chrom d last l).1 ∧
      endOf last (complete_loop chrom d last l).1 = endOf last l := by
  induction l with
  | nil =>
    intro last _
    exact ⟨trivial, rfl⟩
  | cons r rest ih =>
    intro last h
    unfold complete_loop at h ⊢
    by_cases h1 : r.start > last
    · rw [if_pos h1] at h ⊢
      obtain ⟨i1, i2⟩ := ih r.end_ h
      exact ⟨⟨rfl, rfl, i1⟩, i2⟩
    · rw [if_neg h1] at h ⊢
      by_cases h2 : r.start < last
      · rw [if_pos h2] at h
        cases h
      · rw [if_neg h2] at h ⊢
        obtain ⟨i1, i2⟩ := ih r.end_ h
        exact ⟨⟨by omega, i1⟩, i2⟩

/-- The loop of `complete_map` when the function returns `false`: a region
starts before the end of the region before it. -/
theorem complete_loop_false {α : Type} (chrom : String) (d : α) (l : List (RegionValue α)) :
    ∀ last : Int, (complete_loop chrom d last l).2 = false → HasOverlap last l := by
  induction l with
  | nil =>
    intro last h
    cases h
  | cons r rest ih =>
    intro last h
    unfold complete_loop at h
    by_cases h1 : r.start > last
    · rw [if_pos h1] at h
      exact Or.inr (ih r.end_ h)
    · rw [if_neg h1] at h
      by_cases h2 : r.start < last
      · exact Or.inl h2
      · rw [if_neg h2] at h
        exact Or.inr (ih r.end_ h)

theorem hasOverlap_append {α : Type} (g : RegionValue α) (l : List (RegionValue α)) :
    ∀ a : Int, g.start = endOf a l → HasOverlap a (l ++ [g]) → HasOverlap a l := by
  induction l with
  | nil =>
    intro a hg h
    rcases h with h | h
    · have : g.start = a := hg
      omega
    · exact h
  | cons r rest ih =>
    intro a hg h
    rcases h with h | h
    · exact Or.inl h
    · exact Or.inr (ih r.end_ hg h)

theorem overlaps_of_hasOverlap {α : Type} (l : List (RegionValue α)) :
    ∀ first : RegionValue α, HasOverlap first.end_ l → Overlaps (first :: l) := by
  induction l with
  | nil =>
    intro first h
    exact absurd h (by unfold HasOverlap; exact not_false)
  | cons r rest ih =>
    intro first h
    rcases h with h | h
    · exact ⟨[], first, r, rest, rfl, h⟩
    · obtain ⟨l1, r1, r2, l2, e, hlt⟩ := ih r h
      exact ⟨first :: l1, r1, r2, l2, by rw [e]; rfl, hlt⟩

/-- The function `complete_map` on a non-empty track: the flag comes from the
loop over the regions after the first, followed by the gap appended at `end`;
the track is that of the loop after the first region, preceded by the gap
inserted at `start`. -/
theorem complete_map_cons {α : Type} (first : RegionValue α) (rest : List (RegionValue α))
    (chrom : String) (start end_ : Int) (d : α) :
    ∃ pre post : List (RegionValue α),
      (pre = [] ∧ first.start ≤ start ∨
        pre = [⟨chrom, start, first.start, d⟩] ∧ first.start > start) ∧
      (post = [] ∧ end_ ≤ endOf first.end_ rest ∨
        post = [⟨chrom, endOf first.end_ rest, end_, d⟩] ∧ endOf first.end_ rest < end_) ∧
      complete_map (first :: rest) chrom start end_ d =
        (pre ++ first :: (complete_loop chrom d first.end_ (rest ++ post)).1,
          (complete_loop chrom d first.end_ (rest ++ post)).2) := by
  have hback : ((first :: rest).getLast (List.cons_ne_nil first rest)).end_ =
      endOf first.end_ rest := getLast_end (first :: rest) 0 (List.cons_ne_nil first rest)
  unfold complete_map
  simp only [hback]
  by_cases h1 : first.start > start
  · by_cases h2 : endOf first.end_ rest < end_
    · refine ⟨_, _, Or.inr ⟨rfl, h1⟩, Or.inr ⟨rfl, h2⟩, ?_⟩
      simp only [if_pos h1, if_pos h2, List.cons_append, List.nil_append, complete_loop,
        gt_iff_lt, lt_irrefl, if_false]
    · refine ⟨_, _, Or.inr ⟨rfl, h1⟩, Or.inl ⟨rfl, by omega⟩, ?_⟩
      simp only [if_pos h1, if_neg h2, List.cons_append, List.nil_append, complete_loop,
        gt_iff_lt, lt_irrefl, if_false, List.append_nil]
  · by_cases h2 : endOf first.end_ rest < end_
    · refine ⟨_, _, Or.inl ⟨rfl, by omega⟩, Or.inr ⟨rfl, h2⟩, ?_⟩
      simp only [if_neg h1, if_pos h2, List.cons_append, List.nil_append]
    · refine ⟨_, _, Or.inl ⟨rfl, by omega⟩, Or.inl ⟨rfl, by omega⟩, ?_⟩
      simp only [if_neg h1, if_neg h2, List.nil_append, List.append_nil]

/-- The loop of `resample_arg_regions` for a window of at least 2 sites on an
ARG whose coordinates `resample_arg_region` keeps: it ends, every window is
`[start, min(start + currwindow, end_coord))`, and the windows cover every
site before `min(start + currwindow - currwindow/2 - 1, end_coord)` for the
value of `start` at the exit, which has `start + currwindow/2 >= end_coord`. -/
theorem regions_loop_spec (region : LocalTrees → Int → Int → LocalTrees × ℚ)
    (currwindow : Int) (trees : LocalTrees) (hw : 2 ≤ currwindow)
    (hlt : trees.start_coord < trees.end_coord)
    (hcoords : ∀ t a b, (region t a b).1.start_coord = t.start_coord ∧
      (region t a b).1.end_coord = t.end_coord) :
    ∃ r, resample_arg_regions region currwindow trees = some r ∧
      (∀ w ∈ r.2.2, trees.start_coord ≤ w.1 ∧ w.2 = min (w.1 + currwindow) trees.end_coord) ∧
      ∃ start : Int, trees.end_coord ≤ start + currwindow / 2 ∧
        ∀ x : Int, trees.start_coord ≤ x →
          x < min (start + currwindow - currwindow / 2 - 1) trees.end_coord →
          ∃ w ∈ r.2.2, w.1 ≤ x ∧ x < w.2 := by
  have hh : Int.tdiv currwindow 2 = currwindow / 2 :=
    Int.tdiv_eq_ediv (show (0 : Int) ≤ currwindow by omega) (by decide)
  have hh1 : 1 ≤ currwindow / 2 := by omega
  have hh2 : 2 * (currwindow / 2) ≤ currwindow := by omega
  obtain ⟨s, e1, ⟨i1, i2, i3, i4⟩, e3⟩ := whileLoop_inv
    (fun (s : RegionsLoop) =>
      decide (s.start = s.trees.start_coord ∨
        s.start + Int.tdiv currwindow 2 < s.trees.end_coord))
    (fun (s : RegionsLoop) =>
      let end_ := min (s.start + currwindow) s.trees.end_coord
      let r := region s.trees s.start end_
      some { trees := r.1, accept_rate := s.accept_rate + r.2, nwindows := s.nwindows + 1,
             start := s.start + (Int.tdiv currwindow 2 + 1),
             windows := s.windows ++ [(s.start, end_)] })
    (fun (s : RegionsLoop) =>
      s.trees.start_coord = trees.start_coord ∧ s.trees.end_coord = trees.end_coord ∧
      (∀ w ∈ s.windows,
        trees.start_coord ≤ w.1 ∧ w.2 = min (w.1 + currwindow) trees.end_coord) ∧
      ((s.start = trees.start_coord ∧ s.windows = []) ∨
        (trees.start_coord < s.start ∧
          ∀ x : Int, trees.start_coord ≤ x →
            x < min (s.start + currwindow - currwindow / 2 - 1) trees.end_coord →
            ∃ w ∈ s.windows, w.1 ≤ x ∧ x < w.2)))
    (fun (s : RegionsLoop) =>
      if s.start = trees.start_coord then (trees.end_coord - trees.start_coord).toNat + 1
      else (trees.end_coord - s.start).toNat)
    (by
      intro s ⟨a1, a2, a3, a4⟩ hc
      simp only [decide_eq_true_eq, a1, a2, hh] at hc
      refine ⟨_, rfl, ⟨?_, ?_, ?_, ?_⟩, ?_⟩
      · exact (hcoords _ _ _).1.trans a1
      · exact (hcoords _ _ _).2.trans a2
      · intro w hw2
        simp only [List.mem_append, List.mem_singleton] at hw2
        rcases hw2 with hw2 | hw2
        · exact a3 w hw2
        · subst hw2
          simp only [a2]
          refine ⟨?_, trivial⟩
          rcases a4 with ⟨b1, -⟩ | ⟨b1, -⟩ <;> omega
      · right
        simp only [hh]
        refine ⟨by rcases a4 with ⟨b1, -⟩ | ⟨b1, -⟩ <;> omega, ?_⟩
        intro x x0 x1
        by_cases hx : s.start ≤ x
        · refine ⟨(s.start, min (s.start + currwindow) s.trees.end_coord),
            by simp, hx, ?_⟩
          simp only [a2]
          omega
        · rcases a4 with ⟨b1, -⟩ | ⟨-, b2⟩
          · omega
          · obtain ⟨w, hw3, hw4⟩ := b2 x x0 (by omega)
            exact ⟨w, by simp [hw3], hw4⟩
      · simp only [hh]
        have hne : ¬ s.start + (currwindow / 2 + 1) = trees.start_coord := by
          rcases a4 with ⟨b1, -⟩ | ⟨b1, -⟩ <;> omega
        rw [if_neg hne]
        by_cases hs : s.start = trees.start_coord
        · rw [if_pos hs]
          omega
        · rw [if_neg hs]
          rcases hc with hc | hc
          · exact absurd hc hs
          · omega)
    ((trees.end_coord - trees.start_coord).toNat + 1)
    { trees := trees, accept_rate := 0, nwindows := 0, start := trees.start_coord,
      windows := [] }
    ⟨rfl, rfl, (fun w hw2 => by cases hw2), Or.inl ⟨rfl, rfl⟩⟩
    (by simp)
  simp only [decide_eq_false_iff_not, i1, i2, hh, not_or, not_lt] at e3
  refine ⟨(s.trees, s.accept_rate / s.nwindows, s.windows), ?_, i3, s.start, e3.2, ?_⟩
  · unfold resample_arg_regions
    simp only [e1, Option.map_some']
  · rcases i4 with ⟨b1, -⟩ | ⟨-, b2⟩
    · exact absurd b1 e3.1
    · exact b2

theorem forward_switch_zero_len (n : Int) (col2 : List ℚ) (hn : n ≤ col2.length) :
    ∃ c, forward_switch_zero n col2 = some c ∧ c.length = col2.length := by
  obtain ⟨m, h1, h2, -⟩ := forLoop_setAt_range (fun _ => (0 : ℚ)) n col2 hn
  exact ⟨m, h1, h2⟩

theorem forward_switch_determ_len (matrix : TransMatrixSwitch) (n1 n2 : Int) (col1 col2 : List ℚ)
    (h1 : n1 ≤ col1.length) (h2 : n2 ≤ col2.length)
    (hd : n1 ≤ matrix.determ.length) (hp : n1 ≤ matrix.determprob.length)
    (hr : n1 ≤ matrix.recombsrc.length) (hc : n1 ≤ matrix.recoalsrc.length)
    (hk : ∀ j : Int, 0 ≤ j → j < n1 →
      readAt matrix.determ j = -1 ∨ (0 ≤ readAt matrix.determ j ∧ readAt matrix.determ j < n2)) :
    ∃ c, forward_switch_determ matrix n1 col1 col2 = some c ∧ c.length = col2.length := by
  unfold forward_switch_determ
  refine forLoop_range_inv _ (fun _ (c : List ℚ) => c.length = col2.length) _ _ rfl ?_
  intro m c hm hP
  have hm2 : (m : Int) < n1 := by omega
  dsimp only
  rw [getAt_eq (show inArr matrix.determ (m : Int) from ⟨by omega, by omega⟩)]
  simp only [Option.some_bind]
  by_cases e1 : readAt matrix.determ (m : Int) = -1
  · rw [if_neg (by simpa using e1)]
    exact ⟨c, rfl, hP⟩
  rw [if_pos e1, getAt_eq (show inArr matrix.recombsrc (m : Int) from ⟨by omega, by omega⟩)]
  simp only [Option.some_bind]
  by_cases e2 : readAt matrix.recombsrc (m : Int) < 0
  swap
  · rw [if_neg e2]; exact ⟨c, rfl, hP⟩
  rw [if_pos e2, getAt_eq (show inArr matrix.recoalsrc (m : Int) from ⟨by omega, by omega⟩)]
  simp only [Option.some_bind]
  by_cases e3 : readAt matrix.recoalsrc (m : Int) < 0
  swap
  · rw [if_neg e3]; exact ⟨c, rfl, hP⟩
  rw [if_pos e3]
  have hin : inArr c (readAt matrix.determ (m : Int)) := by
    rcases hk m (by omega) hm2 with h | h
    · exact absurd h e1
    · exact ⟨h.1, by omega⟩
  rw [getAt_eq hin, getAt_eq (show inArr col1 (m : Int) from ⟨by omega, by omega⟩),
    getAt_eq (show inArr matrix.determprob (m : Int) from ⟨by omega, by omega⟩)]
  simp only [Option.some_bind]
  rw [setAt_eq _ hin]
  exact ⟨_, rfl, by rw [length_updAt, hP]⟩

theorem forward_switch_row_len (matrix : TransMatrixSwitch) (n2 : Int) (col1 : List ℚ) (j : Int)
    (col2 : List ℚ) (h2 : n2 ≤ col2.length) (hj : inArr col1 j) :
    ∃ c, forward_switch_row matrix n2 col1 j col2 = some c ∧ c.length = col2.length := by
  unfold forward_switch_row
  refine forLoop_range_inv _ (fun _ (c : List ℚ) => c.length = col2.length) _ _ rfl ?_
  intro m c hm hP
  dsimp only
  by_cases e1 : matrix.get j (m : Int) > 0
  swap
  · rw [if_neg e1]; exact ⟨c, rfl, hP⟩
  rw [if_pos e1]
  have hin : inArr c (m : Int) := ⟨by omega, by omega⟩
  rw [getAt_eq hin, getAt_eq hj]
  simp only [Option.some_bind]
  rw [setAt_eq _ hin]
  exact ⟨_, rfl, by rw [length_updAt, hP]⟩

theorem forward_switch_src_len (matrix : TransMatrixSwitch) (src other : List Int)
    (n1 n2 : Int) (col1 col2 : List ℚ)
    (h1 : n1 ≤ col1.length) (h2 : n2 ≤ col2.length)
    (hr : n1 ≤ src.length) (hc : n1 ≤ other.length)
    (hx : ∀ j : Int, 0 ≤ j → j < n1 → 0 ≤ readAt src j → readAt other j < 0) :
    ∃ c, forward_switch_src matrix src other n1 n2 col1 col2 = some c ∧
      c.length = col2.length := by
  unfold forward_switch_src
  refine forLoop_range_inv _ (fun _ (c : List ℚ) => c.length = col2.length) _ _ rfl ?_
  intro m c hm hP
  have hm2 : (m : Int) < n1 := by omega
  dsimp only
  rw [getAt_eq (show inArr src (m : Int) from ⟨by omega, by omega⟩)]
  simp only [Option.some_bind]
  by_cases e1 : readAt src (m : Int) ≥ 0
  swap
  · rw [if_neg e1]; exact ⟨c, rfl, hP⟩
  rw [if_pos e1, getAt_eq (show inArr other (m : Int) from ⟨by omega, by omega⟩)]
  simp only [Option.some_bind]
  have e2 := hx m (by omega) hm2 e1
  simp only [assertion, e2, decide_True, if_true, Option.some_bind]
  obtain ⟨c2, a1, a2⟩ := forward_switch_row_len matrix n2 col1 m c (by omega)
    ⟨by omega, by omega⟩
  exact ⟨c2, a1, by rw [a2, hP]⟩

theorem forward_switch_emit_spec (n2 : Int) (emit col2 : List ℚ)
    (h2 : n2 ≤ col2.length) (he : n2 ≤ emit.length) :
    ∃ u norm, forward_switch_emit n2 emit col2 = some (u, norm) ∧ u.length = col2.length ∧
      norm = columnSum n2 u := by
  unfold forward_switch_emit
  obtain ⟨s, a1, a2, a3⟩ := forLoop_range_inv
    (fun k (s : List ℚ × ℚ) =>
      (getAt s.1 k).bind fun old =>
      (getAt emit k).bind fun e =>
      (setAt s.1 k (old * e)).map fun c => (c, s.2 + readAt c k))
    (fun m s => s.1.length = col2.length ∧
      s.2 = ((List.range m).map fun (k : Nat) => readAt s.1 (k : Int)).sum)
    n2.toNat (col2, 0) ⟨rfl, by simp⟩ (by
      intro m s hm hP
      obtain ⟨p1, p2⟩ := hP
      have hin : inArr s.1 (m : Int) := ⟨by omega, by omega⟩
      dsimp only
      rw [getAt_eq hin, getAt_eq (show inArr emit (m : Int) from ⟨by omega, by omega⟩)]
      simp only [Option.some_bind]
      rw [setAt_eq _ hin]
      refine ⟨_, rfl, by rw [length_updAt, p1], ?_⟩
      dsimp only
      rw [List.range_succ, List.map_append, List.sum_append, p2]
      simp only [List.map_cons, List.map_nil, List.sum_cons, List.sum_nil, add_zero]
      congr 1
      congr 1
      apply List.map_congr_left
      intro k hk
      rw [List.mem_range] at hk
      rw [readAt_updAt_of_inArr _ _ _ _ hin, if_neg (by omega)])
  exact ⟨s.1, s.2, a1, a2, a3⟩

theorem forward_switch_unnorm_spec (col1 col2 : List ℚ) (matrix : TransMatrixSwitch)
    (emit : List ℚ)
    (h1 : max matrix.nstates1 1 ≤ col1.length) (h2 : max matrix.nstates2 1 ≤ col2.length)
    (he : max matrix.nstates2 1 ≤ emit.length)
    (hd : max matrix.nstates1 1 ≤ matrix.determ.length)
    (hp : max matrix.nstates1 1 ≤ matrix.determprob.length)
    (hr : max matrix.nstates1 1 ≤ matrix.recombsrc.length)
    (hc : max matrix.nstates1 1 ≤ matrix.recoalsrc.length)
    (hk : ∀ j : Int, 0 ≤ j → j < max matrix.nstates1 1 →
      readAt matrix.determ j = -1 ∨
        (0 ≤ readAt matrix.determ j ∧ readAt matrix.determ j < max matrix.nstates2 1))
    (hx : ∀ j : Int, 0 ≤ j → j < max matrix.nstates1 1 →
      readAt matrix.recombsrc j < 0 ∨ readAt matrix.recoalsrc j < 0) :
    ∃ u norm, forward_switch_unnorm col1 col2 matrix emit = some (u, norm) ∧
      u.length = col2.length ∧ norm = columnSum (max matrix.nstates2 1) u := by
  unfold forward_switch_unnorm
  obtain ⟨c1, a1, a2⟩ := forward_switch_zero_len (max matrix.nstates2 1) col2 h2
  obtain ⟨c2, b1, b2⟩ := forward_switch_determ_len matrix (max matrix.nstates1 1) (max matrix.nstates2 1) col1 c1 h1 (by omega) hd hp hr hc hk
  obtain ⟨c3, d1, d2⟩ := forward_switch_src_len matrix matrix.recombsrc matrix.recoalsrc
    (max matrix.nstates1 1) (max matrix.nstates2 1)
    col1 c2 h1 (by omega) hr hc (fun j j0 j1 hs => by
      rcases hx j j0 j1 with h | h
      · omega
      · exact h)
  obtain ⟨c4, e1, e2⟩ := forward_switch_src_len matrix matrix.recoalsrc matrix.recombsrc
    (max matrix.nstates1 1) (max matrix.nstates2 1)
    col1 c3 h1 (by omega) hc hr (fun j j0 j1 hs => by
      rcases hx j j0 j1 with h | h
      · exact h
      · omega)
  obtain ⟨u, norm, f1, f2, f3⟩ := forward_switch_emit_spec (max matrix.nstates2 1) emit c4 (by omega) he
  refine ⟨u, norm, ?_, by omega, f3⟩
  simp only [a1, b1, d1, e1, Option.some_bind]
  exact f1

theorem sum_map_div (l : List Nat) (f : Nat → ℚ) (c : ℚ) :
    (l.map fun k => f k / c).sum = (l.map f).sum / c := by
  induction l with
  | nil => simp
  | cons a l ih => simp only [List.map_cons, List.sum_cons, ih, add_div]

theorem forward_switch_divide (n2 : Int) (u : List ℚ) (norm : ℚ) (h2 : n2 ≤ u.length) :
    ∃ c, forLoop (fun k c => (getAt c k).bind fun old => setAt c k (old / norm))
        (List.range n2.toNat) u = some c ∧ c.length = u.length ∧
      ∀ k : Int, 0 ≤ k → k < n2 → readAt c k = readAt u k / norm := by
  obtain ⟨c, a1, a2, a3, a4⟩ := forLoop_range_inv
    (fun k (c : List ℚ) => (getAt c k).bind fun old => setAt c k (old / norm))
    (fun m c => c.length = u.length ∧
      (∀ k : Int, 0 ≤ k → k < m → readAt c k = readAt u k / norm) ∧
      (∀ k : Int, (m : Int) ≤ k → readAt c k = readAt u k))
    n2.toNat u ⟨rfl, fun k k0 k1 => by omega, fun _ _ => rfl⟩ (by
      intro m c hm hP
      obtain ⟨p1, p2, p3⟩ := hP
      have hin : inArr c (m : Int) := ⟨by omega, by omega⟩
      dsimp only
      rw [getAt_eq hin]
      simp only [Option.some_bind]
      rw [setAt_eq _ hin]
      refine ⟨_, rfl, by rw [length_updAt, p1], ?_, ?_⟩
      · intro k k0 k1
        rw [readAt_updAt_of_inArr _ _ _ _ hin]
        by_cases hkm : k = (m : Int)
        · rw [if_pos hkm, hkm, p3 _ (le_refl _)]
        · rw [if_neg hkm]; exact p2 k k0 (by omega)
      · intro k hk
        rw [readAt_updAt_of_inArr _ _ _ _ hin, if_neg (by omega)]
        exact p3 k (by omega))
  exact ⟨c, a1, a2, fun k k0 k1 => a3 k k0 (by omega)⟩

theorem mem_nodeRange (n x : Int) : x ∈ nodeRange n ↔ 0 ≤ x ∧ x < n := by
  unfold nodeRange
  simp only [List.mem_map, List.mem_range]
  constructor
  · rintro ⟨a, ha, rfl⟩
    simp only [Int.ofNat_eq_coe]
    omega
  · rintro ⟨h0, h1⟩
    exact ⟨x.toNat, by omega, by simp only [Int.ofNat_eq_coe]; omega⟩

theorem nodeRange_nodup (n : Int) : (nodeRange n).Nodup := by
  unfold nodeRange
  exact List.Nodup.map (fun a b h => by simpa using h) (List.nodup_range _)

theorem nodeRange_length (n : Int) : (nodeRange n).length = n.toNat := by
  simp [nodeRange]

theorem nodup_nodes_length (n : Int) (w : List Int) (hn : w.Nodup)
    (hw : ∀ x ∈ w, 0 ≤ x ∧ x < n) : w.length ≤ n.toNat := by
  have := (List.subperm_of_subset hn (fun x hx => (mem_nodeRange n x).2 (hw x hx))).length_le
  rwa [nodeRange_length] at this

theorem all_nodes_length (n : Int) (w : List Int)
    (hw : ∀ x : Int, 0 ≤ x → x < n → x ∈ w) : n.toNat ≤ w.length := by
  have := (List.subperm_of_subset (nodeRange_nodup n)
    (fun x hx => hw x ((mem_nodeRange n x).1 hx).1 ((mem_nodeRange n x).1 hx).2)).length_le
  rwa [nodeRange_length] at this

theorem nodes_perm (n : Int) (w : List Int) (hn : w.Nodup)
    (hw : ∀ x ∈ w, 0 ≤ x ∧ x < n) (hl : n.toNat ≤ w.length) : w.Perm (nodeRange n) :=
  (List.subperm_of_subset hn (fun x hx => (mem_nodeRange n x).2 (hw x hx))).perm_of_length_le
    (by rw [nodeRange_length]; exact hl)

/-- In a list of distinct nodes at most two have the parent `p`; when two have,
`p` is an internal node and both of its children are in the list. -/
theorem count_children_le (t : LocalTree) (hwf : WellFormed t) (l : List Int) (hn : l.Nodup)
    (hl : ∀ x ∈ l, t.isNode x) (p : Int) (hp : t.isNode p) :
    l.countP (fun x => decide ((t.node x).parent = p)) ≤ 2 ∧
    (l.countP (fun x => decide ((t.node x).parent = p)) = 2 →
      (t.node p).child0 ∈ l ∧ (t.node p).child1 ∈ l) := by
  rw [List.countP_eq_length_filter]
  have hsub : l.filter (fun x => decide ((t.node x).parent = p))
      ⊆ [(t.node p).child0, (t.node p).child1] := by
    intro x hx
    rw [List.mem_filter] at hx
    obtain ⟨hx1, hx2⟩ := hx
    have hx3 : (t.node x).parent = p := by simpa using hx2
    rcases hwf.parent_cases (hl x hx1) with ⟨h1, -⟩ | ⟨-, -, -, h4⟩
    · rw [hx3] at h1; have := hp.1; omega
    · rw [hx3] at h4
      rcases h4 with h | h
      · rw [h]; exact List.mem_cons_self _ _
      · rw [h]; exact List.mem_cons_of_mem _ (List.mem_cons_self _ _)
  have hnd := hn.filter (fun x => decide ((t.node x).parent = p))
  have hsp := List.subperm_of_subset hnd hsub
  refine ⟨by simpa using hsp.length_le, fun h2 => ?_⟩
  have hperm := hsp.perm_of_length_le (by rw [h2]; simp)
  have m0 : (t.node p).child0 ∈ l.filter (fun x => decide ((t.node x).parent = p)) :=
    hperm.symm.subset (List.mem_cons_self _ _)
  have m1 : (t.node p).child1 ∈ l.filter (fun x => decide ((t.node x).parent = p)) :=
    hperm.symm.subset (List.mem_cons_of_mem _ (List.mem_cons_self _ _))
  exact ⟨(List.mem_filter.1 m0).1, (List.mem_filter.1 m1).1⟩

/-- When both children of an internal node are in the list, two entries of the
list have that node as parent. -/
theorem count_children_ge (t : LocalTree) (hwf : WellFormed t) (l : List Int)
    (p : Int) (hp : t.isNode p) (hi : (t.node p).child0 ≠ -1)
    (h0 : (t.node p).child0 ∈ l) (h1 : (t.node p).child1 ∈ l) :
    2 ≤ l.countP (fun x => decide ((t.node x).parent = p)) := by
  rw [List.countP_eq_length_filter]
  rcases hwf.children hp with ⟨a, -⟩ | ⟨-, -, c3, c4, c5⟩
  · exact absurd a hi
  have hnd : [(t.node p).child0, (t.node p).child1].Nodup := by
    simp only [List.nodup_cons, List.mem_singleton, List.not_mem_nil, not_false_eq_true,
      List.nodup_nil, and_true]
    exact c3
  have hsub : [(t.node p).child0, (t.node p).child1]
      ⊆ l.filter (fun x => decide ((t.node x).parent = p)) := by
    intro x hx
    simp only [List.mem_cons, List.mem_singleton, List.not_mem_nil, or_false] at hx
    rw [List.mem_filter]
    rcases hx with rfl | rfl
    · exact ⟨h0, by simpa using c4⟩
    · exact ⟨h1, by simpa using c5⟩
  simpa using (List.subperm_of_subset hnd hsub).length_le

/-- While the loop "add the remaining nodes" has passes left, the entry it is
about to read has been written. -/
theorem postorder_progress (t : LocalTree) (hwf : WellFormed t) (cap i : Nat)
    (s : PostorderFill) (w : List Int) (inv : PostorderInv t cap i s w)
    (hi : (i : Int) < t.nnodes) : i < w.length := by
  by_contra hcon
  have hlen : w.length = i := by have := inv.hle; omega
  have htake : w.take i = w := List.take_of_length_le (by omega)
  obtain ⟨rank, hr1, hr2⟩ := hwf.exists_rank_le
  have hall : ∀ (d : Nat) (x : Int), t.isNode x → t.nnodes.toNat < rank x + d → x ∈ w := by
    intro d
    induction d with
    | zero =>
      intro x hx h
      have := hr1 x hx
      omega
    | succ d ih =>
      intro x hx h
      by_cases hleaf : (t.node x).child0 = -1
      · exact (inv.hmem x hx).2 (Or.inl hleaf)
      rcases hwf.children hx with ⟨a, -⟩ | ⟨c1, c2, c3, c4, c5⟩
      · exact absurd a hleaf
      have hx0 : (0 : Int) ≤ x := hx.1
      have r0 := hr2 _ c1 (by rw [c4]; omega)
      have r1 := hr2 _ c2 (by rw [c5]; omega)
      rw [c4] at r0
      rw [c5] at r1
      have m0 := ih _ c1 (by omega)
      have m1 := ih _ c2 (by omega)
      have hge := count_children_ge t hwf w x hx hleaf m0 m1
      have hle := (count_children_le t hwf w inv.hnd inv.hnode x hx).1
      have hc := inv.hcount x hx
      rw [htake] at hc
      exact (inv.hmem x hx).2 (Or.inr (by rw [hc]; omega))
  have := all_nodes_length t.nnodes w (fun x x0 x1 => hall (t.nnodes.toNat + 1) x ⟨x0, x1⟩
    (by omega))
  omega

theorem countP_take_succ (w : List Int) (m : Nat) (o : Int) (ho : w[m]? = some o)
    (f : Int → Bool) :
    (w.take (m + 1)).countP f = (w.take m).countP f + (if f o = true then 1 else 0) := by
  rw [List.take_succ, ho]
  simp only [Option.toList_some, List.countP_append, List.countP_cons, List.countP_nil,
    zero_add]

theorem readOrder_eq (order : List (Option Int)) (i : Int) (h : inArr order i) (x : Int)
    (hx : readAt order i = some x) : readOrder order i = some x := by
  unfold readOrder
  rw [getAt_eq h, hx]
  rfl

/-- One pass of the loop "add the remaining nodes" runs through and keeps the
invariant. -/
theorem postorder_pass_spec (t : LocalTree) (hwf : WellFormed t) (cap : Nat)
    (hcap : t.nnodes ≤ cap) (m : Nat) (s : PostorderFill) (w : List Int)
    (inv : PostorderInv t cap m s w) (hm : (m : Int) < t.nnodes) :
    ∃ s2 w2, postorder_pass t (m : Int) s = some s2 ∧ PostorderInv t cap (m + 1) s2 w2 := by
  have hlt := postorder_progress t hwf cap m s w inv hm
  have hwlen : w.length ≤ t.nnodes.toNat :=
    nodup_nodes_length t.nnodes w inv.hnd (fun x hx => inv.hnode x hx)
  obtain ⟨o, ho⟩ : ∃ o, w[m]? = some o := ⟨w[m], List.getElem?_eq_getElem hlt⟩
  have hoin : o ∈ w := by
    obtain ⟨h1, h2⟩ := List.getElem?_eq_some.1 ho
    rw [← h2]; exact List.getElem_mem _
  have hon : t.isNode o := inv.hnode o hoin
  have hord : readOrder s.order (m : Int) = some o :=
    readOrder_eq _ _ ⟨by omega, by rw [inv.hlen]; omega⟩ o (by rw [inv.hread m hlt, ho])
  have hget : getNode t.nodes o = some (t.node o) := getNode_eq (hwf.inArr hon)
  have htk : ∀ f : Int → Bool,
      (w.take (m + 1)).countP f = (w.take m).countP f + (if f o = true then 1 else 0) :=
    countP_take_succ w m o ho
  unfold postorder_pass
  rw [hord]
  simp only [Option.some_bind, hget]
  by_cases hp : (t.node o).parent = -1
  · rw [if_neg (by simpa using hp)]
    refine ⟨s, w, rfl, ?_⟩
    refine { inv with hcount := ?_, hle := hlt }
    intro p hp2
    rw [inv.hcount p hp2, htk]
    have : ¬ (t.node o).parent = p := by
      intro e; rw [hp] at e; have := hp2.1; omega
    simp [this]
  rw [if_pos hp]
  rcases hwf.parent_cases hon with ⟨h1, -⟩ | ⟨-, -, hpn, hpc⟩
  · exact absurd h1 hp
  have hvin : inArr s.visit (t.node o).parent := ⟨hpn.1, by rw [inv.hvis]; have := hpn.2; omega⟩
  rw [getAt_eq hvin]
  simp only [Option.some_bind]
  rw [setAt_eq _ hvin]
  simp only [Option.some_bind]
  -- the parent is an internal node
  have hint : (t.node (t.node o).parent).child0 ≠ -1 := by
    intro hl
    rcases hwf.children hpn with ⟨-, a2⟩ | ⟨c1, -⟩
    · have := hon.1
      rcases hpc with h | h
      · omega
      · omega
    · have := c1.1; omega
  -- the counter of the parent after the pass
  have hcnt : readAt s.visit (t.node o).parent + 1
      = (((w.take (m + 1)).countP fun x => decide ((t.node x).parent = (t.node o).parent) : Nat)
          : Int) := by
    rw [inv.hcount _ hpn, htk]
    simp
  have htn : (w.take (m + 1)).Nodup := inv.hnd.sublist (List.take_sublist _ _)
  have htnode : ∀ x ∈ w.take (m + 1), t.isNode x := fun x hx =>
    inv.hnode x (List.mem_of_mem_take hx)
  obtain ⟨hc2, hc3⟩ := count_children_le t hwf (w.take (m + 1)) htn htnode _ hpn
  have hcounts : ∀ q, t.isNode q →
      readAt (updAt s.visit (t.node o).parent (readAt s.visit (t.node o).parent + 1)) q
        = (((w.take (m + 1)).countP fun x => decide ((t.node x).parent = q) : Nat) : Int) := by
    intro q hq
    rw [readAt_updAt_of_inArr _ _ _ _ hvin]
    by_cases hqp : q = (t.node o).parent
    · rw [if_pos hqp, hqp]; exact hcnt
    · rw [if_neg hqp, inv.hcount q hq, htk]
      have : ¬ (t.node o).parent = q := fun e => hqp e.symm
      simp [this]
  have hnotin : (t.node o).parent ∉ w := by
    intro hin
    rcases (inv.hmem _ hpn).1 hin with h | h
    · exact hint h
    · rw [h] at hcnt; omega
  by_cases hv : readAt s.visit (t.node o).parent + 1 = 2
  · rw [if_pos hv]
    have hc4 := hc3 (by omega)
    have hnd2 : (w ++ [(t.node o).parent]).Nodup := by
      rw [List.nodup_append]
      refine ⟨inv.hnd, List.nodup_singleton _, ?_⟩
      intro a ha hb
      rw [List.mem_singleton] at hb
      exact hnotin (hb ▸ ha)
    have hnode2 : ∀ x ∈ w ++ [(t.node o).parent], t.isNode x := by
      intro x hx
      rw [List.mem_append, List.mem_singleton] at hx
      rcases hx with h | h
      · exact inv.hnode x h
      · rw [h]; exact hpn
    have hlen2 := nodup_nodes_length t.nnodes _ hnd2 (fun x hx => hnode2 x hx)
    rw [List.length_append, List.length_singleton] at hlen2
    have hoin2 : inArr s.order s.end_ := ⟨by rw [inv.hend]; omega, by
      rw [inv.hend, inv.hlen]; omega⟩
    rw [setAt_eq _ hoin2]
    simp only [Option.map_some']
    refine ⟨_, w ++ [(t.node o).parent], rfl, ?_⟩
    refine ⟨?_, ?_, ?_, ?_, hnd2, hnode2, ?_, ?_, ?_, ?_⟩
    · simp only [List.length_append, List.length_singleton, Nat.cast_add, Nat.cast_one]
      rw [inv.hend]
    · simp only [length_updAt]; exact inv.hlen
    · simp only [length_updAt]; exact inv.hvis
    · intro k hk
      rw [List.length_append, List.length_singleton] at hk
      dsimp only
      rw [readAt_updAt_of_inArr _ _ _ _ hoin2, inv.hend]
      by_cases hkw : k < w.length
      · rw [if_neg (by omega), inv.hread k hkw, List.getElem?_append_left hkw]
      · have hk2 : k = w.length := by omega
        rw [if_pos (by omega), hk2, List.getElem?_append_right (le_refl _)]
        simp
    · intro x hx
      dsimp only
      rw [List.mem_append, List.mem_singleton, readAt_updAt_of_inArr _ _ _ _ hvin]
      by_cases hxp : x = (t.node o).parent
      · rw [if_pos hxp]
        constructor
        · intro _; exact Or.inr hv
        · intro _; exact Or.inr hxp
      · rw [if_neg hxp, ← inv.hmem x hx]
        constructor
        · rintro (h | h)
          · exact h
          · exact absurd h hxp
        · intro h; exact Or.inl h
    · intro q hq
      dsimp only
      rw [List.take_append_of_le_length (by omega)]
      exact hcounts q hq
    · rw [List.length_append, List.length_singleton]; omega
    · intro k x hk hx
      by_cases hkw : k < w.length
      · rw [List.getElem?_append_left hkw] at hk
        rw [List.take_append_of_le_length (by omega)]
        exact inv.hpost k x hk hx
      · have hk1 := (List.getElem?_eq_some.1 hk).1
        rw [List.length_append, List.length_singleton] at hk1
        have hk2 : k = w.length := by omega
        rw [hk2, List.getElem?_append_right (le_refl _)] at hk
        simp at hk
        subst hk
        rw [hk2, List.take_append_of_le_length (le_refl _), List.take_length]
        exact ⟨List.mem_of_mem_take hc4.1, List.mem_of_mem_take hc4.2⟩
  · rw [if_neg hv]
    refine ⟨_, w, rfl, ?_⟩
    refine ⟨inv.hend, inv.hlen, ?_, inv.hread, inv.hnd, inv.hnode, ?_, ?_, hlt, inv.hpost⟩
    · simp only [length_updAt]; exact inv.hvis
    · intro x hx
      dsimp only
      rw [readAt_updAt_of_inArr _ _ _ _ hvin]
      by_cases hxp : x = (t.node o).parent
      · rw [if_pos hxp, hxp]
        constructor
        · intro h; exact absurd h hnotin
        · rintro (h | h)
          · exact absurd h hint
          · exact absurd h hv
      · rw [if_neg hxp]; exact inv.hmem x hx
    · intro q hq
      exact hcounts q hq

/-- The loop "list leaves first": it stops at an index `L`, has written
`order[k] = k` for the leaves `k < L`, and node `L` is not a leaf when
`L < nnodes`. -/
theorem postorder_leaves_spec (t : LocalTree) (hn : t.nnodes ≤ t.nodes.length) (cap : Nat)
    (hcap : t.nnodes ≤ cap) :
    ∀ (fuel : Nat) (i : Int) (order : List (Option Int)), 0 ≤ i → i + fuel = t.nnodes →
      order.length = cap →
      (∀ k : Nat, (k : Int) < i →
        readAt order (k : Int) = some (k : Int) ∧ (t.node (k : Int)).child0 = -1) →
      ∃ L order2, postorder_leaves t fuel i order = some (L, order2) ∧ i ≤ L ∧
        L ≤ t.nnodes ∧ order2.length = cap ∧
        (∀ k : Nat, (k : Int) < L →
          readAt order2 (k : Int) = some (k : Int) ∧ (t.node (k : Int)).child0 = -1) ∧
        (L < t.nnodes → (t.node L).child0 ≠ -1) := by
  intro fuel
  induction fuel with
  | zero =>
    intro i order h0 h1 h2 h3
    exact ⟨i, order, rfl, le_refl _, by omega, h2, h3, fun h => by omega⟩
  | succ fuel ih =>
    intro i order h0 h1 h2 h3
    have hi : i < t.nnodes := by omega
    unfold postorder_leaves
    rw [if_pos hi, getNode_eq (show inArr t.nodes i from ⟨h0, by omega⟩)]
    simp only [Option.some_bind]
    by_cases hleaf : (t.node i).child0 = -1
    · have hl : (nodeAt t.nodes i).is_leaf = true := by
        simp only [LocalNode.is_leaf, beq_iff_eq]; exact hleaf
      rw [hl]
      simp only [Bool.not_true, Bool.false_eq_true, if_false]
      have hin : inArr order i := ⟨h0, by omega⟩
      rw [setAt_eq _ hin]
      simp only [Option.some_bind]
      obtain ⟨L, order2, a1, a2, a3, a4, a5, a6⟩ := ih (i + 1) (updAt order i (some i))
        (by omega) (by omega) (by rw [length_updAt]; exact h2) (by
          intro k hk
          rw [readAt_updAt_of_inArr _ _ _ _ hin]
          by_cases hki : (k : Int) = i
          · rw [if_pos hki, hki]; exact ⟨rfl, hleaf⟩
          · rw [if_neg hki]; exact h3 k (by omega))
      exact ⟨L, order2, a1, by omega, a3, a4, a5, a6⟩
    · have hl : (nodeAt t.nodes i).is_leaf = false := by
        simp only [LocalNode.is_leaf, beq_eq_false_iff_ne]; exact hleaf
      rw [hl]
      simp only [Bool.not_false, if_true]
      exact ⟨i, order, rfl, le_refl _, by omega, h2, h3, fun _ => hleaf⟩

theorem getElem?_nodeRange (n : Int) (k : Nat) (hk : k < n.toNat) :
    (nodeRange n)[k]? = some (k : Int) := by
  unfold nodeRange
  rw [List.getElem?_map, List.getElem?_range hk]
  rfl

/-- After the loop "list leaves first" the invariant of the loop "add the
remaining nodes" holds. -/
theorem postorder_inv_init (t : LocalTree) (hwf : WellFormed t) (cap : Nat)
    (hleaves : ∀ i j : Int, 0 ≤ i → i ≤ j → j < t.nnodes → (t.node j).child0 = -1 →
      (t.node i).child0 = -1)
    (L : Int) (order2 : List (Option Int)) (h0 : 0 ≤ L) (h1 : L ≤ t.nnodes)
    (h2 : order2.length = cap)
    (h3 : ∀ k : Nat, (k : Int) < L →
      readAt order2 (k : Int) = some (k : Int) ∧ (t.node (k : Int)).child0 = -1)
    (h4 : L < t.nnodes → (t.node L).child0 ≠ -1) :
    PostorderInv t cap 0
      { visit := List.replicate t.nnodes.toNat (0 : Int), order := order2, end_ := L }
      (nodeRange L) := by
  refine ⟨?_, h2, by simp, ?_, nodeRange_nodup L, ?_, ?_, ?_, Nat.zero_le _, ?_⟩
  · rw [nodeRange_length]; dsimp only; omega
  · intro k hk
    rw [nodeRange_length] at hk
    rw [getElem?_nodeRange L k hk]
    exact (h3 k (by omega)).1
  · intro x hx
    rw [mem_nodeRange] at hx
    exact ⟨hx.1, by omega⟩
  · intro x hx
    rw [mem_nodeRange, readAt_replicate_zero]
    constructor
    · intro h
      have := (h3 x.toNat (by omega)).2
      rw [Int.toNat_of_nonneg h.1] at this
      exact Or.inl this
    · rintro (h | h)
      · refine ⟨hx.1, ?_⟩
        by_contra hcon
        have hL : L < t.nnodes := by have := hx.2; omega
        exact h4 hL (hleaves L x h0 (by omega) hx.2 h)
      · omega
  · intro p hp
    rw [readAt_replicate_zero]
    simp
  · intro k x hk hx
    have hk1 := (List.getElem?_eq_some.1 hk).1
    rw [nodeRange_length] at hk1
    rw [getElem?_nodeRange L k hk1] at hk
    have hxk : (k : Int) = x := by simpa using hk
    have := (h3 k (by omega)).2
    rw [hxk] at this
    exact absurd this hx

/-- In a complete postorder the last entry is the root. -/
theorem postorder_last_root (t : LocalTree) (hwf : WellFormed t) (w : List Int)
    (hnd : w.Nodup) (hall : ∀ x : Int, t.isNode x ↔ x ∈ w)
    (hpost : ∀ (k : Nat) (x : Int), w[k]? = some x → (t.node x).child0 ≠ -1 →
      (t.node x).child0 ∈ w.take k ∧ (t.node x).child1 ∈ w.take k) :
    w.getLast? = some t.root := by
  have hroot : t.root ∈ w := (hall _).1 hwf.2.1
  have hne : w ≠ [] := List.ne_nil_of_mem hroot
  obtain ⟨d, x, rfl⟩ : ∃ d x, w = d ++ [x] :=
    ⟨w.dropLast, w.getLast hne, (List.dropLast_append_getLast hne).symm⟩
  have hlast : (d ++ [x]).getLast? = some x := by simp
  rw [hlast]
  congr 1
  have hx : t.isNode x := (hall x).2 (by simp)
  rcases hwf.parent_cases hx with ⟨-, h⟩ | ⟨hp, -, hpn, hpc⟩
  · exact h
  exfalso
  have hint : (t.node (t.node x).parent).child0 ≠ -1 := by
    intro hl
    rcases hwf.children hpn with ⟨-, a2⟩ | ⟨c1, -⟩
    · have := hx.1
      rcases hpc with h | h
      · omega
      · omega
    · have := c1.1; omega
  obtain ⟨k, hk⟩ := List.getElem?_of_mem ((hall _).1 hpn)
  have hk1 := (List.getElem?_eq_some.1 hk).1
  rw [List.length_append, List.length_singleton] at hk1
  obtain ⟨m0, m1⟩ := hpost k _ hk hint
  rw [List.take_append_of_le_length (by omega)] at m0 m1
  have hxd : x ∈ d := by
    rcases hpc with h | h
    · rw [← h]; exact List.mem_of_mem_take m0
    · rw [← h]; exact List.mem_of_mem_take m1
  rw [List.nodup_append] at hnd
  exact hnd.2.2 hxd (List.mem_singleton_self x)

/-- The loop of `assert_tree_postorder` from index `i` on, on an array whose
written part `w` has every internal node after both of its children. -/
theorem assert_postorder_loop_true (t : LocalTree) (hwf : WellFormed t)
    (out : List (Option Int)) (w : List Int) (hlen : w.length = t.nnodes.toNat)
    (hout : (w.length : Int) ≤ out.length)
    (hread : ∀ k : Nat, k < w.length → readAt out (k : Int) = w[k]?)
    (hnode : ∀ x ∈ w, t.isNode x)
    (hpost : ∀ (k : Nat) (x : Int), w[k]? = some x → (t.node x).child0 ≠ -1 →
      (t.node x).child0 ∈ w.take k ∧ (t.node x).child1 ∈ w.take k) :
    ∀ (k i : Nat) (seen : List Bool), i + k = t.nnodes.toNat → seen.length = t.nnodes.toNat →
      (∀ x : Int, t.isNode x → readAt seen x = decide (x ∈ w.take i)) →
      assert_postorder_loop t out (List.range' i k) seen = some true := by
  intro k
  induction k with
  | zero => intro i seen _ _ _; rfl
  | succ k ih =>
    intro i seen h1 h2 h3
    have hi : i < w.length := by omega
    obtain ⟨o, ho⟩ : ∃ o, w[i]? = some o := ⟨w[i], List.getElem?_eq_getElem hi⟩
    have hoin : o ∈ w := by
      obtain ⟨a1, a2⟩ := List.getElem?_eq_some.1 ho
      rw [← a2]; exact List.getElem_mem _
    have hon : t.isNode o := hnode o hoin
    have hord : readOrder out (i : Int) = some o :=
      readOrder_eq _ _ ⟨by omega, by omega⟩ o (by rw [hread i hi, ho])
    have hsin : inArr seen o := ⟨hon.1, by rw [h2]; have := hon.2; omega⟩
    have htake : w.take (i + 1) = w.take i ++ [o] := by
      rw [List.take_succ, ho]; rfl
    have hseen : ∀ x : Int, t.isNode x →
        readAt (updAt seen o true) x = decide (x ∈ w.take (i + 1)) := by
      intro x hx
      rw [readAt_updAt_of_inArr _ _ _ _ hsin, htake]
      by_cases hxo : x = o
      · rw [if_pos hxo]; simp [hxo]
      · rw [if_neg hxo, h3 x hx]; simp [hxo]
    have hrec := ih (i + 1) (updAt seen o true) (by omega) (by rw [length_updAt]; exact h2) hseen
    rw [List.range'_succ]
    unfold assert_postorder_loop
    rw [hord]
    simp only [Option.some_bind]
    rw [setAt_eq _ hsin]
    simp only [Option.some_bind, getNode_eq (hwf.inArr hon)]
    by_cases hleaf : (t.node o).child0 = -1
    · have hl : (nodeAt t.nodes o).is_leaf = true := by
        simp only [LocalNode.is_leaf, beq_iff_eq]; exact hleaf
      rw [hl]
      simp only [Bool.not_true, Bool.false_eq_true, if_false]
      exact hrec
    · have hl : (nodeAt t.nodes o).is_leaf = false := by
        simp only [LocalNode.is_leaf, beq_eq_false_iff_ne]; exact hleaf
      rw [hl]
      simp only [Bool.not_false, if_true]
      obtain ⟨m0, m1⟩ := hpost i o ho hleaf
      have n0 : t.isNode (t.node o).child0 := hnode _ (List.mem_of_mem_take m0)
      have n1 : t.isNode (t.node o).child1 := hnode _ (List.mem_of_mem_take m1)
      have s0 : readAt (updAt seen o true) (t.node o).child0 = true := by
        rw [hseen _ n0, htake]; simp [m0]
      have s1 : readAt (updAt seen o true) (t.node o).child1 = true := by
        rw [hseen _ n1, htake]; simp [m1]
      have i0 : inArr (updAt seen o true) (t.node o).child0 :=
        ⟨n0.1, by rw [length_updAt, h2]; have := n0.2; omega⟩
      have i1 : inArr (updAt seen o true) (t.node o).child1 :=
        ⟨n1.1, by rw [length_updAt, h2]; have := n1.2; omega⟩
      have g0 : getAt (updAt seen o true) (nodeAt t.nodes o).child0 = some true := by
        show getAt (updAt seen o true) (t.node o).child0 = some true
        rw [getAt_eq i0]; exact congrArg some s0
      have g1 : getAt (updAt seen o true) (nodeAt t.nodes o).child1 = some true := by
        show getAt (updAt seen o true) (t.node o).child1 = some true
        rw [getAt_eq i1]; exact congrArg some s1
      rw [g0]
      simp only [Option.some_bind, Bool.not_true, Bool.false_eq_true, if_false]
      rw [g1]
      simp only [Option.some_bind, Bool.not_true, Bool.false_eq_true, if_false]
      exact hrec

/-- The function `get_postorder` on a well-formed tree whose leaves occupy
the first slots: it runs through, and the entries written are a postorder. -/
theorem get_postorder_spec (t : LocalTree) (order : List (Option Int)) (hwf : WellFormed t)
    (hleaves : ∀ i j : Int, 0 ≤ i → i ≤ j → j < t.nnodes → (t.node j).child0 = -1 →
      (t.node i).child0 = -1)
    (hcap : t.nnodes ≤ order.length) :
    ∃ (out : List (Option Int)) (w : List Int), t.get_postorder order = some out ∧ out.length = order.length ∧
      w.length = t.nnodes.toNat ∧
      (∀ k : Nat, k < w.length → readAt out (k : Int) = w[k]?) ∧
      w.Nodup ∧ (∀ x ∈ w, t.isNode x) ∧
      (∀ (k : Nat) (x : Int), w[k]? = some x → (t.node x).child0 ≠ -1 →
        (t.node x).child0 ∈ w.take k ∧ (t.node x).child1 ∈ w.take k) := by
  have hn := hwf.1
  have hroot := hwf.2.1
  obtain ⟨L, order2, a1, a2, a3, a4, a5, a6⟩ := postorder_leaves_spec t hn order.length hcap
    t.nnodes.toNat 0 order (le_refl _) (by have := hroot.1; have := hroot.2; omega) rfl
    (fun k hk => by omega)
  have inv0 := postorder_inv_init t hwf order.length hleaves L order2 a2 a3 a4 a5 a6
  obtain ⟨s, b1, w, inv⟩ := forLoop_range_inv (postorder_pass t)
    (fun m s => ∃ w, PostorderInv t order.length m s w) t.nnodes.toNat
    { visit := List.replicate t.nnodes.toNat (0 : Int), order := order2, end_ := L }
    ⟨_, inv0⟩ (by
      rintro m s hm ⟨w, inv⟩
      obtain ⟨s2, w2, c1, c2⟩ := postorder_pass_spec t hwf order.length hcap m s w inv
        (by omega)
      exact ⟨s2, c1, w2, c2⟩)
  have hwlen : w.length ≤ t.nnodes.toNat :=
    nodup_nodes_length t.nnodes w inv.hnd (fun x hx => inv.hnode x hx)
  refine ⟨s.order, w, ?_, inv.hlen, by have := inv.hle; omega, inv.hread, inv.hnd, inv.hnode,
    inv.hpost⟩
  unfold LocalTree.get_postorder
  simp only [a1, Option.some_bind]
  unfold postorder_fill
  rw [b1]
  rfl

theorem pick_removal_node_cases (n0 n1 : Int) (coin : Bool) :
    pick_removal_node (n0, n1) coin = n0 ∨
      (n1 ≠ -1 ∧ pick_removal_node (n0, n1) coin = n1) := by
  unfold pick_removal_node
  by_cases h : n1 = -1
  · left; simp [h]
  · cases coin
    · left; simp [h]
    · right; simp [h]

/-- Across a consistent tuple every node has next removal nodes: the first is
a node, the second a node or -1. -/
theorem next_step_nodes (n : Int) (t1 : LocalTree) (it : LocalTreeSpr)
    (hc : TupleConsistent n t1 it) (a : Int) (ha : 0 ≤ a ∧ a < n) :
    ∃ m n0 n1, it.mapping = some m ∧
      get_next_removal_nodes t1 it.spr m a (-1) = some (n0, n1) ∧
      (0 ≤ n0 ∧ n0 < n) ∧ (n1 = -1 ∨ (0 ≤ n1 ∧ n1 < n)) := by
  obtain ⟨hn, hwf, hr, hcn, hroot, hm⟩ := hc
  cases hmap : it.mapping with
  | none => rw [hmap] at hm; exact absurd hm (by simp [MappingConsistent])
  | some m =>
    rw [hmap] at hm
    obtain ⟨N, P, h1, -, -, -⟩ := removal_nodes_reverse t1 it.spr m hwf hr hcn hroot hm
    obtain ⟨e1, -, -, e4, e5⟩ := h1 a ha.1 (by rw [hn]; exact ha.2)
    rw [hn] at e4 e5
    exact ⟨m, (N a).1, (N a).2, rfl, e1, e4, e5⟩

/-- Across a consistent tuple every node has previous removal nodes: the first
is a node, the second a node or -1, and the node is a next removal node of
each of them. -/
theorem prev_step_nodes (n : Int) (t1 : LocalTree) (it : LocalTreeSpr)
    (hc : TupleConsistent n t1 it) (c : Int) (hcn : 0 ≤ c ∧ c < n) :
    ∃ m p0 p1, it.mapping = some m ∧
      get_prev_removal_nodes t1 it.spr m c none = some (p0, p1) ∧
      (0 ≤ p0 ∧ p0 < n) ∧ (p1 = -1 ∨ (0 ≤ p1 ∧ p1 < n)) ∧
      nextAcross t1 it p0 c = true ∧ (p1 ≠ -1 → nextAcross t1 it p1 c = true) := by
  obtain ⟨hn, hwf, hr, hco, hroot, hm⟩ := hc
  cases hmap : it.mapping with
  | none => rw [hmap] at hm; exact absurd hm (by simp [MappingConsistent])
  | some m =>
    rw [hmap] at hm
    subst hn
    have hnext : ∀ j : Int, nextAcross t1 it j c = isNextRemovalNode t1 it.spr m j c := by
      intro j; unfold nextAcross; rw [hmap]
    rcases hm with ⟨hne, hm⟩ | ⟨hself, hm⟩
    · obtain ⟨hb, -⟩ := hwf.sibling_facts it.spr.recomb_node hr hroot
      obtain ⟨u, hu, huu⟩ := get_recoal_node_unique t1 it.spr m _ hb hm
      obtain ⟨p0, p1, a1, a2, a3, a4⟩ :=
        get_prev_spec t1 it.spr m u c none hwf hr hroot hco hne hm huu hcn (Or.inl rfl)
      have key : ∀ j : Int, 0 ≤ j ∧ j < t1.nnodes → (j = p0 ∨ j = p1) →
          isNextRemovalNode t1 it.spr m j c = true := by
        intro j hj hjp
        have hstep := (a4 j hj.1 hj.2).1 hjp
        obtain ⟨n0, n1, b1, -, -, -, b5⟩ :=
          get_next_spec t1 it.spr m u j (-1) hwf hr hroot hne hm hu huu hj (Or.inl rfl)
        have := (b5 c hcn.1).2 hstep
        unfold isNextRemovalNode
        rw [b1]
        simpa using this
      refine ⟨m, p0, p1, rfl, a1, a2, ?_, ?_, ?_⟩
      · rcases a3 with h | h
        · exact Or.inl h
        · exact Or.inr ⟨h.1, h.2.1⟩
      · rw [hnext]; exact key p0 a2 (Or.inl rfl)
      · intro hp1
        rw [hnext]
        rcases a3 with h | h
        · exact absurd h hp1
        · exact key p1 ⟨h.1, h.2.1⟩ (Or.inr rfl)
    · obtain ⟨i, a1, a2, a3⟩ := get_prev_self t1 it.spr m c none hself hm hcn
      obtain ⟨b1, -⟩ := get_next_self t1 it.spr m i (-1) hself hm a2
      refine ⟨m, i, -1, rfl, a1, a2, Or.inl rfl, ?_, fun h => absurd rfl h⟩
      rw [hnext]
      unfold isNextRemovalNode
      rw [b1, a3]
      simp

/-- The loop of `sample_arg_removal_path_forward` over consistent tuples: it
runs through, writes a node for every tuple, and each node written is a next
removal node of the entry before it. -/
theorem removal_forward_loop_spec (coins : Int → Bool) (n : Int) :
    ∀ (rest : List LocalTreeSpr) (lt : LocalTreeSpr) (path : List Int) (i : Int),
      PathTuples n lt.tree rest → 1 ≤ i → i + rest.length ≤ path.length →
      (0 ≤ readAt path (i - 1) ∧ readAt path (i - 1) < n) →
      ∃ out, removal_forward_loop coins lt.tree rest (path, i) = some (out, i + rest.length) ∧
        out.length = path.length ∧
        (∀ j : Int, j < i → readAt out j = readAt path j) ∧
        (∀ j : Int, i + rest.length ≤ j → readAt out j = readAt path j) ∧
        (∀ j : Int, i ≤ j → j < i + rest.length → 0 ≤ readAt out j ∧ readAt out j < n) ∧
        (∀ (k : Nat) (t1 t2 : LocalTreeSpr), (lt :: rest)[k]? = some t1 →
          (lt :: rest)[k + 1]? = some t2 →
          nextAcross t1.tree t2 (readAt out (i - 1 + k)) (readAt out (i + k)) = true) := by
  intro rest
  induction rest with
  | nil =>
    intro lt path i _ hi hlen ha
    refine ⟨path, by simp [removal_forward_loop], rfl, fun _ _ => rfl, fun _ _ => rfl, ?_, ?_⟩
    · intro j h1 h2; simp at h2; omega
    · intro k t1 t2 h1 h2
      simp at h2
  | cons it rest ih =>
    intro lt path i hpt hi hlen ha
    obtain ⟨hc, hrf, hrest⟩ := hpt
    simp only [List.length_cons, Nat.cast_add, Nat.cast_one] at hlen
    have hlen0 : (0 : Int) ≤ rest.length := Int.natCast_nonneg _
    obtain ⟨m, n0, n1, hmap, hnx, hn0, hn1⟩ := next_step_nodes n lt.tree it hc _ ha
    have hnext : nextAcross lt.tree it (readAt path (i - 1))
        (pick_removal_node (n0, n1) (coins i)) = true := by
      unfold nextAcross isNextRemovalNode
      rw [hmap]
      simp only [hnx]
      rcases pick_removal_node_cases n0 n1 (coins i) with h | ⟨-, h⟩
      · rw [h]; simp
      · rw [h]; simp
    have hv : 0 ≤ pick_removal_node (n0, n1) (coins i) ∧
        pick_removal_node (n0, n1) (coins i) < n := by
      rcases pick_removal_node_cases n0 n1 (coins i) with h | ⟨h0, h⟩
      · rw [h]; exact hn0
      · rw [h]
        rcases hn1 with e | e
        · exact absurd e h0
        · exact e
    have hi1 : inArr path (i - 1) := ⟨by omega, by omega⟩
    have hi2 : inArr path i := ⟨by omega, by omega⟩
    have hstep : removal_forward_step coins lt.tree it (path, i)
        = some (updAt path i (pick_removal_node (n0, n1) (coins i)), i + 1) := by
      unfold removal_forward_step
      simp only [hmap, Option.some_bind, getAt_eq hi1, hnx, setAt_eq _ hi2]
      have e1 : getAt (updAt path i (pick_removal_node (n0, n1) (coins i))) (i + 1 - 2)
          = some (readAt path (i - 1)) := by
        have : i + 1 - 2 = i - 1 := by omega
        rw [this, getAt_eq (by rw [inArr_updAt]; exact hi1), readAt_updAt_of_inArr _ _ _ _ hi2,
          if_neg (by omega)]
      have e2 : getAt (updAt path i (pick_removal_node (n0, n1) (coins i))) (i + 1 - 1)
          = some (pick_removal_node (n0, n1) (coins i)) := by
        have : i + 1 - 1 = i := by omega
        rw [this, getAt_eq (by rw [inArr_updAt]; exact hi2), readAt_updAt_of_inArr _ _ _ _ hi2,
          if_pos rfl]
      rw [e1]
      simp only [Option.some_bind]
      rw [e2]
      simp only [Option.some_bind]
      by_cases hcond : lt.tree.root = readAt path (i - 1) ∧
          it.tree.root ≠ pick_removal_node (n0, n1) (coins i)
      · rw [if_pos hcond]
        have hcoal : it.spr.coal_node = lt.tree.root := by
          by_contra hne
          have := hrf hne _ hv.1 hv.2 (by rw [hcond.1]; exact hnext)
          exact hcond.2 this.symm
        simp [assertion, hcoal]
      · rw [if_neg hcond]
        rfl
    obtain ⟨out, a1, a2, a3, a4, a5, a6⟩ := ih it
      (updAt path i (pick_removal_node (n0, n1) (coins i))) (i + 1) hrest (by omega)
      (by rw [length_updAt]; omega) (by
        have : i + 1 - 1 = i := by omega
        rw [this, readAt_updAt_of_inArr _ _ _ _ hi2, if_pos rfl]
        exact hv)
    have hout_i : readAt out i = pick_removal_node (n0, n1) (coins i) := by
      rw [a3 i (by omega), readAt_updAt_of_inArr _ _ _ _ hi2, if_pos rfl]
    have hout_p : readAt out (i - 1) = readAt path (i - 1) := by
      rw [a3 (i - 1) (by omega), readAt_updAt_of_inArr _ _ _ _ hi2, if_neg (by omega)]
    refine ⟨out, ?_, ?_, ?_, ?_, ?_, ?_⟩
    · unfold removal_forward_loop
      rw [hstep]
      simp only [Option.some_bind, List.length_cons, Nat.cast_add, Nat.cast_one]
      rw [a1]
      congr 2
      omega
    · rw [a2, length_updAt]
    · intro j hj
      rw [a3 j (by omega), readAt_updAt_of_inArr _ _ _ _ hi2, if_neg (by omega)]
    · intro j hj
      simp only [List.length_cons, Nat.cast_add, Nat.cast_one] at hj
      rw [a4 j (by omega), readAt_updAt_of_inArr _ _ _ _ hi2, if_neg (by omega)]
    · intro j h1 h2
      simp only [List.length_cons, Nat.cast_add, Nat.cast_one] at h2
      by_cases hji : j = i
      · rw [hji, hout_i]; exact hv
      · exact a5 j (by omega) (by omega)
    · intro k t1 t2 h1 h2
      cases k with
      | zero =>
        simp only [List.getElem?_cons_zero, Option.some.injEq] at h1
        simp only [zero_add, List.getElem?_cons_succ, List.getElem?_cons_zero,
          Option.some.injEq] at h2
        subst h1 h2
        simp only [Nat.cast_zero, add_zero]
        rw [hout_i, hout_p]
        exact hnext
      | succ k =>
        simp only [List.getElem?_cons_succ] at h1 h2
        have := a6 k t1 t2 h1 (by simpa using h2)
        have e1 : i - 1 + ((k + 1 : Nat) : Int) = i + 1 - 1 + (k : Int) := by push_cast; omega
        have e2 : i + ((k + 1 : Nat) : Int) = i + 1 + (k : Int) := by push_cast; omega
        rw [e1, e2]
        exact this

/-- The loop of `sample_arg_removal_path_backward` over consistent tuples: it
runs through down to the first tuple, writes a node for every tuple, and each
entry is a next removal node of the node written before it. -/
theorem removal_backward_loop_spec (coins : Int → Bool) (n : Int) :
    ∀ (earlier : List LocalTreeSpr) (cur : LocalTreeSpr) (path : List Int) (i : Int),
      (∀ (k : Nat) (t1 t2 : LocalTreeSpr), (cur :: earlier)[k + 1]? = some t1 →
        (cur :: earlier)[k]? = some t2 → TupleConsistent n t1.tree t2) →
      i + 1 = earlier.length → i + 1 < path.length →
      (0 ≤ readAt path (i + 1) ∧ readAt path (i + 1) < n) →
      ∃ out, removal_backward_loop coins cur earlier (path, i) = some (out, -1) ∧
        out.length = path.length ∧
        (∀ j : Int, i < j → readAt out j = readAt path j) ∧
        (∀ j : Int, 0 ≤ j → j ≤ i → 0 ≤ readAt out j ∧ readAt out j < n) ∧
        (∀ (k : Nat) (t1 t2 : LocalTreeSpr), (cur :: earlier)[k + 1]? = some t1 →
          (cur :: earlier)[k]? = some t2 →
          nextAcross t1.tree t2 (readAt out (i - k)) (readAt out (i + 1 - k)) = true) := by
  intro earlier
  induction earlier with
  | nil =>
    intro cur path i _ hi hlen hc
    simp only [List.length_nil, Nat.cast_zero] at hi
    have hi' : i = -1 := by omega
    subst hi'
    refine ⟨path, by simp [removal_backward_loop], rfl, fun _ _ => rfl, ?_, ?_⟩
    · intro j h1 h2; omega
    · intro k t1 t2 h1 h2
      simp at h1
  | cons it rest ih =>
    intro cur path i hcons hi hlen hc
    simp only [List.length_cons, Nat.cast_add, Nat.cast_one] at hi
    have hlen0 : (0 : Int) ≤ rest.length := Int.natCast_nonneg _
    have htc : TupleConsistent n it.tree cur := hcons 0 it cur (by simp) (by simp)
    obtain ⟨m, p0, p1, hmap, hpv, hp0, hp1, hx0, hx1⟩ :=
      prev_step_nodes n it.tree cur htc _ hc
    have hv : 0 ≤ pick_removal_node (p0, p1) (coins i) ∧
        pick_removal_node (p0, p1) (coins i) < n := by
      rcases pick_removal_node_cases p0 p1 (coins i) with h | ⟨h0, h⟩
      · rw [h]; exact hp0
      · rw [h]
        rcases hp1 with e | e
        · exact absurd e h0
        · exact e
    have hnext : nextAcross it.tree cur (pick_removal_node (p0, p1) (coins i))
        (readAt path (i + 1)) = true := by
      rcases pick_removal_node_cases p0 p1 (coins i) with h | ⟨h0, h⟩
      · rw [h]; exact hx0
      · rw [h]; exact hx1 h0
    have hi1 : inArr path (i + 1) := ⟨by omega, by omega⟩
    have hi2 : inArr path i := ⟨by omega, by omega⟩
    have hnull : cur.spr.is_null = false := by
      have := htc.2.2.1.1
      simp only [Spr.is_null, beq_eq_false_iff_ne, ne_eq]
      omega
    have hstep : removal_backward_step coins cur it (path, i)
        = some (updAt path i (pick_removal_node (p0, p1) (coins i)), i - 1) := by
      unfold removal_backward_step
      simp only [hnull, Bool.not_false, assertion, if_true, Option.some_bind, hmap,
        getAt_eq hi1, hpv, setAt_eq _ hi2, Option.map_some']
    obtain ⟨out, a1, a2, a3, a4, a5⟩ := ih it
      (updAt path i (pick_removal_node (p0, p1) (coins i))) (i - 1)
      (fun k t1 t2 h1 h2 => hcons (k + 1) t1 t2 (by simpa using h1) (by simpa using h2))
      (by omega) (by rw [length_updAt]; omega) (by
        have : i - 1 + 1 = i := by omega
        rw [this, readAt_updAt_of_inArr _ _ _ _ hi2, if_pos rfl]
        exact hv)
    have hout_i : readAt out i = pick_removal_node (p0, p1) (coins i) := by
      rw [a3 i (by omega), readAt_updAt_of_inArr _ _ _ _ hi2, if_pos rfl]
    have hout_n : readAt out (i + 1) = readAt path (i + 1) := by
      rw [a3 (i + 1) (by omega), readAt_updAt_of_inArr _ _ _ _ hi2, if_neg (by omega)]
    refine ⟨out, ?_, ?_, ?_, ?_, ?_⟩
    · unfold removal_backward_loop
      rw [hstep]
      simp only [Option.some_bind]
      exact a1
    · rw [a2, length_updAt]
    · intro j hj
      rw [a3 j (by omega), readAt_updAt_of_inArr _ _ _ _ hi2, if_neg (by omega)]
    · intro j h1 h2
      by_cases hji : j = i
      · rw [hji, hout_i]; exact hv
      · exact a4 j h1 (by omega)
    · intro k t1 t2 h1 h2
      cases k with
      | zero =>
        simp only [zero_add, List.getElem?_cons_succ, List.getElem?_cons_zero,
          Option.some.injEq] at h1
        simp only [List.getElem?_cons_zero, Option.some.injEq] at h2
        subst h1 h2
        simp only [Nat.cast_zero, sub_zero]
        rw [hout_i, hout_n]
        exact hnext
      | succ k =>
        simp only [List.getElem?_cons_succ] at h1 h2
        have := a5 k t1 t2 (by simpa using h1) h2
        have e1 : i - ((k + 1 : Nat) : Int) = i - 1 - (k : Int) := by push_cast; omega
        have e2 : i + 1 - ((k + 1 : Nat) : Int) = i - 1 + 1 - (k : Int) := by push_cast; omega
        rw [e1, e2]
        exact this

theorem sumBlocklen_take_succ (l : List LocalTreeSpr) (x : LocalTreeSpr) (b : Nat) :
    sumBlocklen ((x :: l).take (b + 1)) = x.blocklen + sumBlocklen (l.take b) := by
  simp [sumBlocklen]

/-- The loop "search for block with pos" stops at the block that holds `pos`. -/
theorem find_path_block_spec (pos : Int) :
    ∀ (l : List LocalTreeSpr) (end_ : Int) (i : Nat), end_ ≤ pos →
      pos < end_ + sumBlocklen l →
      ∃ b : Nat, find_path_block l end_ pos i = i + b ∧ b < l.length ∧
        end_ + sumBlocklen (l.take b) ≤ pos ∧ pos < end_ + sumBlocklen (l.take (b + 1)) := by
  intro l
  induction l with
  | nil =>
    intro end_ i h1 h2
    simp [sumBlocklen] at h2
    omega
  | cons x rest ih =>
    intro end_ i h1 h2
    unfold find_path_block
    by_cases hc : end_ ≤ pos ∧ pos < end_ + x.blocklen
    · simp only [hc, and_self, if_true]
      refine ⟨0, rfl, by simp, by simp [sumBlocklen]; exact h1, ?_⟩
      simp [sumBlocklen]
      exact hc.2
    · simp only [hc, if_false]
      have h3 : end_ + x.blocklen ≤ pos := by
        by_contra h; exact hc ⟨h1, by omega⟩
      have h4 : pos < end_ + x.blocklen + sumBlocklen rest := by
        have : sumBlocklen (x :: rest) = x.blocklen + sumBlocklen rest := by simp [sumBlocklen]
        rw [this] at h2; omega
      obtain ⟨b, e1, e2, e3, e4⟩ := ih (end_ + x.blocklen) (i + 1) h3 h4
      refine ⟨b + 1, by rw [e1]; omega, by simp; omega, ?_, ?_⟩
      · rw [sumBlocklen_take_succ]; omega
      · rw [sumBlocklen_take_succ]; omega

theorem pathTuples_drop (n : Int) :
    ∀ (b : Nat) (rest0 : List LocalTreeSpr) (lt first : LocalTreeSpr) (rest : List LocalTreeSpr),
      PathTuples n lt.tree rest0 → (lt :: rest0).drop b = first :: rest →
      PathTuples n first.tree rest := by
  intro b
  induction b with
  | zero =>
    intro rest0 lt first rest h1 h2
    simp only [List.drop_zero, List.cons.injEq] at h2
    rw [← h2.1, ← h2.2]; exact h1
  | succ b ih =>
    intro rest0 lt first rest h1 h2
    cases rest0 with
    | nil => simp at h2
    | cons x r =>
      simp only [List.drop_succ_cons] at h2
      exact ih r x first rest h1.2.2 h2

theorem pathTuples_index (n : Int) :
    ∀ (rest : List LocalTreeSpr) (lt : LocalTreeSpr), PathTuples n lt.tree rest →
      ∀ (k : Nat) (t1 t2 : LocalTreeSpr), (lt :: rest)[k]? = some t1 →
        (lt :: rest)[k + 1]? = some t2 → TupleConsistent n t1.tree t2 := by
  intro rest
  induction rest with
  | nil =>
    intro lt _ k t1 t2 h1 h2
    simp at h2
  | cons x r ih =>
    intro lt h k t1 t2 h1 h2
    cases k with
    | zero =>
      simp only [List.getElem?_cons_zero, Option.some.injEq] at h1
      simp only [zero_add, List.getElem?_cons_succ, List.getElem?_cons_zero,
        Option.some.injEq] at h2
      subst h1 h2
      exact h.1
    | succ k =>
      simp only [List.getElem?_cons_succ] at h1 h2
      exact ih x h.2.2 k t1 t2 h1 (by simpa using h2)

theorem reverse_take_index (l : List LocalTreeSpr) (b k : Nat) (hb : b < l.length) :
    ((l.take (b + 1)).reverse)[k]? = if k ≤ b then l[b - k]? else none := by
  have hlen : (l.take (b + 1)).length = b + 1 := by
    rw [List.length_take]; omega
  by_cases hk : k ≤ b
  · rw [if_pos hk, List.getElem?_reverse (by omega), hlen, List.getElem?_take]
    have : b + 1 - 1 - k = b - k := by omega
    rw [this, if_pos (by omega)]
  · rw [if_neg hk, List.getElem?_eq_none]
    rw [List.length_reverse, hlen]; omega

theorem reverse_take_cons (l : List LocalTreeSpr) (b : Nat) (cur : LocalTreeSpr)
    (rest : List LocalTreeSpr) (h : l.drop b = cur :: rest) :
    cur :: (l.take b).reverse = (l.take (b + 1)).reverse := by
  have hb : l[b]? = some cur := by
    have e : (l.drop b)[0]? = l[b + 0]? := by rw [List.getElem?_drop]
    rw [h] at e
    simpa using e.symm
  rw [List.take_succ, hb]
  simp

theorem readAt_inj_of_nodup (l : List Int) (hn : l.Nodup) (i j : Nat) (hi : i < l.length)
    (hj : j < l.length) (h : readAt l (i : Int) = readAt l (j : Int)) : i = j := by
  have e : ∀ k : Nat, k < l.length → readAt l (k : Int) = l.getD k default := by
    intro k _
    unfold readAt
    rw [if_pos (by omega)]
    rfl
  rw [e i hi, e j hj, List.getD_eq_getElem _ _ hi, List.getD_eq_getElem _ _ hj] at h
  exact (List.Nodup.getElem_inj_iff hn).1 h

/-- Among pairwise distinct ids the search for the id of leaf `k` finds `k`. -/
theorem find_seqid_nodup (seqids : List Int) (hn : seqids.Nodup) (k : Nat)
    (hk : k < seqids.length) :
    find_seqid seqids (readAt seqids (k : Int)) (List.range seqids.length) = some (k : Int) := by
  have key : ∀ (d a : Nat), a + d = k →
      find_seqid seqids (readAt seqids (k : Int)) (List.range' a (seqids.length - a))
        = some (k : Int) := by
    intro d
    induction d with
    | zero =>
      intro a ha
      have hak : a = k := by omega
      subst hak
      have : seqids.length - a = (seqids.length - a - 1) + 1 := by omega
      rw [this, List.range'_succ]
      unfold find_seqid
      rw [getAt_eq ⟨by omega, by omega⟩]
      simp
    | succ d ih =>
      intro a ha
      have : seqids.length - a = (seqids.length - (a + 1)) + 1 := by omega
      rw [this, List.range'_succ]
      unfold find_seqid
      rw [getAt_eq ⟨by omega, by omega⟩]
      simp only [Option.some_bind]
      have hne : readAt seqids (a : Int) ≠ readAt seqids (k : Int) := by
        intro e
        have := readAt_inj_of_nodup seqids hn a k (by omega) hk e
        omega
      rw [if_neg hne]
      exact ih (a + 1) (by omega)
  have := key k 0 (by omega)
  rw [List.range_eq_range']
  simpa using this

/-- The loop "reconcile leaves" between a tree and its copy, with pairwise
distinct ids: leaf `j` is mapped to `j`. -/
theorem congruent_leaves_id (n L : Int) (seqids : List Int) (hn : seqids.Nodup)
    (hsl : (seqids.length : Int) = L) (hLn : L ≤ n) (m1 : List Int) (hlen : n ≤ m1.length)
    (hm1 : ∀ j : Int, 0 ≤ j → j < n → readAt m1 j = -1) :
    ∃ m, congruent_leaves L L seqids seqids m1 = some m ∧ m.length = m1.length ∧
      ∀ j : Int, 0 ≤ j → j < n → readAt m j = if j < L then j else -1 := by
  unfold congruent_leaves
  obtain ⟨m, a1, a2, a3⟩ := forLoop_range_inv
    (fun i (m : List Int) =>
      (getAt seqids i).bind fun seqid =>
      (setAt m i (-1)).bind fun m =>
      (find_seqid seqids seqid (List.range L.toNat)).bind fun j =>
      if j ≠ -1 then setAt m i j else some m)
    (fun k m => m.length = m1.length ∧
      ∀ j : Int, 0 ≤ j → j < n → readAt m j = if j < (k : Int) then j else -1)
    L.toNat m1 ⟨rfl, fun j j0 j1 => by rw [hm1 j j0 j1, if_neg (by omega)]⟩ (by
      intro k m hk hP
      obtain ⟨p1, p2⟩ := hP
      have hks : k < seqids.length := by omega
      have hin : inArr m (k : Int) := ⟨by omega, by omega⟩
      have hLs : L.toNat = seqids.length := by omega
      dsimp only
      rw [getAt_eq ⟨by omega, by omega⟩]
      simp only [Option.some_bind]
      rw [setAt_eq _ hin]
      simp only [Option.some_bind]
      rw [hLs, find_seqid_nodup seqids hn k hks]
      simp only [Option.some_bind]
      rw [if_pos (by omega)]
      have hin2 : inArr (updAt m (k : Int) (-1)) (k : Int) := by rw [inArr_updAt]; exact hin
      rw [setAt_eq _ hin2]
      refine ⟨_, rfl, by rw [length_updAt, length_updAt, p1], ?_⟩
      intro j j0 j1
      rw [readAt_updAt_of_inArr _ _ _ _ hin2, readAt_updAt_of_inArr _ _ _ _ hin]
      by_cases hjk : j = (k : Int)
      · rw [if_pos hjk, if_pos (by push_cast; omega), hjk]
      · rw [if_neg hjk, if_neg hjk, p2 j j0 j1]
        by_cases hlt : j < (k : Int)
        · rw [if_pos hlt, if_pos (by push_cast; omega)]
        · rw [if_neg hlt, if_neg (by push_cast; omega)])
  refine ⟨m, a1, a2, ?_⟩
  intro j j0 j1
  rw [a3 j j0 j1]
  have : ((L.toNat : Nat) : Int) = L := by omega
  rw [this]

/-- One pass of the postorder loop of `map_congruent_trees` between a tree `t`
and its copy `tc`, when the children of `j` are mapped to themselves. -/
theorem congruent_node_id (t tc : LocalTree) (hwf : WellFormed t) (hwfc : WellFormed tc)
    (hn : tc.nnodes = t.nnodes)
    (hnode : ∀ j : Int, 0 ≤ j → j < t.nnodes → tc.node j = t.node j)
    (j : Int) (hj : t.isNode j) (m : List Int) (hlen : t.nnodes ≤ m.length)
    (hch : (t.node j).child0 ≠ -1 →
      readAt m (t.node j).child0 = (t.node j).child0 ∧
      readAt m (t.node j).child1 = (t.node j).child1) :
    ∃ m2, congruent_node tc t j m = some m2 ∧ m2.length = m.length ∧
      (∀ x : Int, x ≠ j → readAt m2 x = readAt m x) ∧
      ((t.node j).child0 ≠ -1 → readAt m2 j = j) ∧
      ((t.node j).child0 = -1 → m2 = m) := by
  have hjc : tc.isNode j := ⟨hj.1, by rw [hn]; exact hj.2⟩
  have hnj : nodeAt tc.nodes j = t.node j := hnode j hj.1 hj.2
  unfold congruent_node
  rw [getNode_eq (hwfc.inArr hjc), hnj]
  simp only [Option.some_bind]
  by_cases hleaf : (t.node j).child0 = -1
  · have hl : (t.node j).is_leaf = true := by
      simp only [LocalNode.is_leaf, beq_iff_eq]; exact hleaf
    rw [hl]
    simp only [Bool.not_true, Bool.false_eq_true, if_false]
    exact ⟨m, rfl, rfl, fun _ _ => rfl, fun h => absurd hleaf h, fun _ => rfl⟩
  · have hl : (t.node j).is_leaf = false := by
      simp only [LocalNode.is_leaf, beq_eq_false_iff_ne]; exact hleaf
    rw [hl]
    simp only [Bool.not_false, if_true]
    obtain ⟨h0, h1⟩ := hch hleaf
    rcases hwf.children hj with ⟨a, -⟩ | ⟨c1, c2, c3, c4, c5⟩
    · exact absurd a hleaf
    have i0 : inArr m (t.node j).child0 := ⟨c1.1, by have := c1.2; omega⟩
    have i1 : inArr m (t.node j).child1 := ⟨c2.1, by have := c2.2; omega⟩
    have ij : inArr m j := ⟨hj.1, by have := hj.2; omega⟩
    have n0 : (0 : Int) ≤ (t.node j).child0 := c1.1
    have n1 : (0 : Int) ≤ (t.node j).child1 := c2.1
    rw [getAt_eq i0, h0]
    simp only [Option.some_bind]
    rw [if_pos (by omega), getAt_eq i1, h1]
    simp only [Option.some_bind]
    rw [if_pos (by omega), getNode_eq (hwf.inArr c1)]
    simp only [Option.some_bind]
    have p0 : (nodeAt t.nodes (t.node j).child0).parent = j := c4
    have p1 : (nodeAt t.nodes (t.node j).child1).parent = j := c5
    rw [p0, setAt_eq _ ij]
    simp only [Option.some_bind]
    have r0 : readAt (updAt m j j) (t.node j).child0 = (t.node j).child0 := by
      rw [readAt_updAt_of_inArr _ _ _ _ ij]
      by_cases e : (t.node j).child0 = j
      · rw [if_pos e, e]
      · rw [if_neg e, h0]
    have r1 : readAt (updAt m j j) (t.node j).child1 = (t.node j).child1 := by
      rw [readAt_updAt_of_inArr _ _ _ _ ij]
      by_cases e : (t.node j).child1 = j
      · rw [if_pos e, e]
      · rw [if_neg e, h1]
    rw [getAt_eq (by rw [inArr_updAt]; exact i0), r0]
    simp only [Option.some_bind]
    rw [getNode_eq (hwf.inArr c1), getAt_eq (by rw [inArr_updAt]; exact i1), r1]
    simp only [Option.some_bind]
    rw [getNode_eq (hwf.inArr c2)]
    simp only [Option.some_bind, p0, p1, assertion, decide_True, if_true, Option.map_some']
    refine ⟨_, rfl, by rw [length_updAt], ?_, ?_, fun h => absurd h hleaf⟩
    · intro x hx
      rw [readAt_updAt_of_inArr _ _ _ _ ij, if_neg hx]
    · intro _
      rw [readAt_updAt_of_inArr _ _ _ _ ij, if_pos rfl]

/-- Between a well-formed tree `t` whose leaves come first and its copy `tc`,
with pairwise distinct ids, one for every leaf, `map_congruent_trees` returns
the identity mapping. -/
theorem map_congruent_trees_id (t tc : LocalTree) (seqids mapping0 : List Int)
    (hwf : WellFormed t) (hlf : LeavesFirst t) (hn : tc.nnodes = t.nnodes)
    (hroot : tc.root = t.root) (hlen : tc.nodes.length = t.nodes.length)
    (hnode : ∀ j : Int, 0 ≤ j → j < t.nnodes → tc.node j = t.node j)
    (hnd : seqids.Nodup) (hsl : (seqids.length : Int) = t.get_num_leaves)
    (hm0 : t.nnodes ≤ mapping0.length) :
    ∃ m, map_congruent_trees tc seqids t seqids mapping0 = some m ∧
      m.length = mapping0.length ∧ ∀ i : Int, 0 ≤ i → i < t.nnodes → readAt m i = i := by
  have hwfc : WellFormed tc := copy_wellFormed t tc hwf hn hroot hlen hnode
  have hL : tc.get_num_leaves = t.get_num_leaves := by
    unfold LocalTree.get_num_leaves; rw [hn]
  have hn1 : 0 < t.nnodes := by have := hwf.2.1.1; have := hwf.2.1.2; omega
  have hLn : t.get_num_leaves ≤ t.nnodes := by have := hlf.1; omega
  -- the first loop
  obtain ⟨m1, a1, a2, a3⟩ := forLoop_setAt_range (fun _ => (-1 : Int)) t.nnodes mapping0 hm0
  -- the leaves
  obtain ⟨m2, b1, b2, b3⟩ := congruent_leaves_id t.nnodes t.get_num_leaves seqids hnd hsl hLn
    m1 (by rw [a2]; exact hm0) (fun j j0 j1 => by rw [a3 j, if_pos ⟨j0, j1⟩])
  -- the postorder
  obtain ⟨out, w, c1, c2, c3, c4, c5, c6, c7⟩ := get_postorder_spec tc
    (List.replicate tc.nnodes.toNat none) hwfc (by
      intro i j i0 ij j1 hj
      rw [hn] at j1
      rw [hnode j (by omega) j1] at hj
      rw [hnode i i0 (by omega)]
      exact (hlf.2 i i0 (by omega)).2 (by have := (hlf.2 j (by omega) j1).1 hj; omega))
    (by simp)
  rw [hn] at c3
  have hperm := nodes_perm t.nnodes w c5 (fun x hx => by
    have := c6 x hx; rw [LocalTree.isNode, hn] at this; exact this) (by omega)
  -- the loop over the postorder
  obtain ⟨m3, d1, d2, d3⟩ := forLoop_range_inv
    (fun i (m : List Int) => (readOrder out i).bind fun j => congruent_node tc t j m)
    (fun k m => m.length = mapping0.length ∧
      ∀ x : Int, t.isNode x → ((t.node x).child0 = -1 ∨ x ∈ w.take k) → readAt m x = x)
    t.nnodes.toNat m2 ⟨by rw [b2, a2], by
      intro x hx hor
      rcases hor with h | h
      · rw [b3 x hx.1 hx.2, if_pos ((hlf.2 x hx.1 hx.2).1 h)]
      · simp at h⟩ (by
      intro k m hk hP
      obtain ⟨p1, p2⟩ := hP
      have hkw : k < w.length := by omega
      obtain ⟨j, hj⟩ : ∃ j, w[k]? = some j := ⟨w[k], List.getElem?_eq_getElem hkw⟩
      have hjin : j ∈ w := by
        obtain ⟨e1, e2⟩ := List.getElem?_eq_some.1 hj
        rw [← e2]; exact List.getElem_mem _
      have hjn : t.isNode j := by
        have := c6 j hjin; rw [LocalTree.isNode, hn] at this; exact this
      have hord : readOrder out (k : Int) = some j :=
        readOrder_eq _ _ ⟨by omega, by rw [c2]; simp; omega⟩ j (by rw [c4 k hkw, hj])
      have htake : w.take (k + 1) = w.take k ++ [j] := by
        rw [List.take_succ, hj]; rfl
      dsimp only
      rw [hord]
      simp only [Option.some_bind]
      obtain ⟨m', e1, e2, e3, e4, e5⟩ := congruent_node_id t tc hwf hwfc hn hnode j hjn m
        (by omega) (by
          intro hint
          have hintc : (tc.node j).child0 ≠ -1 := by rw [hnode j hjn.1 hjn.2]; exact hint
          obtain ⟨q0, q1⟩ := c7 k j hj hintc
          rw [hnode j hjn.1 hjn.2] at q0 q1
          rcases hwf.children hjn with ⟨a, -⟩ | ⟨n0, n1, -⟩
          · exact absurd a hint
          exact ⟨p2 _ n0 (Or.inr q0), p2 _ n1 (Or.inr q1)⟩)
      refine ⟨m', e1, by rw [e2, p1], ?_⟩
      intro x hx hor
      by_cases hxj : x = j
      · by_cases hleaf : (t.node j).child0 = -1
        · rw [e5 hleaf, hxj]
          exact p2 j hjn (Or.inl hleaf)
        · rw [hxj]; exact e4 hleaf
      · rw [e3 x hxj]
        refine p2 x hx ?_
        rcases hor with h | h
        · exact Or.inl h
        · rw [htake, List.mem_append, List.mem_singleton] at h
          rcases h with h | h
          · exact Or.inr h
          · exact absurd h hxj)
  refine ⟨m3, ?_, d2, ?_⟩
  · unfold map_congruent_trees
    rw [hn, hL, a1]
    simp only [Option.some_bind, b1]
    rw [hn] at c1
    rw [c1]
    simp only [Option.some_bind]
    exact d1
  · intro i i0 i1
    refine d3 i ⟨i0, i1⟩ (Or.inr ?_)
    rw [List.take_of_length_le (by omega), hperm.mem_iff, mem_nodeRange]
    exact ⟨i0, i1⟩

/-- The entries of the transitive mapping of two mapping arrays. -/
theorem transitive_mapping_read (n : Int) (M1 M2 : List Int) (h1 : MappingOk n M1)
    (h2 : MappingOk n M2) :
    ∃ m, transitive_mapping n M1 M2 = some m ∧ m.length = M2.length ∧
      ∀ i : Int, 0 ≤ i → i < n →
        readAt m i = if readAt M1 i ≠ -1 then readAt M2 (readAt M1 i) else -1 := by
  let g : Int → Int := fun i => if readAt M1 i ≠ -1 then readAt M2 (readAt M1 i) else -1
  have ht : tabulateOpt (fun i => (getAt M1 i).bind fun a =>
      if a ≠ -1 then getAt M2 a else some (-1)) (List.range n.toNat) =
      some ((List.range n.toNat).map fun i => g ((i : Nat) : Int)) := by
    apply tabulateOpt_eq
    intro i hi
    rw [List.mem_range] at hi
    have hiA : inArr M1 (i : Int) := by
      have := h1.1
      unfold inArr; omega
    rw [getAt_eq hiA]
    simp only [Option.some_bind, g]
    by_cases hm : readAt M1 (i : Int) = -1
    · simp [hm]
    · simp only [ne_eq, hm, not_false_eq_true, if_true]
      rcases h1.2 i (by omega) (by omega) with h | h
      · exact absurd h hm
      · have : inArr M2 (readAt M1 (i : Int)) := by
          have := h2.1
          unfold inArr; omega
        rw [getAt_eq this]
  obtain ⟨m, e1, e2, e3⟩ := forLoop_setAt_range g n M2 h2.1
  refine ⟨m, ?_, e2, ?_⟩
  · unfold transitive_mapping
    rw [ht]
    simp only [Option.some_bind]
    rw [← e1]
    apply forLoop_congr
    intro i hi s
    rw [List.mem_range] at hi
    have hiA : inArr ((List.range n.toNat).map fun i => g ((i : Nat) : Int)) (i : Int) := by
      unfold inArr
      simp only [List.length_map, List.length_range]
      omega
    rw [getAt_eq hiA, readAt_map_range g n.toNat i (by omega) (by omega)]
    rfl
  · intro i hi0 hi1
    rw [e3 i, if_pos ⟨hi0, hi1⟩]

/-- A well-formed tree is congruent to its copy under a mapping that is the
identity on the nodes. -/
theorem congruent_copy (t tc : LocalTree) (m : List Int) (hwf : WellFormed t)
    (hn : tc.nnodes = t.nnodes) (hroot : tc.root = t.root)
    (hlen : tc.nodes.length = t.nodes.length)
    (hnode : ∀ j : Int, 0 ≤ j → j < t.nnodes → tc.node j = t.node j)
    (hml : t.nnodes ≤ m.length) (hm : ∀ i : Int, 0 ≤ i → i < t.nnodes → readAt m i = i) :
    Congruent none tc t m := by
  have hwfc : WellFormed tc := copy_wellFormed t tc hwf hn hroot hlen hnode
  refine ⟨hwfc.inArr hwfc.2.1, ?_⟩
  intro i i0 i1
  have hi : t.isNode i := ⟨i0, i1⟩
  have hic : tc.isNode i := ⟨i0, by rw [hn]; exact i1⟩
  have hnd : nodeAt tc.nodes i = nodeAt t.nodes i := hnode i i0 i1
  rw [hm i i0 i1]
  refine ⟨hwfc.inArr hic, ⟨i0, by omega⟩, hwf.inArr hi, by rw [hnd], ?_, fun _ => trivial⟩
  intro hir
  rw [hnd]
  rcases hwf.parent_cases hi with ⟨-, h⟩ | ⟨-, -, hp, -⟩
  · rw [hroot] at hir; exact absurd h hir
  have hp2 : t.isNode (nodeAt t.nodes i).parent := hp
  have hpc : tc.isNode (nodeAt t.nodes i).parent := ⟨hp2.1, by rw [hn]; exact hp2.2⟩
  refine ⟨hwfc.inArr hpc, hwf.inArr hp2, ?_⟩
  have := hnode _ hp2.1 hp2.2
  unfold LocalTree.node at this
  rw [this]

/-- On a next tuple with a null SPR whose tree is congruent to the tree of
`it`, the function `remove_null_spr` erases `it` and leaves the next tuple
with the block lengths added up, and with the SPR of `it` and the transitive
mapping when `it` has a mapping. -/
theorem remove_null_spr_merge_eq (n : Int) (it it2 : LocalTreeSpr) (h2n : it2.tree.nnodes = n)
    (m2 : List Int) (hm2 : it2.mapping = some m2) (hok : MappingOk n m2)
    (hnull : it2.spr.is_null = true) (hc : Congruent none it.tree it2.tree m2)
    (hkind : (it.mapping = none) ∨
      (it.spr.is_null = false ∧ ∃ M1, it.mapping = some M1 ∧ MappingOk n M1)) :
    ∃ merged, remove_null_spr it (some it2) none = some (some merged) ∧
      merged.tree = it2.tree ∧ merged.blocklen = it2.blocklen + it.blocklen ∧
      (it.mapping = none → merged.mapping = none ∧ merged.spr = it2.spr) ∧
      (∀ M1, it.mapping = some M1 → merged.spr = it.spr ∧
        ∃ m, merged.mapping = some m ∧ ∀ i : Int, 0 ≤ i → i < n →
          readAt m i = if readAt M1 i ≠ -1 then readAt m2 (readAt M1 i) else -1) := by
  have hloop : forLoop (fun i _ => null_spr_check it it2 none
          (nodeAt it.tree.nodes it.tree.root).child0 i)
      (List.range it2.tree.nnodes.toNat) () = some () := by
    apply forLoop_unit
    intro i hi
    rw [List.mem_range] at hi
    unfold null_spr_check
    rw [hm2]
    exact null_spr_check_ok none it.tree it2.tree m2 hc i (by omega) (by omega)
  unfold remove_null_spr
  simp only [hnull, Bool.true_eq_false, if_false]
  rw [getNode_eq hc.1]
  simp only [Option.some_bind, hloop]
  rcases hkind with k2 | ⟨k1, M1, k2, k3⟩
  · rw [k2]
    simp only [Option.map_some']
    refine ⟨_, rfl, rfl, rfl, fun _ => ⟨rfl, rfl⟩, fun M1 h => by cases h⟩
  · obtain ⟨m, e1, e2, e3⟩ := transitive_mapping_read n M1 m2 k3 hok
    rw [k2, hm2]
    simp only [h2n, e1, Option.some_bind, k1, Bool.not_false, assertion, if_true,
      Option.map_some']
    refine ⟨_, rfl, rfl, rfl, (fun h => by cases h), ?_⟩
    intro M h
    cases h
    exact ⟨rfl, m, rfl, e3⟩

theorem sameMapping_self (n : Int) (a : Option (List Int)) : SameMapping n a a := by
  cases a with
  | none => exact trivial
  | some m => exact fun _ _ _ => rfl

theorem sameTuple_self (a : LocalTreeSpr) : SameTuple a a :=
  ⟨rfl, rfl, fun _ _ _ => rfl, rfl, rfl, sameMapping_self _ _⟩

theorem forall₂_sameTuple_self (l : List LocalTreeSpr) : List.Forall₂ SameTuple l l := by
  induction l with
  | nil => exact List.Forall₂.nil
  | cons a l ih => exact List.Forall₂.cons (sameTuple_self a) ih

theorem readAt_append_left (s e : List Int) (i : Int) (h : i < s.length) :
    readAt (s ++ e) i = readAt s i := by
  unfold readAt
  by_cases h0 : 0 ≤ i
  · rw [if_pos h0, if_pos h0, List.getD_eq_getElem?_getD, List.getD_eq_getElem?_getD,
      List.getElem?_append_left (by omega)]
  · rw [if_neg h0, if_neg h0]

theorem readAt_take_lt (m : List Int) (n : Nat) (i : Int) (h : i < n) :
    readAt (m.take n) i = readAt m i := by
  unfold readAt
  by_cases h0 : 0 ≤ i
  · rw [if_pos h0, if_pos h0, List.getD_eq_getElem?_getD, List.getD_eq_getElem?_getD,
      List.getElem?_take, if_pos (by omega)]
  · rw [if_neg h0, if_neg h0]

/-- The loop "ensure seqids are the same" of `append_local_trees` passes when
the ids of `trees2` start with the ids of `trees`. -/
theorem append_seqids_ok (s e : List Int) :
    forLoop (fun i _ =>
        (getAt s i).bind fun a =>
        (getAt (s ++ e) i).bind fun b => assertion (decide (a = b)))
      (List.range s.length) () = some () := by
  apply forLoop_unit
  intro i hi
  rw [List.mem_range] at hi
  rw [getAt_eq ⟨by omega, by omega⟩, getAt_eq ⟨by omega, by simp; omega⟩,
    readAt_append_left s e i (by omega)]
  simp [assertion]

/-- The kind of a tuple of a valid ARG: the first has the null SPR and no
mapping, every other has a non-null SPR and a mapping array. -/
theorem appendArg_kind (trees : LocalTrees) (hv : AppendArg trees) (j : Nat)
    (first : LocalTreeSpr) (rest : List LocalTreeSpr)
    (hd : trees.trees.drop j = first :: rest) :
    (first.mapping = none ∧ first.spr = Spr.null) ∨
    (first.spr.is_null = false ∧
      ∃ m, first.mapping = some m ∧ MappingOk trees.nnodes m) := by
  obtain ⟨h1, h2, h3, -⟩ := hv
  cases hl : trees.trees with
  | nil => rw [hl] at hd; simp at hd
  | cons x tl =>
    rw [hl] at hd h1 h2 h3
    cases j with
    | zero =>
      simp only [List.drop_zero, List.cons.injEq] at hd
      left
      rw [← hd.1]
      exact ⟨h1.2.1, h3 x (by simp)⟩
    | succ j =>
      simp only [List.drop_succ_cons] at hd
      have hmem : first ∈ tl := by
        have : first ∈ tl.drop j := by rw [hd]; exact List.mem_cons_self _ _
        exact List.mem_of_mem_drop this
      right
      exact ⟨h2.2.2 first hmem, (h1.2.2.2 first hmem).2⟩

/-- The function `append_local_trees` with `merge = true` and no population
tree, when the ids of `trees2` start with the ids of `trees`, the numbers of
nodes agree, and the block that sets the mapping leaves the list `l`. -/
theorem append_local_trees_eq (trees trees2 : LocalTrees) (e : List Int)
    (hs : trees2.seqids = trees.seqids ++ e) (hn : trees.nnodes = trees2.nnodes)
    (l : List LocalTreeSpr)
    (hl : (if 0 < trees.trees.length ∧ 0 < trees2.trees.length then
        trees.trees.getLast?.bind fun it =>
        trees2.trees.head?.bind fun it2 =>
        append_merge trees trees2 none it it2 trees2.trees.tail
      else some (trees.trees ++ trees2.trees)) = some l) :
    append_local_trees trees trees2 true none =
      some ({ trees with trees := l, end_coord := trees2.end_coord },
        { trees2 with trees := [], end_coord := trees2.start_coord }) := by
  have hloop := append_seqids_ok trees.seqids e
  rw [← hs] at hloop
  unfold append_local_trees
  rw [hloop]
  simp only [Option.some_bind, assertion, hn, decide_True, if_true, true_and]
  rw [hl]
  rfl

/-- The call `partition_append` at the start of the span. -/
theorem partition_append_start (trees : LocalTrees) (pos : Int)
    (h : pos = trees.start_coord) :
    ∃ t t2, partition_append trees pos = some (t, t2) ∧ SameArg t trees ∧ t2.trees = [] := by
  unfold partition_append partition_local_trees
  rw [if_pos h]
  simp only [Option.some_bind]
  have key := append_local_trees_eq { trees with trees := [], end_coord := pos }
    { chrom := trees.chrom, start_coord := pos, end_coord := trees.end_coord,
      nnodes := trees.nnodes, trees := trees.trees, seqids := trees.seqids }
    [] (by simp) rfl trees.trees (by simp)
  exact ⟨_, _, key, ⟨rfl, rfl, rfl, rfl, rfl, forall₂_sameTuple_self _⟩, rfl⟩

/-- The call `partition_append` at the end of a span that is not empty. -/
theorem partition_append_end (trees : LocalTrees) (pos : Int)
    (h0 : pos ≠ trees.start_coord) (h : pos = trees.end_coord) :
    ∃ t t2, partition_append trees pos = some (t, t2) ∧ SameArg t trees ∧ t2.trees = [] := by
  unfold partition_append partition_local_trees
  rw [if_neg h0, if_pos h]
  simp only [Option.some_bind]
  have key := append_local_trees_eq trees
    { chrom := trees.chrom, start_coord := pos, end_coord := pos,
      nnodes := trees.nnodes, trees := [], seqids := trees.seqids ++ trees.seqids }
    trees.seqids rfl rfl trees.trees (by simp)
  exact ⟨_, _, key, ⟨rfl, rfl, h, rfl, rfl, forall₂_sameTuple_self _⟩, rfl⟩

set_option maxHeartbeats 1000000 in
/-- The call `partition_append` strictly inside the span of a valid ARG: the
copy of the tree at the cut is merged again with the rest of its block. -/
theorem partition_append_inside (trees : LocalTrees) (pos : Int) (hv : AppendArg trees)
    (h1 : trees.start_coord < pos) (h2 : pos < trees.end_coord) :
    ∃ t t2, partition_append trees pos = some (t, t2) ∧ SameArg t trees ∧ t2.trees = [] := by
  have hkindAll := appendArg_kind trees hv
  obtain ⟨hshape, hnonull, hfirstspr, hall, hsum, hnd, hsl⟩ := hv
  obtain ⟨j, first, rest, e1, e2, e3, e4⟩ := get_block_loop_spec trees.trees 0 trees.start_coord
    pos (fun x hx => (hall x hx).2.2.1) (by omega) (by omega)
  have hmem : first ∈ trees.trees := by
    have : first ∈ trees.trees.drop j := by rw [e1]; exact List.mem_cons_self _ _
    exact List.mem_of_mem_drop this
  obtain ⟨hwf, hlf, hbl, hnn⟩ := hall first hmem
  obtain ⟨tc, htc, c1, c2, c3, c4⟩ := copy_spec first.tree hwf.1
  have hn0 : 0 < trees.nnodes := by
    have := hwf.2.1.1; have := hwf.2.1.2; omega
  have hkind := hkindAll j first rest e1
  -- the copy of the mapping
  obtain ⟨mc, hmc, hmck⟩ : ∃ mc, copy_mapping first.mapping trees.nnodes = some mc ∧
      ((mc = none ∧ first.mapping = none ∧ first.spr = Spr.null) ∨
        (first.spr.is_null = false ∧ ∃ m, first.mapping = some m ∧
          MappingOk trees.nnodes m ∧ mc = some (m.take trees.nnodes.toNat))) := by
    rcases hkind with ⟨k1, k2⟩ | ⟨k1, m, k2, k3⟩
    · exact ⟨none, by rw [k1]; rfl, Or.inl ⟨rfl, k1, k2⟩⟩
    · refine ⟨some (m.take trees.nnodes.toNat), ?_, Or.inr ⟨k1, m, k2, k3, rfl⟩⟩
      rw [k2]
      unfold copy_mapping
      simp only []
      rw [if_pos k3.1]
  -- the partition
  have hpart : partition_local_trees trees pos true =
      some ({ trees with
              trees := trees.trees.take j ++ [⟨tc, first.spr, mc,
                pos - (trees.start_coord + sumBlocklen (trees.trees.take j))⟩],
              end_coord := pos },
        some { chrom := trees.chrom, start_coord := pos, end_coord := trees.end_coord,
               nnodes := trees.nnodes,
               trees := { first with
                 mapping := none, spr := ⟨-1, -1, -1, -1, -1⟩,
                 blocklen := first.blocklen -
                   (pos - (trees.start_coord + sumBlocklen (trees.trees.take j))) } :: rest,
               seqids := trees.seqids }) := by
    unfold partition_local_trees LocalTrees.get_block
    rw [if_neg (by omega), if_neg (by omega), e2]
    simp only [Nat.zero_add]
    unfold partition_local_trees_at
    rw [e1]
    have hgt : first.blocklen - (pos - (trees.start_coord + sumBlocklen (trees.trees.take j))) >
        0 := by omega
    simp only [if_true, htc, hmc, Option.some_bind, Option.map_some', assertion,
      decide_eq_true hgt]
  -- the congruent mapping
  obtain ⟨idm, i1, i2, i3⟩ := map_congruent_trees_id first.tree tc trees.seqids
    (List.replicate trees.nnodes.toNat (0 : Int)) hwf hlf c1 c2 c3 c4 hnd
    (by rw [hsl]; unfold LocalTree.get_num_leaves LocalTrees.get_num_leaves; rw [hnn])
    (by rw [hnn]; simp)
  rw [hnn] at i3
  have hidlen : trees.nnodes ≤ idm.length := by rw [i2]; simp
  have hidok : MappingOk trees.nnodes idm :=
    ⟨hidlen, fun i i0 i1 => Or.inr (by rw [i3 i i0 i1]; exact ⟨i0, i1⟩)⟩
  have hcong : Congruent none tc first.tree idm :=
    congruent_copy first.tree tc idm hwf c1 c2 c3 c4 (by rw [hnn]; exact hidlen)
      (by rw [hnn]; exact i3)
  -- the merge
  obtain ⟨merged, g1, g2, g3, g4, g5⟩ := remove_null_spr_merge_eq trees.nnodes
    ⟨tc, first.spr, mc, pos - (trees.start_coord + sumBlocklen (trees.trees.take j))⟩
    { first with
      mapping := some idm, spr := ⟨-1, -1, -1, -1, -1⟩,
      blocklen := first.blocklen -
        (pos - (trees.start_coord + sumBlocklen (trees.trees.take j))) }
    hnn idm rfl hidok rfl hcong (by
      rcases hmck with ⟨k1, -, -⟩ | ⟨k1, m, k2, k3, k4⟩
      · exact Or.inl k1
      · refine Or.inr ⟨k1, m.take trees.nnodes.toNat, k4, ?_, ?_⟩
        · rw [List.length_take]
          have := k3.1
          omega
        · intro i i0 i1
          rw [readAt_take_lt m _ i (by omega)]
          exact k3.2 i i0 i1)
  have hsame : SameTuple merged first := by
    refine ⟨by rw [g2], by rw [g2], fun i _ _ => by rw [g2], ?_, ?_, ?_⟩
    · rcases hmck with ⟨k1, k2, k3⟩ | ⟨k1, m, k2, k3, k4⟩
      · rw [(g4 k1).2, k3]; rfl
      · exact (g5 _ k4).1
    · rw [g3]
      show first.blocklen - (pos - (trees.start_coord + sumBlocklen (trees.trees.take j))) +
        (pos - (trees.start_coord + sumBlocklen (trees.trees.take j))) = first.blocklen
      omega
    · rcases hmck with ⟨k1, k2, k3⟩ | ⟨k1, m, k2, k3, k4⟩
      · rw [(g4 k1).1, k2]; exact trivial
      · obtain ⟨-, m', q1, q2⟩ := g5 _ k4
        rw [q1, k2]
        intro i i0 i1
        rw [hnn] at i1
        rw [q2 i i0 i1, readAt_take_lt m _ i (by omega)]
        by_cases hm : readAt m i = -1
        · rw [if_neg (by simpa using hm), hm]
        · rw [if_pos hm]
          rcases k3.2 i i0 i1 with h | h
          · exact absurd h hm
          · exact i3 _ h.1 h.2
  -- the append
  have hmerge : append_merge
      { trees with
        trees := trees.trees.take j ++ [⟨tc, first.spr, mc,
          pos - (trees.start_coord + sumBlocklen (trees.trees.take j))⟩],
        end_coord := pos }
      { chrom := trees.chrom, start_coord := pos, end_coord := trees.end_coord,
        nnodes := trees.nnodes,
        trees := { first with
          mapping := none, spr := ⟨-1, -1, -1, -1, -1⟩,
          blocklen := first.blocklen -
            (pos - (trees.start_coord + sumBlocklen (trees.trees.take j))) } :: rest,
        seqids := trees.seqids } none
      ⟨tc, first.spr, mc, pos - (trees.start_coord + sumBlocklen (trees.trees.take j))⟩
      { first with
        mapping := none, spr := ⟨-1, -1, -1, -1, -1⟩,
        blocklen := first.blocklen -
          (pos - (trees.start_coord + sumBlocklen (trees.trees.take j))) } rest
      = some (trees.trees.take j ++ merged :: rest) := by
    unfold append_merge
    have hnull : (⟨-1, -1, -1, -1, -1⟩ : Spr).is_null = true := rfl
    simp only [hnull, if_true, i1, Option.some_bind, g1, Option.map_some',
      List.dropLast_concat]
  have key := append_local_trees_eq
    { trees with
      trees := trees.trees.take j ++ [⟨tc, first.spr, mc,
        pos - (trees.start_coord + sumBlocklen (trees.trees.take j))⟩],
      end_coord := pos }
    { chrom := trees.chrom, start_coord := pos, end_coord := trees.end_coord,
      nnodes := trees.nnodes,
      trees := { first with
        mapping := none, spr := ⟨-1, -1, -1, -1, -1⟩,
        blocklen := first.blocklen -
          (pos - (trees.start_coord + sumBlocklen (trees.trees.take j))) } :: rest,
      seqids := trees.seqids }
    [] (by simp) rfl (trees.trees.take j ++ merged :: rest) (by
      simp only [List.length_append, List.length_singleton, List.length_cons,
        List.getLast?_concat, List.head?_cons, List.tail_cons, Option.some_bind]
      rw [if_pos ⟨by omega, by omega⟩]
      exact hmerge)
  unfold partition_append
  rw [hpart]
  simp only [Option.some_bind]
  refine ⟨_, _, key, ⟨rfl, rfl, rfl, rfl, rfl, ?_⟩, rfl⟩
  show List.Forall₂ SameTuple (trees.trees.take j ++ merged :: rest) trees.trees
  have hsplit : trees.trees = trees.trees.take j ++ first :: rest := by
    rw [← e1, List.take_append_drop]
  rw [hsplit, List.take_left']
  · exact List.rel_append (forall₂_sameTuple_self _)
      (List.Forall₂.cons hsame (forall₂_sameTuple_self _))
  · rw [List.length_take]
    have : j < trees.trees.length := by
      by_contra hcon
      rw [List.drop_eq_nil_of_le (by omega)] at e1
      exact absurd e1 (by simp)
    omega

@[simp] theorem Outcome.toOption_write {σ : Type} (s : σ) (r : Option σ) :
    (Outcome.write s r).toOption = r := by
  cases r <;> rfl

@[simp] theorem Outcome.toOption_read {σ α β : Type} (s : σ) (v : Option α)
    (k : α → Outcome σ β) :
    (Outcome.read s v k).toOption = v.bind fun a => (k a).toOption := by
  cases v <;> rfl

@[simp] theorem Outcome.toOption_bind {σ α β : Type} (r : Outcome σ α)
    (f : α → Outcome σ β) :
    (r.bind f).toOption = r.toOption.bind fun a => (f a).toOption := by
  cases r <;> rfl

@[simp] theorem Outcome.toOption_returned {σ α : Type} (a : α) :
    (Outcome.returned a : Outcome σ α).toOption = some a := rfl

@[simp] theorem Outcome.toOption_failed {σ α : Type} (s : σ) :
    (Outcome.failed s : Outcome σ α).toOption = none := rfl

theorem replace_child_traced_toOption (nodes : List LocalNode) (parent old new_ : Int) :
    (replace_child_traced nodes parent old new_).toOption = replace_child nodes parent old new_ := by
  unfold replace_child_traced replace_child
  simp only [Outcome.toOption_read]
  congr 1
  funext pn
  split <;> simp

theorem apply_spr_self_traced_toOption (tree : LocalTree) (spr : Spr)
    (pop_tree : Option PopulationTree) :
    ((apply_spr_self_traced tree spr pop_tree).toOption.map fun nodes =>
      { tree with nodes := nodes }) = apply_spr_self tree spr pop_tree := by
  unfold apply_spr_self_traced apply_spr_self
  cases pop_tree with
  | none => rfl
  | some pt =>
    simp only [Outcome.toOption_read]
    cases getNode tree.nodes spr.recomb_node with
    | none => rfl
    | some rn =>
      simp only [Option.some_bind]
      split <;> simp

theorem spr_prune_traced_toOption (nodes : List LocalNode) (recoal recomb_sib broke_parent : Int) :
    (spr_prune_traced nodes recoal recomb_sib broke_parent).toOption =
      spr_prune nodes recoal recomb_sib broke_parent := by
  unfold spr_prune_traced spr_prune
  simp only [Outcome.toOption_bind, Outcome.toOption_read, Outcome.toOption_write,
    Outcome.toOption_returned]
  congr 1
  funext nodes
  congr 1
  funext x
  cases (if broke_parent ≠ -1 then modNode nodes broke_parent fun n => n.setChild x recomb_sib
    else some nodes) <;> rfl

theorem spr_recoal_broken_traced_toOption (nodes : List LocalNode)
    (pop_tree : Option PopulationTree) (recoal other recomb_sib broke_parent x : Int) :
    (spr_recoal_broken_traced nodes pop_tree recoal other recomb_sib broke_parent x).toOption =
      spr_recoal_broken nodes pop_tree recoal other recomb_sib broke_parent x := by
  unfold spr_recoal_broken_traced spr_recoal_broken
  simp only [Outcome.toOption_bind, Outcome.toOption_read, Outcome.toOption_write]
  congr 1; funext nodes
  congr 1; funext sibn
  congr 1; funext nodes
  congr 1; funext nodes
  congr 1; funext nodes
  cases pop_tree <;> simp

theorem spr_recoal_branch_traced_toOption (nodes : List LocalNode)
    (recoal other coal_node : Int) :
    (spr_recoal_branch_traced nodes recoal other coal_node).toOption =
      spr_recoal_branch nodes recoal other coal_node := by
  unfold spr_recoal_branch_traced spr_recoal_branch
  simp only [Outcome.toOption_bind, Outcome.toOption_read, Outcome.toOption_write]
  congr 1; funext nodes
  congr 1; funext cn
  congr 1; funext nodes
  congr 1; funext cn
  congr 1; funext nodes
  congr 1; funext nodes
  congr 1; funext rcn
  split
  · exact replace_child_traced_toOption _ _ _ _
  · rfl

/-- The traced run of `apply_spr` and the function `apply_spr` agree: one
returns exactly when the other does, with the same tree. -/
theorem apply_spr_traced_toOption (tree : LocalTree) (spr : Spr)
    (pop_tree : Option PopulationTree) :
    (apply_spr_traced tree spr pop_tree).toOption = apply_spr tree spr pop_tree := by
  unfold apply_spr_traced apply_spr
  simp only []
  by_cases h1 : spr.recomb_node = tree.root
  · rw [if_pos h1, if_pos h1]; rfl
  rw [if_neg h1, if_neg h1]
  by_cases h2 : spr.recomb_node = spr.coal_node
  · rw [if_pos h2, if_pos h2, ← apply_spr_self_traced_toOption]
    cases apply_spr_self_traced tree spr pop_tree <;> rfl
  rw [if_neg h2, if_neg h2]
  have key : (apply_spr_body_traced tree spr pop_tree).toOption.map
      (fun p => ({ tree with nodes := p.1, root := p.2 } : LocalTree)) =
      ((getNode tree.nodes spr.recomb_node).bind fun rn =>
        (getNode tree.nodes rn.parent).bind fun c =>
        (spr_sib_path tree.nodes pop_tree
          (c.child (if c.child0 = spr.recomb_node then 1 else 0))).bind fun nodes =>
        (spr_prune nodes rn.parent (c.child (if c.child0 = spr.recomb_node then 1 else 0))
          c.parent).bind fun (nodes, x) =>
        (if spr.coal_node = rn.parent then
            spr_recoal_broken nodes pop_tree rn.parent
              (if c.child0 = spr.recomb_node then 1 else 0)
              (c.child (if c.child0 = spr.recomb_node then 1 else 0)) c.parent x
          else spr_recoal_branch nodes rn.parent (if c.child0 = spr.recomb_node then 1 else 0)
            spr.coal_node).bind fun nodes =>
        (spr_recomb_path nodes pop_tree spr).bind fun nodes =>
        (modNode nodes rn.parent fun n => { n with age := spr.coal_time }).bind fun nodes =>
        some ({ tree with nodes := nodes,
                          root := spr_new_root tree.root rn.parent
                            (c.child (if c.child0 = spr.recomb_node then 1 else 0))
                            spr.coal_node } : LocalTree)) := by
    unfold apply_spr_body_traced
    simp only [Outcome.toOption_bind, Outcome.toOption_read, Outcome.toOption_write,
      Outcome.toOption_returned, spr_prune_traced_toOption]
    cases getNode tree.nodes spr.recomb_node with
    | none => rfl
    | some rn =>
      simp only [Option.some_bind]
      cases getNode tree.nodes rn.parent with
      | none => rfl
      | some c =>
        simp only [Option.some_bind]
        cases spr_sib_path tree.nodes pop_tree
            (c.child (if c.child0 = spr.recomb_node then 1 else 0)) with
        | none => rfl
        | some nodes =>
          simp only [Option.some_bind]
          cases spr_prune nodes rn.parent
              (c.child (if c.child0 = spr.recomb_node then 1 else 0)) c.parent with
          | none => rfl
          | some p =>
            obtain ⟨nodes2, x⟩ := p
            simp only [Option.some_bind]
            have e : ((if spr.coal_node = rn.parent then
                  spr_recoal_broken_traced nodes2 pop_tree rn.parent
                    (if c.child0 = spr.recomb_node then 1 else 0)
                    (c.child (if c.child0 = spr.recomb_node then 1 else 0)) c.parent x
                else spr_recoal_branch_traced nodes2 rn.parent
                  (if c.child0 = spr.recomb_node then 1 else 0) spr.coal_node).toOption) =
                (if spr.coal_node = rn.parent then
                  spr_recoal_broken nodes2 pop_tree rn.parent
                    (if c.child0 = spr.recomb_node then 1 else 0)
                    (c.child (if c.child0 = spr.recomb_node then 1 else 0)) c.parent x
                else spr_recoal_branch nodes2 rn.parent
                  (if c.child0 = spr.recomb_node then 1 else 0) spr.coal_node) := by
              split
              · exact spr_recoal_broken_traced_toOption _ _ _ _ _ _ _
              · exact spr_recoal_branch_traced_toOption _ _ _ _
            rw [e]
            cases (if spr.coal_node = rn.parent then
                  spr_recoal_broken nodes2 pop_tree rn.parent
                    (if c.child0 = spr.recomb_node then 1 else 0)
                    (c.child (if c.child0 = spr.recomb_node then 1 else 0)) c.parent x
                else spr_recoal_branch nodes2 rn.parent
                  (if c.child0 = spr.recomb_node then 1 else 0) spr.coal_node) with
            | none => rfl
            | some nodes3 =>
              simp only [Option.some_bind]
              cases spr_recomb_path nodes3 pop_tree spr with
              | none => rfl
              | some nodes4 =>
                simp only [Option.some_bind]
                cases modNode nodes4 rn.parent fun n => { n with age := spr.coal_time } with
                | none => rfl
                | some nodes5 => rfl
  rw [← key]
  cases apply_spr_body_traced tree spr pop_tree <;> rfl

/-- In the traced run, a failure after the first writes leaves a changed tree:
on the scenario tree, the SPR of leaf 0 onto the branch of a node 99 that the
array does not hold stops at the read of `nodes[99]`, when the sibling 1 of
the leaf already hangs below the root. -/
theorem apply_spr_traced_after_write :
    apply_spr_traced tree5 ⟨0, 5, 99, 170, 0⟩ none =
      Outcome.failed ⟨5, 4, [⟨3, -1, -1, 0, 0⟩, ⟨4, -1, -1, 0, 0⟩, ⟨4, -1, -1, 0, 0⟩,
        ⟨4, 0, 99, 50, 0⟩, ⟨-1, 2, 1, 150, 0⟩]⟩ ∧
    apply_spr_traced tree5 ⟨0, 5, 99, 170, 0⟩ none ≠ Outcome.failed tree5 := by
  decide

/-- In the arithmetic of doubles the update of `resample_migrates` keeps the
row sum up to rounding only: the row (0.99, 0.01) has the computed sum 1, the
draw 0.08 for the second entry gives the self rate 0.9199999999999999, and the
computed sum of the new row is 0.9999999999999999. -/
theorem resample_migrate_rounding :
    (roundDouble (99 / 100)).add (roundDouble (1 / 100)) = Dbl.fin 1 ∧
    migrate_update_double (roundDouble (8 / 100)) (roundDouble (1 / 100))
        (roundDouble (99 / 100)) =
      (Dbl.fin (5764607523034235 / 72057594037927936),
        Dbl.fin (517913957147607 / 562949953421312)) ∧
    (Dbl.fin (517913957147607 / 562949953421312)).add
        (Dbl.fin (5764607523034235 / 72057594037927936)) =
      Dbl.fin (9007199254740991 / 9007199254740992) := by
  decide!

/-! # The claims -/

/-- C1 (amended): for every well-formed tree, without population model, and
every SPR on two of its nodes with `recomb_node != root` and
`recomb_node != coal_node`, `apply_spr` returns a tree in which the broken node
`b = parent(recomb_node)` is re-used as the recoalescence node: `b` has age
`coal_time`, its children are `recomb_node` and `coal_node` (the old sibling
when `coal_node == b`), its parent is the former parent of `coal_node` (its own
former parent when `coal_node` is the old sibling), the old sibling takes the
former place of `b` when `coal_node` is neither `b` nor that sibling, and no
link changes when `coal_node` is `b` or the sibling. -/
theorem C1_apply_spr_reuses_broken (t : LocalTree) (s : Spr) (hwf : WellFormed t)
    (hr : t.isNode s.recomb_node) (hc : t.isNode s.coal_node)
    (hroot : s.recomb_node ≠ t.root) (hne : s.recomb_node ≠ s.coal_node) :
    ∃ t', apply_spr t s none = some t' ∧ SprReusesBroken t s t' := by
  obtain ⟨t', h, -, -, -, hnode⟩ := apply_spr_spec t s hwf hr hc hroot hne
  have L := hwf.sprLocal hr hc hroot hne
  exact ⟨t', h, sprReuses_core t.nodes t'.nodes _ _ _ _ _ _ _ t.nnodes L hnode⟩

/-- C1, witness: the scenario tree with parents `[3,3,4,4,-1]` and
`Spr{recomb_node 1, coal_node 2, coal_time 80}`. -/
theorem C1_apply_spr_reuses_broken_witness :
    WellFormed tree5 ∧ tree5.isNode spr5.recomb_node ∧ tree5.isNode spr5.coal_node ∧
    spr5.recomb_node ≠ tree5.root ∧ spr5.recomb_node ≠ spr5.coal_node ∧
    ∃ t', apply_spr tree5 spr5 none = some t' ∧ SprReusesBroken tree5 spr5 t' :=
  ⟨by decide, by decide, by decide, by decide, by decide,
    C1_apply_spr_reuses_broken tree5 spr5 (by decide) (by decide) (by decide) (by decide)
      (by decide)⟩

/-- C1, the scenario of the claim evaluated: node 3 gets the children 2 and 1
and the age 80, node 0 hangs under node 4, the root stays 4. -/
theorem C1_scenario :
    apply_spr tree5 spr5 none = some
      { nnodes := 5, root := 4,
        nodes := [⟨4, -1, -1, 0, 0⟩, ⟨3, -1, -1, 0, 0⟩, ⟨3, -1, -1, 0, 0⟩, ⟨4, 2, 1, 80, 0⟩,
          ⟨-1, 3, 0, 150, 0⟩] } := by
  decide

/-- C1, counterexample to the claim as written: with `coal_node` the sibling of
`recomb_node` (recomb node 1, coal node 0 in the scenario tree), the parent of
`b = 3` after `apply_spr` is node 4, not the former parent of `coal_node`,
which is `b` itself. -/
theorem C1_counterexample :
    WellFormed tree5 ∧ (1 : Int) ≠ tree5.root ∧
    ∃ t', apply_spr tree5 ⟨1, 20, 0, 30, 0⟩ none = some t' ∧
      (tree5.node 1).parent = 3 ∧ (tree5.node 0).parent = 3 ∧
      (t'.node 3).parent = 4 ∧ (t'.node 3).parent ≠ (tree5.node 0).parent :=
  ⟨by decide, by decide, _, rfl, by decide, by decide, by decide, by decide⟩

/-- C2 (amended): for every well-formed tree (no population model) and every
SPR that meets the SPR constraints of the data model and whose `coal_node` is
not in the subtree below `recomb_node`, `apply_spr` returns a tree that is
again well-formed: links mutually consistent, `root` the one node with parent
-1, every node reaches `root` by parent links. -/
theorem C2_apply_spr_well_formed (t : LocalTree) (s : Spr) (hwf : WellFormed t)
    (hcons : SprConstraints t s)
    (hbelow : reaches t.nodes s.recomb_node t.nnodes.toNat s.coal_node = false) :
    ∃ t', apply_spr t s none = some t' ∧ WellFormed t' := by
  obtain ⟨hr, hc, hroot, hne, -⟩ := hcons
  obtain ⟨t', h, hwf', -⟩ := apply_spr_wellFormed t s hwf hr hc hroot hne hbelow
  exact ⟨t', h, hwf'⟩

/-- C2, witness: the scenario tree with parents `[3,3,4,4,-1]` and
`Spr{recomb_node 1, recomb_time 20, coal_node 2, coal_time 80}`. -/
theorem C2_apply_spr_well_formed_witness :
    WellFormed tree5 ∧ SprConstraints tree5 spr5 ∧
    reaches tree5.nodes spr5.recomb_node tree5.nnodes.toNat spr5.coal_node = false ∧
    ∃ t', apply_spr tree5 spr5 none = some t' ∧ WellFormed t' :=
  ⟨by decide, by decide, by decide,
    C2_apply_spr_well_formed tree5 spr5 (by decide) (by decide) (by decide)⟩

/-- C2, counterexample to the claim as written: on the well-formed, age-ordered
tree with parents `[3,3,4,4,-1]` and ages `[0,0,0,5,10]` the SPR
`{recomb_node 3, recomb_time 5, coal_node 0, coal_time 5}` meets every SPR
constraint, yet after `apply_spr` the root is the isolated leaf 2 and nodes 3
and 4 are each other's parent: the result is not well-formed. -/
theorem C2_counterexample :
    WellFormed treeFlat ∧ AgeOrdered treeFlat ∧ SprConstraints treeFlat sprFlat ∧
    apply_spr treeFlat sprFlat none = some
      { nnodes := 5, root := 2,
        nodes := [⟨4, -1, -1, 0, 0⟩, ⟨3, -1, -1, 0, 0⟩, ⟨-1, -1, -1, 0, 0⟩, ⟨4, 4, 1, 5, 0⟩,
          ⟨3, 0, 3, 5, 0⟩] } ∧
    ¬ WellFormed
      { nnodes := 5, root := 2,
        nodes := [⟨4, -1, -1, 0, 0⟩, ⟨3, -1, -1, 0, 0⟩, ⟨-1, -1, -1, 0, 0⟩, ⟨4, 4, 1, 5, 0⟩,
          ⟨3, 0, 3, 5, 0⟩] } :=
  ⟨by decide, by decide, by decide, by decide, by decide⟩


/-- C3: `apply_spr` preserves the age order of the tree: for every well-formed
tree (no population model) with `age[parent] >= age[child]` on every edge and
every SPR on its nodes with `recomb_node != root`, `recomb_node != coal_node`,
`age[recomb_node] <= recomb_time <= coal_time` and
`age[coal_node] <= coal_time <= age[parent(coal_node)]` when that parent
exists, `apply_spr` returns a tree in which every edge again satisfies
`age[parent] >= age[child]`. -/
theorem C3_apply_spr_age_ordered (t : LocalTree) (s : Spr) (hwf : WellFormed t)
    (hage : AgeOrdered t)
    (hr : t.isNode s.recomb_node) (hc : t.isNode s.coal_node)
    (hroot : s.recomb_node ≠ t.root) (hne : s.recomb_node ≠ s.coal_node)
    (h1 : (t.node s.recomb_node).age ≤ s.recomb_time) (h2 : s.recomb_time ≤ s.coal_time)
    (h3 : (t.node s.coal_node).age ≤ s.coal_time)
    (h4 : (t.node s.coal_node).parent ≠ -1 →
      s.coal_time ≤ (t.node (t.node s.coal_node).parent).age) :
    ∃ t', apply_spr t s none = some t' ∧ AgeOrdered t' :=
  apply_spr_ageOrdered t s hwf hage hr hc hroot hne (le_trans h1 h2) h3 h4

/-- C3, witness: the scenario tree with ages `[0,0,0,50,150]` and
`Spr{recomb_node 1, recomb_time 20, coal_node 2, coal_time 80}`. -/
theorem C3_apply_spr_age_ordered_witness :
    WellFormed tree5 ∧ AgeOrdered tree5 ∧
    ∃ t', apply_spr tree5 spr5 none = some t' ∧ AgeOrdered t' :=
  ⟨by decide, by decide,
    C3_apply_spr_age_ordered tree5 spr5 (by decide) (by decide) (by decide) (by decide)
      (by decide) (by decide) (by decide) (by decide) (by decide) (by decide)⟩

/-- C4 (amended): without population model, `assert_tree` returns true if and
only if the `nnodes` nodes and the root slot lie in the node array and (a) the
root has parent -1, every node with parent -1 is `root`, every other parent
index lies in `[0, nnodes)`, and (b) every child index that is not -1 lies in
`[0, nnodes)` and the parent of that child is the node itself.  The ages are
not part of the check. -/
theorem C4_assert_tree_iff (t : LocalTree) :
    assert_tree t none = some true ↔ AssertTreeHolds t :=
  assert_tree_iff t

/-- C4, counterexample to the claim as written: the tree `(0,1)2` with ages
`[5,5,0]` passes `assert_tree` although its root is younger than its children,
so that clause (c) `age[parent] >= age[child]` fails. -/
theorem C4_counterexample :
    assert_tree treeYoungRoot none = some true ∧ ¬ AgeOrdered treeYoungRoot :=
  ⟨by decide, by decide⟩

/-- C5: for every well-formed tree and every SPR on its nodes with
`recomb_node != root` and `recomb_node != coal_node`, the mapping written by
`make_node_mapping` on the parent array of the old tree, and the mapping
filled by `apply_spr_new`, is the identity on every node except
`b = parent(recomb_node)`, for which it is -1; hence it is injective on its
entries that are not -1 and `b` is the only preimage of -1. -/
theorem C5_spr_mapping (t : LocalTree) (s : Spr) (mapping : List Int) (hwf : WellFormed t)
    (hr : t.isNode s.recomb_node) (hc : t.isNode s.coal_node)
    (hroot : s.recomb_node ≠ t.root) (hne : s.recomb_node ≠ s.coal_node)
    (hm : t.nnodes ≤ mapping.length) :
    (∃ m, make_node_mapping t.ptree t.nnodes s.recomb_node mapping = some m ∧
      IsSprMapping t.nnodes (t.node s.recomb_node).parent m) ∧
    (∃ t2 m, apply_spr_new t s mapping = some (t2, m) ∧
      IsSprMapping t.nnodes (t.node s.recomb_node).parent m) := by
  have hb : t.isNode (t.node s.recomb_node).parent := by
    rcases hwf.parent_cases hr with ⟨-, h⟩ | ⟨-, -, h, -⟩
    · exact absurd h hroot
    · exact h
  obtain ⟨hpA, hpv⟩ := readAt_ptree t hwf.1 s.recomb_node hr.1 hr.2
  constructor
  · obtain ⟨m, h1, -, h3⟩ := make_node_mapping_spec t.ptree t.nnodes s.recomb_node mapping hm
      hpA (by rw [hpv]; exact hb)
    rw [hpv] at h3
    exact ⟨m, h1, isSprMapping_of_values _ _ _ h3⟩
  · obtain ⟨t2, m, h1, -, -, -, -, -, h3⟩ := apply_spr_new_spec t s mapping hwf hr hc hroot hne hm
    exact ⟨t2, m, h1, isSprMapping_of_values _ _ _ h3⟩

/-- C5, witness: the scenario tree with parents `[3,3,4,4,-1]`,
`Spr{recomb_node 1, coal_node 2}` and a mapping array of five entries; the
broken node is 3. -/
theorem C5_spr_mapping_witness :
    WellFormed tree5 ∧
    (∃ m, make_node_mapping tree5.ptree tree5.nnodes spr5.recomb_node [0, 0, 0, 0, 0] = some m ∧
      IsSprMapping tree5.nnodes (tree5.node spr5.recomb_node).parent m) ∧
    (∃ t2 m, apply_spr_new tree5 spr5 [0, 0, 0, 0, 0] = some (t2, m) ∧
      IsSprMapping tree5.nnodes (tree5.node spr5.recomb_node).parent m) :=
  ⟨by decide, C5_spr_mapping tree5 spr5 [0, 0, 0, 0, 0] (by decide) (by decide) (by decide)
    (by decide) (by decide) (by decide)⟩

/-- C6: mapping consistency holds for a freshly applied SPR: for every
well-formed tree `T` (no population model), every SPR meeting the SPR
constraints and every mapping array with room for the nodes, `apply_spr_new`
returns a tree `T2` and a mapping for which `assert_spr(T, T2, spr, mapping)`
passes all of its checks and returns true. -/
theorem C6_assert_spr_after_apply_spr_new (t : LocalTree) (s : Spr) (mapping : List Int)
    (pruned_internal : Bool) (hwf : WellFormed t) (hcons : SprConstraints t s)
    (hm : t.nnodes ≤ mapping.length) :
    ∃ t2 m, apply_spr_new t s mapping = some (t2, m) ∧
      assert_spr t t2 s m pruned_internal = some true :=
  apply_spr_new_assert_spr t s mapping pruned_internal hwf hcons hm

/-- C6, witness: the scenario tree with parents `[3,3,4,4,-1]` and
`Spr{recomb_node 1, recomb_time 20, coal_node 2, coal_time 80}`. -/
theorem C6_assert_spr_after_apply_spr_new_witness :
    WellFormed tree5 ∧ SprConstraints tree5 spr5 ∧
    ∃ t2 m, apply_spr_new tree5 spr5 [0, 0, 0, 0, 0] = some (t2, m) ∧
      assert_spr tree5 t2 spr5 m false = some true :=
  ⟨by decide, by decide,
    C6_assert_spr_after_apply_spr_new tree5 spr5 [0, 0, 0, 0, 0] false (by decide) (by decide)
      (by decide)⟩

/-- C7: `get_recoal_node` returns the single node of the new tree that has no
preimage: for every mapping on `[0, nnodes)` with entries -1 or nodes, injective
on its entries other than -1, (1) if exactly one entry is -1, the result is the
unique node `j` of `[0, nnodes)` with `mapping[i] != j` for all `i`; (2) if no
entry is -1 (a permutation), the result is `spr.coal_node`; and (3) for the
tree and the mapping produced by `apply_spr_new` on a well-formed tree the
result is the parent of `recomb_node` in the new tree. -/
theorem C7_get_recoal_node (t : LocalTree) (s : Spr) (m : List Int)
    (hlen : t.nnodes ≤ m.length) (hrange : MappingInRange t.nnodes m)
    (hinj : MappingInjective t.nnodes m) :
    ((∃ b : Int, (0 ≤ b ∧ b < t.nnodes) ∧ readAt m b = -1 ∧
        ∀ i : Int, 0 ≤ i → i < t.nnodes → readAt m i = -1 → i = b) →
      ∃ j, get_recoal_node t s m = some j ∧ IsUniqueUnmapped t.nnodes m j) ∧
    ((∀ i : Int, 0 ≤ i → i < t.nnodes → readAt m i ≠ -1) →
      get_recoal_node t s m = some s.coal_node) ∧
    (∀ (t0 : LocalTree) (mapping : List Int), WellFormed t0 → t0.isNode s.recomb_node →
      t0.isNode s.coal_node → s.recomb_node ≠ t0.root → s.recomb_node ≠ s.coal_node →
      t0.nnodes ≤ mapping.length →
      ∃ t2 m2, apply_spr_new t0 s mapping = some (t2, m2) ∧
        get_recoal_node t2 s m2 = some (t2.node s.recomb_node).parent) := by
  obtain ⟨j, hj, h1, h2⟩ := get_recoal_node_spec t s m hlen hrange
  refine ⟨?_, ?_, ?_⟩
  · rintro ⟨b, hb, hb1, hbu⟩
    obtain ⟨a, ha⟩ := unique_unmapped t.nnodes m hrange hinj b hb hb1 hbu
    obtain ⟨hj3, hj4⟩ := h1 ⟨a, ha.1.1, ha.1.2, ha.2.1⟩
    have hja : j = a := ha.2.2 j hj3.1 hj3.2 hj4
    rw [hja] at hj
    exact ⟨a, hj, ha⟩
  · intro hno
    rw [hj, h2 (fun k k0 k1 => all_mapped t.nnodes m hrange hinj hno k k0 k1)]
  · intro t0 mapping hwf hr hc hroot hne hm
    exact get_recoal_node_apply_spr_new t0 s mapping hwf hr hc hroot hne hm

/-- C7, witness: on the scenario tree, the mapping `[0,1,2,-1,4]` misses
exactly one node; the permutation `[1,0,2,3,4]` gives `coal_node`; and the
mapping of `apply_spr_new` gives the parent of `recomb_node`. -/
theorem C7_get_recoal_node_witness :
    (MappingInRange tree5.nnodes [0, 1, 2, -1, 4] ∧
      MappingInjective tree5.nnodes [0, 1, 2, -1, 4] ∧
      ∃ j, get_recoal_node tree5 spr5 [0, 1, 2, -1, 4] = some j ∧
        IsUniqueUnmapped tree5.nnodes [0, 1, 2, -1, 4] j) ∧
    (MappingInRange tree5.nnodes [1, 0, 2, 3, 4] ∧
      MappingInjective tree5.nnodes [1, 0, 2, 3, 4] ∧
      get_recoal_node tree5 spr5 [1, 0, 2, 3, 4] = some spr5.coal_node) ∧
    (WellFormed tree5 ∧
      ∃ t2 m2, apply_spr_new tree5 spr5 [0, 0, 0, 0, 0] = some (t2, m2) ∧
        get_recoal_node t2 spr5 m2 = some (t2.node spr5.recomb_node).parent) :=
  ⟨⟨by decide, by decide,
      (C7_get_recoal_node tree5 spr5 [0, 1, 2, -1, 4] (by decide) (by decide) (by decide)).1
        ⟨3, by decide, by decide, by decide⟩⟩,
    ⟨by decide, by decide,
      (C7_get_recoal_node tree5 spr5 [1, 0, 2, 3, 4] (by decide) (by decide) (by decide)).2.1
        (by decide)⟩,
    ⟨by decide,
      (C7_get_recoal_node tree5 spr5 [1, 0, 2, 3, 4] (by decide) (by decide) (by decide)).2.2
        tree5 [0, 0, 0, 0, 0] (by decide) (by decide) (by decide) (by decide) (by decide)
        (by decide)⟩⟩

/-- C8: for every well-formed tree with its `L` leaves in slots `0..L-1` and
`nnodes = 2L-1`, in an array with room for `nnodes + 2` nodes, every node in
`[0, nnodes)`, every time and population path, `add_tree_branch` yields a
well-formed tree with `nnodes + 2` nodes whose leaves are exactly the slots
`0..L`: the new leaf is node `L` with age 0 and the given `pop_path`, the node
formerly named `L` is renamed to `nnodes` with all links updated, the new
internal node `nnodes + 1` has age `time`, children `[L, node']` and the
former parent of `node` as parent, and the root is updated accordingly. -/
theorem C8_add_tree_branch (t : LocalTree) (node time pop_path : Int) (hwf : WellFormed t)
    (hlf : LeavesFirst t) (hcap : t.nnodes + 2 ≤ t.nodes.length) (hnode : t.isNode node) :
    ∃ t', add_tree_branch t node time pop_path = some t' ∧ WellFormed t' ∧ LeavesFirst t' ∧
      t'.get_num_leaves = t.get_num_leaves + 1 ∧ AddBranchResult t node time pop_path t' :=
  add_tree_branch_wellFormed t node time pop_path hwf hlf hcap hnode

/-- C8, witness: a leaf is added on the branch above node 1 of the scenario
tree, at time 30. -/
theorem C8_add_tree_branch_witness :
    WellFormed tree5room ∧ LeavesFirst tree5room ∧
    tree5room.nnodes + 2 ≤ tree5room.nodes.length ∧ tree5room.isNode 1 ∧
    ∃ t', add_tree_branch tree5room 1 30 0 = some t' ∧ WellFormed t' ∧ LeavesFirst t' ∧
      t'.get_num_leaves = tree5room.get_num_leaves + 1 ∧ AddBranchResult tree5room 1 30 0 t' :=
  ⟨by decide, by decide, by decide, by decide,
    C8_add_tree_branch tree5room 1 30 0 (by decide) (by decide) (by decide) (by decide)⟩

/-- C9 (round trip R1): for every well-formed tree `T` with its leaves first
(the one-node trunk included), in an array with room for two more nodes, every
node in `[0, nnodes)`, every time and population path, and no population
model, `add_tree_branch(T, node, time, pop_path)` followed by
`remove_tree_branch` of the new leaf `L` yields a tree with the same `nnodes`
and root as `T` and, for every `i < nnodes`, the same node (parent, children,
age and population path) as `T`. -/
theorem C9_add_remove_round_trip (t : LocalTree) (node time pop_path ntimes : Int)
    (hwf : WellFormed t) (hlf : LeavesFirst t) (hcap : t.nnodes + 2 ≤ t.nodes.length)
    (hnode : t.isNode node) :
    ∃ t' t'', add_tree_branch t node time pop_path = some t' ∧
      remove_tree_branch t' t.get_num_leaves none ntimes none = some (t'', none) ∧
      t''.nnodes = t.nnodes ∧ t''.root = t.root ∧
      ∀ i : Int, 0 ≤ i → i < t.nnodes → t''.node i = t.node i :=
  add_remove_round_trip t node time pop_path ntimes hwf hlf hcap hnode

/-- C9, witness: a leaf is added above node 1 of the scenario tree and removed
again. -/
theorem C9_add_remove_round_trip_witness :
    WellFormed tree5room ∧ LeavesFirst tree5room ∧
    tree5room.nnodes + 2 ≤ tree5room.nodes.length ∧ tree5room.isNode 1 ∧
    ∃ t' t'', add_tree_branch tree5room 1 30 0 = some t' ∧
      remove_tree_branch t' tree5room.get_num_leaves none 20 none = some (t'', none) ∧
      t''.nnodes = tree5room.nnodes ∧ t''.root = tree5room.root ∧
      ∀ i : Int, 0 ≤ i → i < tree5room.nnodes → t''.node i = tree5room.node i :=
  ⟨by decide, by decide, by decide, by decide,
    C9_add_remove_round_trip tree5room 1 30 0 20 (by decide) (by decide) (by decide)
      (by decide)⟩

/-- C9 on the one-node trunk, evaluated: adding a leaf and removing it again
gives back the trunk. -/
theorem C9_trunk_round_trip :
    (add_tree_branch trunkRoom 0 7 0).bind
      (fun t' => remove_tree_branch t' 1 none 20 none) =
    some ({ nnodes := 1, root := 0,
            nodes := [⟨-1, -1, -1, 0, 0⟩, ⟨2, -1, -1, 0, 0⟩, ⟨-1, 1, 0, 7, 0⟩] }, none) := by
  decide

/-- C10 (amended to at least three leaves): for every well-formed tree with
its leaves in the first `L` slots and at least three leaves (`nnodes >= 5`),
every leaf `remove_leaf` and no population model, `remove_tree_branch` runs
through and leaves a well-formed tree with `nnodes - 2` nodes (root in
`[0, nnodes - 2)` with parent -1, all links inside `[0, nnodes - 2)` and
mutually consistent) whose leaves occupy the first `L - 1` slots. -/
theorem C10_remove_tree_branch_well_formed (t : LocalTree) (remove_leaf ntimes : Int)
    (hwf : WellFormed t) (hlf : LeavesFirst t) (hn : 5 ≤ t.nnodes)
    (hleaf : 0 ≤ remove_leaf ∧ remove_leaf < t.get_num_leaves) :
    ∃ t2, remove_tree_branch t remove_leaf none ntimes none = some (t2, none) ∧
      t2.nnodes = t.nnodes - 2 ∧ WellFormed t2 ∧ LeavesFirst t2 ∧
      t2.get_num_leaves = t.get_num_leaves - 1 := by
  obtain ⟨t2, d2, h1, h2, -, h4, h5, -, -, h8, -⟩ :=
    remove_tree_branch_spec t remove_leaf ntimes none hwf hlf hn hleaf (fun d0 h => by cases h)
  rw [h8 rfl] at h1
  refine ⟨t2, h1, h2, h4, h5, ?_⟩
  have a := hlf.1
  have b := h5.1
  omega

/-- C10, witness: leaf 1 of the scenario tree is removed. -/
theorem C10_remove_tree_branch_well_formed_witness :
    WellFormed tree5 ∧ LeavesFirst tree5 ∧ 5 ≤ tree5.nnodes ∧
    ((0 : Int) ≤ 1 ∧ 1 < tree5.get_num_leaves) ∧
    ∃ t2, remove_tree_branch tree5 1 none 20 none = some (t2, none) ∧
      t2.nnodes = tree5.nnodes - 2 ∧ WellFormed t2 ∧ LeavesFirst t2 ∧
      t2.get_num_leaves = tree5.get_num_leaves - 1 :=
  ⟨by decide, by decide, by decide, by decide,
    C10_remove_tree_branch_well_formed tree5 1 20 (by decide) (by decide) (by decide)
      (by decide)⟩

/-- C10, counterexample to the claim as written (two leaves): removing leaf 0
of the well-formed tree `(0,1)2` leaves `nnodes = 1` and `root = 1`, a root
outside `[0, nnodes)`; the surviving leaf was moved to slot 0. -/
theorem C10_counterexample :
    WellFormed tree3 ∧ LeavesFirst tree3 ∧ 3 ≤ tree3.nnodes ∧
    ((0 : Int) ≤ 0 ∧ 0 < tree3.get_num_leaves) ∧
    remove_tree_branch tree3 0 none 20 none =
      some (LocalTree.mk 1 1 [⟨-1, -1, -1, 0, 0⟩, ⟨-1, -1, -1, 0, 0⟩, ⟨-1, 0, 1, 10, 0⟩], none) ∧
    ¬ WellFormed (LocalTree.mk 1 1 [⟨-1, -1, -1, 0, 0⟩, ⟨-1, -1, -1, 0, 0⟩, ⟨-1, 0, 1, 10, 0⟩]) := by
  decide

set_option maxHeartbeats 4000000 in
/-- C11: for every well-formed tree with its leaves first and at least three
leaves, every leaf `remove_leaf`, no population model and an array `displace`
with room for `nnodes` entries, the array written by `remove_tree_branch` is a
relabelling of the surviving nodes: `displace[remove_leaf] = -1` and
`displace[parent(remove_leaf)] = -1`; `displace` maps the other nodes into
`[0, nnodes - 2)`, injectively and onto; and for every surviving node `i` the
node `displace[i]` of the result has the age of `i` and has parent
`displace[p]`, where `p` is the old parent of `i`, or the old grandparent when
the old parent is the removed coalescence node (-1 when there is no `p`). -/
theorem C11_remove_tree_branch_displace (t : LocalTree) (remove_leaf ntimes : Int)
    (d0 : List Int) (hwf : WellFormed t) (hlf : LeavesFirst t) (hn : 5 ≤ t.nnodes)
    (hleaf : 0 ≤ remove_leaf ∧ remove_leaf < t.get_num_leaves) (hd : t.nnodes ≤ d0.length) :
    ∃ t2 displace,
      remove_tree_branch t remove_leaf none ntimes (some d0) = some (t2, some displace) ∧
      t2.nnodes = t.nnodes - 2 ∧
      readAt displace remove_leaf = -1 ∧ readAt displace (t.node remove_leaf).parent = -1 ∧
      (∀ i : Int, 0 ≤ i → i < t.nnodes → i ≠ remove_leaf → i ≠ (t.node remove_leaf).parent →
        0 ≤ readAt displace i ∧ readAt displace i < t.nnodes - 2) ∧
      (∀ i j : Int, 0 ≤ i → i < t.nnodes → i ≠ remove_leaf → i ≠ (t.node remove_leaf).parent →
        0 ≤ j → j < t.nnodes → j ≠ remove_leaf → j ≠ (t.node remove_leaf).parent →
        readAt displace i = readAt displace j → i = j) ∧
      (∀ k : Int, 0 ≤ k → k < t.nnodes - 2 →
        ∃ i : Int, 0 ≤ i ∧ i < t.nnodes ∧ i ≠ remove_leaf ∧ i ≠ (t.node remove_leaf).parent ∧
          readAt displace i = k) ∧
      (∀ i : Int, 0 ≤ i → i < t.nnodes → i ≠ remove_leaf → i ≠ (t.node remove_leaf).parent →
        (t2.node (readAt displace i)).age = (t.node i).age ∧
        (t2.node (readAt displace i)).parent =
          (if (if (t.node i).parent = (t.node remove_leaf).parent
                then (t.node (t.node remove_leaf).parent).parent else (t.node i).parent) = -1
            then -1
            else readAt displace
              (if (t.node i).parent = (t.node remove_leaf).parent
                then (t.node (t.node remove_leaf).parent).parent else (t.node i).parent))) := by
  obtain ⟨t2, d2, h1, h2, -, -, -, -, h7, -, h9⟩ :=
    remove_tree_branch_spec t remove_leaf ntimes (some d0) hwf hlf hn hleaf
      (fun d h => by cases h; exact hd)
  obtain ⟨d4, rfl, -, hread⟩ := h9 d0 rfl
  have hnn := hlf.1
  have hL : 3 ≤ t.get_num_leaves := by omega
  have hT := hwf.treeOn
  have hroot : remove_leaf ≠ t.root := by
    intro e
    have h0 : (t.node remove_leaf).child0 = -1 :=
      (hlf.2 remove_leaf hleaf.1 (by omega)).mpr hleaf.2
    have hr : 0 ≤ t.root ∧ t.root < t.nnodes := hwf.2.1
    have : ∃ y : Int, (0 ≤ y ∧ y < t.nnodes) ∧ y ≠ t.root := by
      by_cases h : t.root = 0
      · exact ⟨1, ⟨by omega, by omega⟩, by omega⟩
      · exact ⟨0, ⟨by omega, by omega⟩, by omega⟩
    obtain ⟨y, hy, hyr⟩ := this
    have := hT.root_not_leaf y hy hyr
    rw [← e] at this
    exact this h0
  have hrlS : 0 ≤ remove_leaf ∧ remove_leaf < t.nnodes := by omega
  have hrc : t.get_num_leaves ≤ (t.node remove_leaf).parent ∧
      (t.node remove_leaf).parent < t.nnodes := by
    rcases hT.par remove_leaf hrlS with ⟨-, a⟩ | ⟨a, b, c⟩
    · exact absurd a hroot
    · have b' : 0 ≤ (t.node remove_leaf).parent ∧ (t.node remove_leaf).parent < t.nnodes := b
      refine ⟨?_, b'.2⟩
      by_contra hcon
      have h0 := (hlf.2 _ b'.1 b'.2).mpr (by omega)
      rcases hT.ch _ b with ⟨d, e⟩ | ⟨d, -⟩
      · have d' : (t.node (t.node remove_leaf).parent).child0 = -1 := d
        have e' : (t.node (t.node remove_leaf).parent).child1 = -1 := e
        rcases c with c | c
        · have c' : (t.node (t.node remove_leaf).parent).child0 = remove_leaf := c
          omega
        · have c' : (t.node (t.node remove_leaf).parent).child1 = remove_leaf := c
          omega
      · have d' : 0 ≤ (t.node (t.node remove_leaf).parent).child0 := d.1
        omega
  have hrd : ∀ i : Int, 0 ≤ i → i < t.nnodes → readAt d4 i =
      removeDisplace t.nnodes t.get_num_leaves remove_leaf (t.node remove_leaf).parent i := by
    intro i i0 i1
    rw [hread, if_pos ⟨i0, i1⟩]
  refine ⟨t2, d4, h1, h2, ?_, ?_, ?_, ?_, ?_, ?_⟩
  · rw [hrd _ hrlS.1 hrlS.2]
    unfold removeDisplace
    rw [if_pos (Or.inl rfl)]
  · rw [hrd _ (by omega) hrc.2]
    unfold removeDisplace
    rw [if_pos (Or.inr rfl)]
  · intro i i0 i1 hil hic
    rw [hrd i i0 i1]
    have := removeDisplace_range t.nnodes t.get_num_leaves remove_leaf
      (t.node remove_leaf).parent i hnn hL hleaf hrc ⟨i0, i1, hil, hic⟩
    exact ⟨this.1, this.2.1⟩
  · intro i j i0 i1 hil hic j0 j1 hjl hjc e
    rw [hrd i i0 i1, hrd j j0 j1] at e
    exact removeDisplace_inj t.nnodes t.get_num_leaves remove_leaf
      (t.node remove_leaf).parent i j hnn hL hleaf hrc ⟨i0, i1, hil, hic⟩ ⟨j0, j1, hjl, hjc⟩ e
  · intro k k0 k1
    obtain ⟨i, hi, e⟩ := removeDisplace_surj t.nnodes t.get_num_leaves remove_leaf
      (t.node remove_leaf).parent k hnn hL hleaf hrc ⟨k0, k1⟩
    exact ⟨i, hi.1, hi.2.1, hi.2.2.1, hi.2.2.2, by rw [hrd i hi.1 hi.2.1]; exact e⟩
  · intro i i0 i1 hil hic
    rw [hrd i i0 i1, h7 i i0 i1 hil hic]
    refine ⟨rfl, ?_⟩
    show removeDisplace _ _ _ _ _ = _
    by_cases hp : (if (t.node i).parent = (t.node remove_leaf).parent
        then (t.node (t.node remove_leaf).parent).parent else (t.node i).parent) = -1
    · rw [if_pos hp, hp]
      exact removeDisplace_neg _ _ _ _ hnn hL hleaf hrc
    · rw [if_neg hp]
      have hin : 0 ≤ (if (t.node i).parent = (t.node remove_leaf).parent
          then (t.node (t.node remove_leaf).parent).parent else (t.node i).parent) ∧
          (if (t.node i).parent = (t.node remove_leaf).parent
          then (t.node (t.node remove_leaf).parent).parent else (t.node i).parent) < t.nnodes := by
        split at hp
        · rename_i hq
          rw [if_pos hq]
          rcases hT.par _ (show (0 ≤ (t.node remove_leaf).parent ∧
              (t.node remove_leaf).parent < t.nnodes) from ⟨by omega, hrc.2⟩) with
            ⟨a, -⟩ | ⟨-, a, -⟩
          · exact absurd a hp
          · exact a
        · rename_i hq
          rw [if_neg hq]
          rcases hT.par i ⟨i0, i1⟩ with ⟨a, -⟩ | ⟨-, a, -⟩
          · exact absurd a hp
          · exact a
      rw [hrd _ hin.1 hin.2]

/-- C11, witness: leaf 1 of the scenario tree is removed, with an array of
five entries. -/
theorem C11_remove_tree_branch_displace_witness :
    WellFormed tree5 ∧ LeavesFirst tree5 ∧ 5 ≤ tree5.nnodes ∧
    ((0 : Int) ≤ 1 ∧ 1 < tree5.get_num_leaves) ∧
    tree5.nnodes ≤ ([0, 0, 0, 0, 0] : List Int).length ∧
    remove_tree_branch tree5 1 none 20 (some [0, 0, 0, 0, 0]) =
      some (LocalTree.mk 3 2 [⟨2, -1, -1, 0, 0⟩, ⟨2, -1, -1, 0, 0⟩, ⟨-1, 1, 0, 150, 0⟩,
                ⟨4, 0, 1, 50, 0⟩, ⟨-1, 1, 0, 150, 0⟩], some [0, -1, 1, -1, 2]) ∧
    ∃ t2 displace,
      remove_tree_branch tree5 1 none 20 (some [0, 0, 0, 0, 0]) = some (t2, some displace) ∧
      t2.nnodes = tree5.nnodes - 2 ∧
      readAt displace 1 = -1 ∧ readAt displace (tree5.node 1).parent = -1 :=
  ⟨by decide, by decide, by decide, by decide, by decide, by decide,
    let ⟨t2, d, h1, h2, h3, h4, _⟩ := C11_remove_tree_branch_displace tree5 1 20 [0, 0, 0, 0, 0]
      (by decide) (by decide) (by decide) (by decide) (by decide)
    ⟨t2, d, h1, h2, h3, h4⟩⟩

/-- C12: tree surgery keeps the ages of the existing leaves.  (a) Whenever
`apply_spr` returns a tree, with or without population tree, every node other
than `parent(recomb_node)` has its old age; in a well-formed tree that parent is
not a leaf, so that every leaf keeps its age.  (b) `add_tree_branch` on a
well-formed tree with its leaves first and room for two nodes returns a tree
in which the leaves `0..L-1` have their old age.  (c) `remove_tree_branch`
without population tree, on a well-formed tree with at least two leaves, the
leaves first, returns a tree in which every surviving leaf `l` has, in slot
`displace[l]`, the age it had before. -/
theorem C12_surgery_keeps_leaf_ages :
    (∀ (t t2 : LocalTree) (s : Spr) (pt : Option PopulationTree),
      apply_spr t s pt = some t2 →
      (∀ j : Int, j ≠ (t.node s.recomb_node).parent → (t2.node j).age = (t.node j).age) ∧
      (WellFormed t → t.isNode s.recomb_node →
        ∀ l : Int, (t.node l).child0 = -1 → (t2.node l).age = (t.node l).age)) ∧
    (∀ (t : LocalTree) (node time pop_path : Int), WellFormed t → LeavesFirst t →
      t.nnodes + 2 ≤ t.nodes.length → t.isNode node →
      ∃ t2, add_tree_branch t node time pop_path = some t2 ∧
        ∀ l : Int, 0 ≤ l → l < t.get_num_leaves → (t2.node l).age = (t.node l).age) ∧
    (∀ (t : LocalTree) (remove_leaf ntimes : Int) (d0 : List Int), WellFormed t →
      LeavesFirst t → 3 ≤ t.nnodes → 0 ≤ remove_leaf ∧ remove_leaf < t.get_num_leaves →
      t.nnodes ≤ d0.length →
      ∃ t2 displace,
        remove_tree_branch t remove_leaf none ntimes (some d0) = some (t2, some displace) ∧
        ∀ l : Int, 0 ≤ l → l < t.get_num_leaves → l ≠ remove_leaf →
          (t2.node (readAt displace l)).age = (t.node l).age) := by
  refine ⟨?_, ?_, ?_⟩
  · intro t t2 s pt h
    refine ⟨fun j hj => apply_spr_age_frame t t2 s pt h j hj, ?_⟩
    intro hwf hr l hl
    apply apply_spr_age_frame t t2 s pt h
    apply hwf.parent_not_leaf s.recomb_node l hr _ hl
    intro e
    unfold apply_spr at h
    simp only [] at h
    rw [if_pos e] at h
    cases h
  · intro t node time pop_path hwf hlf hcap hnode
    obtain ⟨t2, h1, -, -, -, hres⟩ :=
      add_tree_branch_wellFormed t node time pop_path hwf hlf hcap hnode
    refine ⟨t2, h1, fun l l0 l1 => ?_⟩
    have hnn := hlf.1
    have := hres.2.2.2.2 l l0 (by omega)
    have e : relabel t.get_num_leaves t.nnodes l = l := by
      unfold relabel; rw [if_neg (by omega)]
    simp only [e] at this
    rw [this]
  · intro t remove_leaf ntimes d0 hwf hlf hn hleaf hd
    exact remove_tree_branch_leaf_ages t remove_leaf ntimes d0 hwf hlf hn hleaf hd

/-- C12, witness: on the tree with the ancient sample 1 (age 7), the SPR that
moves leaf 1 above leaf 2, the new branch above node 0 and the removal of
leaf 0 all keep the age 7 of the sample. -/
theorem C12_surgery_keeps_leaf_ages_witness :
    (apply_spr treeAncient ⟨1, 20, 2, 80, 0⟩ none =
      some (LocalTree.mk 5 4 [⟨4, -1, -1, 0, 0⟩, ⟨3, -1, -1, 7, 0⟩, ⟨3, -1, -1, 0, 0⟩,
        ⟨4, 2, 1, 80, 0⟩, ⟨-1, 3, 0, 150, 0⟩, default, default]) ∧
      ((LocalTree.mk 5 4 [⟨4, -1, -1, 0, 0⟩, ⟨3, -1, -1, 7, 0⟩, ⟨3, -1, -1, 0, 0⟩,
        ⟨4, 2, 1, 80, 0⟩, ⟨-1, 3, 0, 150, 0⟩, default, default]).node 1).age =
        (treeAncient.node 1).age) ∧
    (∃ t2, add_tree_branch treeAncient 0 30 0 = some t2 ∧
      ∀ l : Int, 0 ≤ l → l < treeAncient.get_num_leaves →
        (t2.node l).age = (treeAncient.node l).age) ∧
    (∃ t2 displace,
      remove_tree_branch treeAncient 0 none 20 (some [0, 0, 0, 0, 0]) =
        some (t2, some displace) ∧
      ∀ l : Int, 0 ≤ l → l < treeAncient.get_num_leaves → l ≠ 0 →
        (t2.node (readAt displace l)).age = (treeAncient.node l).age) :=
  ⟨⟨by decide, (C12_surgery_keeps_leaf_ages.1 treeAncient _ ⟨1, 20, 2, 80, 0⟩ none
      (by decide)).1 1 (by decide)⟩,
    C12_surgery_keeps_leaf_ages.2.1 treeAncient 0 30 0 (by decide) (by decide) (by decide)
      (by decide),
    C12_surgery_keeps_leaf_ages.2.2 treeAncient 0 20 [0, 0, 0, 0, 0] (by decide) (by decide)
      (by decide) (by decide) (by decide)⟩

/-- C14: `apply_spr` rejects a recombination on the root branch: for every
tree, every SPR with `spr.recomb_node == tree.root` and every population tree
(or none) the call fails, and the tree at the point of failure is the tree
that was passed in: no field of it, neither a node nor the root, has been
written.  The first conjunct is about `apply_spr`, the second about the run of
the same statements that keeps the tree at the point of failure. -/
theorem C14_apply_spr_rejects_root (t : LocalTree) (s : Spr) (pt : Option PopulationTree)
    (h : s.recomb_node = t.root) :
    apply_spr t s pt = none ∧ apply_spr_traced t s pt = Outcome.failed t := by
  constructor
  · unfold apply_spr
    simp only []
    rw [if_pos h]
  · unfold apply_spr_traced
    rw [if_pos h]

/-- C14, witness: a recombination on the root branch of the scenario tree
fails and leaves the scenario tree as it was. -/
theorem C14_apply_spr_rejects_root_witness :
    (⟨4, 160, 4, 170, 0⟩ : Spr).recomb_node = tree5.root ∧
    apply_spr tree5 ⟨4, 160, 4, 170, 0⟩ none = none ∧
    apply_spr_traced tree5 ⟨4, 160, 4, 170, 0⟩ none = Outcome.failed tree5 :=
  ⟨by decide, C14_apply_spr_rejects_root tree5 ⟨4, 160, 4, 170, 0⟩ none (by decide)⟩

/-- C13: for every `start`, `end`, `seqid`, `pop_path` and capacity (the
default -1 included), and whatever the `LocalTrees` held before,
`make_trunk(start, end, seqid, pop_path)` leaves an ARG with exactly one local
tree: it has `nnodes = 1`, root 0 and the single node
`{parent -1, child [-1,-1], age 0, pop_path}`; the SPR is null, there is no
mapping, `blocklen = end - start`; `start_coord = start`, `end_coord = end`,
`nnodes = 1` and `seqids = [seqid]`. -/
theorem C13_make_trunk (trees : LocalTrees) (start end_ seqid pop_path capacity : Int) :
    ∃ r x, trees.make_trunk start end_ seqid pop_path capacity = some r ∧ r.trees = [x] ∧
      x.tree.nnodes = 1 ∧ x.tree.root = 0 ∧ 1 ≤ x.tree.nodes.length ∧
      x.tree.node 0 = ⟨-1, -1, -1, 0, pop_path⟩ ∧
      x.spr = ⟨-1, -1, -1, -1, -1⟩ ∧ x.spr.is_null = true ∧ x.mapping = none ∧
      x.blocklen = end_ - start ∧
      r.start_coord = start ∧ r.end_coord = end_ ∧ r.nnodes = 1 ∧ r.seqids = [seqid] := by
  have key : ∀ c : Nat, ∃ N : List LocalNode,
      set_ptree [-1] [0] c = some { nnodes := 1, root := 0, nodes := ⟨-1, -1, -1, 0, 0⟩ :: N } := by
    intro c
    refine ⟨List.replicate ((if c < 1 then 1 else c) - 1) default, ?_⟩
    have h1 : List.range 1 = [0] := rfl
    simp [set_ptree, set_ptree_children, h1]
  obtain ⟨N, hN⟩ := key (if 0 ≤ capacity then capacity.toNat else 0)
  have hA : inArr (⟨-1, -1, -1, 0, 0⟩ :: N : List LocalNode) 0 := by
    unfold inArr; simp
  refine ⟨{ chrom := trees.chrom, start_coord := start, end_coord := end_, nnodes := 1,
            trees := [⟨LocalTree.mk 1 0 (updAt (⟨-1, -1, -1, 0, 0⟩ :: N) 0
              ⟨-1, -1, -1, 0, pop_path⟩), ⟨-1, -1, -1, -1, -1⟩, none, end_ - start⟩],
            seqids := [seqid] },
    ⟨LocalTree.mk 1 0 (updAt (⟨-1, -1, -1, 0, 0⟩ :: N) 0 ⟨-1, -1, -1, 0, pop_path⟩),
      ⟨-1, -1, -1, -1, -1⟩, none, end_ - start⟩, ?_, rfl, rfl, rfl, ?_, ?_, rfl, rfl, rfl, rfl,
    rfl, rfl, rfl, rfl⟩
  · unfold LocalTrees.make_trunk LocalTree.ofPtree
    rw [hN]
    simp only [Option.some_bind, modNode_eq _ hA, Option.map_some']
    rfl
  · simp
  · simp [LocalTree.node, nodeAt, readAt, updAt]

/-- C13, the scenario of the claim evaluated: `make_trunk(0, 1000, 0, 0)` on
an ARG that held two trees. -/
theorem C13_make_trunk_scenario :
    treesTwo.make_trunk 0 1000 0 0 (-1) =
      some { chrom := "chr", start_coord := 0, end_coord := 1000, nnodes := 1,
             trees := [⟨LocalTree.mk 1 0 [⟨-1, -1, -1, 0, 0⟩], ⟨-1, -1, -1, -1, -1⟩, none, 1000⟩],
             seqids := [0] } := by
  decide

/-- C15 (amended to blocks of positive length): for every `LocalTrees` whose
blocks all have positive length, with `Σ blocklen == end_coord - start_coord`
and trees and mappings stored for `nnodes` nodes, and every `pos` with
`start_coord <= pos <= end_coord`, `partition_local_trees(trees, pos)` with
`trim = true` returns `trees2`; after the call `trees` spans
`[start_coord, pos)` and `trees2` spans `[pos, old end_coord)`; in each part
the block lengths sum to `end_coord - start_coord`; every block of `trees2` has
positive length; and every block of `trees` other than its last has positive
length, the last being of length zero or more. -/
theorem C15_partition_block_lengths (trees : LocalTrees) (pos : Int)
    (hsum : sumBlocklen trees.trees = trees.end_coord - trees.start_coord)
    (hpos : ∀ x ∈ trees.trees, 0 < x.blocklen) (hst : StorageOk trees)
    (h1 : trees.start_coord ≤ pos) (h2 : pos ≤ trees.end_coord) :
    ∃ left right, partition_local_trees trees pos true = some (left, some right) ∧
      left.start_coord = trees.start_coord ∧ left.end_coord = pos ∧
      right.start_coord = pos ∧ right.end_coord = trees.end_coord ∧
      sumBlocklen left.trees = left.end_coord - left.start_coord ∧
      sumBlocklen right.trees = right.end_coord - right.start_coord ∧
      (∀ x ∈ right.trees, 0 < x.blocklen) ∧
      (∀ x ∈ left.trees.dropLast, 0 < x.blocklen) ∧
      (∀ x ∈ left.trees, 0 ≤ x.blocklen) := by
  by_cases hs : pos = trees.start_coord
  · refine ⟨{ trees with trees := [], end_coord := pos },
      { chrom := trees.chrom, start_coord := pos, end_coord := trees.end_coord,
        nnodes := trees.nnodes, trees := trees.trees, seqids := trees.seqids },
      by unfold partition_local_trees; rw [if_pos hs], rfl, rfl, rfl, rfl, ?_, ?_,
      ?_, ?_, ?_⟩
    · show sumBlocklen [] = pos - trees.start_coord
      rw [sumBlocklen_nil]; omega
    · show sumBlocklen trees.trees = trees.end_coord - pos
      rw [hsum, hs]
    · exact hpos
    · intro x hx; simp at hx
    · intro x hx; simp at hx
  · by_cases he : pos = trees.end_coord
    · refine ⟨trees,
        { chrom := trees.chrom, start_coord := pos, end_coord := pos,
          nnodes := trees.nnodes, trees := [], seqids := trees.seqids ++ trees.seqids },
        by unfold partition_local_trees; rw [if_neg hs, if_pos he], rfl, he.symm,
        rfl, he, ?_, ?_, ?_, ?_, ?_⟩
      · exact hsum
      · show sumBlocklen [] = pos - pos
        rw [sumBlocklen_nil]; omega
      · intro x hx; simp at hx
      · intro x hx; exact hpos x (List.mem_of_mem_dropLast hx)
      · intro x hx; exact le_of_lt (hpos x hx)
    · obtain ⟨j, first, last, rest, e1, e2, e3, e4, e5⟩ :=
        partition_inside trees pos hsum hpos hst (by omega) (by omega)
      have hsplit : sumBlocklen trees.trees =
          sumBlocklen (trees.trees.take j) + (first.blocklen + sumBlocklen rest) := by
        conv_lhs => rw [← List.take_append_drop j trees.trees]
        rw [sumBlocklen_append, e1, sumBlocklen_cons]
      refine ⟨_, _, e5, rfl, rfl, rfl, rfl, ?_, ?_, ?_, ?_, ?_⟩
      · show sumBlocklen (trees.trees.take j ++ [last]) = pos - trees.start_coord
        rw [sumBlocklen_append, sumBlocklen_cons, sumBlocklen_nil]
        omega
      · show sumBlocklen (_ :: rest) = trees.end_coord - pos
        rw [sumBlocklen_cons]
        show first.blocklen - last.blocklen + sumBlocklen rest = _
        omega
      · intro x hx
        rcases List.mem_cons.mp hx with hx | hx
        · rw [hx]
          show 0 < first.blocklen - last.blocklen
          omega
        · apply hpos x
          have : x ∈ trees.trees.drop j := by rw [e1]; exact List.mem_cons_of_mem _ hx
          exact List.mem_of_mem_drop this
      · intro x hx
        have hx' : x ∈ trees.trees.take j := by
          have : (trees.trees.take j ++ [last]).dropLast = trees.trees.take j := by
            simp
          have hx2 : x ∈ (trees.trees.take j ++ [last]).dropLast := hx
          rw [this] at hx2
          exact hx2
        exact hpos x (List.mem_of_mem_take hx')
      · intro x hx
        have hx2 : x ∈ trees.trees.take j ++ [last] := hx
        rcases List.mem_append.mp hx2 with hx3 | hx3
        · exact le_of_lt (hpos x (List.mem_of_mem_take hx3))
        · have : x = last := by simpa using hx3
          rw [this]; exact e3

/-- C15, witness: the trunk ARG with blocks `[0, 4)` and `[4, 10)` is split at
position 7. -/
theorem C15_partition_block_lengths_witness :
    sumBlocklen treesTwo.trees = treesTwo.end_coord - treesTwo.start_coord ∧
    (∀ x ∈ treesTwo.trees, 0 < x.blocklen) ∧ StorageOk treesTwo ∧
    treesTwo.start_coord ≤ 7 ∧ (7 : Int) ≤ treesTwo.end_coord ∧
    ∃ left right, partition_local_trees treesTwo 7 true = some (left, some right) ∧
      left.start_coord = treesTwo.start_coord ∧ left.end_coord = 7 ∧
      right.start_coord = 7 ∧ right.end_coord = treesTwo.end_coord ∧
      sumBlocklen left.trees = left.end_coord - left.start_coord ∧
      sumBlocklen right.trees = right.end_coord - right.start_coord ∧
      (∀ x ∈ right.trees, 0 < x.blocklen) ∧
      (∀ x ∈ left.trees.dropLast, 0 < x.blocklen) ∧
      (∀ x ∈ left.trees, 0 ≤ x.blocklen) :=
  ⟨by decide, by decide, by unfold StorageOk; decide, by decide, by decide,
    C15_partition_block_lengths treesTwo 7 (by decide) (by decide)
      (by unfold StorageOk; decide) (by decide) (by decide)⟩

/-- C15, counterexample to the claim as written: the ARG with a block of
length 10 and a stub of length 0 has `Σ blocklen == end_coord - start_coord`;
split at position 5, the stub goes to `trees2`, which then holds a block that
is not of positive length. -/
theorem C15_counterexample :
    sumBlocklen treesStub.trees = treesStub.end_coord - treesStub.start_coord ∧
    treesStub.start_coord ≤ 5 ∧ (5 : Int) ≤ treesStub.end_coord ∧
    ∃ left right, partition_local_trees treesStub 5 true = some (left, some right) ∧
      (right.trees.map fun x => x.blocklen) = [5, 0] ∧
      ¬ (∀ x ∈ right.trees, 0 < x.blocklen) := by
  refine ⟨by decide, by decide, by decide, _, _, rfl, ?_, ?_⟩
  · decide
  · decide

/-- C16, as the code behaves: whenever `partition_local_trees(trees, pos,
trim)` returns a list `trees2`, it carries the `chrom` and the `nnodes` of the
input; its `seqids` are those of the input, except for
`pos == end_coord != start_coord`, where the input's `seqids` are inserted
twice. -/
theorem C16_partition_frame (trees left right : LocalTrees) (pos : Int) (trim : Bool)
    (h : partition_local_trees trees pos trim = some (left, some right)) :
    right.chrom = trees.chrom ∧ right.nnodes = trees.nnodes ∧
    right.seqids = (if pos ≠ trees.start_coord ∧ pos = trees.end_coord
      then trees.seqids ++ trees.seqids else trees.seqids) := by
  unfold partition_local_trees at h
  by_cases hs : pos = trees.start_coord
  · rw [if_pos hs] at h
    cases h
    refine ⟨rfl, rfl, ?_⟩
    rw [if_neg (fun h => h.1 hs)]
  · rw [if_neg hs] at h
    by_cases he : pos = trees.end_coord
    · rw [if_pos he] at h
      cases h
      refine ⟨rfl, rfl, ?_⟩
      rw [if_pos ⟨hs, he⟩]
    · rw [if_neg he] at h
      rw [if_neg (fun h => he h.2)]
      cases hb : trees.get_block pos with
      | none => rw [hb] at h; cases h
      | some v =>
        obtain ⟨it, start, e⟩ := v
        rw [hb] at h
        simp only [] at h
        obtain ⟨⟨l, r⟩, h1, h2⟩ := Option.map_eq_some'.mp h
        cases h2
        unfold partition_local_trees_at at h1
        cases hd : trees.trees.drop it with
        | nil => rw [hd] at h1; cases h1
        | cons first rest =>
          rw [hd] at h1
          simp only [] at h1
          obtain ⟨⟨l1, f1⟩, -, h3⟩ := Option.bind_eq_some.mp h1
          obtain ⟨u, -, h4⟩ := Option.map_eq_some'.mp h3
          cases h4
          exact ⟨rfl, rfl, rfl⟩

/-- C16, witness: the trunk ARG with blocks `[0, 4)` and `[4, 10)` is split at
position 7. -/
theorem C16_partition_frame_witness :
    partition_local_trees treesTwo 7 true = some (treesTwoLeft, some treesTwoRight) ∧
    treesTwoRight.seqids =
      (if (7 : Int) ≠ treesTwo.start_coord ∧ 7 = treesTwo.end_coord
        then treesTwo.seqids ++ treesTwo.seqids else treesTwo.seqids) :=
  ⟨by decide,
    (C16_partition_frame treesTwo treesTwoLeft treesTwoRight 7 true (by decide)).2.2⟩

/-- C16, the failing input: the trunk ARG on `[0, 10)` with `seqids = [7]` is
split at `pos = end_coord = 10`; the list returned has `seqids = [7, 7]`, twice
as long as the input's. -/
theorem C16_counterexample :
    treesTwo.start_coord ≤ 10 ∧ (10 : Int) ≤ treesTwo.end_coord ∧ treesTwo.seqids = [7] ∧
    partition_local_trees treesTwo 10 true =
      some (treesTwo,
        some { chrom := "chr", start_coord := 10, end_coord := 10, nnodes := 1,
               trees := [], seqids := [7, 7] }) := by
  decide

/-- C17: `get_next_removal_nodes` for a node of `tree1` inside the mapping.
For a self SPR (`recomb_node == coal_node`) and a mapped node the only
successor is `mapping[node]`.  For a non-self SPR on a well-formed tree, with
`recomb_node` a node below the root, given the recoal node `rc` (passed, or
found by `get_recoal_node` when -1 is passed): the first successor is
`mapping[node]` when the node is mapped and, for the broken node
(`mapping[node] == -1`), the image of the sibling of `recomb_node`, or `rc`
when `coal_node` is that sibling; the second successor is `rc` when
`node == spr.coal_node` and -1 otherwise. -/
theorem C17_get_next_removal_nodes (tree1 : LocalTree) (spr : Spr) (mapping : List Int)
    (node recoal : Int) (hnode : tree1.isNode node) (hlen : tree1.nnodes ≤ mapping.length) :
    (spr.coal_node = spr.recomb_node → readAt mapping node ≠ -1 →
      get_next_removal_nodes tree1 spr mapping node recoal = some (readAt mapping node, -1)) ∧
    (spr.coal_node ≠ spr.recomb_node → WellFormed tree1 → tree1.isNode spr.recomb_node →
      spr.recomb_node ≠ tree1.root →
      ∀ rc : Int,
        (if recoal = -1 then get_recoal_node tree1 spr mapping else some recoal) = some rc →
        get_next_removal_nodes tree1 spr mapping node recoal =
          some (if readAt mapping node ≠ -1 then readAt mapping node
                else if spr.coal_node = tree1.sibling spr.recomb_node then rc
                else readAt mapping (tree1.sibling spr.recomb_node),
                if spr.coal_node = node then rc else -1)) := by
  have hA : inArr mapping node := by
    have : 0 ≤ node ∧ node < tree1.nnodes := hnode
    unfold inArr; omega
  refine ⟨?_, ?_⟩
  · intro hself hm
    unfold get_next_removal_nodes
    rw [if_pos hself, getAt_eq hA]
    simp only [Option.some_bind, assertion, decide_eq_true hm, if_true, Option.map_some']
  · intro hne hwf hr hroot rc hrc
    unfold get_next_removal_nodes
    rw [if_neg hne, hrc]
    simp only [Option.some_bind, getAt_eq hA, get_sibling_eq tree1 hwf _ hr hroot]
    by_cases hm : readAt mapping node = -1
    · rw [if_pos hm, if_neg (not_not.mpr hm)]
      by_cases hs : spr.coal_node = tree1.sibling spr.recomb_node
      · simp only [if_pos hs, Option.map_some']
      · have hsib : 0 ≤ tree1.sibling spr.recomb_node ∧
            tree1.sibling spr.recomb_node < tree1.nnodes :=
          (hwf.sibling_facts _ hr hroot).2.1
        have hsA : inArr mapping (tree1.sibling spr.recomb_node) := by
          unfold inArr; omega
        simp only [if_neg hs, getAt_eq hsA, Option.map_some']
    · rw [if_neg hm, if_pos hm]
      simp only [Option.map_some']

/-- C17, witness: on the scenario tree with the mapping `[0,1,2,-1,4]` of the
scenario SPR (recomb node 1, coal node 2, broken node 3, recoal node 3), the
successor of the broken node 3 is the image 0 of the sibling of node 1, and the
successors of the coal node 2 are its image 2 and the recoal node 3. -/
theorem C17_get_next_removal_nodes_witness :
    tree5.isNode 3 ∧ tree5.nnodes ≤ ([0, 1, 2, -1, 4] : List Int).length ∧
    spr5.coal_node ≠ spr5.recomb_node ∧ WellFormed tree5 ∧ tree5.isNode spr5.recomb_node ∧
    spr5.recomb_node ≠ tree5.root ∧
    (if (-1 : Int) = -1 then get_recoal_node tree5 spr5 [0, 1, 2, -1, 4] else some (-1)) =
      some 3 ∧
    get_next_removal_nodes tree5 spr5 [0, 1, 2, -1, 4] 3 (-1) = some (0, -1) ∧
    get_next_removal_nodes tree5 spr5 [0, 1, 2, -1, 4] 2 (-1) = some (2, 3) ∧
    get_next_removal_nodes tree5 spr5 [0, 1, 2, -1, 4] 3 (-1) =
      some (if readAt [0, 1, 2, -1, 4] 3 ≠ -1 then readAt [0, 1, 2, -1, 4] 3
            else if spr5.coal_node = tree5.sibling spr5.recomb_node then 3
            else readAt [0, 1, 2, -1, 4] (tree5.sibling spr5.recomb_node),
            if spr5.coal_node = 3 then 3 else -1) :=
  ⟨by decide, by decide, by decide, by decide, by decide, by decide, by decide, by decide,
    by decide,
    (C17_get_next_removal_nodes tree5 spr5 [0, 1, 2, -1, 4] 3 (-1) (by decide) (by decide)).2
      (by decide) (by decide) (by decide) (by decide) 3 (by decide)⟩

/-- C20: the pruning step of `remove_arg_thread_path` on a well-formed local
tree with removal node `v`, without population model.  A tree whose removal
node is its root is left unchanged.  Otherwise the step runs through and
keeps `nnodes`; the new root is the former parent of `v`, has no parent and age
`maxtime`; `root.child[0] == v`, and `v` keeps its parent; `root.child[1]` is
the old root, or the old sibling of `v` when the parent of `v` was the old
root; and when the parent of `v` was not the old root, the old root hangs
under the new root and the old sibling of `v` hangs where the parent of `v`
used to hang (same parent, same child slot). -/
theorem C20_remove_path_prune (t : LocalTree) (v maxtime : Int) (hwf : WellFormed t)
    (hv : t.isNode v) :
    (v = t.root → remove_path_prune t v maxtime none = some t) ∧
    (v ≠ t.root →
      ∃ t2, remove_path_prune t v maxtime none = some t2 ∧ t2.nnodes = t.nnodes ∧
        t2.root = (t.node v).parent ∧
        (t2.node t2.root).parent = -1 ∧
        (t2.node t2.root).age = maxtime ∧
        (t2.node t2.root).child0 = v ∧
        (t2.node t2.root).child1 =
          (if (t.node v).parent = t.root then t.sibling v else t.root) ∧
        (t2.node v).parent = (t.node v).parent ∧
        ((t.node v).parent ≠ t.root →
          (t2.node t.root).parent = (t.node v).parent ∧
          (t2.node (t.sibling v)).parent = (t.node (t.node v).parent).parent ∧
          (if (t.node (t.node (t.node v).parent).parent).child0 = (t.node v).parent
            then (t2.node (t.node (t.node v).parent).parent).child0
            else (t2.node (t.node (t.node v).parent).parent).child1) = t.sibling v)) := by
  refine ⟨?_, fun hroot => remove_path_prune_spec t v maxtime hwf hv hroot⟩
  intro h
  unfold remove_path_prune
  rw [if_pos h]

/-- C20, witness: the removal node 1 of the scenario tree `((0,1)3,2)4` with
`maxtime = 200`: node 3 becomes the root with age 200 and children `[1, 4]`,
and leaf 0 hangs under node 4 in the slot of node 3; with the root 4 as
removal node the tree is kept. -/
theorem C20_remove_path_prune_witness :
    WellFormed tree5 ∧ tree5.isNode 1 ∧ (1 : Int) ≠ tree5.root ∧
    remove_path_prune tree5 1 200 none =
      some (LocalTree.mk 5 3 [⟨4, -1, -1, 0, 0⟩, ⟨3, -1, -1, 0, 0⟩, ⟨4, -1, -1, 0, 0⟩,
        ⟨-1, 1, 4, 200, 0⟩, ⟨3, 2, 0, 150, 0⟩]) ∧
    remove_path_prune tree5 4 200 none = some tree5 ∧
    ∃ t2, remove_path_prune tree5 1 200 none = some t2 ∧ t2.nnodes = tree5.nnodes ∧
      t2.root = (tree5.node 1).parent ∧
      (t2.node t2.root).parent = -1 ∧
      (t2.node t2.root).age = 200 ∧
      (t2.node t2.root).child0 = 1 ∧
      (t2.node t2.root).child1 =
        (if (tree5.node 1).parent = tree5.root then tree5.sibling 1 else tree5.root) :=
  ⟨by decide, by decide, by decide, by decide,
    (C20_remove_path_prune tree5 4 200 (by decide) (by decide)).1 (by decide),
    let ⟨t2, h1, h2, h3, h4, h5, h6, h7, _⟩ :=
      (C20_remove_path_prune tree5 1 200 (by decide) (by decide)).2 (by decide)
    ⟨t2, h1, h2, h3, h4, h5, h6, h7⟩⟩

/-- C18: the back pointers are the reverse of the successor relation.  For
every well-formed `tree1`, every SPR on nodes of `tree1` with
`recomb_node != root`, and every mapping with entries -1 or nodes that is
injective on its entries other than -1, with `mapping[parent(recomb_node)]`
its only -1 entry (for a self SPR: a permutation): on every node
`get_next_removal_nodes` and `get_prev_removal_nodes` return; for all nodes
`j`, `k`, `k` is one of the next removal nodes of `j` if and only if `j` is one
of the previous removal nodes of `k`; and the tables of
`get_all_next_removal_nodes` and `get_all_prev_removal_nodes` pass the
assertions at the top of `sample_arg_removal_path_recomb`. -/
theorem C18_prev_is_reverse_of_next (t : LocalTree) (s : Spr) (m : List Int)
    (hwf : WellFormed t) (hr : t.isNode s.recomb_node) (hc : t.isNode s.coal_node)
    (hroot : s.recomb_node ≠ t.root)
    (hm : (s.coal_node ≠ s.recomb_node ∧
        IsRemovalMapping t.nnodes (t.node s.recomb_node).parent m) ∨
      (s.coal_node = s.recomb_node ∧ IsPermMapping t.nnodes m)) :
    (∀ j : Int, 0 ≤ j → j < t.nnodes →
      (∃ nx, get_next_removal_nodes t s m j (-1) = some nx) ∧
      (∃ pv, get_prev_removal_nodes t s m j none = some pv)) ∧
    (∀ j k : Int, 0 ≤ j → j < t.nnodes → 0 ≤ k → k < t.nnodes →
      (isNextRemovalNode t s m j k = true ↔ isPrevRemovalNode t s m k j = true)) ∧
    (∃ nx pv, get_all_next_removal_nodes t s m = some nx ∧
      get_all_prev_removal_nodes t s m = some pv ∧
      assert_transitions t.nnodes nx pv = some ()) := by
  obtain ⟨N, P, hN, hP, -, hrev⟩ := removal_nodes_reverse t s m hwf hr hc hroot hm
  obtain ⟨nx, pv, e1, e2, -, -, -, -, e3⟩ := removal_tables t s m hwf hr hc hroot hm
  refine ⟨?_, ?_, ⟨nx, pv, e1, e2, e3⟩⟩
  · intro j j0 j1
    exact ⟨⟨_, (hN j j0 j1).1⟩, ⟨_, (hP j j0 j1).1⟩⟩
  · intro j k j0 j1 k0 k1
    unfold isNextRemovalNode isPrevRemovalNode
    rw [(hN j j0 j1).1, (hP k k0 k1).1]
    simp only [decide_eq_true_eq]
    exact hrev j k j0 j1 k0 k1

/-- C18, witness: the scenario tree with the scenario SPR (recomb node 1,
coal node 2) and its mapping `[0,1,2,-1,4]`. -/
theorem C18_prev_is_reverse_of_next_witness :
    WellFormed tree5 ∧ tree5.isNode spr5.recomb_node ∧ tree5.isNode spr5.coal_node ∧
    spr5.recomb_node ≠ tree5.root ∧ spr5.coal_node ≠ spr5.recomb_node ∧
    IsRemovalMapping tree5.nnodes (tree5.node spr5.recomb_node).parent [0, 1, 2, -1, 4] ∧
    get_all_next_removal_nodes tree5 spr5 [0, 1, 2, -1, 4] =
      some [(0, -1), (1, -1), (2, 3), (0, -1), (4, -1)] ∧
    get_all_prev_removal_nodes tree5 spr5 [0, 1, 2, -1, 4] =
      some [(0, 3), (1, -1), (2, -1), (2, -1), (4, -1)] ∧
    ((∀ j : Int, 0 ≤ j → j < tree5.nnodes →
      (∃ nx, get_next_removal_nodes tree5 spr5 [0, 1, 2, -1, 4] j (-1) = some nx) ∧
      (∃ pv, get_prev_removal_nodes tree5 spr5 [0, 1, 2, -1, 4] j none = some pv)) ∧
    (∀ j k : Int, 0 ≤ j → j < tree5.nnodes → 0 ≤ k → k < tree5.nnodes →
      (isNextRemovalNode tree5 spr5 [0, 1, 2, -1, 4] j k = true ↔
        isPrevRemovalNode tree5 spr5 [0, 1, 2, -1, 4] k j = true)) ∧
    (∃ nx pv, get_all_next_removal_nodes tree5 spr5 [0, 1, 2, -1, 4] = some nx ∧
      get_all_prev_removal_nodes tree5 spr5 [0, 1, 2, -1, 4] = some pv ∧
      assert_transitions tree5.nnodes nx pv = some ())) :=
  ⟨by decide, by decide, by decide, by decide, by decide, by decide, by decide, by decide,
    C18_prev_is_reverse_of_next tree5 spr5 [0, 1, 2, -1, 4] (by decide) (by decide) (by decide)
      (by decide) (Or.inl ⟨by decide, by decide⟩)⟩

/-- C22: `remove_null_sprs` restores the list shape.  For an ARG of trees with
`n` nodes each whose first tuple has a null SPR and no mapping, whose other
tuples carry a mapping array, and in which every tuple with a null SPR is
congruent to its predecessor under its mapping, the function runs through
(with or without a population tree); afterwards the first tuple has a null
SPR and no mapping, every other tuple has a non-null SPR, the list is
non-empty if it was, and the sum of `blocklen` is unchanged. -/
theorem C22_remove_null_sprs (pop_tree : Option PopulationTree) (trees : LocalTrees) (n : Int)
    (hshape : ListShape n trees.trees) (hcong : NullSprsCongruent pop_tree trees.trees) :
    ∃ r, remove_null_sprs trees pop_tree = some r ∧ NoNullSprs r.trees ∧
      (trees.trees ≠ [] → r.trees ≠ []) ∧
      sumBlocklen r.trees = sumBlocklen trees.trees := by
  unfold remove_null_sprs
  cases hl : trees.trees with
  | nil =>
    refine ⟨trees, rfl, ?_, fun h => absurd rfl h, ?_⟩
    · rw [hl]; trivial
    · rw [hl]
  | cons first rest =>
    rw [hl] at hshape hcong
    obtain ⟨s1, s2, s3, s4⟩ := hshape
    obtain ⟨h, t, e1, e2, e3, e4⟩ :=
      remove_null_sprs_from_spec pop_tree n rest true first ⟨s1, s2⟩ s4 hcong
    refine ⟨{ trees with trees := h :: t }, ?_, ?_, ?_, e4⟩
    · simp only [e1, Option.map_some']
    · exact ⟨e2.1, e2.2, e3⟩
    · intro _ h0
      cases h0

/-- C22 on an ARG of four copies of the tree `(0,1)2` whose second and fourth
tuple have a null SPR. -/
theorem C22_remove_null_sprs_witness :
    ∃ r, remove_null_sprs treesNull none = some r ∧ NoNullSprs r.trees ∧
      (treesNull.trees ≠ [] → r.trees ≠ []) ∧
      sumBlocklen r.trees = sumBlocklen treesNull.trees :=
  C22_remove_null_sprs none treesNull 3
    ⟨rfl, rfl, rfl, by
      intro x hx
      simp only [treesNull, List.mem_cons, List.mem_singleton, List.not_mem_nil, or_false] at hx
      rcases hx with rfl | rfl | rfl
      · exact ⟨rfl, _, rfl, by decide⟩
      · exact ⟨rfl, _, rfl, by decide⟩
      · exact ⟨rfl, _, rfl, by decide⟩⟩
    ⟨fun _ => ⟨_, rfl, by decide⟩, (fun h => by cases h), fun _ => ⟨_, rfl, by decide⟩, trivial⟩

/-- The ARG that `remove_null_sprs` leaves in the scenario of C22: the first
two tuples are merged into a first tuple of length 5, and the last tuple takes
over the SPR of the third with the composed mapping. -/
theorem C22_scenario :
    remove_null_sprs treesNull none =
      some { treesNull with
        trees := [⟨tree3, Spr.null, none, 5⟩, ⟨tree3, ⟨0, 5, 1, 10, 0⟩, some [1, 0, -1], 5⟩] } := by
  decide

/-- C29: a rejected Metropolis-Hastings move restores the saved state.
Whatever the removal and rethreading between the copy and the test did to the
ARG, whenever `resample_arg_mcmc` returns `false` the ARG after the call
agrees with the ARG before the call in `chrom`, `start_coord`, `end_coord`,
`nnodes`, `seqids` and in every tuple (number of nodes, root and nodes of the
tree, SPR, block length, mapping).  And it does return `false` when the
proposal is rejected, on every ARG whose arrays hold the nodes of its
trees. -/
theorem C29_rejected_move_restores (propose : LocalTrees → Option (LocalTrees × Bool))
    (trees : LocalTrees) :
    (∀ r, resample_arg_mcmc propose trees = some (r, false) → SameArg r trees) ∧
    (TupleStorage trees → ∀ t2, propose trees = some (t2, false) →
      ∃ r, resample_arg_mcmc propose trees = some (r, false)) := by
  constructor
  · intro r h
    unfold resample_arg_mcmc at h
    obtain ⟨trees2, h1, h⟩ := Option.bind_eq_some.mp h
    obtain ⟨⟨t2, acc⟩, h2, h⟩ := Option.bind_eq_some.mp h
    obtain ⟨t3, h3, h⟩ := Option.map_eq_some'.mp h
    simp only [Prod.mk.injEq] at h
    obtain ⟨h4, h5⟩ := h
    subst h4 h5
    simp only [Bool.not_false, if_true] at h3
    exact sameArg_trans (localTrees_copy_spec _ _ h3) (localTrees_copy_spec _ _ h1)
  · intro hst t2 hp
    obtain ⟨c, e1⟩ := localTrees_copy_some trees hst
    obtain ⟨c2, e2⟩ := localTrees_copy_twice trees c e1
    exact ⟨c2, by simp only [resample_arg_mcmc, e1, hp, Option.some_bind, Bool.not_false,
      if_true, e2, Option.map_some']⟩

/-- C29 on the ARG `treesNull` of four trees, with a proposal that leaves the
trunk and is rejected: the call returns `false` with the four tuples back. -/
theorem C29_rejected_move_restores_witness :
    (∃ r, resample_arg_mcmc proposeTrunk treesNull = some (r, false)) ∧
    resample_arg_mcmc proposeTrunk treesNull = some (treesNull, false) ∧
    SameArg treesNull treesNull :=
  ⟨(C29_rejected_move_restores proposeTrunk treesNull).2 (by decide) _ rfl, by decide,
    (C29_rejected_move_restores proposeTrunk treesNull).1 treesNull (by decide)⟩

/-- C30 (amended): a rejected population-size proposal retains the current
values when the intervals tied to the parameter hold one common value.  For
`model->popsizes` of `2*ntimes-1` entries, a parameter with a non-empty set
of intervals inside the array whose entries all equal the entry of the
largest interval, and every proposed value, a rejected proposal runs through
and leaves every entry of `model->popsizes` as it was before the proposal. -/
theorem C30_rejected_popsize_retained (ntimes : Int) (neighbor_prior : Bool)
    (popsizes : List ℚ) (it : PopsizeConfigParam) (new_popsize : ℚ)
    (hlen : (popsizes.length : Int) = 2 * ntimes - 1) (hne : it.pops ≠ [])
    (hin : ∀ p ∈ it.pops, inArr popsizes p)
    (htied : ∀ p ∈ it.pops, readAt popsizes p = readAt popsizes (max_pop it.pops)) :
    popsize_proposal ntimes neighbor_prior popsizes it new_popsize false = some popsizes := by
  unfold popsize_proposal
  by_cases hs : it.sample = false
  · rw [if_pos hs]
  · rw [if_neg hs]
    obtain ⟨hm, hmax⟩ := max_pop_mem it.pops hne (fun p hp => (hin p hp).1)
    have hmA := hin _ hm
    obtain ⟨r1, e1, e2, e3⟩ := set_popsizes_spec new_popsize it.pops popsizes hin
    obtain ⟨r2, f1, f2, f3⟩ := set_popsizes_spec (readAt popsizes (max_pop it.pops)) it.pops r1
      (by
        intro p hp
        have := hin p hp
        unfold inArr at this ⊢
        rw [e2]; exact this)
    have hprev : ∃ v, (if neighbor_prior = false ∨ max_pop it.pops ≥ 2 * ntimes - 2 then
        some (readAt popsizes (max_pop it.pops))
        else getAt popsizes (max_pop it.pops + 1)) = some v := by
      by_cases hc : neighbor_prior = false ∨ max_pop it.pops ≥ 2 * ntimes - 2
      · rw [if_pos hc]; exact ⟨_, rfl⟩
      · rw [if_neg hc]
        have : inArr popsizes (max_pop it.pops + 1) := by
          have h1 := hmA.1
          have h2 : ¬ max_pop it.pops ≥ 2 * ntimes - 2 := fun h => hc (Or.inr h)
          unfold inArr
          omega
        rw [getAt_eq this]; exact ⟨_, rfl⟩
    obtain ⟨v, hv⟩ := hprev
    simp only [getAt_eq hmA, Option.some_bind, hv, e1, Bool.false_eq_true, if_false, f1,
      Option.some.injEq]
    apply list_eq_of_readAt
    · rw [f2, e2]
    · intro j _ _
      rw [f3 j, e3 j]
      by_cases hj : j ∈ it.pops
      · rw [if_pos hj, htied j hj]
      · rw [if_neg hj, if_neg hj]

/-- C30 on three intervals of sizes 100, 100, 300 with the first two tied, the
neighbour prior on, and a rejected proposal of 150. -/
theorem C30_rejected_popsize_retained_witness :
    popsize_proposal 2 true [100, 100, 300] ⟨true, [0, 1]⟩ 150 false =
      some [100, 100, 300] :=
  C30_rejected_popsize_retained 2 true [100, 100, 300] ⟨true, [0, 1]⟩ 150 (by decide)
    (by decide) (by decide) (by decide)

/-- C30 as stated fails when the tied intervals hold different values: the
intervals 0 and 1 hold 100 and 200, and after the rejected proposal both hold
200, the old value of the largest interval. -/
theorem C30_counterexample :
    popsize_proposal 2 false [100, 200, 300] ⟨true, [0, 1]⟩ 150 false =
      some [200, 200, 300] ∧
    ([200, 200, 300] : List ℚ) ≠ [100, 200, 300] := by
  decide

/-- C23: `count_lineages` counts the branches crossing each time.  For every
well-formed tree with `age[parent] >= age[child]` on every edge and all ages
time indices in `[0, ntimes-2]`, without population model, the function runs
through; for every `j` with `0 <= j <= ntimes-2`, `nbranches[j]` is the number
of leaves with age `<= j` minus the number of internal nodes with age `<= j`
(the branch of the root is counted up to `ntimes-2`); and
`nbranches[ntimes-1] = 1`. -/
theorem C23_count_lineages (t : LocalTree) (ntimes : Int) (hwf : WellFormed t)
    (hord : AgeOrdered t) (hages : AgesBelowTop t ntimes) :
    ∃ c, count_lineages t ntimes none = some c ∧
      (∀ j : Int, 0 ≤ j → j ≤ ntimes - 2 →
        readAt c.nbranches j = leavesUpTo t j - internalUpTo t j) ∧
      readAt c.nbranches (ntimes - 1) = 1 := by
  obtain ⟨c, e1, e2, e3, -⟩ := count_lineages_sum t ntimes hwf hord hages
  refine ⟨c, e1, ?_, e3⟩
  intro j _ hj
  rw [e2 j (by omega)]
  exact branch_sum_eq t ntimes j hwf hord hages hj

/-- C23 on the tree `(0,1)2` with a root of age 10 and 12 time points. -/
theorem C23_count_lineages_witness :
    ∃ c, count_lineages tree3 12 none = some c ∧
      (∀ j : Int, 0 ≤ j → j ≤ 12 - 2 →
        readAt c.nbranches j = leavesUpTo tree3 j - internalUpTo tree3 j) ∧
      readAt c.nbranches (12 - 1) = 1 :=
  C23_count_lineages tree3 12 (by decide) (by decide) (by decide)

/-- The arrays that `count_lineages` fills for the tree `(0,1)2` with a root
of age 10 and 12 time points: two branches up to time 9, one from time 10 on. -/
theorem C23_scenario :
    count_lineages tree3 12 none =
      some ⟨[2, 2, 2, 2, 2, 2, 2, 2, 2, 2, 1, 1], [2, 2, 2, 2, 2, 2, 2, 2, 2, 2, 3, 0],
        [[2, 2, 2, 2, 2, 2, 2, 2, 2, 2, 2, 2, 2, 2, 2, 2, 2, 2, 2, 2, 1, 1, 1, 1]],
        [[2, 2, 2, 2, 2, 2, 2, 2, 2, 2, 3, 1]]⟩ := by
  decide

/-- C24 (amended): `count_lineages_internal` leaves out two nodes, the subtree
root `root.child[0]` and the root; every other node, also one below the
subtree root, is counted.  For every well-formed partial tree with ordered
ages whose nodes other than the root have ages in `[0, ntimes-2]`, without
population model, the function runs through; for `0 <= j <= ntimes-2`,
`nbranches[j]` is the number of leaves with age `<= j`, minus the number of
internal nodes other than the root with age `<= j`, minus one if the subtree
root has age `<= j`; `nbranches[ntimes-1] = 1`; `nrecombs[x]` is the sum of the
recombination counts of the nodes other than the subtree root and the root;
`nbranches_pop[0][y] = nbranches[y/2]`; `ncoals_pop[0][x] = nrecombs[x]` below
`ntimes-1`, and `ncoals_pop[0][ntimes-1] = 1`. -/
theorem C24_count_lineages_internal (t : LocalTree) (ntimes : Int) (hwf : WellFormed t)
    (hroot : (t.node t.root).child0 ≠ -1) (hord : AgeOrdered t)
    (hages : ∀ i : Int, 0 ≤ i → i < t.nnodes → i ≠ t.root →
      0 ≤ (t.node i).age ∧ (t.node i).age ≤ ntimes - 2) :
    ∃ c, count_lineages_internal t ntimes none = some c ∧
      (∀ j : Int, 0 ≤ j → j ≤ ntimes - 2 →
        readAt c.nbranches j =
          leavesUpTo t j - internalUpTo t j + (if (t.node t.root).age ≤ j then 1 else 0) -
            (if (t.node (t.node t.root).child0).age ≤ j then 1 else 0)) ∧
      readAt c.nbranches (ntimes - 1) = 1 ∧
      (∀ x : Int, readAt c.nrecombs x =
        ∑ i in Finset.range t.nnodes.toNat,
          if (i : Int) = (t.node t.root).child0 ∨ (i : Int) = t.root then 0
          else recombAdd t ntimes t.root (i : Int) x) ∧
      (∀ y : Int, 0 ≤ y → y < 2 * ntimes →
        readAt (readAt c.nbranches_pop 0) y = readAt c.nbranches (y / 2)) ∧
      (∀ x : Int, x ≠ ntimes - 1 → readAt (readAt c.ncoals_pop 0) x = readAt c.nrecombs x) ∧
      readAt (readAt c.ncoals_pop 0) (ntimes - 1) = 1 := by
  obtain ⟨c, e1, e2, e3, e4, e5, e6, e7⟩ :=
    count_lineages_internal_sum t ntimes hwf hroot hord hages
  refine ⟨c, e1, ?_, e3, e4, e5, e6, e7⟩
  intro j _ hj
  rw [e2 j (by omega)]
  exact branch_sum_internal_eq t ntimes j hwf hroot hord hages hj

/-- C24 (amended) on the partial tree `partialTree7` with 5 time points. -/
theorem C24_count_lineages_internal_witness :
    ∃ c, count_lineages_internal partialTree7 5 none = some c ∧
      (∀ j : Int, 0 ≤ j → j ≤ 5 - 2 →
        readAt c.nbranches j =
          leavesUpTo partialTree7 j - internalUpTo partialTree7 j +
            (if (partialTree7.node partialTree7.root).age ≤ j then 1 else 0) -
            (if (partialTree7.node (partialTree7.node partialTree7.root).child0).age ≤ j
              then 1 else 0)) ∧
      readAt c.nbranches (5 - 1) = 1 ∧
      (∀ x : Int, readAt c.nrecombs x =
        ∑ i in Finset.range partialTree7.nnodes.toNat,
          if (i : Int) = (partialTree7.node partialTree7.root).child0 ∨
              (i : Int) = partialTree7.root then 0
          else recombAdd partialTree7 5 partialTree7.root (i : Int) x) ∧
      (∀ y : Int, 0 ≤ y → y < 2 * 5 →
        readAt (readAt c.nbranches_pop 0) y = readAt c.nbranches (y / 2)) ∧
      (∀ x : Int, x ≠ 5 - 1 → readAt (readAt c.ncoals_pop 0) x = readAt c.nrecombs x) ∧
      readAt (readAt c.ncoals_pop 0) (5 - 1) = 1 :=
  C24_count_lineages_internal partialTree7 5 (by decide) (by decide) (by decide) (by decide)

/-- C24 as stated fails when the subtree has more than one node: in
`partialTree7` the leaves 0 and 1 below the subtree root 4 are counted, so
`nbranches[0]` is 4, while the main tree alone has 2 branches at time 0. -/
theorem C24_counterexample :
    count_lineages_internal partialTree7 5 none =
      some ⟨[4, 2, 1, 1, 1], [4, 4, 3, 1, 0], [[4, 4, 2, 2, 1, 1, 1, 1, 1, 1]],
        [[4, 4, 3, 1, 1]]⟩ ∧
    count_lineages mainTree3 5 none =
      some ⟨[2, 2, 1, 1, 1], [2, 2, 3, 1, 0], [[2, 2, 2, 2, 1, 1, 1, 1, 1, 1]],
        [[2, 2, 3, 1, 1]]⟩ ∧
    count_lineages_internal partialTree7 5 none ≠ count_lineages mainTree3 5 none := by
  decide

/-- C25 (amended): `setup_maps` splits two rate maps with non-empty regions
to a common partition.  For a mutation map and a recombination map whose
regions are non-empty (`start < end`), sorted, non-overlapping and contained
in `[start, end_]` with `start < end_`, the method returns `true`; afterwards `mutmap` and
`recombmap` have the same number of regions with pairwise identical
`(start, end)`, the regions are contiguous, the first starts at `start` and
the last ends at `end_`, and each region carries at each of its positions the
rate of its input map there (the default `mu` or `rho` in a gap).  Rates are
exact rationals. -/
theorem C25_setup_maps (model : ArgModel) (chrom : String) (start end_ : Int)
    (hlt : start < end_) (hm : SortedIn start end_ model.mutmap)
    (hr : SortedIn start end_ model.recombmap) :
    ∃ model2, model.setup_maps chrom start end_ = some (model2, true) ∧
      SameBounds model2.mutmap model2.recombmap ∧
      Tiling start end_ model2.mutmap ∧ Tiling start end_ model2.recombmap ∧
      (∀ r ∈ model2.mutmap, ∀ x : Int, r.start ≤ x → x < r.end_ →
        r.value = rateAt model.mutmap model.mu x) ∧
      (∀ r ∈ model2.recombmap, ∀ x : Int, r.start ≤ x → x < r.end_ →
        r.value = rateAt model.recombmap model.rho x) := by
  obtain ⟨a1, a2, a3⟩ := complete_map_spec model.mutmap chrom start end_ model.mu hm hlt
  obtain ⟨b1, b2, b3⟩ := complete_map_spec model.recombmap chrom start end_ model.rho hr hlt
  obtain ⟨s, e1, e2, e3, e4, e5, e6⟩ := merge_loop_spec chrom start end_ _ _ a2 b2
  refine ⟨{ model with mutmap := s.mutmap2, recombmap := s.recombmap2 }, ?_, e4, e2, e3, ?_, ?_⟩
  · unfold ArgModel.setup_maps
    simp only [a1, b1, Bool.true_eq_false, if_false, e1, Option.map_some']
  · intro r hr x hx0 hx1
    obtain ⟨m, m1, m2, m3, m4⟩ := e5 r hr
    rw [m4]
    exact fromTrack_value model.mutmap model.mu start end_ hm m (a3 m m1) x (by omega)
      (by omega)
  · intro r hr2 x hx0 hx1
    obtain ⟨m, m1, m2, m3, m4⟩ := e6 r hr2
    rw [m4]
    exact fromTrack_value model.recombmap model.rho start end_ hr m (b3 m m1) x (by omega)
      (by omega)

/-- C25 (amended) on `[0, 10)` for a mutation map with the regions `[2, 4)`, `[6, 8)`
and a recombination map with the region `[3, 7)`. -/
theorem C25_setup_maps_witness :
    ∃ model2, modelMaps.setup_maps chrName 0 10 = some (model2, true) ∧
      SameBounds model2.mutmap model2.recombmap ∧
      Tiling 0 10 model2.mutmap ∧ Tiling 0 10 model2.recombmap ∧
      (∀ r ∈ model2.mutmap, ∀ x : Int, r.start ≤ x → x < r.end_ →
        r.value = rateAt modelMaps.mutmap modelMaps.mu x) ∧
      (∀ r ∈ model2.recombmap, ∀ x : Int, r.start ≤ x → x < r.end_ →
        r.value = rateAt modelMaps.recombmap modelMaps.rho x) :=
  C25_setup_maps modelMaps chrName 0 10 (by decide) (by decide) (by decide)

/-- The maps that `setup_maps` leaves in the scenario of C25: seven regions
with the bounds 0, 2, 3, 4, 6, 7, 8, 10 in both maps. -/
theorem C25_scenario :
    modelMaps.setup_maps chrName 0 10 =
      some ({ mu := 1, rho := 2,
              mutmap := [⟨chrName, 0, 2, 1⟩, ⟨chrName, 2, 3, 10⟩, ⟨chrName, 3, 4, 10⟩,
                ⟨chrName, 4, 6, 1⟩, ⟨chrName, 6, 7, 30⟩, ⟨chrName, 7, 8, 30⟩,
                ⟨chrName, 8, 10, 1⟩],
              recombmap := [⟨chrName, 0, 2, 2⟩, ⟨chrName, 2, 3, 2⟩, ⟨chrName, 3, 4, 50⟩,
                ⟨chrName, 4, 6, 50⟩, ⟨chrName, 6, 7, 50⟩, ⟨chrName, 7, 8, 2⟩,
                ⟨chrName, 8, 10, 2⟩] }, true) := by
  decide!

/-- C25 as stated fails for a map with an empty region at `end_`: the
mutation map with the single region `[10, 10)` is sorted, non-overlapping and
contained in `[0, 10]`; `complete_map` leaves the regions `[0, 10)`,
`[10, 10)` in it and the region `[0, 10)` in the recombination map, and the
second pass of the merging loop reads `recombmap[1]` behind the end of the
map, so the method does not return `true`. -/
theorem C25_counterexample :
    (∀ r ∈ modelEmptyRegion.mutmap, 0 ≤ r.start ∧ r.start ≤ r.end_ ∧ r.end_ ≤ 10) ∧
    modelEmptyRegion.recombmap = [] ∧
    (complete_map modelEmptyRegion.mutmap chrName 0 10 1).1 =
      [⟨chrName, 0, 10, 1⟩, ⟨chrName, 10, 10, 5⟩] ∧
    (complete_map modelEmptyRegion.recombmap chrName 0 10 2).1 = [⟨chrName, 0, 10, 2⟩] ∧
    modelEmptyRegion.setup_maps chrName 0 10 = none := by
  decide!

/-- C21: `add_arg_thread` creates exactly one new block per sampled
recombination and keeps the block lengths consistent.  When the positions of
the recombinations lie strictly inside `(start_coord, end_coord)` and the call
returns, the number of local trees has grown by `recombs.size()`, the block
lengths, which added up to `end_coord - start_coord` before the call, still do
so, `seqid` is appended to `seqids` and `nnodes` has grown by 2.  (The
positions need not be increasing for this.) -/
theorem C21_add_arg_thread (trees trees2 : LocalTrees)
    (get_coal_states : LocalTree → List State) (ntimes : Int) (thread_path : List Int)
    (seqid : Int) (recomb_pos : List Int) (recombs : List Spr)
    (hpos : ∀ k : Nat, k < recombs.length →
      trees.start_coord < readAt recomb_pos (k : Int) ∧
      readAt recomb_pos (k : Int) < trees.end_coord)
    (h : add_arg_thread trees get_coal_states ntimes thread_path seqid recomb_pos recombs
      = some trees2) :
    trees2.trees.length = trees.trees.length + recombs.length ∧
    sumBlocklen trees.trees = trees.end_coord - trees.start_coord ∧
    sumBlocklen trees2.trees = trees2.end_coord - trees2.start_coord ∧
    trees2.start_coord = trees.start_coord ∧ trees2.end_coord = trees.end_coord ∧
    trees2.seqids = trees.seqids ++ [seqid] ∧
    trees2.nnodes = trees.nnodes + 2 := by
  simp only [add_arg_thread, Option.bind_eq_some, Option.map_eq_some'] at h
  obtain ⟨b, h1, r, h2, b2, h3, rfl⟩ := h
  have hs := assert_trees_sum trees true b h1
  obtain ⟨a1, a2, a3, a4, a5, a6⟩ := thread_blocks_spec _ _ _ _ _ _ _ _ _ _ _ h2 (Nat.zero_le _)
  simp only at a1 a2 a3 a4 a5 a6
  refine ⟨?_, hs, ?_, rfl, rfl, rfl, rfl⟩
  · show r.1.length = trees.trees.length + recombs.length
    by_cases hl : trees.trees = []
    · have hz : sumBlocklen trees.trees = 0 := by rw [hl]; rfl
      by_cases hr : recombs.length = 0
      · rw [a5 hl] at a1
        simp only at a1
        omega
      · have := hpos 0 (by omega)
        omega
    · by_cases hlt : r.2.irecomb < recombs.length
      · obtain ⟨p, hp1, hp2⟩ := a6 hl hlt
        have hp3 := (getAt_some_read hp1).2
        have := (hpos r.2.irecomb hlt).2
        omega
      · omega
  · show sumBlocklen r.1 = trees.end_coord - trees.start_coord
    rw [a2]
    exact hs

/-- The theorem `C21_add_arg_thread` on an ARG of two blocks that receives a
thread with two recombinations. -/
theorem C21_add_arg_thread_witness :
    add_arg_thread argTwo coalStatesTwo 4 threadPathTwo 7 [2, 7] threadRecombsTwo
      = some argTwoThreaded ∧
    argTwoThreaded.trees.length = argTwo.trees.length + threadRecombsTwo.length ∧
    sumBlocklen argTwo.trees = argTwo.end_coord - argTwo.start_coord ∧
    sumBlocklen argTwoThreaded.trees = argTwoThreaded.end_coord - argTwoThreaded.start_coord ∧
    argTwoThreaded.start_coord = argTwo.start_coord ∧
    argTwoThreaded.end_coord = argTwo.end_coord ∧
    argTwoThreaded.seqids = argTwo.seqids ++ [7] ∧
    argTwoThreaded.nnodes = argTwo.nnodes + 2 :=
  ⟨argTwo_threaded, C21_add_arg_thread argTwo argTwoThreaded coalStatesTwo 4 threadPathTwo 7
    [2, 7] threadRecombsTwo (by decide) argTwo_threaded⟩

/-- C38: every node has a successor in the next tree.  For every well-formed
`tree1`, every SPR with `recomb_node` a node other than the root and every
mapping with entries -1 or nodes that is injective on its entries other than
-1, with `mapping[parent(recomb_node)]` its only -1 entry (for a self SPR: a
permutation): `get_all_next_removal_nodes` returns (its assertion never
fails), and for every node the first successor is a node, the second
successor is -1 or a node, and the two are different. -/
theorem C38_every_node_has_successor (t : LocalTree) (s : Spr) (m : List Int)
    (hwf : WellFormed t) (hr : t.isNode s.recomb_node) (hroot : s.recomb_node ≠ t.root)
    (hm : (s.coal_node ≠ s.recomb_node ∧
        IsRemovalMapping t.nnodes (t.node s.recomb_node).parent m) ∨
      (s.coal_node = s.recomb_node ∧ IsPermMapping t.nnodes m)) :
    ∃ nx, get_all_next_removal_nodes t s m = some nx ∧ (nx.length : Int) = t.nnodes ∧
      ∀ j : Int, 0 ≤ j → j < t.nnodes →
        get_next_removal_nodes t s m j (-1) = some (readAt nx j) ∧
        (0 ≤ (readAt nx j).1 ∧ (readAt nx j).1 < t.nnodes) ∧
        ((readAt nx j).2 = -1 ∨ (0 ≤ (readAt nx j).2 ∧ (readAt nx j).2 < t.nnodes)) ∧
        (readAt nx j).2 ≠ (readAt nx j).1 := by
  have hn : 0 ≤ t.nnodes := by
    have : 0 ≤ t.root ∧ t.root < t.nnodes := hwf.2.1
    omega
  -- the successors of every node, for the recoal node found or passed
  have key : ∃ rc, get_recoal_node t s m = some rc ∧
      ∀ j : Int, 0 ≤ j → j < t.nnodes →
        ∃ n0 n1, get_next_removal_nodes t s m j (-1) = some (n0, n1) ∧
          get_next_removal_nodes t s m j rc = some (n0, n1) ∧ n0 ≠ n1 ∧
          (0 ≤ n0 ∧ n0 < t.nnodes) ∧ (n1 = -1 ∨ (0 ≤ n1 ∧ n1 < t.nnodes)) := by
    rcases hm with ⟨hne, hm⟩ | ⟨hself, hm⟩
    · obtain ⟨hb, -⟩ := hwf.sibling_facts s.recomb_node hr hroot
      obtain ⟨u, hu, huu⟩ := get_recoal_node_unique t s m _ hb hm
      refine ⟨u, hu, ?_⟩
      intro j j0 j1
      obtain ⟨n0, n1, a1, a2, a3, a4, -⟩ :=
        get_next_spec t s m u j (-1) hwf hr hroot hne hm hu huu ⟨j0, j1⟩ (Or.inl rfl)
      have key2 : get_next_removal_nodes t s m j u = get_next_removal_nodes t s m j (-1) := by
        unfold get_next_removal_nodes
        rw [if_neg hne, if_neg hne]
        have r1 : (if u = -1 then get_recoal_node t s m else some u) = some u := by
          rw [if_neg (by have := huu.1; omega)]
        have r2 : (if (-1 : Int) = -1 then get_recoal_node t s m else some (-1)) = some u := by
          rw [if_pos rfl]; exact hu
        rw [r1, r2]
      exact ⟨n0, n1, a1, by rw [key2]; exact a1, a2, a3, a4⟩
    · obtain ⟨hlen, hrange, hinj, hno⟩ := hm
      obtain ⟨rc, hrc, -⟩ := get_recoal_node_spec t s m hlen hrange
      refine ⟨rc, hrc, ?_⟩
      intro j j0 j1
      have h1 := get_next_self t s m j (-1) hself ⟨hlen, hrange, hinj, hno⟩ ⟨j0, j1⟩
      have h2 := get_next_self t s m j rc hself ⟨hlen, hrange, hinj, hno⟩ ⟨j0, j1⟩
      exact ⟨readAt m j, -1, h1.1, h2.1, hno j j0 j1, h1.2, Or.inl rfl⟩
  obtain ⟨rc, hrc, hnext⟩ := key
  have e1 : get_all_next_removal_nodes t s m =
      some ((List.range t.nnodes.toNat).map fun i =>
        (fun j : Int => (get_next_removal_nodes t s m j (-1)).getD (0, 0)) ((i : Nat) : Int)) := by
    unfold get_all_next_removal_nodes
    rw [hrc]
    simp only [Option.some_bind]
    refine tabulateOpt_eq _
      (fun j : Int => (get_next_removal_nodes t s m j (-1)).getD (0, 0)) _ ?_
    intro i hi
    rw [List.mem_range] at hi
    obtain ⟨n0, n1, a1, a2, a3, -⟩ := hnext i (Int.natCast_nonneg _) (by omega)
    rw [a2]
    simp only [a1, Option.some_bind, assertion, decide_eq_true a3, if_true, Option.map_some',
      Option.getD_some]
  refine ⟨_, e1, ?_, ?_⟩
  · simp only [List.length_map, List.length_range]
    omega
  · intro j j0 j1
    rw [readAt_map_range
      (fun j : Int => (get_next_removal_nodes t s m j (-1)).getD (0, 0)) _ j j0 (by omega)]
    obtain ⟨n0, n1, a1, -, a3, a4, a5⟩ := hnext j j0 j1
    simp only [a1, Option.getD_some]
    exact ⟨trivial, a4, a5, fun h => a3 h.symm⟩

/-- C38, witness: the scenario tree with the scenario SPR (recomb node 1, coal
node 2) and its mapping `[0,1,2,-1,4]`. -/
theorem C38_every_node_has_successor_witness :
    WellFormed tree5 ∧ tree5.isNode spr5.recomb_node ∧ spr5.recomb_node ≠ tree5.root ∧
    spr5.coal_node ≠ spr5.recomb_node ∧
    IsRemovalMapping tree5.nnodes (tree5.node spr5.recomb_node).parent [0, 1, 2, -1, 4] ∧
    get_all_next_removal_nodes tree5 spr5 [0, 1, 2, -1, 4] =
      some [(0, -1), (1, -1), (2, 3), (0, -1), (4, -1)] ∧
    ∃ nx, get_all_next_removal_nodes tree5 spr5 [0, 1, 2, -1, 4] = some nx ∧
      (nx.length : Int) = tree5.nnodes ∧
      ∀ j : Int, 0 ≤ j → j < tree5.nnodes →
        get_next_removal_nodes tree5 spr5 [0, 1, 2, -1, 4] j (-1) = some (readAt nx j) ∧
        (0 ≤ (readAt nx j).1 ∧ (readAt nx j).1 < tree5.nnodes) ∧
        ((readAt nx j).2 = -1 ∨ (0 ≤ (readAt nx j).2 ∧ (readAt nx j).2 < tree5.nnodes)) ∧
        (readAt nx j).2 ≠ (readAt nx j).1 :=
  ⟨by decide, by decide, by decide, by decide, by decide, by decide,
    C38_every_node_has_successor tree5 spr5 [0, 1, 2, -1, 4] (by decide) (by decide) (by decide)
      (Or.inl ⟨by decide, by decide⟩)⟩

/-- C34: `apply_spr` and `apply_spr_new` agree.  For every well-formed tree `T`
without population model and every SPR on nodes of `T` with
`recomb_node != root` and `recomb_node != coal_node` (and a mapping array with
room for the nodes): `apply_spr_new(T, spr, mapping)` and `apply_spr` applied
to a copy of `T` both return, and the two trees have the same `nnodes`, the
same root and, node for node, the same parent, children and age.  `T` is an
argument that `apply_spr_new` only reads. -/
theorem C34_apply_spr_new_agrees (t : LocalTree) (s : Spr) (mapping : List Int)
    (hwf : WellFormed t) (hr : t.isNode s.recomb_node) (hc : t.isNode s.coal_node)
    (hroot : s.recomb_node ≠ t.root) (hne : s.recomb_node ≠ s.coal_node)
    (hm : t.nnodes ≤ mapping.length) :
    ∃ tc t3 t2 m, t.copy = some tc ∧ apply_spr tc s none = some t3 ∧
      apply_spr_new t s mapping = some (t2, m) ∧
      t2.nnodes = t3.nnodes ∧ t2.root = t3.root ∧
      ∀ j : Int, 0 ≤ j → j < t.nnodes →
        (t2.node j).parent = (t3.node j).parent ∧ (t2.node j).child0 = (t3.node j).child0 ∧
        (t2.node j).child1 = (t3.node j).child1 ∧ (t2.node j).age = (t3.node j).age := by
  obtain ⟨tc, hcopy, hn, hrt, hlen, hnode⟩ := copy_spec t hwf.1
  have hwfc := copy_wellFormed t tc hwf hn hrt hlen hnode
  have hr2 : tc.isNode s.recomb_node := by unfold LocalTree.isNode; rw [hn]; exact hr
  have hc2 : tc.isNode s.coal_node := by unfold LocalTree.isNode; rw [hn]; exact hc
  have hroot2 : s.recomb_node ≠ tc.root := by rw [hrt]; exact hroot
  obtain ⟨t3, a1, a2, -, a4, a5⟩ := apply_spr_spec tc s hwfc hr2 hc2 hroot2 hne
  obtain ⟨t2, m, b1, b2, -, b4, b5, -⟩ := apply_spr_new_spec t s mapping hwf hr hc hroot hne hm
  have hb : t.isNode (t.node s.recomb_node).parent := by
    rcases hwf.parent_cases hr with ⟨-, h⟩ | ⟨-, -, h, -⟩
    · exact absurd h hroot
    · exact h
  have eb : (tc.node s.recomb_node).parent = (t.node s.recomb_node).parent := by
    rw [hnode _ hr.1 hr.2]
  have ebn : tc.node (t.node s.recomb_node).parent = t.node (t.node s.recomb_node).parent :=
    hnode _ hb.1 hb.2
  have es : tc.sibling s.recomb_node = t.sibling s.recomb_node := by
    unfold LocalTree.sibling
    simp only [eb, ebn]
  have ecn : tc.node s.coal_node = t.node s.coal_node := hnode _ hc.1 hc.2
  refine ⟨tc, t3, t2, m, hcopy, a1, b1, by rw [b2, a2, hn], ?_, ?_⟩
  · rw [b4, a4, hrt, eb, es]
  · intro j j0 j1
    have ej : nodeAt tc.nodes j = nodeAt t.nodes j := hnode j j0 j1
    have ec : nodeAt tc.nodes s.coal_node = nodeAt t.nodes s.coal_node := ecn
    have e : sprNode tc s j = sprNode t s j := by
      unfold sprNode
      rw [eb, es, ebn, ecn]
      unfold sprNodeAt
      simp only [ej, ec]
    rw [b5 j j0 j1, a5 j j0, e]
    exact ⟨rfl, rfl, rfl, rfl⟩

/-- C34, witness: the scenario tree with the scenario SPR (recomb node 1 at
time 20, coal node 2 at time 80). -/
theorem C34_apply_spr_new_agrees_witness :
    WellFormed tree5 ∧ tree5.isNode spr5.recomb_node ∧ tree5.isNode spr5.coal_node ∧
    spr5.recomb_node ≠ tree5.root ∧ spr5.recomb_node ≠ spr5.coal_node ∧
    tree5.nnodes ≤ ([0, 0, 0, 0, 0] : List Int).length ∧
    ∃ tc t3 t2 m, tree5.copy = some tc ∧ apply_spr tc spr5 none = some t3 ∧
      apply_spr_new tree5 spr5 [0, 0, 0, 0, 0] = some (t2, m) ∧
      t2.nnodes = t3.nnodes ∧ t2.root = t3.root ∧
      ∀ j : Int, 0 ≤ j → j < tree5.nnodes →
        (t2.node j).parent = (t3.node j).parent ∧ (t2.node j).child0 = (t3.node j).child0 ∧
        (t2.node j).child1 = (t3.node j).child1 ∧ (t2.node j).age = (t3.node j).age :=
  ⟨by decide, by decide, by decide, by decide, by decide, by decide,
    C34_apply_spr_new_agrees tree5 spr5 [0, 0, 0, 0, 0] (by decide) (by decide) (by decide)
      (by decide) (by decide) (by decide)⟩

/-- C37: `complete_map` makes a rate map flush.  For every track, chrom,
start, end and default value: whenever `complete_map` returns `true` the
track it leaves is non-empty, each region starts where the previous one ends,
the first region starts at or before `start` and the last ends at or after
`end`, and `check_map(track, start, end)` returns `true`; it returns `false`
only when some region of the track starts before the end of its
predecessor. -/
theorem C37_complete_map_flush {α : Type} (track : List (RegionValue α)) (chrom : String)
    (start end_ : Int) (d : α) :
    ((complete_map track chrom start end_ d).2 = true →
      check_map (complete_map track chrom start end_ d).1 start end_ = true ∧
      ∃ first rest, (complete_map track chrom start end_ d).1 = first :: rest ∧
        first.start ≤ start ∧ Flush first.end_ rest ∧ end_ ≤ endOf first.end_ rest) ∧
    ((complete_map track chrom start end_ d).2 = false → Overlaps track) := by
  cases track with
  | nil =>
    refine ⟨fun _ => ⟨?_, ⟨chrom, start, end_, d⟩, [], rfl, le_refl _, trivial, le_refl _⟩,
      fun h => by cases h⟩
    show check_map [⟨chrom, start, end_, d⟩] start end_ = true
    simp [check_map, check_flush]
  | cons first rest =>
    obtain ⟨pre, post, hpre, hpost, e⟩ := complete_map_cons first rest chrom start end_ d
    rw [e]
    have hend : end_ ≤ endOf first.end_ (rest ++ post) := by
      rcases hpost with ⟨rfl, h⟩ | ⟨rfl, h⟩
      · rw [List.append_nil]; exact h
      · rw [endOf_append_one]
    constructor
    · intro h
      obtain ⟨f1, f2⟩ := complete_loop_true chrom d (rest ++ post) first.end_ h
      have key : ∃ it tail, pre ++ first :: (complete_loop chrom d first.end_ (rest ++ post)).1
          = it :: tail ∧ it.start ≤ start ∧ Flush it.end_ tail ∧
          end_ ≤ endOf it.end_ tail := by
        rcases hpre with ⟨rfl, hp⟩ | ⟨rfl, hp⟩
        · exact ⟨first, _, rfl, hp, f1, by rw [f2]; exact hend⟩
        · refine ⟨⟨chrom, start, first.start, d⟩, _, rfl, le_refl _, ⟨rfl, f1⟩, ?_⟩
          show end_ ≤ endOf first.end_ _
          rw [f2]; exact hend
      obtain ⟨it, tail, e2, k1, k2, k3⟩ := key
      refine ⟨?_, it, tail, e2, k1, k2, k3⟩
      simp only [e2]
      have hb : ((it :: tail).getLast (List.cons_ne_nil it tail)).end_ = endOf it.end_ tail :=
        getLast_end (it :: tail) 0 (List.cons_ne_nil it tail)
      unfold check_map
      simp only [hb]
      rw [if_neg (by omega)]
      exact (check_flush_iff tail it.end_).mpr k2
    · intro h
      have h2 := complete_loop_false chrom d (rest ++ post) first.end_ h
      apply overlaps_of_hasOverlap
      rcases hpost with ⟨rfl, -⟩ | ⟨rfl, -⟩
      · rw [List.append_nil] at h2; exact h2
      · exact hasOverlap_append _ rest first.end_ rfl h2

/-- C37 on two maps for the range `[0, 10]`: the map with a gap is completed
to five flush regions and passes `check_map`; the map with an overlap is
refused. -/
theorem C37_scenario :
    complete_map trackGap chrName 0 10 0 =
      ([⟨chrName, 0, 2, 0⟩, ⟨chrName, 2, 4, 1⟩, ⟨chrName, 4, 6, 0⟩, ⟨chrName, 6, 8, 3⟩,
        ⟨chrName, 8, 10, 0⟩], true) ∧
    check_map (complete_map trackGap chrName 0 10 0).1 0 10 = true ∧
    check_map trackGap 0 10 = false ∧
    (complete_map trackOverlap chrName 0 10 0).2 = false := by
  decide

/-- The theorem `C37_complete_map_flush` on the map with a gap, which is
completed, and on the map with an overlap, which is refused. -/
theorem C37_complete_map_flush_witness :
    (complete_map trackGap chrName 0 10 0).2 = true ∧
    (check_map (complete_map trackGap chrName 0 10 0).1 0 10 = true ∧
      ∃ first rest, (complete_map trackGap chrName 0 10 0).1 = first :: rest ∧
        first.start ≤ 0 ∧ Flush first.end_ rest ∧ 10 ≤ endOf first.end_ rest) ∧
    (complete_map trackOverlap chrName 0 10 0).2 = false ∧ Overlaps trackOverlap :=
  ⟨by decide, (C37_complete_map_flush trackGap chrName 0 10 0).1 (by decide), by decide,
    (C37_complete_map_flush trackOverlap chrName 0 10 0).2 (by decide)⟩

/-- C40: the sliding windows of `resample_arg_regions`.  For every ARG with
`start_coord < end_coord` and every window size `currwindow >= 2` (with a call
`resample_arg_region` that keeps the coordinates of the ARG): the loop
terminates, every window passed to `resample_arg_region` is
`[start, min(start + currwindow, end_coord))`, and every site in
`[start_coord, end_coord - 1)` lies in at least one window; so does the last
site `end_coord - 1` when `currwindow` is odd. -/
theorem C40_windows_cover (region : LocalTrees → Int → Int → LocalTrees × ℚ)
    (currwindow : Int) (trees : LocalTrees) (hw : 2 ≤ currwindow)
    (hlt : trees.start_coord < trees.end_coord)
    (hcoords : ∀ t a b, (region t a b).1.start_coord = t.start_coord ∧
      (region t a b).1.end_coord = t.end_coord) :
    ∃ r, resample_arg_regions region currwindow trees = some r ∧
      (∀ w ∈ r.2.2, trees.start_coord ≤ w.1 ∧ w.2 = min (w.1 + currwindow) trees.end_coord) ∧
      (∀ x : Int, trees.start_coord ≤ x → x < trees.end_coord - 1 →
        ∃ w ∈ r.2.2, w.1 ≤ x ∧ x < w.2) ∧
      (currwindow % 2 = 1 → ∀ x : Int, trees.start_coord ≤ x → x < trees.end_coord →
        ∃ w ∈ r.2.2, w.1 ≤ x ∧ x < w.2) := by
  obtain ⟨r, e1, e2, start, e3, e4⟩ := regions_loop_spec region currwindow trees hw hlt hcoords
  refine ⟨r, e1, e2, ?_, ?_⟩
  · intro x x0 x1
    exact e4 x x0 (by omega)
  · intro hodd x x0 x1
    exact e4 x x0 (by omega)

/-- The theorem `C40_windows_cover` on the ARG with the coordinates `[0, 5)`
and the window size 3: the windows are `[0, 3)` and `[2, 5)`. -/
theorem C40_windows_cover_witness :
    (2 : Int) ≤ 3 ∧ argFive.start_coord < argFive.end_coord ∧
    (resample_arg_regions regionKeep 3 argFive).map (fun r => r.2.2) =
      some [(0, 3), (2, 5)] ∧
    ∃ r, resample_arg_regions regionKeep 3 argFive = some r ∧
      (∀ w ∈ r.2.2, argFive.start_coord ≤ w.1 ∧ w.2 = min (w.1 + 3) argFive.end_coord) ∧
      (∀ x : Int, argFive.start_coord ≤ x → x < argFive.end_coord - 1 →
        ∃ w ∈ r.2.2, w.1 ≤ x ∧ x < w.2) ∧
      ((3 : Int) % 2 = 1 → ∀ x : Int, argFive.start_coord ≤ x → x < argFive.end_coord →
        ∃ w ∈ r.2.2, w.1 ≤ x ∧ x < w.2) :=
  ⟨by decide, by decide, by decide,
    C40_windows_cover regionKeep 3 argFive (by decide) (by decide)
      (fun _ _ _ => ⟨rfl, rfl⟩)⟩

/-- C40, counterexample: on the ARG with the coordinates `[0, 5)` and the
window size 4 the only window is `[0, 4)`: the next start is 3, and
`3 + 4/2 < 5` fails.  The site 4 lies in no window. -/
theorem C40_counterexample :
    (2 : Int) ≤ 4 ∧ argFive.start_coord < argFive.end_coord ∧
    (resample_arg_regions regionKeep 4 argFive).map (fun r => r.2.2) = some [(0, 4)] ∧
    argFive.start_coord ≤ 4 ∧ 4 < argFive.end_coord ∧
    ¬ ∃ w ∈ [((0 : Int), (4 : Int))], w.1 ≤ 4 ∧ 4 < w.2 := by
  decide

/-- Claim C32, the part that holds on small inputs: an unclosed `(` is
reported.  On the strings `(` and `((0,1)2` the function `parse_local_tree`
returns false, and on the balanced string `(0,1)2;` it returns true. -/
theorem C32_parse_local_tree_unclosed :
    (parse_local_tree ['('] treeEmpty3 [0, 1, 2] 3 scanDigit noAge noPopPath).map Prod.fst
      = some false ∧
    (parse_local_tree ['(', '(', '0', ',', '1', ')', '2'] treeEmpty3 [0, 1, 2] 3
      scanDigit noAge noPopPath).map Prod.fst = some false ∧
    (parse_local_tree ['(', '0', ',', '1', ')', '2', ';'] treeEmpty3 [0, 1, 2] 3
      scanDigit noAge noPopPath).map Prod.fst = some true := by
  refine ⟨?_, ?_, ?_⟩ <;> decide

/-- Claim C32, where the code departs from it: on the string `)` the function
`parse_local_tree` takes the back of the empty node stack, and on the string
`0;` it reads the character before the start of the string; both runs abort in
the model instead of returning false.  The same happens for a `)` with no
matching `(` after a complete tree, `(0,1)2)`. -/
theorem C32_counterexample :
    parse_local_tree [')'] treeEmpty3 [0, 1, 2] 3 scanDigit noAge noPopPath = none ∧
    parse_local_tree ['0', ';'] treeEmpty3 [0, 1, 2] 3 scanDigit noAge noPopPath = none ∧
    parse_local_tree ['(', '0', ',', '1', ')', '2', ')'] treeEmpty3 [0, 1, 2] 3
      scanDigit noAge noPopPath = none := by
  refine ⟨?_, ?_, ?_⟩ <;> decide

/-- Claim C31: each forward column is renormalised.  For a previous column
`col1`, a switch matrix and an emission vector whose arrays hold the states
(at least `max(nstates1, 1)` resp. `max(nstates2, 1)` entries, deterministic
targets that are -1 or states of the new block, and no state that is both a
recombination source and a recoalescence source, which the function asserts),
`arghmm_forward_switch` reaches the assertion on the normaliser with an
unnormalised column `u` and `norm` the sum of its entries; when `norm` is zero
the call aborts, and otherwise it writes a column whose entries are those of
`u` divided by `norm` and sum to exactly 1. -/
theorem C31_forward_switch_normalised (col1 col2 : List ℚ) (matrix : TransMatrixSwitch)
    (emit : List ℚ)
    (h1 : max matrix.nstates1 1 ≤ col1.length) (h2 : max matrix.nstates2 1 ≤ col2.length)
    (he : max matrix.nstates2 1 ≤ emit.length)
    (hd : max matrix.nstates1 1 ≤ matrix.determ.length)
    (hp : max matrix.nstates1 1 ≤ matrix.determprob.length)
    (hr : max matrix.nstates1 1 ≤ matrix.recombsrc.length)
    (hc : max matrix.nstates1 1 ≤ matrix.recoalsrc.length)
    (hk : ∀ j : Int, 0 ≤ j → j < max matrix.nstates1 1 →
      readAt matrix.determ j = -1 ∨
        (0 ≤ readAt matrix.determ j ∧ readAt matrix.determ j < max matrix.nstates2 1))
    (hx : ∀ j : Int, 0 ≤ j → j < max matrix.nstates1 1 →
      readAt matrix.recombsrc j < 0 ∨ readAt matrix.recoalsrc j < 0) :
    ∃ u norm, forward_switch_unnorm col1 col2 matrix emit = some (u, norm) ∧
      norm = columnSum (max matrix.nstates2 1) u ∧
      (norm = 0 → arghmm_forward_switch col1 col2 matrix emit = none) ∧
      (norm ≠ 0 → ∃ c, arghmm_forward_switch col1 col2 matrix emit = some c ∧
        c.length = col2.length ∧
        (∀ k : Int, 0 ≤ k → k < max matrix.nstates2 1 → readAt c k = readAt u k / norm) ∧
        columnSum (max matrix.nstates2 1) c = 1) := by
  obtain ⟨u, norm, a1, a2, a3⟩ :=
    forward_switch_unnorm_spec col1 col2 matrix emit h1 h2 he hd hp hr hc hk hx
  refine ⟨u, norm, a1, a3, ?_, ?_⟩
  · intro h0
    unfold arghmm_forward_switch
    simp only [a1, Option.some_bind, assertion, h0, ne_eq, not_true_eq_false, decide_False,
      Bool.false_eq_true, if_false, Option.none_bind]
  · intro hne
    obtain ⟨c, b1, b2, b3⟩ :=
      forward_switch_divide (max matrix.nstates2 1) u norm (by omega)
    refine ⟨c, ?_, by omega, b3, ?_⟩
    · unfold arghmm_forward_switch
      simp only [a1, Option.some_bind, assertion, ne_eq, hne, not_false_eq_true, decide_True,
        if_true]
      exact b1
    · have e : columnSum (max matrix.nstates2 1) c
          = columnSum (max matrix.nstates2 1) u / norm := by
        unfold columnSum
        rw [← sum_map_div]
        congr 1
        apply List.map_congr_left
        intro k hk
        rw [List.mem_range] at hk
        exact b3 k (by omega) (by omega)
      rw [e, ← a3]
      exact div_self hne

/-- Claim C31 on an example: two states, one deterministic transition and one
recombination source; the unnormalised column is (1/8, 1/12) and the column
written is (3/5, 2/5). -/
theorem C31_forward_switch_normalised_witness :
    forward_switch_unnorm [1 / 4, 3 / 4] [5, 7] switchTwo [1 / 2, 1 / 3]
        = some ([1 / 8, 1 / 12], 5 / 24) ∧
      arghmm_forward_switch [1 / 4, 3 / 4] [5, 7] switchTwo [1 / 2, 1 / 3]
        = some [3 / 5, 2 / 5] ∧
      ∃ u norm, forward_switch_unnorm [1 / 4, 3 / 4] [5, 7] switchTwo [1 / 2, 1 / 3]
          = some (u, norm) ∧
        norm = columnSum (max switchTwo.nstates2 1) u ∧
        (norm = 0 → arghmm_forward_switch [1 / 4, 3 / 4] [5, 7] switchTwo [1 / 2, 1 / 3]
          = none) ∧
        (norm ≠ 0 → ∃ c, arghmm_forward_switch [1 / 4, 3 / 4] [5, 7] switchTwo [1 / 2, 1 / 3]
            = some c ∧
          c.length = [(5 : ℚ), 7].length ∧
          (∀ k : Int, 0 ≤ k → k < max switchTwo.nstates2 1 → readAt c k = readAt u k / norm) ∧
          columnSum (max switchTwo.nstates2 1) c = 1) :=
  ⟨by decide!, by decide!,
    C31_forward_switch_normalised [1 / 4, 3 / 4] [5, 7] switchTwo [1 / 2, 1 / 3]
      (by decide) (by decide) (by decide) (by decide) (by decide) (by decide) (by decide)
      (by
        intro j j0 j1
        have hj : j = 0 ∨ j = 1 := by
          have : j < 2 := j1
          omega
        rcases hj with rfl | rfl
        · right; decide
        · left; decide)
      (by
        intro j j0 j1
        have hj : j = 0 ∨ j = 1 := by
          have : j < 2 := j1
          omega
        rcases hj with rfl | rfl
        · left; decide
        · right; decide)⟩

/-- Claim C36: `get_postorder` returns a postorder traversal.  For every
well-formed binary tree whose leaves occupy the first slots and every array
`order` with room for `nnodes` entries, whatever it holds (also when no entry
has been written), the call runs through, so the loop "add the remaining
nodes" never reads an entry of `order` that has not been written; the first
`nnodes` entries written are a permutation `w` of the nodes `0 .. nnodes-1` in
which every internal node stands after both of its children and the last entry
is the root, and `assert_tree_postorder` returns true on the result. -/
theorem C36_get_postorder (t : LocalTree) (order : List (Option Int)) (hwf : WellFormed t)
    (hleaves : ∀ i j : Int, 0 ≤ i → i ≤ j → j < t.nnodes → (t.node j).child0 = -1 →
      (t.node i).child0 = -1)
    (hcap : t.nnodes ≤ order.length) :
    ∃ (out : List (Option Int)) (w : List Int), t.get_postorder order = some out ∧
      out.take t.nnodes.toNat = w.map some ∧
      w.Perm (nodeRange t.nnodes) ∧
      (∀ (k : Nat) (x : Int), w[k]? = some x → (t.node x).child0 ≠ -1 →
        (t.node x).child0 ∈ w.take k ∧ (t.node x).child1 ∈ w.take k) ∧
      w.getLast? = some t.root ∧
      assert_tree_postorder t out = some true := by
  obtain ⟨out, w, a1, a2, a3, a4, a5, a6, a7⟩ := get_postorder_spec t order hwf hleaves hcap
  have hperm := nodes_perm t.nnodes w a5 (fun x hx => a6 x hx) (by omega)
  have hall : ∀ x : Int, t.isNode x ↔ x ∈ w := by
    intro x
    rw [hperm.mem_iff, mem_nodeRange]
    rfl
  have hlast := postorder_last_root t hwf w a5 hall a7
  have hroot := hwf.2.1
  have hn1 : 0 < t.nnodes.toNat := by have := hroot.1; have := hroot.2; omega
  have hcap2 : t.nnodes.toNat ≤ out.length := by omega
  refine ⟨out, w, a1, ?_, hperm, a7, hlast, ?_⟩
  · apply List.ext_getElem?
    intro k
    rw [List.getElem?_take, List.getElem?_map]
    by_cases hk : k < t.nnodes.toNat
    · rw [if_pos hk]
      have hr := a4 k (by omega)
      have hk2 : k < out.length := by omega
      have e1 : readAt out (k : Int) = out[k] := by
        unfold readAt
        rw [if_pos (by omega), List.getD_eq_getElem?_getD]
        simp [List.getElem?_eq_getElem hk2]
      rw [e1] at hr
      rw [List.getElem?_eq_getElem hk2, hr]
      have hk3 : k < w.length := by omega
      rw [List.getElem?_eq_getElem hk3]
      rfl
    · rw [if_neg hk, List.getElem?_eq_none (by omega)]
      rfl
  · unfold assert_tree_postorder
    have hl2 : w[t.nnodes.toNat - 1]? = some t.root := by
      rw [← hlast, List.getLast?_eq_getElem?, a3]
    have hord : readOrder out (t.nnodes - 1) = some t.root := by
      have e : t.nnodes - 1 = ((t.nnodes.toNat - 1 : Nat) : Int) := by omega
      rw [e]
      exact readOrder_eq _ _ ⟨by omega, by omega⟩ _ (by rw [a4 _ (by omega), hl2])
    rw [hord]
    simp only [Option.some_bind, ne_eq, not_true_eq_false, if_false]
    rw [List.range_eq_range']
    exact assert_postorder_loop_true t hwf out w a3 (by omega) a4 a6 a7 t.nnodes.toNat 0
      (List.replicate t.nnodes.toNat false) (by omega) (by simp) (fun x hx => by
        rw [readAt_replicate_false]; simp)

/-- Claim C36 on the tree `((0,1)3,2)4`, with an array `order` in which no
entry has been written: the postorder is 0, 1, 2, 3, 4. -/
theorem C36_get_postorder_witness :
    tree5.get_postorder (List.replicate 5 none)
        = some [some 0, some 1, some 2, some 3, some 4] ∧
      ∃ (out : List (Option Int)) (w : List Int),
        tree5.get_postorder (List.replicate 5 none) = some out ∧
        out.take tree5.nnodes.toNat = w.map some ∧
        w.Perm (nodeRange tree5.nnodes) ∧
        (∀ (k : Nat) (x : Int), w[k]? = some x → (tree5.node x).child0 ≠ -1 →
          (tree5.node x).child0 ∈ w.take k ∧ (tree5.node x).child1 ∈ w.take k) ∧
        w.getLast? = some tree5.root ∧
        assert_tree_postorder tree5 out = some true :=
  ⟨by decide,
    C36_get_postorder tree5 (List.replicate 5 none) (by decide)
      (by
        intro i j h0 h1 h2
        have h3 : j < 5 := h2
        have h4 : 0 ≤ j := le_trans h0 h1
        interval_cases j <;> interval_cases i <;> decide)
      (by decide)⟩

/-- Claim C39: `sample_arg_removal_path` returns a valid removal path through
the requested point.  For every valid ARG (consistent tuples whose roots follow
each other, block lengths that add up to the span), every node, every `pos` in
`[start_coord, end_coord)`, every outcome `coins` of the random choices and
every array `path` with room for one entry per local tree, the call returns;
the block `b` found holds `pos`, `path[b]` is `node`, the first `ntrees`
entries are nodes and the others are untouched, and for every consecutive pair
of trees `path[k+1]` is one of the next removal nodes of `path[k]`, in the
part sampled backward as well as in the part sampled forward. -/
theorem C39_sample_arg_removal_path (coins : Int → Bool) (trees : LocalTrees) (node pos : Int)
    (path : List Int) (hvalid : PathArg trees)
    (hsum : sumBlocklen trees.trees = trees.end_coord - trees.start_coord)
    (hnode : 0 ≤ node ∧ node < trees.nnodes)
    (hpos : trees.start_coord ≤ pos ∧ pos < trees.end_coord)
    (hcap : trees.trees.length ≤ path.length) :
    ∃ (out : List Int) (b : Nat),
      sample_arg_removal_path coins trees node pos path = some out ∧
      out.length = path.length ∧ b < trees.trees.length ∧
      trees.start_coord + sumBlocklen (trees.trees.take b) ≤ pos ∧
      pos < trees.start_coord + sumBlocklen (trees.trees.take (b + 1)) ∧
      readAt out (b : Int) = node ∧
      (∀ j : Int, 0 ≤ j → j < trees.trees.length →
        0 ≤ readAt out j ∧ readAt out j < trees.nnodes) ∧
      (∀ j : Int, (trees.trees.length : Int) ≤ j → readAt out j = readAt path j) ∧
      (∀ (k : Nat) (t1 t2 : LocalTreeSpr), trees.trees[k]? = some t1 →
        trees.trees[k + 1]? = some t2 →
        nextAcross t1.tree t2 (readAt out (k : Int)) (readAt out ((k : Int) + 1)) = true) := by
  obtain ⟨b, hb0, hb1, hb2, hb3⟩ := find_path_block_spec pos trees.trees trees.start_coord 0
    hpos.1 (by rw [hsum]; omega)
  rw [zero_add] at hb0
  -- the first tree and the tuples after it
  obtain ⟨t0, rest0, hl, hpt⟩ : ∃ t0 rest0, trees.trees = t0 :: rest0 ∧
      PathTuples trees.nnodes t0.tree rest0 := by
    unfold PathArg at hvalid
    cases hl : trees.trees with
    | nil => rw [hl] at hvalid; exact absurd hvalid (fun h => h)
    | cons t0 rest0 => rw [hl] at hvalid; exact ⟨t0, rest0, rfl, hvalid⟩
  obtain ⟨first, rest, hdrop⟩ : ∃ first rest, trees.trees.drop b = first :: rest := by
    cases hd : trees.trees.drop b with
    | nil => rw [List.drop_eq_nil_iff] at hd; omega
    | cons first rest => exact ⟨first, rest, rfl⟩
  have hrestlen : rest.length + b + 1 = trees.trees.length := by
    have := congrArg List.length hdrop
    rw [List.length_drop, List.length_cons] at this
    omega
  have hptf : PathTuples trees.nnodes first.tree rest :=
    pathTuples_drop trees.nnodes b rest0 t0 first rest hpt (by rw [← hl]; exact hdrop)
  have hbin : inArr path (b : Int) := ⟨by omega, by omega⟩
  -- forward
  obtain ⟨out1, f1, f2, f3, f4, f5, f6⟩ := removal_forward_loop_spec coins trees.nnodes rest
    first (updAt path b node) ((b : Int) + 1) hptf (by omega)
    (by rw [length_updAt]; omega) (by
      have : (b : Int) + 1 - 1 = b := by omega
      rw [this, readAt_updAt_of_inArr _ _ _ _ hbin, if_pos rfl]
      exact hnode)
  have hfw : sample_arg_removal_path_forward coins trees b node path b = some out1 := by
    unfold sample_arg_removal_path_forward
    rw [setAt_eq _ hbin]
    simp only [Option.some_bind, hdrop, f1, Option.map_some']
  have hout1b : readAt out1 (b : Int) = node := by
    rw [f3 b (by omega), readAt_updAt_of_inArr _ _ _ _ hbin, if_pos rfl]
  -- backward
  have hbin1 : inArr out1 (b : Int) := ⟨by omega, by rw [f2, length_updAt]; omega⟩
  have hcur : first :: (trees.trees.take b).reverse = (trees.trees.take (b + 1)).reverse :=
    reverse_take_cons trees.trees b first rest hdrop
  have hidx : ∀ (k : Nat) (t1 t2 : LocalTreeSpr),
      (first :: (trees.trees.take b).reverse)[k + 1]? = some t1 →
      (first :: (trees.trees.take b).reverse)[k]? = some t2 →
      k + 1 ≤ b ∧ trees.trees[b - (k + 1)]? = some t1 ∧
        trees.trees[b - (k + 1) + 1]? = some t2 := by
    intro k t1 t2 h1 h2
    rw [hcur, reverse_take_index _ _ _ hb1] at h1 h2
    by_cases hk : k + 1 ≤ b
    · rw [if_pos hk] at h1
      rw [if_pos (by omega)] at h2
      have : b - (k + 1) + 1 = b - k := by omega
      rw [this]
      exact ⟨hk, h1, h2⟩
    · rw [if_neg hk] at h1
      exact absurd h1 (by simp)
  obtain ⟨out2, g1, g2, g3, g4, g5⟩ := removal_backward_loop_spec coins trees.nnodes
    (trees.trees.take b).reverse first (updAt out1 b node) ((b : Int) - 1)
    (by
      intro k t1 t2 h1 h2
      obtain ⟨-, e1, e2⟩ := hidx k t1 t2 h1 h2
      rw [hl] at e1 e2
      exact pathTuples_index trees.nnodes rest0 t0 hpt _ t1 t2 e1 e2)
    (by rw [List.length_reverse, List.length_take]; omega)
    (by rw [length_updAt, f2, length_updAt]; omega) (by
      have : (b : Int) - 1 + 1 = b := by omega
      rw [this, readAt_updAt_of_inArr _ _ _ _ hbin1, if_pos rfl]
      exact hnode)
  have hbw : sample_arg_removal_path_backward coins trees b node out1 b = some out2 := by
    unfold sample_arg_removal_path_backward
    rw [setAt_eq _ hbin1]
    simp only [Option.some_bind, hdrop, g1, Option.map_some']
  have hout2 : ∀ j : Int, (b : Int) ≤ j → readAt out2 j = readAt out1 j := by
    intro j hj
    rw [g3 j (by omega), readAt_updAt_of_inArr _ _ _ _ hbin1]
    by_cases hjb : j = b
    · rw [if_pos hjb, hjb, hout1b]
    · rw [if_neg hjb]
  refine ⟨out2, b, ?_, ?_, hb1, hb2, hb3, ?_, ?_, ?_, ?_⟩
  · unfold sample_arg_removal_path
    simp only [hb0, hfw, Option.some_bind, hbw]
  · rw [g2, length_updAt, f2, length_updAt]
  · rw [hout2 b (le_refl _), hout1b]
  · intro j j0 j1
    by_cases hjb : j < b
    · exact g4 j j0 (by omega)
    · rw [hout2 j (by omega)]
      by_cases hjb2 : j = b
      · rw [hjb2, hout1b]; exact hnode
      · exact f5 j (by omega) (by omega)
  · intro j hj
    rw [hout2 j (by omega), f4 j (by omega), readAt_updAt_of_inArr _ _ _ _ hbin,
      if_neg (by omega)]
  · intro k t1 t2 h1 h2
    by_cases hkb : k + 1 ≤ b
    · -- the part sampled backward
      have e1 : (first :: (trees.trees.take b).reverse)[(b - 1 - k) + 1]? = some t1 := by
        rw [hcur, reverse_take_index _ _ _ hb1, if_pos (by omega)]
        have : b - (b - 1 - k + 1) = k := by omega
        rw [this]; exact h1
      have e2 : (first :: (trees.trees.take b).reverse)[b - 1 - k]? = some t2 := by
        rw [hcur, reverse_take_index _ _ _ hb1, if_pos (by omega)]
        have : b - (b - 1 - k) = k + 1 := by omega
        rw [this]; exact h2
      have := g5 (b - 1 - k) t1 t2 e1 e2
      have c1 : (b : Int) - 1 - ((b - 1 - k : Nat) : Int) = k := by omega
      have c2 : (b : Int) - 1 + 1 - ((b - 1 - k : Nat) : Int) = (k : Int) + 1 := by omega
      rw [c1, c2] at this
      exact this
    · -- the part sampled forward
      have e1 : (first :: rest)[k - b]? = some t1 := by
        rw [← hdrop, List.getElem?_drop]
        have : b + (k - b) = k := by omega
        rw [this]; exact h1
      have e2 : (first :: rest)[k - b + 1]? = some t2 := by
        rw [← hdrop, List.getElem?_drop]
        have : b + (k - b + 1) = k + 1 := by omega
        rw [this]; exact h2
      have := f6 (k - b) t1 t2 e1 e2
      have c1 : (b : Int) + 1 - 1 + ((k - b : Nat) : Int) = k := by omega
      have c2 : (b : Int) + 1 + ((k - b : Nat) : Int) = (k : Int) + 1 := by omega
      rw [c1, c2] at this
      rw [hout2 k (by omega), hout2 _ (by omega)]
      exact this

/-- Claim C39 on an ARG of five trees on three nodes, through the root at
position 2, with every random choice coming up "stay": the path is
1, 1, 2, 1, 1. -/
theorem C39_sample_arg_removal_path_witness :
    sample_arg_removal_path (fun _ => false) (fibArg 4) 2 2 [9, 9, 9, 9, 9, 9]
        = some [1, 1, 2, 1, 1, 9] ∧
      ∃ (out : List Int) (b : Nat),
        sample_arg_removal_path (fun _ => false) (fibArg 4) 2 2 [9, 9, 9, 9, 9, 9] = some out ∧
        out.length = [(9 : Int), 9, 9, 9, 9, 9].length ∧ b < (fibArg 4).trees.length ∧
        (fibArg 4).start_coord + sumBlocklen ((fibArg 4).trees.take b) ≤ 2 ∧
        2 < (fibArg 4).start_coord + sumBlocklen ((fibArg 4).trees.take (b + 1)) ∧
        readAt out (b : Int) = 2 ∧
        (∀ j : Int, 0 ≤ j → j < (fibArg 4).trees.length →
          0 ≤ readAt out j ∧ readAt out j < (fibArg 4).nnodes) ∧
        (∀ j : Int, ((fibArg 4).trees.length : Int) ≤ j →
          readAt out j = readAt [(9 : Int), 9, 9, 9, 9, 9] j) ∧
        (∀ (k : Nat) (t1 t2 : LocalTreeSpr), (fibArg 4).trees[k]? = some t1 →
          (fibArg 4).trees[k + 1]? = some t2 →
          nextAcross t1.tree t2 (readAt out (k : Int)) (readAt out ((k : Int) + 1)) = true) :=
  ⟨by decide,
    C39_sample_arg_removal_path (fun _ => false) (fibArg 4) 2 2 [9, 9, 9, 9, 9, 9]
      (by decide) (by decide) (by decide) (by decide) (by decide)⟩

/-- Claim C35: partition followed by append is the identity.  For every valid
ARG without population model and with pairwise distinct ids of the sequences,
and every `pos` with `start_coord <= pos <= end_coord`, the call
`partition_local_trees(trees, pos, true)` followed by
`append_local_trees(trees, trees2, true, NULL)` returns; it leaves `trees`
with the original `chrom`, `start_coord`, `end_coord`, `nnodes` and `seqids`
and with the original sequence of tuples (the same tree, SPR and block length,
and the same mapping on the nodes), and it leaves `trees2` empty. -/
theorem C35_partition_then_append (trees : LocalTrees) (pos : Int) (hv : AppendArg trees)
    (hpos : trees.start_coord ≤ pos ∧ pos ≤ trees.end_coord) :
    ∃ t t2, partition_append trees pos = some (t, t2) ∧ SameArg t trees ∧ t2.trees = [] := by
  by_cases h0 : pos = trees.start_coord
  · exact partition_append_start trees pos h0
  by_cases h1 : pos = trees.end_coord
  · exact partition_append_end trees pos h0 h1
  exact partition_append_inside trees pos hv (by omega) (by omega)

/-- Claim C35 on an ARG of two blocks `[0, 4)` and `[4, 10)`, cut at 7: the
blocks have the lengths 4 and 6 again, and the second list is empty. -/
theorem C35_partition_then_append_witness :
    (partition_append argTwo 7).map
        (fun r => (r.1.start_coord, r.1.end_coord, r.1.trees.map (fun x => x.blocklen),
          r.2.trees.length)) = some (0, 10, [4, 6], 0) ∧
      ∃ t t2, partition_append argTwo 7 = some (t, t2) ∧ SameArg t argTwo ∧ t2.trees = [] :=
  ⟨by decide,
    C35_partition_then_append argTwo 7
      ⟨⟨by decide, by decide, by decide, by
          intro x hx
          have hx2 : x = ⟨treeB5, ⟨0, 5, 1, 8, 0⟩, some [0, 1, -1, 0, 0], 6⟩ := by
            simpa using hx
          subst hx2
          exact ⟨by decide, _, rfl, by decide⟩⟩,
        ⟨by decide, by decide, by
          intro x hx
          have hx2 : x = ⟨treeB5, ⟨0, 5, 1, 8, 0⟩, some [0, 1, -1, 0, 0], 6⟩ := by
            simpa using hx
          subst hx2
          decide⟩,
        by decide, by decide, by decide, by decide, by decide⟩
      (by decide)⟩

end argweaver
